import Mathlib

/-!
# libmedia-buffers: pooled memory chunks, the non-blocking read/write lock and frames

A shallow embedding of `src/mbuf_utils.c`, `src/mbuf_mem.c`,
`src/mbuf_ancillary_data.c`, `src/mbuf_base_frame.c`, `src/mbuf_audio_frame.c`,
`src/mbuf_raw_video_frame.c`, `src/mbuf_coded_video_frame.c` and the heap
implementation of `implem/generic/src/mbuf_mem_generic.c`.

Conventions of the embedding.

* A C `int` is an `Int` kept in the range of 32 bits by `wrap_int` (the sum
  `INT_MAX + 1`, which C leaves undefined, is read as the two's complement
  wrap); an `atomic_uint` is a `Nat` kept below `2 ^ 32` by `wrap_uint`.  The
  `size_t` counters of a pool are `Nat`: an increment counts one more linked
  chunk and stays far below `2 ^ 64`, a decrement of 0 wraps (`size_dec`).
* The code is read sequentially: an atomic load followed by a compare and
  exchange on the value just loaded succeeds, except that the weak form may
  fail spuriously.  A spurious failure is an input of the model, and the retry
  loops of the source take the number of spurious failures as an argument.
* What the C library and an implementation hook return (a failed `calloc`, the
  return value of `alloc` or `pool_get`) is an input of the model too, as is
  what the metadata library returns.
* A frame is a value that a function takes and hands back; the chunks and the
  ancillary data objects live in heaps addressed by numbers, and a call on a
  pointer to no live object has no defined result (`none`).
-/

namespace Mbuf

/-! ## Definitions -/

/-! ### Constants of `<errno.h>`

The sources include the system header; the values are those of Linux.  The
theorems only use that the five values are positive and distinct. -/

def EAGAIN : Int := 11
def ENOMEM : Int := 12
def EBUSY : Int := 16
def EINVAL : Int := 22
def EALREADY : Int := 114

/-! ### Machine integers and atomics -/

/-- Value of a C `int` after an arithmetic result is stored in 32 bits
(two's complement). -/
def wrap_int (x : Int) : Int := (x + 2 ^ 31) % 2 ^ 32 - 2 ^ 31

/-- Value of a C `unsigned int` after an arithmetic result is stored. -/
def wrap_uint (x : Nat) : Nat := x % 2 ^ 32

def INT_MAX : Int := 2 ^ 31 - 1
def INT_MIN : Int := -(2 ^ 31)
def UINT_MAX : Nat := 2 ^ 32 - 1

/-- Sequential reading of `atomic_compare_exchange_strong(obj, &expected,
desired)`: the result is the returned flag, the new value of `*obj` and the new
value of `expected`. -/
def atomic_compare_exchange_strong {α : Type} [DecidableEq α]
    (obj expected desired : α) : Bool × α × α :=
  if obj = expected then (true, desired, expected) else (false, obj, obj)

/-- The weak form of the compare and exchange: as the strong one, but it may
fail although `*obj = expected`; `spurious` says that it does. -/
def atomic_compare_exchange_weak {α : Type} [DecidableEq α]
    (spurious : Bool) (obj expected desired : α) : Bool × α × α :=
  if spurious then (false, obj, obj)
  else atomic_compare_exchange_strong obj expected desired

/-! ### `mbuf_utils.c`: the read/write lock

The lock is one `atomic_int`; a function returns its return value and the new
value of the lock. -/

def RWLOCK_WRLOCKED : Int := -1
def RWLOCK_FREE : Int := 0

def mbuf_rwlock_init (_lock : Int) : Int := RWLOCK_FREE

def mbuf_rwlock_is_wrlocked (lock : Int) : Bool := lock = RWLOCK_WRLOCKED

def mbuf_rwlock_is_free (lock : Int) : Bool := lock = RWLOCK_FREE

def mbuf_rwlock_is_rdlocked (lock : Int) : Bool := decide (lock > RWLOCK_FREE)

def mbuf_rwlock_get_value (lock : Int) : Int := lock

def mbuf_rwlock_wrlock (lock : Int) : Int × Int :=
  match atomic_compare_exchange_strong lock RWLOCK_FREE RWLOCK_WRLOCKED with
  | (true, lock1, _) => (0, lock1)
  | (false, lock1, zero) =>
    if zero = RWLOCK_WRLOCKED then (-EALREADY, lock1) else (-EBUSY, lock1)

def mbuf_rwlock_wrunlock (lock : Int) : Int × Int :=
  match atomic_compare_exchange_strong lock RWLOCK_WRLOCKED RWLOCK_FREE with
  | (true, lock1, _) => (0, lock1)
  | (false, lock1, wrlocked) =>
    if wrlocked = RWLOCK_FREE then (-EALREADY, lock1) else (-EBUSY, lock1)

/-- The loop of `mbuf_rwlock_rdlock`; the weak compare and exchange fails
spuriously in the first `spurious` iterations. -/
def mbuf_rwlock_rdlock : (spurious : Nat) → (lock : Int) → Int × Int
  | spurious, lock =>
    let curr := lock
    if curr = RWLOCK_WRLOCKED then (-EBUSY, lock)
    else
      let next := wrap_int (curr + 1)
      match spurious with
      | 0 =>
        match atomic_compare_exchange_weak false lock curr next with
        | (_, lock1, _) => (0, lock1)
      | n + 1 =>
        match atomic_compare_exchange_weak true lock curr next with
        | (_, lock1, _) => mbuf_rwlock_rdlock n lock1

/-- The loop of `mbuf_rwlock_rdunlock`; the weak compare and exchange fails
spuriously in the first `spurious` iterations. -/
def mbuf_rwlock_rdunlock : (spurious : Nat) → (lock : Int) → Int × Int
  | spurious, lock =>
    let curr := lock
    if curr ≤ RWLOCK_FREE then (-EALREADY, lock)
    else
      let next := wrap_int (curr - 1)
      match spurious with
      | 0 =>
        match atomic_compare_exchange_weak false lock curr next with
        | (_, lock1, _) => (0, lock1)
      | n + 1 =>
        match atomic_compare_exchange_weak true lock curr next with
        | (_, lock1, _) => mbuf_rwlock_rdunlock n lock1

/-- The lock after `n` calls of `mbuf_rwlock_rdlock`, with the return values
in call order; `sp i` is the number of spurious failures in call `i`. -/
def rdlock_n (sp : Nat → Nat) : Nat → Int → List Int × Int
  | 0, lock => ([], lock)
  | n + 1, lock =>
    let r := rdlock_n sp n lock
    let c := mbuf_rwlock_rdlock (sp n) r.2
    (r.1 ++ [c.1], c.2)

/-- The lock after `n` calls of `mbuf_rwlock_rdunlock`, with the return values
in call order. -/
def rdunlock_n (sp : Nat → Nat) : Nat → Int → List Int × Int
  | 0, lock => ([], lock)
  | n + 1, lock =>
    let r := rdunlock_n sp n lock
    let c := mbuf_rwlock_rdunlock (sp n) r.2
    (r.1 ++ [c.1], c.2)

/-! ### `mbuf_mem.h`, `internal/mbuf_mem_internal.h`: the data model -/

inductive mbuf_pool_grow_policy
  | MBUF_POOL_NO_GROW
  | MBUF_POOL_GROW
  | MBUF_POOL_SMART_GROW
  | MBUF_POOL_LOW_MEM_GROW
  deriving DecidableEq, Repr

open mbuf_pool_grow_policy

/-- The four optional function pointers of `struct mbuf_mem_implem`: a field
is `true` when the pointer is not NULL.  What a hook returns when it is called
is given by an `alloc_env`. -/
structure mbuf_mem_implem where
  alloc : Bool
  pool_get : Bool
  pool_put : Bool
  free : Bool
  deriving DecidableEq, Repr

inductive mem_hook
  | alloc
  | pool_get
  | pool_put
  | free
  deriving DecidableEq, Repr

/-- The type `struct mbuf_mem`.  `addr` is the address of the object, which identifies
it; `pool` says whether `mem->pool` is set; `implem` is `mem->implem`, which
only `mbuf_mem_generic_wrap` sets. -/
structure mbuf_mem where
  addr : Nat
  size : Nat
  implem : Option mbuf_mem_implem
  refcount : Nat
  pool : Bool
  deriving DecidableEq, Repr

/-- The type `struct mbuf_pool`; `memories` lists the chunks linked in the pool, head
first. -/
structure mbuf_pool where
  implem : mbuf_mem_implem
  policy : mbuf_pool_grow_policy
  mem_size : Nat
  initial_mem_count : Nat
  max_mem_count : Nat
  mem_count : Nat
  mem_free : Nat
  memories : List mbuf_mem
  deriving DecidableEq, Repr

/-- The program state seen by `mbuf_mem.c`: one pool, the live chunks that
belong to no pool, the calls made to implementation hooks so far (the most
recent first, each with the address of the chunk it was given), and the next
address `calloc` returns. -/
structure mbuf_state where
  pool : mbuf_pool
  loose : List mbuf_mem
  hook_log : List (mem_hook × Nat)
  next_addr : Nat
  deriving DecidableEq, Repr

/-- What the environment answers during one call that may allocate a chunk:
whether `calloc` of the `struct mbuf_mem` succeeds, and what the `alloc` and
`pool_get` hooks return if they are called. -/
structure alloc_env where
  calloc_ok : Bool
  alloc_ret : Int
  pool_get_ret : Int
  deriving DecidableEq, Repr

/-- What the environment answers during `mbuf_pool_new`: whether `calloc` of
the pool and `strdup` of its name succeed, what `pthread_mutex_init` returns,
and the answers for chunk `i` of the initial allocation loop. -/
structure pool_new_env where
  calloc_ok : Bool
  strdup_ok : Bool
  mutex_init_ret : Int
  chunk : Nat → alloc_env

/-- The decrement `x--` of a `size_t`: below 0 it wraps to `SIZE_MAX`, 64 bits wide. -/
def size_dec (x : Nat) : Nat := if x = 0 then 2 ^ 64 - 1 else x - 1

/-! ### Chunks by address -/

/-- The chunk at address `a` among `l`. -/
def find_mem : List mbuf_mem → Nat → Option mbuf_mem
  | [], _ => none
  | m :: rest, a => if m.addr = a then some m else find_mem rest a

/-- Store `v` in the reference count of the chunk at address `a`. -/
def set_refcount : List mbuf_mem → Nat → Nat → List mbuf_mem
  | [], _, _ => []
  | m :: rest, a, v =>
    if m.addr = a then { m with refcount := v } :: rest
    else m :: set_refcount rest a v

/-- The call `list_del(&mem->node)` for the chunk at address `a`. -/
def list_del : List mbuf_mem → Nat → List mbuf_mem
  | [], _ => []
  | m :: rest, a => if m.addr = a then rest else m :: list_del rest a

/-- The object a `struct mbuf_mem *` of value `a` points to: a chunk linked in
the pool or a live chunk outside it; `none` for a pointer to no live chunk. -/
def mem_at (s : mbuf_state) (a : Nat) : Option mbuf_mem :=
  match find_mem s.pool.memories a with
  | some m => some m
  | none => find_mem s.loose a

/-- A store to `mem->refcount` for the chunk at address `a`. -/
def store_refcount (s : mbuf_state) (a : Nat) (v : Nat) : mbuf_state :=
  match find_mem s.pool.memories a with
  | some _ => { s with pool := { s.pool with memories := set_refcount s.pool.memories a v } }
  | none => { s with loose := set_refcount s.loose a v }

/-! ### `mbuf_mem.c` -/

def call_alloc (implem : mbuf_mem_implem) (env : alloc_env) (mem : mbuf_mem)
    (log : List (mem_hook × Nat)) : Int × List (mem_hook × Nat) :=
  if !implem.alloc then (0, log)
  else (env.alloc_ret, (mem_hook.alloc, mem.addr) :: log)

def call_pool_get (implem : mbuf_mem_implem) (env : alloc_env) (mem : mbuf_mem)
    (log : List (mem_hook × Nat)) : Int × List (mem_hook × Nat) :=
  if !implem.pool_get then (0, log)
  else (env.pool_get_ret, (mem_hook.pool_get, mem.addr) :: log)

def call_pool_put (implem : mbuf_mem_implem) (mem : mbuf_mem)
    (log : List (mem_hook × Nat)) : List (mem_hook × Nat) :=
  if !implem.pool_put then log
  else (mem_hook.pool_put, mem.addr) :: log

def call_free (implem : mbuf_mem_implem) (mem : mbuf_mem)
    (log : List (mem_hook × Nat)) : List (mem_hook × Nat) :=
  if !implem.free then log
  else (mem_hook.free, mem.addr) :: log

/-- The loop of `mbuf_pool_new` over the chunks `i, ..., i + todo - 1`: the
return value and the state reached.  A new chunk is linked at the tail of the
list (`list_add_before` on the head). -/
def mbuf_pool_new_loop (env : Nat → alloc_env) :
    (todo : Nat) → (i : Nat) → mbuf_state → Int × mbuf_state
  | 0, _, s => (0, s)
  | todo + 1, i, s =>
    if !(env i).calloc_ok then (-ENOMEM, s)
    else
      let mem : mbuf_mem :=
        { addr := s.next_addr, size := s.pool.mem_size, implem := none,
          refcount := 0, pool := true }
      match call_alloc s.pool.implem (env i) mem s.hook_log with
      | (ret, log) =>
        if ret ≠ 0 then (ret, { s with next_addr := s.next_addr + 1, hook_log := log })
        else
          mbuf_pool_new_loop env todo (i + 1)
            { s with
              next_addr := s.next_addr + 1
              hook_log := log
              pool := { s.pool with memories := s.pool.memories ++ [mem] } }

/-- The function `mbuf_pool_new`: the return value and, on success, the state
with the new pool (`*ret_obj`).  `implem` is `none` for a NULL pointer and
`ret_obj` is `false` for a NULL pointer.  On failure the pool under
construction is destroyed and nothing is returned. -/
def mbuf_pool_new (env : pool_new_env) (implem : Option mbuf_mem_implem)
    (mem_size mem_count : Nat) (grow_policy : mbuf_pool_grow_policy)
    (max_mem_count : Nat) (ret_obj : Bool) : Int × Option mbuf_state :=
  match implem with
  | none => (-EINVAL, none)
  | some implem =>
    if !ret_obj then (-EINVAL, none)
    else if max_mem_count > 0 ∧ max_mem_count < mem_count then (-EINVAL, none)
    else if !env.calloc_ok then (-ENOMEM, none)
    else
      let pool : mbuf_pool :=
        { implem := implem, policy := grow_policy, mem_size := mem_size,
          initial_mem_count := mem_count, max_mem_count := max_mem_count,
          mem_count := mem_count, mem_free := mem_count, memories := [] }
      if !env.strdup_ok then (-ENOMEM, none)
      else if env.mutex_init_ret ≠ 0 then (-env.mutex_init_ret, none)
      else
        match mbuf_pool_new_loop env.chunk pool.mem_count 0
            { pool := pool, loose := [], hook_log := [], next_addr := 1 } with
        | (ret, s) => if ret ≠ 0 then (ret, none) else (0, some s)

/-- The list walk of `mbuf_pool_get`: the chunks before the first one whose
reference count the compare and exchange moves from 0 to 1, that chunk with
its new count, and the chunks after it; `none` when the walk ends without a
free chunk. -/
def mbuf_pool_get_walk : List mbuf_mem → Option (List mbuf_mem × mbuf_mem × List mbuf_mem)
  | [] => none
  | m :: rest =>
    match atomic_compare_exchange_strong m.refcount 0 1 with
    | (true, rc, _) => some ([], { m with refcount := rc }, rest)
    | (false, _, _) =>
      match mbuf_pool_get_walk rest with
      | none => none
      | some (before, mem, after) => some (m :: before, mem, after)

/-- The function `mbuf_pool_get`, called with a pool and a non-NULL
`ret_obj`: the return value, the address stored in `*ret_obj` if one is
stored, and the new state. -/
def mbuf_pool_get (env : alloc_env) (s : mbuf_state) : Int × Option Nat × mbuf_state :=
  match mbuf_pool_get_walk s.pool.memories with
  | some (before, mem, after) =>
    match call_pool_get s.pool.implem env mem s.hook_log with
    | (ret, log) =>
      if ret ≠ 0 then
        (ret, some mem.addr,
          { s with
            hook_log := log
            pool := { s.pool with memories := before ++ { mem with refcount := 0 } :: after } })
      else
        (ret, some mem.addr,
          { s with
            hook_log := log
            pool := { s.pool with
              memories := before ++ mem :: after
              mem_free := size_dec s.pool.mem_free } })
  | none =>
    if s.pool.policy = MBUF_POOL_NO_GROW then (-EAGAIN, none, s)
    else if s.pool.max_mem_count > 0 ∧ s.pool.mem_count ≥ s.pool.max_mem_count then
      (-EAGAIN, none, s)
    else if !env.calloc_ok then (-ENOMEM, none, s)
    else
      let mem : mbuf_mem :=
        { addr := s.next_addr, size := s.pool.mem_size, implem := none,
          refcount := 0, pool := true }
      match call_alloc s.pool.implem env mem s.hook_log with
      | (ret, log) =>
        if ret ≠ 0 then (ret, none, { s with next_addr := s.next_addr + 1, hook_log := log })
        else
          let mem1 : mbuf_mem := { mem with refcount := 1 }
          let pool1 : mbuf_pool :=
            { s.pool with
              memories := s.pool.memories ++ [mem1]
              mem_count := s.pool.mem_count + 1 }
          match call_pool_get s.pool.implem env mem1 log with
          | (ret, log1) =>
            if ret ≠ 0 then
              (ret, none,
                { s with
                  next_addr := s.next_addr + 1
                  hook_log := call_free s.pool.implem mem1 log1
                  pool := pool1 })
            else
              (ret, some mem1.addr,
                { s with next_addr := s.next_addr + 1, hook_log := log1, pool := pool1 })

def mbuf_pool_get_count (s : mbuf_state) : Int × Nat × Nat :=
  (0, s.pool.mem_count, s.pool.mem_free)

/-- The function `mbuf_mem_ref` on a non-NULL pointer `mem`; `none` when
`mem` points to no live chunk, which the source does not define. -/
def mbuf_mem_ref (s : mbuf_state) (mem : Nat) : Option (Int × mbuf_state) :=
  match mem_at s mem with
  | none => none
  | some m => some (0, store_refcount s mem (wrap_uint (m.refcount + 1)))

/-- The function `mbuf_pool_put` for the chunk `mem` of the pool. -/
def mbuf_pool_put (s : mbuf_state) (mem : mbuf_mem) : mbuf_state :=
  let mem_free := s.pool.mem_free + 1
  let log := call_pool_put s.pool.implem mem s.hook_log
  let release : Bool :=
    match s.pool.policy with
    | MBUF_POOL_NO_GROW => false
    | MBUF_POOL_GROW => false
    | MBUF_POOL_SMART_GROW => decide (mem_free > s.pool.initial_mem_count)
    | MBUF_POOL_LOW_MEM_GROW => decide (s.pool.mem_count > s.pool.initial_mem_count)
  if !release then
    { s with hook_log := log, pool := { s.pool with mem_free := mem_free } }
  else
    { s with
      hook_log := call_free s.pool.implem mem log
      pool := { s.pool with
        memories := list_del s.pool.memories mem.addr
        mem_count := size_dec s.pool.mem_count
        mem_free := size_dec mem_free } }

/-- The function `mbuf_mem_unref_internal` on `*mem_`: the returned flag, the
new value of `*mem_` and the new state; `spurious` says whether the weak
compare and exchange of this call fails spuriously.  The result is `none` when
the source is undefined: `*mem_` points to no live chunk, or the chunk is
outside a pool and has no `implem`. -/
def mbuf_mem_unref_internal (spurious : Bool) (s : mbuf_state) (mem_ : Option Nat) :
    Option (Bool × Option Nat × mbuf_state) :=
  match mem_ with
  | none => some (true, none, s)
  | some a =>
    match mem_at s a with
    | none => none
    | some mem =>
      let curr := mem.refcount
      if curr > 1 then
        let next := curr - 1
        match atomic_compare_exchange_weak spurious mem.refcount curr next with
        | (ok, rc, _) => some (ok, some a, store_refcount s a rc)
      else if !mem.pool then
        match atomic_compare_exchange_weak spurious mem.refcount curr 0 with
        | (ok, rc, _) =>
          if !ok then some (false, some a, store_refcount s a rc)
          else
            match mem.implem with
            | none => none
            | some implem =>
              some (true, none,
                { s with
                  loose := list_del s.loose a
                  hook_log := call_free implem { mem with refcount := rc } s.hook_log })
      else
        match atomic_compare_exchange_weak spurious mem.refcount curr 0 with
        | (ok, rc, _) =>
          if !ok then some (false, some a, store_refcount s a rc)
          else some (true, none, mbuf_pool_put (store_refcount s a rc) { mem with refcount := rc })

/-- The loop of `mbuf_mem_unref`: the weak compare and exchange fails
spuriously in the first `spurious` iterations and not in the next one, after
which the loop is left. -/
def mbuf_mem_unref_loop : (spurious : Nat) → mbuf_state → Option Nat → Option mbuf_state
  | 0, s, mem =>
    match mbuf_mem_unref_internal false s mem with
    | none => none
    | some (_, _, s1) => some s1
  | n + 1, s, mem =>
    match mbuf_mem_unref_internal true s mem with
    | none => none
    | some (ok, mem1, s1) => if ok then some s1 else mbuf_mem_unref_loop n s1 mem1

/-- The function `mbuf_mem_unref` on a non-NULL pointer `mem`. -/
def mbuf_mem_unref (spurious : Nat) (s : mbuf_state) (mem : Nat) : Option (Int × mbuf_state) :=
  match mbuf_mem_unref_loop spurious s (some mem) with
  | none => none
  | some s1 => some (0, s1)

/-! ### `implem/generic/src/mbuf_mem_generic.c` -/

/-- The value `impl` behind `mbuf_mem_generic_impl`: `gen_alloc` and
`gen_free`. -/
def mbuf_mem_generic_impl : mbuf_mem_implem :=
  { alloc := true, pool_get := false, pool_put := false, free := true }

/-- The value `wrap_impl`: only `wrap_free`. -/
def wrap_impl : mbuf_mem_implem :=
  { alloc := false, pool_get := false, pool_put := false, free := true }

/-- The function `mbuf_mem_generic_wrap`: the return value, the address stored
in `*ret_obj` and the new state.  `calloc_mem` and `calloc_ws` say whether the
two allocations succeed, `ret_obj` whether the pointer is not NULL.  The
wrapped buffer, the release callback and its user data stay with the chunk
and are used by `wrap_free` only; a call of `wrap_free` is recorded in
`hook_log` as the free hook of `wrap_impl`. -/
def mbuf_mem_generic_wrap (calloc_mem calloc_ws : Bool) (s : mbuf_state) (len : Nat)
    (ret_obj : Bool) : Int × Option Nat × mbuf_state :=
  if !ret_obj then (-EINVAL, none, s)
  else if !calloc_mem then (-ENOMEM, none, s)
  else if !calloc_ws then (-ENOMEM, none, s)
  else
    let mem : mbuf_mem :=
      { addr := s.next_addr, size := len, implem := some wrap_impl,
        refcount := 1, pool := false }
    (0, some mem.addr, { s with next_addr := s.next_addr + 1, loose := mem :: s.loose })

/-! ### `mbuf_base_frame.c`: the reference count of a frame -/

/-- The function `mbuf_base_frame_ref` on `frame->refcount`: the return value
and the new count. -/
def mbuf_base_frame_ref (refcount : Nat) : Int × Nat :=
  let prev := refcount
  let refcount1 := wrap_uint (refcount + 1)
  if prev = 0 then (-EINVAL, 0) else (0, refcount1)

/-! ### Observations and invariants of a state -/

/-- Number of chunks among `l` whose reference count is 0. -/
def zero_count (l : List mbuf_mem) : Nat := l.countP (fun m => m.refcount == 0)

/-- The reference count of the pool's chunk at address `a`, if the pool has
one. -/
def pool_refcount (s : mbuf_state) (a : Nat) : Option Nat :=
  (find_mem s.pool.memories a).map (fun m => m.refcount)

/-- The counters of a pool agree with its list: `mem_count` is the number of
linked chunks, `mem_free` the number of them with reference count 0, the
chunks have distinct addresses below the next one `calloc` returns, and
exactly the chunks of the pool have `mem->pool` set. -/
def pool_wf (s : mbuf_state) : Prop :=
  s.pool.mem_count = s.pool.memories.length ∧
  s.pool.mem_free = zero_count s.pool.memories ∧
  (s.pool.memories.map (fun m => m.addr)).Nodup ∧
  (∀ m ∈ s.pool.memories, m.addr < s.next_addr ∧ m.pool = true) ∧
  (∀ m ∈ s.loose, m.addr < s.next_addr ∧ m.pool = false)

/-- The fields of a pool that no function changes after `mbuf_pool_new`. -/
def pool_static (s : mbuf_state) :
    mbuf_mem_implem × mbuf_pool_grow_policy × Nat × Nat × Nat :=
  (s.pool.implem, s.pool.policy, s.pool.mem_size, s.pool.initial_mem_count,
    s.pool.max_mem_count)

/-- The value of `release` that `mbuf_pool_put` computes when it is entered in
state `s`. -/
def put_releases (s : mbuf_state) : Bool :=
  match s.pool.policy with
  | MBUF_POOL_NO_GROW => false
  | MBUF_POOL_GROW => false
  | MBUF_POOL_SMART_GROW => decide (s.pool.mem_free + 1 > s.pool.initial_mem_count)
  | MBUF_POOL_LOW_MEM_GROW => decide (s.pool.mem_count > s.pool.initial_mem_count)

/-- The state `mbuf_pool_get` leaves when it links a new chunk: the chunk has
the next address and reference count 1, and `mem_count` is incremented. -/
def grown (s : mbuf_state) (log : List (mem_hook × Nat)) : mbuf_state :=
  { s with
    next_addr := s.next_addr + 1
    hook_log := log
    pool := { s.pool with
      memories := s.pool.memories ++
        [{ addr := s.next_addr, size := s.pool.mem_size, implem := none,
           refcount := 1, pool := true }]
      mem_count := s.pool.mem_count + 1 } }

/-! ### Sequences of calls -/

/-- Successive calls of `mbuf_pool_get`, one for each element of `envs`: the
return value and the address stored in `*ret_obj` of each call, in call order,
and the state after the last call. -/
def get_n : List alloc_env → mbuf_state → List (Int × Option Nat) × mbuf_state
  | [], s => ([], s)
  | env :: rest, s =>
    let r := mbuf_pool_get env s
    let t := get_n rest r.2.2
    ((r.1, r.2.1) :: t.1, t.2)

/-- The chunk addresses that the calls of `get_n` stored, in call order. -/
def got (envs : List alloc_env) (s : mbuf_state) : List Nat :=
  (get_n envs s).1.filterMap (fun r => r.2)

/-- Successive calls of `mbuf_mem_unref`, one for each element of `order`,
which gives the number of spurious failures and the chunk address of the call.
Every call returns 0; the result is the state after the last call, or `none`
when a call is undefined. -/
def unref_all : List (Nat × Nat) → mbuf_state → Option mbuf_state
  | [], s => some s
  | (sp, a) :: rest, s =>
    match mbuf_mem_unref sp s a with
    | none => none
    | some (_, s1) => unref_all rest s1

/-- One call on a chunk: `mbuf_mem_ref`, or `mbuf_mem_unref` with its number
of spurious failures. -/
inductive ref_op
  | ref
  | unref (spurious : Nat)
  deriving DecidableEq, Repr

/-- The calls `ops`, in order, on the chunk at address `a`; `none` when one of
them is undefined. -/
def run_ref_ops : List ref_op → mbuf_state → Nat → Option mbuf_state
  | [], s, _ => some s
  | ref_op.ref :: rest, s, a =>
    match mbuf_mem_ref s a with
    | none => none
    | some (_, s1) => run_ref_ops rest s1 a
  | ref_op.unref sp :: rest, s, a =>
    match mbuf_mem_unref sp s a with
    | none => none
    | some (_, s1) => run_ref_ops rest s1 a

/-- Every prefix of `ops` has at most `k` more `unref` than `ref`. -/
def balanced : List ref_op → Nat → Bool
  | [], _ => true
  | ref_op.ref :: rest, k => balanced rest (k + 1)
  | ref_op.unref _ :: _, 0 => false
  | ref_op.unref _ :: rest, k + 1 => balanced rest k

def count_refs : List ref_op → Nat
  | [] => 0
  | ref_op.ref :: rest => count_refs rest + 1
  | ref_op.unref _ :: rest => count_refs rest

def count_unrefs : List ref_op → Nat
  | [] => 0
  | ref_op.ref :: rest => count_unrefs rest
  | ref_op.unref _ :: rest => count_unrefs rest + 1

/-- The reference count of the live chunk at address `a`, in the pool or
outside it. -/
def refcount_at (s : mbuf_state) (a : Nat) : Option Nat :=
  (mem_at s a).map (fun m => m.refcount)

/-- States of a pool reached from `mbuf_pool_new` by calls of `mbuf_pool_get`
and by calls of `mbuf_mem_ref` and `mbuf_mem_unref` on chunks of the pool that
the caller holds a reference to: the reference count is at least 1, and a
further reference still fits the `unsigned int`. -/
inductive pool_reach : mbuf_state → Prop
  | new (env : pool_new_env) (implem : Option mbuf_mem_implem)
      (mem_size mem_count : Nat) (policy : mbuf_pool_grow_policy) (max_mem_count : Nat)
      (ret_obj : Bool) (s : mbuf_state) :
      mbuf_pool_new env implem mem_size mem_count policy max_mem_count ret_obj
        = (0, some s) → pool_reach s
  | get (env : alloc_env) (s : mbuf_state) :
      pool_reach s → pool_reach (mbuf_pool_get env s).2.2
  | ref (s s1 : mbuf_state) (a n : Nat) (r : Int) :
      pool_reach s → pool_refcount s a = some n → 0 < n → n < UINT_MAX →
      mbuf_mem_ref s a = some (r, s1) → pool_reach s1
  | unref (sp : Nat) (s s1 : mbuf_state) (a n : Nat) (r : Int) :
      pool_reach s → pool_refcount s a = some n → 0 < n →
      mbuf_mem_unref sp s a = some (r, s1) → pool_reach s1

/-! ### Environments used at concrete inputs -/

/-- Every allocation succeeds and every hook returns 0. -/
def env_ok : alloc_env := { calloc_ok := true, alloc_ret := 0, pool_get_ret := 0 }

/-- The allocator is out of memory: `calloc` returns NULL. -/
def env_enomem : alloc_env := { calloc_ok := false, alloc_ret := 0, pool_get_ret := 0 }

/-- During `mbuf_pool_new` every allocation succeeds. -/
def new_env_ok : pool_new_env :=
  { calloc_ok := true, strdup_ok := true, mutex_init_ret := 0, chunk := fun _ => env_ok }

/-- The state `mbuf_pool_new` returns for the heap implementation, chunks of
1024 bytes and two initial chunks, when every allocation succeeds. -/
def heap_pool (policy : mbuf_pool_grow_policy) (max_mem_count : Nat) : mbuf_state :=
  { pool :=
      { implem := mbuf_mem_generic_impl, policy := policy,
        mem_size := 1024, initial_mem_count := 2, max_mem_count := max_mem_count,
        mem_count := 2, mem_free := 2,
        memories :=
          [{ addr := 1, size := 1024, implem := none, refcount := 0, pool := true },
           { addr := 2, size := 1024, implem := none, refcount := 0, pool := true }] },
    loose := [], hook_log := [(mem_hook.alloc, 2), (mem_hook.alloc, 1)], next_addr := 3 }

/-- The pool of two chunks with the low-memory policy and at most three
chunks. -/
def low_mem_pool : mbuf_state := heap_pool MBUF_POOL_LOW_MEM_GROW 3

/-- The pool of two chunks that never grows, after `mbuf_pool_get` has taken
its first chunk, the one at address 1. -/
def taken_pool : mbuf_state := (mbuf_pool_get env_ok (heap_pool MBUF_POOL_NO_GROW 0)).2.2

/-- The state after `mbuf_mem_generic_wrap` has wrapped a buffer of 64 bytes,
next to the low-memory pool: the new chunk is at address 3. -/
def wrapped_chunk : mbuf_state := (mbuf_mem_generic_wrap true true low_mem_pool 64 true).2.2

/-- The counters `(mem_count, mem_free)` of a pool with the given policy and
initial count after `n` entries in `mbuf_pool_put`, starting from `(c, f)`:
each entry either destroys the chunk or adds it to the free ones, as
`put_releases` decides. -/
def counts_after_puts (policy : mbuf_pool_grow_policy) (initial : Nat) :
    Nat → Nat × Nat → Nat × Nat
  | 0, cf => cf
  | n + 1, (c, f) =>
    let release : Bool :=
      match policy with
      | MBUF_POOL_NO_GROW => false
      | MBUF_POOL_GROW => false
      | MBUF_POOL_SMART_GROW => decide (f + 1 > initial)
      | MBUF_POOL_LOW_MEM_GROW => decide (c > initial)
    counts_after_puts policy initial n (if release then (c - 1, f) else (c, f + 1))

/-! ### The lock as a step relation -/

/-- One call of the lock interface of `mbuf_utils.c`; the two read calls carry
the number of spurious failures of their weak compare and exchange. -/
inductive lock_op
  | wrlock
  | wrunlock
  | rdlock (spurious : Nat)
  | rdunlock (spurious : Nat)
  deriving DecidableEq, Repr

/-- Return value and new lock state of one call. -/
def lock_step (op : lock_op) (lock : Int) : Int × Int :=
  match op with
  | lock_op.wrlock => mbuf_rwlock_wrlock lock
  | lock_op.wrunlock => mbuf_rwlock_wrunlock lock
  | lock_op.rdlock sp => mbuf_rwlock_rdlock sp lock
  | lock_op.rdunlock sp => mbuf_rwlock_rdunlock sp lock

/-- Return values, in call order, and final lock state of a sequence of
calls. -/
def lock_run : List lock_op → Int → List Int × Int
  | [], lock => ([], lock)
  | op :: ops, lock =>
    let c := lock_step op lock
    let r := lock_run ops c.2
    (c.1 :: r.1, r.2)

/-- States of a lock reached from `mbuf_rwlock_init` by any calls, where
`mbuf_rwlock_rdlock` is only called while fewer than `INT_MAX` read locks are
held. -/
inductive lock_reach : Int → Prop
  | init (lock : Int) : lock_reach (mbuf_rwlock_init lock)
  | step (op : lock_op) (s : Int) :
      lock_reach s → ((∃ sp, op = lock_op.rdlock sp) → s < INT_MAX) →
      lock_reach (lock_step op s).2

/-! ### More constants of `<errno.h>` (values of Linux) -/

def ENOENT : Int := 2
def EEXIST : Int := 17
def ENOSPC : Int := 28
def EPROTO : Int := 71

/-! ### `mbuf_ancillary_data.c`: reference counted ancillary data

An ancillary data object lives on the heap and is shared by address between
the frames that hold it; `anc_state` is that part of the heap.  An object that
has been freed is no longer in `objs`, and a function that reads through a
pointer to it has no defined result (`none`). -/

/-- Modelled from the spec: `struct mbuf_ancillary_data` is declared in
`mbuf_internal.h`, which is not among the sources; the fields are the ones
that `mbuf_ancillary_data.c` and `mbuf_base_frame.c` read and write.  `addr` is
the address of the object, `buffer` the bytes of its own copy of the value,
`ref_count` is read as an `int` (the type of the local `prev` that receives
it) and `cleaner` says that `cbs.cleaner` is not NULL. -/
structure mbuf_ancillary_data where
  addr : Nat
  name : String
  is_string : Bool
  buffer : List Nat
  len : Nat
  ref_count : Int
  cleaner : Bool
  deriving DecidableEq, Repr

/-- The live ancillary data objects, the calls of `cbs.cleaner` made so far
(by object address) and the address that the next `calloc` of an object
returns. -/
structure anc_state where
  objs : List mbuf_ancillary_data
  cleaner_log : List Nat
  next_addr : Nat
  deriving DecidableEq, Repr

/-- The object at an address, `none` when no live object is there. -/
def find_anc : List mbuf_ancillary_data → Nat → Option mbuf_ancillary_data
  | [], _ => none
  | d :: rest, a => if d.addr = a then some d else find_anc rest a

/-- Store into `ref_count` of the object at an address. -/
def set_ref_count : List mbuf_ancillary_data → Nat → Int → List mbuf_ancillary_data
  | [], _, _ => []
  | d :: rest, a, v =>
    if d.addr = a then { d with ref_count := v } :: rest
    else d :: set_ref_count rest a v

/-- The heap without the object at an address (`free(data)`). -/
def free_anc : List mbuf_ancillary_data → Nat → List mbuf_ancillary_data
  | [], _ => []
  | d :: rest, a => if d.addr = a then rest else d :: free_anc rest a

def mbuf_ancillary_data_ref (h : anc_state) (data : Option Nat) :
    Option (Int × anc_state) :=
  match data with
  | none => some (-EINVAL, h)
  | some a =>
    match find_anc h.objs a with
    | none => none
    | some d =>
      some (0, { h with objs := set_ref_count h.objs a (wrap_int (d.ref_count + 1)) })

def mbuf_ancillary_data_unref (h : anc_state) (data : Option Nat) :
    Option (Int × anc_state) :=
  match data with
  | none => some (-EINVAL, h)
  | some a =>
    match find_anc h.objs a with
    | none => none
    | some d =>
      let prev := d.ref_count
      let objs1 := set_ref_count h.objs a (wrap_int (prev - 1))
      if prev > 1 then some (0, { h with objs := objs1 })
      else
        some (0, { h with
          objs := free_anc objs1 a
          cleaner_log := if d.cleaner then h.cleaner_log ++ [a] else h.cleaner_log })

def mbuf_ancillary_data_get_name (h : anc_state) (data : Nat) : Option String :=
  (find_anc h.objs data).map (fun d => d.name)

/-! ### `mbuf_base_frame.c`: the part common to the three kinds of frame

A frame is passed to a function and handed back by value.  The two mutexes of
`struct mbuf_base_frame` are not part of the model (the code is read
sequentially), nor are `parent` and `cleaner`, which are fixed by the kind of
the frame.  A pointer argument that the source checks against NULL is an
`Option`; the frame itself and the output pointers are taken to be valid. -/

/-- The fields `meta`, `ancillary_data`, `finalized`, `rwlock` and `refcount`
of `struct mbuf_base_frame`: `meta` is the address of the metadata, and
`ancillary_data` lists the holders in list order, each by the address of its
`data`. -/
structure mbuf_base_frame where
  meta : Option Nat
  ancillary_data : List Nat
  finalized : Bool
  rwlock : Int
  refcount : Nat
  deriving DecidableEq, Repr

/-- A call of the metadata library (`vmeta_frame_ref`, `vmeta_frame_unref`),
which is not part of this repository. -/
inductive vmeta_call
  | ref (meta : Nat)
  | unref (meta : Nat)
  deriving DecidableEq, Repr

/-- What the two functions of the metadata library return when called. -/
structure vmeta_env where
  ref_ret : Int
  unref_ret : Int
  deriving DecidableEq, Repr

/-- The body of `mbuf_base_frame_init` on the zeroed structure that `calloc`
returned. -/
def mbuf_base_frame_init : mbuf_base_frame :=
  { meta := none, ancillary_data := [], finalized := false,
    rwlock := mbuf_rwlock_init 0, refcount := 1 }

def mbuf_base_frame_set_metadata (env : vmeta_env) (log : List vmeta_call)
    (frame : mbuf_base_frame) (meta : Option Nat) :
    Int × List vmeta_call × mbuf_base_frame :=
  -- add new metadata if given
  let add := fun (log1 : List vmeta_call) (frame1 : mbuf_base_frame) =>
    match meta with
    | some m =>
      if env.ref_ret ≠ 0 then (env.ref_ret, log1 ++ [vmeta_call.ref m], frame1)
      else (0, log1 ++ [vmeta_call.ref m], { frame1 with meta := some m })
    | none => (0, log1, frame1)
  -- remove old metadata if present
  match frame.meta with
  | some old =>
    if env.unref_ret ≠ 0 then (env.unref_ret, log ++ [vmeta_call.unref old], frame)
    else add (log ++ [vmeta_call.unref old]) { frame with meta := none }
  | none => add log frame

/-- Returns the return value, `*meta` and the calls made. -/
def mbuf_base_frame_get_metadata (env : vmeta_env) (log : List vmeta_call)
    (frame : mbuf_base_frame) : Int × Option Nat × List vmeta_call :=
  match frame.meta with
  | none => (-ENOENT, none, log)
  | some m =>
    if env.ref_ret ≠ 0 then (env.ref_ret, none, log ++ [vmeta_call.ref m])
    else (0, some m, log ++ [vmeta_call.ref m])

def mbuf_base_frame_finalize (frame : mbuf_base_frame) : mbuf_base_frame :=
  { frame with finalized := true }

def mbuf_base_frame_is_finalized (frame : mbuf_base_frame) : Bool := frame.finalized

def mbuf_base_frame_rdlock (sp : Nat) (frame : mbuf_base_frame) : Int × mbuf_base_frame :=
  let r := mbuf_rwlock_rdlock sp frame.rwlock
  (r.1, { frame with rwlock := r.2 })

def mbuf_base_frame_rdunlock (sp : Nat) (frame : mbuf_base_frame) : Int × mbuf_base_frame :=
  let r := mbuf_rwlock_rdunlock sp frame.rwlock
  (r.1, { frame with rwlock := r.2 })

def mbuf_base_frame_wrlock (frame : mbuf_base_frame) : Int × mbuf_base_frame :=
  let r := mbuf_rwlock_wrlock frame.rwlock
  (r.1, { frame with rwlock := r.2 })

def mbuf_base_frame_wrunlock (frame : mbuf_base_frame) : Int × mbuf_base_frame :=
  let r := mbuf_rwlock_wrunlock frame.rwlock
  (r.1, { frame with rwlock := r.2 })

/-! ### `mbuf_base_frame.c`: the ancillary data of a frame -/

/-- Outcome of the allocations of one call that adds ancillary data: `calloc`
of the object, `strdup` of its name, `malloc` of its buffer and `calloc` of
the holder. -/
structure anc_env where
  calloc_data : Bool
  strdup_name : Bool
  malloc_buffer : Bool
  calloc_holder : Bool
  deriving DecidableEq, Repr

/-- `struct mbuf_ancillary_data_cbs`: `cleaner` says that the function pointer
is not NULL. -/
structure mbuf_ancillary_data_cbs where
  cleaner : Bool
  deriving DecidableEq, Repr

/-- The first holder of the list whose data has the given name, with the
holders before it and after it; `some none` when there is none, `none` when a
holder points to a freed object. -/
def find_holder (h : anc_state) (name : String) :
    List Nat → Option (Option (List Nat × Nat × List Nat))
  | [] => some none
  | a :: rest =>
    match find_anc h.objs a with
    | none => none
    | some d =>
      if name = d.name then some (some ([], a, rest))
      else
        match find_holder h name rest with
        | none => none
        | some none => some none
        | some (some (before, b, after)) => some (some (a :: before, b, after))

def mbuf_base_frame_add_ancillary_internal (calloc_holder : Bool) (h : anc_state)
    (frame : mbuf_base_frame) (data : Nat) :
    Option (Int × anc_state × mbuf_base_frame) :=
  match find_anc h.objs data with
  | none => none
  | some d =>
    match find_holder h d.name frame.ancillary_data with
    | none => none
    | some (some _) => some (-EEXIST, h, frame)
    | some none =>
      if !calloc_holder then some (-ENOMEM, h, frame)
      else
        match mbuf_ancillary_data_ref h (some data) with
        | none => none
        | some (ret, h1) =>
          if ret ≠ 0 then some (ret, h1, frame)
          else
            some (0, h1,
              { frame with ancillary_data := frame.ancillary_data ++ [data] })

def mbuf_base_frame_create_ancillary_internal (env : anc_env) (h : anc_state)
    (frame : mbuf_base_frame) (name : String) (buffer : List Nat) (len : Nat)
    (is_string : Bool) (cbs : Option mbuf_ancillary_data_cbs) :
    Option (Int × anc_state × mbuf_base_frame) :=
  if !env.calloc_data then some (-ENOMEM, h, frame)
  else
    -- initialize ref_count to 1, it is unref'ed at the end
    let ad : mbuf_ancillary_data :=
      { addr := h.next_addr, name := "", is_string := is_string, buffer := [],
        len := len, ref_count := 1, cleaner := false }
    let h0 : anc_state := { h with next_addr := h.next_addr + 1 }
    let out := fun (ret : Int) (h1 : anc_state) (frame1 : mbuf_base_frame) =>
      match mbuf_ancillary_data_unref h1 (some ad.addr) with
      | none => none
      | some (_, h2) => some (ret, h2, frame1)
    if !env.strdup_name then out (-ENOMEM) { h0 with objs := h0.objs ++ [ad] } frame
    else if !env.malloc_buffer then
      out (-ENOMEM) { h0 with objs := h0.objs ++ [{ ad with name := name }] } frame
    else
      let ad1 : mbuf_ancillary_data :=
        { ad with
          name := name
          buffer := buffer.take len
          cleaner := match cbs with
            | some c => c.cleaner
            | none => false }
      match mbuf_base_frame_add_ancillary_internal env.calloc_holder
          { h0 with objs := h0.objs ++ [ad1] } frame ad1.addr with
      | none => none
      | some (ret, h1, frame1) => out ret h1 frame1

/-- The string `value` is given by its characters, without the terminating
NUL that the copy kept by the data includes. -/
def mbuf_base_frame_add_ancillary_string (env : anc_env) (h : anc_state)
    (frame : mbuf_base_frame) (name : String) (value : List Nat) :
    Option (Int × anc_state × mbuf_base_frame) :=
  let len := value.length + 1
  mbuf_base_frame_create_ancillary_internal env h frame name (value ++ [0]) len true none

def mbuf_base_frame_add_ancillary_buffer (env : anc_env) (h : anc_state)
    (frame : mbuf_base_frame) (name : String) (buffer : List Nat) (len : Nat) :
    Option (Int × anc_state × mbuf_base_frame) :=
  mbuf_base_frame_create_ancillary_internal env h frame name buffer len false none

def mbuf_base_frame_add_ancillary_buffer_with_cbs (env : anc_env) (h : anc_state)
    (frame : mbuf_base_frame) (name : String) (buffer : List Nat) (len : Nat)
    (cbs : Option mbuf_ancillary_data_cbs) :
    Option (Int × anc_state × mbuf_base_frame) :=
  mbuf_base_frame_create_ancillary_internal env h frame name buffer len false cbs

def mbuf_base_frame_add_ancillary_data (calloc_holder : Bool) (h : anc_state)
    (frame : mbuf_base_frame) (data : Nat) :
    Option (Int × anc_state × mbuf_base_frame) :=
  mbuf_base_frame_add_ancillary_internal calloc_holder h frame data

/-- Returns the return value, what is stored in `*data` (nothing when the name
is not found) and the heap. -/
def mbuf_base_frame_get_ancillary_data (h : anc_state) (frame : mbuf_base_frame)
    (name : String) : Option (Int × Option Nat × anc_state) :=
  match find_holder h name frame.ancillary_data with
  | none => none
  | some none => some (-ENOENT, none, h)
  | some (some (_, a, _)) =>
    match mbuf_ancillary_data_ref h (some a) with
    | none => none
    | some (_, h1) => some (0, some a, h1)

def mbuf_base_frame_remove_ancillary_data (h : anc_state) (frame : mbuf_base_frame)
    (name : String) : Option (Int × anc_state × mbuf_base_frame) :=
  match find_holder h name frame.ancillary_data with
  | none => none
  | some none => some (-ENOENT, h, frame)
  | some (some (before, a, after)) =>
    match mbuf_ancillary_data_unref h (some a) with
    | none => none
    | some (_, h1) => some (0, h1, { frame with ancillary_data := before ++ after })

/-- The walk of `mbuf_base_frame_foreach_ancillary_data`: `cb` receives the
data of a holder and the user data, and returns whether to go on together
with what it made of the user data; `none` when the callback has no defined
result. -/
def foreach_walk {σ : Type} (cb : Nat → σ → Option (Bool × σ)) :
    List Nat → σ → Option σ
  | [], u => some u
  | a :: rest, u =>
    match cb a u with
    | none => none
    | some (cont, u1) => if !cont then some u1 else foreach_walk cb rest u1

def mbuf_base_frame_foreach_ancillary_data {σ : Type} (frame : mbuf_base_frame)
    (cb : Nat → σ → Option (Bool × σ)) (userdata : σ) : Option (Int × σ) :=
  match foreach_walk cb frame.ancillary_data userdata with
  | none => none
  | some u => some (0, u)

/-! ### What the frames see of the heap -/

/-- The chunks (`mem`), the value of `mem->data` for the chunk at an address
(`data`, set by the implementation when the chunk was allocated and constant
afterwards), the content of memory byte by byte (`bytes`), the ancillary data
objects, the calls made to the metadata library and the user data of the
pre-release callbacks called so far. -/
structure frame_world where
  mem : mbuf_state
  data : Nat → Nat
  bytes : Nat → Nat
  anc : anc_state
  vmeta_log : List vmeta_call
  release_log : List Nat

/-- What the environment answers during one call on a frame: the number of
spurious failures of each weak compare and exchange loop, what the metadata
library returns, whether `calloc` of a frame succeeds, and whether the `i`-th
allocation of an ancillary data holder and the `i`-th `realloc` of an array of
NALUs succeed. -/
structure frame_env where
  sp : Nat
  vmeta : vmeta_env
  calloc_frame : Bool
  calloc_holder : Nat → Bool
  realloc_nalus : Nat → Bool

/-- A `size_t` result, 64 bits wide. -/
def wrap_size (x : Nat) : Nat := x % 2 ^ 64

/-- A `size_t` read as `ssize_t`. -/
def ssize_of (x : Nat) : Int :=
  if x % 2 ^ 64 < 2 ^ 63 then ((x % 2 ^ 64 : Nat) : Int)
  else ((x % 2 ^ 64 : Nat) : Int) - 2 ^ 64

/-- Memory after `memcpy(dst, src, n)` on regions that do not overlap. -/
def memcpy (bytes : Nat → Nat) (dst src n : Nat) : Nat → Nat :=
  fun p => if dst ≤ p ∧ p < dst + n then bytes (src + (p - dst)) else bytes p

/-- One payload slot of a frame: the anonymous `struct { mem; data; len; }` of
the audio buffer and of a raw video plane. -/
structure frame_buffer where
  mem : Option Nat
  data : Nat
  len : Nat
  deriving DecidableEq, Repr

/-- A slot after `memset(&slot, 0, sizeof(slot))`. -/
def frame_buffer_zero : frame_buffer := { mem := none, data := 0, len := 0 }

/-- The unref of every holder in `mbuf_base_frame_deinit`. -/
def unref_holders (h : anc_state) : List Nat → Option anc_state
  | [] => some h
  | a :: rest =>
    match mbuf_ancillary_data_unref h (some a) with
    | none => none
    | some (_, h1) => unref_holders h1 rest

/-- The function `mbuf_base_frame_deinit`; the frame is not used afterwards. -/
def mbuf_base_frame_deinit (env : vmeta_env) (w : frame_world) (frame : mbuf_base_frame) :
    Option frame_world :=
  let r := mbuf_base_frame_set_metadata env w.vmeta_log frame none
  match unref_holders w.anc r.2.2.ancillary_data with
  | none => none
  | some h1 => some { w with vmeta_log := r.2.1, anc := h1 }

/-! ### `mbuf_audio_frame.c` -/

/-- `struct adef_frame` of the audio definitions library, which is not part of
this repository: `format_valid` is what `adef_is_format_valid` answers for
its format, `tag` stands for the rest of its content. -/
structure adef_frame where
  format_valid : Bool
  tag : Nat
  deriving DecidableEq, Repr

/-- `struct mbuf_audio_frame_cbs`: `pre_release` says that the function
pointer is not NULL. -/
structure mbuf_audio_frame_cbs where
  pre_release : Bool
  pre_release_userdata : Nat
  deriving DecidableEq, Repr

structure mbuf_audio_frame where
  base : mbuf_base_frame
  info : adef_frame
  buffer : frame_buffer
  cbs : mbuf_audio_frame_cbs
  deriving DecidableEq, Repr

def mbuf_audio_frame_new (calloc_ok : Bool) (frame_info : Option adef_frame) :
    Int × Option mbuf_audio_frame :=
  match frame_info with
  | none => (-EINVAL, none)
  | some info =>
    if !info.format_valid then (-EINVAL, none)
    else if !calloc_ok then (-ENOMEM, none)
    else
      (0, some { base := mbuf_base_frame_init, info := info,
                 buffer := frame_buffer_zero,
                 cbs := { pre_release := false, pre_release_userdata := 0 } })

def mbuf_audio_frame_set_callbacks (frame : mbuf_audio_frame)
    (cbs : Option mbuf_audio_frame_cbs) : Int × mbuf_audio_frame :=
  match cbs with
  | none => (-EINVAL, frame)
  | some c =>
    if mbuf_base_frame_is_finalized frame.base then (-EBUSY, frame)
    else (0, { frame with cbs := c })

def mbuf_audio_frame_ref (frame : mbuf_audio_frame) : Int × mbuf_audio_frame :=
  let r := mbuf_base_frame_ref frame.base.refcount
  (r.1, { frame with base := { frame.base with refcount := r.2 } })

def mbuf_audio_frame_set_frame_info (frame : mbuf_audio_frame)
    (frame_info : Option adef_frame) : Int × mbuf_audio_frame :=
  match frame_info with
  | none => (-EINVAL, frame)
  | some info =>
    if mbuf_base_frame_is_finalized frame.base then (-EBUSY, frame)
    else (0, { frame with info := info })

/-- The function `mbuf_audio_frame_set_buffer`; `data` gives `mem->data` of a
chunk, `sp` the spurious failures in `mbuf_mem_unref`. -/
def mbuf_audio_frame_set_buffer (sp : Nat) (data : Nat → Nat) (s : mbuf_state)
    (frame : mbuf_audio_frame) (mem : Option Nat) (offset len : Nat) :
    Option (Int × mbuf_state × mbuf_audio_frame) :=
  match mem with
  | none => some (-EINVAL, s, frame)
  | some m =>
    if mbuf_base_frame_is_finalized frame.base then some (-EBUSY, s, frame)
    else
      -- reference the new memory and fill the slot
      let set := fun (s1 : mbuf_state) (frame1 : mbuf_audio_frame) =>
        match mbuf_mem_ref s1 m with
        | none => none
        | some (ret, s2) =>
          if ret ≠ 0 then some (ret, s2, frame1)
          else
            some (0, s2,
              { frame1 with buffer := { mem := some m, data := data m + offset, len := len } })
      -- remove previous memory for buffer
      match frame.buffer.mem with
      | some old =>
        match mbuf_mem_unref sp s old with
        | none => none
        | some (ret, s1) =>
          if ret ≠ 0 then some (ret, s1, frame)
          else set s1 { frame with buffer := frame_buffer_zero }
      | none => set s frame

def mbuf_audio_frame_finalize (frame : mbuf_audio_frame) : Int × mbuf_audio_frame :=
  if frame.buffer.mem = none then (-EPROTO, frame)
  else (0, { frame with base := mbuf_base_frame_finalize frame.base })

/-- Returns the return value, `*data`, `*len` and the frame. -/
def mbuf_audio_frame_get_buffer (sp : Nat) (frame : mbuf_audio_frame) :
    Int × Nat × Nat × mbuf_audio_frame :=
  if !mbuf_base_frame_is_finalized frame.base then (-EBUSY, 0, 0, frame)
  else
    let r := mbuf_base_frame_rdlock sp frame.base
    if r.1 ≠ 0 then (r.1, 0, 0, { frame with base := r.2 })
    else (0, frame.buffer.data, frame.buffer.len, { frame with base := r.2 })

def mbuf_audio_frame_release_buffer (sp : Nat) (frame : mbuf_audio_frame) (data : Nat) :
    Int × mbuf_audio_frame :=
  if !mbuf_base_frame_is_finalized frame.base then (-EBUSY, frame)
  else if data ≠ frame.buffer.data then (-EINVAL, frame)
  else
    let r := mbuf_base_frame_rdunlock sp frame.base
    (r.1, { frame with base := r.2 })

/-- Returns the return value, `*data`, `*len` and the frame. -/
def mbuf_audio_frame_get_rw_buffer (frame : mbuf_audio_frame) :
    Int × Nat × Nat × mbuf_audio_frame :=
  if !mbuf_base_frame_is_finalized frame.base then (-EBUSY, 0, 0, frame)
  else
    let r := mbuf_base_frame_wrlock frame.base
    if r.1 ≠ 0 then (r.1, 0, 0, { frame with base := r.2 })
    else (0, frame.buffer.data, frame.buffer.len, { frame with base := r.2 })

def mbuf_audio_frame_release_rw_buffer (frame : mbuf_audio_frame) (data : Nat) :
    Int × mbuf_audio_frame :=
  if !mbuf_base_frame_is_finalized frame.base then (-EBUSY, frame)
  else if data ≠ frame.buffer.data then (-EINVAL, frame)
  else
    let r := mbuf_base_frame_wrunlock frame.base
    (r.1, { frame with base := r.2 })

def mbuf_audio_frame_get_size (frame : mbuf_audio_frame) : Int :=
  if !mbuf_base_frame_is_finalized frame.base then -EBUSY
  else ssize_of frame.buffer.len

/-! #### Audio frames: ancillary data -/

def mbuf_audio_frame_add_ancillary_string (env : anc_env) (h : anc_state)
    (frame : mbuf_audio_frame) (name : Option String) (value : Option (List Nat)) :
    Option (Int × anc_state × mbuf_audio_frame) :=
  match name, value with
  | some n, some v =>
    (mbuf_base_frame_add_ancillary_string env h frame.base n v).map
      (fun r => (r.1, r.2.1, { frame with base := r.2.2 }))
  | _, _ => some (-EINVAL, h, frame)

def mbuf_audio_frame_add_ancillary_buffer (env : anc_env) (h : anc_state)
    (frame : mbuf_audio_frame) (name : Option String) (buffer : Option (List Nat))
    (len : Nat) : Option (Int × anc_state × mbuf_audio_frame) :=
  match name, buffer with
  | some n, some b =>
    if len = 0 then some (-EINVAL, h, frame)
    else
      (mbuf_base_frame_add_ancillary_buffer env h frame.base n b len).map
        (fun r => (r.1, r.2.1, { frame with base := r.2.2 }))
  | _, _ => some (-EINVAL, h, frame)

def mbuf_audio_frame_add_ancillary_buffer_with_cbs (env : anc_env) (h : anc_state)
    (frame : mbuf_audio_frame) (name : Option String) (buffer : Option (List Nat))
    (len : Nat) (cbs : Option mbuf_ancillary_data_cbs) :
    Option (Int × anc_state × mbuf_audio_frame) :=
  match name, buffer with
  | some n, some b =>
    if len = 0 then some (-EINVAL, h, frame)
    else
      (mbuf_base_frame_add_ancillary_buffer_with_cbs env h frame.base n b len cbs).map
        (fun r => (r.1, r.2.1, { frame with base := r.2.2 }))
  | _, _ => some (-EINVAL, h, frame)

def mbuf_audio_frame_add_ancillary_data (calloc_holder : Bool) (h : anc_state)
    (frame : mbuf_audio_frame) (data : Option Nat) :
    Option (Int × anc_state × mbuf_audio_frame) :=
  match data with
  | none => some (-EINVAL, h, frame)
  | some d =>
    (mbuf_base_frame_add_ancillary_data calloc_holder h frame.base d).map
      (fun r => (r.1, r.2.1, { frame with base := r.2.2 }))

def mbuf_audio_frame_get_ancillary_data (h : anc_state) (frame : mbuf_audio_frame)
    (name : Option String) : Option (Int × Option Nat × anc_state) :=
  match name with
  | none => some (-EINVAL, none, h)
  | some n => mbuf_base_frame_get_ancillary_data h frame.base n

def mbuf_audio_frame_remove_ancillary_data (h : anc_state) (frame : mbuf_audio_frame)
    (name : Option String) : Option (Int × anc_state × mbuf_audio_frame) :=
  match name with
  | none => some (-EINVAL, h, frame)
  | some n =>
    (mbuf_base_frame_remove_ancillary_data h frame.base n).map
      (fun r => (r.1, r.2.1, { frame with base := r.2.2 }))

def mbuf_audio_frame_foreach_ancillary_data {σ : Type} (frame : mbuf_audio_frame)
    (cb : Option (Nat → σ → Option (Bool × σ))) (userdata : σ) : Option (Int × σ) :=
  match cb with
  | none => some (-EINVAL, userdata)
  | some f => mbuf_base_frame_foreach_ancillary_data frame.base f userdata

/-- The callback `mbuf_audio_frame_ancillary_data_copier`.  The user data is
the frame `copy`; it comes with the heap of ancillary data, which the call
changes, and with the number of holder allocations made so far. -/
def mbuf_audio_frame_ancillary_data_copier (calloc_holder : Nat → Bool) (data : Nat)
    (userdata : Nat × anc_state × mbuf_audio_frame) :
    Option (Bool × (Nat × anc_state × mbuf_audio_frame)) :=
  match mbuf_audio_frame_add_ancillary_data (calloc_holder userdata.1) userdata.2.1
      userdata.2.2 (some data) with
  | none => none
  | some (_, h1, copy) => some (true, (userdata.1 + 1, h1, copy))

/-! #### Audio frames: release and copy -/

/-- The function `mbuf_audio_frame_cleaner`; the frame is freed. -/
def mbuf_audio_frame_cleaner (env : frame_env) (w : frame_world) (frame : mbuf_audio_frame) :
    Option frame_world :=
  let w1 : frame_world :=
    if frame.cbs.pre_release then
      { w with release_log := w.release_log ++ [frame.cbs.pre_release_userdata] }
    else w
  let w2 : Option frame_world :=
    match frame.buffer.mem with
    | some m =>
      match mbuf_mem_unref env.sp w1.mem m with
      | none => none
      | some (_, s1) => some { w1 with mem := s1 }
    | none => some w1
  match w2 with
  | none => none
  | some w3 => mbuf_base_frame_deinit env.vmeta w3 frame.base

/-- The decrement of an `unsigned int` by `atomic_fetch_sub`: below 0 it wraps
to `UINT_MAX`. -/
def uint_dec (x : Nat) : Nat := if x = 0 then UINT_MAX else x - 1

/-- The function `mbuf_base_frame_unref` on `frame->refcount`: the return
value, the new count and whether the cleaner is to be called. -/
def mbuf_base_frame_unref (refcount : Nat) : Int × Nat × Bool :=
  let prev := refcount
  (0, uint_dec refcount, decide (prev = 1))

/-- The function `mbuf_audio_frame_unref`: the return value, the world and the
frame, which is gone when its cleaner has run. -/
def mbuf_audio_frame_unref (env : frame_env) (w : frame_world) (frame : mbuf_audio_frame) :
    Option (Int × frame_world × Option mbuf_audio_frame) :=
  let r := mbuf_base_frame_unref frame.base.refcount
  let frame1 := { frame with base := { frame.base with refcount := r.2.1 } }
  if r.2.2 then
    match mbuf_audio_frame_cleaner env w frame1 with
    | none => none
    | some w1 => some (r.1, w1, none)
  else some (r.1, w, some frame1)

/-- The end of `mbuf_audio_frame_copy`, from the label `out`: the read lock on
the source is released, and the new frame is dropped when `ret` is an error.
`locked` is the source frame with its read lock taken. -/
def mbuf_audio_frame_copy_out (env : frame_env) (locked : mbuf_audio_frame) (ret : Int)
    (new_frame : Option mbuf_audio_frame) (w1 : frame_world) :
    Option (Int × Option mbuf_audio_frame × frame_world × mbuf_audio_frame) :=
  let u := mbuf_base_frame_rdunlock env.sp locked.base
  let src : mbuf_audio_frame := { locked with base := u.2 }
  match new_frame with
  | some nf =>
    if ret ≠ 0 then
      match mbuf_audio_frame_unref env w1 nf with
      | none => none
      | some (_, w2, _) => some (ret, none, w2, src)
    else some (ret, some nf, w1, src)
  | none => some (ret, none, w1, src)

/-- The function `mbuf_audio_frame_copy`: the return value, `*ret_obj`, the
world and the source frame. -/
def mbuf_audio_frame_copy (env : frame_env) (w : frame_world) (frame : mbuf_audio_frame)
    (dst : Option Nat) :
    Option (Int × Option mbuf_audio_frame × frame_world × mbuf_audio_frame) :=
  match dst with
  | none => some (-EINVAL, none, w, frame)
  | some d =>
    match mem_at w.mem d with
    | none => none
    | some dmem =>
      if w.data d = 0 then some (-EINVAL, none, w, frame)
      else if !mbuf_base_frame_is_finalized frame.base then some (-EBUSY, none, w, frame)
      else
        let tmp := mbuf_audio_frame_get_size frame
        if tmp < 0 then some (wrap_int tmp, none, w, frame)
        else
          let required_len := tmp.toNat
          let l := mbuf_base_frame_rdlock env.sp frame.base
          if l.1 ≠ 0 then some (l.1, none, w, { frame with base := l.2 })
          else
            let locked : mbuf_audio_frame := { frame with base := l.2 }
            if dmem.size < required_len then mbuf_audio_frame_copy_out env locked (-ENOSPC) none w
            else
              let n := mbuf_audio_frame_new env.calloc_frame (some locked.info)
              match n.2 with
              | none => mbuf_audio_frame_copy_out env locked n.1 none w
              | some nf =>
                match mbuf_audio_frame_foreach_ancillary_data locked
                    (some (mbuf_audio_frame_ancillary_data_copier env.calloc_holder))
                    (0, w.anc, nf) with
                | none => none
                | some (ret1, _, h1, nf1) =>
                  if ret1 ≠ 0 then
                    mbuf_audio_frame_copy_out env locked ret1 (some nf1) { w with anc := h1 }
                  else
                    -- simple case, just copy the buffer
                    let bytes1 := memcpy w.bytes (w.data d) locked.buffer.data locked.buffer.len
                    match mbuf_audio_frame_set_buffer env.sp w.data w.mem nf1 (some d) 0
                        locked.buffer.len with
                    | none => none
                    | some (ret2, s2, nf2) =>
                      mbuf_audio_frame_copy_out env locked ret2 (some nf2)
                        { w with anc := h1, bytes := bytes1, mem := s2 }

/-! ### `mbuf_raw_video_frame.c` -/

/-- `struct vdef_raw_frame` of the video definitions library, which is not
part of this repository, with what that library computes from it:
`format_valid` is the answer of `vdef_is_raw_format_valid`, `plane_count` that
of `vdef_get_raw_frame_plane_count`, `plane_stride` is the field
`plane_stride` (one entry per plane), `contiguous_size` the result of
`vdef_calc_raw_contiguous_frame_size`, `calc_ret`, `tight_stride` and
`plane_size` the return value and the two outputs of
`vdef_calc_raw_frame_size`; `tag` stands for the rest of the content. -/
structure vdef_raw_frame where
  format_valid : Bool
  plane_count : Nat
  plane_stride : List Nat
  contiguous_size : Int
  calc_ret : Int
  tight_stride : List Nat
  plane_size : List Nat
  tag : Nat
  deriving DecidableEq, Repr

/-- The constant `VDEF_RAW_MAX_PLANE_COUNT` of the video definitions library
(4 in its header). -/
def VDEF_RAW_MAX_PLANE_COUNT : Nat := 4

structure mbuf_raw_video_frame_cbs where
  pre_release : Bool
  pre_release_userdata : Nat
  deriving DecidableEq, Repr

/-- The structure `mbuf_raw_video_frame`; `planes` is the array of
`VDEF_RAW_MAX_PLANE_COUNT` slots, and an access outside of it has no defined
result. -/
structure mbuf_raw_video_frame where
  base : mbuf_base_frame
  info : vdef_raw_frame
  planes : List frame_buffer
  nplanes : Nat
  cbs : mbuf_raw_video_frame_cbs
  deriving DecidableEq, Repr

def mbuf_raw_video_frame_new (calloc_ok : Bool) (frame_info : Option vdef_raw_frame) :
    Int × Option mbuf_raw_video_frame :=
  match frame_info with
  | none => (-EINVAL, none)
  | some info =>
    if !info.format_valid then (-EINVAL, none)
    else if !calloc_ok then (-ENOMEM, none)
    else
      (0, some { base := mbuf_base_frame_init, info := info,
                 planes := List.replicate VDEF_RAW_MAX_PLANE_COUNT frame_buffer_zero,
                 nplanes := wrap_uint info.plane_count,
                 cbs := { pre_release := false, pre_release_userdata := 0 } })

def mbuf_raw_video_frame_set_callbacks (frame : mbuf_raw_video_frame)
    (cbs : Option mbuf_raw_video_frame_cbs) : Int × mbuf_raw_video_frame :=
  match cbs with
  | none => (-EINVAL, frame)
  | some c =>
    if mbuf_base_frame_is_finalized frame.base then (-EBUSY, frame)
    else (0, { frame with cbs := c })

def mbuf_raw_video_frame_ref (frame : mbuf_raw_video_frame) : Int × mbuf_raw_video_frame :=
  let r := mbuf_base_frame_ref frame.base.refcount
  (r.1, { frame with base := { frame.base with refcount := r.2 } })

/-- The loop of `mbuf_raw_video_frame_set_frame_info` that looks for the
highest filled plane, from index `i` down to 0: the value of `filled_planes`
after it. -/
def filled_planes_from (planes : List frame_buffer) : Nat → Option Nat
  | 0 =>
    match planes.get? 0 with
    | none => none
    | some p => if p.mem ≠ none then some 1 else some 0
  | i + 1 =>
    match planes.get? (i + 1) with
    | none => none
    | some p => if p.mem ≠ none then some (i + 2) else filled_planes_from planes i

def mbuf_raw_video_frame_set_frame_info (frame : mbuf_raw_video_frame)
    (frame_info : Option vdef_raw_frame) : Option (Int × mbuf_raw_video_frame) :=
  match frame_info with
  | none => some (-EINVAL, frame)
  | some info =>
    if mbuf_base_frame_is_finalized frame.base then some (-EBUSY, frame)
    else
      -- check that the change will not lead to a bad number of planes
      let new_nplanes := wrap_uint info.plane_count
      match filled_planes_from frame.planes frame.nplanes with
      | none => none
      | some filled_planes =>
        if filled_planes > new_nplanes then some (-EINVAL, frame)
        else some (0, { frame with info := info, nplanes := new_nplanes })

def mbuf_raw_video_frame_set_metadata (env : vmeta_env) (log : List vmeta_call)
    (frame : mbuf_raw_video_frame) (meta : Option Nat) :
    Int × List vmeta_call × mbuf_raw_video_frame :=
  match meta with
  | none => (-EINVAL, log, frame)
  | some m =>
    if mbuf_base_frame_is_finalized frame.base then (-EBUSY, log, frame)
    else
      let r := mbuf_base_frame_set_metadata env log frame.base (some m)
      (r.1, r.2.1, { frame with base := r.2.2 })

def mbuf_raw_video_frame_set_plane (sp : Nat) (data : Nat → Nat) (s : mbuf_state)
    (frame : mbuf_raw_video_frame) (plane : Nat) (mem : Option Nat) (offset len : Nat) :
    Option (Int × mbuf_state × mbuf_raw_video_frame) :=
  match mem with
  | none => some (-EINVAL, s, frame)
  | some m =>
    if plane ≥ frame.nplanes then some (-EINVAL, s, frame)
    else if mbuf_base_frame_is_finalized frame.base then some (-EBUSY, s, frame)
    else
      match frame.planes.get? plane with
      | none => none
      | some slot =>
        -- reference the new memory and fill the slot
        let set := fun (s1 : mbuf_state) (frame1 : mbuf_raw_video_frame) =>
          match mbuf_mem_ref s1 m with
          | none => none
          | some (ret, s2) =>
            if ret ≠ 0 then some (ret, s2, frame1)
            else
              some (0, s2,
                { frame1 with
                  planes := frame1.planes.set plane
                    { mem := some m, data := data m + offset, len := len } })
        -- remove previous memory for plane
        match slot.mem with
        | some old =>
          match mbuf_mem_unref sp s old with
          | none => none
          | some (ret, s1) =>
            if ret ≠ 0 then some (ret, s1, frame)
            else set s1 { frame with planes := frame.planes.set plane frame_buffer_zero }
        | none => set s frame

/-- The loop of `mbuf_raw_video_frame_finalize` over the first planes of the
array: whether all of them have a chunk. -/
def planes_all_set : List frame_buffer → Nat → Option Bool
  | _, 0 => some true
  | [], _ + 1 => none
  | p :: rest, n + 1 => if p.mem = none then some false else planes_all_set rest n

def mbuf_raw_video_frame_finalize (frame : mbuf_raw_video_frame) :
    Option (Int × mbuf_raw_video_frame) :=
  match planes_all_set frame.planes frame.nplanes with
  | none => none
  | some false => some (-EPROTO, frame)
  | some true => some (0, { frame with base := mbuf_base_frame_finalize frame.base })

/-- Returns the return value, `*meta` and the calls made. -/
def mbuf_raw_video_frame_get_metadata (env : vmeta_env) (log : List vmeta_call)
    (frame : mbuf_raw_video_frame) : Int × Option Nat × List vmeta_call :=
  if !mbuf_base_frame_is_finalized frame.base then (-EBUSY, none, log)
  else mbuf_base_frame_get_metadata env log frame.base

/-- Returns the return value, `*data`, `*len` and the frame. -/
def mbuf_raw_video_frame_get_plane (sp : Nat) (frame : mbuf_raw_video_frame) (plane : Nat) :
    Option (Int × Nat × Nat × mbuf_raw_video_frame) :=
  if plane ≥ frame.nplanes then some (-EINVAL, 0, 0, frame)
  else if !mbuf_base_frame_is_finalized frame.base then some (-EBUSY, 0, 0, frame)
  else
    let r := mbuf_base_frame_rdlock sp frame.base
    if r.1 ≠ 0 then some (r.1, 0, 0, { frame with base := r.2 })
    else
      match frame.planes.get? plane with
      | none => none
      | some slot => some (0, slot.data, slot.len, { frame with base := r.2 })

def mbuf_raw_video_frame_release_plane (sp : Nat) (frame : mbuf_raw_video_frame)
    (plane : Nat) (data : Nat) : Option (Int × mbuf_raw_video_frame) :=
  if plane ≥ frame.nplanes then some (-EINVAL, frame)
  else if !mbuf_base_frame_is_finalized frame.base then some (-EBUSY, frame)
  else
    match frame.planes.get? plane with
    | none => none
    | some slot =>
      if data ≠ slot.data then some (-EINVAL, frame)
      else
        let r := mbuf_base_frame_rdunlock sp frame.base
        some (r.1, { frame with base := r.2 })

/-- Returns the return value, `*data`, `*len` and the frame. -/
def mbuf_raw_video_frame_get_rw_plane (frame : mbuf_raw_video_frame) (plane : Nat) :
    Option (Int × Nat × Nat × mbuf_raw_video_frame) :=
  if plane ≥ frame.nplanes then some (-EINVAL, 0, 0, frame)
  else if !mbuf_base_frame_is_finalized frame.base then some (-EBUSY, 0, 0, frame)
  else
    let r := mbuf_base_frame_wrlock frame.base
    if r.1 ≠ 0 then some (r.1, 0, 0, { frame with base := r.2 })
    else
      match frame.planes.get? plane with
      | none => none
      | some slot => some (0, slot.data, slot.len, { frame with base := r.2 })

def mbuf_raw_video_frame_release_rw_plane (frame : mbuf_raw_video_frame)
    (plane : Nat) (data : Nat) : Option (Int × mbuf_raw_video_frame) :=
  if plane ≥ frame.nplanes then some (-EINVAL, frame)
  else if !mbuf_base_frame_is_finalized frame.base then some (-EBUSY, frame)
  else
    match frame.planes.get? plane with
    | none => none
    | some slot =>
      if data ≠ slot.data then some (-EINVAL, frame)
      else
        let r := mbuf_base_frame_wrunlock frame.base
        some (r.1, { frame with base := r.2 })

/-! #### Raw video frames: ancillary data -/

def mbuf_raw_video_frame_add_ancillary_string (env : anc_env) (h : anc_state)
    (frame : mbuf_raw_video_frame) (name : Option String) (value : Option (List Nat)) :
    Option (Int × anc_state × mbuf_raw_video_frame) :=
  match name, value with
  | some n, some v =>
    (mbuf_base_frame_add_ancillary_string env h frame.base n v).map
      (fun r => (r.1, r.2.1, { frame with base := r.2.2 }))
  | _, _ => some (-EINVAL, h, frame)

def mbuf_raw_video_frame_add_ancillary_buffer (env : anc_env) (h : anc_state)
    (frame : mbuf_raw_video_frame) (name : Option String) (buffer : Option (List Nat))
    (len : Nat) : Option (Int × anc_state × mbuf_raw_video_frame) :=
  match name, buffer with
  | some n, some b =>
    if len = 0 then some (-EINVAL, h, frame)
    else
      (mbuf_base_frame_add_ancillary_buffer env h frame.base n b len).map
        (fun r => (r.1, r.2.1, { frame with base := r.2.2 }))
  | _, _ => some (-EINVAL, h, frame)

/-- Modelled from the spec: the spec gives the addition of a buffer with a
cleaner as an ancillary operation of every kind of frame, and
`mbuf_raw_video_frame.h` declares this function, but `src/` holds no body for
it.  It is taken as the sibling `mbuf_audio_frame_add_ancillary_buffer_with_cbs`
is written: the argument checks of `mbuf_raw_video_frame_add_ancillary_buffer`,
then `mbuf_base_frame_add_ancillary_buffer_with_cbs` on the base of the
frame. -/
def mbuf_raw_video_frame_add_ancillary_buffer_with_cbs (env : anc_env) (h : anc_state)
    (frame : mbuf_raw_video_frame) (name : Option String) (buffer : Option (List Nat))
    (len : Nat) (cbs : Option mbuf_ancillary_data_cbs) :
    Option (Int × anc_state × mbuf_raw_video_frame) :=
  match name, buffer with
  | some n, some b =>
    if len = 0 then some (-EINVAL, h, frame)
    else
      (mbuf_base_frame_add_ancillary_buffer_with_cbs env h frame.base n b len cbs).map
        (fun r => (r.1, r.2.1, { frame with base := r.2.2 }))
  | _, _ => some (-EINVAL, h, frame)

def mbuf_raw_video_frame_add_ancillary_data (calloc_holder : Bool) (h : anc_state)
    (frame : mbuf_raw_video_frame) (data : Option Nat) :
    Option (Int × anc_state × mbuf_raw_video_frame) :=
  match data with
  | none => some (-EINVAL, h, frame)
  | some d =>
    (mbuf_base_frame_add_ancillary_data calloc_holder h frame.base d).map
      (fun r => (r.1, r.2.1, { frame with base := r.2.2 }))

def mbuf_raw_video_frame_get_ancillary_data (h : anc_state) (frame : mbuf_raw_video_frame)
    (name : Option String) : Option (Int × Option Nat × anc_state) :=
  match name with
  | none => some (-EINVAL, none, h)
  | some n => mbuf_base_frame_get_ancillary_data h frame.base n

def mbuf_raw_video_frame_remove_ancillary_data (h : anc_state)
    (frame : mbuf_raw_video_frame) (name : Option String) :
    Option (Int × anc_state × mbuf_raw_video_frame) :=
  match name with
  | none => some (-EINVAL, h, frame)
  | some n =>
    (mbuf_base_frame_remove_ancillary_data h frame.base n).map
      (fun r => (r.1, r.2.1, { frame with base := r.2.2 }))

def mbuf_raw_video_frame_foreach_ancillary_data {σ : Type} (frame : mbuf_raw_video_frame)
    (cb : Option (Nat → σ → Option (Bool × σ))) (userdata : σ) : Option (Int × σ) :=
  match cb with
  | none => some (-EINVAL, userdata)
  | some f => mbuf_base_frame_foreach_ancillary_data frame.base f userdata

/-- The callback `mbuf_raw_video_frame_ancillary_data_copier`; the user data is as
for the audio frames. -/
def mbuf_raw_video_frame_ancillary_data_copier (calloc_holder : Nat → Bool) (data : Nat)
    (userdata : Nat × anc_state × mbuf_raw_video_frame) :
    Option (Bool × (Nat × anc_state × mbuf_raw_video_frame)) :=
  match mbuf_raw_video_frame_add_ancillary_data (calloc_holder userdata.1) userdata.2.1
      userdata.2.2 (some data) with
  | none => none
  | some (_, h1, copy) => some (true, (userdata.1 + 1, h1, copy))

/-! #### Raw video frames: release and copy -/

/-- The loop of `mbuf_raw_video_frame_cleaner` over the first planes of the
array. -/
def unref_planes (sp : Nat) : List frame_buffer → Nat → mbuf_state → Option mbuf_state
  | _, 0, s => some s
  | [], _ + 1, _ => none
  | p :: rest, n + 1, s =>
    match p.mem with
    | some m =>
      match mbuf_mem_unref sp s m with
      | none => none
      | some (_, s1) => unref_planes sp rest n s1
    | none => unref_planes sp rest n s

/-- The function `mbuf_raw_video_frame_cleaner`; the frame is freed. -/
def mbuf_raw_video_frame_cleaner (env : frame_env) (w : frame_world)
    (frame : mbuf_raw_video_frame) : Option frame_world :=
  let w1 : frame_world :=
    if frame.cbs.pre_release then
      { w with release_log := w.release_log ++ [frame.cbs.pre_release_userdata] }
    else w
  match unref_planes env.sp frame.planes frame.nplanes w1.mem with
  | none => none
  | some s1 =>
    let r := mbuf_base_frame_set_metadata env.vmeta w1.vmeta_log frame.base none
    mbuf_base_frame_deinit env.vmeta { w1 with mem := s1, vmeta_log := r.2.1 } r.2.2

def mbuf_raw_video_frame_unref (env : frame_env) (w : frame_world)
    (frame : mbuf_raw_video_frame) :
    Option (Int × frame_world × Option mbuf_raw_video_frame) :=
  let r := mbuf_base_frame_unref frame.base.refcount
  let frame1 := { frame with base := { frame.base with refcount := r.2.1 } }
  if r.2.2 then
    match mbuf_raw_video_frame_cleaner env w frame1 with
    | none => none
    | some w1 => some (r.1, w1, none)
  else some (r.1, w, some frame1)

/-- Sum of the lengths of the first planes of the array, as the `size_t`
additions of the source leave it. -/
def planes_len : List frame_buffer → Nat → Option Nat
  | _, 0 => some 0
  | [], _ + 1 => none
  | p :: rest, n + 1 =>
    match planes_len rest n with
    | none => none
    | some l => some (wrap_size (p.len + l))

def mbuf_raw_video_frame_get_packed_size (frame : mbuf_raw_video_frame)
    (remove_stride : Bool) : Option Int :=
  if !mbuf_base_frame_is_finalized frame.base then some (-EBUSY)
  else if !remove_stride then
    -- if we do not care about strides, just sum up the planes length
    (planes_len frame.planes frame.nplanes).map ssize_of
  else
    -- otherwise, ask vdef about it
    some frame.info.contiguous_size

/-- The loop of `mbuf_raw_video_frame_copy` without stride removal, over the
planes of the source still to copy: `i` is the index of the first of them,
`offset` the offset reached in the chunk `dst`. -/
def copy_planes (sp : Nat) (data : Nat → Nat) (dst : Nat) :
    List frame_buffer → Nat → Nat → (Nat → Nat) → mbuf_state → mbuf_raw_video_frame →
    Option (Int × (Nat → Nat) × mbuf_state × mbuf_raw_video_frame)
  | [], _, _, bytes, s, nf => some (0, bytes, s, nf)
  | p :: rest, i, offset, bytes, s, nf =>
    let bytes1 := memcpy bytes (data dst + offset) p.data p.len
    match mbuf_raw_video_frame_set_plane sp data s nf i (some dst) offset p.len with
    | none => none
    | some (ret, s1, nf1) =>
      if ret ≠ 0 then some (ret, bytes1, s1, nf1)
      else copy_planes sp data dst rest (i + 1) (wrap_size (offset + p.len)) bytes1 s1 nf1

/-- The inner loop of the stride removal: the first rows of a plane copied one
by one. -/
def copy_rows (cpdst cpsrc dst_stride src_stride : Nat) : Nat → (Nat → Nat) → (Nat → Nat)
  | 0, bytes => bytes
  | j + 1, bytes =>
    memcpy (copy_rows cpdst cpsrc dst_stride src_stride j bytes)
      (cpdst + j * dst_stride) (cpsrc + j * src_stride) dst_stride

/-- The loop of `mbuf_raw_video_frame_copy` with stride removal; `src_stride`
is `plane_stride` of the source frame, `plane_stride` and `plane_size` are the
outputs of `vdef_calc_raw_frame_size`. -/
def copy_planes_tight (sp : Nat) (data : Nat → Nat) (dst : Nat)
    (src_stride plane_stride plane_size : List Nat) :
    List frame_buffer → Nat → Nat → (Nat → Nat) → mbuf_state → mbuf_raw_video_frame →
    Option (Int × (Nat → Nat) × mbuf_state × mbuf_raw_video_frame)
  | [], _, _, bytes, s, nf => some (0, bytes, s, nf)
  | p :: rest, i, offset, bytes, s, nf =>
    match plane_stride.get? i, plane_size.get? i, src_stride.get? i with
    | some stride, some size, some sstride =>
      if stride = 0 then none
      else
        let nlines := size / stride
        let bytes1 := copy_rows (data dst + offset) p.data stride sstride nlines bytes
        match mbuf_raw_video_frame_set_plane sp data s nf i (some dst) offset size with
        | none => none
        | some (ret, s1, nf1) =>
          if ret ≠ 0 then some (ret, bytes1, s1, nf1)
          else
            copy_planes_tight sp data dst src_stride plane_stride plane_size rest (i + 1)
              (wrap_size (offset + size)) bytes1 s1
              { nf1 with info := { nf1.info with
                  plane_stride := nf1.info.plane_stride.set i stride } }
    | _, _, _ => none

/-- The end of `mbuf_raw_video_frame_copy`, from the label `out`: the read
lock on the source is released, and the new frame is dropped when `ret` is an
error.  `locked` is the source frame with its read lock taken. -/
def mbuf_raw_video_frame_copy_out (env : frame_env) (locked : mbuf_raw_video_frame)
    (ret : Int) (new_frame : Option mbuf_raw_video_frame) (w1 : frame_world) :
    Option (Int × Option mbuf_raw_video_frame × frame_world × mbuf_raw_video_frame) :=
  let u := mbuf_base_frame_rdunlock env.sp locked.base
  let src : mbuf_raw_video_frame := { locked with base := u.2 }
  match new_frame with
  | some nf =>
    if ret ≠ 0 then
      match mbuf_raw_video_frame_unref env w1 nf with
      | none => none
      | some (_, w2, _) => some (ret, none, w2, src)
    else some (ret, some nf, w1, src)
  | none => some (ret, none, w1, src)

/-- The part of `mbuf_raw_video_frame_copy` after the loop over the planes,
whose result is `r`: on success the metadata of the source is attached to the
new frame. -/
def mbuf_raw_video_frame_copy_planes_done (env : frame_env) (w : frame_world)
    (locked : mbuf_raw_video_frame) (h1 : anc_state)
    (r : Int × (Nat → Nat) × mbuf_state × mbuf_raw_video_frame) :
    Option (Int × Option mbuf_raw_video_frame × frame_world × mbuf_raw_video_frame) :=
  let w1 : frame_world := { w with anc := h1, bytes := r.2.1, mem := r.2.2.1 }
  if r.1 ≠ 0 then mbuf_raw_video_frame_copy_out env locked r.1 (some r.2.2.2) w1
  else
    let m := mbuf_base_frame_set_metadata env.vmeta w1.vmeta_log r.2.2.2.base locked.base.meta
    mbuf_raw_video_frame_copy_out env locked r.1 (some { r.2.2.2 with base := m.2.2 })
      { w1 with vmeta_log := m.2.1 }

/-- The part of `mbuf_raw_video_frame_copy` between the creation of the new
frame `nf` and the label `out`: the ancillary data and the planes are copied
into the chunk at address `d`. -/
def mbuf_raw_video_frame_copy_fill (env : frame_env) (w : frame_world)
    (locked : mbuf_raw_video_frame) (d : Nat) (remove_stride : Bool)
    (nf : mbuf_raw_video_frame) :
    Option (Int × Option mbuf_raw_video_frame × frame_world × mbuf_raw_video_frame) :=
  match mbuf_raw_video_frame_foreach_ancillary_data locked
      (some (mbuf_raw_video_frame_ancillary_data_copier env.calloc_holder))
      (0, w.anc, nf) with
  | none => none
  | some (ret1, _, h1, nf1) =>
    if ret1 ≠ 0 then
      mbuf_raw_video_frame_copy_out env locked ret1 (some nf1) { w with anc := h1 }
    else if locked.nplanes > locked.planes.length then none
    else if !remove_stride then
      -- simple case, just copy the planes
      match copy_planes env.sp w.data d (locked.planes.take locked.nplanes)
          0 0 w.bytes w.mem nf1 with
      | none => none
      | some r => mbuf_raw_video_frame_copy_planes_done env w locked h1 r
    else if locked.info.calc_ret ≠ 0 then
      mbuf_raw_video_frame_copy_out env locked locked.info.calc_ret (some nf1)
        { w with anc := h1 }
    else
      match copy_planes_tight env.sp w.data d locked.info.plane_stride
          locked.info.tight_stride locked.info.plane_size
          (locked.planes.take locked.nplanes) 0 0 w.bytes w.mem nf1 with
      | none => none
      | some r => mbuf_raw_video_frame_copy_planes_done env w locked h1 r

/-- The function `mbuf_raw_video_frame_copy`: the return value, `*ret_obj`,
the world and the source frame. -/
def mbuf_raw_video_frame_copy (env : frame_env) (w : frame_world)
    (frame : mbuf_raw_video_frame) (dst : Option Nat) (remove_stride : Bool) :
    Option (Int × Option mbuf_raw_video_frame × frame_world × mbuf_raw_video_frame) :=
  match dst with
  | none => some (-EINVAL, none, w, frame)
  | some d =>
    match mem_at w.mem d with
    | none => none
    | some dmem =>
      if w.data d = 0 then some (-EINVAL, none, w, frame)
      else if !mbuf_base_frame_is_finalized frame.base then some (-EBUSY, none, w, frame)
      else
        match mbuf_raw_video_frame_get_packed_size frame remove_stride with
        | none => none
        | some tmp =>
          if tmp < 0 then some (wrap_int tmp, none, w, frame)
          else
            let required_len := tmp.toNat
            let l := mbuf_base_frame_rdlock env.sp frame.base
            if l.1 ≠ 0 then some (l.1, none, w, { frame with base := l.2 })
            else
              let locked : mbuf_raw_video_frame := { frame with base := l.2 }
              if dmem.size < required_len then
                mbuf_raw_video_frame_copy_out env locked (-ENOSPC) none w
              else
                let n := mbuf_raw_video_frame_new env.calloc_frame (some locked.info)
                match n.2 with
                | none => mbuf_raw_video_frame_copy_out env locked n.1 none w
                | some nf => mbuf_raw_video_frame_copy_fill env w locked d remove_stride nf

/-! ### `mbuf_coded_video_frame.c` -/

/-- `struct vdef_coded_frame` of the video definitions library:
`format_valid` is the answer of `vdef_is_coded_format_valid`, `tag` stands for
the rest of the content. -/
structure vdef_coded_frame where
  format_valid : Bool
  tag : Nat
  deriving DecidableEq, Repr

/-- `struct vdef_nalu` of the video definitions library: the size of the NALU
in bytes; `tag` stands for the rest of the descriptor. -/
structure vdef_nalu where
  size : Nat
  tag : Nat
  deriving DecidableEq, Repr

structure mbuf_coded_video_frame_nalu where
  mem : Nat
  nalu : vdef_nalu
  data : Nat
  deriving DecidableEq, Repr

structure mbuf_coded_video_frame_cbs where
  pre_release : Bool
  pre_release_userdata : Nat
  deriving DecidableEq, Repr

/-- The structure `mbuf_coded_video_frame`; `nalus` is the allocated array,
which has one entry per NALU. -/
structure mbuf_coded_video_frame where
  base : mbuf_base_frame
  info : vdef_coded_frame
  nnalus : Nat
  nalus : List mbuf_coded_video_frame_nalu
  cbs : mbuf_coded_video_frame_cbs
  deriving DecidableEq, Repr

def UINT32_MAX : Nat := 2 ^ 32 - 1

def mbuf_coded_video_frame_new (calloc_ok : Bool) (frame_info : Option vdef_coded_frame) :
    Int × Option mbuf_coded_video_frame :=
  match frame_info with
  | none => (-EINVAL, none)
  | some info =>
    if !info.format_valid then (-EINVAL, none)
    else if !calloc_ok then (-ENOMEM, none)
    else
      (0, some { base := mbuf_base_frame_init, info := info, nnalus := 0, nalus := [],
                 cbs := { pre_release := false, pre_release_userdata := 0 } })

def mbuf_coded_video_frame_set_callbacks (frame : mbuf_coded_video_frame)
    (cbs : Option mbuf_coded_video_frame_cbs) : Int × mbuf_coded_video_frame :=
  match cbs with
  | none => (-EINVAL, frame)
  | some c =>
    if mbuf_base_frame_is_finalized frame.base then (-EBUSY, frame)
    else (0, { frame with cbs := c })

def mbuf_coded_video_frame_ref (frame : mbuf_coded_video_frame) :
    Int × mbuf_coded_video_frame :=
  let r := mbuf_base_frame_ref frame.base.refcount
  (r.1, { frame with base := { frame.base with refcount := r.2 } })

def mbuf_coded_video_frame_set_frame_info (frame : mbuf_coded_video_frame)
    (frame_info : Option vdef_coded_frame) : Int × mbuf_coded_video_frame :=
  match frame_info with
  | none => (-EINVAL, frame)
  | some info =>
    if mbuf_base_frame_is_finalized frame.base then (-EBUSY, frame)
    else (0, { frame with info := info })

def mbuf_coded_video_frame_set_metadata (env : vmeta_env) (log : List vmeta_call)
    (frame : mbuf_coded_video_frame) (meta : Option Nat) :
    Int × List vmeta_call × mbuf_coded_video_frame :=
  match meta with
  | none => (-EINVAL, log, frame)
  | some m =>
    if mbuf_base_frame_is_finalized frame.base then (-EBUSY, log, frame)
    else
      let r := mbuf_base_frame_set_metadata env log frame.base (some m)
      (r.1, r.2.1, { frame with base := r.2.2 })

/-- The function `mbuf_coded_video_frame_insert_nalu_internal`; `index` is a
`uint32_t`, `realloc_ok` says whether `realloc` succeeds. -/
def mbuf_coded_video_frame_insert_nalu_internal (realloc_ok : Bool) (data : Nat → Nat)
    (s : mbuf_state) (frame : mbuf_coded_video_frame) (mem : Nat) (offset : Nat)
    (nalu : vdef_nalu) (index : Nat) :
    Option (Int × mbuf_state × mbuf_coded_video_frame) :=
  -- an index greater than the number of NALUs is set to that number
  let index := if index > frame.nnalus then frame.nnalus else index
  if !realloc_ok then some (-ENOMEM, s, frame)
  else
    match mbuf_mem_ref s mem with
    | none => none
    | some (ret, s1) =>
      if ret ≠ 0 then some (ret, s1, frame)
      else
        some (0, s1,
          { frame with
            nalus := frame.nalus.take index ++
              [{ mem := mem, nalu := nalu, data := data mem + offset }] ++
              (frame.nalus.drop index).take (frame.nnalus - index)
            nnalus := wrap_uint (frame.nnalus + 1) })

def mbuf_coded_video_frame_add_nalu (realloc_ok : Bool) (data : Nat → Nat)
    (s : mbuf_state) (frame : mbuf_coded_video_frame) (mem : Option Nat) (offset : Nat)
    (nalu : Option vdef_nalu) : Option (Int × mbuf_state × mbuf_coded_video_frame) :=
  match mem, nalu with
  | some m, some n =>
    if mbuf_base_frame_is_finalized frame.base then some (-EBUSY, s, frame)
    else mbuf_coded_video_frame_insert_nalu_internal realloc_ok data s frame m offset n
      UINT32_MAX
  | _, _ => some (-EINVAL, s, frame)

def mbuf_coded_video_frame_insert_nalu (realloc_ok : Bool) (data : Nat → Nat)
    (s : mbuf_state) (frame : mbuf_coded_video_frame) (mem : Option Nat) (offset : Nat)
    (nalu : Option vdef_nalu) (index : Nat) :
    Option (Int × mbuf_state × mbuf_coded_video_frame) :=
  match mem, nalu with
  | some m, some n =>
    if mbuf_base_frame_is_finalized frame.base then some (-EBUSY, s, frame)
    else mbuf_coded_video_frame_insert_nalu_internal realloc_ok data s frame m offset n
      (wrap_uint index)
  | _, _ => some (-EINVAL, s, frame)

def mbuf_coded_video_frame_finalize (frame : mbuf_coded_video_frame) :
    Int × mbuf_coded_video_frame :=
  if frame.nnalus = 0 then (-EPROTO, frame)
  else (0, { frame with base := mbuf_base_frame_finalize frame.base })

/-- Returns the return value, `*meta` and the calls made. -/
def mbuf_coded_video_frame_get_metadata (env : vmeta_env) (log : List vmeta_call)
    (frame : mbuf_coded_video_frame) : Int × Option Nat × List vmeta_call :=
  if !mbuf_base_frame_is_finalized frame.base then (-EBUSY, none, log)
  else mbuf_base_frame_get_metadata env log frame.base

/-- A `struct vdef_nalu` after `memset(nalu, 0, sizeof(*nalu))`. -/
def vdef_nalu_zero : vdef_nalu := { size := 0, tag := 0 }

/-- Returns the return value, `*data`, `*nalu` and the frame. -/
def mbuf_coded_video_frame_get_nalu (sp : Nat) (frame : mbuf_coded_video_frame)
    (index : Nat) : Option (Int × Nat × vdef_nalu × mbuf_coded_video_frame) :=
  if !mbuf_base_frame_is_finalized frame.base then some (-EBUSY, 0, vdef_nalu_zero, frame)
  else if index ≥ frame.nnalus then some (-ENOENT, 0, vdef_nalu_zero, frame)
  else
    let r := mbuf_base_frame_rdlock sp frame.base
    if r.1 ≠ 0 then some (r.1, 0, vdef_nalu_zero, { frame with base := r.2 })
    else
      match frame.nalus.get? index with
      | none => none
      | some slot => some (0, slot.data, slot.nalu, { frame with base := r.2 })

def mbuf_coded_video_frame_release_nalu (sp : Nat) (frame : mbuf_coded_video_frame)
    (index : Nat) (data : Nat) : Option (Int × mbuf_coded_video_frame) :=
  if !mbuf_base_frame_is_finalized frame.base then some (-EBUSY, frame)
  else if index ≥ frame.nnalus then some (-EINVAL, frame)
  else
    match frame.nalus.get? index with
    | none => none
    | some slot =>
      if data ≠ slot.data then some (-EINVAL, frame)
      else
        let r := mbuf_base_frame_rdunlock sp frame.base
        some (r.1, { frame with base := r.2 })

/-- Returns the return value, `*data`, `*nalu` and the frame. -/
def mbuf_coded_video_frame_get_rw_nalu (frame : mbuf_coded_video_frame) (index : Nat) :
    Option (Int × Nat × vdef_nalu × mbuf_coded_video_frame) :=
  if !mbuf_base_frame_is_finalized frame.base then some (-EBUSY, 0, vdef_nalu_zero, frame)
  else if index ≥ frame.nnalus then some (-ENOENT, 0, vdef_nalu_zero, frame)
  else
    let r := mbuf_base_frame_wrlock frame.base
    if r.1 ≠ 0 then some (r.1, 0, vdef_nalu_zero, { frame with base := r.2 })
    else
      match frame.nalus.get? index with
      | none => none
      | some slot => some (0, slot.data, slot.nalu, { frame with base := r.2 })

def mbuf_coded_video_frame_release_rw_nalu (frame : mbuf_coded_video_frame)
    (index : Nat) (data : Nat) : Option (Int × mbuf_coded_video_frame) :=
  if !mbuf_base_frame_is_finalized frame.base then some (-EBUSY, frame)
  else if index ≥ frame.nnalus then some (-EINVAL, frame)
  else
    match frame.nalus.get? index with
    | none => none
    | some slot =>
      if data ≠ slot.data then some (-EINVAL, frame)
      else
        let r := mbuf_base_frame_wrunlock frame.base
        some (r.1, { frame with base := r.2 })

/-! #### Coded video frames: ancillary data -/

def mbuf_coded_video_frame_add_ancillary_string (env : anc_env) (h : anc_state)
    (frame : mbuf_coded_video_frame) (name : Option String) (value : Option (List Nat)) :
    Option (Int × anc_state × mbuf_coded_video_frame) :=
  match name, value with
  | some n, some v =>
    (mbuf_base_frame_add_ancillary_string env h frame.base n v).map
      (fun r => (r.1, r.2.1, { frame with base := r.2.2 }))
  | _, _ => some (-EINVAL, h, frame)

def mbuf_coded_video_frame_add_ancillary_buffer (env : anc_env) (h : anc_state)
    (frame : mbuf_coded_video_frame) (name : Option String) (buffer : Option (List Nat))
    (len : Nat) : Option (Int × anc_state × mbuf_coded_video_frame) :=
  match name, buffer with
  | some n, some b =>
    if len = 0 then some (-EINVAL, h, frame)
    else
      (mbuf_base_frame_add_ancillary_buffer env h frame.base n b len).map
        (fun r => (r.1, r.2.1, { frame with base := r.2.2 }))
  | _, _ => some (-EINVAL, h, frame)

/-- Modelled from the spec: the spec gives the addition of a buffer with a
cleaner as an ancillary operation of every kind of frame, but `src/` neither
declares nor defines this function for coded video frames.  It is taken as the
sibling `mbuf_audio_frame_add_ancillary_buffer_with_cbs` is written: the
argument checks of `mbuf_coded_video_frame_add_ancillary_buffer`, then
`mbuf_base_frame_add_ancillary_buffer_with_cbs` on the base of the frame. -/
def mbuf_coded_video_frame_add_ancillary_buffer_with_cbs (env : anc_env) (h : anc_state)
    (frame : mbuf_coded_video_frame) (name : Option String) (buffer : Option (List Nat))
    (len : Nat) (cbs : Option mbuf_ancillary_data_cbs) :
    Option (Int × anc_state × mbuf_coded_video_frame) :=
  match name, buffer with
  | some n, some b =>
    if len = 0 then some (-EINVAL, h, frame)
    else
      (mbuf_base_frame_add_ancillary_buffer_with_cbs env h frame.base n b len cbs).map
        (fun r => (r.1, r.2.1, { frame with base := r.2.2 }))
  | _, _ => some (-EINVAL, h, frame)

def mbuf_coded_video_frame_add_ancillary_data (calloc_holder : Bool) (h : anc_state)
    (frame : mbuf_coded_video_frame) (data : Option Nat) :
    Option (Int × anc_state × mbuf_coded_video_frame) :=
  match data with
  | none => some (-EINVAL, h, frame)
  | some d =>
    (mbuf_base_frame_add_ancillary_data calloc_holder h frame.base d).map
      (fun r => (r.1, r.2.1, { frame with base := r.2.2 }))

def mbuf_coded_video_frame_get_ancillary_data (h : anc_state) (frame : mbuf_coded_video_frame)
    (name : Option String) : Option (Int × Option Nat × anc_state) :=
  match name with
  | none => some (-EINVAL, none, h)
  | some n => mbuf_base_frame_get_ancillary_data h frame.base n

def mbuf_coded_video_frame_remove_ancillary_data (h : anc_state)
    (frame : mbuf_coded_video_frame) (name : Option String) :
    Option (Int × anc_state × mbuf_coded_video_frame) :=
  match name with
  | none => some (-EINVAL, h, frame)
  | some n =>
    (mbuf_base_frame_remove_ancillary_data h frame.base n).map
      (fun r => (r.1, r.2.1, { frame with base := r.2.2 }))

def mbuf_coded_video_frame_foreach_ancillary_data {σ : Type} (frame : mbuf_coded_video_frame)
    (cb : Option (Nat → σ → Option (Bool × σ))) (userdata : σ) : Option (Int × σ) :=
  match cb with
  | none => some (-EINVAL, userdata)
  | some f => mbuf_base_frame_foreach_ancillary_data frame.base f userdata

/-- The callback `mbuf_coded_video_frame_ancillary_data_copier`; the user data
is as for the audio frames. -/
def mbuf_coded_video_frame_ancillary_data_copier (calloc_holder : Nat → Bool) (data : Nat)
    (userdata : Nat × anc_state × mbuf_coded_video_frame) :
    Option (Bool × (Nat × anc_state × mbuf_coded_video_frame)) :=
  match mbuf_coded_video_frame_add_ancillary_data (calloc_holder userdata.1) userdata.2.1
      userdata.2.2 (some data) with
  | none => none
  | some (_, h1, copy) => some (true, (userdata.1 + 1, h1, copy))

/-! #### Coded video frames: release and copy -/

/-- The loop of `mbuf_coded_video_frame_cleaner` over the first entries of the
array. -/
def unref_nalus (sp : Nat) : List mbuf_coded_video_frame_nalu → Nat → mbuf_state →
    Option mbuf_state
  | _, 0, s => some s
  | [], _ + 1, _ => none
  | p :: rest, n + 1, s =>
    match mbuf_mem_unref sp s p.mem with
    | none => none
    | some (_, s1) => unref_nalus sp rest n s1

/-- The function `mbuf_coded_video_frame_cleaner`; the frame is freed. -/
def mbuf_coded_video_frame_cleaner (env : frame_env) (w : frame_world)
    (frame : mbuf_coded_video_frame) : Option frame_world :=
  let w1 : frame_world :=
    if frame.cbs.pre_release then
      { w with release_log := w.release_log ++ [frame.cbs.pre_release_userdata] }
    else w
  match unref_nalus env.sp frame.nalus frame.nnalus w1.mem with
  | none => none
  | some s1 =>
    let r := mbuf_base_frame_set_metadata env.vmeta w1.vmeta_log frame.base none
    mbuf_base_frame_deinit env.vmeta { w1 with mem := s1, vmeta_log := r.2.1 } r.2.2

def mbuf_coded_video_frame_unref (env : frame_env) (w : frame_world)
    (frame : mbuf_coded_video_frame) :
    Option (Int × frame_world × Option mbuf_coded_video_frame) :=
  let r := mbuf_base_frame_unref frame.base.refcount
  let frame1 := { frame with base := { frame.base with refcount := r.2.1 } }
  if r.2.2 then
    match mbuf_coded_video_frame_cleaner env w frame1 with
    | none => none
    | some w1 => some (r.1, w1, none)
  else some (r.1, w, some frame1)

/-- Sum of the sizes of the first NALUs of the array, as the `size_t` additions
of the source leave it. -/
def nalus_size : List mbuf_coded_video_frame_nalu → Nat → Option Nat
  | _, 0 => some 0
  | [], _ + 1 => none
  | p :: rest, n + 1 =>
    match nalus_size rest n with
    | none => none
    | some l => some (wrap_size (p.nalu.size + l))

def mbuf_coded_video_frame_get_packed_size (frame : mbuf_coded_video_frame) : Option Int :=
  if !mbuf_base_frame_is_finalized frame.base then some (-EBUSY)
  else (nalus_size frame.nalus frame.nnalus).map ssize_of

/-- The loop of `mbuf_coded_video_frame_copy` over the NALUs of the source
still to copy: `i` counts the calls of `realloc` made so far, `offset` is the
offset reached in the chunk `dst`. -/
def copy_nalus (realloc_ok : Nat → Bool) (data : Nat → Nat) (dst : Nat) :
    List mbuf_coded_video_frame_nalu → Nat → Nat → (Nat → Nat) → mbuf_state →
    mbuf_coded_video_frame →
    Option (Int × (Nat → Nat) × mbuf_state × mbuf_coded_video_frame)
  | [], _, _, bytes, s, nf => some (0, bytes, s, nf)
  | p :: rest, i, offset, bytes, s, nf =>
    let bytes1 := memcpy bytes (data dst + offset) p.data p.nalu.size
    match mbuf_coded_video_frame_add_nalu (realloc_ok i) data s nf (some dst) offset
        (some p.nalu) with
    | none => none
    | some (ret, s1, nf1) =>
      if ret ≠ 0 then some (ret, bytes1, s1, nf1)
      else
        copy_nalus realloc_ok data dst rest (i + 1) (wrap_size (offset + p.nalu.size))
          bytes1 s1 nf1

/-- The end of `mbuf_coded_video_frame_copy`, from the label `out`: the read
lock on the source is released, and the new frame is dropped when `ret` is an
error.  `locked` is the source frame with its read lock taken. -/
def mbuf_coded_video_frame_copy_out (env : frame_env) (locked : mbuf_coded_video_frame)
    (ret : Int) (new_frame : Option mbuf_coded_video_frame) (w1 : frame_world) :
    Option (Int × Option mbuf_coded_video_frame × frame_world × mbuf_coded_video_frame) :=
  let u := mbuf_base_frame_rdunlock env.sp locked.base
  let src : mbuf_coded_video_frame := { locked with base := u.2 }
  match new_frame with
  | some nf =>
    if ret ≠ 0 then
      match mbuf_coded_video_frame_unref env w1 nf with
      | none => none
      | some (_, w2, _) => some (ret, none, w2, src)
    else some (ret, some nf, w1, src)
  | none => some (ret, none, w1, src)

/-- The function `mbuf_coded_video_frame_copy`: the return value, `*ret_obj`,
the world and the source frame. -/
def mbuf_coded_video_frame_copy (env : frame_env) (w : frame_world)
    (frame : mbuf_coded_video_frame) (dst : Option Nat) :
    Option (Int × Option mbuf_coded_video_frame × frame_world × mbuf_coded_video_frame) :=
  match dst with
  | none => some (-EINVAL, none, w, frame)
  | some d =>
    match mem_at w.mem d with
    | none => none
    | some dmem =>
      if w.data d = 0 then some (-EINVAL, none, w, frame)
      else if !mbuf_base_frame_is_finalized frame.base then some (-EBUSY, none, w, frame)
      else
        let l := mbuf_base_frame_rdlock env.sp frame.base
        if l.1 ≠ 0 then some (l.1, none, w, { frame with base := l.2 })
        else
          let locked : mbuf_coded_video_frame := { frame with base := l.2 }
          match nalus_size locked.nalus locked.nnalus with
          | none => none
          | some required_len =>
            if dmem.size < required_len then
              mbuf_coded_video_frame_copy_out env locked (-ENOSPC) none w
            else
              let n := mbuf_coded_video_frame_new env.calloc_frame (some locked.info)
              match n.2 with
              | none => mbuf_coded_video_frame_copy_out env locked n.1 none w
              | some nf =>
                match mbuf_coded_video_frame_foreach_ancillary_data locked
                    (some (mbuf_coded_video_frame_ancillary_data_copier env.calloc_holder))
                    (0, w.anc, nf) with
                | none => none
                | some (ret1, _, h1, nf1) =>
                  if ret1 ≠ 0 then
                    mbuf_coded_video_frame_copy_out env locked ret1 (some nf1)
                      { w with anc := h1 }
                  else
                    match copy_nalus env.realloc_nalus w.data d
                        (locked.nalus.take locked.nnalus) 0 0 w.bytes w.mem nf1 with
                    | none => none
                    | some r =>
                      let w1 : frame_world :=
                        { w with anc := h1, bytes := r.2.1, mem := r.2.2.1 }
                      if r.1 ≠ 0 then
                        mbuf_coded_video_frame_copy_out env locked r.1 (some r.2.2.2) w1
                      else
                        let m := mbuf_base_frame_set_metadata env.vmeta w1.vmeta_log
                          r.2.2.2.base locked.base.meta
                        mbuf_coded_video_frame_copy_out env locked r.1
                          (some { r.2.2.2 with base := m.2.2 }) { w1 with vmeta_log := m.2.1 }

/-! ### Packed buffers of raw and coded video frames -/

/-- The loop of the packed buffer getters over the segments (start and
length) still to visit: the total length, as the `size_t` additions leave it,
and the flag `packed`.  The pointer `expected` is the end of the segment
before, an addition on a pointer of 64 bits: an end at `2 ^ 64` is the NULL
pointer. -/
def packed_walk : List (Nat × Nat) → Nat → Nat → Bool → Nat × Bool
  | [], _, len, packed => (len, packed)
  | (d, l) :: rest, expected, len, packed =>
    packed_walk rest (wrap_size (d + l)) (wrap_size (len + l))
      (if expected ≠ 0 ∧ expected ≠ d then false else packed)

/-- Start and length of the planes of the array. -/
def plane_segments (planes : List frame_buffer) : List (Nat × Nat) :=
  planes.map (fun p => (p.data, p.len))

/-- Returns the return value, `*data`, `*len` and the frame. -/
def mbuf_raw_video_frame_get_packed_buffer (sp : Nat) (frame : mbuf_raw_video_frame) :
    Option (Int × Nat × Nat × mbuf_raw_video_frame) :=
  if !mbuf_base_frame_is_finalized frame.base then some (-EBUSY, 0, 0, frame)
  else if frame.nplanes = 0 then some (-EINVAL, 0, 0, frame)
  else
    let r := mbuf_base_frame_rdlock sp frame.base
    if r.1 ≠ 0 then some (r.1, 0, 0, { frame with base := r.2 })
    else if frame.nplanes > frame.planes.length then none
    else
      -- prepare plane length and check if packed
      let c := packed_walk (plane_segments (frame.planes.take frame.nplanes)) 0 0 true
      if c.2 then
        match frame.planes.get? 0 with
        | none => none
        | some p => some (0, p.data, c.1, { frame with base := r.2 })
      else
        let u := mbuf_base_frame_rdunlock sp r.2
        some (-EPROTO, 0, c.1, { frame with base := u.2 })

def mbuf_raw_video_frame_release_packed_buffer (sp : Nat) (frame : mbuf_raw_video_frame)
    (data : Nat) : Option (Int × mbuf_raw_video_frame) :=
  if !mbuf_base_frame_is_finalized frame.base then some (-EBUSY, frame)
  else if frame.nplanes = 0 then some (-EINVAL, frame)
  else
    match frame.planes.get? 0 with
    | none => none
    | some p =>
      if data ≠ p.data then some (-EINVAL, frame)
      else
        let r := mbuf_base_frame_rdunlock sp frame.base
        some (r.1, { frame with base := r.2 })

/-- Returns the return value, `*data`, `*len` and the frame. -/
def mbuf_raw_video_frame_get_rw_packed_buffer (frame : mbuf_raw_video_frame) :
    Option (Int × Nat × Nat × mbuf_raw_video_frame) :=
  if !mbuf_base_frame_is_finalized frame.base then some (-EBUSY, 0, 0, frame)
  else if frame.nplanes = 0 then some (-EINVAL, 0, 0, frame)
  else
    let r := mbuf_base_frame_wrlock frame.base
    if r.1 ≠ 0 then some (r.1, 0, 0, { frame with base := r.2 })
    else if frame.nplanes > frame.planes.length then none
    else
      -- prepare plane length and check if packed
      let c := packed_walk (plane_segments (frame.planes.take frame.nplanes)) 0 0 true
      if c.2 then
        match frame.planes.get? 0 with
        | none => none
        | some p => some (0, p.data, c.1, { frame with base := r.2 })
      else
        let u := mbuf_base_frame_wrunlock r.2
        some (-EPROTO, 0, c.1, { frame with base := u.2 })

def mbuf_raw_video_frame_release_rw_packed_buffer (frame : mbuf_raw_video_frame)
    (data : Nat) : Option (Int × mbuf_raw_video_frame) :=
  if !mbuf_base_frame_is_finalized frame.base then some (-EBUSY, frame)
  else if frame.nplanes = 0 then some (-EINVAL, frame)
  else
    match frame.planes.get? 0 with
    | none => none
    | some p =>
      if data ≠ p.data then some (-EINVAL, frame)
      else
        let r := mbuf_base_frame_wrunlock frame.base
        some (r.1, { frame with base := r.2 })

/-- Start and size of the NALUs of the array. -/
def nalu_segments (nalus : List mbuf_coded_video_frame_nalu) : List (Nat × Nat) :=
  nalus.map (fun p => (p.data, p.nalu.size))

/-- Returns the return value, `*data`, `*len` and the frame. -/
def mbuf_coded_video_frame_get_packed_buffer (sp : Nat) (frame : mbuf_coded_video_frame) :
    Option (Int × Nat × Nat × mbuf_coded_video_frame) :=
  if !mbuf_base_frame_is_finalized frame.base then some (-EBUSY, 0, 0, frame)
  else if frame.nnalus = 0 then some (-EINVAL, 0, 0, frame)
  else
    let r := mbuf_base_frame_rdlock sp frame.base
    if r.1 ≠ 0 then some (r.1, 0, 0, { frame with base := r.2 })
    else if frame.nnalus > frame.nalus.length then none
    else
      -- prepare total length and check if packed
      let c := packed_walk (nalu_segments (frame.nalus.take frame.nnalus)) 0 0 true
      if c.2 then
        match frame.nalus.get? 0 with
        | none => none
        | some p => some (0, p.data, c.1, { frame with base := r.2 })
      else
        let u := mbuf_base_frame_rdunlock sp r.2
        some (-EPROTO, 0, c.1, { frame with base := u.2 })

def mbuf_coded_video_frame_release_packed_buffer (sp : Nat)
    (frame : mbuf_coded_video_frame) (data : Nat) :
    Option (Int × mbuf_coded_video_frame) :=
  if !mbuf_base_frame_is_finalized frame.base then some (-EBUSY, frame)
  else if frame.nnalus = 0 then some (-EINVAL, frame)
  else
    match frame.nalus.get? 0 with
    | none => none
    | some p =>
      if data ≠ p.data then some (-EINVAL, frame)
      else
        let r := mbuf_base_frame_rdunlock sp frame.base
        some (r.1, { frame with base := r.2 })

/-- Returns the return value, `*data`, `*len` and the frame. -/
def mbuf_coded_video_frame_get_rw_packed_buffer (frame : mbuf_coded_video_frame) :
    Option (Int × Nat × Nat × mbuf_coded_video_frame) :=
  if !mbuf_base_frame_is_finalized frame.base then some (-EBUSY, 0, 0, frame)
  else if frame.nnalus = 0 then some (-EINVAL, 0, 0, frame)
  else
    let r := mbuf_base_frame_wrlock frame.base
    if r.1 ≠ 0 then some (r.1, 0, 0, { frame with base := r.2 })
    else if frame.nnalus > frame.nalus.length then none
    else
      -- prepare total length and check if packed
      let c := packed_walk (nalu_segments (frame.nalus.take frame.nnalus)) 0 0 true
      if c.2 then
        match frame.nalus.get? 0 with
        | none => none
        | some p => some (0, p.data, c.1, { frame with base := r.2 })
      else
        let u := mbuf_base_frame_wrunlock r.2
        some (-EPROTO, 0, c.1, { frame with base := u.2 })

def mbuf_coded_video_frame_release_rw_packed_buffer (frame : mbuf_coded_video_frame)
    (data : Nat) : Option (Int × mbuf_coded_video_frame) :=
  if !mbuf_base_frame_is_finalized frame.base then some (-EBUSY, frame)
  else if frame.nnalus = 0 then some (-EINVAL, frame)
  else
    match frame.nalus.get? 0 with
    | none => none
    | some p =>
      if data ≠ p.data then some (-EINVAL, frame)
      else
        let r := mbuf_base_frame_wrunlock frame.base
        some (r.1, { frame with base := r.2 })

/-! ### The interface of a frame as a step function

One constructor per function of the public interface that works on an existing
frame and changes it or the world.  The functions that only read (the getters
of the frame info, of the sizes and of the chunk information) are left out,
and so is `foreach_ancillary_data`, whose effects are those of the callback it
is given.  A step gives the return value, the world and the frame, which is
gone once its last reference has been dropped. -/

inductive audio_op
  | set_callbacks (cbs : Option mbuf_audio_frame_cbs)
  | ref
  | unref
  | set_frame_info (frame_info : Option adef_frame)
  | set_buffer (mem : Option Nat) (offset len : Nat)
  | finalize
  | get_buffer
  | release_buffer (data : Nat)
  | get_rw_buffer
  | release_rw_buffer (data : Nat)
  | copy (dst : Option Nat)
  | add_ancillary_string (env : anc_env) (name : Option String) (value : Option (List Nat))
  | add_ancillary_buffer (env : anc_env) (name : Option String)
      (buffer : Option (List Nat)) (len : Nat)
  | add_ancillary_buffer_with_cbs (env : anc_env) (name : Option String)
      (buffer : Option (List Nat)) (len : Nat) (cbs : Option mbuf_ancillary_data_cbs)
  | add_ancillary_data (calloc_holder : Bool) (data : Option Nat)
  | get_ancillary_data (name : Option String)
  | remove_ancillary_data (name : Option String)

/-- A result on the ancillary data of a frame, as a result of a step. -/
def anc_result {φ : Type} (w : frame_world) (r : Option (Int × anc_state × φ)) :
    Option (Int × frame_world × Option φ) :=
  r.map (fun x => (x.1, { w with anc := x.2.1 }, some x.2.2))

/-- A result on the chunks and the frame, as a result of a step. -/
def mem_result {φ : Type} (w : frame_world) (r : Option (Int × mbuf_state × φ)) :
    Option (Int × frame_world × Option φ) :=
  r.map (fun x => (x.1, { w with mem := x.2.1 }, some x.2.2))

def audio_step (env : frame_env) (w : frame_world) (frame : mbuf_audio_frame) :
    audio_op → Option (Int × frame_world × Option mbuf_audio_frame)
  | audio_op.set_callbacks cbs =>
    let r := mbuf_audio_frame_set_callbacks frame cbs
    some (r.1, w, some r.2)
  | audio_op.ref =>
    let r := mbuf_audio_frame_ref frame
    some (r.1, w, some r.2)
  | audio_op.unref => mbuf_audio_frame_unref env w frame
  | audio_op.set_frame_info frame_info =>
    let r := mbuf_audio_frame_set_frame_info frame frame_info
    some (r.1, w, some r.2)
  | audio_op.set_buffer mem offset len =>
    mem_result w (mbuf_audio_frame_set_buffer env.sp w.data w.mem frame mem offset len)
  | audio_op.finalize =>
    let r := mbuf_audio_frame_finalize frame
    some (r.1, w, some r.2)
  | audio_op.get_buffer =>
    let r := mbuf_audio_frame_get_buffer env.sp frame
    some (r.1, w, some r.2.2.2)
  | audio_op.release_buffer data =>
    let r := mbuf_audio_frame_release_buffer env.sp frame data
    some (r.1, w, some r.2)
  | audio_op.get_rw_buffer =>
    let r := mbuf_audio_frame_get_rw_buffer frame
    some (r.1, w, some r.2.2.2)
  | audio_op.release_rw_buffer data =>
    let r := mbuf_audio_frame_release_rw_buffer frame data
    some (r.1, w, some r.2)
  | audio_op.copy dst =>
    (mbuf_audio_frame_copy env w frame dst).map (fun r => (r.1, r.2.2.1, some r.2.2.2))
  | audio_op.add_ancillary_string aenv name value =>
    anc_result w (mbuf_audio_frame_add_ancillary_string aenv w.anc frame name value)
  | audio_op.add_ancillary_buffer aenv name buffer len =>
    anc_result w (mbuf_audio_frame_add_ancillary_buffer aenv w.anc frame name buffer len)
  | audio_op.add_ancillary_buffer_with_cbs aenv name buffer len cbs =>
    anc_result w
      (mbuf_audio_frame_add_ancillary_buffer_with_cbs aenv w.anc frame name buffer len cbs)
  | audio_op.add_ancillary_data calloc_holder data =>
    anc_result w (mbuf_audio_frame_add_ancillary_data calloc_holder w.anc frame data)
  | audio_op.get_ancillary_data name =>
    (mbuf_audio_frame_get_ancillary_data w.anc frame name).map
      (fun r => (r.1, { w with anc := r.2.2 }, some frame))
  | audio_op.remove_ancillary_data name =>
    anc_result w (mbuf_audio_frame_remove_ancillary_data w.anc frame name)

/-- The frame after a sequence of calls, each with what the environment
answers during it; `none` when a call has no defined result or the frame is
gone before the last call. -/
def audio_run : List (frame_env × audio_op) → frame_world → mbuf_audio_frame →
    Option (frame_world × mbuf_audio_frame)
  | [], w, frame => some (w, frame)
  | (env, op) :: rest, w, frame =>
    match audio_step env w frame op with
    | some (_, w1, some frame1) => audio_run rest w1 frame1
    | _ => none

inductive raw_op
  | set_callbacks (cbs : Option mbuf_raw_video_frame_cbs)
  | ref
  | unref
  | set_frame_info (frame_info : Option vdef_raw_frame)
  | set_metadata (meta : Option Nat)
  | set_plane (plane : Nat) (mem : Option Nat) (offset len : Nat)
  | finalize
  | get_metadata
  | get_plane (plane : Nat)
  | release_plane (plane : Nat) (data : Nat)
  | get_rw_plane (plane : Nat)
  | release_rw_plane (plane : Nat) (data : Nat)
  | get_packed_buffer
  | release_packed_buffer (data : Nat)
  | get_rw_packed_buffer
  | release_rw_packed_buffer (data : Nat)
  | copy (dst : Option Nat) (remove_stride : Bool)
  | add_ancillary_string (env : anc_env) (name : Option String) (value : Option (List Nat))
  | add_ancillary_buffer (env : anc_env) (name : Option String)
      (buffer : Option (List Nat)) (len : Nat)
  | add_ancillary_buffer_with_cbs (env : anc_env) (name : Option String)
      (buffer : Option (List Nat)) (len : Nat) (cbs : Option mbuf_ancillary_data_cbs)
  | add_ancillary_data (calloc_holder : Bool) (data : Option Nat)
  | get_ancillary_data (name : Option String)
  | remove_ancillary_data (name : Option String)

/-- A result on the frame alone, as a result of a step. -/
def frame_result {φ : Type} (w : frame_world) (r : Option (Int × φ)) :
    Option (Int × frame_world × Option φ) :=
  r.map (fun x => (x.1, w, some x.2))

/-- A result of a getter (return value, two outputs and the frame), as a
result of a step. -/
def view_result {φ α β : Type} (w : frame_world) (r : Option (Int × α × β × φ)) :
    Option (Int × frame_world × Option φ) :=
  r.map (fun x => (x.1, w, some x.2.2.2))

def raw_step (env : frame_env) (w : frame_world) (frame : mbuf_raw_video_frame) :
    raw_op → Option (Int × frame_world × Option mbuf_raw_video_frame)
  | raw_op.set_callbacks cbs =>
    let r := mbuf_raw_video_frame_set_callbacks frame cbs
    some (r.1, w, some r.2)
  | raw_op.ref =>
    let r := mbuf_raw_video_frame_ref frame
    some (r.1, w, some r.2)
  | raw_op.unref => mbuf_raw_video_frame_unref env w frame
  | raw_op.set_frame_info frame_info =>
    frame_result w (mbuf_raw_video_frame_set_frame_info frame frame_info)
  | raw_op.set_metadata meta =>
    let r := mbuf_raw_video_frame_set_metadata env.vmeta w.vmeta_log frame meta
    some (r.1, { w with vmeta_log := r.2.1 }, some r.2.2)
  | raw_op.set_plane plane mem offset len =>
    mem_result w (mbuf_raw_video_frame_set_plane env.sp w.data w.mem frame plane mem offset len)
  | raw_op.finalize => frame_result w (mbuf_raw_video_frame_finalize frame)
  | raw_op.get_metadata =>
    let r := mbuf_raw_video_frame_get_metadata env.vmeta w.vmeta_log frame
    some (r.1, { w with vmeta_log := r.2.2 }, some frame)
  | raw_op.get_plane plane => view_result w (mbuf_raw_video_frame_get_plane env.sp frame plane)
  | raw_op.release_plane plane data =>
    frame_result w (mbuf_raw_video_frame_release_plane env.sp frame plane data)
  | raw_op.get_rw_plane plane => view_result w (mbuf_raw_video_frame_get_rw_plane frame plane)
  | raw_op.release_rw_plane plane data =>
    frame_result w (mbuf_raw_video_frame_release_rw_plane frame plane data)
  | raw_op.get_packed_buffer =>
    view_result w (mbuf_raw_video_frame_get_packed_buffer env.sp frame)
  | raw_op.release_packed_buffer data =>
    frame_result w (mbuf_raw_video_frame_release_packed_buffer env.sp frame data)
  | raw_op.get_rw_packed_buffer =>
    view_result w (mbuf_raw_video_frame_get_rw_packed_buffer frame)
  | raw_op.release_rw_packed_buffer data =>
    frame_result w (mbuf_raw_video_frame_release_rw_packed_buffer frame data)
  | raw_op.copy dst remove_stride =>
    (mbuf_raw_video_frame_copy env w frame dst remove_stride).map
      (fun r => (r.1, r.2.2.1, some r.2.2.2))
  | raw_op.add_ancillary_string aenv name value =>
    anc_result w (mbuf_raw_video_frame_add_ancillary_string aenv w.anc frame name value)
  | raw_op.add_ancillary_buffer aenv name buffer len =>
    anc_result w (mbuf_raw_video_frame_add_ancillary_buffer aenv w.anc frame name buffer len)
  | raw_op.add_ancillary_buffer_with_cbs aenv name buffer len cbs =>
    anc_result w
      (mbuf_raw_video_frame_add_ancillary_buffer_with_cbs aenv w.anc frame name buffer len cbs)
  | raw_op.add_ancillary_data calloc_holder data =>
    anc_result w (mbuf_raw_video_frame_add_ancillary_data calloc_holder w.anc frame data)
  | raw_op.get_ancillary_data name =>
    (mbuf_raw_video_frame_get_ancillary_data w.anc frame name).map
      (fun r => (r.1, { w with anc := r.2.2 }, some frame))
  | raw_op.remove_ancillary_data name =>
    anc_result w (mbuf_raw_video_frame_remove_ancillary_data w.anc frame name)

def raw_run : List (frame_env × raw_op) → frame_world → mbuf_raw_video_frame →
    Option (frame_world × mbuf_raw_video_frame)
  | [], w, frame => some (w, frame)
  | (env, op) :: rest, w, frame =>
    match raw_step env w frame op with
    | some (_, w1, some frame1) => raw_run rest w1 frame1
    | _ => none

inductive coded_op
  | set_callbacks (cbs : Option mbuf_coded_video_frame_cbs)
  | ref
  | unref
  | set_frame_info (frame_info : Option vdef_coded_frame)
  | set_metadata (meta : Option Nat)
  | add_nalu (realloc_ok : Bool) (mem : Option Nat) (offset : Nat) (nalu : Option vdef_nalu)
  | insert_nalu (realloc_ok : Bool) (mem : Option Nat) (offset : Nat)
      (nalu : Option vdef_nalu) (index : Nat)
  | finalize
  | get_metadata
  | get_nalu (index : Nat)
  | release_nalu (index : Nat) (data : Nat)
  | get_rw_nalu (index : Nat)
  | release_rw_nalu (index : Nat) (data : Nat)
  | get_packed_buffer
  | release_packed_buffer (data : Nat)
  | get_rw_packed_buffer
  | release_rw_packed_buffer (data : Nat)
  | copy (dst : Option Nat)
  | add_ancillary_string (env : anc_env) (name : Option String) (value : Option (List Nat))
  | add_ancillary_buffer (env : anc_env) (name : Option String)
      (buffer : Option (List Nat)) (len : Nat)
  | add_ancillary_buffer_with_cbs (env : anc_env) (name : Option String)
      (buffer : Option (List Nat)) (len : Nat) (cbs : Option mbuf_ancillary_data_cbs)
  | add_ancillary_data (calloc_holder : Bool) (data : Option Nat)
  | get_ancillary_data (name : Option String)
  | remove_ancillary_data (name : Option String)

def coded_step (env : frame_env) (w : frame_world) (frame : mbuf_coded_video_frame) :
    coded_op → Option (Int × frame_world × Option mbuf_coded_video_frame)
  | coded_op.set_callbacks cbs =>
    let r := mbuf_coded_video_frame_set_callbacks frame cbs
    some (r.1, w, some r.2)
  | coded_op.ref =>
    let r := mbuf_coded_video_frame_ref frame
    some (r.1, w, some r.2)
  | coded_op.unref => mbuf_coded_video_frame_unref env w frame
  | coded_op.set_frame_info frame_info =>
    let r := mbuf_coded_video_frame_set_frame_info frame frame_info
    some (r.1, w, some r.2)
  | coded_op.set_metadata meta =>
    let r := mbuf_coded_video_frame_set_metadata env.vmeta w.vmeta_log frame meta
    some (r.1, { w with vmeta_log := r.2.1 }, some r.2.2)
  | coded_op.add_nalu realloc_ok mem offset nalu =>
    mem_result w (mbuf_coded_video_frame_add_nalu realloc_ok w.data w.mem frame mem offset nalu)
  | coded_op.insert_nalu realloc_ok mem offset nalu index =>
    mem_result w
      (mbuf_coded_video_frame_insert_nalu realloc_ok w.data w.mem frame mem offset nalu index)
  | coded_op.finalize =>
    let r := mbuf_coded_video_frame_finalize frame
    some (r.1, w, some r.2)
  | coded_op.get_metadata =>
    let r := mbuf_coded_video_frame_get_metadata env.vmeta w.vmeta_log frame
    some (r.1, { w with vmeta_log := r.2.2 }, some frame)
  | coded_op.get_nalu index => view_result w (mbuf_coded_video_frame_get_nalu env.sp frame index)
  | coded_op.release_nalu index data =>
    frame_result w (mbuf_coded_video_frame_release_nalu env.sp frame index data)
  | coded_op.get_rw_nalu index => view_result w (mbuf_coded_video_frame_get_rw_nalu frame index)
  | coded_op.release_rw_nalu index data =>
    frame_result w (mbuf_coded_video_frame_release_rw_nalu frame index data)
  | coded_op.get_packed_buffer =>
    view_result w (mbuf_coded_video_frame_get_packed_buffer env.sp frame)
  | coded_op.release_packed_buffer data =>
    frame_result w (mbuf_coded_video_frame_release_packed_buffer env.sp frame data)
  | coded_op.get_rw_packed_buffer =>
    view_result w (mbuf_coded_video_frame_get_rw_packed_buffer frame)
  | coded_op.release_rw_packed_buffer data =>
    frame_result w (mbuf_coded_video_frame_release_rw_packed_buffer frame data)
  | coded_op.copy dst =>
    (mbuf_coded_video_frame_copy env w frame dst).map (fun r => (r.1, r.2.2.1, some r.2.2.2))
  | coded_op.add_ancillary_string aenv name value =>
    anc_result w (mbuf_coded_video_frame_add_ancillary_string aenv w.anc frame name value)
  | coded_op.add_ancillary_buffer aenv name buffer len =>
    anc_result w (mbuf_coded_video_frame_add_ancillary_buffer aenv w.anc frame name buffer len)
  | coded_op.add_ancillary_buffer_with_cbs aenv name buffer len cbs =>
    anc_result w
      (mbuf_coded_video_frame_add_ancillary_buffer_with_cbs aenv w.anc frame name buffer len
        cbs)
  | coded_op.add_ancillary_data calloc_holder data =>
    anc_result w (mbuf_coded_video_frame_add_ancillary_data calloc_holder w.anc frame data)
  | coded_op.get_ancillary_data name =>
    (mbuf_coded_video_frame_get_ancillary_data w.anc frame name).map
      (fun r => (r.1, { w with anc := r.2.2 }, some frame))
  | coded_op.remove_ancillary_data name =>
    anc_result w (mbuf_coded_video_frame_remove_ancillary_data w.anc frame name)

def coded_run : List (frame_env × coded_op) → frame_world → mbuf_coded_video_frame →
    Option (frame_world × mbuf_coded_video_frame)
  | [], w, frame => some (w, frame)
  | (env, op) :: rest, w, frame =>
    match coded_step env w frame op with
    | some (_, w1, some frame1) => coded_run rest w1 frame1
    | _ => none

/-! ### Observations on frames -/

/-- A base frame with its finalized flag replaced. -/
def with_finalized (b : Bool) (frame : mbuf_base_frame) : mbuf_base_frame :=
  { frame with finalized := b }

/-- The plane of index `i` of the array has a chunk. -/
def plane_set (planes : List frame_buffer) (i : Nat) : Prop :=
  ∃ p, planes.get? i = some p ∧ p.mem ≠ none

/-- An audio frame format that `adef_is_format_valid` accepts. -/
def audio_info : adef_frame := { format_valid := true, tag := 0 }

/-- The audio frame that `mbuf_audio_frame_new` returns for `audio_info`. -/
def fresh_audio_frame : mbuf_audio_frame :=
  { base := mbuf_base_frame_init, info := audio_info, buffer := frame_buffer_zero,
    cbs := { pre_release := false, pre_release_userdata := 0 } }

/-! ### Concrete frames and environments -/

/-- The metadata library answers 0 to every call. -/
def vmeta_ok : vmeta_env := { ref_ret := 0, unref_ret := 0 }

/-- The value of `mem->data` of the chunk at an address, in the examples. -/
def demo_data (a : Nat) : Nat := 4096 * (a + 1)

/-- A coded video frame format that `vdef_is_coded_format_valid` accepts. -/
def coded_info : vdef_coded_frame := { format_valid := true, tag := 0 }

/-- The coded video frame that `mbuf_coded_video_frame_new` returns for
`coded_info`. -/
def fresh_coded_frame : mbuf_coded_video_frame :=
  { base := mbuf_base_frame_init, info := coded_info, nnalus := 0, nalus := [],
    cbs := { pre_release := false, pre_release_userdata := 0 } }

/-- The frame `fresh_coded_frame` after one NALU of 16 bytes at the start of
the chunk at address 1 has been added. -/
def one_nalu_frame : mbuf_coded_video_frame :=
  { fresh_coded_frame with
    nnalus := 1
    nalus := [{ mem := 1, nalu := { size := 16, tag := 0 }, data := demo_data 1 }] }

/-! ### Well-formed ancillary data -/

/-- The name of the ancillary data at an address, `none` when no live object is
there. -/
def holder_name (h : anc_state) (a : Nat) : Option String :=
  (find_anc h.objs a).map (fun d => d.name)

/-- The live objects have distinct addresses, all below the address of the
next allocation. -/
def anc_heap_wf (h : anc_state) : Prop :=
  (h.objs.map (fun d => d.addr)).Nodup ∧ ∀ d ∈ h.objs, d.addr < h.next_addr

/-- The holders of a list point to live objects whose names are pairwise
distinct. -/
def anc_wf (h : anc_state) (l : List Nat) : Prop :=
  anc_heap_wf h ∧ (∀ a ∈ l, holder_name h a ≠ none) ∧ (l.map (holder_name h)).Nodup

/-- Every allocation of a call that adds ancillary data succeeds. -/
def anc_env_ok : anc_env :=
  { calloc_data := true, strdup_name := true, malloc_buffer := true, calloc_holder := true }

/-- The object that `mbuf_base_frame_create_ancillary_internal` allocates and
fills when its allocations succeed, as it is once the function has dropped its
own reference and a frame holds the only one. -/
def created_data (h : anc_state) (name : String) (buffer : List Nat) (len : Nat)
    (is_string : Bool) (cbs : Option mbuf_ancillary_data_cbs) : mbuf_ancillary_data :=
  { addr := h.next_addr, name := name, is_string := is_string, buffer := buffer.take len,
    len := len, ref_count := 1,
    cleaner := match cbs with
      | some c => c.cleaner
      | none => false }

/-- A call of the ancillary data interface on the base frame, with non-NULL
arguments. -/
inductive anc_op
  | add_string (env : anc_env) (name : String) (value : List Nat)
  | add_buffer (env : anc_env) (name : String) (buffer : List Nat) (len : Nat)
  | add_buffer_with_cbs (env : anc_env) (name : String) (buffer : List Nat) (len : Nat)
      (cbs : Option mbuf_ancillary_data_cbs)
  | add_data (calloc_holder : Bool) (data : Nat)
  | get (name : String)
  | remove (name : String)

/-- Return value, heap and frame after one call. -/
def anc_step (h : anc_state) (frame : mbuf_base_frame) :
    anc_op → Option (Int × anc_state × mbuf_base_frame)
  | anc_op.add_string env name value =>
    mbuf_base_frame_add_ancillary_string env h frame name value
  | anc_op.add_buffer env name buffer len =>
    mbuf_base_frame_add_ancillary_buffer env h frame name buffer len
  | anc_op.add_buffer_with_cbs env name buffer len cbs =>
    mbuf_base_frame_add_ancillary_buffer_with_cbs env h frame name buffer len cbs
  | anc_op.add_data calloc_holder data =>
    mbuf_base_frame_add_ancillary_data calloc_holder h frame data
  | anc_op.get name =>
    (mbuf_base_frame_get_ancillary_data h frame name).map (fun r => (r.1, r.2.2, frame))
  | anc_op.remove name => mbuf_base_frame_remove_ancillary_data h frame name

/-- The states of the ancillary data of a frame: a new frame on a well-formed
heap, then any calls of the ancillary data interface with a defined result
(`step`), any calls that leave the list of the frame alone (`other`),
references taken on live data from elsewhere (`ref`), and references dropped
from elsewhere (`unref`) by a caller that holds one: when the frame holds the
data too, the count is then at least 2. -/
inductive anc_reach : anc_state → mbuf_base_frame → Prop
  | init (h : anc_state) : anc_heap_wf h → anc_reach h mbuf_base_frame_init
  | step (op : anc_op) (h h1 : anc_state) (frame frame1 : mbuf_base_frame) (ret : Int) :
      anc_reach h frame → anc_step h frame op = some (ret, h1, frame1) → anc_reach h1 frame1
  | other (h : anc_state) (frame frame1 : mbuf_base_frame) :
      anc_reach h frame → frame1.ancillary_data = frame.ancillary_data → anc_reach h frame1
  | ref (a : Nat) (h h1 : anc_state) (frame : mbuf_base_frame) (ret : Int) :
      anc_reach h frame → mbuf_ancillary_data_ref h (some a) = some (ret, h1) →
      anc_reach h1 frame
  | unref (a : Nat) (h h1 : anc_state) (frame : mbuf_base_frame) (ret : Int) :
      anc_reach h frame →
      (a ∈ frame.ancillary_data → ∀ d, find_anc h.objs a = some d → 1 < d.ref_count) →
      mbuf_ancillary_data_unref h (some a) = some (ret, h1) → anc_reach h1 frame

/-! ### Concrete ancillary data -/

/-- A heap of ancillary data without objects. -/
def anc_empty : anc_state := { objs := [], cleaner_log := [], next_addr := 1 }

/-- The string `h` (one character and the final 0) under the name `a`, at
address 1, with one reference. -/
def one_entry_data : mbuf_ancillary_data :=
  { addr := 1
    name := "a"
    is_string := true
    buffer := [104, 0]
    len := 2
    ref_count := 1
    cleaner := false }

/-- The heap `anc_empty` after `one_entry_data` has been added to a frame. -/
def one_entry_heap : anc_state :=
  { objs := [one_entry_data], cleaner_log := [], next_addr := 2 }

/-- The base of a new frame after that call: one holder, for the data at
address 1. -/
def one_entry_frame : mbuf_base_frame := { mbuf_base_frame_init with ancillary_data := [1] }

/-- The pool of two chunks that never grows, with both chunks taken. -/
def both_taken : mbuf_state := (mbuf_pool_get env_ok taken_pool).2.2

/-- Every allocation of the frame functions succeeds, the metadata library
answers 0 and no compare-and-swap fails spuriously. -/
def frame_env_ok : frame_env :=
  { sp := 0
    vmeta := vmeta_ok
    calloc_frame := true
    calloc_holder := fun _ => true
    realloc_nalus := fun _ => true }

/-- The chunks of `both_taken`, memory filled with zeros and the ancillary
data of `one_entry_heap`. -/
def copy_world : frame_world :=
  { mem := both_taken
    data := demo_data
    bytes := fun _ => 0
    anc := one_entry_heap
    vmeta_log := []
    release_log := [] }

/-- A finalized coded video frame with one NALU in the chunk at address 1 and
the ancillary data of `one_entry_frame`. -/
def shared_frame : mbuf_coded_video_frame :=
  { one_nalu_frame with base := { one_entry_frame with finalized := true } }

/-- A raw video frame format with one plane that `vdef_is_raw_format_valid`
accepts. -/
def raw_info : vdef_raw_frame :=
  { format_valid := true
    plane_count := 1
    plane_stride := [16]
    contiguous_size := 16
    calc_ret := 0
    tight_stride := [16]
    plane_size := [16]
    tag := 0 }

/-- The raw video frame that `mbuf_raw_video_frame_new` returns for
`raw_info`. -/
def fresh_raw_frame : mbuf_raw_video_frame :=
  { base := mbuf_base_frame_init, info := raw_info,
    planes := List.replicate VDEF_RAW_MAX_PLANE_COUNT frame_buffer_zero,
    nplanes := 1, cbs := { pre_release := false, pre_release_userdata := 0 } }

/-! ### Memory information of a payload slot -/

/-- The structure `mbuf_mem_info` of `mbuf_mem.h`: the cookie of the
implementation of a chunk and its `specific` pointer. -/
structure mbuf_mem_info where
  cookie : Nat
  specific : Nat
  deriving DecidableEq, Repr

/-- The function `mbuf_coded_video_frame_get_nalu_mem_info`; `cookie` and
`specific` give `mem->cookie` and `mem->specific` for the chunk at an address,
and `info` is the content of `*info` before the call.  Returns the return
value and the content of `*info`; reading `frame->nalus[index]` outside of the
array, or the fields of a chunk that is not live, has no defined result. -/
def mbuf_coded_video_frame_get_nalu_mem_info (cookie specific : Nat → Nat) (s : mbuf_state)
    (frame : mbuf_coded_video_frame) (index : Nat) (info : Option mbuf_mem_info) :
    Option (Int × Option mbuf_mem_info) :=
  match info with
  | none => some (-EINVAL, none)
  | some i0 =>
    if !mbuf_base_frame_is_finalized frame.base then some (-EBUSY, some i0)
    else if index > frame.nnalus then some (-EINVAL, some i0)
    else
      match frame.nalus.get? index with
      | none => none
      | some slot =>
        match mem_at s slot.mem with
        | none => none
        | some _ =>
          some (0, some { cookie := cookie slot.mem, specific := specific slot.mem })

/-- The function `mbuf_raw_video_frame_get_plane_mem_info`, with the same
conventions. -/
def mbuf_raw_video_frame_get_plane_mem_info (cookie specific : Nat → Nat) (s : mbuf_state)
    (frame : mbuf_raw_video_frame) (plane : Nat) (info : Option mbuf_mem_info) :
    Option (Int × Option mbuf_mem_info) :=
  match info with
  | none => some (-EINVAL, none)
  | some i0 =>
    if plane ≥ frame.nplanes then some (-EINVAL, some i0)
    else if !mbuf_base_frame_is_finalized frame.base then some (-EBUSY, some i0)
    else
      match frame.planes.get? plane with
      | none => none
      | some slot =>
        match slot.mem with
        | none => none
        | some m =>
          match mem_at s m with
          | none => none
          | some _ => some (0, some { cookie := cookie m, specific := specific m })

/-- A raw video frame format with as many planes as a format can have,
`VDEF_RAW_MAX_PLANE_COUNT`, that `vdef_is_raw_format_valid` accepts. -/
def raw_info_max : vdef_raw_frame :=
  { format_valid := true
    plane_count := VDEF_RAW_MAX_PLANE_COUNT
    plane_stride := [16, 16, 16, 16]
    contiguous_size := 64
    calc_ret := 0
    tight_stride := [16, 16, 16, 16]
    plane_size := [16, 16, 16, 16]
    tag := 0 }

/-! ### Packed segments -/

/-- Each segment `(start, length)` after the first starts where the one before
it ends. -/
def segments_packed : List (Nat × Nat) → Bool
  | [] => true
  | [_] => true
  | a :: b :: rest => decide (b.1 = a.1 + a.2) && segments_packed (b :: rest)

/-- Each segment after the first starts where the one before it ends, unless
that end is the NULL pointer; the end is taken as a pointer of 64 bits. -/
def segments_chained : List (Nat × Nat) → Bool
  | [] => true
  | [_] => true
  | a :: b :: rest =>
    (decide (wrap_size (a.1 + a.2) = 0) || decide (b.1 = wrap_size (a.1 + a.2))) &&
      segments_chained (b :: rest)

/-- The first segment of the list, if there is one, starts at `e`, unless `e`
is the NULL pointer. -/
def segment_follows (e : Nat) : List (Nat × Nat) → Bool
  | [] => true
  | a :: _ => decide (e = 0) || decide (a.1 = e)

/-- Sum of the lengths of the segments. -/
def segments_len (l : List (Nat × Nat)) : Nat := (l.map (fun x => x.2)).sum

/-- The value of `mem->data` in the example where the chunk at address 3 wraps
the NULL pointer. -/
def null_wrap_data (a : Nat) : Nat := if a = 3 then 0 else demo_data a

/-- The state after `mbuf_mem_generic_wrap` has wrapped a buffer of length 0,
next to the pool whose first chunk is taken: the new chunk is at address 3. -/
def null_wrap_state : mbuf_state := (mbuf_mem_generic_wrap true true taken_pool 0 true).2.2

/-- A NALU of no byte. -/
def empty_nalu : vdef_nalu := { size := 0, tag := 0 }

/-- A NALU of 16 bytes. -/
def small_nalu : vdef_nalu := { size := 16, tag := 0 }

/-- The finalized coded video frame with two NALUs: an empty one at the start
of the chunk at address 3 and one of 16 bytes at the start of the chunk at
address 1. -/
def null_start_frame : mbuf_coded_video_frame :=
  { fresh_coded_frame with
    base := { mbuf_base_frame_init with finalized := true }
    nnalus := 2
    nalus := [{ mem := 3, nalu := empty_nalu, data := 0 },
              { mem := 1, nalu := small_nalu, data := demo_data 1 }] }

/-! ### `mbuf_base_frame.c`: the queue of frames

A queue links holders that point to frames, so the frames are kept in a heap
and named by their address: the address of a frame, of its
`struct mbuf_base_frame` and the value of `base->parent` are the same number.
The list of holders is the list of the utilities library (`futils/list.h`),
which is not part of this repository: `list_push` links a node at the tail,
`list_pop` unlinks the head and gives NULL on an empty list, `list_first` is
the head, and a forward walk goes from the head to the tail.  The wake signal
is the event of the messaging library (`pomp_evt`): `pomp_evt_signal` sets it
and `pomp_evt_clear` resets it. -/

/-- The frames of the program by address: `frame a` is the base of the live
frame at address `a`, `none` where no live frame is.  `cleaned` lists the
frames on which `frame->cleaner(frame->parent)` has been called, the most
recent first; the cleaner of each kind destroys the frame, so the frame is
gone from `frame` afterwards. -/
structure frame_heap where
  frame : Nat → Option mbuf_base_frame
  cleaned : List Nat

/-- The function `mbuf_base_frame_ref` through a pointer to a frame; `none`
when it points to no live frame, which the source does not define. -/
def mbuf_base_frame_ref_at (h : frame_heap) (a : Nat) : Option (Int × frame_heap) :=
  match h.frame a with
  | none => none
  | some f =>
    let r := mbuf_base_frame_ref f.refcount
    some (r.1,
      { h with frame := fun x => if x = a then some { f with refcount := r.2 } else h.frame x })

/-- The function `mbuf_base_frame_unref` through a pointer to a frame; `none`
when it points to no live frame. -/
def mbuf_base_frame_unref_at (h : frame_heap) (a : Nat) : Option (Int × frame_heap) :=
  match h.frame a with
  | none => none
  | some f =>
    let r := mbuf_base_frame_unref f.refcount
    if r.2.2 then
      some (r.1,
        { frame := fun x => if x = a then none else h.frame x, cleaned := a :: h.cleaned })
    else
      some (r.1,
        { h with
          frame := fun x => if x = a then some { f with refcount := r.2.1 } else h.frame x })

/-- The structure `mbuf_base_frame_queue`: `frames` lists `holder->base` for
the holders linked in the queue, head first; `event` is `none` for a NULL
pointer and says otherwise whether the event is signalled. -/
structure mbuf_base_frame_queue where
  frames : List Nat
  nframes : Int
  maxframes : Int
  event : Option Bool
  deriving DecidableEq, Repr

/-- What the environment answers during `mbuf_base_frame_queue_push`: whether
`calloc` of the holder succeeds and what `pomp_evt_signal` returns. -/
structure queue_env where
  calloc_holder : Bool
  signal_ret : Int
  deriving DecidableEq, Repr

/-- The function `mbuf_base_frame_queue_flush_internal`, its loop over the
holders first. -/
def mbuf_base_frame_queue_flush_walk : List Nat → frame_heap → Option frame_heap
  | [], h => some h
  | holder :: rest, h =>
    match mbuf_base_frame_unref_at h holder with
    | none => none
    | some (_, h1) => mbuf_base_frame_queue_flush_walk rest h1

def mbuf_base_frame_queue_flush_internal (h : frame_heap) (queue : mbuf_base_frame_queue) :
    Option (Int × frame_heap × mbuf_base_frame_queue) :=
  match mbuf_base_frame_queue_flush_walk queue.frames h with
  | none => none
  | some h1 =>
    some (0, h1,
      { queue with frames := [], nframes := 0, event := queue.event.map (fun _ => false) })

/-- The function `mbuf_base_frame_queue_init`; `mutex_ret` is what
`pthread_mutex_init` returns and `evt_ok` says whether `pomp_evt_new` gives an
event. -/
def mbuf_base_frame_queue_init (mutex_ret : Int) (evt_ok : Bool)
    (queue : mbuf_base_frame_queue) (maxframes : Int) : Int × mbuf_base_frame_queue :=
  let queue1 := { queue with maxframes := maxframes, frames := [] }
  if mutex_ret ≠ 0 then (mutex_ret, queue1)
  else if !evt_ok then (-ENOMEM, { queue1 with event := none })
  else (0, { queue1 with event := some false })

/-- The part of `mbuf_base_frame_queue_push` after a frame has been dropped if
needed. -/
def mbuf_base_frame_queue_push_new (env : queue_env) (h : frame_heap)
    (queue : mbuf_base_frame_queue) (base : Nat) :
    Option (Int × frame_heap × mbuf_base_frame_queue) :=
  match mbuf_base_frame_ref_at h base with
  | none => none
  | some (ret, h1) =>
    if ret ≠ 0 then some (ret, h1, queue)
    else if env.signal_ret ≠ 0 then some (env.signal_ret, h1, queue)
    else
      some (0, h1,
        { queue with
          frames := queue.frames ++ [base]
          nframes := wrap_int (queue.nframes + 1)
          event := queue.event.map (fun _ => true) })

def mbuf_base_frame_queue_push (env : queue_env) (h : frame_heap)
    (queue : mbuf_base_frame_queue) (base : Nat) :
    Option (Int × frame_heap × mbuf_base_frame_queue) :=
  if !env.calloc_holder then some (-ENOMEM, h, queue)
  else if queue.maxframes ≠ 0 ∧ queue.nframes ≥ queue.maxframes then
    -- drop a frame if needed
    match queue.frames with
    | [] => some (-EPROTO, h, queue)
    | tmp :: rest =>
      match mbuf_base_frame_unref_at h tmp with
      | none => none
      | some (_, h1) =>
        mbuf_base_frame_queue_push_new env h1
          { queue with frames := rest, nframes := wrap_int (queue.nframes - 1) } base
  else mbuf_base_frame_queue_push_new env h queue base

/-- Returns the return value, the heap and `*out_frame` when it is written. -/
def mbuf_base_frame_queue_peek (h : frame_heap) (queue : mbuf_base_frame_queue) :
    Option (Int × frame_heap × Option Nat) :=
  if queue.nframes = 0 then some (-EAGAIN, h, none)
  else
    match queue.frames with
    | [] => some (-EPROTO, h, none)
    | holder :: _ =>
      match mbuf_base_frame_ref_at h holder with
      | none => none
      | some (ret, h1) => if ret ≠ 0 then some (ret, h1, none) else some (0, h1, some holder)

/-- The forward walk of `mbuf_base_frame_queue_peek_at`, from the counter `i`:
the holder found, if any. -/
def mbuf_base_frame_queue_walk : List Nat → Nat → Nat → Option Nat
  | [], _, _ => none
  | holder :: rest, i, index =>
    if i = index then some holder
    else mbuf_base_frame_queue_walk rest (wrap_uint (i + 1)) index

/-- Returns the return value, the heap and `*out_frame` when it is written;
`index` is an `unsigned int`. -/
def mbuf_base_frame_queue_peek_at (h : frame_heap) (queue : mbuf_base_frame_queue)
    (index : Nat) : Option (Int × frame_heap × Option Nat) :=
  if queue.nframes = 0 then some (-EAGAIN, h, none)
  else
    match mbuf_base_frame_queue_walk queue.frames 0 index with
    | none => some (-ENOENT, h, none)
    | some holder =>
      match mbuf_base_frame_ref_at h holder with
      | none => none
      | some (ret, h1) => if ret ≠ 0 then some (ret, h1, none) else some (0, h1, some holder)

/-- Returns the return value, the queue and `*out_frame` when it is written;
`none` when the holder points to no live frame, whose `parent` is read. -/
def mbuf_base_frame_queue_pop (h : frame_heap) (queue : mbuf_base_frame_queue) :
    Option (Int × mbuf_base_frame_queue × Option Nat) :=
  if queue.nframes = 0 then some (-EAGAIN, queue, none)
  else
    match queue.frames with
    | [] => some (-EPROTO, queue, none)
    | holder :: rest =>
      let nframes := wrap_int (queue.nframes - 1)
      match h.frame holder with
      | none => none
      | some _ =>
        some (0,
          { queue with
            frames := rest
            nframes := nframes
            event := if nframes = 0 then queue.event.map (fun _ => false) else queue.event },
          some holder)

def mbuf_base_frame_queue_flush (h : frame_heap) (queue : mbuf_base_frame_queue) :
    Option (Int × frame_heap × mbuf_base_frame_queue) :=
  match mbuf_base_frame_queue_flush_internal h queue with
  | none => none
  | some (_, h1, queue1) => some (0, h1, queue1)

def mbuf_base_frame_queue_get_count (queue : mbuf_base_frame_queue) : Int := queue.nframes

/-! ### The queues of the three kinds of frame

`mbuf_audio_frame.c`, `mbuf_raw_video_frame.c` and `mbuf_coded_video_frame.c`
have the same queue functions, the name of the kind apart; they are given here
under the names of `mbuf_coded_video_frame.c`. -/

/-- The structure `mbuf_coded_video_frame_queue_args`; the filter is given
with its user data, as a function of the frame, and `max_frames` is a
`uint32_t`. -/
structure mbuf_coded_video_frame_queue_args where
  filter : Option (Nat → Bool)
  max_frames : Nat

/-- The structure `mbuf_coded_video_frame_queue`; `filter` stands for the
fields `filter` and `filter_userdata`. -/
structure mbuf_coded_video_frame_queue where
  base : mbuf_base_frame_queue
  filter : Option (Nat → Bool)

/-- The function `mbuf_coded_video_frame_queue_new_with_args`: the return
value and `*ret_obj`.  `calloc_ok`, `mutex_ret` and `evt_ok` are the answers
of `calloc`, `pthread_mutex_init` and `pomp_evt_new`; `ret_obj` says whether
the pointer is not NULL. -/
def mbuf_coded_video_frame_queue_new_with_args (calloc_ok : Bool) (mutex_ret : Int)
    (evt_ok : Bool) (args : Option mbuf_coded_video_frame_queue_args) (ret_obj : Bool) :
    Int × Option mbuf_coded_video_frame_queue :=
  if !ret_obj then (-EINVAL, none)
  else if !calloc_ok then (-ENOMEM, none)
  else
    let zeroed : mbuf_base_frame_queue :=
      { frames := [], nframes := 0, maxframes := 0, event := none }
    let filter : Option (Nat → Bool) :=
      match args with
      | some a => a.filter
      | none => none
    let max_frames : Int :=
      match args with
      | some a => wrap_int (a.max_frames : Int)
      | none => 0
    let r := mbuf_base_frame_queue_init mutex_ret evt_ok zeroed max_frames
    if r.1 ≠ 0 then (r.1, none)
    else (r.1, some { base := r.2, filter := filter })

def mbuf_coded_video_frame_queue_new (calloc_ok : Bool) (mutex_ret : Int) (evt_ok : Bool)
    (ret_obj : Bool) : Int × Option mbuf_coded_video_frame_queue :=
  mbuf_coded_video_frame_queue_new_with_args calloc_ok mutex_ret evt_ok none ret_obj

/-- The function `mbuf_coded_video_frame_queue_push`; `none` when `frame`
points to no live frame. -/
def mbuf_coded_video_frame_queue_push (env : queue_env) (h : frame_heap)
    (queue : Option mbuf_coded_video_frame_queue) (frame : Option Nat) :
    Option (Int × frame_heap × Option mbuf_coded_video_frame_queue) :=
  match queue, frame with
  | none, _ => some (-EINVAL, h, queue)
  | some _, none => some (-EINVAL, h, queue)
  | some q, some a =>
    match h.frame a with
    | none => none
    | some f =>
      if !mbuf_base_frame_is_finalized f then some (-EBUSY, h, queue)
      else if (match q.filter with
          | some p => !p a
          | none => false) then some (-EPROTO, h, queue)
      else
        match mbuf_base_frame_queue_push env h q.base a with
        | none => none
        | some (ret, h1, base1) => some (ret, h1, some { q with base := base1 })

/-- Returns the return value, the heap and `*out_frame` (`none` for NULL);
`out_frame` says whether the pointer is not NULL. -/
def mbuf_coded_video_frame_queue_peek (h : frame_heap)
    (queue : Option mbuf_coded_video_frame_queue) (out_frame : Bool) :
    Option (Int × frame_heap × Option Nat) :=
  if !out_frame then some (-EINVAL, h, none)
  else
    match queue with
    | none => some (-EINVAL, h, none)
    | some q =>
      match mbuf_base_frame_queue_peek h q.base with
      | none => none
      | some (ret, h1, tmp_frame) =>
        if ret = 0 then some (ret, h1, tmp_frame) else some (ret, h1, none)

/-- Returns the return value, the heap and `*out_frame` (`none` for NULL). -/
def mbuf_coded_video_frame_queue_peek_at (h : frame_heap)
    (queue : Option mbuf_coded_video_frame_queue) (index : Nat) (out_frame : Bool) :
    Option (Int × frame_heap × Option Nat) :=
  if !out_frame then some (-EINVAL, h, none)
  else
    match queue with
    | none => some (-EINVAL, h, none)
    | some q =>
      match mbuf_base_frame_queue_peek_at h q.base index with
      | none => none
      | some (ret, h1, tmp_frame) =>
        if ret = 0 then some (ret, h1, tmp_frame) else some (ret, h1, none)

/-- Returns the return value, the queue and `*out_frame` (`none` for NULL). -/
def mbuf_coded_video_frame_queue_pop (h : frame_heap)
    (queue : Option mbuf_coded_video_frame_queue) (out_frame : Bool) :
    Option (Int × Option mbuf_coded_video_frame_queue × Option Nat) :=
  if !out_frame then some (-EINVAL, queue, none)
  else
    match queue with
    | none => some (-EINVAL, queue, none)
    | some q =>
      match mbuf_base_frame_queue_pop h q.base with
      | none => none
      | some (ret, base1, tmp_frame) =>
        if ret = 0 then some (ret, some { q with base := base1 }, tmp_frame)
        else some (ret, some { q with base := base1 }, none)

def mbuf_coded_video_frame_queue_flush (h : frame_heap)
    (queue : Option mbuf_coded_video_frame_queue) :
    Option (Int × frame_heap × Option mbuf_coded_video_frame_queue) :=
  match queue with
  | none => some (-EINVAL, h, queue)
  | some q =>
    match mbuf_base_frame_queue_flush h q.base with
    | none => none
    | some (ret, h1, base1) => some (ret, h1, some { q with base := base1 })

def mbuf_coded_video_frame_queue_get_count (queue : Option mbuf_coded_video_frame_queue) :
    Int :=
  match queue with
  | none => -EINVAL
  | some q => mbuf_base_frame_queue_get_count q.base

/-! ### Runs of queue operations -/

/-- The heap `h0` after the frames of `l` have been referenced once for each
of their occurrences in `l`. -/
def queued_heap (h0 : frame_heap) (l : List Nat) : frame_heap :=
  { frame := fun a => (h0.frame a).map (fun f => { f with refcount := f.refcount + l.count a })
    cleaned := h0.cleaned }

/-- The frames a queue holds after a push of `a`, when it held `l` and is
limited to `maxframes` frames (0 for no limit). -/
def pushed_frames (maxframes : Int) (l : List Nat) (a : Nat) : List Nat :=
  if maxframes ≠ 0 ∧ (l.length : Int) ≥ maxframes then l.tail ++ [a] else l ++ [a]

/-- Successive calls of `mbuf_coded_video_frame_queue_push`, one for each
frame of the list: the return values, the heap and the queue. -/
def queue_pushes (env : queue_env) :
    List Nat → frame_heap → mbuf_coded_video_frame_queue →
    Option (List Int × frame_heap × mbuf_coded_video_frame_queue)
  | [], h, q => some ([], h, q)
  | a :: rest, h, q =>
    match mbuf_coded_video_frame_queue_push env h (some q) (some a) with
    | some (ret, h1, some q1) =>
      match queue_pushes env rest h1 q1 with
      | none => none
      | some (rets, h2, q2) => some (ret :: rets, h2, q2)
    | _ => none

/-- Successive calls of `mbuf_coded_video_frame_queue_pop`: the return value
and the frame of each call, and the queue. -/
def queue_pops (h : frame_heap) :
    Nat → mbuf_coded_video_frame_queue →
    Option (List (Int × Option Nat) × mbuf_coded_video_frame_queue)
  | 0, q => some ([], q)
  | n + 1, q =>
    match mbuf_coded_video_frame_queue_pop h (some q) true with
    | some (ret, some q1, out) =>
      match queue_pops h n q1 with
      | none => none
      | some (outs, q2) => some ((ret, out) :: outs, q2)
    | _ => none

/-- The queue with the given filter and limit that holds the frames of `l` and
counts them, its event signalled or not. -/
def queue_holding (filter : Option (Nat → Bool)) (maxframes : Int) (l : List Nat)
    (event : Bool) : mbuf_coded_video_frame_queue :=
  { base := { frames := l, nframes := (l.length : Int), maxframes := maxframes,
              event := some event },
    filter := filter }

/-- Every allocation of the queue functions succeeds and `pomp_evt_signal`
returns 0. -/
def queue_env_ok : queue_env := { calloc_holder := true, signal_ret := 0 }

/-- Three finalized frames with one reference each, at the addresses 1, 2 and
3. -/
def demo_heap : frame_heap :=
  { frame := fun a =>
      if a = 1 ∨ a = 2 ∨ a = 3 then some { mbuf_base_frame_init with finalized := true }
      else none
    cleaned := [] }

/-! ### The payload of a copy -/

/-- The planes of the list laid out back to back in the chunk `dst`, whose
data is at `base`, from the offset given. -/
def packed_planes (base dst : Nat) : List frame_buffer → Nat → List frame_buffer
  | [], _ => []
  | p :: rest, offset =>
    { mem := some dst, data := base + offset, len := p.len } ::
      packed_planes base dst rest (offset + p.len)

/-- Memory after the rows of the planes `(start, stride, tight stride, size)`
of the list have been copied, row after row, to `base + offset` and the
addresses that follow, each plane taking `size` bytes of the destination. -/
def copy_tight (base : Nat) : List (Nat × Nat × Nat × Nat) → Nat → (Nat → Nat) → (Nat → Nat)
  | [], _, bytes => bytes
  | (src, s, t, z) :: rest, offset, bytes =>
    copy_tight base rest (offset + z) (copy_rows (base + offset) src t s (z / t) bytes)

/-- The planes of the list, from the index `i`, with the stride of the source,
the tight stride and the size that the arrays give for them. -/
def tight_rows (src_stride plane_stride plane_size : List Nat) :
    List frame_buffer → Nat → List (Nat × Nat × Nat × Nat)
  | [], _ => []
  | p :: rest, i =>
    (p.data, src_stride.getD i 0, plane_stride.getD i 0, plane_size.getD i 0) ::
      tight_rows src_stride plane_stride plane_size rest (i + 1)

/-- The planes of the list, from the index `i`, with the length that
`plane_size` gives for them. -/
def tight_slots (plane_size : List Nat) : List frame_buffer → Nat → List frame_buffer
  | [], _ => []
  | p :: rest, i => { p with len := plane_size.getD i 0 } :: tight_slots plane_size rest (i + 1)

/-- The array of strides after the entries `i, ..., i + n - 1` have been set
to the tight strides. -/
def tight_strides (plane_stride : List Nat) : Nat → Nat → List Nat → List Nat
  | 0, _, strides => strides
  | n + 1, i, strides =>
    tight_strides plane_stride n (i + 1) (strides.set i (plane_stride.getD i 0))

/-- A raw video frame format with one plane of 4 rows whose stride, 16 bytes,
is twice the 8 bytes of a row. -/
def raw_info_stride : vdef_raw_frame :=
  { format_valid := true
    plane_count := 1
    plane_stride := [16]
    contiguous_size := 32
    calc_ret := 0
    tight_stride := [8]
    plane_size := [32]
    tag := 0 }

/-- A finalized raw video frame of that format with its plane of 64 bytes at
the start of the chunk at address 1. -/
def strided_frame : mbuf_raw_video_frame :=
  { base := { mbuf_base_frame_init with finalized := true }
    info := raw_info_stride
    planes := [{ mem := some 1, data := demo_data 1, len := 64 }, frame_buffer_zero,
               frame_buffer_zero, frame_buffer_zero]
    nplanes := 1
    cbs := { pre_release := false, pre_release_userdata := 0 } }

/-- The chunks of `both_taken`, each byte of memory holding its own address,
and no ancillary data. -/
def stride_world : frame_world :=
  { mem := both_taken
    data := demo_data
    bytes := fun p => p
    anc := anc_empty
    vmeta_log := []
    release_log := [] }

/-! ### A pool whose implementation has every hook -/

/-- An implementation with the four hooks `alloc`, `pool_get`, `pool_put` and
`free`. -/
def hooked_impl : mbuf_mem_implem :=
  { alloc := true, pool_get := true, pool_put := true, free := true }

/-- The `pool_get` hook of the implementation returns `-EINVAL`; `calloc` and
the `alloc` hook succeed. -/
def env_hook_fails : alloc_env := { calloc_ok := true, alloc_ret := 0, pool_get_ret := -EINVAL }

/-- The state after `mbuf_pool_new` has made a growing pool of one chunk of
1024 bytes for `hooked_impl` and `mbuf_pool_get` has taken that chunk. -/
def hooked_pool_taken : mbuf_state :=
  match (mbuf_pool_new new_env_ok (some hooked_impl) 1024 1 MBUF_POOL_GROW 0 true).2 with
  | some s => (mbuf_pool_get env_ok s).2.2
  | none => { pool := { implem := hooked_impl, policy := MBUF_POOL_GROW, mem_size := 0,
                        initial_mem_count := 0, max_mem_count := 0, mem_count := 0,
                        mem_free := 0, memories := [] },
              loose := [], hook_log := [], next_addr := 1 }

/-! ### The queue as a step relation -/

/-- One call on a queue: a push of the frame at an address, with what the
environment answers during the call, or `peek`, `peek_at` with an index,
`pop`, or `flush`. -/
inductive queue_op
  | push (env : queue_env) (frame : Nat)
  | peek
  | peek_at (index : Nat)
  | pop
  | flush

/-- One call of a queue function on a queue that is not NULL, with a non-NULL
`out_frame` where there is one: the return value, the heap of frames and the
queue after the call; `none` when the call has no defined result.  The
functions `peek` and `peek_at` write no field of the queue. -/
def queue_step (h : frame_heap) (q : mbuf_coded_video_frame_queue) :
    queue_op → Option (Int × frame_heap × mbuf_coded_video_frame_queue)
  | queue_op.push env a =>
    match mbuf_coded_video_frame_queue_push env h (some q) (some a) with
    | some (ret, h1, some q1) => some (ret, h1, q1)
    | _ => none
  | queue_op.peek =>
    (mbuf_coded_video_frame_queue_peek h (some q) true).map (fun r => (r.1, r.2.1, q))
  | queue_op.peek_at index =>
    (mbuf_coded_video_frame_queue_peek_at h (some q) index true).map
      (fun r => (r.1, r.2.1, q))
  | queue_op.pop =>
    match mbuf_coded_video_frame_queue_pop h (some q) true with
    | some (ret, some q1, _) => some (ret, h, q1)
    | _ => none
  | queue_op.flush =>
    match mbuf_coded_video_frame_queue_flush h (some q) with
    | some (ret, h1, some q1) => some (ret, h1, q1)
    | _ => none

/-- The condition on a call for the counter to stay in the range of an `int`
and for no frame to be lost by a push that fails: a push that drops the oldest
frame of the queue returns 0, and a push that drops no frame is made on a queue
that counts less than `INT_MAX` frames.  Nothing is asked of the other
calls. -/
def push_in_range (q : mbuf_coded_video_frame_queue) (op : queue_op) (ret : Int) : Prop :=
  match op with
  | queue_op.push _ _ =>
    if q.base.maxframes ≠ 0 ∧ q.base.nframes ≥ q.base.maxframes then
      q.base.frames ≠ [] → ret = 0
    else q.base.nframes < INT_MAX
  | _ => True

/-- The queues reached from a new queue by calls of the queue functions that
satisfy `push_in_range`; between the calls the frames may change in any way,
as their other owners take and give back references. -/
inductive queue_reach : mbuf_coded_video_frame_queue → Prop
  | init (calloc_ok : Bool) (mutex_ret : Int) (evt_ok : Bool)
      (args : Option mbuf_coded_video_frame_queue_args) (q : mbuf_coded_video_frame_queue) :
      mbuf_coded_video_frame_queue_new_with_args calloc_ok mutex_ret evt_ok args true =
        (0, some q) → queue_reach q
  | step (op : queue_op) (h h1 : frame_heap) (q q1 : mbuf_coded_video_frame_queue)
      (ret : Int) :
      queue_reach q → queue_step h q op = some (ret, h1, q1) → push_in_range q op ret →
      queue_reach q1

/-- The counter of the queue is the number of frames linked, which fits in an
`int`, and the event exists and is signalled exactly when a frame is
linked. -/
def queue_inv (q : mbuf_coded_video_frame_queue) : Prop :=
  q.base.nframes = (q.base.frames.length : Int) ∧ (q.base.frames.length : Int) ≤ INT_MAX ∧
  q.base.event = some (!q.base.frames.isEmpty)

/-! ### A frame that holds the last reference of its chunk -/

/-- The chunks of `wrapped_chunk`, where the chunk at address 3 wraps a buffer
of 64 bytes and has one reference; no ancillary data. -/
def wrapped_world : frame_world :=
  { mem := wrapped_chunk
    data := demo_data
    bytes := fun _ => 0
    anc := anc_empty
    vmeta_log := []
    release_log := [] }

/-- A finalized coded video frame whose reference count has just reached 0,
with one NALU of 16 bytes in the chunk at address 3 and a pre-release callback
whose user data is 7. -/
def wrapped_nalu_frame : mbuf_coded_video_frame :=
  { base := { mbuf_base_frame_init with finalized := true, refcount := 0 }
    info := coded_info
    nnalus := 1
    nalus := [{ mem := 3, nalu := { size := 16, tag := 0 }, data := demo_data 3 }]
    cbs := { pre_release := true, pre_release_userdata := 7 } }

/-! ### `implem/shm/src/mbuf_mem_shm.c`

The shared memory implementation keeps a table of slots over one mapped
region.  Its hooks read and write `data`, `size`, `cookie` and `specific` of
the chunk they are given; `specific` points to a `struct mem_shm_specific`,
which holds the index of the slot as an `int`. -/

/-- The constant `mbuf_mem_shm_cookie`, 'shm' in ASCII. -/
def mbuf_mem_shm_cookie : Nat := 0x73686D

/-- The structure `impl_shm_specific`, without the name and the descriptor of
the shared memory: `slots` is the array that `calloc` returned for
`mem_count` entries. -/
structure impl_shm_specific where
  base_addr : Nat
  mem_size : Nat
  mem_count : Nat
  slots : List Bool
  deriving DecidableEq, Repr

/-- The fields of `struct mbuf_mem` that the hooks use: `data` is 0 for NULL,
and `specific` is `none` for NULL and otherwise the `index` of the
`struct mem_shm_specific` it points to. -/
structure shm_mem where
  data : Nat
  size : Nat
  cookie : Nat
  specific : Option Int
  deriving DecidableEq, Repr

/-- An `int` converted to `size_t`, 64 bits wide. -/
def size_of_int (x : Int) : Nat := (x % 2 ^ 64).toNat

/-- The loop of `mbuf_mem_shm_alloc` that looks for a slot, with `todo`
iterations left from index `i` over the rest of the array: the index found, if
any; `none` when a slot is read outside of the array. -/
def shm_find_slot : List Bool → Nat → Nat → Option (Option Nat)
  | _, 0, _ => some none
  | [], _ + 1, _ => none
  | b :: rest, todo + 1, i =>
    if b = false then some (some i) else shm_find_slot rest todo (i + 1)

/-- The hook `mbuf_mem_shm_alloc`: the return value, the chunk and the
implementation data; `calloc_ok` says whether `calloc` of the
`struct mem_shm_specific` succeeds. -/
def mbuf_mem_shm_alloc (calloc_ok : Bool) (mem : shm_mem)
    (specific : Option impl_shm_specific) :
    Option (Int × shm_mem × Option impl_shm_specific) :=
  if mem.specific ≠ none then some (-EINVAL, mem, specific)
  else if mem.data ≠ 0 then some (-EINVAL, mem, specific)
  else
    match specific with
    | none => some (-EINVAL, mem, specific)
    | some impl_specific =>
      -- find a slot
      match shm_find_slot impl_specific.slots impl_specific.mem_count 0 with
      | none => none
      | some none => some (-ENOMEM, mem, specific)
      | some (some index) =>
        if !calloc_ok then some (-ENOMEM, mem, specific)
        else
          let shm_index : Int := wrap_int (index : Int)
          some (0,
            { data := wrap_size (impl_specific.base_addr +
                wrap_size (size_of_int shm_index * impl_specific.mem_size))
              size := impl_specific.mem_size
              cookie := mbuf_mem_shm_cookie
              specific := some shm_index },
            -- mark slot as used
            some { impl_specific with slots := impl_specific.slots.set index true })

/-- The hook `mbuf_mem_shm_free`: the chunk and the implementation data;
`none` when the slot written is outside of the array. -/
def mbuf_mem_shm_free (mem : shm_mem) (specific : Option impl_shm_specific) :
    Option (shm_mem × Option impl_shm_specific) :=
  if mem.cookie ≠ mbuf_mem_shm_cookie then some (mem, specific)
  else
    match mem.specific with
    | none => some (mem, specific)
    | some index =>
      match specific with
      | none => some (mem, specific)
      | some impl_specific =>
        if index < 0 ∨ index ≥ (impl_specific.slots.length : Int) then none
        else
          -- mark slot as unused
          some ({ mem with specific := none, data := 0 },
            some { impl_specific with slots := impl_specific.slots.set index.toNat false })

def mbuf_mem_shm_get_index (mem : Option shm_mem) : Int :=
  match mem with
  | none => -EINVAL
  | some m =>
    match m.specific with
    | none => -EINVAL
    | some index => if m.cookie ≠ mbuf_mem_shm_cookie then -EINVAL else index

/-- The chunk that `calloc` returns in `mbuf_pool_new` and `mbuf_pool_get`,
with its size set, as it is passed to the `alloc` hook. -/
def shm_mem_new (size : Nat) : shm_mem := { data := 0, size := size, cookie := 0, specific := none }

/-- The arenas and live chunks reached from the arena `impl0`, whose slots are
all unused, by calls of the `alloc` hook on new chunks and of the `free` hook
on live chunks. -/
inductive shm_reach (impl0 : impl_shm_specific) : impl_shm_specific → List shm_mem → Prop
  | init : impl0.slots = List.replicate impl0.mem_count false → shm_reach impl0 impl0 []
  | alloc (calloc_ok : Bool) (size : Nat) (impl impl1 : impl_shm_specific)
      (chunks : List shm_mem) (ret : Int) (mem1 : shm_mem) :
      shm_reach impl0 impl chunks →
      mbuf_mem_shm_alloc calloc_ok (shm_mem_new size) (some impl) =
        some (ret, mem1, some impl1) →
      shm_reach impl0 impl1 (if ret = 0 then mem1 :: chunks else chunks)
  | free (impl impl1 : impl_shm_specific) (chunks : List shm_mem) (mem mem1 : shm_mem) :
      shm_reach impl0 impl chunks → mem ∈ chunks →
      mbuf_mem_shm_free mem (some impl) = some (mem1, some impl1) →
      shm_reach impl0 impl1 (chunks.erase mem)

/-- What holds of an arena and its live chunks: the arena has the region and
the slot count of `impl0`, each live chunk has the cookie of the
implementation and the index of a slot that is marked used, its data and size
are those of that slot, and no two live chunks have the same index. -/
def shm_inv (impl0 impl : impl_shm_specific) (chunks : List shm_mem) : Prop :=
  impl.base_addr = impl0.base_addr ∧ impl.mem_size = impl0.mem_size ∧
  impl.mem_count = impl0.mem_count ∧ impl.slots.length = impl.mem_count ∧
  (∀ m ∈ chunks, ∃ i : Nat, m.specific = some (i : Int) ∧ i < impl.mem_count ∧
    impl.slots.get? i = some true ∧ m.data = impl.base_addr + i * impl.mem_size ∧
    m.size = impl.mem_size ∧ m.cookie = mbuf_mem_shm_cookie) ∧
  (chunks.map (fun m => m.specific)).Nodup

/-- An arena of 4 slots of 256 bytes mapped at the address 65536, the slots 0
and 1 being used. -/
def demo_arena : impl_shm_specific :=
  { base_addr := 65536, mem_size := 256, mem_count := 4, slots := [true, true, false, false] }

/-! ### `mbuf_ancillary_data.c`: keys

A C string is given by the list of its characters before the terminating NUL.
The functions `strdup`, `strtok_r`, `strtoul` and `asprintf` belong to the C
library, which is not part of this repository; they are given here as the C
standard and POSIX describe them, unsigned long and `uintptr_t` being 64 bits
wide. -/

def ERANGE : Int := 34

def ULONG_MAX : Nat := 2 ^ 64 - 1

/-- The function `strtok_r` of the C library with the single delimiter
`delim`, on the string the scan starts from: the token, `none` for NULL, and
the string that `saveptr` points to afterwards.  Leading delimiters are
skipped; the token ends before the next delimiter, which is overwritten with
NUL, and the scan goes on after it. -/
def strtok_r (delim : Char) (s : List Char) : Option (List Char) × List Char :=
  match s.dropWhile (fun c => c == delim) with
  | [] => (none, [])
  | c :: rest =>
    (some ((c :: rest).takeWhile (fun x => x != delim)),
      ((c :: rest).dropWhile (fun x => x != delim)).drop 1)

/-- The function `isspace` in the C locale. -/
def isspace (c : Char) : Bool :=
  c == ' ' || c == '\t' || c == '\n' || c == '\x0b' || c == '\x0c' || c == '\r'

/-- The value of a character as a digit of `strtoul`: decimal digits, then the
letters of either case from 10 on. -/
def digit_value (c : Char) : Option Nat :=
  if 48 ≤ c.toNat ∧ c.toNat ≤ 57 then some (c.toNat - 48)
  else if 97 ≤ c.toNat ∧ c.toNat ≤ 122 then some (c.toNat - 87)
  else if 65 ≤ c.toNat ∧ c.toNat ≤ 90 then some (c.toNat - 55)
  else none

/-- Whether the character is a digit in the given base. -/
def is_digit (base : Nat) (c : Char) : Bool :=
  match digit_value c with
  | some d => decide (d < base)
  | none => false

/-- The longest run of digits in the given base at the start of the string:
its value from the accumulator `acc` on, and the rest of the string. -/
def scan_digits (base : Nat) : List Char → Nat → Nat × List Char
  | [], acc => (acc, [])
  | c :: rest, acc =>
    if is_digit base c then scan_digits base rest (acc * base + (digit_value c).getD 0)
    else (acc, c :: rest)

/-- The optional sign of `strtoul`: whether it is a minus, and the rest. -/
def strtoul_sign (s : List Char) : Bool × List Char :=
  match s with
  | c :: rest => if c = '-' then (true, rest) else if c = '+' then (false, rest) else (false, s)
  | [] => (false, [])

/-- The base that `strtoul` takes with the argument `base = 0`, and the string
from its first digit on: 16 after `0x` or `0X` followed by a hexadecimal digit,
8 after `0`, and 10 otherwise. -/
def strtoul_base (s : List Char) : Nat × List Char :=
  match s with
  | c :: x :: h :: rest =>
    if c = '0' ∧ (x = 'x' ∨ x = 'X') ∧ is_digit 16 h = true then (16, h :: rest)
    else if c = '0' then (8, s) else (10, s)
  | c :: _ => if c = '0' then (8, s) else (10, s)
  | [] => (10, [])

/-- The function `strtoul(nptr, &endptr, 0)` of the C library, called with
`errno` at 0: the value returned, the string at `endptr` and `errno` after the
call.  White space and an optional sign are skipped; without a digit no
conversion is made, 0 is returned and `endptr` is `nptr`, and `errno` is then
`noconv_errno`, which the C standard leaves at 0 and POSIX lets be `EINVAL`; a
value above `ULONG_MAX` gives `ULONG_MAX` and `ERANGE`; after a minus sign the
value is negated as an unsigned long. -/
def strtoul (noconv_errno : Int) (nptr : List Char) : Nat × List Char × Int :=
  let s := strtoul_sign (nptr.dropWhile isspace)
  let b := strtoul_base s.2
  match b.2 with
  | [] => (0, nptr, noconv_errno)
  | c :: rest =>
    if is_digit b.1 c then
      let r := scan_digits b.1 (c :: rest) 0
      if r.1 > ULONG_MAX then (ULONG_MAX, r.2, ERANGE)
      else if s.1 then ((2 ^ 64 - r.1) % 2 ^ 64, r.2, 0)
      else (r.1, r.2, 0)
    else (0, nptr, noconv_errno)

/-- The digits that the conversion `%lx` of `asprintf` prints for a value:
hexadecimal, in lower case, without leading zero. -/
def hex_string (p : Nat) : List Char := Nat.toDigits 16 p

/-- What the C library answers during a call on a key: whether `strdup` of the
key, `strdup` of the name and `asprintf` succeed, and what `strtoul` leaves in
`errno` when it makes no conversion. -/
structure key_env where
  strdup_key : Bool
  strdup_name : Bool
  asprintf_ok : Bool
  noconv_errno : Int
  deriving DecidableEq, Repr

/-- The function `mbuf_ancillary_data_build_key`: the return value and `*key`;
`name` is `none` for NULL, and `key` says whether the pointer is not NULL. -/
def mbuf_ancillary_data_build_key (env : key_env) (name : Option (List Char)) (ptr : Nat)
    (key : Bool) : Int × Option (List Char) :=
  match name with
  | none => (-EINVAL, none)
  | some n =>
    if !key then (-EINVAL, none)
    else if ptr ≠ 0 then
      if !env.asprintf_ok then (-ENOMEM, none)
      else (0, some (n ++ ':' :: hex_string ptr))
    else
      if !env.strdup_key then (-ENOMEM, none)
      else (0, some n)

/-- The function `mbuf_ancillary_data_parse_key`: the return value, `*name`
and `*ptr` after the call.  `key` is `none` for NULL; `name` and `ptr` are
`none` for a NULL pointer and give otherwise what the pointer points to before
the call, `*name` being `none` for NULL.  The result is `none` when the call
stores through a NULL `ptr`. -/
def mbuf_ancillary_data_parse_key (env : key_env) (key : Option (List Char))
    (name : Option (Option (List Char))) (ptr : Option Nat) :
    Option (Int × Option (Option (List Char)) × Option Nat) :=
  match key with
  | none => some (-EINVAL, name, ptr)
  | some k =>
    match name with
    | none => some (-EINVAL, name, ptr)
    | some _ =>
      if !env.strdup_key then some (-ENOMEM, name, ptr)
      else
        match ptr with
        | none => none
        | some _ =>
          let t1 := strtok_r ':' k
          let t2 := strtok_r ':' t1.2
          match t1.1 with
          | none => some (-EINVAL, some none, some 0)
          | some _name =>
            -- the end of the function, once `*ptr` has its value
            let finish := fun (parsed : Nat) =>
              if !env.strdup_name then some (-ENOMEM, some none, some parsed)
              else some (0, some (some _name), some parsed)
            match t2.1 with
            | some _ptr_str =>
              let r := strtoul env.noconv_errno _ptr_str
              if _ptr_str = [] ∨ r.2.1 ≠ [] ∨ r.2.2 ≠ 0 then
                some (-r.2.2, some none, some 0)
              else finish r.1
            | none => finish 0

/-- The C library with every allocation succeeding and a `strtoul` that leaves
`errno` at 0 when it makes no conversion. -/
def key_env_ok : key_env :=
  { strdup_key := true, strdup_name := true, asprintf_ok := true, noconv_errno := 0 }

/-- The value of a string of hexadecimal digits. -/
def hex_value (digits : List Char) : Nat :=
  digits.foldl (fun acc c => acc * 16 + (digit_value c).getD 0) 0

/-! ## Theorems -/

/-! ### The read/write lock -/

theorem wrap_int_of_range (x : Int) (h1 : -(2 ^ 31) ≤ x) (h2 : x < 2 ^ 31) :
    wrap_int x = x := by
  unfold wrap_int
  omega

theorem mbuf_rwlock_rdlock_eq (sp : Nat) (s : Int) :
    mbuf_rwlock_rdlock sp s =
      if s = RWLOCK_WRLOCKED then (-EBUSY, s) else (0, wrap_int (s + 1)) := by
  induction sp with
  | zero =>
    unfold mbuf_rwlock_rdlock
    simp [atomic_compare_exchange_weak, atomic_compare_exchange_strong]
  | succ n ih =>
    unfold mbuf_rwlock_rdlock
    simp only [atomic_compare_exchange_weak, if_true]
    rw [ih]
    split <;> rfl

theorem mbuf_rwlock_rdunlock_eq (sp : Nat) (s : Int) :
    mbuf_rwlock_rdunlock sp s =
      if s ≤ RWLOCK_FREE then (-EALREADY, s) else (0, wrap_int (s - 1)) := by
  induction sp with
  | zero =>
    unfold mbuf_rwlock_rdunlock
    simp [atomic_compare_exchange_weak, atomic_compare_exchange_strong]
  | succ n ih =>
    unfold mbuf_rwlock_rdunlock
    simp only [atomic_compare_exchange_weak, if_true]
    rw [ih]
    split <;> rfl

theorem rdlock_n_succ (sp : Nat → Nat) (n : Nat) (lock : Int) :
    rdlock_n sp (n + 1) lock =
      ((rdlock_n sp n lock).1 ++ [(mbuf_rwlock_rdlock (sp n) (rdlock_n sp n lock).2).1],
        (mbuf_rwlock_rdlock (sp n) (rdlock_n sp n lock).2).2) := rfl

theorem rdlock_n_from_free (sp : Nat → Nat) (n : Nat) (hn : n < 2 ^ 31) :
    rdlock_n sp n RWLOCK_FREE = (List.replicate n 0, (n : Int)) := by
  induction n with
  | zero => simp [rdlock_n, RWLOCK_FREE]
  | succ k ih =>
    have hk : k < 2 ^ 31 := by omega
    simp only [rdlock_n, ih hk, mbuf_rwlock_rdlock_eq]
    have h1 : ¬ ((k : Int) = RWLOCK_WRLOCKED) := by
      simp only [RWLOCK_WRLOCKED]; omega
    rw [if_neg h1, wrap_int_of_range _ (by omega) (by omega)]
    simp [List.replicate_succ', Nat.cast_succ]

theorem rdunlock_n_from_readers (sp : Nat → Nat) (n : Nat) (m : Nat)
    (hm : n + m < 2 ^ 31) :
    rdunlock_n sp n ((n + m : Nat) : Int) = (List.replicate n 0, (m : Int)) := by
  induction n generalizing m with
  | zero => simp [rdunlock_n]
  | succ k ih =>
    have e : k + 1 + m = k + (m + 1) := by omega
    simp only [rdunlock_n, e, ih (m + 1) (by omega), mbuf_rwlock_rdunlock_eq]
    have h1 : ¬ (((m + 1 : Nat) : Int) ≤ RWLOCK_FREE) := by
      simp only [RWLOCK_FREE]; omega
    rw [if_neg h1, wrap_int_of_range _ (by omega) (by omega)]
    simp [List.replicate_succ']

/-! ### Chunks by address -/

theorem find_mem_mem {l : List mbuf_mem} {a : Nat} {m : mbuf_mem}
    (h : find_mem l a = some m) : m ∈ l ∧ m.addr = a := by
  induction l with
  | nil => simp [find_mem] at h
  | cons x rest ih =>
    unfold find_mem at h
    by_cases hx : x.addr = a
    · rw [if_pos hx] at h
      cases h
      exact ⟨List.mem_cons_self _ _, hx⟩
    · rw [if_neg hx] at h
      exact ⟨List.mem_cons_of_mem _ (ih h).1, (ih h).2⟩

theorem find_mem_eq_none {l : List mbuf_mem} {a : Nat} :
    find_mem l a = none ↔ a ∉ l.map (fun m => m.addr) := by
  induction l with
  | nil => simp [find_mem]
  | cons x rest ih =>
    unfold find_mem
    by_cases hx : x.addr = a
    · simp [hx]
    · rw [if_neg hx, ih]
      simp only [List.map_cons, List.mem_cons, not_or]
      constructor
      · intro h; exact ⟨fun e => hx e.symm, h⟩
      · intro h; exact h.2

theorem find_mem_of_mem {l : List mbuf_mem} {m : mbuf_mem}
    (hnd : (l.map (fun m => m.addr)).Nodup) (h : m ∈ l) : find_mem l m.addr = some m := by
  induction l with
  | nil => simp at h
  | cons x rest ih =>
    unfold find_mem
    simp only [List.map_cons, List.nodup_cons] at hnd
    rcases List.mem_cons.mp h with e | h'
    · subst e; simp
    · have hne : x.addr ≠ m.addr := by
        intro e
        apply hnd.1
        rw [e]
        exact List.mem_map_of_mem _ h'
      rw [if_neg hne]
      exact ih hnd.2 h'

theorem find_mem_append (l1 l2 : List mbuf_mem) (a : Nat) :
    find_mem (l1 ++ l2) a =
      match find_mem l1 a with
      | some m => some m
      | none => find_mem l2 a := by
  induction l1 with
  | nil => simp [find_mem]
  | cons x rest ih =>
    simp only [List.cons_append, find_mem]
    by_cases hx : x.addr = a
    · simp [hx]
    · simp [hx, ih]

theorem map_addr_set_refcount (l : List mbuf_mem) (a v : Nat) :
    (set_refcount l a v).map (fun m => m.addr) = l.map (fun m => m.addr) := by
  induction l with
  | nil => simp [set_refcount]
  | cons x rest ih =>
    unfold set_refcount
    by_cases hx : x.addr = a
    · simp [hx]
    · simp [hx, ih]

theorem length_set_refcount (l : List mbuf_mem) (a v : Nat) :
    (set_refcount l a v).length = l.length := by
  have h := congrArg List.length (map_addr_set_refcount l a v)
  simpa using h

theorem find_mem_set_refcount (l : List mbuf_mem) (a v b : Nat) :
    find_mem (set_refcount l a v) b =
      if b = a then (find_mem l a).map (fun m => { m with refcount := v })
      else find_mem l b := by
  induction l with
  | nil => simp [set_refcount, find_mem]
  | cons x rest ih =>
    unfold set_refcount
    by_cases hx : x.addr = a
    · by_cases hb : b = a
      · subst hb; simp [hx, find_mem]
      · have hab : ¬ a = b := fun e => hb e.symm
        simp [hx, hb, find_mem, hab]
    · rw [if_neg hx]
      by_cases hb : b = a
      · subst hb; simp [find_mem, hx, ih]
      · by_cases hxb : x.addr = b
        · simp [find_mem, hxb, hb]
        · simp [find_mem, hxb, hb, hx, ih]

theorem mem_set_refcount {l : List mbuf_mem} {a v : Nat} {m : mbuf_mem}
    (h : m ∈ set_refcount l a v) :
    ∃ m0 ∈ l, m.addr = m0.addr ∧ m.pool = m0.pool ∧ m.size = m0.size ∧
      m.implem = m0.implem ∧ (m = m0 ∨ (m0.addr = a ∧ m.refcount = v)) := by
  induction l with
  | nil => simp [set_refcount] at h
  | cons x rest ih =>
    unfold set_refcount at h
    by_cases hx : x.addr = a
    · rw [if_pos hx] at h
      rcases List.mem_cons.mp h with e | h'
      · exact ⟨x, List.mem_cons_self _ _, by simp [e], by simp [e], by simp [e], by simp [e],
          Or.inr ⟨hx, by simp [e]⟩⟩
      · exact ⟨m, List.mem_cons_of_mem _ h', rfl, rfl, rfl, rfl, Or.inl rfl⟩
    · rw [if_neg hx] at h
      rcases List.mem_cons.mp h with e | h'
      · exact ⟨x, List.mem_cons_self _ _, by simp [e], by simp [e], by simp [e], by simp [e],
          Or.inl e⟩
      · obtain ⟨m0, hm0, r⟩ := ih h'
        exact ⟨m0, List.mem_cons_of_mem _ hm0, r⟩

theorem zero_count_set_refcount {l : List mbuf_mem} {a v : Nat} {m : mbuf_mem}
    (h : find_mem l a = some m) :
    zero_count (set_refcount l a v) + (if m.refcount = 0 then 1 else 0)
      = zero_count l + (if v = 0 then 1 else 0) := by
  induction l with
  | nil => simp [find_mem] at h
  | cons x rest ih =>
    unfold find_mem at h
    unfold set_refcount
    by_cases hx : x.addr = a
    · rw [if_pos hx] at h
      cases h
      rw [if_pos hx]
      simp only [zero_count, List.countP_cons, beq_iff_eq]
      omega
    · rw [if_neg hx] at h
      rw [if_neg hx]
      have := ih h
      simp only [zero_count, List.countP_cons, beq_iff_eq] at this ⊢
      omega

theorem map_addr_list_del (l : List mbuf_mem) (a : Nat) :
    (list_del l a).map (fun m => m.addr) = (l.map (fun m => m.addr)).erase a := by
  induction l with
  | nil => simp [list_del]
  | cons x rest ih =>
    unfold list_del
    by_cases hx : x.addr = a
    · simp [hx]
    · have : (x.addr == a) = false := by simpa using hx
      simp [hx, ih, List.erase_cons, this]

theorem mem_list_del {l : List mbuf_mem} {a : Nat} {m : mbuf_mem}
    (h : m ∈ list_del l a) : m ∈ l := by
  induction l with
  | nil => simp [list_del] at h
  | cons x rest ih =>
    unfold list_del at h
    by_cases hx : x.addr = a
    · rw [if_pos hx] at h
      exact List.mem_cons_of_mem _ h
    · rw [if_neg hx] at h
      rcases List.mem_cons.mp h with e | h'
      · exact e ▸ List.mem_cons_self _ _
      · exact List.mem_cons_of_mem _ (ih h')

theorem length_list_del {l : List mbuf_mem} {a : Nat} {m : mbuf_mem}
    (h : find_mem l a = some m) : (list_del l a).length + 1 = l.length := by
  induction l with
  | nil => simp [find_mem] at h
  | cons x rest ih =>
    unfold find_mem at h
    unfold list_del
    by_cases hx : x.addr = a
    · simp [hx]
    · rw [if_neg hx] at h
      simp [hx, ih h]

theorem zero_count_list_del {l : List mbuf_mem} {a : Nat} {m : mbuf_mem}
    (h : find_mem l a = some m) :
    zero_count (list_del l a) + (if m.refcount = 0 then 1 else 0) = zero_count l := by
  induction l with
  | nil => simp [find_mem] at h
  | cons x rest ih =>
    unfold find_mem at h
    unfold list_del
    by_cases hx : x.addr = a
    · rw [if_pos hx] at h
      cases h
      rw [if_pos hx]
      simp only [zero_count, List.countP_cons, beq_iff_eq]
    · rw [if_neg hx] at h
      rw [if_neg hx]
      have := ih h
      simp only [zero_count, List.countP_cons, beq_iff_eq] at this ⊢
      omega

theorem find_mem_list_del_ne (l : List mbuf_mem) {a b : Nat} (hne : b ≠ a) :
    find_mem (list_del l a) b = find_mem l b := by
  induction l with
  | nil => simp [list_del]
  | cons x rest ih =>
    unfold list_del
    by_cases hx : x.addr = a
    · have hab : ¬ a = b := fun e => hne e.symm
      simp [hx, find_mem, hab]
    · rw [if_neg hx]
      simp only [find_mem, ih]

theorem find_mem_list_del_self {l : List mbuf_mem} (a : Nat)
    (hnd : (l.map (fun m => m.addr)).Nodup) : find_mem (list_del l a) a = none := by
  rw [find_mem_eq_none, map_addr_list_del]
  exact fun h => (List.Nodup.mem_erase_iff hnd).mp h |>.1 rfl

/-- C8, as the code has it: `mbuf_rwlock_wrlock` returns 0 and stores WRITE
exactly when the lock is FREE; on a lock that is already write-locked it
returns `-EALREADY`, on every other state `-EBUSY`, and in both failure cases
the state is unchanged. -/
theorem mbuf_rwlock_wrlock_spec (s : Int) :
    (((mbuf_rwlock_wrlock s).1 = 0 ∧ (mbuf_rwlock_wrlock s).2 = RWLOCK_WRLOCKED)
        ↔ s = RWLOCK_FREE) ∧
      ((mbuf_rwlock_wrlock s).1 = 0 ↔ s = RWLOCK_FREE) ∧
      (s = RWLOCK_WRLOCKED → mbuf_rwlock_wrlock s = (-EALREADY, s)) ∧
      (s ≠ RWLOCK_FREE → s ≠ RWLOCK_WRLOCKED →
        mbuf_rwlock_wrlock s = (-EBUSY, s)) := by
  by_cases h0 : s = RWLOCK_FREE
  · subst h0
    simp [mbuf_rwlock_wrlock, atomic_compare_exchange_strong, RWLOCK_FREE,
      RWLOCK_WRLOCKED]
  · by_cases h1 : s = RWLOCK_WRLOCKED
    · subst h1
      simp [mbuf_rwlock_wrlock, atomic_compare_exchange_strong, RWLOCK_FREE,
        RWLOCK_WRLOCKED, EALREADY]
    · simp [mbuf_rwlock_wrlock, atomic_compare_exchange_strong, h0, h1, EBUSY]

/-- C8, the claim as stated fails: on a write-locked lock `mbuf_rwlock_wrlock`
returns `-EALREADY`, which is not `-EBUSY`. -/
theorem mbuf_rwlock_wrlock_wrlocked_not_busy :
    mbuf_rwlock_wrlock RWLOCK_WRLOCKED = (-EALREADY, RWLOCK_WRLOCKED) ∧
      (mbuf_rwlock_wrlock RWLOCK_WRLOCKED).1 ≠ -EBUSY := by
  decide

/-- C9: `mbuf_rwlock_wrunlock` returns 0 and stores FREE exactly when the lock
is WRITE; it returns `-EALREADY` on a FREE lock and `-EBUSY` on a lock held by
`N > 0` readers, and leaves the state unchanged in both failure cases. -/
theorem mbuf_rwlock_wrunlock_spec (s : Int) :
    (((mbuf_rwlock_wrunlock s).1 = 0 ∧ (mbuf_rwlock_wrunlock s).2 = RWLOCK_FREE)
        ↔ s = RWLOCK_WRLOCKED) ∧
      ((mbuf_rwlock_wrunlock s).1 = 0 ↔ s = RWLOCK_WRLOCKED) ∧
      (s = RWLOCK_FREE → mbuf_rwlock_wrunlock s = (-EALREADY, s)) ∧
      (s > RWLOCK_FREE → mbuf_rwlock_wrunlock s = (-EBUSY, s)) := by
  by_cases h1 : s = RWLOCK_WRLOCKED
  · subst h1
    simp [mbuf_rwlock_wrunlock, atomic_compare_exchange_strong, RWLOCK_FREE,
      RWLOCK_WRLOCKED]
  · by_cases h0 : s = RWLOCK_FREE
    · subst h0
      simp [mbuf_rwlock_wrunlock, atomic_compare_exchange_strong, RWLOCK_FREE,
        RWLOCK_WRLOCKED, EALREADY]
    · simp [mbuf_rwlock_wrunlock, atomic_compare_exchange_strong, h0, h1, EBUSY]

/-- C10, as the code has it, for a lock value `s` of type `int` and fewer than
`2 ^ 31` readers: `mbuf_rwlock_rdlock` returns 0 exactly when the state is not
WRITE (otherwise `-EBUSY`, state unchanged) and then stores `s + 1` when
`s < INT_MAX`; `mbuf_rwlock_rdunlock` returns 0 and stores `s - 1` exactly when
`s > FREE` (otherwise `-EALREADY`, state unchanged); from FREE, `n` read locks
followed by `n` read unlocks all return 0 and give FREE back, and one more
read unlock returns `-EALREADY`. -/
theorem mbuf_rwlock_rd_spec (sp k : Nat) (spl spu : Nat → Nat) (s : Int) (n : Nat)
    (hlo : INT_MIN ≤ s) (hhi : s ≤ INT_MAX) (hn : n < 2 ^ 31) :
    ((mbuf_rwlock_rdlock sp s).1 = 0 ↔ s ≠ RWLOCK_WRLOCKED) ∧
      (s ≠ RWLOCK_WRLOCKED → s < INT_MAX → mbuf_rwlock_rdlock sp s = (0, s + 1)) ∧
      (s = RWLOCK_WRLOCKED → mbuf_rwlock_rdlock sp s = (-EBUSY, s)) ∧
      ((mbuf_rwlock_rdunlock sp s).1 = 0 ↔ s > RWLOCK_FREE) ∧
      (s > RWLOCK_FREE → mbuf_rwlock_rdunlock sp s = (0, s - 1)) ∧
      (s ≤ RWLOCK_FREE → mbuf_rwlock_rdunlock sp s = (-EALREADY, s)) ∧
      (rdlock_n spl n RWLOCK_FREE).1 = List.replicate n 0 ∧
      (rdunlock_n spu n (rdlock_n spl n RWLOCK_FREE).2).1 = List.replicate n 0 ∧
      (rdunlock_n spu n (rdlock_n spl n RWLOCK_FREE).2).2 = RWLOCK_FREE ∧
      mbuf_rwlock_rdunlock k (rdunlock_n spu n (rdlock_n spl n RWLOCK_FREE).2).2
        = (-EALREADY, RWLOCK_FREE) := by
  have hu := rdunlock_n_from_readers spu n 0 (by omega)
  simp only [Nat.add_zero] at hu
  rw [rdlock_n_from_free spl n hn, hu, mbuf_rwlock_rdlock_eq, mbuf_rwlock_rdunlock_eq,
    mbuf_rwlock_rdunlock_eq]
  simp only [INT_MIN, INT_MAX] at hlo hhi
  refine ⟨?_, ?_, ?_, ?_, ?_, ?_, rfl, rfl, rfl, ?_⟩
  · by_cases h : s = RWLOCK_WRLOCKED <;> simp [h, EBUSY]
  · intro h h2
    simp only [INT_MAX] at h2
    rw [if_neg h, wrap_int_of_range _ (by omega) (by omega)]
  · intro h
    rw [if_pos h]
  · by_cases h : s ≤ RWLOCK_FREE
    · simp only [if_pos h, EALREADY]
      simp only [RWLOCK_FREE] at h ⊢
      constructor
      · intro h2; norm_num at h2
      · intro h2; omega
    · simp only [if_neg h]
      simp only [RWLOCK_FREE] at h ⊢
      constructor
      · intro _; omega
      · intro _; trivial
  · intro h
    simp only [RWLOCK_FREE] at h
    rw [if_neg (by simp only [RWLOCK_FREE]; omega),
      wrap_int_of_range _ (by omega) (by omega)]
  · intro h
    rw [if_pos h]
  · simp [RWLOCK_FREE]

/-- C10 at a concrete input: three readers on the lock, five lock/unlock
rounds, some spurious failures of the weak compare and exchange. -/
theorem mbuf_rwlock_rd_spec_witness :
    mbuf_rwlock_rdlock 2 3 = (0, 4) ∧ mbuf_rwlock_rdunlock 2 3 = (0, 2) ∧
      (rdunlock_n (fun _ => 1) 5 (rdlock_n (fun i => i) 5 RWLOCK_FREE).2).2
        = RWLOCK_FREE := by
  have h := mbuf_rwlock_rd_spec 2 0 (fun i => i) (fun _ => 1) 3 5
    (by decide) (by decide) (by decide)
  exact ⟨h.2.1 (by decide) (by decide), h.2.2.2.2.1 (by decide), h.2.2.2.2.2.2.2.2.1⟩

/-- C10, the claim as stated fails: with `INT_MAX` readers a further
`mbuf_rwlock_rdlock` returns 0 but stores `INT_MIN`, not `INT_MAX + 1`; so
after `2 ^ 31` read locks from FREE, which all return 0, the first
`mbuf_rwlock_rdunlock` already returns `-EALREADY`. -/
theorem mbuf_rwlock_rdlock_overflow :
    mbuf_rwlock_rdlock 0 INT_MAX = (0, INT_MIN) ∧ INT_MIN ≠ INT_MAX + 1 ∧
      rdlock_n (fun _ => 0) (2 ^ 31) RWLOCK_FREE
        = (List.replicate (2 ^ 31) 0, INT_MIN) ∧
      mbuf_rwlock_rdunlock 0 (rdlock_n (fun _ => 0) (2 ^ 31) RWLOCK_FREE).2
        = (-EALREADY, INT_MIN) := by
  have h : rdlock_n (fun _ => 0) (2 ^ 31) RWLOCK_FREE
      = (List.replicate (2 ^ 31) 0, INT_MIN) := by
    have e2 : (2 : Nat) ^ 31 = 2147483647 + 1 := by norm_num
    have e : mbuf_rwlock_rdlock 0 ((2147483647 : Nat) : Int) = (0, INT_MIN) := by decide
    have e3 : List.replicate (2147483647 + 1) (0 : Int)
        = List.replicate 2147483647 0 ++ [0] := List.replicate_succ' _ _
    rw [e2, rdlock_n_succ, rdlock_n_from_free _ _ (by norm_num), e, e3]
  refine ⟨by decide, by decide, h, ?_⟩
  rw [h]
  decide

theorem mbuf_pool_get_walk_eq_none {l : List mbuf_mem} :
    mbuf_pool_get_walk l = none ↔ zero_count l = 0 := by
  induction l with
  | nil => simp [mbuf_pool_get_walk, zero_count]
  | cons x rest ih =>
    unfold mbuf_pool_get_walk
    by_cases hx : x.refcount = 0
    · simp [atomic_compare_exchange_strong, hx, zero_count]
    · simp only [atomic_compare_exchange_strong, if_neg hx]
      have e : zero_count (x :: rest) = zero_count rest := by
        simp [zero_count, List.countP_cons, hx]
      rw [e, ← ih]
      cases mbuf_pool_get_walk rest with
      | none => simp
      | some r => simp

theorem mbuf_pool_get_walk_eq_some {l before after : List mbuf_mem} {mem : mbuf_mem}
    (h : mbuf_pool_get_walk l = some (before, mem, after)) :
    mem.refcount = 1 ∧ l = before ++ { mem with refcount := 0 } :: after := by
  induction l generalizing before with
  | nil => simp [mbuf_pool_get_walk] at h
  | cons x rest ih =>
    unfold mbuf_pool_get_walk at h
    by_cases hx : x.refcount = 0
    · simp only [atomic_compare_exchange_strong, if_pos hx, Option.some.injEq,
        Prod.mk.injEq] at h
      obtain ⟨h1, h2, h3⟩ := h
      subst h1 h2 h3
      refine ⟨rfl, ?_⟩
      cases x
      simp_all
    · simp only [atomic_compare_exchange_strong, if_neg hx] at h
      cases hw : mbuf_pool_get_walk rest with
      | none => simp [hw] at h
      | some r =>
        obtain ⟨b, c, a⟩ := r
        simp only [hw, Option.some.injEq, Prod.mk.injEq] at h
        obtain ⟨h1, h2, h3⟩ := h
        subst h1 h2 h3
        obtain ⟨i1, i2⟩ := ih hw
        exact ⟨i1, by rw [i2]; rfl⟩

theorem find_mem_middle {before after : List mbuf_mem} {x : mbuf_mem}
    (hnd : ((before ++ x :: after).map (fun m => m.addr)).Nodup) :
    find_mem (before ++ x :: after) x.addr = some x :=
  find_mem_of_mem hnd (by simp)

theorem set_refcount_middle {before after : List mbuf_mem} {x : mbuf_mem} (v : Nat)
    (hnd : ((before ++ x :: after).map (fun m => m.addr)).Nodup) :
    set_refcount (before ++ x :: after) x.addr v
      = before ++ { x with refcount := v } :: after := by
  induction before with
  | nil => simp [set_refcount]
  | cons y rest ih =>
    simp only [List.cons_append, List.map_cons, List.nodup_cons] at hnd
    have hne : y.addr ≠ x.addr := by
      intro e
      apply hnd.1
      rw [e]
      exact List.mem_map_of_mem _ (by simp)
    have h2 := ih hnd.2
    simp only [List.cons_append, set_refcount, if_neg hne]
    exact congrArg (fun t => y :: t) h2

theorem mbuf_pool_get_of_free {s : mbuf_state} (env : alloc_env) (hwf : pool_wf s)
    (hfree : 0 < s.pool.mem_free) :
    ∃ c, find_mem s.pool.memories c.addr = some c ∧ c.refcount = 0 ∧
      mbuf_pool_get env s =
        if s.pool.implem.pool_get = true ∧ env.pool_get_ret ≠ 0 then
          (env.pool_get_ret, some c.addr,
            { s with hook_log := (mem_hook.pool_get, c.addr) :: s.hook_log })
        else
          (0, some c.addr,
            { s with
              hook_log :=
                if s.pool.implem.pool_get = true then (mem_hook.pool_get, c.addr) :: s.hook_log
                else s.hook_log
              pool := { s.pool with
                memories := set_refcount s.pool.memories c.addr 1
                mem_free := s.pool.mem_free - 1 } }) := by
  obtain ⟨hcount, hfreeq, hnd, -, -⟩ := hwf
  cases hw : mbuf_pool_get_walk s.pool.memories with
  | none =>
    rw [mbuf_pool_get_walk_eq_none] at hw
    omega
  | some r =>
    obtain ⟨before, mem, after⟩ := r
    obtain ⟨h1, h2⟩ := mbuf_pool_get_walk_eq_some hw
    have hnd2 := hnd
    rw [h2] at hnd2
    refine ⟨{ mem with refcount := 0 }, ?_, rfl, ?_⟩
    · rw [h2]
      exact find_mem_middle hnd2
    · have e1 : set_refcount s.pool.memories mem.addr 1 = before ++ mem :: after := by
        rw [h2]
        have := set_refcount_middle (x := { mem with refcount := 0 }) 1 hnd2
        simp only at this
        rw [this]
        cases mem
        simp_all
      have e2 : size_dec s.pool.mem_free = s.pool.mem_free - 1 := by
        unfold size_dec
        rw [if_neg (by omega)]
      unfold mbuf_pool_get
      simp only [hw, call_pool_get]
      cases s with
      | mk pool loose hook_log next_addr =>
        cases pool with
        | mk implem policy mem_size initial_mem_count max_mem_count mem_count mem_free memories =>
          simp only at h2 e1 e2 ⊢
          by_cases hp : implem.pool_get = true
          · by_cases hr : env.pool_get_ret = 0
            · simp [hp, hr, e1, e2]
            · simp [hp, hr, ← h2]
          · simp [hp, e1, e2]

theorem mbuf_pool_get_of_no_free {s : mbuf_state} (hwf : pool_wf s)
    (hfree : s.pool.mem_free = 0) : mbuf_pool_get_walk s.pool.memories = none := by
  rw [mbuf_pool_get_walk_eq_none, ← hwf.2.1, hfree]

/-! ### Preservation of `pool_wf` -/

theorem pool_wf_set_refcount {s : mbuf_state} {a v f : Nat} {m : mbuf_mem}
    (log : List (mem_hook × Nat)) (hwf : pool_wf s)
    (hm : find_mem s.pool.memories a = some m)
    (hf : f + (if m.refcount = 0 then 1 else 0) = s.pool.mem_free + (if v = 0 then 1 else 0)) :
    pool_wf { s with
      hook_log := log
      pool := { s.pool with memories := set_refcount s.pool.memories a v, mem_free := f } } := by
  obtain ⟨h1, h2, h3, h4, h5⟩ := hwf
  refine ⟨?_, ?_, ?_, ?_, h5⟩
  · simp only [length_set_refcount]; exact h1
  · have := zero_count_set_refcount (v := v) hm
    simp only
    omega
  · simp only [map_addr_set_refcount]; exact h3
  · intro x hx
    obtain ⟨m0, hm0, e1, e2, -⟩ := mem_set_refcount hx
    rw [e1, e2]
    exact h4 m0 hm0

theorem pool_wf_list_del {s : mbuf_state} {a f : Nat} {m : mbuf_mem}
    (log : List (mem_hook × Nat)) (hwf : pool_wf s)
    (hm : find_mem s.pool.memories a = some m)
    (hf : f + (if m.refcount = 0 then 1 else 0) = s.pool.mem_free) :
    pool_wf { s with
      hook_log := log
      pool := { s.pool with
        memories := list_del s.pool.memories a
        mem_count := s.pool.mem_count - 1
        mem_free := f } } := by
  obtain ⟨h1, h2, h3, h4, h5⟩ := hwf
  refine ⟨?_, ?_, ?_, ?_, h5⟩
  · have := length_list_del hm
    simp only
    omega
  · have := zero_count_list_del hm
    simp only
    omega
  · simp only [map_addr_list_del]
    exact h3.erase a
  · intro x hx
    exact h4 x (mem_list_del hx)

theorem pool_wf_append {s : mbuf_state} {m : mbuf_mem} (log : List (mem_hook × Nat))
    (hwf : pool_wf s) (ha : m.addr = s.next_addr) (hp : m.pool = true)
    (hr : m.refcount ≠ 0) :
    pool_wf { s with
      next_addr := s.next_addr + 1
      hook_log := log
      pool := { s.pool with
        memories := s.pool.memories ++ [m]
        mem_count := s.pool.mem_count + 1 } } := by
  obtain ⟨h1, h2, h3, h4, h5⟩ := hwf
  refine ⟨?_, ?_, ?_, ?_, ?_⟩
  · simp only [List.length_append, List.length_singleton, h1]
  · simp only [zero_count, List.countP_append, List.countP_cons, List.countP_nil]
    simp only [zero_count] at h2
    simp [h2, hr]
  · simp only [List.map_append, List.map_cons, List.map_nil]
    rw [List.nodup_append]
    refine ⟨h3, by simp, ?_⟩
    intro x hx1 hx2
    simp only [List.mem_singleton] at hx2
    obtain ⟨y, hy, e⟩ := List.mem_map.mp hx1
    have := (h4 y hy).1
    omega
  · intro x hx
    simp only [List.mem_append, List.mem_singleton] at hx
    rcases hx with hx | hx
    · exact ⟨Nat.lt_succ_of_lt (h4 x hx).1, (h4 x hx).2⟩
    · subst hx
      exact ⟨by simp only; omega, hp⟩
  · intro x hx
    exact ⟨Nat.lt_succ_of_lt (h5 x hx).1, (h5 x hx).2⟩

theorem pool_wf_log {s : mbuf_state} (log : List (mem_hook × Nat)) (n : Nat)
    (hwf : pool_wf s) :
    pool_wf { s with next_addr := s.next_addr + n, hook_log := log } := by
  obtain ⟨h1, h2, h3, h4, h5⟩ := hwf
  exact ⟨h1, h2, h3, fun x hx => ⟨Nat.lt_add_right n (h4 x hx).1, (h4 x hx).2⟩,
    fun x hx => ⟨Nat.lt_add_right n (h5 x hx).1, (h5 x hx).2⟩⟩

theorem pool_refcount_fresh {s : mbuf_state} (hwf : pool_wf s) {a : Nat}
    (ha : s.next_addr ≤ a) : pool_refcount s a = none := by
  have : find_mem s.pool.memories a = none := by
    rw [find_mem_eq_none]
    intro h
    obtain ⟨y, hy, e⟩ := List.mem_map.mp h
    have := (hwf.2.2.2.1 y hy).1
    omega
  simp [pool_refcount, this]

theorem mbuf_pool_get_of_no_free_eq (env : alloc_env) {s : mbuf_state}
    (hw : mbuf_pool_get_walk s.pool.memories = none) :
    mbuf_pool_get env s =
      if s.pool.policy = MBUF_POOL_NO_GROW then (-EAGAIN, none, s)
      else if s.pool.max_mem_count > 0 ∧ s.pool.mem_count ≥ s.pool.max_mem_count then
        (-EAGAIN, none, s)
      else if env.calloc_ok = false then (-ENOMEM, none, s)
      else if s.pool.implem.alloc = true ∧ env.alloc_ret ≠ 0 then
        (env.alloc_ret, none,
          { s with
            next_addr := s.next_addr + 1
            hook_log := (mem_hook.alloc, s.next_addr) :: s.hook_log })
      else if s.pool.implem.pool_get = true ∧ env.pool_get_ret ≠ 0 then
        (env.pool_get_ret, none,
          grown s (call_free s.pool.implem
            { addr := s.next_addr, size := s.pool.mem_size, implem := none,
              refcount := 1, pool := true }
            ((mem_hook.pool_get, s.next_addr) ::
              (if s.pool.implem.alloc = true then (mem_hook.alloc, s.next_addr) :: s.hook_log
               else s.hook_log))))
      else
        (0, some s.next_addr,
          grown s
            (if s.pool.implem.pool_get = true then
              (mem_hook.pool_get, s.next_addr) ::
                (if s.pool.implem.alloc = true then (mem_hook.alloc, s.next_addr) :: s.hook_log
                 else s.hook_log)
             else
               (if s.pool.implem.alloc = true then (mem_hook.alloc, s.next_addr) :: s.hook_log
                else s.hook_log))) := by
  unfold mbuf_pool_get
  simp only [hw]
  by_cases hp : s.pool.policy = MBUF_POOL_NO_GROW
  · simp only [if_pos hp]
  · simp only [if_neg hp]
    by_cases hmax : s.pool.max_mem_count > 0 ∧ s.pool.mem_count ≥ s.pool.max_mem_count
    · simp only [if_pos hmax]
    · simp only [if_neg hmax]
      cases hc : env.calloc_ok with
      | false => simp
      | true =>
        simp only [Bool.not_true, Bool.false_eq_true, if_false, call_alloc, call_pool_get,
          grown]
        cases ha : s.pool.implem.alloc <;> cases hg : s.pool.implem.pool_get <;>
          by_cases har : env.alloc_ret = 0 <;> by_cases hgr : env.pool_get_ret = 0 <;>
          simp [har, hgr]

theorem pool_refcount_grown {s : mbuf_state} (log : List (mem_hook × Nat))
    (hwf : pool_wf s) :
    pool_refcount (grown s log) s.next_addr = some 1 ∧
      ∀ b, b ≠ s.next_addr → pool_refcount (grown s log) b = pool_refcount s b := by
  have hfresh := pool_refcount_fresh hwf (Nat.le_refl s.next_addr)
  have hfind : find_mem s.pool.memories s.next_addr = none := by
    simpa [pool_refcount] using hfresh
  constructor
  · simp [pool_refcount, grown, find_mem_append, hfind, find_mem]
  · intro b hb
    have hb' : ¬ s.next_addr = b := fun e => hb e.symm
    simp only [pool_refcount, grown, find_mem_append, find_mem, if_neg hb']
    cases find_mem s.pool.memories b <;> rfl

theorem pool_wf_grown {s : mbuf_state} (log : List (mem_hook × Nat)) (hwf : pool_wf s) :
    pool_wf (grown s log) :=
  pool_wf_append log hwf rfl rfl (by simp)

/-- What `mbuf_pool_get` does in a well-formed state, case by case: it takes
the first free chunk (A), or fails in the `pool_get` hook on it (B); without a
free chunk it is exhausted (C), fails to allocate (D), grows the pool (E), or
grows it and then fails in the `pool_get` hook (F). -/
theorem mbuf_pool_get_cases (env : alloc_env) {s : mbuf_state} (hwf : pool_wf s) :
    pool_wf (mbuf_pool_get env s).2.2 ∧
    pool_static (mbuf_pool_get env s).2.2 = pool_static s ∧
    (mbuf_pool_get env s).2.2.loose = s.loose ∧
    ((∃ a, 0 < s.pool.mem_free ∧ pool_refcount s a = some 0 ∧
        (s.pool.implem.pool_get = false ∨ env.pool_get_ret = 0) ∧
        (mbuf_pool_get env s).1 = 0 ∧ (mbuf_pool_get env s).2.1 = some a ∧
        pool_refcount (mbuf_pool_get env s).2.2 a = some 1 ∧
        (∀ b, b ≠ a → pool_refcount (mbuf_pool_get env s).2.2 b = pool_refcount s b) ∧
        (mbuf_pool_get env s).2.2.pool.mem_count = s.pool.mem_count ∧
        (mbuf_pool_get env s).2.2.pool.mem_free + 1 = s.pool.mem_free) ∨
     (0 < s.pool.mem_free ∧ s.pool.implem.pool_get = true ∧ env.pool_get_ret ≠ 0 ∧
        (mbuf_pool_get env s).1 = env.pool_get_ret ∧
        (mbuf_pool_get env s).2.2.pool = s.pool) ∨
     (s.pool.mem_free = 0 ∧
        (s.pool.policy = MBUF_POOL_NO_GROW ∨
          (0 < s.pool.max_mem_count ∧ s.pool.max_mem_count ≤ s.pool.mem_count)) ∧
        mbuf_pool_get env s = (-EAGAIN, none, s)) ∨
     (s.pool.mem_free = 0 ∧ s.pool.policy ≠ MBUF_POOL_NO_GROW ∧
        (s.pool.max_mem_count = 0 ∨ s.pool.mem_count < s.pool.max_mem_count) ∧
        (env.calloc_ok = false ∧ (mbuf_pool_get env s).1 = -ENOMEM ∨
          env.calloc_ok = true ∧ s.pool.implem.alloc = true ∧ env.alloc_ret ≠ 0 ∧
            (mbuf_pool_get env s).1 = env.alloc_ret) ∧
        (mbuf_pool_get env s).2.1 = none ∧
        (mbuf_pool_get env s).2.2.pool = s.pool) ∨
     (s.pool.mem_free = 0 ∧ s.pool.policy ≠ MBUF_POOL_NO_GROW ∧
        (s.pool.max_mem_count = 0 ∨ s.pool.mem_count < s.pool.max_mem_count) ∧
        env.calloc_ok = true ∧ (s.pool.implem.alloc = false ∨ env.alloc_ret = 0) ∧
        (s.pool.implem.pool_get = false ∨ env.pool_get_ret = 0) ∧
        (mbuf_pool_get env s).1 = 0 ∧ (mbuf_pool_get env s).2.1 = some s.next_addr ∧
        pool_refcount s s.next_addr = none ∧
        pool_refcount (mbuf_pool_get env s).2.2 s.next_addr = some 1 ∧
        (∀ b, b ≠ s.next_addr →
          pool_refcount (mbuf_pool_get env s).2.2 b = pool_refcount s b) ∧
        (mbuf_pool_get env s).2.2.pool.mem_count = s.pool.mem_count + 1 ∧
        (mbuf_pool_get env s).2.2.pool.mem_free = 0) ∨
     (s.pool.mem_free = 0 ∧ s.pool.policy ≠ MBUF_POOL_NO_GROW ∧
        (s.pool.max_mem_count = 0 ∨ s.pool.mem_count < s.pool.max_mem_count) ∧
        env.calloc_ok = true ∧ (s.pool.implem.alloc = false ∨ env.alloc_ret = 0) ∧
        s.pool.implem.pool_get = true ∧ env.pool_get_ret ≠ 0 ∧
        (mbuf_pool_get env s).1 = env.pool_get_ret ∧ (mbuf_pool_get env s).2.1 = none ∧
        (∀ b, b ≠ s.next_addr →
          pool_refcount (mbuf_pool_get env s).2.2 b = pool_refcount s b) ∧
        (mbuf_pool_get env s).2.2.pool.mem_count = s.pool.mem_count + 1 ∧
        (mbuf_pool_get env s).2.2.pool.mem_free = 0)) := by
  by_cases hfree : 0 < s.pool.mem_free
  · obtain ⟨c, hc1, hc2, hget⟩ := mbuf_pool_get_of_free env hwf hfree
    have hrc : pool_refcount s c.addr = some 0 := by simp [pool_refcount, hc1, hc2]
    by_cases hfail : s.pool.implem.pool_get = true ∧ env.pool_get_ret ≠ 0
    · rw [hget, if_pos hfail]
      refine ⟨pool_wf_log _ 0 hwf, rfl, rfl, Or.inr (Or.inl ⟨hfree, hfail.1, hfail.2, rfl, rfl⟩)⟩
    · rw [hget, if_neg hfail]
      have hok : s.pool.implem.pool_get = false ∨ env.pool_get_ret = 0 := by
        by_cases h1 : s.pool.implem.pool_get = true
        · right
          by_contra h2
          exact hfail ⟨h1, h2⟩
        · left
          simpa using h1
      refine ⟨pool_wf_set_refcount _ hwf hc1 (by simp [hc2]; omega), rfl, rfl,
        Or.inl ⟨c.addr, hfree, hrc, hok, rfl, rfl, ?_, ?_, rfl, by simp only; omega⟩⟩
      · simp [pool_refcount, find_mem_set_refcount, hc1]
      · intro b hb
        simp [pool_refcount, find_mem_set_refcount, hb]
  · have hfree0 : s.pool.mem_free = 0 := by omega
    have hw := mbuf_pool_get_of_no_free hwf hfree0
    have hfresh := pool_refcount_fresh hwf (Nat.le_refl s.next_addr)
    rw [mbuf_pool_get_of_no_free_eq env hw]
    by_cases hp : s.pool.policy = MBUF_POOL_NO_GROW
    · rw [if_pos hp]
      exact ⟨hwf, rfl, rfl, Or.inr (Or.inr (Or.inl ⟨hfree0, Or.inl hp, rfl⟩))⟩
    · rw [if_neg hp]
      by_cases hmax : s.pool.max_mem_count > 0 ∧ s.pool.mem_count ≥ s.pool.max_mem_count
      · rw [if_pos hmax]
        exact ⟨hwf, rfl, rfl, Or.inr (Or.inr (Or.inl ⟨hfree0, Or.inr hmax, rfl⟩))⟩
      · rw [if_neg hmax]
        have hroom : s.pool.max_mem_count = 0 ∨ s.pool.mem_count < s.pool.max_mem_count := by
          omega
        by_cases hc : env.calloc_ok = false
        · rw [if_pos hc]
          exact ⟨hwf, rfl, rfl,
            Or.inr (Or.inr (Or.inr (Or.inl ⟨hfree0, hp, hroom, Or.inl ⟨hc, rfl⟩, rfl, rfl⟩)))⟩
        · rw [if_neg hc]
          have hc' : env.calloc_ok = true := by simpa using hc
          by_cases ha : s.pool.implem.alloc = true ∧ env.alloc_ret ≠ 0
          · rw [if_pos ha]
            exact ⟨pool_wf_log _ 1 hwf, rfl, rfl,
              Or.inr (Or.inr (Or.inr (Or.inl ⟨hfree0, hp, hroom,
                Or.inr ⟨hc', ha.1, ha.2, rfl⟩, rfl, rfl⟩)))⟩
          · rw [if_neg ha]
            have ha' : s.pool.implem.alloc = false ∨ env.alloc_ret = 0 := by
              by_cases h1 : s.pool.implem.alloc = true
              · right
                by_contra h2
                exact ha ⟨h1, h2⟩
              · left
                simpa using h1
            by_cases hg : s.pool.implem.pool_get = true ∧ env.pool_get_ret ≠ 0
            · rw [if_pos hg]
              exact ⟨pool_wf_grown _ hwf, rfl, rfl,
                Or.inr (Or.inr (Or.inr (Or.inr (Or.inr ⟨hfree0, hp, hroom, hc', ha',
                  hg.1, hg.2, rfl, rfl, (pool_refcount_grown _ hwf).2, rfl, hfree0⟩))))⟩
            · rw [if_neg hg]
              have hg' : s.pool.implem.pool_get = false ∨ env.pool_get_ret = 0 := by
                by_cases h1 : s.pool.implem.pool_get = true
                · right
                  by_contra h2
                  exact hg ⟨h1, h2⟩
                · left
                  simpa using h1
              exact ⟨pool_wf_grown _ hwf, rfl, rfl,
                Or.inr (Or.inr (Or.inr (Or.inr (Or.inl ⟨hfree0, hp, hroom, hc', ha', hg',
                  rfl, rfl, hfresh, (pool_refcount_grown _ hwf).1,
                  (pool_refcount_grown _ hwf).2, rfl, hfree0⟩))))⟩

/-! ### `mbuf_mem_ref` and `mbuf_mem_unref` on a chunk of the pool -/

theorem set_refcount_self {l : List mbuf_mem} {a : Nat} {m : mbuf_mem}
    (h : find_mem l a = some m) : set_refcount l a m.refcount = l := by
  induction l with
  | nil => simp [find_mem] at h
  | cons x rest ih =>
    unfold find_mem at h
    unfold set_refcount
    by_cases hx : x.addr = a
    · rw [if_pos hx] at h
      cases h
      rw [if_pos hx]
    · rw [if_neg hx] at h
      rw [if_neg hx, ih h]

theorem set_refcount_of_not_mem {l : List mbuf_mem} {a : Nat} (v : Nat)
    (h : find_mem l a = none) : set_refcount l a v = l := by
  induction l with
  | nil => simp [set_refcount]
  | cons x rest ih =>
    unfold find_mem at h
    unfold set_refcount
    by_cases hx : x.addr = a
    · simp [hx] at h
    · rw [if_neg hx] at h
      rw [if_neg hx, ih h]

theorem store_refcount_self {s : mbuf_state} {a : Nat} {m : mbuf_mem}
    (h : mem_at s a = some m) : store_refcount s a m.refcount = s := by
  unfold mem_at at h
  unfold store_refcount
  cases hp : find_mem s.pool.memories a with
  | some m1 =>
    simp only [hp, Option.some.injEq] at h
    subst h
    simp only [set_refcount_self hp]
  | none =>
    simp only [hp] at h
    simp only [set_refcount_self h]

theorem mbuf_mem_unref_internal_spurious (s : mbuf_state) (a : Nat) :
    mbuf_mem_unref_internal true s (some a) =
      match mem_at s a with
      | none => none
      | some _ => some (false, some a, s) := by
  unfold mbuf_mem_unref_internal
  cases hm : mem_at s a with
  | none => simp only [hm]
  | some m =>
    simp only [hm, atomic_compare_exchange_weak, if_true, Bool.not_false,
      store_refcount_self hm]
    split
    · rfl
    · split <;> rfl

theorem mbuf_mem_unref_loop_spurious (sp : Nat) (s : mbuf_state) (a : Nat) :
    mbuf_mem_unref_loop sp s (some a) = mbuf_mem_unref_loop 0 s (some a) := by
  induction sp with
  | zero => rfl
  | succ n ih =>
    unfold mbuf_mem_unref_loop
    rw [mbuf_mem_unref_internal_spurious]
    cases hm : mem_at s a with
    | none =>
      simp only [mbuf_mem_unref_internal, hm]
    | some m =>
      simp only [Bool.false_eq_true, if_false]
      rw [ih]
      rfl

/-- The number of spurious failures of the weak compare and exchange does not
change what `mbuf_mem_unref` returns nor the state it leaves. -/
theorem mbuf_mem_unref_spurious (sp : Nat) (s : mbuf_state) (a : Nat) :
    mbuf_mem_unref sp s a = mbuf_mem_unref 0 s a := by
  unfold mbuf_mem_unref
  rw [mbuf_mem_unref_loop_spurious]

theorem mem_at_of_pool {s : mbuf_state} {a : Nat} {m : mbuf_mem}
    (h : find_mem s.pool.memories a = some m) : mem_at s a = some m := by
  simp [mem_at, h]

theorem store_refcount_of_pool {s : mbuf_state} {a : Nat} {m : mbuf_mem} (v : Nat)
    (h : find_mem s.pool.memories a = some m) :
    store_refcount s a v =
      { s with pool := { s.pool with memories := set_refcount s.pool.memories a v } } := by
  simp [store_refcount, h]

theorem pool_refcount_eq_some {s : mbuf_state} {a n : Nat}
    (h : pool_refcount s a = some n) :
    ∃ m, find_mem s.pool.memories a = some m ∧ m.refcount = n := by
  unfold pool_refcount at h
  cases hm : find_mem s.pool.memories a with
  | none => simp [hm] at h
  | some m =>
    simp only [hm, Option.map_some', Option.some.injEq] at h
    exact ⟨m, rfl, h⟩

/-- The function `mbuf_mem_ref` on a chunk of the pool: it returns 0 and adds
one to the reference count modulo `2 ^ 32`, whatever the count was. -/
theorem mbuf_mem_ref_pooled {s : mbuf_state} {a n : Nat}
    (hrc : pool_refcount s a = some n) :
    ∃ s1, mbuf_mem_ref s a = some (0, s1) ∧ pool_static s1 = pool_static s ∧
      s1.loose = s.loose ∧ s1.next_addr = s.next_addr ∧
      pool_refcount s1 a = some (wrap_uint (n + 1)) ∧
      (∀ b, b ≠ a → pool_refcount s1 b = pool_refcount s b) ∧
      s1.pool.mem_count = s.pool.mem_count ∧ s1.pool.mem_free = s.pool.mem_free ∧
      (pool_wf s → 0 < n → n < UINT_MAX → pool_wf s1) := by
  obtain ⟨m, hm, hmn⟩ := pool_refcount_eq_some hrc
  refine ⟨{ s with pool := { s.pool with
      memories := set_refcount s.pool.memories a (wrap_uint (n + 1)) } },
    ?_, ?_, ?_, ?_, ?_, ?_, ?_, ?_, ?_⟩
  · unfold mbuf_mem_ref
    rw [mem_at_of_pool hm]
    simp only [store_refcount_of_pool _ hm, hmn]
  · rfl
  · rfl
  · rfl
  · simp [pool_refcount, find_mem_set_refcount, hm]
  · intro b hb
    simp [pool_refcount, find_mem_set_refcount, hb]
  · rfl
  · rfl
  · intro hwf h0 h1
    have hw : wrap_uint (n + 1) ≠ 0 := by
      unfold wrap_uint
      unfold UINT_MAX at h1
      omega
    have := pool_wf_set_refcount (v := wrap_uint (n + 1)) (f := s.pool.mem_free)
      s.hook_log hwf hm (by rw [if_neg hw, if_neg (by omega)])
    exact this

theorem mbuf_mem_unref_of_pool_gt_one {s : mbuf_state} {a : Nat} {m : mbuf_mem}
    (hm : find_mem s.pool.memories a = some m) (h : 1 < m.refcount) :
    mbuf_mem_unref 0 s a =
      some (0, { s with pool := { s.pool with
        memories := set_refcount s.pool.memories a (m.refcount - 1) } }) := by
  unfold mbuf_mem_unref mbuf_mem_unref_loop mbuf_mem_unref_internal
  simp only [mem_at_of_pool hm, gt_iff_lt, h, if_true, atomic_compare_exchange_weak,
    atomic_compare_exchange_strong, Bool.false_eq_true, if_false, store_refcount_of_pool _ hm]

theorem mbuf_mem_unref_of_pool_le_one {s : mbuf_state} {a : Nat} {m : mbuf_mem}
    (hm : find_mem s.pool.memories a = some m) (h : m.refcount ≤ 1) (hp : m.pool = true) :
    mbuf_mem_unref 0 s a =
      some (0, mbuf_pool_put
        { s with pool := { s.pool with memories := set_refcount s.pool.memories a 0 } }
        { m with refcount := 0 }) := by
  unfold mbuf_mem_unref mbuf_mem_unref_loop mbuf_mem_unref_internal
  have h' : ¬ 1 < m.refcount := by omega
  simp only [mem_at_of_pool hm, gt_iff_lt, h', if_false, atomic_compare_exchange_weak,
    atomic_compare_exchange_strong, Bool.false_eq_true, if_true, store_refcount_of_pool _ hm,
    hp, Bool.not_true, Bool.not_false]

theorem mbuf_pool_put_eq (s : mbuf_state) (mem : mbuf_mem) :
    mbuf_pool_put s mem =
      if put_releases s = true then
        { s with
          hook_log := call_free s.pool.implem mem (call_pool_put s.pool.implem mem s.hook_log)
          pool := { s.pool with
            memories := list_del s.pool.memories mem.addr
            mem_count := size_dec s.pool.mem_count
            mem_free := s.pool.mem_free } }
      else
        { s with
          hook_log := call_pool_put s.pool.implem mem s.hook_log
          pool := { s.pool with mem_free := s.pool.mem_free + 1 } } := by
  unfold mbuf_pool_put put_releases
  have e : size_dec (s.pool.mem_free + 1) = s.pool.mem_free := by simp [size_dec]
  cases hpol : s.pool.policy <;> simp only [Bool.not_false, if_true, Bool.false_eq_true, if_false]
  · by_cases h : s.pool.mem_free + 1 > s.pool.initial_mem_count
    · simp [h, e]
    · simp [h]
  · by_cases h : s.pool.mem_count > s.pool.initial_mem_count
    · simp [h, e]
    · simp [h]

/-- The function `mbuf_mem_unref` on a chunk of the pool whose reference count
is `n + 1`: it returns 0; for `n > 0` it stores `n`; for `n = 0` it stores 0 and
enters `mbuf_pool_put`, which either destroys the chunk (`mem_count` decreases
by one, `mem_free` is unchanged) or keeps it (`mem_free` increases by one). -/
theorem mbuf_mem_unref_pooled (sp : Nat) {s : mbuf_state} {a n : Nat} (hwf : pool_wf s)
    (hrc : pool_refcount s a = some (n + 1)) :
    ∃ s1, mbuf_mem_unref sp s a = some (0, s1) ∧ pool_wf s1 ∧
      pool_static s1 = pool_static s ∧ s1.loose = s.loose ∧
      (∀ b, b ≠ a → pool_refcount s1 b = pool_refcount s b) ∧
      (0 < n → pool_refcount s1 a = some n ∧ s1.pool.mem_count = s.pool.mem_count ∧
        s1.pool.mem_free = s.pool.mem_free) ∧
      (n = 0 → put_releases s = true → pool_refcount s1 a = none ∧
        s1.pool.mem_count + 1 = s.pool.mem_count ∧ s1.pool.mem_free = s.pool.mem_free) ∧
      (n = 0 → put_releases s = false → pool_refcount s1 a = some 0 ∧
        s1.pool.mem_count = s.pool.mem_count ∧ s1.pool.mem_free = s.pool.mem_free + 1) := by
  obtain ⟨m, hm, hmn⟩ := pool_refcount_eq_some hrc
  have hpool : m.pool = true := (hwf.2.2.2.1 m (find_mem_mem hm).1).2
  rw [mbuf_mem_unref_spurious]
  by_cases hn : 0 < n
  · rw [mbuf_mem_unref_of_pool_gt_one hm (by omega)]
    refine ⟨_, rfl, ?_, rfl, rfl, ?_, ?_, ?_, ?_⟩
    · exact pool_wf_set_refcount (v := m.refcount - 1) (f := s.pool.mem_free) s.hook_log hwf hm
        (by rw [if_neg (by omega), if_neg (by omega)])
    · intro b hb
      simp [pool_refcount, find_mem_set_refcount, hb]
    · intro _
      refine ⟨?_, rfl, rfl⟩
      simp only [pool_refcount, find_mem_set_refcount, hm, if_true, Option.map_some',
        Option.some.injEq]
      omega
    · intro h0; omega
    · intro h0; omega
  · have hn0 : n = 0 := by omega
    subst hn0
    rw [mbuf_mem_unref_of_pool_le_one hm (by omega) hpool, mbuf_pool_put_eq]
    have hwf1 := pool_wf_set_refcount (v := 0) (f := s.pool.mem_free + 1) s.hook_log hwf hm
      (by rw [if_neg (by omega), if_pos rfl])
    have hm1 : find_mem (set_refcount s.pool.memories a 0) a
        = some { m with refcount := 0 } := by
      simp [find_mem_set_refcount, hm]
    have hrel : put_releases
        { s with pool := { s.pool with memories := set_refcount s.pool.memories a 0 } }
        = put_releases s := rfl
    have hcount : 0 < s.pool.mem_count := by
      rw [hwf.1]
      cases hl : s.pool.memories with
      | nil => rw [hl] at hm; simp [find_mem] at hm
      | cons x r => simp
    have haddr : m.addr = a := (find_mem_mem hm).2
    rw [hrel]
    cases hr : put_releases s with
    | true =>
      simp only [if_true]
      have hdec : size_dec s.pool.mem_count = s.pool.mem_count - 1 := by
        unfold size_dec
        rw [if_neg (by omega)]
      have hwf2 := pool_wf_list_del (a := a) (f := s.pool.mem_free)
        (call_free s.pool.implem { m with refcount := 0 }
          (call_pool_put s.pool.implem { m with refcount := 0 } s.hook_log))
        hwf1 hm1 (by simp)
      refine ⟨_, rfl, ?_, rfl, rfl, ?_, ?_, ?_, ?_⟩
      · simp only [hdec, haddr]
        exact hwf2
      · intro b hb
        simp only [pool_refcount, haddr, find_mem_list_del_ne _ hb, find_mem_set_refcount,
          if_neg hb]
      · intro h0; omega
      · intro _ _
        refine ⟨?_, ?_, rfl⟩
        · have hnd : ((set_refcount s.pool.memories a 0).map (fun m => m.addr)).Nodup := by
            rw [map_addr_set_refcount]
            exact hwf.2.2.1
          simp only [pool_refcount, haddr, find_mem_list_del_self a hnd, Option.map_none']
        · simp only [hdec]
          omega
      · intro _ h2
        cases h2
    | false =>
      simp only [Bool.false_eq_true, if_false]
      refine ⟨_, rfl, ?_, rfl, rfl, ?_, ?_, ?_, ?_⟩
      · exact pool_wf_log (call_pool_put s.pool.implem { m with refcount := 0 } s.hook_log) 0 hwf1
      · intro b hb
        simp only [pool_refcount, find_mem_set_refcount, if_neg hb]
      · intro h0; omega
      · intro _ h2
        cases h2
      · intro _ _
        refine ⟨?_, rfl, rfl⟩
        simp only [pool_refcount, hm1, Option.map_some']

/-! ### `mbuf_pool_new` -/

theorem mbuf_pool_new_loop_ok (env : Nat → alloc_env) (todo : Nat) :
    ∀ (i : Nat) (s s1 : mbuf_state), mbuf_pool_new_loop env todo i s = (0, s1) →
      pool_static s1 = pool_static s ∧ s1.pool.mem_count = s.pool.mem_count ∧
      s1.pool.mem_free = s.pool.mem_free ∧ s1.loose = s.loose ∧
      s1.pool.memories.length = s.pool.memories.length + todo ∧
      zero_count s1.pool.memories = zero_count s.pool.memories + todo ∧
      (((s.pool.memories.map (fun m => m.addr)).Nodup ∧
          ∀ m ∈ s.pool.memories, m.addr < s.next_addr ∧ m.pool = true) →
        ((s1.pool.memories.map (fun m => m.addr)).Nodup ∧
          ∀ m ∈ s1.pool.memories, m.addr < s1.next_addr ∧ m.pool = true)) ∧
      s.next_addr ≤ s1.next_addr := by
  induction todo with
  | zero =>
    intro i s s1 h
    simp only [mbuf_pool_new_loop, Prod.mk.injEq, true_and] at h
    subst h
    exact ⟨rfl, rfl, rfl, rfl, rfl, rfl, fun h => h, Nat.le_refl _⟩
  | succ n ih =>
    intro i s s1 h
    unfold mbuf_pool_new_loop at h
    by_cases hc : (env i).calloc_ok = true
    · simp only [hc, Bool.not_true, Bool.false_eq_true, if_false] at h
      cases hca : call_alloc s.pool.implem (env i)
          { addr := s.next_addr, size := s.pool.mem_size, implem := none, refcount := 0,
            pool := true } s.hook_log with
      | mk ret log =>
        simp only [hca] at h
        by_cases hr : ret = 0
        · simp only [hr, ne_eq, not_true_eq_false, if_false] at h
          obtain ⟨h1, h2, h3, h4, h5, h6, h7, h8⟩ := ih _ _ _ h
          refine ⟨h1, h2, h3, h4, ?_, ?_, ?_, ?_⟩
          · rw [h5]
            simp only [List.length_append, List.length_singleton]
            omega
          · rw [h6]
            simp only [zero_count, List.countP_append, List.countP_cons, List.countP_nil,
              beq_self_eq_true, if_true]
            omega
          · intro hP
            apply h7
            constructor
            · simp only [List.map_append, List.map_cons, List.map_nil]
              rw [List.nodup_append]
              refine ⟨hP.1, by simp, ?_⟩
              intro x hx1 hx2
              simp only [List.mem_singleton] at hx2
              obtain ⟨y, hy, e⟩ := List.mem_map.mp hx1
              have := (hP.2 y hy).1
              omega
            · intro x hx
              simp only [List.mem_append, List.mem_singleton] at hx
              rcases hx with hx | hx
              · exact ⟨Nat.lt_succ_of_lt (hP.2 x hx).1, (hP.2 x hx).2⟩
              · subst hx
                exact ⟨by simp only; omega, rfl⟩
          · simp only at h8
            omega
        · simp only [ne_eq, hr, not_false_eq_true, if_true] at h
          exact absurd (Prod.mk.inj h).1 hr
    · have hc' : (env i).calloc_ok = false := by simpa using hc
      simp only [hc', Bool.not_false, if_true, Prod.mk.injEq] at h
      have : (-ENOMEM : Int) ≠ 0 := by decide
      exact absurd h.1 this

/-- A pool that `mbuf_pool_new` returns: its counters are the initial count,
all its chunks are free, and the maximum, when there is one, is not below the
initial count. -/
theorem mbuf_pool_new_ok {env : pool_new_env} {implem : Option mbuf_mem_implem}
    {mem_size mem_count max_mem_count : Nat} {policy : mbuf_pool_grow_policy}
    {ret_obj : Bool} {s : mbuf_state}
    (h : mbuf_pool_new env implem mem_size mem_count policy max_mem_count ret_obj
      = (0, some s)) :
    pool_wf s ∧ s.pool.policy = policy ∧ s.pool.initial_mem_count = mem_count ∧
      s.pool.max_mem_count = max_mem_count ∧ s.pool.mem_size = mem_size ∧
      some s.pool.implem = implem ∧
      s.pool.mem_count = mem_count ∧ s.pool.mem_free = mem_count ∧ s.loose = [] ∧
      (max_mem_count = 0 ∨ mem_count ≤ max_mem_count) := by
  unfold mbuf_pool_new at h
  cases implem with
  | none =>
    simp only [Prod.mk.injEq] at h
    exact absurd h.1 (by decide)
  | some impl =>
    simp only at h
    have hne : (-EINVAL : Int) ≠ 0 := by decide
    have hnm : (-ENOMEM : Int) ≠ 0 := by decide
    cases hl : mbuf_pool_new_loop env.chunk mem_count 0
        { pool :=
            { implem := impl, policy := policy, mem_size := mem_size,
              initial_mem_count := mem_count, max_mem_count := max_mem_count,
              mem_count := mem_count, mem_free := mem_count, memories := [] },
          loose := [], hook_log := [], next_addr := 1 } with
    | mk ret s1 =>
      simp only [hl] at h
      split_ifs at h with c1 c2 c3 c4 c5 c6
      · exact absurd (Prod.mk.inj h).1 hne
      · exact absurd (Prod.mk.inj h).1 hne
      · exact absurd (Prod.mk.inj h).1 hnm
      · exact absurd (Prod.mk.inj h).1 hnm
      · have := (Prod.mk.inj h).1
        omega
      · exact absurd (Prod.mk.inj h).1 c6
      · have hret0 : ret = 0 := by
          by_contra hh
          exact c6 hh
        subst hret0
        simp only [Prod.mk.injEq, Option.some.injEq, true_and] at h
        subst h
        obtain ⟨h1, h2, h3, h4, h5, h6, h7, -⟩ := mbuf_pool_new_loop_ok _ _ _ _ _ hl
        simp only [pool_static, Prod.mk.injEq] at h1
        simp only [List.length_nil, Nat.zero_add, zero_count, List.countP_nil] at h5 h6
        have hP := h7 ⟨by simp, by simp⟩
        refine ⟨⟨by rw [h2, h5], ?_, hP.1, hP.2, ?_⟩, h1.2.1, h1.2.2.2.1, h1.2.2.2.2,
          h1.2.2.1, by rw [h1.1], h2, h3, h4, ?_⟩
        · rw [h3]
          simp only [zero_count]
          omega
        · rw [h4]
          simp
        · omega

/-- First part of C5: `mbuf_pool_new` rejects a maximum below the initial
count. -/
theorem mbuf_pool_new_rejects (env : pool_new_env) (implem : Option mbuf_mem_implem)
    (mem_size mem_count max_mem_count : Nat) (policy : mbuf_pool_grow_policy)
    (ret_obj : Bool) (h1 : 0 < max_mem_count) (h2 : max_mem_count < mem_count) :
    mbuf_pool_new env implem mem_size mem_count policy max_mem_count ret_obj
      = (-EINVAL, none) := by
  unfold mbuf_pool_new
  cases implem with
  | none => rfl
  | some impl =>
    cases ret_obj with
    | false => rfl
    | true => simp [h1, h2]

/-! ### Reachable states are well formed -/

theorem pool_reach_wf {s : mbuf_state} (h : pool_reach s) : pool_wf s := by
  induction h with
  | new env implem mem_size mem_count policy max_mem_count ret_obj s hnew =>
    exact (mbuf_pool_new_ok hnew).1
  | get env s _ ih => exact (mbuf_pool_get_cases env ih).1
  | ref s s1 a n r _ hrc h0 h1 href ih =>
    obtain ⟨s2, e, -, -, -, -, -, -, -, hwf⟩ := mbuf_mem_ref_pooled hrc
    rw [e] at href
    cases href
    exact hwf ih h0 h1
  | unref sp s s1 a n r _ hrc h0 hun ih =>
    obtain ⟨k, rfl⟩ : ∃ k, n = k + 1 := ⟨n - 1, by omega⟩
    obtain ⟨s2, e, hwf, -⟩ := mbuf_mem_unref_pooled sp ih hrc
    rw [e] at hun
    cases hun
    exact hwf

theorem pool_reach_static {s : mbuf_state} (h : pool_reach s) :
    s.pool.max_mem_count = 0 ∨ s.pool.initial_mem_count ≤ s.pool.max_mem_count := by
  induction h with
  | new env implem mem_size mem_count policy max_mem_count ret_obj s hnew =>
    obtain ⟨-, -, h1, h2, -, -, -, -, -, h3⟩ := mbuf_pool_new_ok hnew
    rw [h1, h2]
    exact h3
  | get env s hr ih =>
    have := (mbuf_pool_get_cases env (pool_reach_wf hr)).2.1
    simp only [pool_static, Prod.mk.injEq] at this
    rw [this.2.2.2.1, this.2.2.2.2]
    exact ih
  | ref s s1 a n r _ hrc h0 h1 href ih =>
    obtain ⟨s2, e, hst, -⟩ := mbuf_mem_ref_pooled hrc
    rw [e] at href
    cases href
    simp only [pool_static, Prod.mk.injEq] at hst
    rw [hst.2.2.2.1, hst.2.2.2.2]
    exact ih
  | unref sp s s1 a n r hr hrc h0 hun ih =>
    obtain ⟨k, rfl⟩ : ∃ k, n = k + 1 := ⟨n - 1, by omega⟩
    obtain ⟨s2, e, -, hst, -⟩ := mbuf_mem_unref_pooled sp (pool_reach_wf hr) hrc
    rw [e] at hun
    cases hun
    simp only [pool_static, Prod.mk.injEq] at hst
    rw [hst.2.2.2.1, hst.2.2.2.2]
    exact ih

theorem pool_reach_max {s : mbuf_state} (h : pool_reach s) :
    s.pool.max_mem_count = 0 ∨ s.pool.mem_count ≤ s.pool.max_mem_count := by
  induction h with
  | new env implem mem_size mem_count policy max_mem_count ret_obj s hnew =>
    obtain ⟨-, -, -, h2, -, -, h4, -, -, h3⟩ := mbuf_pool_new_ok hnew
    rw [h2, h4]
    exact h3
  | get env s hr ih =>
    obtain ⟨-, hst, -, hc⟩ := mbuf_pool_get_cases env (pool_reach_wf hr)
    simp only [pool_static, Prod.mk.injEq] at hst
    rw [hst.2.2.2.2]
    rcases hc with ⟨a, -, -, -, -, -, -, -, hc, -⟩ | ⟨-, -, -, -, hc⟩ | ⟨-, -, hc⟩ |
      ⟨-, -, -, -, -, hc⟩ | ⟨-, -, hroom, -, -, -, -, -, -, -, -, hc, -⟩ |
      ⟨-, -, hroom, -, -, -, -, -, -, -, hc, -⟩
    · rw [hc]; exact ih
    · rw [hc]; exact ih
    · rw [hc]; exact ih
    · rw [hc]; exact ih
    · rw [hc]; omega
    · rw [hc]; omega
  | ref s s1 a n r _ hrc h0 h1 href ih =>
    obtain ⟨s2, e, hst, -, -, -, -, hc, -⟩ := mbuf_mem_ref_pooled hrc
    rw [e] at href
    cases href
    simp only [pool_static, Prod.mk.injEq] at hst
    rw [hst.2.2.2.2, hc]
    exact ih
  | unref sp s s1 a n r hr hrc h0 hun ih =>
    obtain ⟨k, rfl⟩ : ∃ k, n = k + 1 := ⟨n - 1, by omega⟩
    obtain ⟨s2, e, -, hst, -, -, hgt, hrel, hkeep⟩ :=
      mbuf_mem_unref_pooled sp (pool_reach_wf hr) hrc
    rw [e] at hun
    cases hun
    simp only [pool_static, Prod.mk.injEq] at hst
    rw [hst.2.2.2.2]
    by_cases hk : 0 < k
    · rw [(hgt hk).2.1]; exact ih
    · have hk0 : k = 0 := by omega
      cases hp : put_releases s with
      | true => have := (hrel hk0 hp).2.1; omega
      | false => rw [(hkeep hk0 hp).2.1]; exact ih

theorem pool_wf_free_le {s : mbuf_state} (h : pool_wf s) :
    s.pool.mem_free ≤ s.pool.mem_count := by
  rw [h.1, h.2.1]
  exact List.countP_le_length _

/-- C5, as the code has it: `mbuf_pool_new` rejects a maximum below the
initial count with `-EINVAL`; and in every state reached from a successful
`mbuf_pool_new` by calls of `mbuf_pool_get`, and of `mbuf_mem_ref` and
`mbuf_mem_unref` on chunks whose reference count is at least 1 (for
`mbuf_mem_ref`, also below `UINT_MAX`), `mem_free ≤ mem_count` and
`max_mem_count = 0` or `mem_count ≤ max_mem_count`, for every growth policy. -/
theorem mbuf_pool_invariant (env : pool_new_env) (implem : Option mbuf_mem_implem)
    (mem_size mem_count max_mem_count : Nat) (policy : mbuf_pool_grow_policy)
    (ret_obj : Bool) (s : mbuf_state) (hs : pool_reach s) :
    ((0 < max_mem_count ∧ max_mem_count < mem_count) →
      mbuf_pool_new env implem mem_size mem_count policy max_mem_count ret_obj
        = (-EINVAL, none)) ∧
    s.pool.mem_free ≤ s.pool.mem_count ∧
    (s.pool.max_mem_count = 0 ∨ s.pool.mem_count ≤ s.pool.max_mem_count) :=
  ⟨fun h => mbuf_pool_new_rejects env implem mem_size mem_count max_mem_count policy
      ret_obj h.1 h.2,
    pool_wf_free_le (pool_reach_wf hs), pool_reach_max hs⟩

theorem heap_pool_new (policy : mbuf_pool_grow_policy) (max_mem_count : Nat)
    (h : max_mem_count = 0 ∨ 2 ≤ max_mem_count) :
    mbuf_pool_new new_env_ok (some mbuf_mem_generic_impl) 1024 2 policy max_mem_count true
      = (0, some (heap_pool policy max_mem_count)) := by
  have hmax : ¬ (max_mem_count > 0 ∧ max_mem_count < 2) := by omega
  unfold mbuf_pool_new
  simp only [Bool.not_true, Bool.false_eq_true, if_false, hmax, new_env_ok]
  rfl

theorem low_mem_pool_new :
    mbuf_pool_new new_env_ok (some mbuf_mem_generic_impl) 1024 2 MBUF_POOL_LOW_MEM_GROW 3 true
      = (0, some low_mem_pool) :=
  heap_pool_new _ _ (by decide)

/-- C5 at a concrete input: a maximum of 3 for 4 initial chunks is rejected;
the low-memory pool of two chunks and at most three, after three calls of
`mbuf_pool_get`, is a reached state and has the invariant. -/
theorem mbuf_pool_invariant_witness :
    pool_reach (get_n [env_ok, env_ok, env_ok] low_mem_pool).2 ∧
    mbuf_pool_new new_env_ok (some mbuf_mem_generic_impl) 1024 4 MBUF_POOL_LOW_MEM_GROW 3 true
      = (-EINVAL, none) ∧
    (get_n [env_ok, env_ok, env_ok] low_mem_pool).2.pool.mem_free
      ≤ (get_n [env_ok, env_ok, env_ok] low_mem_pool).2.pool.mem_count ∧
    ((get_n [env_ok, env_ok, env_ok] low_mem_pool).2.pool.max_mem_count = 0 ∨
      (get_n [env_ok, env_ok, env_ok] low_mem_pool).2.pool.mem_count
        ≤ (get_n [env_ok, env_ok, env_ok] low_mem_pool).2.pool.max_mem_count) := by
  have hr : pool_reach (get_n [env_ok, env_ok, env_ok] low_mem_pool).2 :=
    pool_reach.get env_ok _ (pool_reach.get env_ok _ (pool_reach.get env_ok _
      (pool_reach.new _ _ _ _ _ _ _ _ low_mem_pool_new)))
  have h := mbuf_pool_invariant new_env_ok (some mbuf_mem_generic_impl) 1024 4 3
    MBUF_POOL_LOW_MEM_GROW true _ hr
  exact ⟨hr, h.1 (by decide), h.2.1, h.2.2⟩

/-- C2, as the code has it.  In a pool with `max_mem_count = N > 0` and no free
chunk, under every policy: when `mem_count = N`, `mbuf_pool_get` returns
`-EAGAIN` and changes nothing; while `mem_count < N` and the policy is a
growing one, it returns 0, stores a new chunk and increases `mem_count` by
exactly one provided `calloc` succeeds and the `alloc` and `pool_get` hooks,
where the implementation has them, return 0; when `calloc` fails it returns
`-ENOMEM`, when the `alloc` hook fails it returns the hook's error, and in both
cases the pool is unchanged. -/
theorem mbuf_pool_get_max_spec (env : alloc_env) (s : mbuf_state) (hs : pool_reach s)
    (hN : 0 < s.pool.max_mem_count) (hfree : s.pool.mem_free = 0) :
    (s.pool.mem_count = s.pool.max_mem_count →
      mbuf_pool_get env s = (-EAGAIN, none, s)) ∧
    (s.pool.mem_count < s.pool.max_mem_count → s.pool.policy ≠ MBUF_POOL_NO_GROW →
      env.calloc_ok = true → (s.pool.implem.alloc = false ∨ env.alloc_ret = 0) →
      (s.pool.implem.pool_get = false ∨ env.pool_get_ret = 0) →
      (mbuf_pool_get env s).1 = 0 ∧ (mbuf_pool_get env s).2.1 = some s.next_addr ∧
      pool_refcount (mbuf_pool_get env s).2.2 s.next_addr = some 1 ∧
      (mbuf_pool_get env s).2.2.pool.mem_count = s.pool.mem_count + 1 ∧
      (mbuf_pool_get env s).2.2.pool.mem_free = 0) ∧
    (s.pool.mem_count < s.pool.max_mem_count → s.pool.policy ≠ MBUF_POOL_NO_GROW →
      env.calloc_ok = false →
      (mbuf_pool_get env s).1 = -ENOMEM ∧ (mbuf_pool_get env s).2.2.pool = s.pool) ∧
    (s.pool.mem_count < s.pool.max_mem_count → s.pool.policy ≠ MBUF_POOL_NO_GROW →
      env.calloc_ok = true → s.pool.implem.alloc = true → env.alloc_ret ≠ 0 →
      (mbuf_pool_get env s).1 = env.alloc_ret ∧ (mbuf_pool_get env s).2.2.pool = s.pool) := by
  have hwf := pool_reach_wf hs
  obtain ⟨-, -, -, hc⟩ := mbuf_pool_get_cases env hwf
  refine ⟨?_, ?_, ?_, ?_⟩
  · intro hfull
    rcases hc with ⟨a, h, -⟩ | ⟨h, -⟩ | ⟨-, -, h⟩ | ⟨-, -, h, -⟩ | ⟨-, -, h, -⟩ | ⟨-, -, h, -⟩
    · omega
    · omega
    · exact h
    · omega
    · omega
    · omega
  · intro hlt hpol hcal hal hpg
    rcases hc with ⟨a, h, -⟩ | ⟨h, -⟩ | ⟨-, h, -⟩ | ⟨-, -, -, h, -⟩ |
      ⟨-, -, -, -, -, -, h1, h2, -, h3, -, h4, h5⟩ | ⟨-, -, -, -, -, h1, h2, -⟩
    · omega
    · omega
    · rcases h with h | h
      · exact absurd h hpol
      · omega
    · rcases h with ⟨h, -⟩ | ⟨-, h1, h2, -⟩
      · rw [hcal] at h; cases h
      · rcases hal with hal | hal
        · rw [hal] at h1; cases h1
        · exact absurd hal h2
    · exact ⟨h1, h2, h3, h4, h5⟩
    · rcases hpg with hpg | hpg
      · rw [hpg] at h1; cases h1
      · exact absurd hpg h2
  · intro hlt hpol hcal
    rcases hc with ⟨a, h, -⟩ | ⟨h, -⟩ | ⟨-, h, -⟩ | ⟨-, -, -, h, -, h2⟩ |
      ⟨-, -, -, h, -⟩ | ⟨-, -, -, h, -⟩
    · omega
    · omega
    · rcases h with h | h
      · exact absurd h hpol
      · omega
    · rcases h with ⟨-, h⟩ | ⟨h, -⟩
      · exact ⟨h, h2⟩
      · rw [hcal] at h; cases h
    · rw [hcal] at h; cases h
    · rw [hcal] at h; cases h
  · intro hlt hpol hcal hal har
    rcases hc with ⟨a, h, -⟩ | ⟨h, -⟩ | ⟨-, h, -⟩ | ⟨-, -, -, h, -, h2⟩ |
      ⟨-, -, -, -, h, -⟩ | ⟨-, -, -, -, h, -⟩
    · omega
    · omega
    · rcases h with h | h
      · exact absurd h hpol
      · omega
    · rcases h with ⟨h, -⟩ | ⟨-, -, -, h⟩
      · rw [hcal] at h; cases h
      · exact ⟨h, h2⟩
    · rcases h with h | h
      · rw [hal] at h; cases h
      · exact absurd h har
    · rcases h with h | h
      · rw [hal] at h; cases h
      · exact absurd h har

/-- C2 at a concrete input: the low-memory pool with all its chunks taken has
two chunks of at most three and none free; a further `mbuf_pool_get` grows it
to three, and the next one is refused. -/
theorem mbuf_pool_get_max_spec_witness :
    (mbuf_pool_get env_ok (get_n [env_ok, env_ok] low_mem_pool).2).1 = 0 ∧
    (mbuf_pool_get env_ok (get_n [env_ok, env_ok] low_mem_pool).2).2.2.pool.mem_count = 3 ∧
    mbuf_pool_get env_ok (get_n [env_ok, env_ok, env_ok] low_mem_pool).2
      = (-EAGAIN, none, (get_n [env_ok, env_ok, env_ok] low_mem_pool).2) := by
  have hr2 : pool_reach (get_n [env_ok, env_ok] low_mem_pool).2 :=
    pool_reach.get env_ok _ (pool_reach.get env_ok _
      (pool_reach.new _ _ _ _ _ _ _ _ low_mem_pool_new))
  have hr3 : pool_reach (get_n [env_ok, env_ok, env_ok] low_mem_pool).2 :=
    pool_reach.get env_ok _ hr2
  have h2 := (mbuf_pool_get_max_spec env_ok _ hr2 (by decide) (by decide)).2.1
    (by decide) (by decide) rfl (Or.inr rfl) (Or.inr rfl)
  have h3 := (mbuf_pool_get_max_spec env_ok _ hr3 (by decide) (by decide)).1 (by decide)
  exact ⟨h2.1, h2.2.2.2.1, h3⟩

/-- C2, the claim as stated fails: in a growing pool of one chunk and at most
two, with its chunk taken (`mem_count = 1 < 2`, no free chunk), a call of
`mbuf_pool_get` during which `calloc` returns NULL does not succeed: it
returns `-ENOMEM` and `mem_count` stays 1. -/
theorem mbuf_pool_get_grow_enomem :
    ∃ s0 s1, mbuf_pool_new new_env_ok (some mbuf_mem_generic_impl) 1024 1 MBUF_POOL_GROW 2 true
        = (0, some s0) ∧
      mbuf_pool_get env_ok s0 = (0, some 1, s1) ∧
      s1.pool.mem_count = 1 ∧ s1.pool.max_mem_count = 2 ∧ s1.pool.mem_free = 0 ∧
      mbuf_pool_get env_enomem s1 = (-ENOMEM, none, s1) ∧
      (mbuf_pool_get env_enomem s1).1 ≠ 0 := by
  refine ⟨_, _, rfl, rfl, ?_⟩
  decide

/-! ### Sequences of `mbuf_pool_get` -/

theorem mbuf_pool_get_success {env : alloc_env} {s : mbuf_state} (hwf : pool_wf s)
    (h0 : (mbuf_pool_get env s).1 = 0) :
    ∃ a, (mbuf_pool_get env s).2.1 = some a ∧ pool_refcount s a ≠ some 1 ∧
      pool_refcount (mbuf_pool_get env s).2.2 a = some 1 ∧
      (∀ b, b ≠ a → pool_refcount (mbuf_pool_get env s).2.2 b = pool_refcount s b) ∧
      (mbuf_pool_get env s).2.2.pool.mem_free = s.pool.mem_free - 1 ∧
      (mbuf_pool_get env s).2.2.pool.mem_count = s.pool.mem_count + (1 - s.pool.mem_free) := by
  obtain ⟨-, -, -, hc⟩ := mbuf_pool_get_cases env hwf
  rcases hc with ⟨a, h1, h2, -, -, h3, h4, h5, h6, h7⟩ | ⟨-, -, h1, h2, -⟩ | ⟨-, -, h⟩ |
    ⟨-, -, -, h, -⟩ | ⟨hf, -, -, -, -, -, -, h3, h2, h4, h5, h6, h7⟩ |
    ⟨-, -, -, -, -, -, h1, h2, -⟩
  · refine ⟨a, h3, ?_, h4, h5, by omega, by omega⟩
    rw [h2]; simp
  · rw [h2] at h0; exact absurd h0 h1
  · rw [h] at h0
    have hne : (-EAGAIN : Int) ≠ 0 := by decide
    exact absurd h0 hne
  · rcases h with ⟨-, h⟩ | ⟨-, -, h1, h2⟩
    · rw [h] at h0
      have hne : (-ENOMEM : Int) ≠ 0 := by decide
      exact absurd h0 hne
    · rw [h2] at h0; exact absurd h0 h1
  · refine ⟨s.next_addr, h3, ?_, h4, h5, by omega, by omega⟩
    rw [h2]; simp
  · rw [h2] at h0; exact absurd h0 h1

theorem get_n_ok (envs : List alloc_env) :
    ∀ s : mbuf_state, pool_wf s → (∀ r ∈ (get_n envs s).1, r.1 = 0) →
      pool_wf (get_n envs s).2 ∧ pool_static (get_n envs s).2 = pool_static s ∧
      (got envs s).length = envs.length ∧ (got envs s).Nodup ∧
      (∀ a ∈ got envs s, pool_refcount s a ≠ some 1 ∧
        pool_refcount (get_n envs s).2 a = some 1) ∧
      (∀ b, b ∉ got envs s → pool_refcount (get_n envs s).2 b = pool_refcount s b) ∧
      (get_n envs s).2.pool.mem_free = s.pool.mem_free - envs.length ∧
      (get_n envs s).2.pool.mem_count
        = s.pool.mem_count + (envs.length - s.pool.mem_free) := by
  induction envs with
  | nil =>
    intro s hwf _
    simp [get_n, got, hwf]
  | cons env rest ih =>
    intro s hwf hall
    have h0 : (mbuf_pool_get env s).1 = 0 :=
      hall ((mbuf_pool_get env s).1, (mbuf_pool_get env s).2.1) (by simp [get_n])
    have hrest : ∀ r ∈ (get_n rest (mbuf_pool_get env s).2.2).1, r.1 = 0 := by
      intro r hr
      exact hall r (by simp [get_n, hr])
    obtain ⟨hwf1, hst1, -, -⟩ := mbuf_pool_get_cases env hwf
    obtain ⟨a, ha1, ha2, ha3, ha4, ha5, ha6⟩ := mbuf_pool_get_success hwf h0
    obtain ⟨i1, i2, i3, i4, i5, i6, i7, i8⟩ := ih _ hwf1 hrest
    have hgot : got (env :: rest) s = a :: got rest (mbuf_pool_get env s).2.2 := by
      simp [got, get_n, ha1]
    have hstate : (get_n (env :: rest) s).2 = (get_n rest (mbuf_pool_get env s).2.2).2 := rfl
    have hnotin : a ∉ got rest (mbuf_pool_get env s).2.2 := fun hin => (i5 a hin).1 ha3
    rw [hgot, hstate]
    refine ⟨i1, by rw [i2, hst1], by simp [i3], List.nodup_cons.mpr ⟨hnotin, i4⟩, ?_, ?_, ?_, ?_⟩
    · intro b hb
      rcases List.mem_cons.mp hb with e | hb'
      · subst e
        exact ⟨ha2, by rw [i6 _ hnotin, ha3]⟩
      · have hne : b ≠ a := fun e => hnotin (e ▸ hb')
        exact ⟨by rw [← ha4 b hne]; exact (i5 b hb').1, (i5 b hb').2⟩
    · intro b hb
      simp only [List.mem_cons, not_or] at hb
      rw [i6 b hb.2, ha4 b hb.1]
    · rw [i7, ha5]
      simp only [List.length_cons]
      omega
    · rw [i8, ha6, ha5]
      simp only [List.length_cons]
      omega

theorem get_n_free_ok (envs : List alloc_env) :
    ∀ s : mbuf_state, pool_wf s → s.pool.implem.pool_get = false →
      envs.length ≤ s.pool.mem_free → ∀ r ∈ (get_n envs s).1, r.1 = 0 := by
  induction envs with
  | nil =>
    intro s _ _ _ r hr
    simp [get_n] at hr
  | cons env rest ih =>
    intro s hwf himpl hlen r hr
    simp only [List.length_cons] at hlen
    obtain ⟨hwf1, hst1, -, hc⟩ := mbuf_pool_get_cases env hwf
    simp only [pool_static, Prod.mk.injEq] at hst1
    have hA : (mbuf_pool_get env s).1 = 0 ∧
        (mbuf_pool_get env s).2.2.pool.mem_free + 1 = s.pool.mem_free := by
      rcases hc with ⟨a, -, -, -, h3, -, -, -, -, h7⟩ | ⟨-, h1, -⟩ | ⟨h, -⟩ | ⟨h, -⟩ |
        ⟨h, -⟩ | ⟨h, -⟩
      · exact ⟨h3, h7⟩
      · rw [himpl] at h1; cases h1
      · omega
      · omega
      · omega
      · omega
    simp only [get_n, List.mem_cons] at hr
    rcases hr with e | hr
    · rw [e]; exact hA.1
    · exact ih _ hwf1 (by rw [hst1.1]; exact himpl) (by omega) r hr

/-! ### Sequences of `mbuf_mem_unref` -/

theorem unref_all_ok (order : List (Nat × Nat)) :
    ∀ s : mbuf_state, pool_wf s → (order.map Prod.snd).Nodup →
      (∀ a ∈ order.map Prod.snd, pool_refcount s a = some 1) →
      ∃ s2, unref_all order s = some s2 ∧ pool_wf s2 ∧ pool_static s2 = pool_static s ∧
        (s2.pool.mem_count, s2.pool.mem_free)
          = counts_after_puts s.pool.policy s.pool.initial_mem_count order.length
              (s.pool.mem_count, s.pool.mem_free) ∧
        (∀ b, b ∉ order.map Prod.snd → pool_refcount s2 b = pool_refcount s b) := by
  induction order with
  | nil =>
    intro s hwf _ _
    exact ⟨s, rfl, hwf, rfl, rfl, fun _ _ => rfl⟩
  | cons x rest ih =>
    intro s hwf hnd hall
    obtain ⟨sp, a⟩ := x
    simp only [List.map_cons, List.nodup_cons] at hnd
    have ha : pool_refcount s a = some (0 + 1) := hall a (by simp)
    obtain ⟨s1, e, hwf1, hst1, -, hfr, -, hrel, hkeep⟩ := mbuf_mem_unref_pooled sp hwf ha
    have hall1 : ∀ b ∈ rest.map Prod.snd, pool_refcount s1 b = some 1 := by
      intro b hb
      have hne : b ≠ a := fun e => hnd.1 (e ▸ hb)
      rw [hfr b hne]
      exact hall b (by simp only [List.map_cons, List.mem_cons]; exact Or.inr hb)
    obtain ⟨s2, e2, hwf2, hst2, hcnt, hfr2⟩ := ih s1 hwf1 hnd.2 hall1
    have hst1' := hst1
    simp only [pool_static, Prod.mk.injEq] at hst1'
    refine ⟨s2, ?_, hwf2, by rw [hst2, hst1], ?_, ?_⟩
    · simp only [unref_all, e, e2]
    · rw [hcnt, hst1'.2.1, hst1'.2.2.2.1]
      simp only [List.length_cons, counts_after_puts]
      cases hp : put_releases s with
      | true =>
        obtain ⟨-, h1, h2⟩ := hrel rfl hp
        have hcount : s1.pool.mem_count = s.pool.mem_count - 1 := by omega
        have hrel' : (match s.pool.policy with
            | MBUF_POOL_NO_GROW => false
            | MBUF_POOL_GROW => false
            | MBUF_POOL_SMART_GROW => decide (s.pool.mem_free + 1 > s.pool.initial_mem_count)
            | MBUF_POOL_LOW_MEM_GROW => decide (s.pool.mem_count > s.pool.initial_mem_count))
            = true := hp
        rw [hrel', hcount, h2]
        rfl
      | false =>
        obtain ⟨-, h1, h2⟩ := hkeep rfl hp
        have hrel' : (match s.pool.policy with
            | MBUF_POOL_NO_GROW => false
            | MBUF_POOL_GROW => false
            | MBUF_POOL_SMART_GROW => decide (s.pool.mem_free + 1 > s.pool.initial_mem_count)
            | MBUF_POOL_LOW_MEM_GROW => decide (s.pool.mem_count > s.pool.initial_mem_count))
            = false := hp
        rw [hrel', h1, h2]
        rfl
    · intro b hb
      simp only [List.map_cons, List.mem_cons, not_or] at hb
      rw [hfr2 b hb.2, hfr b hb.1]

theorem counts_after_puts_keep (policy : mbuf_pool_grow_policy) (initial : Nat)
    (hp : policy = MBUF_POOL_NO_GROW ∨ policy = MBUF_POOL_GROW) (n : Nat) :
    ∀ c f, counts_after_puts policy initial n (c, f) = (c, f + n) := by
  induction n with
  | zero => intro c f; rfl
  | succ k ih =>
    intro c f
    rcases hp with hp | hp <;> subst hp <;>
      simp only [counts_after_puts, Bool.false_eq_true, if_false, ih] <;>
      simp only [Prod.mk.injEq, true_and] <;> omega

theorem counts_after_puts_smart (initial : Nat) (n : Nat) :
    ∀ c f, f ≤ initial →
      counts_after_puts MBUF_POOL_SMART_GROW initial n (c, f)
        = (c - (f + n - initial), min (f + n) initial) := by
  induction n with
  | zero =>
    intro c f hf
    simp only [counts_after_puts, Nat.add_zero, Prod.mk.injEq]
    omega
  | succ k ih =>
    intro c f hf
    simp only [counts_after_puts]
    by_cases h : f + 1 > initial
    · simp only [h, decide_True, if_true]
      rw [ih _ _ hf]
      simp only [Prod.mk.injEq]
      omega
    · simp only [h, decide_False, Bool.false_eq_true, if_false]
      rw [ih _ _ (by omega)]
      simp only [Prod.mk.injEq]
      omega

theorem counts_after_puts_low_mem (initial : Nat) (n : Nat) :
    ∀ c f, counts_after_puts MBUF_POOL_LOW_MEM_GROW initial n (c, f)
        = (c - min n (c - initial), f + (n - (c - initial))) := by
  induction n with
  | zero =>
    intro c f
    simp only [counts_after_puts, Prod.mk.injEq]
    omega
  | succ k ih =>
    intro c f
    simp only [counts_after_puts]
    by_cases h : c > initial
    · simp only [h, decide_True, if_true]
      rw [ih]
      simp only [Prod.mk.injEq]
      omega
    · simp only [h, decide_False, Bool.false_eq_true, if_false]
      rw [ih]
      simp only [Prod.mk.injEq]
      omega

/-! ### The scenarios of the pool tests -/

theorem mbuf_pool_get_exhausted (env : alloc_env) {s : mbuf_state} (hwf : pool_wf s)
    (hfree : s.pool.mem_free = 0)
    (h : s.pool.policy = MBUF_POOL_NO_GROW ∨
      (0 < s.pool.max_mem_count ∧ s.pool.max_mem_count ≤ s.pool.mem_count)) :
    mbuf_pool_get env s = (-EAGAIN, none, s) := by
  rw [mbuf_pool_get_of_no_free_eq env (mbuf_pool_get_of_no_free hwf hfree)]
  rcases h with h | h
  · rw [if_pos h]
  · by_cases hp : s.pool.policy = MBUF_POOL_NO_GROW
    · rw [if_pos hp]
    · rw [if_neg hp, if_pos h]

theorem length_get_n (envs : List alloc_env) :
    ∀ s : mbuf_state, (get_n envs s).1.length = envs.length := by
  induction envs with
  | nil => intro s; rfl
  | cons env rest ih => intro s; simp [get_n, ih]

theorem get_n_rets {envs : List alloc_env} {s : mbuf_state}
    (h : ∀ r ∈ (get_n envs s).1, r.1 = 0) :
    (get_n envs s).1.map Prod.fst = List.replicate envs.length 0 := by
  rw [List.eq_replicate_iff]
  refine ⟨by simp [length_get_n], ?_⟩
  intro b hb
  obtain ⟨r, hr, e⟩ := List.mem_map.mp hb
  rw [← e]
  exact h r hr

/-- C1: a pool that `mbuf_pool_new` returns for `K` initial chunks, the policy
`MBUF_POOL_NO_GROW` and the heap implementation.  The first `K` calls of
`mbuf_pool_get` each return 0 and store `K` distinct chunks; a further call
returns `-EAGAIN` (and changes nothing); and after `mbuf_mem_unref` of the `K`
chunks, in any order, `mbuf_pool_get_count` reports `K` chunks, `K` of them
free. -/
theorem mbuf_pool_no_grow_scenario (env : pool_new_env) (mem_size K max_mem_count : Nat)
    (s0 : mbuf_state)
    (hnew : mbuf_pool_new env (some mbuf_mem_generic_impl) mem_size K MBUF_POOL_NO_GROW
      max_mem_count true = (0, some s0))
    (envs : List alloc_env) (hlen : envs.length = K) (env1 : alloc_env)
    (order : List (Nat × Nat)) (horder : (order.map Prod.snd).Perm (got envs s0)) :
    (get_n envs s0).1.map Prod.fst = List.replicate K 0 ∧
    (got envs s0).length = K ∧ (got envs s0).Nodup ∧
    mbuf_pool_get env1 (get_n envs s0).2 = (-EAGAIN, none, (get_n envs s0).2) ∧
    ∃ s2, unref_all order (get_n envs s0).2 = some s2 ∧
      mbuf_pool_get_count s2 = (0, K, K) := by
  obtain ⟨hwf, hpol, hinit, -, -, himpl, hcount, hfree, -, -⟩ := mbuf_pool_new_ok hnew
  have himpl' : s0.pool.implem = mbuf_mem_generic_impl := Option.some.inj himpl
  have hall := get_n_free_ok envs s0 hwf (by rw [himpl']; rfl) (by omega)
  obtain ⟨hwf1, hst1, g1, g2, g3, -, g5, g6⟩ := get_n_ok envs s0 hwf hall
  simp only [pool_static, Prod.mk.injEq] at hst1
  have hfree1 : (get_n envs s0).2.pool.mem_free = 0 := by omega
  have hcount1 : (get_n envs s0).2.pool.mem_count = K := by omega
  refine ⟨by rw [get_n_rets hall, hlen], by omega, g2,
    mbuf_pool_get_exhausted env1 hwf1 hfree1 (Or.inl (by rw [hst1.2.1, hpol])), ?_⟩
  have hnd : (order.map Prod.snd).Nodup := horder.nodup_iff.mpr g2
  have hrc : ∀ a ∈ order.map Prod.snd, pool_refcount (get_n envs s0).2 a = some 1 :=
    fun a ha => (g3 a (horder.mem_iff.mp ha)).2
  obtain ⟨s2, e, -, -, hcnt, -⟩ := unref_all_ok order _ hwf1 hnd hrc
  have hlen2 : order.length = K := by
    have := horder.length_eq
    simp only [List.length_map] at this
    omega
  rw [hst1.2.1, hpol, counts_after_puts_keep _ _ (Or.inl rfl), hfree1, hcount1, hlen2,
    Prod.mk.injEq] at hcnt
  refine ⟨s2, e, ?_⟩
  simp only [mbuf_pool_get_count, hcnt.1, hcnt.2, Nat.zero_add]

/-- C1 at a concrete input: two chunks, taken and released in the opposite
order, with spurious failures of the compare and exchange. -/
theorem mbuf_pool_no_grow_scenario_witness :
    mbuf_pool_new new_env_ok (some mbuf_mem_generic_impl) 1024 2 MBUF_POOL_NO_GROW 0 true
      = (0, some (heap_pool MBUF_POOL_NO_GROW 0)) ∧
    got [env_ok, env_enomem] (heap_pool MBUF_POOL_NO_GROW 0) = [1, 2] ∧
    (get_n [env_ok, env_enomem] (heap_pool MBUF_POOL_NO_GROW 0)).1.map Prod.fst = [0, 0] ∧
    (mbuf_pool_get env_ok (get_n [env_ok, env_enomem] (heap_pool MBUF_POOL_NO_GROW 0)).2).1
      = -EAGAIN ∧
    ∃ s2, unref_all [(3, 2), (0, 1)]
        (get_n [env_ok, env_enomem] (heap_pool MBUF_POOL_NO_GROW 0)).2 = some s2 ∧
      mbuf_pool_get_count s2 = (0, 2, 2) := by
  have hnew := heap_pool_new MBUF_POOL_NO_GROW 0 (Or.inl rfl)
  have h := mbuf_pool_no_grow_scenario new_env_ok 1024 2 0 _ hnew [env_ok, env_enomem] rfl
    env_ok [(3, 2), (0, 1)] (by decide)
  exact ⟨hnew, by decide, h.1, by rw [h.2.2.2.1], h.2.2.2.2⟩

theorem put_releases_smart {s : mbuf_state} (hp : s.pool.policy = MBUF_POOL_SMART_GROW) :
    put_releases s = decide (s.pool.mem_free + 1 > s.pool.initial_mem_count) := by
  simp only [put_releases, hp]

theorem put_releases_low_mem {s : mbuf_state} (hp : s.pool.policy = MBUF_POOL_LOW_MEM_GROW) :
    put_releases s = decide (s.pool.mem_count > s.pool.initial_mem_count) := by
  simp only [put_releases, hp]

theorem unref_all_take_ok {order : List (Nat × Nat)} {s : mbuf_state} (i : Nat)
    (hwf : pool_wf s) (hnd : (order.map Prod.snd).Nodup)
    (hrc : ∀ a ∈ order.map Prod.snd, pool_refcount s a = some 1) :
    ∃ si, unref_all (order.take i) s = some si ∧
      (si.pool.mem_count, si.pool.mem_free)
        = counts_after_puts s.pool.policy s.pool.initial_mem_count (min i order.length)
            (s.pool.mem_count, s.pool.mem_free) := by
  have hsub : ((order.take i).map Prod.snd).Sublist (order.map Prod.snd) :=
    (List.take_sublist i order).map Prod.snd
  obtain ⟨si, e, -, -, hcnt, -⟩ := unref_all_ok (order.take i) s hwf (hnd.sublist hsub)
    (fun a ha => hrc a (hsub.subset ha))
  rw [List.length_take] at hcnt
  exact ⟨si, e, hcnt⟩

/-- C3: a pool with the policy `MBUF_POOL_SMART_GROW`, `K` initial chunks and
no maximum.  In every state of such a pool, the `mbuf_mem_unref` that drops a
chunk's reference count to 0 destroys the chunk (`mem_count` decreases by one,
`mem_free` is unchanged) exactly when `mem_free + 1` exceeds the initial
count, and otherwise keeps it and increases `mem_free` by one.  After `K + M`
successful calls of `mbuf_pool_get` the pool has `K + M` chunks and none free;
releasing them in any order leaves, after `i` releases, `min i K` free chunks
of `K + M - (i - K)`: the total drops by one per release once `K` are free,
and ends at `K` chunks, all free. -/
theorem mbuf_pool_smart_grow_scenario (env : pool_new_env) (implem : mbuf_mem_implem)
    (mem_size K M : Nat) (s0 : mbuf_state)
    (hnew : mbuf_pool_new env (some implem) mem_size K MBUF_POOL_SMART_GROW 0 true
      = (0, some s0))
    (envs : List alloc_env) (hlen : envs.length = K + M)
    (hgets : ∀ r ∈ (get_n envs s0).1, r.1 = 0)
    (order : List (Nat × Nat)) (horder : (order.map Prod.snd).Perm (got envs s0)) :
    (∀ (s : mbuf_state) (a sp : Nat), pool_reach s →
      s.pool.policy = MBUF_POOL_SMART_GROW → pool_refcount s a = some 1 →
      ∃ s1, mbuf_mem_unref sp s a = some (0, s1) ∧
        (s.pool.mem_free + 1 > s.pool.initial_mem_count →
          pool_refcount s1 a = none ∧ s1.pool.mem_count + 1 = s.pool.mem_count ∧
          s1.pool.mem_free = s.pool.mem_free) ∧
        (¬ s.pool.mem_free + 1 > s.pool.initial_mem_count →
          pool_refcount s1 a = some 0 ∧ s1.pool.mem_count = s.pool.mem_count ∧
          s1.pool.mem_free = s.pool.mem_free + 1)) ∧
    (got envs s0).length = K + M ∧ (got envs s0).Nodup ∧
    mbuf_pool_get_count (get_n envs s0).2 = (0, K + M, 0) ∧
    (∀ i, i ≤ K + M → ∃ si, unref_all (order.take i) (get_n envs s0).2 = some si ∧
      mbuf_pool_get_count si = (0, K + M - (i - K), min i K)) ∧
    ∃ s2, unref_all order (get_n envs s0).2 = some s2 ∧
      mbuf_pool_get_count s2 = (0, K, K) := by
  obtain ⟨hwf, hpol, hinit, -, -, -, hcount, hfree, -, -⟩ := mbuf_pool_new_ok hnew
  obtain ⟨hwf1, hst1, g1, g2, g3, -, g5, g6⟩ := get_n_ok envs s0 hwf hgets
  simp only [pool_static, Prod.mk.injEq] at hst1
  have hfree1 : (get_n envs s0).2.pool.mem_free = 0 := by omega
  have hcount1 : (get_n envs s0).2.pool.mem_count = K + M := by omega
  have hnd : (order.map Prod.snd).Nodup := horder.nodup_iff.mpr g2
  have hrc : ∀ a ∈ order.map Prod.snd, pool_refcount (get_n envs s0).2 a = some 1 :=
    fun a ha => (g3 a (horder.mem_iff.mp ha)).2
  have hlen2 : order.length = K + M := by
    have := horder.length_eq
    simp only [List.length_map] at this
    omega
  have hpre : ∀ i, i ≤ K + M →
      ∃ si, unref_all (order.take i) (get_n envs s0).2 = some si ∧
        mbuf_pool_get_count si = (0, K + M - (i - K), min i K) := by
    intro i hi
    obtain ⟨si, e, hcnt⟩ := unref_all_take_ok i hwf1 hnd hrc
    rw [hst1.2.1, hpol, hst1.2.2.2.1, hinit, hfree1, hcount1, hlen2,
      counts_after_puts_smart _ _ _ _ (Nat.zero_le K), Prod.mk.injEq] at hcnt
    refine ⟨si, e, ?_⟩
    simp only [mbuf_pool_get_count, hcnt.1, hcnt.2, Prod.mk.injEq, true_and]
    constructor <;> omega
  refine ⟨?_, by omega, g2, ?_, hpre, ?_⟩
  · intro s a sp hs hp hrc1
    have hrc1' : pool_refcount s a = some (0 + 1) := hrc1
    obtain ⟨s1, e, -, -, -, -, -, hrel, hkeep⟩ :=
      mbuf_mem_unref_pooled sp (pool_reach_wf hs) hrc1'
    refine ⟨s1, e, ?_, ?_⟩
    · intro h
      exact hrel rfl (by rw [put_releases_smart hp]; exact decide_eq_true h)
    · intro h
      exact hkeep rfl (by rw [put_releases_smart hp]; exact decide_eq_false h)
  · simp only [mbuf_pool_get_count, hfree1, hcount1]
  · obtain ⟨s2, e, hc⟩ := hpre (K + M) (Nat.le_refl _)
    rw [← hlen2, List.take_length] at e
    refine ⟨s2, e, ?_⟩
    rw [hc]
    simp only [Prod.mk.injEq, true_and]
    constructor <;> omega

/-- C3 at a concrete input: two initial chunks, three more on demand; the five
chunks are released in a mixed order. -/
theorem mbuf_pool_smart_grow_scenario_witness :
    got [env_ok, env_ok, env_ok, env_ok, env_ok] (heap_pool MBUF_POOL_SMART_GROW 0)
      = [1, 2, 3, 4, 5] ∧
    mbuf_pool_get_count
      (get_n [env_ok, env_ok, env_ok, env_ok, env_ok] (heap_pool MBUF_POOL_SMART_GROW 0)).2
      = (0, 5, 0) ∧
    (∃ s3, unref_all [(0, 4), (1, 1), (0, 5)]
        (get_n [env_ok, env_ok, env_ok, env_ok, env_ok] (heap_pool MBUF_POOL_SMART_GROW 0)).2
        = some s3 ∧ mbuf_pool_get_count s3 = (0, 4, 2)) ∧
    ∃ s2, unref_all [(0, 4), (1, 1), (0, 5), (2, 2), (0, 3)]
        (get_n [env_ok, env_ok, env_ok, env_ok, env_ok] (heap_pool MBUF_POOL_SMART_GROW 0)).2
        = some s2 ∧ mbuf_pool_get_count s2 = (0, 2, 2) := by
  have h := mbuf_pool_smart_grow_scenario new_env_ok mbuf_mem_generic_impl 1024 2 3 _
    (heap_pool_new MBUF_POOL_SMART_GROW 0 (Or.inl rfl))
    [env_ok, env_ok, env_ok, env_ok, env_ok] rfl (by decide)
    [(0, 4), (1, 1), (0, 5), (2, 2), (0, 3)] (by decide)
  exact ⟨by decide, h.2.2.2.1, h.2.2.2.2.1 3 (by decide), h.2.2.2.2.2⟩

/-- C4: a pool with the policy `MBUF_POOL_LOW_MEM_GROW` and `K` initial chunks.
In every state of such a pool, the `mbuf_mem_unref` that drops a chunk's
reference count to 0 destroys the chunk (`mem_count` decreases by one,
`mem_free` is unchanged) when `mem_count` exceeds the initial count, and keeps
it (`mem_free` increases by one, `mem_count` is unchanged) otherwise.  After `K`
successful calls of `mbuf_pool_get`, one more successful call and the release
of the chunk it stored, the pool has `K` chunks and none free; after the
release of the `K` others, in any order, it has `K` chunks, all free. -/
theorem mbuf_pool_low_mem_scenario (env : pool_new_env) (implem : mbuf_mem_implem)
    (mem_size K max_mem_count : Nat) (s0 : mbuf_state)
    (hnew : mbuf_pool_new env (some implem) mem_size K MBUF_POOL_LOW_MEM_GROW max_mem_count
      true = (0, some s0))
    (envs : List alloc_env) (hlen : envs.length = K)
    (hgets : ∀ r ∈ (get_n envs s0).1, r.1 = 0)
    (env1 : alloc_env) (hextra : (mbuf_pool_get env1 (get_n envs s0).2).1 = 0)
    (sp : Nat) (order : List (Nat × Nat))
    (horder : (order.map Prod.snd).Perm (got envs s0)) :
    (∀ (s : mbuf_state) (a sp : Nat), pool_reach s →
      s.pool.policy = MBUF_POOL_LOW_MEM_GROW → pool_refcount s a = some 1 →
      ∃ s1, mbuf_mem_unref sp s a = some (0, s1) ∧
        (s.pool.mem_count > s.pool.initial_mem_count →
          pool_refcount s1 a = none ∧ s1.pool.mem_count + 1 = s.pool.mem_count ∧
          s1.pool.mem_free = s.pool.mem_free) ∧
        (s.pool.mem_count ≤ s.pool.initial_mem_count →
          pool_refcount s1 a = some 0 ∧ s1.pool.mem_count = s.pool.mem_count ∧
          s1.pool.mem_free = s.pool.mem_free + 1)) ∧
    mbuf_pool_get_count (get_n envs s0).2 = (0, K, 0) ∧
    ∃ a, (mbuf_pool_get env1 (get_n envs s0).2).2.1 = some a ∧ a ∉ got envs s0 ∧
      mbuf_pool_get_count (mbuf_pool_get env1 (get_n envs s0).2).2.2 = (0, K + 1, 0) ∧
      ∃ s3, mbuf_mem_unref sp (mbuf_pool_get env1 (get_n envs s0).2).2.2 a = some (0, s3) ∧
        mbuf_pool_get_count s3 = (0, K, 0) ∧
        ∃ s4, unref_all order s3 = some s4 ∧ mbuf_pool_get_count s4 = (0, K, K) := by
  obtain ⟨hwf, hpol, hinit, -, -, -, hcount, hfree, -, -⟩ := mbuf_pool_new_ok hnew
  obtain ⟨hwf1, hst1, g1, g2, g3, -, g5, g6⟩ := get_n_ok envs s0 hwf hgets
  simp only [pool_static, Prod.mk.injEq] at hst1
  have hfree1 : (get_n envs s0).2.pool.mem_free = 0 := by omega
  have hcount1 : (get_n envs s0).2.pool.mem_count = K := by omega
  obtain ⟨hwf2, hst2, -, -⟩ := mbuf_pool_get_cases env1 hwf1
  simp only [pool_static, Prod.mk.injEq] at hst2
  obtain ⟨a, ha1, ha2, ha3, ha4, ha5, ha6⟩ := mbuf_pool_get_success hwf1 hextra
  have hfree2 : (mbuf_pool_get env1 (get_n envs s0).2).2.2.pool.mem_free = 0 := by omega
  have hcount2 : (mbuf_pool_get env1 (get_n envs s0).2).2.2.pool.mem_count = K + 1 := by
    omega
  have hpol2 : (mbuf_pool_get env1 (get_n envs s0).2).2.2.pool.policy
      = MBUF_POOL_LOW_MEM_GROW := by rw [hst2.2.1, hst1.2.1, hpol]
  have hinit2 : (mbuf_pool_get env1 (get_n envs s0).2).2.2.pool.initial_mem_count = K := by
    rw [hst2.2.2.2.1, hst1.2.2.2.1, hinit]
  have hnotin : a ∉ got envs s0 := fun hin => ha2 (g3 a hin).2
  have ha3' : pool_refcount (mbuf_pool_get env1 (get_n envs s0).2).2.2 a = some (0 + 1) := ha3
  obtain ⟨s3, e3, hwf3, hst3, -, hfr3, -, hrel3, -⟩ := mbuf_mem_unref_pooled sp hwf2 ha3'
  simp only [pool_static, Prod.mk.injEq] at hst3
  have hp2 : put_releases (mbuf_pool_get env1 (get_n envs s0).2).2.2 = true := by
    rw [put_releases_low_mem hpol2, hcount2, hinit2]
    exact decide_eq_true (by omega)
  obtain ⟨-, hc3, hf3⟩ := hrel3 rfl hp2
  have hcount3 : s3.pool.mem_count = K := by omega
  have hfree3 : s3.pool.mem_free = 0 := by omega
  have hnd : (order.map Prod.snd).Nodup := horder.nodup_iff.mpr g2
  have hrc : ∀ b ∈ order.map Prod.snd, pool_refcount s3 b = some 1 := by
    intro b hb
    have hb' := horder.mem_iff.mp hb
    have hne : b ≠ a := fun e => hnotin (e ▸ hb')
    rw [hfr3 b hne, ha4 b hne]
    exact (g3 b hb').2
  have hlen2 : order.length = K := by
    have := horder.length_eq
    simp only [List.length_map] at this
    omega
  obtain ⟨s4, e4, -, -, hcnt, -⟩ := unref_all_ok order s3 hwf3 hnd hrc
  rw [hst3.2.1, hpol2, hst3.2.2.2.1, hinit2, hcount3, hfree3, hlen2,
    counts_after_puts_low_mem, Prod.mk.injEq] at hcnt
  refine ⟨?_, ?_, a, ha1, hnotin, ?_, s3, e3, ?_, s4, e4, ?_⟩
  · intro s a sp hs hp hrc1
    have hrc1' : pool_refcount s a = some (0 + 1) := hrc1
    obtain ⟨s1, e, -, -, -, -, -, hrel, hkeep⟩ :=
      mbuf_mem_unref_pooled sp (pool_reach_wf hs) hrc1'
    refine ⟨s1, e, ?_, ?_⟩
    · intro h
      exact hrel rfl (by rw [put_releases_low_mem hp]; exact decide_eq_true h)
    · intro h
      exact hkeep rfl (by rw [put_releases_low_mem hp]; exact decide_eq_false (by omega))
  · simp only [mbuf_pool_get_count, hfree1, hcount1]
  · simp only [mbuf_pool_get_count, hfree2, hcount2]
  · simp only [mbuf_pool_get_count, hfree3, hcount3]
  · simp only [mbuf_pool_get_count, hcnt.1, hcnt.2, Prod.mk.injEq, true_and]
    simp

/-- C4 at a concrete input: the low-memory pool of two chunks; both are taken,
a third is allocated and released, then the two are released. -/
theorem mbuf_pool_low_mem_scenario_witness :
    (mbuf_pool_get env_ok (get_n [env_ok, env_ok] low_mem_pool).2).2.1 = some 3 ∧
    mbuf_pool_get_count (mbuf_pool_get env_ok (get_n [env_ok, env_ok] low_mem_pool).2).2.2
      = (0, 3, 0) ∧
    ∃ s3, mbuf_mem_unref 1 (mbuf_pool_get env_ok (get_n [env_ok, env_ok] low_mem_pool).2).2.2 3
        = some (0, s3) ∧
      mbuf_pool_get_count s3 = (0, 2, 0) ∧
      ∃ s4, unref_all [(0, 2), (0, 1)] s3 = some s4 ∧ mbuf_pool_get_count s4 = (0, 2, 2) := by
  have h := mbuf_pool_low_mem_scenario new_env_ok mbuf_mem_generic_impl 1024 2 3 _
    low_mem_pool_new [env_ok, env_ok] rfl (by decide) env_ok (by decide) 1
    [(0, 2), (0, 1)] (by decide)
  obtain ⟨a, h1, -, h2, h3⟩ := h.2.2
  have ha : a = 3 := by
    have h1' : (mbuf_pool_get env_ok (get_n [env_ok, env_ok] low_mem_pool).2).2.1 = some 3 := by
      decide
    rw [h1'] at h1
    exact (Option.some.inj h1).symm
  subst ha
  exact ⟨h1, h2, h3⟩

/-! ### Balanced `mbuf_mem_ref` and `mbuf_mem_unref` on one chunk -/

theorem wrap_uint_of_lt {x : Nat} (h : x < 2 ^ 32) : wrap_uint x = x := by
  unfold wrap_uint
  exact Nat.mod_eq_of_lt h

theorem run_ref_ops_pooled (ops : List ref_op) :
    ∀ (s : mbuf_state) (a k : Nat), pool_wf s → pool_refcount s a = some (k + 1) →
      balanced ops k = true → k + 1 + count_refs ops ≤ UINT_MAX →
      ∃ s1 r, run_ref_ops ops s a = some s1 ∧ pool_wf s1 ∧ pool_static s1 = pool_static s ∧
        pool_refcount s1 a = some (r + 1) ∧ r + count_unrefs ops = k + count_refs ops ∧
        (∀ b, b ≠ a → pool_refcount s1 b = pool_refcount s b) ∧
        s1.pool.mem_count = s.pool.mem_count ∧ s1.pool.mem_free = s.pool.mem_free := by
  induction ops with
  | nil =>
    intro s a k hwf hrc _ _
    exact ⟨s, k, rfl, hwf, rfl, hrc, rfl, fun _ _ => rfl, rfl, rfl⟩
  | cons op rest ih =>
    intro s a k hwf hrc hbal hmax
    cases op with
    | ref =>
      simp only [balanced] at hbal
      simp only [count_refs] at hmax
      obtain ⟨s1, e, hst, -, -, hrc1, hfr, hc, hf, hwf1⟩ := mbuf_mem_ref_pooled hrc
      have hlt : k + 1 < UINT_MAX := by omega
      rw [wrap_uint_of_lt (by unfold UINT_MAX at hlt; omega)] at hrc1
      obtain ⟨s2, r, e2, hwf2, hst2, hrc2, hr, hfr2, hc2, hf2⟩ :=
        ih s1 a (k + 1) (hwf1 hwf (by omega) hlt) hrc1 hbal (by omega)
      refine ⟨s2, r, ?_, hwf2, by rw [hst2, hst], hrc2, ?_, ?_, by rw [hc2, hc],
        by rw [hf2, hf]⟩
      · simp only [run_ref_ops, e, e2]
      · simp only [count_refs, count_unrefs]; omega
      · intro b hb
        rw [hfr2 b hb, hfr b hb]
    | unref sp =>
      cases k with
      | zero => simp [balanced] at hbal
      | succ k' =>
        simp only [balanced] at hbal
        simp only [count_refs] at hmax
        obtain ⟨s1, e, hwf1, hst, -, hfr, hgt, -, -⟩ := mbuf_mem_unref_pooled sp hwf hrc
        obtain ⟨hrc1, hc, hf⟩ := hgt (by omega)
        obtain ⟨s2, r, e2, hwf2, hst2, hrc2, hr, hfr2, hc2, hf2⟩ :=
          ih s1 a k' hwf1 hrc1 hbal (by omega)
        refine ⟨s2, r, ?_, hwf2, by rw [hst2, hst], hrc2, ?_, ?_, by rw [hc2, hc],
          by rw [hf2, hf]⟩
        · simp only [run_ref_ops, e, e2]
        · simp only [count_refs, count_unrefs]; omega
        · intro b hb
          rw [hfr2 b hb, hfr b hb]

theorem mem_at_of_loose {s : mbuf_state} {a : Nat} {m : mbuf_mem}
    (hp : find_mem s.pool.memories a = none) (hl : find_mem s.loose a = some m) :
    mem_at s a = some m := by
  simp [mem_at, hp, hl]

theorem store_refcount_of_loose {s : mbuf_state} {a : Nat} (v : Nat)
    (hp : find_mem s.pool.memories a = none) :
    store_refcount s a v = { s with loose := set_refcount s.loose a v } := by
  simp [store_refcount, hp]

theorem set_refcount_set_refcount (l : List mbuf_mem) (a v w : Nat) :
    set_refcount (set_refcount l a v) a w = set_refcount l a w := by
  induction l with
  | nil => simp [set_refcount]
  | cons x rest ih =>
    by_cases hx : x.addr = a
    · simp [set_refcount, hx]
    · simp [set_refcount, hx, ih]

theorem mbuf_mem_ref_loose {s : mbuf_state} {a : Nat} {m : mbuf_mem}
    (hp : find_mem s.pool.memories a = none) (hl : find_mem s.loose a = some m) :
    mbuf_mem_ref s a =
      some (0, { s with loose := set_refcount s.loose a (wrap_uint (m.refcount + 1)) }) := by
  unfold mbuf_mem_ref
  rw [mem_at_of_loose hp hl]
  simp only [store_refcount_of_loose _ hp]

theorem mbuf_mem_unref_loose_gt_one (sp : Nat) {s : mbuf_state} {a : Nat} {m : mbuf_mem}
    (hp : find_mem s.pool.memories a = none) (hl : find_mem s.loose a = some m)
    (h : 1 < m.refcount) :
    mbuf_mem_unref sp s a =
      some (0, { s with loose := set_refcount s.loose a (m.refcount - 1) }) := by
  rw [mbuf_mem_unref_spurious]
  unfold mbuf_mem_unref mbuf_mem_unref_loop mbuf_mem_unref_internal
  simp only [mem_at_of_loose hp hl, gt_iff_lt, h, if_true, atomic_compare_exchange_weak,
    atomic_compare_exchange_strong, Bool.false_eq_true, if_false, store_refcount_of_loose _ hp]

theorem mbuf_mem_unref_loose_le_one (sp : Nat) {s : mbuf_state} {a : Nat} {m : mbuf_mem}
    {implem : mbuf_mem_implem}
    (hp : find_mem s.pool.memories a = none) (hl : find_mem s.loose a = some m)
    (h : m.refcount ≤ 1) (hpool : m.pool = false) (himpl : m.implem = some implem) :
    mbuf_mem_unref sp s a =
      some (0, { s with
        loose := list_del s.loose a
        hook_log := call_free implem { m with refcount := 0 } s.hook_log }) := by
  rw [mbuf_mem_unref_spurious]
  unfold mbuf_mem_unref mbuf_mem_unref_loop mbuf_mem_unref_internal
  have h' : ¬ 1 < m.refcount := by omega
  simp only [mem_at_of_loose hp hl, gt_iff_lt, h', if_false, atomic_compare_exchange_weak,
    atomic_compare_exchange_strong, Bool.false_eq_true, if_true, hpool, Bool.not_false,
    Bool.not_true, himpl]

theorem run_ref_ops_loose (ops : List ref_op) :
    ∀ (s : mbuf_state) (a k : Nat) (m : mbuf_mem),
      find_mem s.pool.memories a = none → find_mem s.loose a = some m →
      m.refcount = k + 1 → balanced ops k = true → k + 1 + count_refs ops ≤ UINT_MAX →
      ∃ r, r + count_unrefs ops = k + count_refs ops ∧
        run_ref_ops ops s a = some { s with loose := set_refcount s.loose a (r + 1) } := by
  induction ops with
  | nil =>
    intro s a k m _ hl hm _ _
    refine ⟨k, rfl, ?_⟩
    rw [← hm, set_refcount_self hl]
    rfl
  | cons op rest ih =>
    intro s a k m hp hl hm hbal hmax
    cases op with
    | ref =>
      simp only [balanced] at hbal
      simp only [count_refs] at hmax
      have hw : wrap_uint (m.refcount + 1) = k + 2 := by
        rw [hm]
        exact wrap_uint_of_lt (by unfold UINT_MAX at hmax; omega)
      have hl1 : find_mem (set_refcount s.loose a (k + 2)) a
          = some { m with refcount := k + 2 } := by
        simp [find_mem_set_refcount, hl]
      obtain ⟨r, hr, e⟩ := ih { s with loose := set_refcount s.loose a (k + 2) } a (k + 1)
        { m with refcount := k + 2 } hp hl1 rfl hbal (by omega)
      refine ⟨r, by simp only [count_refs, count_unrefs]; omega, ?_⟩
      simp only [run_ref_ops, mbuf_mem_ref_loose hp hl, hw, e, set_refcount_set_refcount]
    | unref sp =>
      cases k with
      | zero => simp [balanced] at hbal
      | succ k' =>
        simp only [balanced] at hbal
        simp only [count_refs] at hmax
        have hl1 : find_mem (set_refcount s.loose a (k' + 1)) a
            = some { m with refcount := k' + 1 } := by
          simp [find_mem_set_refcount, hl]
        obtain ⟨r, hr, e⟩ := ih { s with loose := set_refcount s.loose a (k' + 1) } a k'
          { m with refcount := k' + 1 } hp hl1 rfl hbal (by omega)
        refine ⟨r, by simp only [count_refs, count_unrefs]; omega, ?_⟩
        have hsub : m.refcount - 1 = k' + 1 := by omega
        simp only [run_ref_ops, mbuf_mem_unref_loose_gt_one sp hp hl (by omega), hsub, e,
          set_refcount_set_refcount]

/-- C6, as the code has it, for `n < UINT_MAX` and a sequence `ops` of `n` calls
of `mbuf_mem_ref` and `n` of `mbuf_mem_unref` in which every prefix has at least
as many `ref` as `unref`.  On a chunk that `mbuf_pool_get` stored: `ops` leaves
the reference count at 1 and the pool's counters unchanged, and one further
`mbuf_mem_unref` enters `mbuf_pool_put`, which keeps the chunk with reference
count 0 and one more free chunk, or, when the policy says so (`put_releases`),
destroys it: one chunk less, as many free.  On a chunk that
`mbuf_mem_generic_wrap` stored: `ops` leaves the reference count at 1 and calls
no hook, and one further `mbuf_mem_unref` destroys the chunk, the free hook
being the one hook called on it, once. -/
theorem mbuf_mem_ref_unref_balanced (ops : List ref_op) (n sp : Nat)
    (hbal : balanced ops 0 = true) (hrefs : count_refs ops = n)
    (hunrefs : count_unrefs ops = n) (hn : n < UINT_MAX) :
    (∀ (s0 s : mbuf_state) (env : alloc_env) (a : Nat), pool_reach s0 →
      mbuf_pool_get env s0 = (0, some a, s) →
      ∃ s1, run_ref_ops ops s a = some s1 ∧ pool_refcount s1 a = some 1 ∧
        mbuf_pool_get_count s1 = mbuf_pool_get_count s ∧
        ∃ s2, mbuf_mem_unref sp s1 a = some (0, s2) ∧
          (put_releases s1 = false → pool_refcount s2 a = some 0 ∧
            s2.pool.mem_count = s1.pool.mem_count ∧
            s2.pool.mem_free = s1.pool.mem_free + 1) ∧
          (put_releases s1 = true → pool_refcount s2 a = none ∧
            s2.pool.mem_count + 1 = s1.pool.mem_count ∧
            s2.pool.mem_free = s1.pool.mem_free)) ∧
    (∀ (s0 s : mbuf_state) (c1 c2 : Bool) (len a : Nat), pool_reach s0 →
      mbuf_mem_generic_wrap c1 c2 s0 len true = (0, some a, s) →
      refcount_at s a = some 1 ∧
      ∃ s1, run_ref_ops ops s a = some s1 ∧ refcount_at s1 a = some 1 ∧
        s1.pool = s.pool ∧ s1.hook_log = s.hook_log ∧
        ∃ s2, mbuf_mem_unref sp s1 a = some (0, s2) ∧ refcount_at s2 a = none ∧
          s2.loose = s0.loose ∧ s2.pool = s0.pool ∧
          s2.hook_log = (mem_hook.free, a) :: s0.hook_log) := by
  constructor
  · intro s0 s env a hs0 hget
    have hwf0 := pool_reach_wf hs0
    have h0 : (mbuf_pool_get env s0).1 = 0 := by rw [hget]
    obtain ⟨hwf, -, -, -⟩ := mbuf_pool_get_cases env hwf0
    obtain ⟨a', ha1, -, ha3, -⟩ := mbuf_pool_get_success hwf0 h0
    rw [hget] at ha1 ha3 hwf
    simp only [Option.some.injEq] at ha1
    subst ha1
    have ha3' : pool_refcount s a = some (0 + 1) := ha3
    obtain ⟨s1, r, e1, hwf1, -, hrc1, hr, -, hc1, hf1⟩ :=
      run_ref_ops_pooled ops s a 0 hwf ha3' hbal (by omega)
    have hr0 : r = 0 := by omega
    subst hr0
    obtain ⟨s2, e2, -, -, -, -, -, hrel, hkeep⟩ := mbuf_mem_unref_pooled sp hwf1 hrc1
    refine ⟨s1, e1, hrc1, by simp only [mbuf_pool_get_count, hc1, hf1], s2, e2,
      hkeep rfl, hrel rfl⟩
  · intro s0 s c1 c2 len a hs0 hwrap
    have hwf0 := pool_reach_wf hs0
    unfold mbuf_mem_generic_wrap at hwrap
    simp only [Bool.not_true, Bool.false_eq_true, if_false] at hwrap
    have hne : (-ENOMEM : Int) ≠ 0 := by decide
    split_ifs at hwrap with h1 h2
    · exact absurd (Prod.mk.inj hwrap).1 hne
    · exact absurd (Prod.mk.inj hwrap).1 hne
    · simp only [Prod.mk.injEq, Option.some.injEq, true_and] at hwrap
      obtain ⟨ha, hs⟩ := hwrap
      subst ha hs
      have hp : find_mem s0.pool.memories s0.next_addr = none := by
        have := pool_refcount_fresh hwf0 (Nat.le_refl s0.next_addr)
        simpa [pool_refcount] using this
      have hl0 : find_mem s0.loose s0.next_addr = none := by
        rw [find_mem_eq_none]
        intro h
        obtain ⟨y, hy, e⟩ := List.mem_map.mp h
        have := (hwf0.2.2.2.2 y hy).1
        omega
      obtain ⟨r, hr, e1⟩ := run_ref_ops_loose ops
        { s0 with
          next_addr := s0.next_addr + 1
          loose := { addr := s0.next_addr, size := len, implem := some wrap_impl,
                     refcount := 1, pool := false } :: s0.loose }
        s0.next_addr 0
        { addr := s0.next_addr, size := len, implem := some wrap_impl,
          refcount := 1, pool := false }
        hp (by simp [find_mem]) rfl hbal (by omega)
      have hr0 : r = 0 := by omega
      subst hr0
      simp only [set_refcount, if_true, Nat.zero_add] at e1
      refine ⟨by simp [refcount_at, mem_at, hp, find_mem], _, e1,
        by simp [refcount_at, mem_at, hp, find_mem], rfl, rfl, ?_⟩
      have hl1 : find_mem
          ({ addr := s0.next_addr, size := len, implem := some wrap_impl,
             refcount := 1, pool := false } :: s0.loose) s0.next_addr
          = some { addr := s0.next_addr, size := len, implem := some wrap_impl,
                   refcount := 1, pool := false } := by
        simp [find_mem]
      refine ⟨_, mbuf_mem_unref_loose_le_one sp hp hl1 (Nat.le_refl 1) rfl rfl, ?_, ?_, rfl, ?_⟩
      · simp [refcount_at, mem_at, hp, list_del, hl0]
      · simp [list_del]
      · simp [call_free, wrap_impl]

/-- C6 at a concrete input: three `ref` and three `unref` interleaved, on the
first chunk taken from the low-memory pool and on a wrapped buffer. -/
theorem mbuf_mem_ref_unref_balanced_witness :
    (∃ s1, run_ref_ops
        [ref_op.ref, ref_op.ref, ref_op.unref 1, ref_op.ref, ref_op.unref 0, ref_op.unref 2]
        (mbuf_pool_get env_ok low_mem_pool).2.2 1 = some s1 ∧
      pool_refcount s1 1 = some 1 ∧ mbuf_pool_get_count s1 = (0, 2, 1) ∧
      ∃ s2, mbuf_mem_unref 0 s1 1 = some (0, s2) ∧ mbuf_pool_get_count s2 = (0, 2, 2)) ∧
    (∃ s1, run_ref_ops
        [ref_op.ref, ref_op.ref, ref_op.unref 1, ref_op.ref, ref_op.unref 0, ref_op.unref 2]
        (mbuf_mem_generic_wrap true true low_mem_pool 64 true).2.2 3 = some s1 ∧
      refcount_at s1 3 = some 1 ∧
      ∃ s2, mbuf_mem_unref 0 s1 3 = some (0, s2) ∧ refcount_at s2 3 = none ∧
        s2.hook_log = (mem_hook.free, 3) :: low_mem_pool.hook_log) := by
  have h := mbuf_mem_ref_unref_balanced
    [ref_op.ref, ref_op.ref, ref_op.unref 1, ref_op.ref, ref_op.unref 0, ref_op.unref 2] 3 0
    (by decide) (by decide) (by decide) (by decide)
  have hr : pool_reach low_mem_pool := pool_reach.new _ _ _ _ _ _ _ _ low_mem_pool_new
  constructor
  · obtain ⟨s1, e1, h1, h2, s2, e2, h3, -⟩ :=
      h.1 low_mem_pool (mbuf_pool_get env_ok low_mem_pool).2.2 env_ok 1 hr (by decide)
    have hc1 : mbuf_pool_get_count s1 = (0, 2, 1) := by rw [h2]; decide
    have hcnt : s1.pool.mem_count = 2 ∧ s1.pool.mem_free = 1 := by
      simp only [mbuf_pool_get_count, Prod.mk.injEq, true_and] at hc1
      exact hc1
    have hpol : put_releases s1 = false := by
      have e1' : run_ref_ops
          [ref_op.ref, ref_op.ref, ref_op.unref 1, ref_op.ref, ref_op.unref 0, ref_op.unref 2]
          (mbuf_pool_get env_ok low_mem_pool).2.2 1
          = some (mbuf_pool_get env_ok low_mem_pool).2.2 := by decide
      rw [e1'] at e1
      cases e1
      decide
    obtain ⟨-, h4, h5⟩ := h3 hpol
    refine ⟨s1, e1, h1, hc1, s2, e2, ?_⟩
    simp only [mbuf_pool_get_count, h4, h5, hcnt.1, hcnt.2]
  · obtain ⟨-, s1, e1, h1, -, -, s2, e2, h2, -, -, h3⟩ :=
      h.2 low_mem_pool (mbuf_mem_generic_wrap true true low_mem_pool 64 true).2.2
        true true 64 3 hr (by decide)
    exact ⟨s1, e1, h1, s2, e2, h2, h3⟩

/-! ### More references than an `unsigned int` counts -/

theorem wrap_uint_add (x y : Nat) : wrap_uint (wrap_uint x + y) = wrap_uint (x + y) := by
  unfold wrap_uint
  omega

theorem run_ref_ops_ref_pooled (rest : List ref_op) {a : Nat} {s : mbuf_state} {m : mbuf_mem}
    (hm : find_mem s.pool.memories a = some m) :
    run_ref_ops (ref_op.ref :: rest) s a =
      run_ref_ops rest
        { s with pool := { s.pool with
          memories := set_refcount s.pool.memories a (wrap_uint (m.refcount + 1)) } } a := by
  have e : mbuf_mem_ref s a = some (0, { s with pool := { s.pool with
      memories := set_refcount s.pool.memories a (wrap_uint (m.refcount + 1)) } }) := by
    unfold mbuf_mem_ref
    rw [mem_at_of_pool hm]
    simp only [store_refcount_of_pool _ hm]
  simp only [run_ref_ops, e]

theorem run_ref_ops_ref_loose (rest : List ref_op) {a : Nat} {s : mbuf_state} {m : mbuf_mem}
    (hp : find_mem s.pool.memories a = none) (hl : find_mem s.loose a = some m) :
    run_ref_ops (ref_op.ref :: rest) s a =
      run_ref_ops rest
        { s with loose := set_refcount s.loose a (wrap_uint (m.refcount + 1)) } a := by
  simp only [run_ref_ops, mbuf_mem_ref_loose hp hl]

theorem run_ref_ops_refs_pooled (rest : List ref_op) (a : Nat) (n : Nat) :
    ∀ (s : mbuf_state) (m : mbuf_mem), find_mem s.pool.memories a = some m →
      run_ref_ops (List.replicate (n + 1) ref_op.ref ++ rest) s a =
        run_ref_ops rest
          { s with pool := { s.pool with
            memories := set_refcount s.pool.memories a (wrap_uint (m.refcount + (n + 1))) } }
          a := by
  induction n with
  | zero =>
    intro s m hm
    show run_ref_ops (ref_op.ref :: rest) s a = _
    rw [run_ref_ops_ref_pooled rest hm]
  | succ k ih =>
    intro s m hm
    have hm1 : find_mem (set_refcount s.pool.memories a (wrap_uint (m.refcount + 1))) a
        = some { m with refcount := wrap_uint (m.refcount + 1) } := by
      simp [find_mem_set_refcount, hm]
    show run_ref_ops (ref_op.ref :: (List.replicate (k + 1) ref_op.ref ++ rest)) s a = _
    rw [run_ref_ops_ref_pooled _ hm]
    have h := ih { s with pool := { s.pool with
      memories := set_refcount s.pool.memories a (wrap_uint (m.refcount + 1)) } } _ hm1
    rw [h]
    simp only [set_refcount_set_refcount, wrap_uint_add]
    have e : m.refcount + 1 + (k + 1) = m.refcount + (k + 1 + 1) := by omega
    rw [e]

theorem run_ref_ops_refs_loose (rest : List ref_op) (a : Nat) (n : Nat) :
    ∀ (s : mbuf_state) (m : mbuf_mem), find_mem s.pool.memories a = none →
      find_mem s.loose a = some m →
      run_ref_ops (List.replicate (n + 1) ref_op.ref ++ rest) s a =
        run_ref_ops rest
          { s with loose := set_refcount s.loose a (wrap_uint (m.refcount + (n + 1))) } a := by
  induction n with
  | zero =>
    intro s m hp hl
    show run_ref_ops (ref_op.ref :: rest) s a = _
    rw [run_ref_ops_ref_loose rest hp hl]
  | succ k ih =>
    intro s m hp hl
    have hl1 : find_mem (set_refcount s.loose a (wrap_uint (m.refcount + 1))) a
        = some { m with refcount := wrap_uint (m.refcount + 1) } := by
      simp [find_mem_set_refcount, hl]
    show run_ref_ops (ref_op.ref :: (List.replicate (k + 1) ref_op.ref ++ rest)) s a = _
    rw [run_ref_ops_ref_loose _ hp hl]
    have h := ih { s with loose := set_refcount s.loose a (wrap_uint (m.refcount + 1)) } _
      hp hl1
    rw [h]
    simp only [set_refcount_set_refcount, wrap_uint_add]
    have e : m.refcount + 1 + (k + 1) = m.refcount + (k + 1 + 1) := by omega
    rw [e]

theorem balanced_refs (n : Nat) (rest : List ref_op) :
    ∀ k, balanced (List.replicate n ref_op.ref ++ rest) k = balanced rest (k + n) := by
  induction n with
  | zero => intro k; rfl
  | succ j ih =>
    intro k
    rw [List.replicate_succ, List.cons_append]
    simp only [balanced, ih]
    congr 1
    omega

theorem balanced_unrefs (sp : Nat) (n : Nat) :
    ∀ k, balanced (List.replicate n (ref_op.unref sp)) (k + n) = true := by
  induction n with
  | zero => intro k; rfl
  | succ j ih =>
    intro k
    rw [List.replicate_succ]
    have e : k + (j + 1) = (k + j) + 1 := by omega
    rw [e]
    simp only [balanced, ih]

theorem count_refs_replicate (sp n m : Nat) :
    count_refs (List.replicate n ref_op.ref ++ List.replicate m (ref_op.unref sp)) = n ∧
      count_unrefs (List.replicate n ref_op.ref ++ List.replicate m (ref_op.unref sp)) = m := by
  induction n with
  | zero =>
    simp only [List.replicate, List.nil_append]
    induction m with
    | zero => exact ⟨rfl, rfl⟩
    | succ j ih =>
      rw [List.replicate_succ]
      simp only [count_refs, count_unrefs, ih.1, ih.2, and_self]
  | succ j ih =>
    rw [List.replicate_succ, List.cons_append]
    simp only [count_refs, count_unrefs, ih.1, ih.2, and_self]

theorem run_ref_ops_unref_none (sp : Nat) (rest : List ref_op) {s : mbuf_state} {a : Nat}
    (h : mbuf_mem_unref sp s a = none) : run_ref_ops (ref_op.unref sp :: rest) s a = none := by
  simp only [run_ref_ops, h]

theorem run_ref_ops_unref_some (sp : Nat) (rest : List ref_op) {s s1 : mbuf_state} {a : Nat}
    (h : mbuf_mem_unref sp s a = some (0, s1)) :
    run_ref_ops (ref_op.unref sp :: rest) s a = run_ref_ops rest s1 a := by
  simp only [run_ref_ops, h]

theorem uint_max_eq : UINT_MAX = 4294967294 + 1 := by decide

/-- C5, the claim as stated fails, in two ways; in both the caller only
releases references it holds.  First: a chunk is taken from a pool of two
chunks and released; `mbuf_mem_ref` on it then returns 0, and the release of
that reference leaves three free chunks of two.  Second: a chunk is taken,
`UINT_MAX` further references to it are taken, which brings its count to 0, and
two of the references are released: again three free chunks of two. -/
theorem mbuf_pool_invariant_counterexample :
    mbuf_pool_get env_ok (heap_pool MBUF_POOL_NO_GROW 0) = (0, some 1, taken_pool) ∧
    (∃ s2 s3 s4, mbuf_mem_unref 0 taken_pool 1 = some (0, s2) ∧
      mbuf_mem_ref s2 1 = some (0, s3) ∧ mbuf_mem_unref 0 s3 1 = some (0, s4) ∧
      mbuf_pool_get_count s4 = (0, 2, 3)) ∧
    (run_ref_ops (List.replicate UINT_MAX ref_op.ref ++ [ref_op.unref 0, ref_op.unref 0])
        taken_pool 1).map mbuf_pool_get_count = some (0, 2, 3) := by
  refine ⟨rfl, ?_, ?_⟩
  · refine ⟨_, _, _, rfl, rfl, rfl, ?_⟩
    decide
  · rw [uint_max_eq, run_ref_ops_refs_pooled _ 1 4294967294 _
      { addr := 1, size := 1024, implem := none, refcount := 1, pool := true } (by decide)]
    decide

/-- C6, the claim as stated fails, in two ways.  First: the chunk that the
third `mbuf_pool_get` allocates in the low-memory pool of two chunks has
reference count 1, and its `mbuf_mem_unref` destroys it instead of returning it
to the free chunks: the pool goes from three chunks to two and has no free
chunk before and after.  Second: on a wrapped buffer, `UINT_MAX` calls of
`mbuf_mem_ref` followed by as many of `mbuf_mem_unref` bring the count to 0,
then destroy the chunk at the first `mbuf_mem_unref`, and the following ones
are calls on a destroyed chunk. -/
theorem mbuf_mem_ref_unref_counterexample :
    (∃ s s2, mbuf_pool_get env_ok (get_n [env_ok, env_ok] low_mem_pool).2 = (0, some 3, s) ∧
      pool_refcount s 3 = some 1 ∧ mbuf_pool_get_count s = (0, 3, 0) ∧
      mbuf_mem_unref 0 s 3 = some (0, s2) ∧ pool_refcount s2 3 = none ∧
      mbuf_pool_get_count s2 = (0, 2, 0)) ∧
    mbuf_mem_generic_wrap true true low_mem_pool 64 true = (0, some 3, wrapped_chunk) ∧
    refcount_at wrapped_chunk 3 = some 1 ∧
    balanced (List.replicate UINT_MAX ref_op.ref ++
      List.replicate UINT_MAX (ref_op.unref 0)) 0 = true ∧
    count_refs (List.replicate UINT_MAX ref_op.ref ++
      List.replicate UINT_MAX (ref_op.unref 0)) = UINT_MAX ∧
    count_unrefs (List.replicate UINT_MAX ref_op.ref ++
      List.replicate UINT_MAX (ref_op.unref 0)) = UINT_MAX ∧
    (run_ref_ops (List.replicate UINT_MAX ref_op.ref) wrapped_chunk 3).bind
      (fun s1 => refcount_at s1 3) = some 0 ∧
    run_ref_ops (List.replicate UINT_MAX ref_op.ref ++
      List.replicate UINT_MAX (ref_op.unref 0)) wrapped_chunk 3 = none := by
  have hbal : balanced (List.replicate UINT_MAX ref_op.ref ++
      List.replicate UINT_MAX (ref_op.unref 0)) 0 = true := by
    rw [balanced_refs]
    exact balanced_unrefs 0 UINT_MAX 0
  have hcnt := count_refs_replicate 0 UINT_MAX UINT_MAX
  have hm : find_mem wrapped_chunk.loose 3
      = some { addr := 3, size := 64, implem := some wrap_impl, refcount := 1,
               pool := false } := by decide
  have hp : find_mem wrapped_chunk.pool.memories 3 = none := by decide
  have hrefs := run_ref_ops_refs_loose [] 3 4294967294 _ _ hp hm
  have hrefs2 := run_ref_ops_refs_loose (List.replicate UINT_MAX (ref_op.unref 0)) 3
    4294967294 _ _ hp hm
  rw [← uint_max_eq] at hrefs hrefs2
  rw [List.append_nil] at hrefs
  refine ⟨?_, rfl, by decide, hbal, hcnt.1, hcnt.2, ?_, ?_⟩
  · refine ⟨_, _, rfl, ?_, ?_, rfl, ?_, ?_⟩ <;> decide
  · rw [hrefs]
    decide
  · rw [hrefs2]
    have e : List.replicate UINT_MAX (ref_op.unref 0)
        = ref_op.unref 0 :: ref_op.unref 0 :: List.replicate 4294967293 (ref_op.unref 0) := by
      have e1 : UINT_MAX = 4294967293 + 1 + 1 := by decide
      rw [e1, List.replicate_succ, List.replicate_succ]
    rw [e]
    have h1 : mbuf_mem_unref 0
        { wrapped_chunk with
          loose := set_refcount wrapped_chunk.loose 3 (wrap_uint (1 + UINT_MAX)) } 3
        = some (0, { low_mem_pool with
            next_addr := 4
            hook_log := (mem_hook.free, 3) :: low_mem_pool.hook_log }) := by decide
    rw [run_ref_ops_unref_some 0 _ h1]
    exact run_ref_ops_unref_none 0 _ (by decide)

/-- C7, what the code does.  `mbuf_base_frame_ref` on a frame whose reference
count is 0 returns `-EINVAL` and leaves the count at 0.  `mbuf_mem_ref` on a
chunk whose reference count is 0 (here a chunk of a pool, taken and released)
returns 0 and sets the count to 1: the chunk is referenced again while the
pool still counts it among its free chunks. -/
theorem mbuf_mem_ref_zero_undetected :
    mbuf_base_frame_ref 0 = (-EINVAL, 0) ∧
    mbuf_pool_get env_ok (heap_pool MBUF_POOL_NO_GROW 0) = (0, some 1, taken_pool) ∧
    ∃ s2 s3, mbuf_mem_unref 0 taken_pool 1 = some (0, s2) ∧ refcount_at s2 1 = some 0 ∧
      mbuf_mem_ref s2 1 = some (0, s3) ∧ refcount_at s3 1 = some 1 ∧
      mbuf_pool_get_count s3 = (0, 2, 2) := by
  refine ⟨by decide, rfl, _, _, rfl, ?_, rfl, ?_, ?_⟩ <;> decide

/-! ### The lock as a step relation -/

theorem mbuf_rwlock_wrlock_eq (s : Int) :
    mbuf_rwlock_wrlock s =
      if s = RWLOCK_FREE then (0, RWLOCK_WRLOCKED)
      else if s = RWLOCK_WRLOCKED then (-EALREADY, s) else (-EBUSY, s) := by
  by_cases h0 : s = RWLOCK_FREE
  · subst h0
    simp [mbuf_rwlock_wrlock, atomic_compare_exchange_strong, RWLOCK_FREE,
      RWLOCK_WRLOCKED]
  · by_cases h1 : s = RWLOCK_WRLOCKED
    · subst h1
      simp [mbuf_rwlock_wrlock, atomic_compare_exchange_strong, RWLOCK_FREE,
        RWLOCK_WRLOCKED, EALREADY]
    · simp [mbuf_rwlock_wrlock, atomic_compare_exchange_strong, h0, h1, EBUSY]

theorem mbuf_rwlock_wrunlock_eq (s : Int) :
    mbuf_rwlock_wrunlock s =
      if s = RWLOCK_WRLOCKED then (0, RWLOCK_FREE)
      else if s = RWLOCK_FREE then (-EALREADY, s) else (-EBUSY, s) := by
  by_cases h1 : s = RWLOCK_WRLOCKED
  · subst h1
    simp [mbuf_rwlock_wrunlock, atomic_compare_exchange_strong, RWLOCK_FREE,
      RWLOCK_WRLOCKED]
  · by_cases h0 : s = RWLOCK_FREE
    · subst h0
      simp [mbuf_rwlock_wrunlock, atomic_compare_exchange_strong, RWLOCK_FREE,
        RWLOCK_WRLOCKED, EALREADY]
    · simp [mbuf_rwlock_wrunlock, atomic_compare_exchange_strong, h0, h1, EBUSY]

/-- On a write-locked lock every call other than `mbuf_rwlock_wrunlock` fails
and leaves the lock write-locked. -/
theorem lock_step_wrlocked (op : lock_op) (hop : op ≠ lock_op.wrunlock) :
    (lock_step op RWLOCK_WRLOCKED).1 ≠ 0 ∧
      (lock_step op RWLOCK_WRLOCKED).2 = RWLOCK_WRLOCKED := by
  cases op with
  | wrlock => decide
  | wrunlock => exact absurd rfl hop
  | rdlock sp =>
    simp only [lock_step, mbuf_rwlock_rdlock_eq, if_true]
    decide
  | rdunlock sp =>
    simp only [lock_step, mbuf_rwlock_rdunlock_eq]
    decide

theorem lock_run_wrlocked (ops : List lock_op) (hops : lock_op.wrunlock ∉ ops) :
    (lock_run ops RWLOCK_WRLOCKED).2 = RWLOCK_WRLOCKED ∧
      ∀ r ∈ (lock_run ops RWLOCK_WRLOCKED).1, r ≠ 0 := by
  induction ops with
  | nil => simp [lock_run]
  | cons op ops ih =>
    have hop : op ≠ lock_op.wrunlock := fun e => hops (by simp [e])
    have hrest : lock_op.wrunlock ∉ ops := fun e => hops (by simp [e])
    have h1 := lock_step_wrlocked op hop
    simp only [lock_run, h1.2]
    refine ⟨(ih hrest).1, ?_⟩
    intro r hr
    rcases List.mem_cons.1 hr with e | e
    · rw [e]; exact h1.1
    · exact (ih hrest).2 r e

theorem lock_reach_range {s : Int} (h : lock_reach s) :
    s = RWLOCK_WRLOCKED ∨ (0 ≤ s ∧ s ≤ INT_MAX) := by
  induction h with
  | init lock => right; simp [mbuf_rwlock_init, RWLOCK_FREE, INT_MAX]
  | step op s _ hb ih =>
    cases op with
    | wrlock =>
      simp only [lock_step, mbuf_rwlock_wrlock_eq]
      split_ifs with c1 c2
      · left; rfl
      · left; exact c2
      · exact ih
    | wrunlock =>
      simp only [lock_step, mbuf_rwlock_wrunlock_eq]
      split_ifs with c1 c2
      · right; simp [RWLOCK_FREE, INT_MAX]
      · exact ih
      · exact ih
    | rdlock sp =>
      have hlt : s < INT_MAX := hb ⟨sp, rfl⟩
      simp only [lock_step, mbuf_rwlock_rdlock_eq]
      split_ifs with c1
      · left; exact c1
      · right
        simp only [RWLOCK_WRLOCKED, INT_MAX] at *
        rcases ih with e | ⟨h0, _⟩
        · exact absurd e c1
        · rw [wrap_int_of_range _ (by omega) (by omega)]
          omega
    | rdunlock sp =>
      simp only [lock_step, mbuf_rwlock_rdunlock_eq]
      split_ifs with c1
      · exact ih
      · right
        simp only [RWLOCK_WRLOCKED, RWLOCK_FREE, INT_MAX] at *
        rcases ih with e | ⟨h0, h1⟩
        · omega
        · rw [wrap_int_of_range _ (by omega) (by omega)]
          omega

theorem lock_run_rdlocks (sp : Nat) (n : Nat) (s : Int) (h0 : 0 ≤ s)
    (hs : s < 2 ^ 31) (hn : s + n ≤ 2 ^ 31) :
    lock_run (List.replicate n (lock_op.rdlock sp)) s =
      (List.replicate n 0, wrap_int (s + n)) := by
  induction n generalizing s with
  | zero =>
    simp only [List.replicate, lock_run, Nat.cast_zero, add_zero]
    rw [wrap_int_of_range _ (by omega) (by omega)]
  | succ k ih =>
    have h1 : ¬ (s = RWLOCK_WRLOCKED) := by
      simp only [RWLOCK_WRLOCKED]; omega
    simp only [List.replicate, lock_run, lock_step, mbuf_rwlock_rdlock_eq, if_neg h1]
    rcases Nat.eq_zero_or_pos k with hk | hk
    · subst hk
      simp [lock_run]
    · have e : wrap_int (s + 1) = s + 1 :=
        wrap_int_of_range _ (by omega) (by push_cast at hn; omega)
      rw [e, ih (s + 1) (by omega) (by push_cast at hn; omega) (by push_cast at hn ⊢; omega)]
      simp only [Nat.cast_succ]
      congr 2
      ring

/-- C11, as the code has it: in every state reached from an initialised lock
while fewer than `INT_MAX` read locks are held when `mbuf_rwlock_rdlock` is
called, the lock is either write-locked (one writer, state -1) or held by
`N ≥ 0` readers (state `N`), never both; from a write-locked state every
sequence of calls without `mbuf_rwlock_wrunlock` leaves it write-locked and
all its calls fail, and `mbuf_rwlock_wrunlock` then frees the lock; while a
read lock is held `mbuf_rwlock_wrlock` and `mbuf_rwlock_wrunlock` fail and
leave the state alone and `mbuf_rwlock_rdlock` returns 0, counting one more
reader below `INT_MAX`. -/
theorem mbuf_rwlock_exclusion (s : Int) (h : lock_reach s) :
    (s = RWLOCK_WRLOCKED ∨ (0 ≤ s ∧ s ≤ INT_MAX)) ∧
      (s = RWLOCK_WRLOCKED →
        (∀ ops : List lock_op, lock_op.wrunlock ∉ ops →
          (lock_run ops s).2 = RWLOCK_WRLOCKED ∧ ∀ r ∈ (lock_run ops s).1, r ≠ 0) ∧
        mbuf_rwlock_wrunlock s = (0, RWLOCK_FREE)) ∧
      (0 < s →
        ((mbuf_rwlock_wrlock s).1 ≠ 0 ∧ (mbuf_rwlock_wrlock s).2 = s) ∧
        ((mbuf_rwlock_wrunlock s).1 ≠ 0 ∧ (mbuf_rwlock_wrunlock s).2 = s) ∧
        ∀ sp, (mbuf_rwlock_rdlock sp s).1 = 0 ∧
          (s < INT_MAX → (mbuf_rwlock_rdlock sp s).2 = s + 1)) := by
  refine ⟨lock_reach_range h, ?_, ?_⟩
  · intro hw
    subst hw
    exact ⟨fun ops hops => lock_run_wrlocked ops hops, by decide⟩
  · intro hpos
    have hr := lock_reach_range h
    have hne0 : ¬ (s = RWLOCK_FREE) := by simp only [RWLOCK_FREE]; omega
    have hne1 : ¬ (s = RWLOCK_WRLOCKED) := by simp only [RWLOCK_WRLOCKED]; omega
    have hb : (-EBUSY : Int) ≠ 0 := by decide
    refine ⟨?_, ?_, ?_⟩
    · rw [mbuf_rwlock_wrlock_eq, if_neg hne0, if_neg hne1]
      exact ⟨hb, rfl⟩
    · rw [mbuf_rwlock_wrunlock_eq, if_neg hne1, if_neg hne0]
      exact ⟨hb, rfl⟩
    · intro sp
      rw [mbuf_rwlock_rdlock_eq, if_neg hne1]
      refine ⟨rfl, ?_⟩
      intro hlt
      simp only [INT_MAX] at hlt
      exact wrap_int_of_range _ (by omega) (by omega)

/-- C11, the theorem applied to the state after `mbuf_rwlock_init` and one
`mbuf_rwlock_wrlock`, which is write-locked. -/
theorem mbuf_rwlock_exclusion_witness :
    lock_reach (lock_step lock_op.wrlock (mbuf_rwlock_init 0)).2 ∧
      (lock_step lock_op.wrlock (mbuf_rwlock_init 0)).2 = RWLOCK_WRLOCKED ∧
      (lock_run [lock_op.rdlock 0, lock_op.wrlock, lock_op.rdlock 1]
        (lock_step lock_op.wrlock (mbuf_rwlock_init 0)).2).2 = RWLOCK_WRLOCKED ∧
      mbuf_rwlock_wrunlock (lock_step lock_op.wrlock (mbuf_rwlock_init 0)).2 =
        (0, RWLOCK_FREE) :=
  have hr : lock_reach (lock_step lock_op.wrlock (mbuf_rwlock_init 0)).2 :=
    lock_reach.step lock_op.wrlock _ (lock_reach.init 0) (fun ⟨_, e⟩ => by cases e)
  have hw : (lock_step lock_op.wrlock (mbuf_rwlock_init 0)).2 = RWLOCK_WRLOCKED := by
    decide
  have hx := (mbuf_rwlock_exclusion _ hr).2.1 hw
  ⟨hr, hw, (hx.1 [lock_op.rdlock 0, lock_op.wrlock, lock_op.rdlock 1] (by decide)).1, hx.2⟩

/-- C11, the claim as stated fails: `2 ^ 31` calls of `mbuf_rwlock_rdlock` on
an initialised lock all return 0, and the state they reach is `INT_MIN`, which
is neither the write-locked state nor a number `N ≥ 0` of readers. -/
theorem mbuf_rwlock_exclusion_overflow :
    lock_run (List.replicate (2 ^ 31) (lock_op.rdlock 0)) (mbuf_rwlock_init 0) =
        (List.replicate (2 ^ 31) 0, INT_MIN) ∧
      INT_MIN ≠ RWLOCK_WRLOCKED ∧ ¬ (0 ≤ INT_MIN) := by
  refine ⟨?_, by decide, by decide⟩
  have h := lock_run_rdlocks 0 (2 ^ 31) (mbuf_rwlock_init 0) (by decide) (by decide) (by decide)
  rw [h]
  congr 1

theorem eproto_ne_zero : (-EPROTO : Int) ≠ 0 := by decide

/-! ### The ancillary data functions do not look at the finalized flag -/

theorem add_ancillary_internal_finalized (b c : Bool) (h : anc_state)
    (frame : mbuf_base_frame) (data : Nat) :
    mbuf_base_frame_add_ancillary_internal c h (with_finalized b frame) data =
      (mbuf_base_frame_add_ancillary_internal c h frame data).map
        (fun r => (r.1, r.2.1, with_finalized b r.2.2)) := by
  unfold mbuf_base_frame_add_ancillary_internal
  cases find_anc h.objs data with
  | none => rfl
  | some d =>
    simp only [with_finalized]
    cases find_holder h d.name frame.ancillary_data with
    | none => rfl
    | some o =>
      cases o with
      | some x => rfl
      | none =>
        cases c
        · rfl
        · simp only [Bool.not_true, Bool.false_eq_true, if_false]
          cases mbuf_ancillary_data_ref h (some data) with
          | none => rfl
          | some r =>
            obtain ⟨ret, h1⟩ := r
            simp only []
            split <;> rfl

theorem create_ancillary_internal_finalized (b : Bool) (env : anc_env) (h : anc_state)
    (frame : mbuf_base_frame) (name : String) (buffer : List Nat) (len : Nat)
    (is_string : Bool) (cbs : Option mbuf_ancillary_data_cbs) :
    mbuf_base_frame_create_ancillary_internal env h (with_finalized b frame) name buffer len
        is_string cbs =
      (mbuf_base_frame_create_ancillary_internal env h frame name buffer len is_string
        cbs).map (fun r => (r.1, r.2.1, with_finalized b r.2.2)) := by
  unfold mbuf_base_frame_create_ancillary_internal
  split
  · rfl
  · split
    · simp only []
      split <;> rfl
    · split
      · simp only []
        split <;> rfl
      · simp only [add_ancillary_internal_finalized]
        cases mbuf_base_frame_add_ancillary_internal env.calloc_holder _ frame _ with
        | none => rfl
        | some r =>
          obtain ⟨ret, h1, f1⟩ := r
          simp only [Option.map_some']
          split <;> rfl

theorem get_ancillary_data_finalized (b : Bool) (h : anc_state) (frame : mbuf_base_frame)
    (name : String) :
    mbuf_base_frame_get_ancillary_data h (with_finalized b frame) name =
      mbuf_base_frame_get_ancillary_data h frame name := rfl

theorem remove_ancillary_data_finalized (b : Bool) (h : anc_state)
    (frame : mbuf_base_frame) (name : String) :
    mbuf_base_frame_remove_ancillary_data h (with_finalized b frame) name =
      (mbuf_base_frame_remove_ancillary_data h frame name).map
        (fun r => (r.1, r.2.1, with_finalized b r.2.2)) := by
  unfold mbuf_base_frame_remove_ancillary_data
  simp only [with_finalized]
  cases find_holder h name frame.ancillary_data with
  | none => rfl
  | some o =>
    cases o with
    | none => rfl
    | some x =>
      obtain ⟨before, a, after⟩ := x
      simp only []
      cases mbuf_ancillary_data_unref h (some a) with
      | none => rfl
      | some r => rfl

/-! ### A copy leaves its source alone, up to the lock -/

theorem mbuf_audio_frame_copy_out_source {env : frame_env} {w w1 : frame_world}
    {locked src : mbuf_audio_frame} {ret0 ret : Int} {nf0 nf : Option mbuf_audio_frame}
    (h : mbuf_audio_frame_copy_out env locked ret0 nf0 w = some (ret, nf, w1, src)) :
    src = { locked with base := { locked.base with rwlock := src.base.rwlock } } := by
  unfold mbuf_audio_frame_copy_out at h
  simp only [mbuf_base_frame_rdunlock] at h
  repeat' split at h
  all_goals first
    | (simp only [Option.some.injEq, Prod.mk.injEq] at h
       obtain ⟨_, _, _, rfl⟩ := h
       rfl)
    | exact absurd h (by simp)

theorem mbuf_audio_frame_copy_source {env : frame_env} {w w1 : frame_world}
    {frame src : mbuf_audio_frame} {dst : Option Nat} {ret : Int}
    {nf : Option mbuf_audio_frame}
    (h : mbuf_audio_frame_copy env w frame dst = some (ret, nf, w1, src)) :
    src = { frame with base := { frame.base with rwlock := src.base.rwlock } } := by
  unfold mbuf_audio_frame_copy at h
  simp only [mbuf_base_frame_rdlock] at h
  repeat' split at h
  all_goals first
    | (simp only [Option.some.injEq, Prod.mk.injEq] at h
       obtain ⟨_, _, _, rfl⟩ := h
       rfl)
    | exact absurd h (by simp)
    | (rw [mbuf_audio_frame_copy_out_source h])

theorem mbuf_coded_video_frame_copy_out_source {env : frame_env} {w w1 : frame_world}
    {locked src : mbuf_coded_video_frame} {ret0 ret : Int}
    {nf0 nf : Option mbuf_coded_video_frame}
    (h : mbuf_coded_video_frame_copy_out env locked ret0 nf0 w = some (ret, nf, w1, src)) :
    src = { locked with base := { locked.base with rwlock := src.base.rwlock } } := by
  unfold mbuf_coded_video_frame_copy_out at h
  simp only [mbuf_base_frame_rdunlock] at h
  repeat' split at h
  all_goals first
    | (simp only [Option.some.injEq, Prod.mk.injEq] at h
       obtain ⟨_, _, _, rfl⟩ := h
       rfl)
    | exact absurd h (by simp)

theorem mbuf_coded_video_frame_copy_source {env : frame_env} {w w1 : frame_world}
    {frame src : mbuf_coded_video_frame} {dst : Option Nat} {ret : Int}
    {nf : Option mbuf_coded_video_frame}
    (h : mbuf_coded_video_frame_copy env w frame dst = some (ret, nf, w1, src)) :
    src = { frame with base := { frame.base with rwlock := src.base.rwlock } } := by
  unfold mbuf_coded_video_frame_copy at h
  simp only [mbuf_base_frame_rdlock] at h
  repeat' split at h
  all_goals first
    | (simp only [Option.some.injEq, Prod.mk.injEq] at h
       obtain ⟨_, _, _, rfl⟩ := h
       rfl)
    | exact absurd h (by simp)
    | (rw [mbuf_coded_video_frame_copy_out_source h])

theorem mbuf_raw_video_frame_copy_out_source {env : frame_env} {w w1 : frame_world}
    {locked src : mbuf_raw_video_frame} {ret0 ret : Int}
    {nf0 nf : Option mbuf_raw_video_frame}
    (h : mbuf_raw_video_frame_copy_out env locked ret0 nf0 w = some (ret, nf, w1, src)) :
    src = { locked with base := { locked.base with rwlock := src.base.rwlock } } := by
  unfold mbuf_raw_video_frame_copy_out at h
  simp only [mbuf_base_frame_rdunlock] at h
  repeat' split at h
  all_goals first
    | (simp only [Option.some.injEq, Prod.mk.injEq] at h
       obtain ⟨_, _, _, rfl⟩ := h
       rfl)
    | exact absurd h (by simp)

theorem mbuf_raw_video_frame_copy_planes_done_source {env : frame_env}
    {w w1 : frame_world} {locked src : mbuf_raw_video_frame} {h1 : anc_state}
    {r : Int × (Nat → Nat) × mbuf_state × mbuf_raw_video_frame} {ret : Int}
    {nf : Option mbuf_raw_video_frame}
    (h : mbuf_raw_video_frame_copy_planes_done env w locked h1 r = some (ret, nf, w1, src)) :
    src = { locked with base := { locked.base with rwlock := src.base.rwlock } } := by
  unfold mbuf_raw_video_frame_copy_planes_done at h
  split at h <;> exact mbuf_raw_video_frame_copy_out_source h

theorem mbuf_raw_video_frame_copy_fill_source {env : frame_env} {w w1 : frame_world}
    {locked src nf0 : mbuf_raw_video_frame} {d : Nat} {remove_stride : Bool} {ret : Int}
    {nf : Option mbuf_raw_video_frame}
    (h : mbuf_raw_video_frame_copy_fill env w locked d remove_stride nf0 =
      some (ret, nf, w1, src)) :
    src = { locked with base := { locked.base with rwlock := src.base.rwlock } } := by
  unfold mbuf_raw_video_frame_copy_fill at h
  repeat' split at h
  all_goals first
    | exact absurd h (by simp)
    | exact mbuf_raw_video_frame_copy_out_source h
    | exact mbuf_raw_video_frame_copy_planes_done_source h

theorem mbuf_raw_video_frame_copy_source {env : frame_env} {w w1 : frame_world}
    {frame src : mbuf_raw_video_frame} {dst : Option Nat} {remove_stride : Bool} {ret : Int}
    {nf : Option mbuf_raw_video_frame}
    (h : mbuf_raw_video_frame_copy env w frame dst remove_stride = some (ret, nf, w1, src)) :
    src = { frame with base := { frame.base with rwlock := src.base.rwlock } } := by
  unfold mbuf_raw_video_frame_copy at h
  simp only [mbuf_base_frame_rdlock] at h
  repeat' split at h
  all_goals first
    | (simp only [Option.some.injEq, Prod.mk.injEq] at h
       obtain ⟨_, _, _, rfl⟩ := h
       rfl)
    | exact absurd h (by simp)
    | (rw [mbuf_raw_video_frame_copy_out_source h])
    | (rw [mbuf_raw_video_frame_copy_fill_source h])
set_option linter.unusedTactic false
set_option linter.unreachableTactic false

theorem with_finalized_self (frame : mbuf_base_frame) :
    with_finalized frame.finalized frame = frame := rfl

theorem finalized_of_map {α : Type} {x : Option (Int × α × mbuf_base_frame)} {b : Bool}
    (e : x = x.map (fun r => (r.1, r.2.1, with_finalized b r.2.2)))
    {r : Int × α × mbuf_base_frame} (hx : x = some r) : r.2.2.finalized = b := by
  rw [hx] at e
  simp only [Option.map_some', Option.some.injEq] at e
  rw [e]
  rfl

theorem add_ancillary_internal_keeps {c : Bool} {h h1 : anc_state}
    {frame frame1 : mbuf_base_frame} {data : Nat} {ret : Int}
    (hx : mbuf_base_frame_add_ancillary_internal c h frame data = some (ret, h1, frame1)) :
    frame1.finalized = frame.finalized := by
  have e := add_ancillary_internal_finalized frame.finalized c h frame data
  rw [with_finalized_self] at e
  exact finalized_of_map e hx

theorem create_ancillary_internal_keeps {env : anc_env} {h h1 : anc_state}
    {frame frame1 : mbuf_base_frame} {name : String} {buffer : List Nat} {len : Nat}
    {is_string : Bool} {cbs : Option mbuf_ancillary_data_cbs} {ret : Int}
    (hx : mbuf_base_frame_create_ancillary_internal env h frame name buffer len is_string
      cbs = some (ret, h1, frame1)) :
    frame1.finalized = frame.finalized := by
  have e := create_ancillary_internal_finalized frame.finalized env h frame name buffer len
    is_string cbs
  rw [with_finalized_self] at e
  exact finalized_of_map e hx

theorem remove_ancillary_data_keeps {h h1 : anc_state}
    {frame frame1 : mbuf_base_frame} {name : String} {ret : Int}
    (hx : mbuf_base_frame_remove_ancillary_data h frame name = some (ret, h1, frame1)) :
    frame1.finalized = frame.finalized := by
  have e := remove_ancillary_data_finalized frame.finalized h frame name
  rw [with_finalized_self] at e
  exact finalized_of_map e hx

theorem mbuf_rwlock_base_finalized (sp : Nat) (frame : mbuf_base_frame) :
    (mbuf_base_frame_rdlock sp frame).2.finalized = frame.finalized ∧
      (mbuf_base_frame_rdunlock sp frame).2.finalized = frame.finalized ∧
      (mbuf_base_frame_wrlock frame).2.finalized = frame.finalized ∧
      (mbuf_base_frame_wrunlock frame).2.finalized = frame.finalized :=
  ⟨rfl, rfl, rfl, rfl⟩

/-- No call on an audio frame resets the finalized flag. -/
theorem audio_step_finalized {env : frame_env} {w w1 : frame_world}
    {frame frame1 : mbuf_audio_frame} {op : audio_op} {ret : Int}
    (h : audio_step env w frame op = some (ret, w1, some frame1))
    (hfin : frame.base.finalized = true) : frame1.base.finalized = true := by
  cases op with
  | set_callbacks cbs =>
    simp only [audio_step, view_result, frame_result, mem_result, mbuf_audio_frame_set_callbacks,
      mbuf_base_frame_rdlock, mbuf_base_frame_rdunlock, mbuf_base_frame_wrlock,
      mbuf_base_frame_wrunlock, mbuf_base_frame_finalize, mbuf_base_frame_is_finalized, hfin,
      Bool.not_true, Bool.false_eq_true, if_false, if_true] at h
    repeat' split at h
    all_goals first
      | (simp only [Option.map_some', Option.some.injEq, Prod.mk.injEq] at h
         obtain ⟨_, _, rfl⟩ := h
         first | exact hfin | rfl)
      | exact absurd h (by simp)
  | ref =>
    simp only [audio_step, view_result, frame_result, mem_result, mbuf_audio_frame_ref,
      mbuf_base_frame_rdlock, mbuf_base_frame_rdunlock, mbuf_base_frame_wrlock,
      mbuf_base_frame_wrunlock, mbuf_base_frame_finalize, mbuf_base_frame_is_finalized, hfin,
      Bool.not_true, Bool.false_eq_true, if_false, if_true] at h
    repeat' split at h
    all_goals first
      | (simp only [Option.map_some', Option.some.injEq, Prod.mk.injEq] at h
         obtain ⟨_, _, rfl⟩ := h
         first | exact hfin | rfl)
      | exact absurd h (by simp)
  | set_frame_info info =>
    simp only [audio_step, view_result, frame_result, mem_result, mbuf_audio_frame_set_frame_info,
      mbuf_base_frame_rdlock, mbuf_base_frame_rdunlock, mbuf_base_frame_wrlock,
      mbuf_base_frame_wrunlock, mbuf_base_frame_finalize, mbuf_base_frame_is_finalized, hfin,
      Bool.not_true, Bool.false_eq_true, if_false, if_true] at h
    repeat' split at h
    all_goals first
      | (simp only [Option.map_some', Option.some.injEq, Prod.mk.injEq] at h
         obtain ⟨_, _, rfl⟩ := h
         first | exact hfin | rfl)
      | exact absurd h (by simp)
  | set_buffer mem offset len =>
    simp only [audio_step, view_result, frame_result, mem_result, mbuf_audio_frame_set_buffer,
      mbuf_base_frame_rdlock, mbuf_base_frame_rdunlock, mbuf_base_frame_wrlock,
      mbuf_base_frame_wrunlock, mbuf_base_frame_finalize, mbuf_base_frame_is_finalized, hfin,
      Bool.not_true, Bool.false_eq_true, if_false, if_true] at h
    repeat' split at h
    all_goals first
      | (simp only [Option.map_some', Option.some.injEq, Prod.mk.injEq] at h
         obtain ⟨_, _, rfl⟩ := h
         first | exact hfin | rfl)
      | exact absurd h (by simp)
  | finalize =>
    simp only [audio_step, view_result, frame_result, mem_result, mbuf_audio_frame_finalize,
      mbuf_base_frame_rdlock, mbuf_base_frame_rdunlock, mbuf_base_frame_wrlock,
      mbuf_base_frame_wrunlock, mbuf_base_frame_finalize, mbuf_base_frame_is_finalized, hfin,
      Bool.not_true, Bool.false_eq_true, if_false, if_true] at h
    repeat' split at h
    all_goals first
      | (simp only [Option.map_some', Option.some.injEq, Prod.mk.injEq] at h
         obtain ⟨_, _, rfl⟩ := h
         first | exact hfin | rfl)
      | exact absurd h (by simp)
  | get_buffer =>
    simp only [audio_step, view_result, frame_result, mem_result, mbuf_audio_frame_get_buffer,
      mbuf_base_frame_rdlock, mbuf_base_frame_rdunlock, mbuf_base_frame_wrlock,
      mbuf_base_frame_wrunlock, mbuf_base_frame_finalize, mbuf_base_frame_is_finalized, hfin,
      Bool.not_true, Bool.false_eq_true, if_false, if_true] at h
    repeat' split at h
    all_goals first
      | (simp only [Option.map_some', Option.some.injEq, Prod.mk.injEq] at h
         obtain ⟨_, _, rfl⟩ := h
         first | exact hfin | rfl)
      | exact absurd h (by simp)
  | release_buffer data =>
    simp only [audio_step, view_result, frame_result, mem_result, mbuf_audio_frame_release_buffer,
      mbuf_base_frame_rdlock, mbuf_base_frame_rdunlock, mbuf_base_frame_wrlock,
      mbuf_base_frame_wrunlock, mbuf_base_frame_finalize, mbuf_base_frame_is_finalized, hfin,
      Bool.not_true, Bool.false_eq_true, if_false, if_true] at h
    repeat' split at h
    all_goals first
      | (simp only [Option.map_some', Option.some.injEq, Prod.mk.injEq] at h
         obtain ⟨_, _, rfl⟩ := h
         first | exact hfin | rfl)
      | exact absurd h (by simp)
  | get_rw_buffer =>
    simp only [audio_step, view_result, frame_result, mem_result, mbuf_audio_frame_get_rw_buffer,
      mbuf_base_frame_rdlock, mbuf_base_frame_rdunlock, mbuf_base_frame_wrlock,
      mbuf_base_frame_wrunlock, mbuf_base_frame_finalize, mbuf_base_frame_is_finalized, hfin,
      Bool.not_true, Bool.false_eq_true, if_false, if_true] at h
    repeat' split at h
    all_goals first
      | (simp only [Option.map_some', Option.some.injEq, Prod.mk.injEq] at h
         obtain ⟨_, _, rfl⟩ := h
         first | exact hfin | rfl)
      | exact absurd h (by simp)
  | release_rw_buffer data =>
    simp only [audio_step, view_result, frame_result, mem_result, mbuf_audio_frame_release_rw_buffer,
      mbuf_base_frame_rdlock, mbuf_base_frame_rdunlock, mbuf_base_frame_wrlock,
      mbuf_base_frame_wrunlock, mbuf_base_frame_finalize, mbuf_base_frame_is_finalized, hfin,
      Bool.not_true, Bool.false_eq_true, if_false, if_true] at h
    repeat' split at h
    all_goals first
      | (simp only [Option.map_some', Option.some.injEq, Prod.mk.injEq] at h
         obtain ⟨_, _, rfl⟩ := h
         first | exact hfin | rfl)
      | exact absurd h (by simp)
  | copy dst =>
    simp only [audio_step] at h
    cases hc : mbuf_audio_frame_copy env w frame dst with
    | none => rw [hc] at h; simp at h
    | some r =>
      obtain ⟨ret1, nf, w2, src⟩ := r
      rw [hc] at h
      simp only [Option.map_some', Option.some.injEq, Prod.mk.injEq] at h
      obtain ⟨_, _, rfl⟩ := h
      rw [mbuf_audio_frame_copy_source hc]
      exact hfin
  | unref =>
    simp only [audio_step, mbuf_audio_frame_unref] at h
    split at h
    · split at h <;> simp at h
    · simp only [Option.some.injEq, Prod.mk.injEq] at h
      obtain ⟨_, _, rfl⟩ := h
      exact hfin
  | add_ancillary_string aenv name value =>
    simp only [audio_step, anc_result, mbuf_audio_frame_add_ancillary_string,
      mbuf_base_frame_add_ancillary_string] at h
    cases name <;> cases value <;>
      simp only [Option.map_some', Option.map_map, Option.some.injEq, Prod.mk.injEq] at h
    · obtain ⟨_, _, rfl⟩ := h; exact hfin
    · obtain ⟨_, _, rfl⟩ := h; exact hfin
    · obtain ⟨_, _, rfl⟩ := h; exact hfin
    · rename_i n v
      cases hc : mbuf_base_frame_create_ancillary_internal aenv w.anc frame.base n (v ++ [0])
          (v.length + 1) true none with
      | none => rw [hc] at h; simp at h
      | some r =>
        rw [hc] at h
        simp only [Option.map_some', Function.comp, Option.some.injEq, Prod.mk.injEq] at h
        obtain ⟨_, _, rfl⟩ := h
        obtain ⟨r1, r2, r3⟩ := r
        exact (create_ancillary_internal_keeps hc).trans hfin
  | add_ancillary_buffer aenv name buffer len =>
    simp only [audio_step, anc_result, mbuf_audio_frame_add_ancillary_buffer,
      mbuf_base_frame_add_ancillary_buffer] at h
    cases name <;> cases buffer <;>
      simp only [Option.map_some', Option.map_map, Option.some.injEq, Prod.mk.injEq] at h
    · obtain ⟨_, _, rfl⟩ := h; exact hfin
    · obtain ⟨_, _, rfl⟩ := h; exact hfin
    · obtain ⟨_, _, rfl⟩ := h; exact hfin
    · rename_i n v
      split at h
      · simp only [Option.map_some', Option.some.injEq, Prod.mk.injEq] at h
        obtain ⟨_, _, rfl⟩ := h; exact hfin
      · cases hc : mbuf_base_frame_create_ancillary_internal aenv w.anc frame.base n v
            len false none with
        | none => rw [hc] at h; simp at h
        | some r =>
          rw [hc] at h
          simp only [Option.map_some', Function.comp, Option.some.injEq, Prod.mk.injEq] at h
          obtain ⟨_, _, rfl⟩ := h
          obtain ⟨r1, r2, r3⟩ := r
          exact (create_ancillary_internal_keeps hc).trans hfin
  | add_ancillary_buffer_with_cbs aenv name buffer len cbs =>
    simp only [audio_step, anc_result, mbuf_audio_frame_add_ancillary_buffer_with_cbs,
      mbuf_base_frame_add_ancillary_buffer_with_cbs] at h
    cases name <;> cases buffer <;>
      simp only [Option.map_some', Option.map_map, Option.some.injEq, Prod.mk.injEq] at h
    · obtain ⟨_, _, rfl⟩ := h; exact hfin
    · obtain ⟨_, _, rfl⟩ := h; exact hfin
    · obtain ⟨_, _, rfl⟩ := h; exact hfin
    · rename_i n v
      split at h
      · simp only [Option.map_some', Option.some.injEq, Prod.mk.injEq] at h
        obtain ⟨_, _, rfl⟩ := h; exact hfin
      · cases hc : mbuf_base_frame_create_ancillary_internal aenv w.anc frame.base n v
            len false cbs with
        | none => rw [hc] at h; simp at h
        | some r =>
          rw [hc] at h
          simp only [Option.map_some', Function.comp, Option.some.injEq, Prod.mk.injEq] at h
          obtain ⟨_, _, rfl⟩ := h
          obtain ⟨r1, r2, r3⟩ := r
          exact (create_ancillary_internal_keeps hc).trans hfin
  | add_ancillary_data calloc_holder data =>
    simp only [audio_step, anc_result, mbuf_audio_frame_add_ancillary_data,
      mbuf_base_frame_add_ancillary_data] at h
    cases data <;>
      simp only [Option.map_some', Option.map_map, Option.some.injEq, Prod.mk.injEq] at h
    · obtain ⟨_, _, rfl⟩ := h; exact hfin
    · rename_i d
      cases hc : mbuf_base_frame_add_ancillary_internal calloc_holder w.anc frame.base d with
      | none => rw [hc] at h; simp at h
      | some r =>
        rw [hc] at h
        simp only [Option.map_some', Function.comp, Option.some.injEq, Prod.mk.injEq] at h
        obtain ⟨_, _, rfl⟩ := h
        obtain ⟨r1, r2, r3⟩ := r
        exact (add_ancillary_internal_keeps hc).trans hfin
  | get_ancillary_data name =>
    simp only [audio_step] at h
    cases hc : mbuf_audio_frame_get_ancillary_data w.anc frame name with
    | none => rw [hc] at h; simp at h
    | some r =>
      rw [hc] at h
      simp only [Option.map_some', Option.some.injEq, Prod.mk.injEq] at h
      obtain ⟨_, _, rfl⟩ := h
      exact hfin
  | remove_ancillary_data name =>
    simp only [audio_step, anc_result, mbuf_audio_frame_remove_ancillary_data] at h
    cases name <;>
      simp only [Option.map_some', Option.map_map, Option.some.injEq, Prod.mk.injEq] at h
    · obtain ⟨_, _, rfl⟩ := h; exact hfin
    · rename_i n
      cases hc : mbuf_base_frame_remove_ancillary_data w.anc frame.base n with
      | none => rw [hc] at h; simp at h
      | some r =>
        rw [hc] at h
        simp only [Option.map_some', Function.comp, Option.some.injEq, Prod.mk.injEq] at h
        obtain ⟨_, _, rfl⟩ := h
        obtain ⟨r1, r2, r3⟩ := r
        exact (remove_ancillary_data_keeps hc).trans hfin

/-- No call on a raw video frame resets the finalized flag. -/
theorem raw_step_finalized {env : frame_env} {w w1 : frame_world}
    {frame frame1 : mbuf_raw_video_frame} {op : raw_op} {ret : Int}
    (h : raw_step env w frame op = some (ret, w1, some frame1))
    (hfin : frame.base.finalized = true) : frame1.base.finalized = true := by
  cases op with
  | set_callbacks cbs =>
    simp only [raw_step, view_result, frame_result, mem_result, mbuf_raw_video_frame_set_callbacks,
      mbuf_base_frame_rdlock, mbuf_base_frame_rdunlock, mbuf_base_frame_wrlock,
      mbuf_base_frame_wrunlock, mbuf_base_frame_finalize, mbuf_base_frame_is_finalized, hfin,
      Bool.not_true, Bool.false_eq_true, if_false, if_true] at h
    repeat' split at h
    all_goals first
      | (simp only [Option.map_some', Option.some.injEq, Prod.mk.injEq] at h
         obtain ⟨_, _, rfl⟩ := h
         first | exact hfin | rfl)
      | exact absurd h (by simp)
  | ref =>
    simp only [raw_step, view_result, frame_result, mem_result, mbuf_raw_video_frame_ref,
      mbuf_base_frame_rdlock, mbuf_base_frame_rdunlock, mbuf_base_frame_wrlock,
      mbuf_base_frame_wrunlock, mbuf_base_frame_finalize, mbuf_base_frame_is_finalized, hfin,
      Bool.not_true, Bool.false_eq_true, if_false, if_true] at h
    repeat' split at h
    all_goals first
      | (simp only [Option.map_some', Option.some.injEq, Prod.mk.injEq] at h
         obtain ⟨_, _, rfl⟩ := h
         first | exact hfin | rfl)
      | exact absurd h (by simp)
  | set_frame_info info =>
    simp only [raw_step, view_result, frame_result, mem_result, mbuf_raw_video_frame_set_frame_info,
      mbuf_base_frame_rdlock, mbuf_base_frame_rdunlock, mbuf_base_frame_wrlock,
      mbuf_base_frame_wrunlock, mbuf_base_frame_finalize, mbuf_base_frame_is_finalized, hfin,
      Bool.not_true, Bool.false_eq_true, if_false, if_true] at h
    repeat' split at h
    all_goals first
      | (simp only [Option.map_some', Option.some.injEq, Prod.mk.injEq] at h
         obtain ⟨_, _, rfl⟩ := h
         first | exact hfin | rfl)
      | exact absurd h (by simp)
  | set_metadata meta =>
    simp only [raw_step, view_result, frame_result, mem_result, mbuf_raw_video_frame_set_metadata,
      mbuf_base_frame_rdlock, mbuf_base_frame_rdunlock, mbuf_base_frame_wrlock,
      mbuf_base_frame_wrunlock, mbuf_base_frame_finalize, mbuf_base_frame_is_finalized, hfin,
      Bool.not_true, Bool.false_eq_true, if_false, if_true] at h
    repeat' split at h
    all_goals first
      | (simp only [Option.map_some', Option.some.injEq, Prod.mk.injEq] at h
         obtain ⟨_, _, rfl⟩ := h
         first | exact hfin | rfl)
      | exact absurd h (by simp)
  | set_plane plane mem offset len =>
    simp only [raw_step, view_result, frame_result, mem_result, mbuf_raw_video_frame_set_plane,
      mbuf_base_frame_rdlock, mbuf_base_frame_rdunlock, mbuf_base_frame_wrlock,
      mbuf_base_frame_wrunlock, mbuf_base_frame_finalize, mbuf_base_frame_is_finalized, hfin,
      Bool.not_true, Bool.false_eq_true, if_false, if_true] at h
    repeat' split at h
    all_goals first
      | (simp only [Option.map_some', Option.some.injEq, Prod.mk.injEq] at h
         obtain ⟨_, _, rfl⟩ := h
         first | exact hfin | rfl)
      | exact absurd h (by simp)
  | finalize =>
    simp only [raw_step, view_result, frame_result, mem_result, mbuf_raw_video_frame_finalize,
      mbuf_base_frame_rdlock, mbuf_base_frame_rdunlock, mbuf_base_frame_wrlock,
      mbuf_base_frame_wrunlock, mbuf_base_frame_finalize, mbuf_base_frame_is_finalized, hfin,
      Bool.not_true, Bool.false_eq_true, if_false, if_true] at h
    repeat' split at h
    all_goals first
      | (simp only [Option.map_some', Option.some.injEq, Prod.mk.injEq] at h
         obtain ⟨_, _, rfl⟩ := h
         first | exact hfin | rfl)
      | exact absurd h (by simp)
  | get_metadata =>
    simp only [raw_step, view_result, frame_result, mem_result, mbuf_raw_video_frame_get_metadata,
      mbuf_base_frame_rdlock, mbuf_base_frame_rdunlock, mbuf_base_frame_wrlock,
      mbuf_base_frame_wrunlock, mbuf_base_frame_finalize, mbuf_base_frame_is_finalized, hfin,
      Bool.not_true, Bool.false_eq_true, if_false, if_true] at h
    repeat' split at h
    all_goals first
      | (simp only [Option.map_some', Option.some.injEq, Prod.mk.injEq] at h
         obtain ⟨_, _, rfl⟩ := h
         first | exact hfin | rfl)
      | exact absurd h (by simp)
  | get_plane plane =>
    simp only [raw_step, view_result, frame_result, mem_result, mbuf_raw_video_frame_get_plane,
      mbuf_base_frame_rdlock, mbuf_base_frame_rdunlock, mbuf_base_frame_wrlock,
      mbuf_base_frame_wrunlock, mbuf_base_frame_finalize, mbuf_base_frame_is_finalized, hfin,
      Bool.not_true, Bool.false_eq_true, if_false, if_true] at h
    repeat' split at h
    all_goals first
      | (simp only [Option.map_some', Option.some.injEq, Prod.mk.injEq] at h
         obtain ⟨_, _, rfl⟩ := h
         first | exact hfin | rfl)
      | exact absurd h (by simp)
  | release_plane plane data =>
    simp only [raw_step, view_result, frame_result, mem_result, mbuf_raw_video_frame_release_plane,
      mbuf_base_frame_rdlock, mbuf_base_frame_rdunlock, mbuf_base_frame_wrlock,
      mbuf_base_frame_wrunlock, mbuf_base_frame_finalize, mbuf_base_frame_is_finalized, hfin,
      Bool.not_true, Bool.false_eq_true, if_false, if_true] at h
    repeat' split at h
    all_goals first
      | (simp only [Option.map_some', Option.some.injEq, Prod.mk.injEq] at h
         obtain ⟨_, _, rfl⟩ := h
         first | exact hfin | rfl)
      | exact absurd h (by simp)
  | get_rw_plane plane =>
    simp only [raw_step, view_result, frame_result, mem_result, mbuf_raw_video_frame_get_rw_plane,
      mbuf_base_frame_rdlock, mbuf_base_frame_rdunlock, mbuf_base_frame_wrlock,
      mbuf_base_frame_wrunlock, mbuf_base_frame_finalize, mbuf_base_frame_is_finalized, hfin,
      Bool.not_true, Bool.false_eq_true, if_false, if_true] at h
    repeat' split at h
    all_goals first
      | (simp only [Option.map_some', Option.some.injEq, Prod.mk.injEq] at h
         obtain ⟨_, _, rfl⟩ := h
         first | exact hfin | rfl)
      | exact absurd h (by simp)
  | release_rw_plane plane data =>
    simp only [raw_step, view_result, frame_result, mem_result, mbuf_raw_video_frame_release_rw_plane,
      mbuf_base_frame_rdlock, mbuf_base_frame_rdunlock, mbuf_base_frame_wrlock,
      mbuf_base_frame_wrunlock, mbuf_base_frame_finalize, mbuf_base_frame_is_finalized, hfin,
      Bool.not_true, Bool.false_eq_true, if_false, if_true] at h
    repeat' split at h
    all_goals first
      | (simp only [Option.map_some', Option.some.injEq, Prod.mk.injEq] at h
         obtain ⟨_, _, rfl⟩ := h
         first | exact hfin | rfl)
      | exact absurd h (by simp)
  | get_packed_buffer =>
    simp only [raw_step, view_result, frame_result, mem_result, mbuf_raw_video_frame_get_packed_buffer,
      mbuf_base_frame_rdlock, mbuf_base_frame_rdunlock, mbuf_base_frame_wrlock,
      mbuf_base_frame_wrunlock, mbuf_base_frame_finalize, mbuf_base_frame_is_finalized, hfin,
      Bool.not_true, Bool.false_eq_true, if_false, if_true] at h
    repeat' split at h
    all_goals first
      | (simp only [Option.map_some', Option.some.injEq, Prod.mk.injEq] at h
         obtain ⟨_, _, rfl⟩ := h
         first | exact hfin | rfl)
      | exact absurd h (by simp)
  | release_packed_buffer data =>
    simp only [raw_step, view_result, frame_result, mem_result, mbuf_raw_video_frame_release_packed_buffer,
      mbuf_base_frame_rdlock, mbuf_base_frame_rdunlock, mbuf_base_frame_wrlock,
      mbuf_base_frame_wrunlock, mbuf_base_frame_finalize, mbuf_base_frame_is_finalized, hfin,
      Bool.not_true, Bool.false_eq_true, if_false, if_true] at h
    repeat' split at h
    all_goals first
      | (simp only [Option.map_some', Option.some.injEq, Prod.mk.injEq] at h
         obtain ⟨_, _, rfl⟩ := h
         first | exact hfin | rfl)
      | exact absurd h (by simp)
  | get_rw_packed_buffer =>
    simp only [raw_step, view_result, frame_result, mem_result, mbuf_raw_video_frame_get_rw_packed_buffer,
      mbuf_base_frame_rdlock, mbuf_base_frame_rdunlock, mbuf_base_frame_wrlock,
      mbuf_base_frame_wrunlock, mbuf_base_frame_finalize, mbuf_base_frame_is_finalized, hfin,
      Bool.not_true, Bool.false_eq_true, if_false, if_true] at h
    repeat' split at h
    all_goals first
      | (simp only [Option.map_some', Option.some.injEq, Prod.mk.injEq] at h
         obtain ⟨_, _, rfl⟩ := h
         first | exact hfin | rfl)
      | exact absurd h (by simp)
  | release_rw_packed_buffer data =>
    simp only [raw_step, view_result, frame_result, mem_result, mbuf_raw_video_frame_release_rw_packed_buffer,
      mbuf_base_frame_rdlock, mbuf_base_frame_rdunlock, mbuf_base_frame_wrlock,
      mbuf_base_frame_wrunlock, mbuf_base_frame_finalize, mbuf_base_frame_is_finalized, hfin,
      Bool.not_true, Bool.false_eq_true, if_false, if_true] at h
    repeat' split at h
    all_goals first
      | (simp only [Option.map_some', Option.some.injEq, Prod.mk.injEq] at h
         obtain ⟨_, _, rfl⟩ := h
         first | exact hfin | rfl)
      | exact absurd h (by simp)
  | copy dst remove_stride =>
    simp only [raw_step] at h
    cases hc : mbuf_raw_video_frame_copy env w frame dst remove_stride with
    | none => rw [hc] at h; simp at h
    | some r =>
      obtain ⟨ret1, nf, w2, src⟩ := r
      rw [hc] at h
      simp only [Option.map_some', Option.some.injEq, Prod.mk.injEq] at h
      obtain ⟨_, _, rfl⟩ := h
      rw [mbuf_raw_video_frame_copy_source hc]
      exact hfin
  | unref =>
    simp only [raw_step, mbuf_raw_video_frame_unref] at h
    split at h
    · split at h <;> simp at h
    · simp only [Option.some.injEq, Prod.mk.injEq] at h
      obtain ⟨_, _, rfl⟩ := h
      exact hfin
  | add_ancillary_string aenv name value =>
    simp only [raw_step, anc_result, mbuf_raw_video_frame_add_ancillary_string,
      mbuf_base_frame_add_ancillary_string] at h
    cases name <;> cases value <;>
      simp only [Option.map_some', Option.map_map, Option.some.injEq, Prod.mk.injEq] at h
    · obtain ⟨_, _, rfl⟩ := h; exact hfin
    · obtain ⟨_, _, rfl⟩ := h; exact hfin
    · obtain ⟨_, _, rfl⟩ := h; exact hfin
    · rename_i n v
      cases hc : mbuf_base_frame_create_ancillary_internal aenv w.anc frame.base n (v ++ [0])
          (v.length + 1) true none with
      | none => rw [hc] at h; simp at h
      | some r =>
        rw [hc] at h
        simp only [Option.map_some', Function.comp, Option.some.injEq, Prod.mk.injEq] at h
        obtain ⟨_, _, rfl⟩ := h
        obtain ⟨r1, r2, r3⟩ := r
        exact (create_ancillary_internal_keeps hc).trans hfin
  | add_ancillary_buffer aenv name buffer len =>
    simp only [raw_step, anc_result, mbuf_raw_video_frame_add_ancillary_buffer,
      mbuf_base_frame_add_ancillary_buffer] at h
    cases name <;> cases buffer <;>
      simp only [Option.map_some', Option.map_map, Option.some.injEq, Prod.mk.injEq] at h
    · obtain ⟨_, _, rfl⟩ := h; exact hfin
    · obtain ⟨_, _, rfl⟩ := h; exact hfin
    · obtain ⟨_, _, rfl⟩ := h; exact hfin
    · rename_i n v
      split at h
      · simp only [Option.map_some', Option.some.injEq, Prod.mk.injEq] at h
        obtain ⟨_, _, rfl⟩ := h; exact hfin
      · cases hc : mbuf_base_frame_create_ancillary_internal aenv w.anc frame.base n v
            len false none with
        | none => rw [hc] at h; simp at h
        | some r =>
          rw [hc] at h
          simp only [Option.map_some', Function.comp, Option.some.injEq, Prod.mk.injEq] at h
          obtain ⟨_, _, rfl⟩ := h
          obtain ⟨r1, r2, r3⟩ := r
          exact (create_ancillary_internal_keeps hc).trans hfin
  | add_ancillary_buffer_with_cbs aenv name buffer len cbs =>
    simp only [raw_step, anc_result, mbuf_raw_video_frame_add_ancillary_buffer_with_cbs,
      mbuf_base_frame_add_ancillary_buffer_with_cbs] at h
    cases name <;> cases buffer <;>
      simp only [Option.map_some', Option.map_map, Option.some.injEq, Prod.mk.injEq] at h
    · obtain ⟨_, _, rfl⟩ := h; exact hfin
    · obtain ⟨_, _, rfl⟩ := h; exact hfin
    · obtain ⟨_, _, rfl⟩ := h; exact hfin
    · rename_i n v
      split at h
      · simp only [Option.map_some', Option.some.injEq, Prod.mk.injEq] at h
        obtain ⟨_, _, rfl⟩ := h; exact hfin
      · cases hc : mbuf_base_frame_create_ancillary_internal aenv w.anc frame.base n v
            len false cbs with
        | none => rw [hc] at h; simp at h
        | some r =>
          rw [hc] at h
          simp only [Option.map_some', Function.comp, Option.some.injEq, Prod.mk.injEq] at h
          obtain ⟨_, _, rfl⟩ := h
          obtain ⟨r1, r2, r3⟩ := r
          exact (create_ancillary_internal_keeps hc).trans hfin
  | add_ancillary_data calloc_holder data =>
    simp only [raw_step, anc_result, mbuf_raw_video_frame_add_ancillary_data,
      mbuf_base_frame_add_ancillary_data] at h
    cases data <;>
      simp only [Option.map_some', Option.map_map, Option.some.injEq, Prod.mk.injEq] at h
    · obtain ⟨_, _, rfl⟩ := h; exact hfin
    · rename_i d
      cases hc : mbuf_base_frame_add_ancillary_internal calloc_holder w.anc frame.base d with
      | none => rw [hc] at h; simp at h
      | some r =>
        rw [hc] at h
        simp only [Option.map_some', Function.comp, Option.some.injEq, Prod.mk.injEq] at h
        obtain ⟨_, _, rfl⟩ := h
        obtain ⟨r1, r2, r3⟩ := r
        exact (add_ancillary_internal_keeps hc).trans hfin
  | get_ancillary_data name =>
    simp only [raw_step] at h
    cases hc : mbuf_raw_video_frame_get_ancillary_data w.anc frame name with
    | none => rw [hc] at h; simp at h
    | some r =>
      rw [hc] at h
      simp only [Option.map_some', Option.some.injEq, Prod.mk.injEq] at h
      obtain ⟨_, _, rfl⟩ := h
      exact hfin
  | remove_ancillary_data name =>
    simp only [raw_step, anc_result, mbuf_raw_video_frame_remove_ancillary_data] at h
    cases name <;>
      simp only [Option.map_some', Option.map_map, Option.some.injEq, Prod.mk.injEq] at h
    · obtain ⟨_, _, rfl⟩ := h; exact hfin
    · rename_i n
      cases hc : mbuf_base_frame_remove_ancillary_data w.anc frame.base n with
      | none => rw [hc] at h; simp at h
      | some r =>
        rw [hc] at h
        simp only [Option.map_some', Function.comp, Option.some.injEq, Prod.mk.injEq] at h
        obtain ⟨_, _, rfl⟩ := h
        obtain ⟨r1, r2, r3⟩ := r
        exact (remove_ancillary_data_keeps hc).trans hfin

/-- No call on a coded video frame resets the finalized flag. -/
theorem coded_step_finalized {env : frame_env} {w w1 : frame_world}
    {frame frame1 : mbuf_coded_video_frame} {op : coded_op} {ret : Int}
    (h : coded_step env w frame op = some (ret, w1, some frame1))
    (hfin : frame.base.finalized = true) : frame1.base.finalized = true := by
  cases op with
  | set_callbacks cbs =>
    simp only [coded_step, view_result, frame_result, mem_result, mbuf_coded_video_frame_set_callbacks,
      mbuf_base_frame_rdlock, mbuf_base_frame_rdunlock, mbuf_base_frame_wrlock,
      mbuf_base_frame_wrunlock, mbuf_base_frame_finalize, mbuf_base_frame_is_finalized, hfin,
      Bool.not_true, Bool.false_eq_true, if_false, if_true] at h
    repeat' split at h
    all_goals first
      | (simp only [Option.map_some', Option.some.injEq, Prod.mk.injEq] at h
         obtain ⟨_, _, rfl⟩ := h
         first | exact hfin | rfl)
      | exact absurd h (by simp)
  | ref =>
    simp only [coded_step, view_result, frame_result, mem_result, mbuf_coded_video_frame_ref,
      mbuf_base_frame_rdlock, mbuf_base_frame_rdunlock, mbuf_base_frame_wrlock,
      mbuf_base_frame_wrunlock, mbuf_base_frame_finalize, mbuf_base_frame_is_finalized, hfin,
      Bool.not_true, Bool.false_eq_true, if_false, if_true] at h
    repeat' split at h
    all_goals first
      | (simp only [Option.map_some', Option.some.injEq, Prod.mk.injEq] at h
         obtain ⟨_, _, rfl⟩ := h
         first | exact hfin | rfl)
      | exact absurd h (by simp)
  | set_frame_info info =>
    simp only [coded_step, view_result, frame_result, mem_result, mbuf_coded_video_frame_set_frame_info,
      mbuf_base_frame_rdlock, mbuf_base_frame_rdunlock, mbuf_base_frame_wrlock,
      mbuf_base_frame_wrunlock, mbuf_base_frame_finalize, mbuf_base_frame_is_finalized, hfin,
      Bool.not_true, Bool.false_eq_true, if_false, if_true] at h
    repeat' split at h
    all_goals first
      | (simp only [Option.map_some', Option.some.injEq, Prod.mk.injEq] at h
         obtain ⟨_, _, rfl⟩ := h
         first | exact hfin | rfl)
      | exact absurd h (by simp)
  | set_metadata meta =>
    simp only [coded_step, view_result, frame_result, mem_result, mbuf_coded_video_frame_set_metadata,
      mbuf_base_frame_rdlock, mbuf_base_frame_rdunlock, mbuf_base_frame_wrlock,
      mbuf_base_frame_wrunlock, mbuf_base_frame_finalize, mbuf_base_frame_is_finalized, hfin,
      Bool.not_true, Bool.false_eq_true, if_false, if_true] at h
    repeat' split at h
    all_goals first
      | (simp only [Option.map_some', Option.some.injEq, Prod.mk.injEq] at h
         obtain ⟨_, _, rfl⟩ := h
         first | exact hfin | rfl)
      | exact absurd h (by simp)
  | add_nalu realloc_ok mem offset nalu =>
    simp only [coded_step, view_result, frame_result, mem_result, mbuf_coded_video_frame_add_nalu,
      mbuf_base_frame_rdlock, mbuf_base_frame_rdunlock, mbuf_base_frame_wrlock,
      mbuf_base_frame_wrunlock, mbuf_base_frame_finalize, mbuf_base_frame_is_finalized, hfin,
      Bool.not_true, Bool.false_eq_true, if_false, if_true] at h
    repeat' split at h
    all_goals first
      | (simp only [Option.map_some', Option.some.injEq, Prod.mk.injEq] at h
         obtain ⟨_, _, rfl⟩ := h
         first | exact hfin | rfl)
      | exact absurd h (by simp)
  | insert_nalu realloc_ok mem offset nalu index =>
    simp only [coded_step, view_result, frame_result, mem_result, mbuf_coded_video_frame_insert_nalu,
      mbuf_base_frame_rdlock, mbuf_base_frame_rdunlock, mbuf_base_frame_wrlock,
      mbuf_base_frame_wrunlock, mbuf_base_frame_finalize, mbuf_base_frame_is_finalized, hfin,
      Bool.not_true, Bool.false_eq_true, if_false, if_true] at h
    repeat' split at h
    all_goals first
      | (simp only [Option.map_some', Option.some.injEq, Prod.mk.injEq] at h
         obtain ⟨_, _, rfl⟩ := h
         first | exact hfin | rfl)
      | exact absurd h (by simp)
  | finalize =>
    simp only [coded_step, view_result, frame_result, mem_result, mbuf_coded_video_frame_finalize,
      mbuf_base_frame_rdlock, mbuf_base_frame_rdunlock, mbuf_base_frame_wrlock,
      mbuf_base_frame_wrunlock, mbuf_base_frame_finalize, mbuf_base_frame_is_finalized, hfin,
      Bool.not_true, Bool.false_eq_true, if_false, if_true] at h
    repeat' split at h
    all_goals first
      | (simp only [Option.map_some', Option.some.injEq, Prod.mk.injEq] at h
         obtain ⟨_, _, rfl⟩ := h
         first | exact hfin | rfl)
      | exact absurd h (by simp)
  | get_metadata =>
    simp only [coded_step, view_result, frame_result, mem_result, mbuf_coded_video_frame_get_metadata,
      mbuf_base_frame_rdlock, mbuf_base_frame_rdunlock, mbuf_base_frame_wrlock,
      mbuf_base_frame_wrunlock, mbuf_base_frame_finalize, mbuf_base_frame_is_finalized, hfin,
      Bool.not_true, Bool.false_eq_true, if_false, if_true] at h
    repeat' split at h
    all_goals first
      | (simp only [Option.map_some', Option.some.injEq, Prod.mk.injEq] at h
         obtain ⟨_, _, rfl⟩ := h
         first | exact hfin | rfl)
      | exact absurd h (by simp)
  | get_nalu index =>
    simp only [coded_step, view_result, frame_result, mem_result, mbuf_coded_video_frame_get_nalu,
      mbuf_base_frame_rdlock, mbuf_base_frame_rdunlock, mbuf_base_frame_wrlock,
      mbuf_base_frame_wrunlock, mbuf_base_frame_finalize, mbuf_base_frame_is_finalized, hfin,
      Bool.not_true, Bool.false_eq_true, if_false, if_true] at h
    repeat' split at h
    all_goals first
      | (simp only [Option.map_some', Option.some.injEq, Prod.mk.injEq] at h
         obtain ⟨_, _, rfl⟩ := h
         first | exact hfin | rfl)
      | exact absurd h (by simp)
  | release_nalu index data =>
    simp only [coded_step, view_result, frame_result, mem_result, mbuf_coded_video_frame_release_nalu,
      mbuf_base_frame_rdlock, mbuf_base_frame_rdunlock, mbuf_base_frame_wrlock,
      mbuf_base_frame_wrunlock, mbuf_base_frame_finalize, mbuf_base_frame_is_finalized, hfin,
      Bool.not_true, Bool.false_eq_true, if_false, if_true] at h
    repeat' split at h
    all_goals first
      | (simp only [Option.map_some', Option.some.injEq, Prod.mk.injEq] at h
         obtain ⟨_, _, rfl⟩ := h
         first | exact hfin | rfl)
      | exact absurd h (by simp)
  | get_rw_nalu index =>
    simp only [coded_step, view_result, frame_result, mem_result, mbuf_coded_video_frame_get_rw_nalu,
      mbuf_base_frame_rdlock, mbuf_base_frame_rdunlock, mbuf_base_frame_wrlock,
      mbuf_base_frame_wrunlock, mbuf_base_frame_finalize, mbuf_base_frame_is_finalized, hfin,
      Bool.not_true, Bool.false_eq_true, if_false, if_true] at h
    repeat' split at h
    all_goals first
      | (simp only [Option.map_some', Option.some.injEq, Prod.mk.injEq] at h
         obtain ⟨_, _, rfl⟩ := h
         first | exact hfin | rfl)
      | exact absurd h (by simp)
  | release_rw_nalu index data =>
    simp only [coded_step, view_result, frame_result, mem_result, mbuf_coded_video_frame_release_rw_nalu,
      mbuf_base_frame_rdlock, mbuf_base_frame_rdunlock, mbuf_base_frame_wrlock,
      mbuf_base_frame_wrunlock, mbuf_base_frame_finalize, mbuf_base_frame_is_finalized, hfin,
      Bool.not_true, Bool.false_eq_true, if_false, if_true] at h
    repeat' split at h
    all_goals first
      | (simp only [Option.map_some', Option.some.injEq, Prod.mk.injEq] at h
         obtain ⟨_, _, rfl⟩ := h
         first | exact hfin | rfl)
      | exact absurd h (by simp)
  | get_packed_buffer =>
    simp only [coded_step, view_result, frame_result, mem_result, mbuf_coded_video_frame_get_packed_buffer,
      mbuf_base_frame_rdlock, mbuf_base_frame_rdunlock, mbuf_base_frame_wrlock,
      mbuf_base_frame_wrunlock, mbuf_base_frame_finalize, mbuf_base_frame_is_finalized, hfin,
      Bool.not_true, Bool.false_eq_true, if_false, if_true] at h
    repeat' split at h
    all_goals first
      | (simp only [Option.map_some', Option.some.injEq, Prod.mk.injEq] at h
         obtain ⟨_, _, rfl⟩ := h
         first | exact hfin | rfl)
      | exact absurd h (by simp)
  | release_packed_buffer data =>
    simp only [coded_step, view_result, frame_result, mem_result, mbuf_coded_video_frame_release_packed_buffer,
      mbuf_base_frame_rdlock, mbuf_base_frame_rdunlock, mbuf_base_frame_wrlock,
      mbuf_base_frame_wrunlock, mbuf_base_frame_finalize, mbuf_base_frame_is_finalized, hfin,
      Bool.not_true, Bool.false_eq_true, if_false, if_true] at h
    repeat' split at h
    all_goals first
      | (simp only [Option.map_some', Option.some.injEq, Prod.mk.injEq] at h
         obtain ⟨_, _, rfl⟩ := h
         first | exact hfin | rfl)
      | exact absurd h (by simp)
  | get_rw_packed_buffer =>
    simp only [coded_step, view_result, frame_result, mem_result, mbuf_coded_video_frame_get_rw_packed_buffer,
      mbuf_base_frame_rdlock, mbuf_base_frame_rdunlock, mbuf_base_frame_wrlock,
      mbuf_base_frame_wrunlock, mbuf_base_frame_finalize, mbuf_base_frame_is_finalized, hfin,
      Bool.not_true, Bool.false_eq_true, if_false, if_true] at h
    repeat' split at h
    all_goals first
      | (simp only [Option.map_some', Option.some.injEq, Prod.mk.injEq] at h
         obtain ⟨_, _, rfl⟩ := h
         first | exact hfin | rfl)
      | exact absurd h (by simp)
  | release_rw_packed_buffer data =>
    simp only [coded_step, view_result, frame_result, mem_result, mbuf_coded_video_frame_release_rw_packed_buffer,
      mbuf_base_frame_rdlock, mbuf_base_frame_rdunlock, mbuf_base_frame_wrlock,
      mbuf_base_frame_wrunlock, mbuf_base_frame_finalize, mbuf_base_frame_is_finalized, hfin,
      Bool.not_true, Bool.false_eq_true, if_false, if_true] at h
    repeat' split at h
    all_goals first
      | (simp only [Option.map_some', Option.some.injEq, Prod.mk.injEq] at h
         obtain ⟨_, _, rfl⟩ := h
         first | exact hfin | rfl)
      | exact absurd h (by simp)
  | copy dst =>
    simp only [coded_step] at h
    cases hc : mbuf_coded_video_frame_copy env w frame dst with
    | none => rw [hc] at h; simp at h
    | some r =>
      obtain ⟨ret1, nf, w2, src⟩ := r
      rw [hc] at h
      simp only [Option.map_some', Option.some.injEq, Prod.mk.injEq] at h
      obtain ⟨_, _, rfl⟩ := h
      rw [mbuf_coded_video_frame_copy_source hc]
      exact hfin
  | unref =>
    simp only [coded_step, mbuf_coded_video_frame_unref] at h
    split at h
    · split at h <;> simp at h
    · simp only [Option.some.injEq, Prod.mk.injEq] at h
      obtain ⟨_, _, rfl⟩ := h
      exact hfin
  | add_ancillary_string aenv name value =>
    simp only [coded_step, anc_result, mbuf_coded_video_frame_add_ancillary_string,
      mbuf_base_frame_add_ancillary_string] at h
    cases name <;> cases value <;>
      simp only [Option.map_some', Option.map_map, Option.some.injEq, Prod.mk.injEq] at h
    · obtain ⟨_, _, rfl⟩ := h; exact hfin
    · obtain ⟨_, _, rfl⟩ := h; exact hfin
    · obtain ⟨_, _, rfl⟩ := h; exact hfin
    · rename_i n v
      cases hc : mbuf_base_frame_create_ancillary_internal aenv w.anc frame.base n (v ++ [0])
          (v.length + 1) true none with
      | none => rw [hc] at h; simp at h
      | some r =>
        rw [hc] at h
        simp only [Option.map_some', Function.comp, Option.some.injEq, Prod.mk.injEq] at h
        obtain ⟨_, _, rfl⟩ := h
        obtain ⟨r1, r2, r3⟩ := r
        exact (create_ancillary_internal_keeps hc).trans hfin
  | add_ancillary_buffer aenv name buffer len =>
    simp only [coded_step, anc_result, mbuf_coded_video_frame_add_ancillary_buffer,
      mbuf_base_frame_add_ancillary_buffer] at h
    cases name <;> cases buffer <;>
      simp only [Option.map_some', Option.map_map, Option.some.injEq, Prod.mk.injEq] at h
    · obtain ⟨_, _, rfl⟩ := h; exact hfin
    · obtain ⟨_, _, rfl⟩ := h; exact hfin
    · obtain ⟨_, _, rfl⟩ := h; exact hfin
    · rename_i n v
      split at h
      · simp only [Option.map_some', Option.some.injEq, Prod.mk.injEq] at h
        obtain ⟨_, _, rfl⟩ := h; exact hfin
      · cases hc : mbuf_base_frame_create_ancillary_internal aenv w.anc frame.base n v
            len false none with
        | none => rw [hc] at h; simp at h
        | some r =>
          rw [hc] at h
          simp only [Option.map_some', Function.comp, Option.some.injEq, Prod.mk.injEq] at h
          obtain ⟨_, _, rfl⟩ := h
          obtain ⟨r1, r2, r3⟩ := r
          exact (create_ancillary_internal_keeps hc).trans hfin
  | add_ancillary_buffer_with_cbs aenv name buffer len cbs =>
    simp only [coded_step, anc_result, mbuf_coded_video_frame_add_ancillary_buffer_with_cbs,
      mbuf_base_frame_add_ancillary_buffer_with_cbs] at h
    cases name <;> cases buffer <;>
      simp only [Option.map_some', Option.map_map, Option.some.injEq, Prod.mk.injEq] at h
    · obtain ⟨_, _, rfl⟩ := h; exact hfin
    · obtain ⟨_, _, rfl⟩ := h; exact hfin
    · obtain ⟨_, _, rfl⟩ := h; exact hfin
    · rename_i n v
      split at h
      · simp only [Option.map_some', Option.some.injEq, Prod.mk.injEq] at h
        obtain ⟨_, _, rfl⟩ := h; exact hfin
      · cases hc : mbuf_base_frame_create_ancillary_internal aenv w.anc frame.base n v
            len false cbs with
        | none => rw [hc] at h; simp at h
        | some r =>
          rw [hc] at h
          simp only [Option.map_some', Function.comp, Option.some.injEq, Prod.mk.injEq] at h
          obtain ⟨_, _, rfl⟩ := h
          obtain ⟨r1, r2, r3⟩ := r
          exact (create_ancillary_internal_keeps hc).trans hfin
  | add_ancillary_data calloc_holder data =>
    simp only [coded_step, anc_result, mbuf_coded_video_frame_add_ancillary_data,
      mbuf_base_frame_add_ancillary_data] at h
    cases data <;>
      simp only [Option.map_some', Option.map_map, Option.some.injEq, Prod.mk.injEq] at h
    · obtain ⟨_, _, rfl⟩ := h; exact hfin
    · rename_i d
      cases hc : mbuf_base_frame_add_ancillary_internal calloc_holder w.anc frame.base d with
      | none => rw [hc] at h; simp at h
      | some r =>
        rw [hc] at h
        simp only [Option.map_some', Function.comp, Option.some.injEq, Prod.mk.injEq] at h
        obtain ⟨_, _, rfl⟩ := h
        obtain ⟨r1, r2, r3⟩ := r
        exact (add_ancillary_internal_keeps hc).trans hfin
  | get_ancillary_data name =>
    simp only [coded_step] at h
    cases hc : mbuf_coded_video_frame_get_ancillary_data w.anc frame name with
    | none => rw [hc] at h; simp at h
    | some r =>
      rw [hc] at h
      simp only [Option.map_some', Option.some.injEq, Prod.mk.injEq] at h
      obtain ⟨_, _, rfl⟩ := h
      exact hfin
  | remove_ancillary_data name =>
    simp only [coded_step, anc_result, mbuf_coded_video_frame_remove_ancillary_data] at h
    cases name <;>
      simp only [Option.map_some', Option.map_map, Option.some.injEq, Prod.mk.injEq] at h
    · obtain ⟨_, _, rfl⟩ := h; exact hfin
    · rename_i n
      cases hc : mbuf_base_frame_remove_ancillary_data w.anc frame.base n with
      | none => rw [hc] at h; simp at h
      | some r =>
        rw [hc] at h
        simp only [Option.map_some', Function.comp, Option.some.injEq, Prod.mk.injEq] at h
        obtain ⟨_, _, rfl⟩ := h
        obtain ⟨r1, r2, r3⟩ := r
        exact (remove_ancillary_data_keeps hc).trans hfin

set_option linter.unusedTactic true
set_option linter.unreachableTactic true
theorem audio_run_finalized (ops : List (frame_env × audio_op)) :
    ∀ {w w1 : frame_world} {frame frame1 : mbuf_audio_frame},
      audio_run ops w frame = some (w1, frame1) → frame.base.finalized = true →
      frame1.base.finalized = true := by
  induction ops with
  | nil =>
    intro w w1 frame frame1 h hfin
    simp only [audio_run, Option.some.injEq, Prod.mk.injEq] at h
    rw [← h.2]; exact hfin
  | cons x rest ih =>
    intro w w1 frame frame1 h hfin
    obtain ⟨env, op⟩ := x
    simp only [audio_run] at h
    split at h
    · rename_i hs
      exact ih h (audio_step_finalized hs hfin)
    · exact absurd h (by simp)

theorem raw_run_finalized (ops : List (frame_env × raw_op)) :
    ∀ {w w1 : frame_world} {frame frame1 : mbuf_raw_video_frame},
      raw_run ops w frame = some (w1, frame1) → frame.base.finalized = true →
      frame1.base.finalized = true := by
  induction ops with
  | nil =>
    intro w w1 frame frame1 h hfin
    simp only [raw_run, Option.some.injEq, Prod.mk.injEq] at h
    rw [← h.2]; exact hfin
  | cons x rest ih =>
    intro w w1 frame frame1 h hfin
    obtain ⟨env, op⟩ := x
    simp only [raw_run] at h
    split at h
    · rename_i hs
      exact ih h (raw_step_finalized hs hfin)
    · exact absurd h (by simp)

theorem coded_run_finalized (ops : List (frame_env × coded_op)) :
    ∀ {w w1 : frame_world} {frame frame1 : mbuf_coded_video_frame},
      coded_run ops w frame = some (w1, frame1) → frame.base.finalized = true →
      frame1.base.finalized = true := by
  induction ops with
  | nil =>
    intro w w1 frame frame1 h hfin
    simp only [coded_run, Option.some.injEq, Prod.mk.injEq] at h
    rw [← h.2]; exact hfin
  | cons x rest ih =>
    intro w w1 frame frame1 h hfin
    obtain ⟨env, op⟩ := x
    simp only [coded_run] at h
    split at h
    · rename_i hs
      exact ih h (coded_step_finalized hs hfin)
    · exact absurd h (by simp)

theorem mbuf_audio_frame_finalize_ok {frame : mbuf_audio_frame}
    (h : (mbuf_audio_frame_finalize frame).1 = 0) :
    (mbuf_audio_frame_finalize frame).2.base.finalized = true := by
  unfold mbuf_audio_frame_finalize at h ⊢
  split
  · rename_i c
    rw [if_pos c] at h
    exact absurd h eproto_ne_zero
  · rfl

theorem mbuf_raw_video_frame_finalize_ok {frame frame1 : mbuf_raw_video_frame}
    (h : mbuf_raw_video_frame_finalize frame = some (0, frame1)) :
    frame1.base.finalized = true := by
  unfold mbuf_raw_video_frame_finalize at h
  split at h
  · exact absurd h (by simp)
  · simp only [Option.some.injEq, Prod.mk.injEq] at h
    exact absurd h.1 eproto_ne_zero
  · simp only [Option.some.injEq, Prod.mk.injEq] at h
    rw [← h.2]; rfl

theorem mbuf_coded_video_frame_finalize_ok {frame : mbuf_coded_video_frame}
    (h : (mbuf_coded_video_frame_finalize frame).1 = 0) :
    (mbuf_coded_video_frame_finalize frame).2.base.finalized = true := by
  unfold mbuf_coded_video_frame_finalize at h ⊢
  split
  · rename_i c
    rw [if_pos c] at h
    exact absurd h eproto_ne_zero
  · rfl

/-- C12: once finalize has returned 0 on a frame of any of the three kinds,
then after any further calls on the frame (with any answers of the
environment) the finalized flag is still set, and every mutating call with
arguments that are valid otherwise (`mbuf_audio_frame_set_buffer`,
`mbuf_raw_video_frame_set_plane` on a plane below the plane count,
`mbuf_coded_video_frame_add_nalu`, `mbuf_coded_video_frame_insert_nalu`, and
`set_frame_info` and `set_callbacks` of the kind) returns `-EBUSY` and gives
back the chunks (reference counts included) and the frame (payload, frame
info and callbacks included) as they were. -/
theorem mbuf_frame_finalized_is_final :
    (∀ (frame0 frame : mbuf_audio_frame) (ops : List (frame_env × audio_op))
        (w w1 : frame_world),
      (mbuf_audio_frame_finalize frame0).1 = 0 →
      audio_run ops w (mbuf_audio_frame_finalize frame0).2 = some (w1, frame) →
      frame.base.finalized = true ∧
      (∀ sp data s m offset len,
        mbuf_audio_frame_set_buffer sp data s frame (some m) offset len =
          some (-EBUSY, s, frame)) ∧
      (∀ info, mbuf_audio_frame_set_frame_info frame (some info) = (-EBUSY, frame)) ∧
      (∀ cbs, mbuf_audio_frame_set_callbacks frame (some cbs) = (-EBUSY, frame))) ∧
    (∀ (frame0 frame1 frame : mbuf_raw_video_frame) (ops : List (frame_env × raw_op))
        (w w1 : frame_world),
      mbuf_raw_video_frame_finalize frame0 = some (0, frame1) →
      raw_run ops w frame1 = some (w1, frame) →
      frame.base.finalized = true ∧
      (∀ sp data s plane m offset len, plane < frame.nplanes →
        mbuf_raw_video_frame_set_plane sp data s frame plane (some m) offset len =
          some (-EBUSY, s, frame)) ∧
      (∀ info, mbuf_raw_video_frame_set_frame_info frame (some info) =
        some (-EBUSY, frame)) ∧
      (∀ cbs, mbuf_raw_video_frame_set_callbacks frame (some cbs) = (-EBUSY, frame))) ∧
    (∀ (frame0 frame : mbuf_coded_video_frame) (ops : List (frame_env × coded_op))
        (w w1 : frame_world),
      (mbuf_coded_video_frame_finalize frame0).1 = 0 →
      coded_run ops w (mbuf_coded_video_frame_finalize frame0).2 = some (w1, frame) →
      frame.base.finalized = true ∧
      (∀ realloc_ok data s m offset nalu,
        mbuf_coded_video_frame_add_nalu realloc_ok data s frame (some m) offset (some nalu) =
          some (-EBUSY, s, frame)) ∧
      (∀ realloc_ok data s m offset nalu index,
        mbuf_coded_video_frame_insert_nalu realloc_ok data s frame (some m) offset (some nalu)
          index = some (-EBUSY, s, frame)) ∧
      (∀ info, mbuf_coded_video_frame_set_frame_info frame (some info) = (-EBUSY, frame)) ∧
      (∀ cbs, mbuf_coded_video_frame_set_callbacks frame (some cbs) = (-EBUSY, frame))) := by
  refine ⟨?_, ?_, ?_⟩
  · intro frame0 frame ops w w1 h0 hrun
    have hfin := audio_run_finalized ops hrun (mbuf_audio_frame_finalize_ok h0)
    refine ⟨hfin, ?_, ?_, ?_⟩
    · intro sp data s m offset len
      simp [mbuf_audio_frame_set_buffer, mbuf_base_frame_is_finalized, hfin]
    · intro info
      simp [mbuf_audio_frame_set_frame_info, mbuf_base_frame_is_finalized, hfin]
    · intro cbs
      simp [mbuf_audio_frame_set_callbacks, mbuf_base_frame_is_finalized, hfin]
  · intro frame0 frame1 frame ops w w1 h0 hrun
    have hfin := raw_run_finalized ops hrun (mbuf_raw_video_frame_finalize_ok h0)
    refine ⟨hfin, ?_, ?_, ?_⟩
    · intro sp data s plane m offset len hp
      have hp1 : ¬ (plane ≥ frame.nplanes) := by omega
      simp [mbuf_raw_video_frame_set_plane, mbuf_base_frame_is_finalized, hfin, hp1]
    · intro info
      simp [mbuf_raw_video_frame_set_frame_info, mbuf_base_frame_is_finalized, hfin]
    · intro cbs
      simp [mbuf_raw_video_frame_set_callbacks, mbuf_base_frame_is_finalized, hfin]
  · intro frame0 frame ops w w1 h0 hrun
    have hfin := coded_run_finalized ops hrun (mbuf_coded_video_frame_finalize_ok h0)
    refine ⟨hfin, ?_, ?_, ?_, ?_⟩
    · intro realloc_ok data s m offset nalu
      simp [mbuf_coded_video_frame_add_nalu, mbuf_base_frame_is_finalized, hfin]
    · intro realloc_ok data s m offset nalu index
      simp [mbuf_coded_video_frame_insert_nalu, mbuf_base_frame_is_finalized, hfin]
    · intro info
      simp [mbuf_coded_video_frame_set_frame_info, mbuf_base_frame_is_finalized, hfin]
    · intro cbs
      simp [mbuf_coded_video_frame_set_callbacks, mbuf_base_frame_is_finalized, hfin]

/-! ### Finalize and the completeness of the payload -/

theorem planes_all_set_true : ∀ (planes : List frame_buffer) (n : Nat),
    n ≤ planes.length → (∀ i, i < n → plane_set planes i) →
    planes_all_set planes n = some true := by
  intro planes
  induction planes with
  | nil =>
    intro n hn _
    have : n = 0 := by simpa using hn
    subst this
    rfl
  | cons p rest ih =>
    intro n hn hall
    cases n with
    | zero => rfl
    | succ k =>
      obtain ⟨q, hq, hm⟩ := hall 0 (by omega)
      simp only [List.get?_cons_zero, Option.some.injEq] at hq
      subst hq
      simp only [planes_all_set, if_neg hm]
      apply ih k (by simpa using hn)
      intro i hi
      obtain ⟨q, hq, hm1⟩ := hall (i + 1) (by omega)
      exact ⟨q, by simpa using hq, hm1⟩

theorem planes_all_set_false : ∀ (planes : List frame_buffer) (n : Nat),
    n ≤ planes.length → (∃ i, i < n ∧ ¬ plane_set planes i) →
    planes_all_set planes n = some false := by
  intro planes
  induction planes with
  | nil =>
    intro n hn hex
    obtain ⟨i, hi, _⟩ := hex
    have : n = 0 := by simpa using hn
    omega
  | cons p rest ih =>
    intro n hn hex
    cases n with
    | zero =>
      obtain ⟨i, hi, _⟩ := hex
      omega
    | succ k =>
      simp only [planes_all_set]
      split
      · rfl
      · rename_i hm
        apply ih k (by simpa using hn)
        obtain ⟨i, hi, hns⟩ := hex
        cases i with
        | zero => exact absurd ⟨p, rfl, hm⟩ hns
        | succ j =>
          refine ⟨j, by omega, ?_⟩
          intro ⟨q, hq, hm1⟩
          exact hns ⟨q, by simpa using hq, hm1⟩

/-- C13, as the code has it: finalize on a frame whose payload is incomplete
(audio: no buffer; raw video: a plane below the plane count without a chunk;
coded video: zero NALUs) returns `-EPROTO`, and the frame is as before the
call, so a frame that was not finalized is still not finalized. -/
theorem mbuf_frame_finalize_incomplete :
    (∀ frame : mbuf_audio_frame, frame.buffer.mem = none →
      mbuf_audio_frame_finalize frame = (-EPROTO, frame)) ∧
    (∀ frame : mbuf_raw_video_frame, frame.nplanes ≤ frame.planes.length →
      (∃ i, i < frame.nplanes ∧ ¬ plane_set frame.planes i) →
      mbuf_raw_video_frame_finalize frame = some (-EPROTO, frame)) ∧
    (∀ frame : mbuf_coded_video_frame, frame.nnalus = 0 →
      mbuf_coded_video_frame_finalize frame = (-EPROTO, frame)) := by
  refine ⟨?_, ?_, ?_⟩
  · intro frame h
    simp [mbuf_audio_frame_finalize, h]
  · intro frame hn hex
    simp [mbuf_raw_video_frame_finalize, planes_all_set_false _ _ hn hex]
  · intro frame h
    simp [mbuf_coded_video_frame_finalize, h]

/-- C13, the claim as stated fails: on the audio frame that
`mbuf_audio_frame_new` returns, which has no buffer, `mbuf_audio_frame_finalize`
returns `-EPROTO`, which is not `-EBUSY`. -/
theorem mbuf_audio_frame_finalize_not_busy :
    mbuf_audio_frame_new true (some audio_info) = (0, some fresh_audio_frame) ∧
      fresh_audio_frame.buffer.mem = none ∧
      mbuf_audio_frame_finalize fresh_audio_frame = (-EPROTO, fresh_audio_frame) ∧
      (mbuf_audio_frame_finalize fresh_audio_frame).1 ≠ -EBUSY := by
  decide

/-! ### What a successful mutation does -/

theorem mbuf_mem_ref_ret {s s1 : mbuf_state} {m : Nat} {ret : Int}
    (h : mbuf_mem_ref s m = some (ret, s1)) : ret = 0 := by
  unfold mbuf_mem_ref at h
  split at h
  · exact absurd h (by simp)
  · simp only [Option.some.injEq, Prod.mk.injEq] at h
    exact h.1.symm

theorem mbuf_mem_unref_ret {sp : Nat} {s s1 : mbuf_state} {m : Nat} {ret : Int}
    (h : mbuf_mem_unref sp s m = some (ret, s1)) : ret = 0 := by
  unfold mbuf_mem_unref at h
  split at h
  · exact absurd h (by simp)
  · simp only [Option.some.injEq, Prod.mk.injEq] at h
    exact h.1.symm

/-- On a frame that is not finalized `mbuf_audio_frame_set_buffer` with a
chunk, when its result is defined, returns 0: the chunk of the slot, if any,
has been unref'ed, then the new chunk ref'ed, and the slot describes the new
segment. -/
theorem mbuf_audio_frame_set_buffer_ok {sp : Nat} {data : Nat → Nat} {s s2 : mbuf_state}
    {frame frame2 : mbuf_audio_frame} {m offset len : Nat} {ret : Int}
    (hfin : frame.base.finalized = false)
    (h : mbuf_audio_frame_set_buffer sp data s frame (some m) offset len =
      some (ret, s2, frame2)) :
    ret = 0 ∧
      frame2 = { frame with buffer := { mem := some m, data := data m + offset, len := len } } ∧
      ∃ s1, (match frame.buffer.mem with
          | some old => mbuf_mem_unref sp s old = some (0, s1)
          | none => s1 = s) ∧
        mbuf_mem_ref s1 m = some (0, s2) := by
  simp only [mbuf_audio_frame_set_buffer, mbuf_base_frame_is_finalized, hfin,
    Bool.false_eq_true, if_false] at h
  cases hold : frame.buffer.mem with
  | none =>
    simp only [hold] at h
    cases hr : mbuf_mem_ref s m with
    | none => simp [hr] at h
    | some r =>
      obtain ⟨r1, s3⟩ := r
      have h0 := mbuf_mem_ref_ret hr
      subst h0
      simp only [hr, ne_eq, not_true_eq_false, if_false, Option.some.injEq,
        Prod.mk.injEq] at h
      obtain ⟨rfl, rfl, rfl⟩ := h
      exact ⟨rfl, rfl, s, rfl, hr⟩
  | some old =>
    simp only [hold] at h
    cases hu : mbuf_mem_unref sp s old with
    | none => simp [hu] at h
    | some u =>
      obtain ⟨u1, s1⟩ := u
      have h0 := mbuf_mem_unref_ret hu
      subst h0
      simp only [hu, ne_eq, not_true_eq_false, if_false] at h
      cases hr : mbuf_mem_ref s1 m with
      | none => simp [hr] at h
      | some r =>
        obtain ⟨r1, s3⟩ := r
        have h0 := mbuf_mem_ref_ret hr
        subst h0
        simp only [hr, ne_eq, not_true_eq_false, if_false, Option.some.injEq,
          Prod.mk.injEq] at h
        obtain ⟨rfl, rfl, rfl⟩ := h
        exact ⟨rfl, rfl, s1, hu, hr⟩

/-- The same for `mbuf_raw_video_frame_set_plane` on a plane below the plane
count. -/
theorem mbuf_raw_video_frame_set_plane_ok {sp : Nat} {data : Nat → Nat} {s s2 : mbuf_state}
    {frame frame2 : mbuf_raw_video_frame} {plane m offset len : Nat} {ret : Int}
    (hfin : frame.base.finalized = false) (hp : plane < frame.nplanes)
    (h : mbuf_raw_video_frame_set_plane sp data s frame plane (some m) offset len =
      some (ret, s2, frame2)) :
    ret = 0 ∧
      frame2 =
        { frame with planes := frame.planes.set plane ⟨some m, data m + offset, len⟩ } ∧
      ∃ slot s1, frame.planes.get? plane = some slot ∧
        (match slot.mem with
          | some old => mbuf_mem_unref sp s old = some (0, s1)
          | none => s1 = s) ∧
        mbuf_mem_ref s1 m = some (0, s2) := by
  have hp1 : ¬ (plane ≥ frame.nplanes) := by omega
  unfold mbuf_raw_video_frame_set_plane at h
  simp only [mbuf_base_frame_is_finalized, hfin, Bool.false_eq_true, if_false,
    if_neg hp1] at h
  cases hslot : frame.planes.get? plane with
  | none =>
    rw [hslot] at h
    exact absurd h (by simp)
  | some slot =>
    rw [hslot] at h
    simp only [] at h
    cases hold : slot.mem with
    | none =>
      simp only [hold] at h
      cases hr : mbuf_mem_ref s m with
      | none => simp [hr] at h
      | some r =>
        obtain ⟨r1, s3⟩ := r
        have h0 := mbuf_mem_ref_ret hr
        subst h0
        simp only [hr, ne_eq, not_true_eq_false, if_false, Option.some.injEq,
          Prod.mk.injEq] at h
        obtain ⟨rfl, rfl, rfl⟩ := h
        exact ⟨rfl, rfl, slot, s, rfl, by simp only [hold], hr⟩
    | some old =>
      simp only [hold] at h
      cases hu : mbuf_mem_unref sp s old with
      | none => simp [hu] at h
      | some u =>
        obtain ⟨u1, s1⟩ := u
        have h0 := mbuf_mem_unref_ret hu
        subst h0
        simp only [hu, ne_eq, not_true_eq_false, if_false] at h
        cases hr : mbuf_mem_ref s1 m with
        | none => simp [hr] at h
        | some r =>
          obtain ⟨r1, s3⟩ := r
          have h0 := mbuf_mem_ref_ret hr
          subst h0
          simp only [hr, ne_eq, not_true_eq_false, if_false, Option.some.injEq,
            Prod.mk.injEq, List.set_set] at h
          obtain ⟨rfl, rfl, rfl⟩ := h
          exact ⟨rfl, rfl, slot, s1, rfl, by simp only [hold]; exact hu, hr⟩

/-- The same for `mbuf_coded_video_frame_insert_nalu_internal` when `realloc`
succeeds: the NALU is inserted at `min index nnalus`. -/
theorem mbuf_coded_video_frame_insert_nalu_internal_ok {data : Nat → Nat}
    {s s2 : mbuf_state} {frame frame2 : mbuf_coded_video_frame} {m offset index : Nat}
    {nalu : vdef_nalu} {ret : Int}
    (h : mbuf_coded_video_frame_insert_nalu_internal true data s frame m offset nalu index =
      some (ret, s2, frame2)) :
    ret = 0 ∧ mbuf_mem_ref s m = some (0, s2) ∧
      frame2.nnalus = wrap_uint (frame.nnalus + 1) ∧
      frame2.nalus = frame.nalus.take (min index frame.nnalus) ++
        [{ mem := m, nalu := nalu, data := data m + offset }] ++
        (frame.nalus.drop (min index frame.nnalus)).take
          (frame.nnalus - min index frame.nnalus) ∧
      frame2.base = frame.base ∧ frame2.info = frame.info ∧ frame2.cbs = frame.cbs := by
  have hmin : (if index > frame.nnalus then frame.nnalus else index) = min index frame.nnalus := by
    split <;> omega
  simp only [mbuf_coded_video_frame_insert_nalu_internal, Bool.not_true, Bool.false_eq_true,
    if_false, hmin] at h
  cases hr : mbuf_mem_ref s m with
  | none => simp [hr] at h
  | some r =>
    obtain ⟨r1, s3⟩ := r
    have h0 := mbuf_mem_ref_ret hr
    subst h0
    simp only [hr, ne_eq, not_true_eq_false, if_false, Option.some.injEq,
      Prod.mk.injEq] at h
    obtain ⟨rfl, rfl, rfl⟩ := h
    exact ⟨rfl, rfl, rfl, rfl, rfl, rfl, rfl⟩

theorem wrap_uint_succ_ne_zero {n : Nat} (h : n < UINT32_MAX) : wrap_uint (n + 1) ≠ 0 := by
  simp only [UINT32_MAX] at h
  rw [wrap_uint_of_lt (by omega)]
  omega

/-- C14: for each kind of frame, finalize returns 0 and sets the finalized flag
exactly when the payload is complete (audio: the buffer has a chunk; raw video,
with a plane count within the array: every plane below the plane count has a
chunk; coded video: the number of NALUs is not 0); on an incomplete payload it
returns `-EPROTO` and the frame is as before; and once a successful
`mbuf_audio_frame_set_buffer`, `mbuf_raw_video_frame_set_plane` (the other
planes being set) or `mbuf_coded_video_frame_add_nalu` (on fewer than
`UINT32_MAX` NALUs) has completed the payload, finalize returns 0 and sets the
flag. -/
theorem mbuf_frame_finalize_spec :
    (∀ frame : mbuf_audio_frame,
      ((mbuf_audio_frame_finalize frame).1 = 0 ↔ frame.buffer.mem ≠ none) ∧
      (frame.buffer.mem ≠ none →
        mbuf_audio_frame_finalize frame =
          (0, { frame with base := { frame.base with finalized := true } })) ∧
      (frame.buffer.mem = none → mbuf_audio_frame_finalize frame = (-EPROTO, frame)) ∧
      (∀ sp data s s2 frame2 m offset len ret, frame.base.finalized = false →
        mbuf_audio_frame_set_buffer sp data s frame (some m) offset len =
          some (ret, s2, frame2) →
        mbuf_audio_frame_finalize frame2 =
          (0, { frame2 with base := { frame2.base with finalized := true } }))) ∧
    (∀ frame : mbuf_raw_video_frame, frame.nplanes ≤ frame.planes.length →
      ((∃ frame1, mbuf_raw_video_frame_finalize frame = some (0, frame1)) ↔
        ∀ i, i < frame.nplanes → plane_set frame.planes i) ∧
      ((∀ i, i < frame.nplanes → plane_set frame.planes i) →
        mbuf_raw_video_frame_finalize frame =
          some (0, { frame with base := { frame.base with finalized := true } })) ∧
      ((∃ i, i < frame.nplanes ∧ ¬ plane_set frame.planes i) →
        mbuf_raw_video_frame_finalize frame = some (-EPROTO, frame)) ∧
      (∀ sp data s s2 frame2 plane m offset len ret, frame.base.finalized = false →
        plane < frame.nplanes →
        (∀ j, j < frame.nplanes → j ≠ plane → plane_set frame.planes j) →
        mbuf_raw_video_frame_set_plane sp data s frame plane (some m) offset len =
          some (ret, s2, frame2) →
        mbuf_raw_video_frame_finalize frame2 =
          some (0, { frame2 with base := { frame2.base with finalized := true } }))) ∧
    (∀ frame : mbuf_coded_video_frame,
      ((mbuf_coded_video_frame_finalize frame).1 = 0 ↔ frame.nnalus ≠ 0) ∧
      (frame.nnalus ≠ 0 →
        mbuf_coded_video_frame_finalize frame =
          (0, { frame with base := { frame.base with finalized := true } })) ∧
      (frame.nnalus = 0 → mbuf_coded_video_frame_finalize frame = (-EPROTO, frame)) ∧
      (∀ data s s2 frame2 m offset nalu, frame.base.finalized = false →
        frame.nnalus < UINT32_MAX →
        mbuf_coded_video_frame_add_nalu true data s frame (some m) offset (some nalu) =
          some (0, s2, frame2) →
        mbuf_coded_video_frame_finalize frame2 =
          (0, { frame2 with base := { frame2.base with finalized := true } }))) := by
  refine ⟨?_, ?_, ?_⟩
  · intro frame
    have hset : frame.buffer.mem ≠ none →
        mbuf_audio_frame_finalize frame =
          (0, { frame with base := { frame.base with finalized := true } }) := by
      intro h
      simp [mbuf_audio_frame_finalize, h, mbuf_base_frame_finalize]
    have hunset : frame.buffer.mem = none →
        mbuf_audio_frame_finalize frame = (-EPROTO, frame) := by
      intro h
      simp [mbuf_audio_frame_finalize, h]
    refine ⟨⟨?_, fun h => by rw [hset h]⟩, hset, hunset, ?_⟩
    · intro h0 hn
      rw [hunset hn] at h0
      exact eproto_ne_zero h0
    · intro sp data s s2 frame2 m offset len ret hfin hs
      obtain ⟨_, rfl, _⟩ := mbuf_audio_frame_set_buffer_ok hfin hs
      simp [mbuf_audio_frame_finalize, mbuf_base_frame_finalize]
  · intro frame hn
    have hset : (∀ i, i < frame.nplanes → plane_set frame.planes i) →
        mbuf_raw_video_frame_finalize frame =
          some (0, { frame with base := { frame.base with finalized := true } }) := by
      intro h
      simp [mbuf_raw_video_frame_finalize, planes_all_set_true _ _ hn h,
        mbuf_base_frame_finalize]
    have hunset : (∃ i, i < frame.nplanes ∧ ¬ plane_set frame.planes i) →
        mbuf_raw_video_frame_finalize frame = some (-EPROTO, frame) := by
      intro h
      simp [mbuf_raw_video_frame_finalize, planes_all_set_false _ _ hn h]
    refine ⟨⟨?_, fun h => ⟨_, hset h⟩⟩, hset, hunset, ?_⟩
    · intro ⟨frame1, h0⟩
      by_contra hne
      push_neg at hne
      rw [hunset hne] at h0
      simp only [Option.some.injEq, Prod.mk.injEq] at h0
      exact eproto_ne_zero h0.1
    · intro sp data s s2 frame2 plane m offset len ret hfin hp hothers hs
      obtain ⟨_, rfl, _⟩ := mbuf_raw_video_frame_set_plane_ok hfin hp hs
      have hall : ∀ i, i < frame.nplanes →
          plane_set (frame.planes.set plane ⟨some m, data m + offset, len⟩) i := by
        intro i hi
        by_cases e : i = plane
        · subst e
          refine ⟨⟨some m, data m + offset, len⟩, ?_, by simp⟩
          rw [List.get?_eq_getElem?, List.getElem?_set_self (by omega)]
        · obtain ⟨q, hq, hm⟩ := hothers i hi e
          refine ⟨q, ?_, hm⟩
          rw [List.get?_eq_getElem?] at hq ⊢
          rw [List.getElem?_set_ne (fun x => e x.symm)]
          exact hq
      simp [mbuf_raw_video_frame_finalize,
        planes_all_set_true _ _ (by simpa using hn) hall, mbuf_base_frame_finalize]
  · intro frame
    have hset : frame.nnalus ≠ 0 →
        mbuf_coded_video_frame_finalize frame =
          (0, { frame with base := { frame.base with finalized := true } }) := by
      intro h
      simp [mbuf_coded_video_frame_finalize, h, mbuf_base_frame_finalize]
    have hunset : frame.nnalus = 0 →
        mbuf_coded_video_frame_finalize frame = (-EPROTO, frame) := by
      intro h
      simp [mbuf_coded_video_frame_finalize, h]
    refine ⟨⟨?_, fun h => by rw [hset h]⟩, hset, hunset, ?_⟩
    · intro h0 hn
      rw [hunset hn] at h0
      exact eproto_ne_zero h0
    · intro data s s2 frame2 m offset nalu hfin hlt hs
      simp only [mbuf_coded_video_frame_add_nalu, mbuf_base_frame_is_finalized, hfin,
        Bool.false_eq_true, if_false] at hs
      obtain ⟨_, _, hn, _⟩ := mbuf_coded_video_frame_insert_nalu_internal_ok hs
      have hne : frame2.nnalus ≠ 0 := by
        rw [hn]
        exact wrap_uint_succ_ne_zero hlt
      simp [mbuf_coded_video_frame_finalize, hne, mbuf_base_frame_finalize]

/-! ### Metadata -/

theorem mbuf_base_frame_set_metadata_ok (log : List vmeta_call) (frame : mbuf_base_frame)
    (m : Nat) :
    mbuf_base_frame_set_metadata vmeta_ok log frame (some m) =
      (0,
        (match frame.meta with
          | some old => log ++ [vmeta_call.unref old]
          | none => log) ++ [vmeta_call.ref m],
        { frame with meta := some m }) := by
  unfold mbuf_base_frame_set_metadata
  cases frame.meta <;> simp [vmeta_ok]

/-- C15, as the code has it, for raw and coded video frames and a metadata
library whose calls return 0.  On a frame that is not finalized
`set_metadata` with metadata `m` returns 0, drops the reference on the
metadata set before, if any, takes one on `m` and stores `m`; on a finalized
frame it returns `-EBUSY` and changes nothing.  On a finalized frame
`get_metadata` returns 0 with the stored metadata and takes one reference on
it, or returns `-ENOENT` when there is none; on a frame that is not finalized
it returns `-EBUSY`.  Hence the metadata set before a successful finalize is
the one a following `get_metadata` returns. -/
theorem mbuf_frame_metadata_spec :
    (∀ (frame : mbuf_coded_video_frame) (log : List vmeta_call) (m : Nat),
      (frame.base.finalized = false →
        mbuf_coded_video_frame_set_metadata vmeta_ok log frame (some m) =
          (0,
            (match frame.base.meta with
              | some old => log ++ [vmeta_call.unref old]
              | none => log) ++ [vmeta_call.ref m],
            { frame with base := { frame.base with meta := some m } })) ∧
      (frame.base.finalized = true →
        mbuf_coded_video_frame_set_metadata vmeta_ok log frame (some m) =
          (-EBUSY, log, frame)) ∧
      (frame.base.finalized = true → frame.base.meta = some m →
        mbuf_coded_video_frame_get_metadata vmeta_ok log frame =
          (0, some m, log ++ [vmeta_call.ref m])) ∧
      (frame.base.finalized = true → frame.base.meta = none →
        mbuf_coded_video_frame_get_metadata vmeta_ok log frame = (-ENOENT, none, log)) ∧
      (frame.base.finalized = false →
        mbuf_coded_video_frame_get_metadata vmeta_ok log frame = (-EBUSY, none, log)) ∧
      (∀ log1, frame.base.finalized = false →
        (mbuf_coded_video_frame_finalize
          (mbuf_coded_video_frame_set_metadata vmeta_ok log frame (some m)).2.2).1 = 0 →
        mbuf_coded_video_frame_get_metadata vmeta_ok log1
            (mbuf_coded_video_frame_finalize
              (mbuf_coded_video_frame_set_metadata vmeta_ok log frame (some m)).2.2).2 =
          (0, some m, log1 ++ [vmeta_call.ref m]))) ∧
    (∀ (frame : mbuf_raw_video_frame) (log : List vmeta_call) (m : Nat),
      (frame.base.finalized = false →
        mbuf_raw_video_frame_set_metadata vmeta_ok log frame (some m) =
          (0,
            (match frame.base.meta with
              | some old => log ++ [vmeta_call.unref old]
              | none => log) ++ [vmeta_call.ref m],
            { frame with base := { frame.base with meta := some m } })) ∧
      (frame.base.finalized = true →
        mbuf_raw_video_frame_set_metadata vmeta_ok log frame (some m) =
          (-EBUSY, log, frame)) ∧
      (frame.base.finalized = true → frame.base.meta = some m →
        mbuf_raw_video_frame_get_metadata vmeta_ok log frame =
          (0, some m, log ++ [vmeta_call.ref m])) ∧
      (frame.base.finalized = true → frame.base.meta = none →
        mbuf_raw_video_frame_get_metadata vmeta_ok log frame = (-ENOENT, none, log)) ∧
      (frame.base.finalized = false →
        mbuf_raw_video_frame_get_metadata vmeta_ok log frame = (-EBUSY, none, log)) ∧
      (∀ log1 frame1, frame.base.finalized = false →
        mbuf_raw_video_frame_finalize
          (mbuf_raw_video_frame_set_metadata vmeta_ok log frame (some m)).2.2 =
            some (0, frame1) →
        mbuf_raw_video_frame_get_metadata vmeta_ok log1 frame1 =
          (0, some m, log1 ++ [vmeta_call.ref m]))) := by
  refine ⟨?_, ?_⟩
  · intro frame log m
    have hset : frame.base.finalized = false →
        mbuf_coded_video_frame_set_metadata vmeta_ok log frame (some m) =
          (0,
            (match frame.base.meta with
              | some old => log ++ [vmeta_call.unref old]
              | none => log) ++ [vmeta_call.ref m],
            { frame with base := { frame.base with meta := some m } }) := by
      intro hfin
      simp only [mbuf_coded_video_frame_set_metadata, mbuf_base_frame_is_finalized, hfin,
        Bool.false_eq_true, if_false, mbuf_base_frame_set_metadata_ok]
    have hget : ∀ (f : mbuf_coded_video_frame) (l : List vmeta_call),
        f.base.finalized = true → f.base.meta = some m →
        mbuf_coded_video_frame_get_metadata vmeta_ok l f =
          (0, some m, l ++ [vmeta_call.ref m]) := by
      intro f l hfin hm
      simp [mbuf_coded_video_frame_get_metadata, mbuf_base_frame_is_finalized, hfin,
        mbuf_base_frame_get_metadata, hm, vmeta_ok]
    refine ⟨hset, ?_, hget frame log, ?_, ?_, ?_⟩
    · intro hfin
      simp [mbuf_coded_video_frame_set_metadata, mbuf_base_frame_is_finalized, hfin]
    · intro hfin hm
      simp [mbuf_coded_video_frame_get_metadata, mbuf_base_frame_is_finalized, hfin,
        mbuf_base_frame_get_metadata, hm]
    · intro hfin
      simp [mbuf_coded_video_frame_get_metadata, mbuf_base_frame_is_finalized, hfin]
    · intro log1 hfin h0
      rw [hset hfin] at h0 ⊢
      apply hget _ _ (mbuf_coded_video_frame_finalize_ok h0)
      simp only [mbuf_coded_video_frame_finalize, mbuf_base_frame_finalize]
      split <;> rfl
  · intro frame log m
    have hset : frame.base.finalized = false →
        mbuf_raw_video_frame_set_metadata vmeta_ok log frame (some m) =
          (0,
            (match frame.base.meta with
              | some old => log ++ [vmeta_call.unref old]
              | none => log) ++ [vmeta_call.ref m],
            { frame with base := { frame.base with meta := some m } }) := by
      intro hfin
      simp only [mbuf_raw_video_frame_set_metadata, mbuf_base_frame_is_finalized, hfin,
        Bool.false_eq_true, if_false, mbuf_base_frame_set_metadata_ok]
    have hget : ∀ (f : mbuf_raw_video_frame) (l : List vmeta_call),
        f.base.finalized = true → f.base.meta = some m →
        mbuf_raw_video_frame_get_metadata vmeta_ok l f =
          (0, some m, l ++ [vmeta_call.ref m]) := by
      intro f l hfin hm
      simp [mbuf_raw_video_frame_get_metadata, mbuf_base_frame_is_finalized, hfin,
        mbuf_base_frame_get_metadata, hm, vmeta_ok]
    refine ⟨hset, ?_, hget frame log, ?_, ?_, ?_⟩
    · intro hfin
      simp [mbuf_raw_video_frame_set_metadata, mbuf_base_frame_is_finalized, hfin]
    · intro hfin hm
      simp [mbuf_raw_video_frame_get_metadata, mbuf_base_frame_is_finalized, hfin,
        mbuf_base_frame_get_metadata, hm]
    · intro hfin
      simp [mbuf_raw_video_frame_get_metadata, mbuf_base_frame_is_finalized, hfin]
    · intro log1 frame1 hfin h0
      rw [hset hfin] at h0
      apply hget _ _ (mbuf_raw_video_frame_finalize_ok h0)
      unfold mbuf_raw_video_frame_finalize at h0
      split at h0
      · exact absurd h0 (by simp)
      · simp only [Option.some.injEq, Prod.mk.injEq] at h0
        exact absurd h0.1 eproto_ne_zero
      · simp only [Option.some.injEq, Prod.mk.injEq] at h0
        rw [← h0.2]
        rfl

/-- C15, the claim as stated fails.  The frame `one_nalu_frame` is what
`mbuf_coded_video_frame_add_nalu` makes of a new frame; once it is finalized,
`mbuf_coded_video_frame_set_metadata` with metadata and a metadata library
that returns 0 returns `-EBUSY` and stores nothing; and before it is
finalized, with metadata set, `mbuf_coded_video_frame_get_metadata` returns
`-EBUSY` and no metadata. -/
theorem mbuf_coded_video_frame_metadata_busy :
    (mbuf_coded_video_frame_add_nalu true demo_data taken_pool fresh_coded_frame (some 1) 0
        (some { size := 16, tag := 0 })).map (fun r => (r.1, r.2.2)) =
      some (0, one_nalu_frame) ∧
    (mbuf_coded_video_frame_finalize one_nalu_frame).1 = 0 ∧
    mbuf_coded_video_frame_set_metadata vmeta_ok []
        (mbuf_coded_video_frame_finalize one_nalu_frame).2 (some 7) =
      (-EBUSY, [], (mbuf_coded_video_frame_finalize one_nalu_frame).2) ∧
    (mbuf_coded_video_frame_set_metadata vmeta_ok [] one_nalu_frame (some 7)).1 = 0 ∧
    mbuf_coded_video_frame_get_metadata vmeta_ok []
        (mbuf_coded_video_frame_set_metadata vmeta_ok [] one_nalu_frame (some 7)).2.2 =
      (-EBUSY, none, []) := by
  decide

/-! ### Ancillary data: the heap -/

theorem find_anc_addr {objs : List mbuf_ancillary_data} {a : Nat} {d : mbuf_ancillary_data}
    (h : find_anc objs a = some d) : d.addr = a ∧ d ∈ objs := by
  induction objs with
  | nil => simp [find_anc] at h
  | cons x rest ih =>
    simp only [find_anc] at h
    split at h
    · simp only [Option.some.injEq] at h
      subst h
      exact ⟨by assumption, List.mem_cons_self _ _⟩
    · exact ⟨(ih h).1, List.mem_cons_of_mem _ (ih h).2⟩

theorem find_anc_eq_none {objs : List mbuf_ancillary_data} {a : Nat} :
    find_anc objs a = none ↔ ∀ d ∈ objs, d.addr ≠ a := by
  induction objs with
  | nil => simp [find_anc]
  | cons x rest ih =>
    simp only [find_anc, List.mem_cons, forall_eq_or_imp]
    split
    · rename_i e
      simp [e]
    · rename_i e
      simp [e, ih]

theorem find_anc_set_ref_count (objs : List mbuf_ancillary_data) (a b : Nat) (v : Int) :
    find_anc (set_ref_count objs a v) b =
      (find_anc objs b).map (fun d => if d.addr = a then { d with ref_count := v } else d) := by
  induction objs with
  | nil => rfl
  | cons x rest ih =>
    simp only [set_ref_count, find_anc]
    by_cases e1 : x.addr = a
    · simp only [e1, if_true, find_anc]
      by_cases e2 : a = b
      · simp [e2, e1]
      · simp only [e2, if_false]
        -- the rest is not changed, and no object of the rest matters
        clear ih
        induction rest with
        | nil => rfl
        | cons y rest2 ih2 =>
          simp only [find_anc]
          split
          · rename_i e3
            have : ¬ y.addr = a := fun e => e2 (e.symm.trans e3)
            simp [this]
          · exact ih2
    · simp only [e1, if_false, find_anc]
      split
      · simp [e1]
      · exact ih

theorem map_addr_set_ref_count (objs : List mbuf_ancillary_data) (a : Nat) (v : Int) :
    (set_ref_count objs a v).map (fun d => d.addr) = objs.map (fun d => d.addr) := by
  induction objs with
  | nil => rfl
  | cons x rest ih =>
    simp only [set_ref_count]
    split
    · simp
    · simp [ih]

theorem mem_set_ref_count {objs : List mbuf_ancillary_data} {a : Nat} {v : Int}
    {d : mbuf_ancillary_data} (h : d ∈ set_ref_count objs a v) :
    ∃ d0 ∈ objs, d.addr = d0.addr := by
  induction objs with
  | nil => simp [set_ref_count] at h
  | cons x rest ih =>
    simp only [set_ref_count] at h
    split at h
    · rcases List.mem_cons.1 h with e | e
      · exact ⟨x, List.mem_cons_self _ _, by rw [e]⟩
      · exact ⟨d, List.mem_cons_of_mem _ e, rfl⟩
    · rcases List.mem_cons.1 h with e | e
      · exact ⟨x, List.mem_cons_self _ _, by rw [e]⟩
      · obtain ⟨d0, hd0, e0⟩ := ih e
        exact ⟨d0, List.mem_cons_of_mem _ hd0, e0⟩

theorem free_anc_sublist (objs : List mbuf_ancillary_data) (a : Nat) :
    (free_anc objs a).Sublist objs := by
  induction objs with
  | nil => exact List.Sublist.refl _
  | cons x rest ih =>
    simp only [free_anc]
    split
    · exact List.sublist_cons_self _ _
    · exact ih.cons₂ _

theorem find_anc_free_anc_ne (objs : List mbuf_ancillary_data) {a b : Nat} (hne : b ≠ a) :
    find_anc (free_anc objs a) b = find_anc objs b := by
  induction objs with
  | nil => rfl
  | cons x rest ih =>
    simp only [free_anc]
    split
    · rename_i e
      have : ¬ x.addr = b := fun e2 => hne (e2.symm.trans e)
      simp [find_anc, this]
    · simp only [find_anc]
      split
      · rfl
      · exact ih

theorem find_anc_append (objs : List mbuf_ancillary_data) (ad : mbuf_ancillary_data)
    (b : Nat) :
    find_anc (objs ++ [ad]) b =
      match find_anc objs b with
      | some d => some d
      | none => if ad.addr = b then some ad else none := by
  induction objs with
  | nil => simp [find_anc]
  | cons x rest ih =>
    simp only [List.cons_append, find_anc]
    split
    · rfl
    · exact ih

theorem set_ref_count_append_new {objs : List mbuf_ancillary_data}
    {y : mbuf_ancillary_data} (hnew : ∀ d ∈ objs, d.addr ≠ y.addr) (v : Int) :
    set_ref_count (objs ++ [y]) y.addr v = objs ++ [{ y with ref_count := v }] := by
  induction objs with
  | nil => simp [set_ref_count]
  | cons x rest ih =>
    have hx : ¬ x.addr = y.addr := hnew x (List.mem_cons_self _ _)
    simp only [List.cons_append, set_ref_count, if_neg hx]
    exact congrArg _ (ih (fun d hd => hnew d (List.mem_cons_of_mem _ hd)))

theorem free_anc_append_new {objs : List mbuf_ancillary_data}
    {y : mbuf_ancillary_data} (hnew : ∀ d ∈ objs, d.addr ≠ y.addr) :
    free_anc (objs ++ [y]) y.addr = objs := by
  induction objs with
  | nil => simp [free_anc]
  | cons x rest ih =>
    have hx : ¬ x.addr = y.addr := hnew x (List.mem_cons_self _ _)
    simp only [List.cons_append, free_anc, if_neg hx]
    exact congrArg _ (ih (fun d hd => hnew d (List.mem_cons_of_mem _ hd)))

/-! ### Ancillary data: the walk over the holders -/

theorem holder_name_eq_some {h : anc_state} {a : Nat} {n : String}
    (e : holder_name h a = some n) : ∃ d, find_anc h.objs a = some d ∧ d.name = n := by
  unfold holder_name at e
  cases hf : find_anc h.objs a with
  | none => simp [hf] at e
  | some d =>
    simp only [hf, Option.map_some', Option.some.injEq] at e
    exact ⟨d, rfl, e⟩

theorem holder_name_of_find {h : anc_state} {a : Nat} {d : mbuf_ancillary_data}
    (e : find_anc h.objs a = some d) : holder_name h a = some d.name := by
  simp [holder_name, e]

theorem find_holder_congr {h1 h2 : anc_state} (n : String) :
    ∀ l : List Nat, (∀ a ∈ l, holder_name h1 a = holder_name h2 a) →
      find_holder h1 n l = find_holder h2 n l := by
  intro l
  induction l with
  | nil => intro _; rfl
  | cons a rest ih =>
    intro hl
    have ha := hl a (List.mem_cons_self _ _)
    have hrest := ih (fun b hb => hl b (List.mem_cons_of_mem _ hb))
    simp only [find_holder]
    cases hf1 : find_anc h1.objs a with
    | none =>
      cases hf2 : find_anc h2.objs a with
      | none => rfl
      | some d2 => simp [holder_name, hf1, hf2] at ha
    | some d1 =>
      cases hf2 : find_anc h2.objs a with
      | none => simp [holder_name, hf1, hf2] at ha
      | some d2 =>
        have e : d1.name = d2.name := by simpa [holder_name, hf1, hf2] using ha
        simp only [e, hrest]

theorem find_holder_none {h : anc_state} {n : String} :
    ∀ l : List Nat, (∀ a ∈ l, holder_name h a ≠ none) →
      some n ∉ l.map (holder_name h) → find_holder h n l = some none := by
  intro l
  induction l with
  | nil => intro _ _; rfl
  | cons a rest ih =>
    intro hl hn
    simp only [List.map_cons, List.mem_cons, not_or] at hn
    have hrest := ih (fun b hb => hl b (List.mem_cons_of_mem _ hb)) hn.2
    simp only [find_holder]
    cases hf : find_anc h.objs a with
    | none => exact absurd (by simp [holder_name, hf]) (hl a (List.mem_cons_self _ _))
    | some d =>
      have hne : ¬ n = d.name := by
        intro e
        apply hn.1
        simp [holder_name, hf, e]
      simp only [if_neg hne, hrest]

theorem find_holder_some {h : anc_state} {n : String} :
    ∀ l : List Nat, (∀ a ∈ l, holder_name h a ≠ none) →
      some n ∈ l.map (holder_name h) →
      ∃ before a after, find_holder h n l = some (some (before, a, after)) ∧
        l = before ++ a :: after ∧ holder_name h a = some n ∧
        some n ∉ before.map (holder_name h) := by
  intro l
  induction l with
  | nil => intro _ hn; simp at hn
  | cons a rest ih =>
    intro hl hn
    simp only [find_holder]
    cases hf : find_anc h.objs a with
    | none => exact absurd (by simp [holder_name, hf]) (hl a (List.mem_cons_self _ _))
    | some d =>
      by_cases e : n = d.name
      · refine ⟨[], a, rest, by simp [e], rfl, by simp [holder_name, hf, e], by simp⟩
      · have hn2 : some n ∈ rest.map (holder_name h) := by
          simp only [List.map_cons, List.mem_cons] at hn
          rcases hn with e1 | e1
          · simp [holder_name, hf] at e1
            exact absurd e1 e
          · exact e1
        obtain ⟨before, b, after, h1, h2, h3, h4⟩ :=
          ih (fun b hb => hl b (List.mem_cons_of_mem _ hb)) hn2
        refine ⟨a :: before, b, after, by simp [e, h1], by simp [h2], h3, ?_⟩
        simp only [List.map_cons, List.mem_cons, not_or]
        refine ⟨?_, h4⟩
        simp only [holder_name, hf, Option.map_some', Option.some.injEq]
        exact e

/-! ### Ancillary data: adding -/

theorem holder_name_set_ref_count (h : anc_state) (a b : Nat) (v : Int) :
    holder_name { h with objs := set_ref_count h.objs a v } b = holder_name h b := by
  simp only [holder_name, find_anc_set_ref_count, Option.map_map]
  cases find_anc h.objs b with
  | none => rfl
  | some d =>
    simp only [Option.map_some', Function.comp]
    split <;> rfl

theorem mbuf_ancillary_data_ref_eq {h : anc_state} {a : Nat} {d : mbuf_ancillary_data}
    (e : find_anc h.objs a = some d) :
    mbuf_ancillary_data_ref h (some a) =
      some (0, { h with objs := set_ref_count h.objs a (wrap_int (d.ref_count + 1)) }) := by
  simp [mbuf_ancillary_data_ref, e]

theorem mbuf_base_frame_add_ancillary_internal_exists {c : Bool} {h : anc_state}
    {frame : mbuf_base_frame} {data : Nat} {d : mbuf_ancillary_data}
    (hd : find_anc h.objs data = some d)
    (hl : ∀ a ∈ frame.ancillary_data, holder_name h a ≠ none)
    (hn : some d.name ∈ frame.ancillary_data.map (holder_name h)) :
    mbuf_base_frame_add_ancillary_internal c h frame data = some (-EEXIST, h, frame) := by
  obtain ⟨before, a, after, h1, _⟩ := find_holder_some _ hl hn
  simp [mbuf_base_frame_add_ancillary_internal, hd, h1]

theorem mbuf_base_frame_add_ancillary_internal_new {h : anc_state}
    {frame : mbuf_base_frame} {data : Nat} {d : mbuf_ancillary_data}
    (hd : find_anc h.objs data = some d)
    (hl : ∀ a ∈ frame.ancillary_data, holder_name h a ≠ none)
    (hn : some d.name ∉ frame.ancillary_data.map (holder_name h)) :
    mbuf_base_frame_add_ancillary_internal true h frame data =
      some (0, { h with objs := set_ref_count h.objs data (wrap_int (d.ref_count + 1)) },
        { frame with ancillary_data := frame.ancillary_data ++ [data] }) := by
  simp [mbuf_base_frame_add_ancillary_internal, hd, find_holder_none _ hl hn,
    mbuf_ancillary_data_ref_eq hd]

theorem anc_heap_wf_fresh {h : anc_state} (hw : anc_heap_wf h) :
    ∀ d ∈ h.objs, d.addr ≠ h.next_addr := by
  intro d hd e
  have := hw.2 d hd
  omega

theorem holder_name_append {h : anc_state} (ad : mbuf_ancillary_data)
    (n : Nat) {a : Nat} (ha : holder_name h a ≠ none) :
    holder_name { h with objs := h.objs ++ [ad], next_addr := n } a = holder_name h a := by
  simp only [holder_name, find_anc_append]
  cases hf : find_anc h.objs a with
  | none => simp [holder_name, hf] at ha
  | some d => rfl


theorem wrap_int_small : wrap_int (1 + 1) = 2 ∧ wrap_int (2 - 1) = 1 ∧ wrap_int (1 - 1) = 0 := by
  decide

theorem find_anc_append_new {h : anc_state} (hw : anc_heap_wf h)
    {y : mbuf_ancillary_data} (ha : y.addr = h.next_addr) :
    find_anc (h.objs ++ [y]) y.addr = some y := by
  rw [find_anc_append]
  have hnone : find_anc h.objs y.addr = none := by
    rw [find_anc_eq_none]
    intro d hd
    rw [ha]
    exact anc_heap_wf_fresh hw d hd
  simp [hnone]

/-- The unref of an object that was just allocated and has one reference
frees it: the heap is as before the allocation. -/
theorem mbuf_ancillary_data_unref_fresh {h : anc_state} (hw : anc_heap_wf h)
    {y : mbuf_ancillary_data} (ha : y.addr = h.next_addr) (hrc : y.ref_count = 1)
    (n : Nat) :
    mbuf_ancillary_data_unref { h with objs := h.objs ++ [y], next_addr := n }
        (some h.next_addr) =
      some (0, { objs := h.objs,
                 cleaner_log := if y.cleaner then h.cleaner_log ++ [h.next_addr]
                   else h.cleaner_log,
                 next_addr := n }) := by
  have hfresh : ∀ d ∈ h.objs, d.addr ≠ y.addr := by
    rw [ha]; exact anc_heap_wf_fresh hw
  have hfind : find_anc (h.objs ++ [y]) h.next_addr = some y := by
    rw [← ha]; exact find_anc_append_new hw ha
  have hset : set_ref_count (h.objs ++ [y]) h.next_addr (wrap_int (y.ref_count - 1)) =
      h.objs ++ [{ y with ref_count := wrap_int (y.ref_count - 1) }] := by
    rw [← ha]; exact set_ref_count_append_new hfresh _
  have hfree : free_anc (h.objs ++ [{ y with ref_count := wrap_int (y.ref_count - 1) }])
      h.next_addr = h.objs := by
    rw [← ha]
    exact free_anc_append_new (y := { y with ref_count := wrap_int (y.ref_count - 1) })
      hfresh
  have h1 : ¬ (y.ref_count > 1) := by rw [hrc]; decide
  simp only [mbuf_ancillary_data_unref, hfind, if_neg h1, hset, hfree]

/-- What `mbuf_base_frame_add_ancillary_internal` does on a list whose holders
are live, for data at a live address. -/
theorem mbuf_base_frame_add_ancillary_internal_cases (c : Bool) {h : anc_state}
    {frame : mbuf_base_frame} {data : Nat} {d : mbuf_ancillary_data}
    (hd : find_anc h.objs data = some d)
    (hl : ∀ a ∈ frame.ancillary_data, holder_name h a ≠ none) :
    mbuf_base_frame_add_ancillary_internal c h frame data =
      if some d.name ∈ frame.ancillary_data.map (holder_name h) then some (-EEXIST, h, frame)
      else if !c then some (-ENOMEM, h, frame)
      else
        some (0, { h with objs := set_ref_count h.objs data (wrap_int (d.ref_count + 1)) },
          { frame with ancillary_data := frame.ancillary_data ++ [data] }) := by
  by_cases hn : some d.name ∈ frame.ancillary_data.map (holder_name h)
  · rw [if_pos hn]
    exact mbuf_base_frame_add_ancillary_internal_exists hd hl hn
  · rw [if_neg hn]
    cases c
    · simp [mbuf_base_frame_add_ancillary_internal, hd, find_holder_none _ hl hn]
    · simp only [Bool.not_true, Bool.false_eq_true, if_false]
      exact mbuf_base_frame_add_ancillary_internal_new hd hl hn

/-- What `mbuf_base_frame_create_ancillary_internal` does on a well-formed
heap and a list whose holders are live, case by case: a failed allocation
gives `-ENOMEM`, a name that is present `-EEXIST`, and in both cases the
object built for the call, if any, is released again (its cleaner, when it has
one, being called); otherwise the new object stays on the heap with one
reference, that of its holder, which is the last of the list. -/
theorem mbuf_base_frame_create_ancillary_internal_cases (env : anc_env) {h : anc_state}
    {frame : mbuf_base_frame} (hw : anc_heap_wf h)
    (hl : ∀ a ∈ frame.ancillary_data, holder_name h a ≠ none)
    (name : String) (buffer : List Nat) (len : Nat) (is_string : Bool)
    (cbs : Option mbuf_ancillary_data_cbs) :
    mbuf_base_frame_create_ancillary_internal env h frame name buffer len is_string cbs =
      if !env.calloc_data then some (-ENOMEM, h, frame)
      else if !env.strdup_name || !env.malloc_buffer then
        some (-ENOMEM, { h with next_addr := h.next_addr + 1 }, frame)
      else if some name ∈ frame.ancillary_data.map (holder_name h) ∨
          env.calloc_holder = false then
        some (if some name ∈ frame.ancillary_data.map (holder_name h) then -EEXIST
            else -ENOMEM,
          { objs := h.objs,
            cleaner_log :=
              if (created_data h name buffer len is_string cbs).cleaner then
                h.cleaner_log ++ [h.next_addr]
              else h.cleaner_log,
            next_addr := h.next_addr + 1 },
          frame)
      else
        some (0,
          { h with
            objs := h.objs ++ [created_data h name buffer len is_string cbs]
            next_addr := h.next_addr + 1 },
          { frame with ancillary_data := frame.ancillary_data ++ [h.next_addr] }) := by
  obtain ⟨c1, c2, c3, c4⟩ := env
  cases c1
  · rfl
  cases c2
  · -- strdup fails
    let ad0 : mbuf_ancillary_data :=
      { addr := h.next_addr, name := "", is_string := is_string, buffer := [], len := len,
        ref_count := 1, cleaner := false }
    have hu := mbuf_ancillary_data_unref_fresh hw (y := ad0) rfl rfl (h.next_addr + 1)
    have hc : mbuf_base_frame_create_ancillary_internal ⟨true, false, c3, c4⟩ h frame name
        buffer len is_string cbs =
        match mbuf_ancillary_data_unref
          { h with objs := h.objs ++ [ad0], next_addr := h.next_addr + 1 }
          (some h.next_addr) with
        | none => none
        | some (_, h2) => some (-ENOMEM, h2, frame) := rfl
    rw [hc, hu]
    rfl
  cases c3
  · -- malloc fails
    let ad0 : mbuf_ancillary_data :=
      { addr := h.next_addr, name := name, is_string := is_string, buffer := [], len := len,
        ref_count := 1, cleaner := false }
    have hu := mbuf_ancillary_data_unref_fresh hw (y := ad0) rfl rfl (h.next_addr + 1)
    have hc : mbuf_base_frame_create_ancillary_internal ⟨true, true, false, c4⟩ h frame name
        buffer len is_string cbs =
        match mbuf_ancillary_data_unref
          { h with objs := h.objs ++ [ad0], next_addr := h.next_addr + 1 }
          (some h.next_addr) with
        | none => none
        | some (_, h2) => some (-ENOMEM, h2, frame) := rfl
    rw [hc, hu]
    rfl
  -- the three allocations of the object succeed
  let ad := created_data h name buffer len is_string cbs
  let h0 : anc_state := { h with objs := h.objs ++ [ad], next_addr := h.next_addr + 1 }
  have hfind : find_anc h0.objs h.next_addr = some ad := find_anc_append_new hw (y := ad) rfl
  have hl0 : ∀ a ∈ frame.ancillary_data, holder_name h0 a ≠ none := by
    intro a ha
    rw [holder_name_append ad _ (hl a ha)]
    exact hl a ha
  have hmap : frame.ancillary_data.map (holder_name h0) =
      frame.ancillary_data.map (holder_name h) :=
    List.map_congr_left (fun a ha => holder_name_append ad _ (hl a ha))
  have hadd := mbuf_base_frame_add_ancillary_internal_cases c4 hfind hl0
  rw [hmap] at hadd
  have hc : mbuf_base_frame_create_ancillary_internal ⟨true, true, true, c4⟩ h frame name
      buffer len is_string cbs =
      match mbuf_base_frame_add_ancillary_internal c4 h0 frame h.next_addr with
      | none => none
      | some (ret, h1, frame1) =>
        match mbuf_ancillary_data_unref h1 (some h.next_addr) with
        | none => none
        | some (_, h2) => some (ret, h2, frame1) := rfl
  have hu := mbuf_ancillary_data_unref_fresh hw (y := ad) rfl rfl (h.next_addr + 1)
  rw [hc, hadd]
  simp only [Bool.not_true, Bool.false_eq_true, if_false, Bool.or_self]
  by_cases hn : some name ∈ frame.ancillary_data.map (holder_name h)
  · have hn1 : some ad.name ∈ frame.ancillary_data.map (holder_name h) := hn
    simp only [if_pos hn1, hn, true_or, if_true]
    have hu1 : mbuf_ancillary_data_unref h0 (some h.next_addr) = _ := hu
    rw [hu1]
  · have hn1 : some ad.name ∉ frame.ancillary_data.map (holder_name h) := hn
    simp only [if_neg hn1, hn, false_or, if_false]
    cases c4
    · simp only [Bool.not_false, if_true]
      have hu1 : mbuf_ancillary_data_unref h0 (some h.next_addr) = _ := hu
      rw [hu1]
    · simp only [Bool.not_true, Bool.false_eq_true, if_false]
      -- the holder takes a second reference, the function drops its own
      have hfresh : ∀ d ∈ h.objs, d.addr ≠ ad.addr := anc_heap_wf_fresh hw
      let ad2 : mbuf_ancillary_data := { ad with ref_count := wrap_int (ad.ref_count + 1) }
      have hset : set_ref_count h0.objs h.next_addr (wrap_int (ad.ref_count + 1)) =
          h.objs ++ [ad2] := set_ref_count_append_new (y := ad) hfresh _
      have hfind1 : find_anc (h.objs ++ [ad2]) h.next_addr = some ad2 :=
        find_anc_append_new (y := ad2) hw rfl
      have hset1 : set_ref_count (h.objs ++ [ad2]) h.next_addr
          (wrap_int (ad2.ref_count - 1)) =
          h.objs ++ [{ ad2 with ref_count := wrap_int (ad2.ref_count - 1) }] :=
        set_ref_count_append_new (y := ad2) hfresh _
      have hback : ({ ad2 with ref_count := wrap_int (ad2.ref_count - 1) } :
          mbuf_ancillary_data) = ad := by
        show ({ ad with ref_count := wrap_int (wrap_int (1 + 1) - 1) } :
          mbuf_ancillary_data) = ad
        rw [wrap_int_small.1, wrap_int_small.2.1]
        rfl
      have h2 : ad2.ref_count > 1 := by
        show wrap_int (1 + 1) > 1
        decide
      have hu2 : mbuf_ancillary_data_unref
          { objs := h.objs ++ [ad2], cleaner_log := h.cleaner_log,
            next_addr := h.next_addr + 1 } (some h.next_addr) =
          some (0, { h with objs := h.objs ++ [ad], next_addr := h.next_addr + 1 }) := by
        simp only [mbuf_ancillary_data_unref, hfind1, if_pos h2, hset1, hback]
      rw [hset, hu2]
      rfl

/-! ### Ancillary data: well-formedness is kept -/

theorem anc_heap_wf_set_ref_count {h : anc_state} (hw : anc_heap_wf h) (a : Nat) (v : Int) :
    anc_heap_wf { h with objs := set_ref_count h.objs a v } := by
  refine ⟨?_, ?_⟩
  · show ((set_ref_count h.objs a v).map (fun d => d.addr)).Nodup
    rw [map_addr_set_ref_count]
    exact hw.1
  · intro d hd
    obtain ⟨d0, hd0, e⟩ := mem_set_ref_count hd
    rw [e]
    exact hw.2 d0 hd0

theorem anc_wf_set_ref_count {h : anc_state} {l : List Nat} (hw : anc_wf h l) (a : Nat)
    (v : Int) : anc_wf { h with objs := set_ref_count h.objs a v } l := by
  refine ⟨anc_heap_wf_set_ref_count hw.1 a v, ?_, ?_⟩
  · intro b hb
    rw [holder_name_set_ref_count]
    exact hw.2.1 b hb
  · have e : l.map (holder_name { h with objs := set_ref_count h.objs a v }) =
        l.map (holder_name h) :=
      List.map_congr_left (fun b _ => holder_name_set_ref_count h a b v)
    rw [e]
    exact hw.2.2

theorem anc_wf_next_addr {h : anc_state} {l : List Nat} (hw : anc_wf h l)
    (log : List Nat) (n : Nat) (hn : h.next_addr ≤ n) :
    anc_wf { objs := h.objs, cleaner_log := log, next_addr := n } l := by
  refine ⟨⟨hw.1.1, ?_⟩, hw.2.1, hw.2.2⟩
  intro d hd
  have := hw.1.2 d hd
  show d.addr < n
  omega

theorem anc_wf_append_holder {h : anc_state} {l : List Nat} (hw : anc_wf h l) {a : Nat}
    {n : String} (ha : holder_name h a = some n) (hn : some n ∉ l.map (holder_name h)) :
    anc_wf h (l ++ [a]) := by
  refine ⟨hw.1, ?_, ?_⟩
  · intro b hb
    rcases List.mem_append.1 hb with e | e
    · exact hw.2.1 b e
    · simp only [List.mem_singleton] at e
      rw [e, ha]
      simp
  · rw [List.map_append, List.map_singleton, ha]
    refine List.Nodup.append hw.2.2 (List.nodup_singleton _) ?_
    intro x hx hx2
    simp only [List.mem_singleton] at hx2
    rw [hx2] at hx
    exact hn hx

theorem anc_wf_append_obj {h : anc_state} {l : List Nat} (hw : anc_wf h l)
    (ad : mbuf_ancillary_data) (ha : ad.addr = h.next_addr) :
    anc_wf { h with objs := h.objs ++ [ad], next_addr := h.next_addr + 1 } l := by
  refine ⟨⟨?_, ?_⟩, ?_, ?_⟩
  · show ((h.objs ++ [ad]).map (fun d => d.addr)).Nodup
    rw [List.map_append, List.map_singleton]
    refine List.Nodup.append hw.1.1 (List.nodup_singleton _) ?_
    intro x hx hx2
    simp only [List.mem_singleton] at hx2
    obtain ⟨d, hd, e⟩ := List.mem_map.1 hx
    have := hw.1.2 d hd
    omega
  · intro d hd
    show d.addr < h.next_addr + 1
    rcases List.mem_append.1 hd with e | e
    · have := hw.1.2 d e
      omega
    · simp only [List.mem_singleton] at e
      rw [e, ha]
      omega
  · intro b hb
    rw [holder_name_append ad _ (hw.2.1 b hb)]
    exact hw.2.1 b hb
  · have e := List.map_congr_left (l := l)
      (fun b hb => holder_name_append (h := h) ad (h.next_addr + 1) (hw.2.1 b hb))
    rw [e]
    exact hw.2.2

theorem mbuf_ancillary_data_unref_eq {h : anc_state} {a : Nat} {d : mbuf_ancillary_data}
    (e : find_anc h.objs a = some d) :
    mbuf_ancillary_data_unref h (some a) =
      some (0,
        if d.ref_count > 1 then
          { h with objs := set_ref_count h.objs a (wrap_int (d.ref_count - 1)) }
        else
          { h with
            objs := free_anc (set_ref_count h.objs a (wrap_int (d.ref_count - 1))) a
            cleaner_log := if d.cleaner then h.cleaner_log ++ [a] else h.cleaner_log }) := by
  simp only [mbuf_ancillary_data_unref, e]
  split <;> rfl

theorem holder_name_unref {h h1 : anc_state} {a : Nat} {ret : Int}
    (hu : mbuf_ancillary_data_unref h (some a) = some (ret, h1)) {b : Nat} (hne : b ≠ a) :
    holder_name h1 b = holder_name h b := by
  cases hf : find_anc h.objs a with
  | none => simp [mbuf_ancillary_data_unref, hf] at hu
  | some d =>
    rw [mbuf_ancillary_data_unref_eq hf] at hu
    simp only [Option.some.injEq, Prod.mk.injEq] at hu
    rw [← hu.2]
    split
    · exact holder_name_set_ref_count h a b _
    · show Option.map _ (find_anc (free_anc _ a) b) = _
      rw [find_anc_free_anc_ne _ hne]
      exact holder_name_set_ref_count h a b _

theorem anc_heap_wf_unref {h h1 : anc_state} {a : Nat} {ret : Int} (hw : anc_heap_wf h)
    (hu : mbuf_ancillary_data_unref h (some a) = some (ret, h1)) : anc_heap_wf h1 := by
  cases hf : find_anc h.objs a with
  | none => simp [mbuf_ancillary_data_unref, hf] at hu
  | some d =>
    rw [mbuf_ancillary_data_unref_eq hf] at hu
    simp only [Option.some.injEq, Prod.mk.injEq] at hu
    rw [← hu.2]
    have hw1 := anc_heap_wf_set_ref_count hw a (wrap_int (d.ref_count - 1))
    split
    · exact hw1
    · have hs := free_anc_sublist (set_ref_count h.objs a (wrap_int (d.ref_count - 1))) a
      refine ⟨?_, ?_⟩
      · exact List.Nodup.sublist (hs.map _) hw1.1
      · intro x hx
        exact hw1.2 x (hs.subset hx)

/-! ### Ancillary data: removing and getting -/

theorem nodup_map_middle {α β : Type} (f : α → β) {before after : List α} {a : α}
    (hn : ((before ++ a :: after).map f).Nodup) :
    ((before ++ after).map f).Nodup ∧ f a ∉ (before ++ after).map f ∧
      ∀ b ∈ before ++ after, f b ≠ f a := by
  rw [List.map_append, List.map_cons] at hn
  have h1 := List.nodup_cons.1 (List.nodup_middle.1 hn)
  rw [List.map_append]
  refine ⟨h1.2, h1.1, ?_⟩
  intro b hb e
  apply h1.1
  rw [← e, ← List.map_append]
  exact List.mem_map_of_mem f hb

/-- What `mbuf_base_frame_remove_ancillary_data` does on well-formed ancillary
data: with the name absent `-ENOENT` and no change; with the name present the
holder of that name is unlinked, the others keeping their order, its data
loses one reference, and no holder of that name is left. -/
theorem mbuf_base_frame_remove_ancillary_data_cases {h : anc_state}
    {frame : mbuf_base_frame} (hw : anc_wf h frame.ancillary_data) (name : String) :
    (some name ∉ frame.ancillary_data.map (holder_name h) ∧
      mbuf_base_frame_remove_ancillary_data h frame name = some (-ENOENT, h, frame)) ∨
    (some name ∈ frame.ancillary_data.map (holder_name h) ∧
      ∃ before a after h1,
        frame.ancillary_data = before ++ a :: after ∧ holder_name h a = some name ∧
        mbuf_ancillary_data_unref h (some a) = some (0, h1) ∧
        mbuf_base_frame_remove_ancillary_data h frame name =
          some (0, h1, { frame with ancillary_data := before ++ after }) ∧
        anc_wf h1 (before ++ after) ∧
        some name ∉ (before ++ after).map (holder_name h1)) := by
  by_cases hn : some name ∈ frame.ancillary_data.map (holder_name h)
  · right
    refine ⟨hn, ?_⟩
    obtain ⟨before, a, after, hf, hl, ha, _⟩ := find_holder_some _ hw.2.1 hn
    obtain ⟨d, hd, _⟩ := holder_name_eq_some ha
    have hu := mbuf_ancillary_data_unref_eq hd
    refine ⟨before, a, after, _, hl, ha, hu, ?_, ?_, ?_⟩
    · simp only [mbuf_base_frame_remove_ancillary_data, hf, hu]
    · have hnd := hw.2.2
      rw [hl] at hnd
      obtain ⟨h1, h2, h3⟩ := nodup_map_middle (holder_name h) hnd
      have hne : ∀ b ∈ before ++ after, b ≠ a := fun b hb e => h3 b hb (by rw [e])
      have hcongr := List.map_congr_left (l := before ++ after)
        (fun b hb => holder_name_unref hu (hne b hb))
      refine ⟨anc_heap_wf_unref hw.1 hu, ?_, ?_⟩
      · intro b hb
        rw [holder_name_unref hu (hne b hb)]
        apply hw.2.1
        rw [hl]
        rcases List.mem_append.1 hb with e | e
        · exact List.mem_append_left _ e
        · exact List.mem_append_right _ (List.mem_cons_of_mem _ e)
      · rw [hcongr]
        exact h1
    · have hnd := hw.2.2
      rw [hl] at hnd
      obtain ⟨_, h2, h3⟩ := nodup_map_middle (holder_name h) hnd
      have hne : ∀ b ∈ before ++ after, b ≠ a := fun b hb e => h3 b hb (by rw [e])
      have hcongr := List.map_congr_left (l := before ++ after)
        (fun b hb => holder_name_unref hu (hne b hb))
      rw [hcongr, ← ha]
      exact h2
  · left
    refine ⟨hn, ?_⟩
    simp only [mbuf_base_frame_remove_ancillary_data, find_holder_none _ hw.2.1 hn]

/-- What `mbuf_base_frame_get_ancillary_data` does on well-formed ancillary
data. -/
theorem mbuf_base_frame_get_ancillary_data_cases {h : anc_state}
    {frame : mbuf_base_frame} (hw : anc_wf h frame.ancillary_data) (name : String) :
    (some name ∉ frame.ancillary_data.map (holder_name h) ∧
      mbuf_base_frame_get_ancillary_data h frame name = some (-ENOENT, none, h)) ∨
    (∃ a d, a ∈ frame.ancillary_data ∧ find_anc h.objs a = some d ∧ d.name = name ∧
      mbuf_base_frame_get_ancillary_data h frame name =
        some (0, some a,
          { h with objs := set_ref_count h.objs a (wrap_int (d.ref_count + 1)) })) := by
  by_cases hn : some name ∈ frame.ancillary_data.map (holder_name h)
  · right
    obtain ⟨before, a, after, hf, hl, ha, _⟩ := find_holder_some _ hw.2.1 hn
    obtain ⟨d, hd, hdn⟩ := holder_name_eq_some ha
    refine ⟨a, d, by rw [hl]; simp, hd, hdn, ?_⟩
    simp only [mbuf_base_frame_get_ancillary_data, hf, mbuf_ancillary_data_ref_eq hd]
  · left
    refine ⟨hn, ?_⟩
    simp only [mbuf_base_frame_get_ancillary_data, find_holder_none _ hw.2.1 hn]

/-! ### Ancillary data: the names stay pairwise distinct -/

theorem mbuf_base_frame_create_ancillary_internal_wf {env : anc_env} {h h1 : anc_state}
    {frame frame1 : mbuf_base_frame} (hw : anc_wf h frame.ancillary_data)
    {name : String} {buffer : List Nat} {len : Nat} {is_string : Bool}
    {cbs : Option mbuf_ancillary_data_cbs} {ret : Int}
    (hc : mbuf_base_frame_create_ancillary_internal env h frame name buffer len is_string cbs =
      some (ret, h1, frame1)) :
    anc_wf h1 frame1.ancillary_data := by
  rw [mbuf_base_frame_create_ancillary_internal_cases env hw.1 hw.2.1] at hc
  by_cases c1 : (!env.calloc_data) = true
  · rw [if_pos c1] at hc
    simp only [Option.some.injEq, Prod.mk.injEq] at hc
    obtain ⟨_, rfl, rfl⟩ := hc
    exact hw
  rw [if_neg c1] at hc
  by_cases c2 : (!env.strdup_name || !env.malloc_buffer) = true
  · rw [if_pos c2] at hc
    simp only [Option.some.injEq, Prod.mk.injEq] at hc
    obtain ⟨_, rfl, rfl⟩ := hc
    exact anc_wf_next_addr hw _ _ (by omega)
  rw [if_neg c2] at hc
  by_cases c3 : some name ∈ frame.ancillary_data.map (holder_name h) ∨
      env.calloc_holder = false
  · rw [if_pos c3] at hc
    simp only [Option.some.injEq, Prod.mk.injEq] at hc
    obtain ⟨_, rfl, rfl⟩ := hc
    exact anc_wf_next_addr hw _ _ (by omega)
  · rw [if_neg c3] at hc
    simp only [Option.some.injEq, Prod.mk.injEq] at hc
    obtain ⟨_, rfl, rfl⟩ := hc
    have hn : some name ∉ frame.ancillary_data.map (holder_name h) := fun e => c3 (Or.inl e)
    have hw1 := anc_wf_append_obj hw (created_data h name buffer len is_string cbs) rfl
    have hcongr := List.map_congr_left (l := frame.ancillary_data)
      (fun b hb => holder_name_append (h := h)
        (created_data h name buffer len is_string cbs) (h.next_addr + 1) (hw.2.1 b hb))
    refine anc_wf_append_holder hw1 (n := name) ?_ ?_
    · show Option.map _ (find_anc (h.objs ++ [created_data h name buffer len is_string cbs])
        h.next_addr) = _
      have e := @find_anc_append_new h hw.1 (created_data h name buffer len is_string cbs) rfl
      have e2 : (created_data h name buffer len is_string cbs).addr = h.next_addr := rfl
      rw [e2] at e
      rw [e]
      rfl
    · rw [hcongr]
      exact hn

theorem mbuf_base_frame_add_ancillary_internal_wf {c : Bool} {h h1 : anc_state}
    {frame frame1 : mbuf_base_frame} (hw : anc_wf h frame.ancillary_data) {data : Nat}
    {ret : Int}
    (hc : mbuf_base_frame_add_ancillary_internal c h frame data = some (ret, h1, frame1)) :
    anc_wf h1 frame1.ancillary_data := by
  cases hd : find_anc h.objs data with
  | none => simp [mbuf_base_frame_add_ancillary_internal, hd] at hc
  | some d =>
    rw [mbuf_base_frame_add_ancillary_internal_cases c hd hw.2.1] at hc
    split_ifs at hc with c1 c2
    · simp only [Option.some.injEq, Prod.mk.injEq] at hc
      obtain ⟨_, rfl, rfl⟩ := hc
      exact hw
    · simp only [Option.some.injEq, Prod.mk.injEq] at hc
      obtain ⟨_, rfl, rfl⟩ := hc
      exact hw
    · simp only [Option.some.injEq, Prod.mk.injEq] at hc
      obtain ⟨_, rfl, rfl⟩ := hc
      apply anc_wf_set_ref_count
      exact anc_wf_append_holder hw (holder_name_of_find hd) c1

theorem anc_step_wf {h h1 : anc_state} {frame frame1 : mbuf_base_frame} {op : anc_op}
    {ret : Int} (hw : anc_wf h frame.ancillary_data)
    (hs : anc_step h frame op = some (ret, h1, frame1)) :
    anc_wf h1 frame1.ancillary_data := by
  cases op with
  | add_string env name value =>
    have hs2 : mbuf_base_frame_create_ancillary_internal env h frame name (value ++ [0])
        (value.length + 1) true none = some (ret, h1, frame1) := hs
    exact mbuf_base_frame_create_ancillary_internal_wf hw hs2
  | add_buffer env name buffer len =>
    have hs2 : mbuf_base_frame_create_ancillary_internal env h frame name buffer len false
        none = some (ret, h1, frame1) := hs
    exact mbuf_base_frame_create_ancillary_internal_wf hw hs2
  | add_buffer_with_cbs env name buffer len cbs =>
    have hs2 : mbuf_base_frame_create_ancillary_internal env h frame name buffer len false
        cbs = some (ret, h1, frame1) := hs
    exact mbuf_base_frame_create_ancillary_internal_wf hw hs2
  | add_data c data =>
    have hs2 : mbuf_base_frame_add_ancillary_internal c h frame data =
        some (ret, h1, frame1) := hs
    exact mbuf_base_frame_add_ancillary_internal_wf hw hs2
  | get name =>
    simp only [anc_step] at hs
    rcases mbuf_base_frame_get_ancillary_data_cases hw name with ⟨_, e⟩ | ⟨a, d, _, _, _, e⟩
    · rw [e] at hs
      simp only [Option.map_some', Option.some.injEq, Prod.mk.injEq] at hs
      obtain ⟨_, rfl, rfl⟩ := hs
      exact hw
    · rw [e] at hs
      simp only [Option.map_some', Option.some.injEq, Prod.mk.injEq] at hs
      obtain ⟨_, rfl, rfl⟩ := hs
      exact anc_wf_set_ref_count hw _ _
  | remove name =>
    simp only [anc_step] at hs
    rcases mbuf_base_frame_remove_ancillary_data_cases hw name with
      ⟨_, e⟩ | ⟨_, before, a, after, h2, _, _, _, e, hw2, _⟩
    · rw [e] at hs
      simp only [Option.some.injEq, Prod.mk.injEq] at hs
      obtain ⟨_, rfl, rfl⟩ := hs
      exact hw
    · rw [e] at hs
      simp only [Option.some.injEq, Prod.mk.injEq] at hs
      obtain ⟨_, rfl, rfl⟩ := hs
      exact hw2

theorem anc_reach_wf {h : anc_state} {frame : mbuf_base_frame} (hr : anc_reach h frame) :
    anc_wf h frame.ancillary_data := by
  induction hr with
  | init h hw =>
    refine ⟨hw, ?_, ?_⟩
    · intro a ha
      simp [mbuf_base_frame_init] at ha
    · simp [mbuf_base_frame_init]
  | step op h h1 frame frame1 ret _ hs ih => exact anc_step_wf ih hs
  | other h frame frame1 _ he ih =>
    rw [he]
    exact ih
  | ref a h h1 frame ret _ hs ih =>
    cases hd : find_anc h.objs a with
    | none => simp [mbuf_ancillary_data_ref, hd] at hs
    | some d =>
      rw [mbuf_ancillary_data_ref_eq hd] at hs
      simp only [Option.some.injEq, Prod.mk.injEq] at hs
      rw [← hs.2]
      exact anc_wf_set_ref_count ih _ _
  | unref a h h1 frame ret _ hg hs ih =>
    cases hd : find_anc h.objs a with
    | none => simp [mbuf_ancillary_data_unref, hd] at hs
    | some d =>
      by_cases hin : a ∈ frame.ancillary_data
      · have hrc := hg hin d hd
        rw [mbuf_ancillary_data_unref_eq hd, if_pos hrc] at hs
        simp only [Option.some.injEq, Prod.mk.injEq] at hs
        rw [← hs.2]
        exact anc_wf_set_ref_count ih _ _
      · have hne : ∀ b ∈ frame.ancillary_data, b ≠ a := fun b hb e => hin (e ▸ hb)
        refine ⟨anc_heap_wf_unref ih.1 hs, ?_, ?_⟩
        · intro b hb
          rw [holder_name_unref hs (hne b hb)]
          exact ih.2.1 b hb
        · rw [List.map_congr_left (fun b hb => holder_name_unref hs (hne b hb))]
          exact ih.2.2

/-! ### Ancillary data: names present and absent, order of the list -/

theorem mbuf_base_frame_create_ancillary_internal_exists {env : anc_env} {h : anc_state}
    {frame : mbuf_base_frame} (hw : anc_wf h frame.ancillary_data)
    (h1 : env.calloc_data = true) (h2 : env.strdup_name = true)
    (h3 : env.malloc_buffer = true) {name : String}
    (hn : some name ∈ frame.ancillary_data.map (holder_name h))
    (buffer : List Nat) (len : Nat) (is_string : Bool) (cbs : Option mbuf_ancillary_data_cbs) :
    mbuf_base_frame_create_ancillary_internal env h frame name buffer len is_string cbs =
      some (-EEXIST,
        { objs := h.objs,
          cleaner_log :=
            if (created_data h name buffer len is_string cbs).cleaner then
              h.cleaner_log ++ [h.next_addr]
            else h.cleaner_log,
          next_addr := h.next_addr + 1 },
        frame) := by
  rw [mbuf_base_frame_create_ancillary_internal_cases env hw.1 hw.2.1]
  simp only [h1, h2, h3, Bool.not_true, Bool.false_eq_true, if_false, Bool.or_self]
  rw [if_pos (Or.inl hn), if_pos hn]

theorem mbuf_base_frame_create_ancillary_internal_new {h : anc_state}
    {frame : mbuf_base_frame} (hw : anc_wf h frame.ancillary_data) {name : String}
    (hn : some name ∉ frame.ancillary_data.map (holder_name h))
    (buffer : List Nat) (len : Nat) (is_string : Bool) (cbs : Option mbuf_ancillary_data_cbs) :
    mbuf_base_frame_create_ancillary_internal anc_env_ok h frame name buffer len is_string
        cbs =
      some (0,
        { h with
          objs := h.objs ++ [created_data h name buffer len is_string cbs]
          next_addr := h.next_addr + 1 },
        { frame with ancillary_data := frame.ancillary_data ++ [h.next_addr] }) := by
  rw [mbuf_base_frame_create_ancillary_internal_cases anc_env_ok hw.1 hw.2.1]
  have e : ¬ (some name ∈ frame.ancillary_data.map (holder_name h) ∨
      anc_env_ok.calloc_holder = false) := by
    rintro (e | e)
    · exact hn e
    · cases e
  simp only [anc_env_ok, Bool.not_true, Bool.false_eq_true, if_false, Bool.or_self]
  simp only [anc_env_ok] at e
  rw [if_neg e]

theorem foreach_walk_collect (l acc : List Nat) :
    foreach_walk (fun a (u : List Nat) => some (true, u ++ [a])) l acc = some (acc ++ l) := by
  induction l generalizing acc with
  | nil => simp [foreach_walk]
  | cons a rest ih =>
    simp only [foreach_walk, Bool.not_true, Bool.false_eq_true, if_false]
    rw [ih]
    simp

theorem one_entry_reach : anc_reach one_entry_heap one_entry_frame :=
  anc_reach.step (anc_op.add_string anc_env_ok "a" [104]) anc_empty one_entry_heap
    mbuf_base_frame_init one_entry_frame 0
    (anc_reach.init anc_empty ⟨by decide, by decide⟩) (by decide)

/-- C17.  For the three kinds of frame and every argument (NULL included):
`add_ancillary_string`, `add_ancillary_buffer`,
`add_ancillary_buffer_with_cbs`, `add_ancillary_data`,
`remove_ancillary_data` and `get_ancillary_data` called on a frame whose
finalized flag is `b` give what they give on the same frame with any other
value of the flag: the same return value, the same heap of ancillary data and
the same frame, the flag apart.  And on a finalized frame with well-formed
ancillary data, adding a string under a name that is absent, the allocations
succeeding, returns 0, leaves the frame finalized and puts the entry at the
end of the list, where `foreach_ancillary_data` visits it. -/
theorem mbuf_frame_ancillary_finalize_independent :
    (∀ (f : mbuf_audio_frame) (b : Bool) (env : anc_env) (h : anc_state) (name : Option String)
        (value buffer : Option (List Nat)) (len : Nat) (cbs : Option mbuf_ancillary_data_cbs)
        (c : Bool) (data : Option Nat),
      mbuf_audio_frame_add_ancillary_string env h { f with base := with_finalized b f.base } name value =
        (mbuf_audio_frame_add_ancillary_string env h f name value).map
          (fun r => (r.1, r.2.1, { r.2.2 with base := with_finalized b r.2.2.base })) ∧
      mbuf_audio_frame_add_ancillary_buffer env h { f with base := with_finalized b f.base } name buffer len =
        (mbuf_audio_frame_add_ancillary_buffer env h f name buffer len).map
          (fun r => (r.1, r.2.1, { r.2.2 with base := with_finalized b r.2.2.base })) ∧
      mbuf_audio_frame_add_ancillary_buffer_with_cbs env h { f with base := with_finalized b f.base } name buffer len cbs =
        (mbuf_audio_frame_add_ancillary_buffer_with_cbs env h f name buffer len cbs).map
          (fun r => (r.1, r.2.1, { r.2.2 with base := with_finalized b r.2.2.base })) ∧
      mbuf_audio_frame_add_ancillary_data c h { f with base := with_finalized b f.base } data =
        (mbuf_audio_frame_add_ancillary_data c h f data).map
          (fun r => (r.1, r.2.1, { r.2.2 with base := with_finalized b r.2.2.base })) ∧
      mbuf_audio_frame_remove_ancillary_data h { f with base := with_finalized b f.base } name =
        (mbuf_audio_frame_remove_ancillary_data h f name).map
          (fun r => (r.1, r.2.1, { r.2.2 with base := with_finalized b r.2.2.base })) ∧
      mbuf_audio_frame_get_ancillary_data h { f with base := with_finalized b f.base } name =
        mbuf_audio_frame_get_ancillary_data h f name) ∧
    (∀ (f : mbuf_audio_frame) (h : anc_state) (name : String) (value : List Nat),
      f.base.finalized = true → anc_wf h f.base.ancillary_data →
      some name ∉ f.base.ancillary_data.map (holder_name h) →
      mbuf_audio_frame_add_ancillary_string anc_env_ok h f (some name) (some value) =
        some (0,
          { h with
            objs := h.objs ++
              [created_data h name (value ++ [0]) (value.length + 1) true none]
            next_addr := h.next_addr + 1 },
          { f with
            base := { f.base with
              ancillary_data := f.base.ancillary_data ++ [h.next_addr]
              finalized := true } }) ∧
      holder_name
          { h with
            objs := h.objs ++
              [created_data h name (value ++ [0]) (value.length + 1) true none]
            next_addr := h.next_addr + 1 } h.next_addr = some name ∧
      mbuf_audio_frame_foreach_ancillary_data
          { f with
            base := { f.base with
              ancillary_data := f.base.ancillary_data ++ [h.next_addr]
              finalized := true } }
          (some (fun a (u : List Nat) => some (true, u ++ [a]))) [] =
        some (0, f.base.ancillary_data ++ [h.next_addr])) ∧
    (∀ (f : mbuf_raw_video_frame) (b : Bool) (env : anc_env) (h : anc_state) (name : Option String)
        (value buffer : Option (List Nat)) (len : Nat) (cbs : Option mbuf_ancillary_data_cbs)
        (c : Bool) (data : Option Nat),
      mbuf_raw_video_frame_add_ancillary_string env h { f with base := with_finalized b f.base } name value =
        (mbuf_raw_video_frame_add_ancillary_string env h f name value).map
          (fun r => (r.1, r.2.1, { r.2.2 with base := with_finalized b r.2.2.base })) ∧
      mbuf_raw_video_frame_add_ancillary_buffer env h { f with base := with_finalized b f.base } name buffer len =
        (mbuf_raw_video_frame_add_ancillary_buffer env h f name buffer len).map
          (fun r => (r.1, r.2.1, { r.2.2 with base := with_finalized b r.2.2.base })) ∧
      mbuf_raw_video_frame_add_ancillary_buffer_with_cbs env h { f with base := with_finalized b f.base } name buffer len cbs =
        (mbuf_raw_video_frame_add_ancillary_buffer_with_cbs env h f name buffer len cbs).map
          (fun r => (r.1, r.2.1, { r.2.2 with base := with_finalized b r.2.2.base })) ∧
      mbuf_raw_video_frame_add_ancillary_data c h { f with base := with_finalized b f.base } data =
        (mbuf_raw_video_frame_add_ancillary_data c h f data).map
          (fun r => (r.1, r.2.1, { r.2.2 with base := with_finalized b r.2.2.base })) ∧
      mbuf_raw_video_frame_remove_ancillary_data h { f with base := with_finalized b f.base } name =
        (mbuf_raw_video_frame_remove_ancillary_data h f name).map
          (fun r => (r.1, r.2.1, { r.2.2 with base := with_finalized b r.2.2.base })) ∧
      mbuf_raw_video_frame_get_ancillary_data h { f with base := with_finalized b f.base } name =
        mbuf_raw_video_frame_get_ancillary_data h f name) ∧
    (∀ (f : mbuf_raw_video_frame) (h : anc_state) (name : String) (value : List Nat),
      f.base.finalized = true → anc_wf h f.base.ancillary_data →
      some name ∉ f.base.ancillary_data.map (holder_name h) →
      mbuf_raw_video_frame_add_ancillary_string anc_env_ok h f (some name) (some value) =
        some (0,
          { h with
            objs := h.objs ++
              [created_data h name (value ++ [0]) (value.length + 1) true none]
            next_addr := h.next_addr + 1 },
          { f with
            base := { f.base with
              ancillary_data := f.base.ancillary_data ++ [h.next_addr]
              finalized := true } }) ∧
      holder_name
          { h with
            objs := h.objs ++
              [created_data h name (value ++ [0]) (value.length + 1) true none]
            next_addr := h.next_addr + 1 } h.next_addr = some name ∧
      mbuf_raw_video_frame_foreach_ancillary_data
          { f with
            base := { f.base with
              ancillary_data := f.base.ancillary_data ++ [h.next_addr]
              finalized := true } }
          (some (fun a (u : List Nat) => some (true, u ++ [a]))) [] =
        some (0, f.base.ancillary_data ++ [h.next_addr])) ∧
    (∀ (f : mbuf_coded_video_frame) (b : Bool) (env : anc_env) (h : anc_state) (name : Option String)
        (value buffer : Option (List Nat)) (len : Nat) (cbs : Option mbuf_ancillary_data_cbs)
        (c : Bool) (data : Option Nat),
      mbuf_coded_video_frame_add_ancillary_string env h { f with base := with_finalized b f.base } name value =
        (mbuf_coded_video_frame_add_ancillary_string env h f name value).map
          (fun r => (r.1, r.2.1, { r.2.2 with base := with_finalized b r.2.2.base })) ∧
      mbuf_coded_video_frame_add_ancillary_buffer env h { f with base := with_finalized b f.base } name buffer len =
        (mbuf_coded_video_frame_add_ancillary_buffer env h f name buffer len).map
          (fun r => (r.1, r.2.1, { r.2.2 with base := with_finalized b r.2.2.base })) ∧
      mbuf_coded_video_frame_add_ancillary_buffer_with_cbs env h { f with base := with_finalized b f.base } name buffer len cbs =
        (mbuf_coded_video_frame_add_ancillary_buffer_with_cbs env h f name buffer len cbs).map
          (fun r => (r.1, r.2.1, { r.2.2 with base := with_finalized b r.2.2.base })) ∧
      mbuf_coded_video_frame_add_ancillary_data c h { f with base := with_finalized b f.base } data =
        (mbuf_coded_video_frame_add_ancillary_data c h f data).map
          (fun r => (r.1, r.2.1, { r.2.2 with base := with_finalized b r.2.2.base })) ∧
      mbuf_coded_video_frame_remove_ancillary_data h { f with base := with_finalized b f.base } name =
        (mbuf_coded_video_frame_remove_ancillary_data h f name).map
          (fun r => (r.1, r.2.1, { r.2.2 with base := with_finalized b r.2.2.base })) ∧
      mbuf_coded_video_frame_get_ancillary_data h { f with base := with_finalized b f.base } name =
        mbuf_coded_video_frame_get_ancillary_data h f name) ∧
    (∀ (f : mbuf_coded_video_frame) (h : anc_state) (name : String) (value : List Nat),
      f.base.finalized = true → anc_wf h f.base.ancillary_data →
      some name ∉ f.base.ancillary_data.map (holder_name h) →
      mbuf_coded_video_frame_add_ancillary_string anc_env_ok h f (some name) (some value) =
        some (0,
          { h with
            objs := h.objs ++
              [created_data h name (value ++ [0]) (value.length + 1) true none]
            next_addr := h.next_addr + 1 },
          { f with
            base := { f.base with
              ancillary_data := f.base.ancillary_data ++ [h.next_addr]
              finalized := true } }) ∧
      holder_name
          { h with
            objs := h.objs ++
              [created_data h name (value ++ [0]) (value.length + 1) true none]
            next_addr := h.next_addr + 1 } h.next_addr = some name ∧
      mbuf_coded_video_frame_foreach_ancillary_data
          { f with
            base := { f.base with
              ancillary_data := f.base.ancillary_data ++ [h.next_addr]
              finalized := true } }
          (some (fun a (u : List Nat) => some (true, u ++ [a]))) [] =
        some (0, f.base.ancillary_data ++ [h.next_addr])) := by
  refine ⟨?_, ?_, ?_, ?_, ?_, ?_⟩
  · intro f b env h name value buffer len cbs c data
    refine ⟨?_, ?_, ?_, ?_, ?_, ?_⟩
    · cases name <;> cases value <;>
        simp [mbuf_audio_frame_add_ancillary_string, mbuf_base_frame_add_ancillary_string,
          create_ancillary_internal_finalized, Option.map_map, Function.comp_def]
    · by_cases hlen : len = 0 <;> cases name <;> cases buffer <;>
        simp [mbuf_audio_frame_add_ancillary_buffer, mbuf_base_frame_add_ancillary_buffer,
          create_ancillary_internal_finalized, Option.map_map, Function.comp_def, hlen]
    · by_cases hlen : len = 0 <;> cases name <;> cases buffer <;>
        simp [mbuf_audio_frame_add_ancillary_buffer_with_cbs,
          mbuf_base_frame_add_ancillary_buffer_with_cbs,
          create_ancillary_internal_finalized, Option.map_map, Function.comp_def, hlen]
    · cases data <;>
        simp [mbuf_audio_frame_add_ancillary_data, mbuf_base_frame_add_ancillary_data,
          add_ancillary_internal_finalized, Option.map_map, Function.comp_def]
    · cases name <;>
        simp [mbuf_audio_frame_remove_ancillary_data, remove_ancillary_data_finalized,
          Option.map_map, Function.comp_def]
    · cases name <;> rfl
  · intro f h name value hfin hw hn
    refine ⟨?_, ?_, ?_⟩
    · simp only [mbuf_audio_frame_add_ancillary_string, mbuf_base_frame_add_ancillary_string,
        mbuf_base_frame_create_ancillary_internal_new hw hn, Option.map_some', ← hfin]
    · show Option.map _ (find_anc (h.objs ++ [created_data h name (value ++ [0])
        (value.length + 1) true none]) h.next_addr) = _
      have e := @find_anc_append_new h hw.1
        (created_data h name (value ++ [0]) (value.length + 1) true none) rfl
      have e2 : (created_data h name (value ++ [0]) (value.length + 1) true none).addr =
        h.next_addr := rfl
      rw [e2] at e
      rw [e]
      rfl
    · simp only [mbuf_audio_frame_foreach_ancillary_data,
        mbuf_base_frame_foreach_ancillary_data, foreach_walk_collect, List.nil_append]
  · intro f b env h name value buffer len cbs c data
    refine ⟨?_, ?_, ?_, ?_, ?_, ?_⟩
    · cases name <;> cases value <;>
        simp [mbuf_raw_video_frame_add_ancillary_string, mbuf_base_frame_add_ancillary_string,
          create_ancillary_internal_finalized, Option.map_map, Function.comp_def]
    · by_cases hlen : len = 0 <;> cases name <;> cases buffer <;>
        simp [mbuf_raw_video_frame_add_ancillary_buffer, mbuf_base_frame_add_ancillary_buffer,
          create_ancillary_internal_finalized, Option.map_map, Function.comp_def, hlen]
    · by_cases hlen : len = 0 <;> cases name <;> cases buffer <;>
        simp [mbuf_raw_video_frame_add_ancillary_buffer_with_cbs,
          mbuf_base_frame_add_ancillary_buffer_with_cbs,
          create_ancillary_internal_finalized, Option.map_map, Function.comp_def, hlen]
    · cases data <;>
        simp [mbuf_raw_video_frame_add_ancillary_data, mbuf_base_frame_add_ancillary_data,
          add_ancillary_internal_finalized, Option.map_map, Function.comp_def]
    · cases name <;>
        simp [mbuf_raw_video_frame_remove_ancillary_data, remove_ancillary_data_finalized,
          Option.map_map, Function.comp_def]
    · cases name <;> rfl
  · intro f h name value hfin hw hn
    refine ⟨?_, ?_, ?_⟩
    · simp only [mbuf_raw_video_frame_add_ancillary_string, mbuf_base_frame_add_ancillary_string,
        mbuf_base_frame_create_ancillary_internal_new hw hn, Option.map_some', ← hfin]
    · show Option.map _ (find_anc (h.objs ++ [created_data h name (value ++ [0])
        (value.length + 1) true none]) h.next_addr) = _
      have e := @find_anc_append_new h hw.1
        (created_data h name (value ++ [0]) (value.length + 1) true none) rfl
      have e2 : (created_data h name (value ++ [0]) (value.length + 1) true none).addr =
        h.next_addr := rfl
      rw [e2] at e
      rw [e]
      rfl
    · simp only [mbuf_raw_video_frame_foreach_ancillary_data,
        mbuf_base_frame_foreach_ancillary_data, foreach_walk_collect, List.nil_append]
  · intro f b env h name value buffer len cbs c data
    refine ⟨?_, ?_, ?_, ?_, ?_, ?_⟩
    · cases name <;> cases value <;>
        simp [mbuf_coded_video_frame_add_ancillary_string, mbuf_base_frame_add_ancillary_string,
          create_ancillary_internal_finalized, Option.map_map, Function.comp_def]
    · by_cases hlen : len = 0 <;> cases name <;> cases buffer <;>
        simp [mbuf_coded_video_frame_add_ancillary_buffer, mbuf_base_frame_add_ancillary_buffer,
          create_ancillary_internal_finalized, Option.map_map, Function.comp_def, hlen]
    · by_cases hlen : len = 0 <;> cases name <;> cases buffer <;>
        simp [mbuf_coded_video_frame_add_ancillary_buffer_with_cbs,
          mbuf_base_frame_add_ancillary_buffer_with_cbs,
          create_ancillary_internal_finalized, Option.map_map, Function.comp_def, hlen]
    · cases data <;>
        simp [mbuf_coded_video_frame_add_ancillary_data, mbuf_base_frame_add_ancillary_data,
          add_ancillary_internal_finalized, Option.map_map, Function.comp_def]
    · cases name <;>
        simp [mbuf_coded_video_frame_remove_ancillary_data, remove_ancillary_data_finalized,
          Option.map_map, Function.comp_def]
    · cases name <;> rfl
  · intro f h name value hfin hw hn
    refine ⟨?_, ?_, ?_⟩
    · simp only [mbuf_coded_video_frame_add_ancillary_string, mbuf_base_frame_add_ancillary_string,
        mbuf_base_frame_create_ancillary_internal_new hw hn, Option.map_some', ← hfin]
    · show Option.map _ (find_anc (h.objs ++ [created_data h name (value ++ [0])
        (value.length + 1) true none]) h.next_addr) = _
      have e := @find_anc_append_new h hw.1
        (created_data h name (value ++ [0]) (value.length + 1) true none) rfl
      have e2 : (created_data h name (value ++ [0]) (value.length + 1) true none).addr =
        h.next_addr := rfl
      rw [e2] at e
      rw [e]
      rfl
    · simp only [mbuf_coded_video_frame_foreach_ancillary_data,
        mbuf_base_frame_foreach_ancillary_data, foreach_walk_collect, List.nil_append]

/-! ### Ancillary data: the walk of the copier callbacks -/

/-- The walk of `mbuf_base_frame_foreach_ancillary_data` with a callback that
adds each entry to another frame with `mbuf_base_frame_add_ancillary_data` and
goes on whatever the result, as the three copier callbacks do.  `proj` reads
the number of holder allocations made, the heap and the base of the other
frame in the user data.  When the entries of the list are live with distinct
names, none of them in the other frame, and the holder allocations succeed,
the other frame gets the entries in their order, and each of them gets one
reference more; nothing else changes in the heap. -/
theorem copier_walk {σ : Type} (ch : Nat → Bool) (cb : Nat → σ → Option (Bool × σ))
    (proj : σ → Nat × anc_state × mbuf_base_frame)
    (hcb : ∀ a u, (cb a u).map (fun r => (r.1, proj r.2)) =
      (mbuf_base_frame_add_ancillary_data (ch (proj u).1) (proj u).2.1 (proj u).2.2 a).map
        (fun r => (true, (proj u).1 + 1, r.2.1, r.2.2)))
    (l : List Nat) :
    ∀ (u : σ) (n : Nat) (h : anc_state) (b : mbuf_base_frame), proj u = (n, h, b) →
      anc_wf h b.ancillary_data →
      (∀ a ∈ l, holder_name h a ≠ none) →
      (l.map (holder_name h)).Nodup →
      (∀ a ∈ l, holder_name h a ∉ b.ancillary_data.map (holder_name h)) →
      (∀ i, i < l.length → ch (n + i) = true) →
      ∃ u1, foreach_walk cb l u = some u1 ∧
        (proj u1).2.2.ancillary_data = b.ancillary_data ++ l ∧
        (proj u1).2.1.cleaner_log = h.cleaner_log ∧
        (proj u1).2.1.next_addr = h.next_addr ∧
        (proj u1).2.1.objs.map (fun d => d.addr) = h.objs.map (fun d => d.addr) ∧
        ∀ a d, find_anc h.objs a = some d →
          find_anc (proj u1).2.1.objs a =
            some { d with
              ref_count := if a ∈ l then wrap_int (d.ref_count + 1) else d.ref_count } := by
  induction l with
  | nil =>
    intro u n h b hp _ _ _ _ _
    refine ⟨u, rfl, ?_, ?_, ?_, ?_, ?_⟩
    · rw [hp]
      simp
    · rw [hp]
    · rw [hp]
    · rw [hp]
    · intro a d hd
      rw [hp]
      simp [hd]
  | cons a rest ih =>
    intro u n h b hp hw hlive hnd hnew hch
    have hla := hlive a (List.mem_cons_self _ _)
    cases hd : find_anc h.objs a with
    | none => simp [holder_name, hd] at hla
    | some d =>
      have hna := holder_name_of_find hd
      have hnin : some d.name ∉ b.ancillary_data.map (holder_name h) := by
        rw [← hna]
        exact hnew a (List.mem_cons_self _ _)
      have hc0 : ch n = true := hch 0 (by simp)
      have hadd : mbuf_base_frame_add_ancillary_data (ch n) h b a =
          some (0, { h with objs := set_ref_count h.objs a (wrap_int (d.ref_count + 1)) },
            { b with ancillary_data := b.ancillary_data ++ [a] }) := by
        simp only [mbuf_base_frame_add_ancillary_data]
        rw [mbuf_base_frame_add_ancillary_internal_cases (ch n) hd hw.2.1, if_neg hnin, hc0]
        rfl
      have hcb1 := hcb a u
      rw [hp] at hcb1
      simp only [hadd, Option.map_some'] at hcb1
      cases hcu : cb a u with
      | none => simp [hcu] at hcb1
      | some r =>
        obtain ⟨c, u1⟩ := r
        simp only [hcu, Option.map_some', Option.some.injEq, Prod.mk.injEq] at hcb1
        obtain ⟨hcT, hp1⟩ := hcb1
        have hw1 : anc_wf { h with objs := set_ref_count h.objs a (wrap_int (d.ref_count + 1)) }
            (b.ancillary_data ++ [a]) :=
          anc_wf_set_ref_count (anc_wf_append_holder hw hna hnin) _ _
        have hnd1 : holder_name h a ∉ rest.map (holder_name h) ∧
            (rest.map (holder_name h)).Nodup := by
          rw [List.map_cons] at hnd
          exact List.nodup_cons.1 hnd
        obtain ⟨u2, hwalk, hl2, hlog2, hnext2, haddr2, hfind2⟩ :=
          ih u1 (n + 1) _ _ hp1 hw1
            (by
              intro x hx
              rw [holder_name_set_ref_count]
              exact hlive x (List.mem_cons_of_mem _ hx))
            (by
              rw [List.map_congr_left (fun x _ => holder_name_set_ref_count h a x _)]
              exact hnd1.2)
            (by
              intro x hx
              rw [List.map_congr_left (fun y _ => holder_name_set_ref_count h a y _),
                holder_name_set_ref_count]
              show holder_name h x ∉ List.map (holder_name h) (b.ancillary_data ++ [a])
              rw [List.map_append, List.mem_append]
              rintro (e | e)
              · exact hnew x (List.mem_cons_of_mem _ hx) e
              · simp only [List.map_singleton, List.mem_singleton] at e
                apply hnd1.1
                rw [← e]
                exact List.mem_map_of_mem _ hx)
            (by
              intro i hi
              have := hch (i + 1) (by simpa using hi)
              rw [show n + 1 + i = n + (i + 1) by omega]
              exact this)
        refine ⟨u2, ?_, ?_, hlog2, hnext2, ?_, ?_⟩
        · simp only [foreach_walk, hcu, hcT, Bool.not_true, Bool.false_eq_true, if_false]
          exact hwalk
        · rw [hl2]
          simp
        · rw [haddr2]
          exact map_addr_set_ref_count _ _ _
        · intro x dx hx
          have hnotin : a ∉ rest := by
            intro hin
            apply hnd1.1
            exact List.mem_map_of_mem _ hin
          have hfx := find_anc_set_ref_count h.objs a x (wrap_int (d.ref_count + 1))
          rw [hx] at hfx
          simp only [Option.map_some'] at hfx
          have hax := (find_anc_addr hx).1
          rw [hfind2 x _ hfx]
          by_cases e : x = a
          · subst e
            have hdx : dx = d := by
              rw [hd] at hx
              exact (Option.some.inj hx).symm
            subst hdx
            simp [hax, hnotin]
          · have e2 : ¬ dx.addr = a := by
              rw [hax]
              exact e
            simp [e2, e]

/-! ### Copy: what happens to the ancillary data -/

theorem mbuf_base_frame_set_metadata_ancillary (env : vmeta_env) (log : List vmeta_call)
    (frame : mbuf_base_frame) (meta : Option Nat) :
    (mbuf_base_frame_set_metadata env log frame meta).2.2.ancillary_data =
      frame.ancillary_data := by
  unfold mbuf_base_frame_set_metadata
  repeat' split
  all_goals rfl

theorem mbuf_coded_video_frame_copy_out_ok {env : frame_env} {w0 w1 : frame_world}
    {locked src : mbuf_coded_video_frame} {ret0 : Int}
    {nf0 : Option mbuf_coded_video_frame} {nf : mbuf_coded_video_frame}
    (h : mbuf_coded_video_frame_copy_out env locked ret0 nf0 w0 = some (0, some nf, w1, src)) :
    ret0 = 0 ∧ nf0 = some nf ∧ w1 = w0 := by
  unfold mbuf_coded_video_frame_copy_out at h
  dsimp only at h
  repeat' split at h
  all_goals simp only [Option.some.injEq, Prod.mk.injEq, reduceCtorEq, false_and, and_false] at h
  obtain ⟨h1, h2, h3, _⟩ := h
  exact ⟨h1, congrArg some h2, h3.symm⟩

theorem mbuf_coded_video_frame_new_base {c : Bool} {info : Option vdef_coded_frame}
    {nf : mbuf_coded_video_frame} (h : (mbuf_coded_video_frame_new c info).2 = some nf) :
    nf.base = mbuf_base_frame_init := by
  unfold mbuf_coded_video_frame_new at h
  repeat' split at h
  all_goals simp only [Option.some.injEq, reduceCtorEq] at h
  rw [← h]

theorem mbuf_coded_video_frame_foreach_walk {σ : Type} {frame : mbuf_coded_video_frame}
    {cb : Nat → σ → Option (Bool × σ)} {u u1 : σ} {ret : Int}
    (h : mbuf_coded_video_frame_foreach_ancillary_data frame (some cb) u = some (ret, u1)) :
    foreach_walk cb frame.base.ancillary_data u = some u1 := by
  simp only [mbuf_coded_video_frame_foreach_ancillary_data,
    mbuf_base_frame_foreach_ancillary_data] at h
  split at h
  · exact absurd h (by simp)
  · simp only [Option.some.injEq, Prod.mk.injEq] at h
    rw [← h.2]
    assumption

theorem mbuf_coded_video_frame_add_nalu_base {c : Bool} {data : Nat → Nat} {s s1 : mbuf_state}
    {frame frame1 : mbuf_coded_video_frame} {mem : Option Nat} {offset : Nat}
    {nalu : Option vdef_nalu} {ret : Int}
    (h : mbuf_coded_video_frame_add_nalu c data s frame mem offset nalu =
      some (ret, s1, frame1)) : frame1.base = frame.base := by
  unfold mbuf_coded_video_frame_add_nalu mbuf_coded_video_frame_insert_nalu_internal at h
  dsimp only at h
  repeat' split at h
  all_goals simp only [Option.some.injEq, Prod.mk.injEq, reduceCtorEq] at h
  all_goals rw [← h.2.2]

theorem copy_nalus_base (realloc_ok : Nat → Bool) (data : Nat → Nat) (dst : Nat)
    (l : List mbuf_coded_video_frame_nalu) :
    ∀ (i offset : Nat) (bytes : Nat → Nat) (s : mbuf_state) (nf : mbuf_coded_video_frame)
      (r : Int × (Nat → Nat) × mbuf_state × mbuf_coded_video_frame),
      copy_nalus realloc_ok data dst l i offset bytes s nf = some r → r.2.2.2.base = nf.base := by
  induction l with
  | nil =>
    intro i offset bytes s nf r h
    simp only [copy_nalus, Option.some.injEq] at h
    rw [← h]
  | cons p rest ih =>
    intro i offset bytes s nf r h
    simp only [copy_nalus] at h
    split at h
    · exact absurd h (by simp)
    · rename_i ret s1 nf1 hadd
      have hb := mbuf_coded_video_frame_add_nalu_base hadd
      split at h
      · simp only [Option.some.injEq] at h
        rw [← h]
        exact hb
      · rw [ih _ _ _ _ _ _ h, hb]

theorem mbuf_coded_video_frame_copy_anc {env : frame_env} {w w1 : frame_world}
    {frame src nf : mbuf_coded_video_frame} {dst : Option Nat}
    (h : mbuf_coded_video_frame_copy env w frame dst = some (0, some nf, w1, src)) :
    ∃ nf0 u1, nf0.base = mbuf_base_frame_init ∧
      foreach_walk (mbuf_coded_video_frame_ancillary_data_copier env.calloc_holder)
        frame.base.ancillary_data (0, w.anc, nf0) = some u1 ∧
      w1.anc = u1.2.1 ∧ nf.base.ancillary_data = u1.2.2.base.ancillary_data := by
  unfold mbuf_coded_video_frame_copy at h
  dsimp only at h
  repeat' split at h
  all_goals try simp only [Option.some.injEq, Prod.mk.injEq, reduceCtorEq, false_and,
    and_false] at h
  all_goals try
    (have h0 := mbuf_coded_video_frame_copy_out_ok h
     simp only [reduceCtorEq, false_and, and_false] at h0)
  all_goals try exact absurd h0.1 ‹_›
  have hn := ‹(mbuf_coded_video_frame_new env.calloc_frame (some frame.info)).2 = some _›
  have hf := mbuf_coded_video_frame_foreach_walk
    ‹mbuf_coded_video_frame_foreach_ancillary_data _ _ _ = some _›
  have hc := copy_nalus_base _ _ _ _ _ _ _ _ _ _ ‹copy_nalus _ _ _ _ _ _ _ _ _ = some _›
  refine ⟨_, _, mbuf_coded_video_frame_new_base hn, hf, ?_, ?_⟩
  · rw [h0.2.2]
  · rw [← Option.some.inj h0.2.1]
    show (mbuf_base_frame_set_metadata _ _ _ _).2.2.ancillary_data = _
    rw [mbuf_base_frame_set_metadata_ancillary, hc]

theorem mbuf_audio_frame_copy_out_ok {env : frame_env} {w0 w1 : frame_world}
    {locked src : mbuf_audio_frame} {ret0 : Int}
    {nf0 : Option mbuf_audio_frame} {nf : mbuf_audio_frame}
    (h : mbuf_audio_frame_copy_out env locked ret0 nf0 w0 = some (0, some nf, w1, src)) :
    ret0 = 0 ∧ nf0 = some nf ∧ w1 = w0 := by
  unfold mbuf_audio_frame_copy_out at h
  dsimp only at h
  repeat' split at h
  all_goals simp only [Option.some.injEq, Prod.mk.injEq, reduceCtorEq, false_and, and_false] at h
  obtain ⟨h1, h2, h3, _⟩ := h
  exact ⟨h1, congrArg some h2, h3.symm⟩

theorem mbuf_audio_frame_new_base {c : Bool} {info : Option adef_frame}
    {nf : mbuf_audio_frame} (h : (mbuf_audio_frame_new c info).2 = some nf) :
    nf.base = mbuf_base_frame_init := by
  unfold mbuf_audio_frame_new at h
  repeat' split at h
  all_goals simp only [Option.some.injEq, reduceCtorEq] at h
  rw [← h]

theorem mbuf_audio_frame_foreach_walk {σ : Type} {frame : mbuf_audio_frame}
    {cb : Nat → σ → Option (Bool × σ)} {u u1 : σ} {ret : Int}
    (h : mbuf_audio_frame_foreach_ancillary_data frame (some cb) u = some (ret, u1)) :
    foreach_walk cb frame.base.ancillary_data u = some u1 := by
  simp only [mbuf_audio_frame_foreach_ancillary_data,
    mbuf_base_frame_foreach_ancillary_data] at h
  split at h
  · exact absurd h (by simp)
  · simp only [Option.some.injEq, Prod.mk.injEq] at h
    rw [← h.2]
    assumption

theorem mbuf_audio_frame_set_buffer_base {sp : Nat} {data : Nat → Nat} {s s1 : mbuf_state}
    {frame frame1 : mbuf_audio_frame} {mem : Option Nat} {offset len : Nat} {ret : Int}
    (h : mbuf_audio_frame_set_buffer sp data s frame mem offset len = some (ret, s1, frame1)) :
    frame1.base = frame.base := by
  unfold mbuf_audio_frame_set_buffer at h
  dsimp only at h
  repeat' split at h
  all_goals simp only [Option.some.injEq, Prod.mk.injEq, reduceCtorEq] at h
  all_goals rw [← h.2.2]

theorem mbuf_audio_frame_copy_anc {env : frame_env} {w w1 : frame_world}
    {frame src nf : mbuf_audio_frame} {dst : Option Nat}
    (h : mbuf_audio_frame_copy env w frame dst = some (0, some nf, w1, src)) :
    ∃ nf0 u1, nf0.base = mbuf_base_frame_init ∧
      foreach_walk (mbuf_audio_frame_ancillary_data_copier env.calloc_holder)
        frame.base.ancillary_data (0, w.anc, nf0) = some u1 ∧
      w1.anc = u1.2.1 ∧ nf.base.ancillary_data = u1.2.2.base.ancillary_data := by
  unfold mbuf_audio_frame_copy at h
  dsimp only at h
  repeat' split at h
  all_goals try simp only [Option.some.injEq, Prod.mk.injEq, reduceCtorEq, false_and,
    and_false] at h
  all_goals try
    (have h0 := mbuf_audio_frame_copy_out_ok h
     simp only [reduceCtorEq, false_and, and_false] at h0)
  all_goals try exact absurd h0.1 ‹_›
  have hn := ‹(mbuf_audio_frame_new env.calloc_frame (some frame.info)).2 = some _›
  have hf := mbuf_audio_frame_foreach_walk
    ‹mbuf_audio_frame_foreach_ancillary_data _ _ _ = some _›
  have hc := mbuf_audio_frame_set_buffer_base
    ‹mbuf_audio_frame_set_buffer _ _ _ _ _ _ _ = some _›
  refine ⟨_, _, mbuf_audio_frame_new_base hn, hf, ?_, ?_⟩
  · rw [h0.2.2]
  · rw [← Option.some.inj h0.2.1, hc]

theorem mbuf_raw_video_frame_copy_out_ok {env : frame_env} {w0 w1 : frame_world}
    {locked src : mbuf_raw_video_frame} {ret0 : Int}
    {nf0 : Option mbuf_raw_video_frame} {nf : mbuf_raw_video_frame}
    (h : mbuf_raw_video_frame_copy_out env locked ret0 nf0 w0 = some (0, some nf, w1, src)) :
    ret0 = 0 ∧ nf0 = some nf ∧ w1 = w0 := by
  unfold mbuf_raw_video_frame_copy_out at h
  dsimp only at h
  repeat' split at h
  all_goals simp only [Option.some.injEq, Prod.mk.injEq, reduceCtorEq, false_and, and_false] at h
  obtain ⟨h1, h2, h3, _⟩ := h
  exact ⟨h1, congrArg some h2, h3.symm⟩

theorem mbuf_raw_video_frame_new_base {c : Bool} {info : Option vdef_raw_frame}
    {nf : mbuf_raw_video_frame} (h : (mbuf_raw_video_frame_new c info).2 = some nf) :
    nf.base = mbuf_base_frame_init := by
  unfold mbuf_raw_video_frame_new at h
  repeat' split at h
  all_goals simp only [Option.some.injEq, reduceCtorEq] at h
  rw [← h]

theorem mbuf_raw_video_frame_foreach_walk {σ : Type} {frame : mbuf_raw_video_frame}
    {cb : Nat → σ → Option (Bool × σ)} {u u1 : σ} {ret : Int}
    (h : mbuf_raw_video_frame_foreach_ancillary_data frame (some cb) u = some (ret, u1)) :
    foreach_walk cb frame.base.ancillary_data u = some u1 := by
  simp only [mbuf_raw_video_frame_foreach_ancillary_data,
    mbuf_base_frame_foreach_ancillary_data] at h
  split at h
  · exact absurd h (by simp)
  · simp only [Option.some.injEq, Prod.mk.injEq] at h
    rw [← h.2]
    assumption

theorem mbuf_raw_video_frame_set_plane_base {sp : Nat} {data : Nat → Nat} {s s1 : mbuf_state}
    {frame frame1 : mbuf_raw_video_frame} {plane : Nat} {mem : Option Nat} {offset len : Nat}
    {ret : Int}
    (h : mbuf_raw_video_frame_set_plane sp data s frame plane mem offset len =
      some (ret, s1, frame1)) : frame1.base = frame.base := by
  unfold mbuf_raw_video_frame_set_plane at h
  dsimp only at h
  repeat' split at h
  all_goals simp only [Option.some.injEq, Prod.mk.injEq, reduceCtorEq] at h
  all_goals rw [← h.2.2]

theorem copy_planes_base (sp : Nat) (data : Nat → Nat) (dst : Nat) (l : List frame_buffer) :
    ∀ (i offset : Nat) (bytes : Nat → Nat) (s : mbuf_state) (nf : mbuf_raw_video_frame)
      (r : Int × (Nat → Nat) × mbuf_state × mbuf_raw_video_frame),
      copy_planes sp data dst l i offset bytes s nf = some r → r.2.2.2.base = nf.base := by
  induction l with
  | nil =>
    intro i offset bytes s nf r h
    simp only [copy_planes, Option.some.injEq] at h
    rw [← h]
  | cons p rest ih =>
    intro i offset bytes s nf r h
    simp only [copy_planes] at h
    split at h
    · exact absurd h (by simp)
    · rename_i ret s1 nf1 hadd
      have hb := mbuf_raw_video_frame_set_plane_base hadd
      split at h
      · simp only [Option.some.injEq] at h
        rw [← h]
        exact hb
      · rw [ih _ _ _ _ _ _ h, hb]

theorem copy_planes_tight_base (sp : Nat) (data : Nat → Nat) (dst : Nat)
    (src_stride plane_stride plane_size : List Nat) (l : List frame_buffer) :
    ∀ (i offset : Nat) (bytes : Nat → Nat) (s : mbuf_state) (nf : mbuf_raw_video_frame)
      (r : Int × (Nat → Nat) × mbuf_state × mbuf_raw_video_frame),
      copy_planes_tight sp data dst src_stride plane_stride plane_size l i offset bytes s nf =
        some r → r.2.2.2.base = nf.base := by
  induction l with
  | nil =>
    intro i offset bytes s nf r h
    simp only [copy_planes_tight, Option.some.injEq] at h
    rw [← h]
  | cons p rest ih =>
    intro i offset bytes s nf r h
    simp only [copy_planes_tight] at h
    split at h
    · split at h
      · exact absurd h (by simp)
      · split at h
        · exact absurd h (by simp)
        · rename_i ret s1 nf1 hadd
          have hb := mbuf_raw_video_frame_set_plane_base hadd
          split at h
          · simp only [Option.some.injEq] at h
            rw [← h]
            exact hb
          · rw [ih _ _ _ _ _ _ h]
            exact hb
    · exact absurd h (by simp)

theorem mbuf_raw_video_frame_copy_planes_done_anc {env : frame_env} {w w1 : frame_world}
    {locked src nf : mbuf_raw_video_frame} {h1 : anc_state}
    {r : Int × (Nat → Nat) × mbuf_state × mbuf_raw_video_frame}
    (h : mbuf_raw_video_frame_copy_planes_done env w locked h1 r = some (0, some nf, w1, src)) :
    w1.anc = h1 ∧ nf.base.ancillary_data = r.2.2.2.base.ancillary_data := by
  unfold mbuf_raw_video_frame_copy_planes_done at h
  dsimp only at h
  split at h
  · exact absurd (mbuf_raw_video_frame_copy_out_ok h).1 ‹_›
  · have h0 := mbuf_raw_video_frame_copy_out_ok h
    refine ⟨by rw [h0.2.2], ?_⟩
    rw [← Option.some.inj h0.2.1]
    exact mbuf_base_frame_set_metadata_ancillary _ _ _ _

theorem mbuf_raw_video_frame_copy_fill_anc {env : frame_env} {w w1 : frame_world}
    {locked src nf nf0 : mbuf_raw_video_frame} {d : Nat} {remove_stride : Bool}
    (h : mbuf_raw_video_frame_copy_fill env w locked d remove_stride nf0 =
      some (0, some nf, w1, src)) :
    ∃ u1,
      foreach_walk (mbuf_raw_video_frame_ancillary_data_copier env.calloc_holder)
        locked.base.ancillary_data (0, w.anc, nf0) = some u1 ∧
      w1.anc = u1.2.1 ∧ nf.base.ancillary_data = u1.2.2.base.ancillary_data := by
  unfold mbuf_raw_video_frame_copy_fill at h
  split at h
  · exact absurd h (by simp)
  · rename_i ret1 fst h1 nf1 hfe
    have hf := mbuf_raw_video_frame_foreach_walk hfe
    refine ⟨_, hf, ?_⟩
    split at h
    · exact absurd (mbuf_raw_video_frame_copy_out_ok h).1 ‹_›
    · split at h
      · exact absurd h (by simp)
      · split at h
        · split at h
          · exact absurd h (by simp)
          · rename_i r hcp
            have hd := mbuf_raw_video_frame_copy_planes_done_anc h
            exact ⟨hd.1, by rw [hd.2, copy_planes_base _ _ _ _ _ _ _ _ _ _ hcp]⟩
        · split at h
          · exact absurd (mbuf_raw_video_frame_copy_out_ok h).1 ‹_›
          · split at h
            · exact absurd h (by simp)
            · rename_i r hcp
              have hd := mbuf_raw_video_frame_copy_planes_done_anc h
              exact ⟨hd.1, by rw [hd.2, copy_planes_tight_base _ _ _ _ _ _ _ _ _ _ _ _ _ hcp]⟩

theorem mbuf_raw_video_frame_copy_anc {env : frame_env} {w w1 : frame_world}
    {frame src nf : mbuf_raw_video_frame} {dst : Option Nat} {remove_stride : Bool}
    (h : mbuf_raw_video_frame_copy env w frame dst remove_stride =
      some (0, some nf, w1, src)) :
    ∃ nf0 u1, nf0.base = mbuf_base_frame_init ∧
      foreach_walk (mbuf_raw_video_frame_ancillary_data_copier env.calloc_holder)
        frame.base.ancillary_data (0, w.anc, nf0) = some u1 ∧
      w1.anc = u1.2.1 ∧ nf.base.ancillary_data = u1.2.2.base.ancillary_data := by
  unfold mbuf_raw_video_frame_copy at h
  dsimp only at h
  repeat' split at h
  all_goals try simp only [Option.some.injEq, Prod.mk.injEq, reduceCtorEq, false_and,
    and_false] at h
  all_goals try
    (have h0 := mbuf_raw_video_frame_copy_out_ok h
     simp only [reduceCtorEq, false_and, and_false] at h0)
  have hn := ‹(mbuf_raw_video_frame_new env.calloc_frame (some frame.info)).2 = some _›
  obtain ⟨u1, hf, h1, h2⟩ := mbuf_raw_video_frame_copy_fill_anc h
  exact ⟨_, u1, mbuf_raw_video_frame_new_base hn, hf, h1, h2⟩

/-- On a heap `h1` that has the objects of `h` with one reference more on the
entries of the well-formed list `l`: an entry whose count was an `int` below
`INT_MAX` has exactly one reference more; and when the counts of the entries were at
least 1 and below `INT_MAX`, after an entry of `l` has been removed from a
frame that has the list `l`, every entry of `l` is still a live object, the
one it was, with at least one reference. -/
theorem copy_anc_effect {h h1 : anc_state} {l : List Nat} (hw : anc_wf h l)
    (hnext : h1.next_addr = h.next_addr)
    (haddr : h1.objs.map (fun d => d.addr) = h.objs.map (fun d => d.addr))
    (hfind : ∀ a d, find_anc h.objs a = some d →
      find_anc h1.objs a =
        some { d with
          ref_count := if a ∈ l then wrap_int (d.ref_count + 1) else d.ref_count }) :
    (∀ a d, a ∈ l → find_anc h.objs a = some d → INT_MIN ≤ d.ref_count →
      d.ref_count < INT_MAX →
      find_anc h1.objs a = some { d with ref_count := d.ref_count + 1 }) ∧
    (∀ (name : String) (h2 : anc_state) (b b2 : mbuf_base_frame), b.ancillary_data = l →
      (∀ a ∈ l, ∀ d, find_anc h.objs a = some d → 1 ≤ d.ref_count ∧ d.ref_count < INT_MAX) →
      mbuf_base_frame_remove_ancillary_data h1 b name = some (0, h2, b2) →
      ∀ a ∈ l, ∀ d, find_anc h.objs a = some d →
        ∃ d2, find_anc h2.objs a = some d2 ∧ 1 ≤ d2.ref_count ∧
          d2 = { d with ref_count := d2.ref_count }) := by
  have hone : ∀ a d, a ∈ l → find_anc h.objs a = some d →
      INT_MIN ≤ d.ref_count → d.ref_count < INT_MAX →
      find_anc h1.objs a = some { d with ref_count := d.ref_count + 1 } := by
    intro a d ha hd h1le hlt
    rw [hfind a d hd, if_pos ha]
    simp only [INT_MAX] at hlt
    simp only [INT_MIN] at h1le
    rw [wrap_int_of_range _ (by omega) (by omega)]
  have hname : ∀ a ∈ l, holder_name h1 a = holder_name h a := by
    intro a ha
    cases hd : find_anc h.objs a with
    | none => exact absurd (by simp [holder_name, hd]) (hw.2.1 a ha)
    | some d => simp [holder_name, hd, hfind a d hd]
  have hw1 : anc_wf h1 l := by
    refine ⟨⟨?_, ?_⟩, ?_, ?_⟩
    · rw [haddr]
      exact hw.1.1
    · intro d hd
      have hm : d.addr ∈ h1.objs.map (fun d => d.addr) := List.mem_map_of_mem _ hd
      rw [haddr] at hm
      obtain ⟨d0, hd0, e⟩ := List.mem_map.1 hm
      rw [hnext, ← e]
      exact hw.1.2 d0 hd0
    · intro a ha
      rw [hname a ha]
      exact hw.2.1 a ha
    · rw [List.map_congr_left hname]
      exact hw.2.2
  refine ⟨?_, ?_⟩
  · exact hone
  · intro name h2 b b2 hb hrange hrm a ha d hd
    subst hb
    rcases mbuf_base_frame_remove_ancillary_data_cases hw1 name with
      ⟨_, e⟩ | ⟨_, before, a0, after, h3, hl, ha0, hu, e, _, _⟩
    · rw [e] at hrm
      simp only [Option.some.injEq, Prod.mk.injEq] at hrm
      exact absurd hrm.1 (by decide)
    · rw [e] at hrm
      simp only [Option.some.injEq, Prod.mk.injEq] at hrm
      obtain ⟨_, rfl, _⟩ := hrm
      have ha0l : a0 ∈ b.ancillary_data := by
        rw [hl]
        simp
      cases hd0 : find_anc h.objs a0 with
      | none => exact absurd (by simp [holder_name, hd0]) (hw.2.1 a0 ha0l)
      | some d0 =>
        have hr0 := hrange a0 ha0l d0 hd0
        have hf0 := hone a0 d0 ha0l hd0 (le_trans (by decide) hr0.1) hr0.2
        rw [mbuf_ancillary_data_unref_eq hf0] at hu
        have hgt : ({ d0 with ref_count := d0.ref_count + 1 } : mbuf_ancillary_data).ref_count
            > 1 := by
          show d0.ref_count + 1 > 1
          omega
        rw [if_pos hgt] at hu
        simp only [Option.some.injEq, Prod.mk.injEq, true_and] at hu
        rw [← hu]
        have hr := hrange a ha d hd
        have hfa := hone a d ha hd (le_trans (by decide) hr.1) hr.2
        show ∃ d2, find_anc (set_ref_count h1.objs a0 _) a = some d2 ∧ _
        rw [find_anc_set_ref_count, hfa]
        simp only [Option.map_some']
        have hsim := hr.2
        simp only [INT_MAX] at hsim
        by_cases e0 : d.addr = a0
        · rw [if_pos e0]
          have hda := (find_anc_addr hd).1
          have hdd : d0 = d := by
            have : a = a0 := by rw [← hda, e0]
            subst this
            rw [hd] at hd0
            exact (Option.some.inj hd0).symm
          subst hdd
          have hwv : wrap_int (d0.ref_count + 1 - 1) = d0.ref_count := by
            rw [show d0.ref_count + 1 - 1 = d0.ref_count by omega]
            exact wrap_int_of_range _ (by omega) (by omega)
          refine ⟨_, rfl, ?_, ?_⟩
          · show 1 ≤ wrap_int (d0.ref_count + 1 - 1)
            rw [hwv]
            exact hr.1
          · rfl
        · rw [if_neg e0]
          refine ⟨_, rfl, ?_, rfl⟩
          show 1 ≤ d.ref_count + 1
          omega

theorem mbuf_audio_frame_copier_add (ch : Nat → Bool) (a : Nat)
    (u : Nat × anc_state × mbuf_audio_frame) :
    (mbuf_audio_frame_ancillary_data_copier ch a u).map
        (fun r => (r.1, (r.2.1, r.2.2.1, r.2.2.2.base))) =
      (mbuf_base_frame_add_ancillary_data (ch u.1) u.2.1 u.2.2.base a).map
        (fun r => (true, u.1 + 1, r.2.1, r.2.2)) := by
  simp only [mbuf_audio_frame_ancillary_data_copier, mbuf_audio_frame_add_ancillary_data]
  cases mbuf_base_frame_add_ancillary_data (ch u.1) u.2.1 u.2.2.base a <;> rfl

/-- The ancillary data after a successful `mbuf_audio_frame_copy` whose holder
allocations succeed, the ancillary data of the source being well-formed: the
new frame has the list of the source, and the heap has the same objects, each
entry of the list with one reference more. -/
theorem mbuf_audio_frame_copy_ancillary {env : frame_env} {w w1 : frame_world}
    {frame src nf : mbuf_audio_frame} {dst : Option Nat}
    (hw : anc_wf w.anc frame.base.ancillary_data)
    (hch : ∀ i, i < frame.base.ancillary_data.length → env.calloc_holder i = true)
    (h : mbuf_audio_frame_copy env w frame dst = some (0, some nf, w1, src)) :
    nf.base.ancillary_data = frame.base.ancillary_data ∧
    w1.anc.cleaner_log = w.anc.cleaner_log ∧
    w1.anc.next_addr = w.anc.next_addr ∧
    w1.anc.objs.map (fun d => d.addr) = w.anc.objs.map (fun d => d.addr) ∧
    ∀ a d, find_anc w.anc.objs a = some d →
      find_anc w1.anc.objs a =
        some { d with
          ref_count :=
            if a ∈ frame.base.ancillary_data then wrap_int (d.ref_count + 1)
            else d.ref_count } := by
  obtain ⟨nf0, u1, hb0, hwalk, ha, hl⟩ := mbuf_audio_frame_copy_anc h
  have hnil : nf0.base.ancillary_data = [] := by rw [hb0]; rfl
  obtain ⟨u2, hwalk2, hl2, hlog, hnext, haddr, hfind⟩ :=
    copier_walk env.calloc_holder (mbuf_audio_frame_ancillary_data_copier env.calloc_holder)
      (fun u => (u.1, u.2.1, u.2.2.base)) (mbuf_audio_frame_copier_add env.calloc_holder)
      frame.base.ancillary_data (0, w.anc, nf0) 0 w.anc nf0.base rfl
      (by
        rw [hnil]
        exact ⟨hw.1, by simp, by simp⟩)
      hw.2.1 hw.2.2
      (by
        rw [hnil]
        simp)
      (by
        intro i hi
        rw [Nat.zero_add]
        exact hch i hi)
  rw [hwalk] at hwalk2
  have e := Option.some.inj hwalk2
  subst e
  rw [hnil, List.nil_append] at hl2
  refine ⟨by rw [hl]; exact hl2, ?_, ?_, ?_, ?_⟩
  · rw [ha]; exact hlog
  · rw [ha]; exact hnext
  · rw [ha]; exact haddr
  · rw [ha]; exact hfind

theorem mbuf_raw_video_frame_copier_add (ch : Nat → Bool) (a : Nat)
    (u : Nat × anc_state × mbuf_raw_video_frame) :
    (mbuf_raw_video_frame_ancillary_data_copier ch a u).map
        (fun r => (r.1, (r.2.1, r.2.2.1, r.2.2.2.base))) =
      (mbuf_base_frame_add_ancillary_data (ch u.1) u.2.1 u.2.2.base a).map
        (fun r => (true, u.1 + 1, r.2.1, r.2.2)) := by
  simp only [mbuf_raw_video_frame_ancillary_data_copier, mbuf_raw_video_frame_add_ancillary_data]
  cases mbuf_base_frame_add_ancillary_data (ch u.1) u.2.1 u.2.2.base a <;> rfl

/-- The ancillary data after a successful `mbuf_raw_video_frame_copy` whose holder
allocations succeed, the ancillary data of the source being well-formed: the
new frame has the list of the source, and the heap has the same objects, each
entry of the list with one reference more. -/
theorem mbuf_raw_video_frame_copy_ancillary {env : frame_env} {w w1 : frame_world}
    {frame src nf : mbuf_raw_video_frame} {dst : Option Nat} {remove_stride : Bool}
    (hw : anc_wf w.anc frame.base.ancillary_data)
    (hch : ∀ i, i < frame.base.ancillary_data.length → env.calloc_holder i = true)
    (h : mbuf_raw_video_frame_copy env w frame dst remove_stride = some (0, some nf, w1, src)) :
    nf.base.ancillary_data = frame.base.ancillary_data ∧
    w1.anc.cleaner_log = w.anc.cleaner_log ∧
    w1.anc.next_addr = w.anc.next_addr ∧
    w1.anc.objs.map (fun d => d.addr) = w.anc.objs.map (fun d => d.addr) ∧
    ∀ a d, find_anc w.anc.objs a = some d →
      find_anc w1.anc.objs a =
        some { d with
          ref_count :=
            if a ∈ frame.base.ancillary_data then wrap_int (d.ref_count + 1)
            else d.ref_count } := by
  obtain ⟨nf0, u1, hb0, hwalk, ha, hl⟩ := mbuf_raw_video_frame_copy_anc h
  have hnil : nf0.base.ancillary_data = [] := by rw [hb0]; rfl
  obtain ⟨u2, hwalk2, hl2, hlog, hnext, haddr, hfind⟩ :=
    copier_walk env.calloc_holder (mbuf_raw_video_frame_ancillary_data_copier env.calloc_holder)
      (fun u => (u.1, u.2.1, u.2.2.base)) (mbuf_raw_video_frame_copier_add env.calloc_holder)
      frame.base.ancillary_data (0, w.anc, nf0) 0 w.anc nf0.base rfl
      (by
        rw [hnil]
        exact ⟨hw.1, by simp, by simp⟩)
      hw.2.1 hw.2.2
      (by
        rw [hnil]
        simp)
      (by
        intro i hi
        rw [Nat.zero_add]
        exact hch i hi)
  rw [hwalk] at hwalk2
  have e := Option.some.inj hwalk2
  subst e
  rw [hnil, List.nil_append] at hl2
  refine ⟨by rw [hl]; exact hl2, ?_, ?_, ?_, ?_⟩
  · rw [ha]; exact hlog
  · rw [ha]; exact hnext
  · rw [ha]; exact haddr
  · rw [ha]; exact hfind

theorem mbuf_coded_video_frame_copier_add (ch : Nat → Bool) (a : Nat)
    (u : Nat × anc_state × mbuf_coded_video_frame) :
    (mbuf_coded_video_frame_ancillary_data_copier ch a u).map
        (fun r => (r.1, (r.2.1, r.2.2.1, r.2.2.2.base))) =
      (mbuf_base_frame_add_ancillary_data (ch u.1) u.2.1 u.2.2.base a).map
        (fun r => (true, u.1 + 1, r.2.1, r.2.2)) := by
  simp only [mbuf_coded_video_frame_ancillary_data_copier, mbuf_coded_video_frame_add_ancillary_data]
  cases mbuf_base_frame_add_ancillary_data (ch u.1) u.2.1 u.2.2.base a <;> rfl

/-- The ancillary data after a successful `mbuf_coded_video_frame_copy` whose holder
allocations succeed, the ancillary data of the source being well-formed: the
new frame has the list of the source, and the heap has the same objects, each
entry of the list with one reference more. -/
theorem mbuf_coded_video_frame_copy_ancillary {env : frame_env} {w w1 : frame_world}
    {frame src nf : mbuf_coded_video_frame} {dst : Option Nat}
    (hw : anc_wf w.anc frame.base.ancillary_data)
    (hch : ∀ i, i < frame.base.ancillary_data.length → env.calloc_holder i = true)
    (h : mbuf_coded_video_frame_copy env w frame dst = some (0, some nf, w1, src)) :
    nf.base.ancillary_data = frame.base.ancillary_data ∧
    w1.anc.cleaner_log = w.anc.cleaner_log ∧
    w1.anc.next_addr = w.anc.next_addr ∧
    w1.anc.objs.map (fun d => d.addr) = w.anc.objs.map (fun d => d.addr) ∧
    ∀ a d, find_anc w.anc.objs a = some d →
      find_anc w1.anc.objs a =
        some { d with
          ref_count :=
            if a ∈ frame.base.ancillary_data then wrap_int (d.ref_count + 1)
            else d.ref_count } := by
  obtain ⟨nf0, u1, hb0, hwalk, ha, hl⟩ := mbuf_coded_video_frame_copy_anc h
  have hnil : nf0.base.ancillary_data = [] := by rw [hb0]; rfl
  obtain ⟨u2, hwalk2, hl2, hlog, hnext, haddr, hfind⟩ :=
    copier_walk env.calloc_holder (mbuf_coded_video_frame_ancillary_data_copier env.calloc_holder)
      (fun u => (u.1, u.2.1, u.2.2.base)) (mbuf_coded_video_frame_copier_add env.calloc_holder)
      frame.base.ancillary_data (0, w.anc, nf0) 0 w.anc nf0.base rfl
      (by
        rw [hnil]
        exact ⟨hw.1, by simp, by simp⟩)
      hw.2.1 hw.2.2
      (by
        rw [hnil]
        simp)
      (by
        intro i hi
        rw [Nat.zero_add]
        exact hch i hi)
  rw [hwalk] at hwalk2
  have e := Option.some.inj hwalk2
  subst e
  rw [hnil, List.nil_append] at hl2
  refine ⟨by rw [hl]; exact hl2, ?_, ?_, ?_, ?_⟩
  · rw [ha]; exact hlog
  · rw [ha]; exact hnext
  · rw [ha]; exact haddr
  · rw [ha]; exact hfind

/-- C18.  For the three kinds of frame: when the copy function returns 0 with
a new frame, the ancillary data of the source being well-formed (live objects
with pairwise distinct names) and the allocations of the holders of the new
frame succeeding,
* the new frame has the entries of the source, the same addresses in the same
  order, and the source keeps its list;
* the heap of ancillary data has the same objects at the same addresses as
  before, no object was created and no cleaner called;
* an object differs from what it was only by its reference count, which is
  one more (as an `int`) for the entries of the source and the same for the
  other objects; for an entry whose count was an `int` below `INT_MAX` it is
  exactly one more;
* when the counts of the entries were at least 1 and below `INT_MAX`, after
  `remove_ancillary_data` has returned 0 on the source, every entry of the new
  frame is still the live object it was, the reference count apart, and has at
  least one reference. -/
theorem mbuf_frame_copy_shares_ancillary :
    (∀ (env : frame_env) (w w1 : frame_world) (frame src nf : mbuf_audio_frame)
        (dst : Option Nat),
      anc_wf w.anc frame.base.ancillary_data →
      (∀ i, i < frame.base.ancillary_data.length → env.calloc_holder i = true) →
      mbuf_audio_frame_copy env w frame dst = some (0, some nf, w1, src) →
      (nf.base.ancillary_data = frame.base.ancillary_data ∧
        src.base.ancillary_data = frame.base.ancillary_data) ∧
      (w1.anc.objs.map (fun d => d.addr) = w.anc.objs.map (fun d => d.addr) ∧
        w1.anc.next_addr = w.anc.next_addr ∧ w1.anc.cleaner_log = w.anc.cleaner_log) ∧
      (∀ a d, find_anc w.anc.objs a = some d →
        find_anc w1.anc.objs a =
          some { d with
            ref_count :=
              if a ∈ frame.base.ancillary_data then wrap_int (d.ref_count + 1)
              else d.ref_count }) ∧
      (∀ a d, a ∈ frame.base.ancillary_data → find_anc w.anc.objs a = some d →
        INT_MIN ≤ d.ref_count → d.ref_count < INT_MAX →
        find_anc w1.anc.objs a = some { d with ref_count := d.ref_count + 1 }) ∧
      (∀ (name : String) (h2 : anc_state) (src2 : mbuf_audio_frame),
        (∀ a ∈ frame.base.ancillary_data, ∀ d, find_anc w.anc.objs a = some d →
          1 ≤ d.ref_count ∧ d.ref_count < INT_MAX) →
        mbuf_audio_frame_remove_ancillary_data w1.anc src (some name) = some (0, h2, src2) →
        ∀ a ∈ nf.base.ancillary_data, ∀ d, find_anc w.anc.objs a = some d →
          ∃ d2, find_anc h2.objs a = some d2 ∧ 1 ≤ d2.ref_count ∧
            d2 = { d with ref_count := d2.ref_count })) ∧
    (∀ (env : frame_env) (w w1 : frame_world) (frame src nf : mbuf_raw_video_frame)
        (dst : Option Nat) (remove_stride : Bool),
      anc_wf w.anc frame.base.ancillary_data →
      (∀ i, i < frame.base.ancillary_data.length → env.calloc_holder i = true) →
      mbuf_raw_video_frame_copy env w frame dst remove_stride = some (0, some nf, w1, src) →
      (nf.base.ancillary_data = frame.base.ancillary_data ∧
        src.base.ancillary_data = frame.base.ancillary_data) ∧
      (w1.anc.objs.map (fun d => d.addr) = w.anc.objs.map (fun d => d.addr) ∧
        w1.anc.next_addr = w.anc.next_addr ∧ w1.anc.cleaner_log = w.anc.cleaner_log) ∧
      (∀ a d, find_anc w.anc.objs a = some d →
        find_anc w1.anc.objs a =
          some { d with
            ref_count :=
              if a ∈ frame.base.ancillary_data then wrap_int (d.ref_count + 1)
              else d.ref_count }) ∧
      (∀ a d, a ∈ frame.base.ancillary_data → find_anc w.anc.objs a = some d →
        INT_MIN ≤ d.ref_count → d.ref_count < INT_MAX →
        find_anc w1.anc.objs a = some { d with ref_count := d.ref_count + 1 }) ∧
      (∀ (name : String) (h2 : anc_state) (src2 : mbuf_raw_video_frame),
        (∀ a ∈ frame.base.ancillary_data, ∀ d, find_anc w.anc.objs a = some d →
          1 ≤ d.ref_count ∧ d.ref_count < INT_MAX) →
        mbuf_raw_video_frame_remove_ancillary_data w1.anc src (some name) = some (0, h2, src2) →
        ∀ a ∈ nf.base.ancillary_data, ∀ d, find_anc w.anc.objs a = some d →
          ∃ d2, find_anc h2.objs a = some d2 ∧ 1 ≤ d2.ref_count ∧
            d2 = { d with ref_count := d2.ref_count })) ∧
    (∀ (env : frame_env) (w w1 : frame_world) (frame src nf : mbuf_coded_video_frame)
        (dst : Option Nat),
      anc_wf w.anc frame.base.ancillary_data →
      (∀ i, i < frame.base.ancillary_data.length → env.calloc_holder i = true) →
      mbuf_coded_video_frame_copy env w frame dst = some (0, some nf, w1, src) →
      (nf.base.ancillary_data = frame.base.ancillary_data ∧
        src.base.ancillary_data = frame.base.ancillary_data) ∧
      (w1.anc.objs.map (fun d => d.addr) = w.anc.objs.map (fun d => d.addr) ∧
        w1.anc.next_addr = w.anc.next_addr ∧ w1.anc.cleaner_log = w.anc.cleaner_log) ∧
      (∀ a d, find_anc w.anc.objs a = some d →
        find_anc w1.anc.objs a =
          some { d with
            ref_count :=
              if a ∈ frame.base.ancillary_data then wrap_int (d.ref_count + 1)
              else d.ref_count }) ∧
      (∀ a d, a ∈ frame.base.ancillary_data → find_anc w.anc.objs a = some d →
        INT_MIN ≤ d.ref_count → d.ref_count < INT_MAX →
        find_anc w1.anc.objs a = some { d with ref_count := d.ref_count + 1 }) ∧
      (∀ (name : String) (h2 : anc_state) (src2 : mbuf_coded_video_frame),
        (∀ a ∈ frame.base.ancillary_data, ∀ d, find_anc w.anc.objs a = some d →
          1 ≤ d.ref_count ∧ d.ref_count < INT_MAX) →
        mbuf_coded_video_frame_remove_ancillary_data w1.anc src (some name) = some (0, h2, src2) →
        ∀ a ∈ nf.base.ancillary_data, ∀ d, find_anc w.anc.objs a = some d →
          ∃ d2, find_anc h2.objs a = some d2 ∧ 1 ≤ d2.ref_count ∧
            d2 = { d with ref_count := d2.ref_count })) := by
  refine ⟨?_, ?_, ?_⟩
  · intro env w w1 frame src nf dst hw hch h
    obtain ⟨hl, hlog, hnext, haddr, hfind⟩ := mbuf_audio_frame_copy_ancillary hw hch h
    have hsrc : src.base.ancillary_data = frame.base.ancillary_data := by
      rw [mbuf_audio_frame_copy_source h]
    have heff := copy_anc_effect hw hnext haddr hfind
    refine ⟨⟨hl, hsrc⟩, ⟨haddr, hnext, hlog⟩, hfind, heff.1, ?_⟩
    intro name h2 src2 hrange hrm a ha d hd
    rw [hl] at ha
    simp only [mbuf_audio_frame_remove_ancillary_data] at hrm
    cases hb : mbuf_base_frame_remove_ancillary_data w1.anc src.base name with
    | none => simp [hb] at hrm
    | some r =>
      obtain ⟨ret, h3, b3⟩ := r
      simp only [hb, Option.map_some', Option.some.injEq, Prod.mk.injEq] at hrm
      obtain ⟨rfl, rfl, _⟩ := hrm
      exact heff.2 name h3 src.base b3 hsrc hrange hb a ha d hd
  · intro env w w1 frame src nf dst remove_stride hw hch h
    obtain ⟨hl, hlog, hnext, haddr, hfind⟩ := mbuf_raw_video_frame_copy_ancillary hw hch h
    have hsrc : src.base.ancillary_data = frame.base.ancillary_data := by
      rw [mbuf_raw_video_frame_copy_source h]
    have heff := copy_anc_effect hw hnext haddr hfind
    refine ⟨⟨hl, hsrc⟩, ⟨haddr, hnext, hlog⟩, hfind, heff.1, ?_⟩
    intro name h2 src2 hrange hrm a ha d hd
    rw [hl] at ha
    simp only [mbuf_raw_video_frame_remove_ancillary_data] at hrm
    cases hb : mbuf_base_frame_remove_ancillary_data w1.anc src.base name with
    | none => simp [hb] at hrm
    | some r =>
      obtain ⟨ret, h3, b3⟩ := r
      simp only [hb, Option.map_some', Option.some.injEq, Prod.mk.injEq] at hrm
      obtain ⟨rfl, rfl, _⟩ := hrm
      exact heff.2 name h3 src.base b3 hsrc hrange hb a ha d hd
  · intro env w w1 frame src nf dst hw hch h
    obtain ⟨hl, hlog, hnext, haddr, hfind⟩ := mbuf_coded_video_frame_copy_ancillary hw hch h
    have hsrc : src.base.ancillary_data = frame.base.ancillary_data := by
      rw [mbuf_coded_video_frame_copy_source h]
    have heff := copy_anc_effect hw hnext haddr hfind
    refine ⟨⟨hl, hsrc⟩, ⟨haddr, hnext, hlog⟩, hfind, heff.1, ?_⟩
    intro name h2 src2 hrange hrm a ha d hd
    rw [hl] at ha
    simp only [mbuf_coded_video_frame_remove_ancillary_data] at hrm
    cases hb : mbuf_base_frame_remove_ancillary_data w1.anc src.base name with
    | none => simp [hb] at hrm
    | some r =>
      obtain ⟨ret, h3, b3⟩ := r
      simp only [hb, Option.map_some', Option.some.injEq, Prod.mk.injEq] at hrm
      obtain ⟨rfl, rfl, _⟩ := hrm
      exact heff.2 name h3 src.base b3 hsrc hrange hb a ha d hd

/-- C18 at a concrete input: the copy of `shared_frame` into the chunk at
address 2 returns 0; the new frame has the entry of the source, the data at
address 1, which now has two references, and after the entry has been removed
from the source the data is still live. -/
theorem mbuf_frame_copy_shares_ancillary_witness :
    ∃ nf w1 src,
      mbuf_coded_video_frame_copy frame_env_ok copy_world shared_frame (some 2) =
        some (0, some nf, w1, src) ∧
      nf.base.ancillary_data = [1] ∧
      find_anc w1.anc.objs 1 = some { one_entry_data with ref_count := 2 } ∧
      (mbuf_coded_video_frame_remove_ancillary_data w1.anc src (some "a")).map
        (fun r => (r.1, find_anc r.2.1.objs 1, r.2.2.base.ancillary_data)) =
        some (0, some one_entry_data, []) :=
  have hwf : anc_wf one_entry_heap one_entry_frame.ancillary_data :=
    anc_reach_wf one_entry_reach
  have hc : mbuf_coded_video_frame_copy frame_env_ok copy_world shared_frame (some 2) =
      some (0, some _, _, _) := rfl
  have hx := mbuf_frame_copy_shares_ancillary.2.2 frame_env_ok copy_world _ shared_frame _ _
    (some 2) hwf (fun _ _ => rfl) hc
  ⟨_, _, _, hc, hx.1.1, hx.2.2.2.1 1 one_entry_data (by decide) rfl (by decide) (by decide),
    by decide⟩

/-- C18, where the claim fails.  The frame `shared_frame` has one entry, the
data at address 1, which has one reference.  When `calloc` of the holder fails
during the copy into the chunk at address 2, the copier callback logs the
error and goes on: the copy returns 0 with a new frame that has no entry, and
the data still has one reference.  When the data has `INT_MAX` references and
the holder is allocated, the copy returns 0 with the entry, and the reference
count of the data is `INT_MIN`, not one more. -/
theorem mbuf_frame_copy_drops_ancillary :
    shared_frame.base.ancillary_data = [1] ∧
    find_anc copy_world.anc.objs 1 = some one_entry_data ∧
    one_entry_data.ref_count = 1 ∧
    (mbuf_coded_video_frame_copy { frame_env_ok with calloc_holder := fun _ => false }
        copy_world shared_frame (some 2)).map
        (fun r => (r.1, r.2.1.map (fun nf => nf.base.ancillary_data),
          find_anc r.2.2.1.anc.objs 1)) =
      some (0, some [], some one_entry_data) ∧
    (mbuf_coded_video_frame_copy frame_env_ok
        { copy_world with
          anc := { one_entry_heap with
            objs := [{ one_entry_data with ref_count := INT_MAX }] } }
        shared_frame (some 2)).map
        (fun r => (r.1, r.2.1.map (fun nf => nf.base.ancillary_data),
          (find_anc r.2.2.1.anc.objs 1).map (fun d => d.ref_count))) =
      some (0, some [1], some INT_MIN) ∧
    INT_MIN ≠ INT_MAX + 1 := by
  refine ⟨by decide, by decide, by decide, by rfl, by rfl, by decide⟩

/-- C19, what the code does.  On a frame that is not finalized,
`mbuf_audio_frame_set_buffer` and `mbuf_raw_video_frame_set_plane` (on a plane
below the plane count) with a chunk, when their result is defined, return 0:
they first drop the reference on the chunk of the slot, if any, then take one
on the new chunk, and the slot describes the new segment.  When the slot
already holds the new chunk and the frame has its only reference, the first
step releases the chunk before the second takes it again:
* with the chunk at address 1 of the pool `taken_pool`, set in a new audio
  frame (two references) and released by the caller (one reference, one chunk
  of two free), setting it again returns 0 and the slot and the count of the
  chunk are as before, but the pool now counts two chunks of two free;
* the same with plane 0 of a new raw video frame;
* with the chunk at address 3 of `wrapped_chunk`, which is in no pool, the
  first step destroys the chunk, and the `mbuf_mem_ref` that follows is on a
  pointer to no live chunk: the call has no defined result. -/
theorem mbuf_frame_set_slot_same_chunk :
    (∀ (sp : Nat) (data : Nat → Nat) (s s2 : mbuf_state) (frame frame2 : mbuf_audio_frame)
        (m offset len : Nat) (ret : Int),
      frame.base.finalized = false →
      mbuf_audio_frame_set_buffer sp data s frame (some m) offset len =
        some (ret, s2, frame2) →
      ret = 0 ∧
      frame2 = { frame with buffer := { mem := some m, data := data m + offset, len := len } } ∧
      ∃ s1, (match frame.buffer.mem with
          | some old => mbuf_mem_unref sp s old = some (0, s1)
          | none => s1 = s) ∧
        mbuf_mem_ref s1 m = some (0, s2)) ∧
    (∀ (sp : Nat) (data : Nat → Nat) (s s2 : mbuf_state)
        (frame frame2 : mbuf_raw_video_frame) (plane m offset len : Nat) (ret : Int),
      frame.base.finalized = false → plane < frame.nplanes →
      mbuf_raw_video_frame_set_plane sp data s frame plane (some m) offset len =
        some (ret, s2, frame2) →
      ret = 0 ∧
      frame2 =
        { frame with planes := frame.planes.set plane ⟨some m, data m + offset, len⟩ } ∧
      ∃ slot s1, frame.planes.get? plane = some slot ∧
        (match slot.mem with
          | some old => mbuf_mem_unref sp s old = some (0, s1)
          | none => s1 = s) ∧
        mbuf_mem_ref s1 m = some (0, s2)) ∧
    (∃ s1 f1 s2 s3,
      mbuf_audio_frame_set_buffer 0 demo_data taken_pool fresh_audio_frame (some 1) 0 16 =
        some (0, s1, f1) ∧
      refcount_at s1 1 = some 2 ∧
      mbuf_mem_unref 0 s1 1 = some (0, s2) ∧
      refcount_at s2 1 = some 1 ∧ mbuf_pool_get_count s2 = (0, 2, 1) ∧
      mbuf_audio_frame_set_buffer 0 demo_data s2 f1 (some 1) 0 16 = some (0, s3, f1) ∧
      refcount_at s3 1 = some 1 ∧ mbuf_pool_get_count s3 = (0, 2, 2)) ∧
    (∃ s1 f1 s2 s3,
      mbuf_raw_video_frame_set_plane 0 demo_data taken_pool fresh_raw_frame 0 (some 1) 0 16 =
        some (0, s1, f1) ∧
      refcount_at s1 1 = some 2 ∧
      mbuf_mem_unref 0 s1 1 = some (0, s2) ∧
      refcount_at s2 1 = some 1 ∧ mbuf_pool_get_count s2 = (0, 2, 1) ∧
      mbuf_raw_video_frame_set_plane 0 demo_data s2 f1 0 (some 1) 0 16 = some (0, s3, f1) ∧
      refcount_at s3 1 = some 1 ∧ mbuf_pool_get_count s3 = (0, 2, 2)) ∧
    (∃ s1 f1 s2,
      mbuf_audio_frame_set_buffer 0 demo_data wrapped_chunk fresh_audio_frame (some 3) 0 16 =
        some (0, s1, f1) ∧
      mbuf_mem_unref 0 s1 3 = some (0, s2) ∧
      refcount_at s2 3 = some 1 ∧
      mbuf_audio_frame_set_buffer 0 demo_data s2 f1 (some 3) 0 16 = none) := by
  refine ⟨?_, ?_, ?_, ?_, ?_⟩
  · intro sp data s s2 frame frame2 m offset len ret hfin h
    exact mbuf_audio_frame_set_buffer_ok hfin h
  · intro sp data s s2 frame frame2 plane m offset len ret hfin hp h
    exact mbuf_raw_video_frame_set_plane_ok hfin hp h
  · refine ⟨_, _, _, _, rfl, ?_, rfl, ?_, ?_, rfl, ?_, ?_⟩ <;> decide
  · refine ⟨_, _, _, _, rfl, ?_, rfl, ?_, ?_, rfl, ?_, ?_⟩ <;> decide
  · refine ⟨_, _, _, rfl, rfl, ?_, ?_⟩ <;> decide

/-! ### Views: the lock of the base frame -/

theorem mbuf_base_frame_rdlock_eq (sp : Nat) (b : mbuf_base_frame) :
    mbuf_base_frame_rdlock sp b =
      if b.rwlock = RWLOCK_WRLOCKED then (-EBUSY, b)
      else (0, { b with rwlock := wrap_int (b.rwlock + 1) }) := by
  simp only [mbuf_base_frame_rdlock, mbuf_rwlock_rdlock_eq]
  split <;> rfl

theorem mbuf_base_frame_rdunlock_eq (sp : Nat) (b : mbuf_base_frame) :
    mbuf_base_frame_rdunlock sp b =
      if b.rwlock ≤ RWLOCK_FREE then (-EALREADY, b)
      else (0, { b with rwlock := wrap_int (b.rwlock - 1) }) := by
  simp only [mbuf_base_frame_rdunlock, mbuf_rwlock_rdunlock_eq]
  split <;> rfl

/-- C24, what the code does.  On a finalized coded video frame with `n`
NALUs, with `info` not NULL:
* for an index below `n` whose slot is in the array and refers to a live
  chunk, `mbuf_coded_video_frame_get_nalu_mem_info` returns 0 with the cookie
  and the `specific` pointer of that chunk;
* for an index above `n` it returns `-EINVAL` and leaves `*info` alone,
  whatever the array holds;
* for the index `n` itself the check `index > frame->nnalus` lets the call
  through to the read of `frame->nalus[n]`: with an array of `n` entries, as
  `realloc` sizes it, this is a read outside of the array and the call has no
  defined result, while `mbuf_coded_video_frame_get_nalu` and
  `mbuf_raw_video_frame_get_plane_mem_info` reject the index `n`;
* so it is for the finalized frame made of `one_nalu_frame` and the index
  1. -/
theorem mbuf_coded_video_frame_get_nalu_mem_info_off_by_one :
    (∀ (cookie specific : Nat → Nat) (s : mbuf_state) (frame : mbuf_coded_video_frame)
        (index : Nat) (i0 : mbuf_mem_info) (slot : mbuf_coded_video_frame_nalu)
        (m : mbuf_mem),
      frame.base.finalized = true → index < frame.nnalus →
      frame.nalus.get? index = some slot → mem_at s slot.mem = some m →
      mbuf_coded_video_frame_get_nalu_mem_info cookie specific s frame index (some i0) =
        some (0, some { cookie := cookie slot.mem, specific := specific slot.mem })) ∧
    (∀ (cookie specific : Nat → Nat) (s : mbuf_state) (frame : mbuf_coded_video_frame)
        (index : Nat) (i0 : mbuf_mem_info),
      frame.base.finalized = true → index > frame.nnalus →
      mbuf_coded_video_frame_get_nalu_mem_info cookie specific s frame index (some i0) =
        some (-EINVAL, some i0)) ∧
    (∀ (cookie specific : Nat → Nat) (s : mbuf_state) (frame : mbuf_coded_video_frame)
        (i0 : mbuf_mem_info) (sp : Nat),
      frame.base.finalized = true → frame.nalus.length = frame.nnalus →
      mbuf_coded_video_frame_get_nalu_mem_info cookie specific s frame frame.nnalus
          (some i0) = none ∧
      mbuf_coded_video_frame_get_nalu sp frame frame.nnalus =
        some (-ENOENT, 0, vdef_nalu_zero, frame)) ∧
    (∀ (cookie specific : Nat → Nat) (s : mbuf_state) (frame : mbuf_raw_video_frame)
        (i0 : mbuf_mem_info),
      mbuf_raw_video_frame_get_plane_mem_info cookie specific s frame frame.nplanes
          (some i0) = some (-EINVAL, some i0)) ∧
    (mbuf_coded_video_frame_finalize one_nalu_frame).1 = 0 ∧
    mbuf_coded_video_frame_get_nalu_mem_info demo_data demo_data taken_pool
        (mbuf_coded_video_frame_finalize one_nalu_frame).2 0 (some ⟨0, 0⟩) =
      some (0, some ⟨demo_data 1, demo_data 1⟩) ∧
    mbuf_coded_video_frame_get_nalu_mem_info demo_data demo_data taken_pool
        (mbuf_coded_video_frame_finalize one_nalu_frame).2 1 (some ⟨0, 0⟩) = none ∧
    mbuf_coded_video_frame_get_nalu_mem_info demo_data demo_data taken_pool
        (mbuf_coded_video_frame_finalize one_nalu_frame).2 2 (some ⟨0, 0⟩) =
      some (-EINVAL, some ⟨0, 0⟩) := by
  refine ⟨?_, ?_, ?_, ?_, by decide, by decide, by decide, by decide⟩
  · intro cookie specific s frame index i0 slot m hfin hi hs hm
    have hgt : ¬ (index > frame.nnalus) := by omega
    simp only [mbuf_coded_video_frame_get_nalu_mem_info, mbuf_base_frame_is_finalized, hfin,
      Bool.not_true, Bool.false_eq_true, if_false, if_neg hgt, hs, hm]
  · intro cookie specific s frame index i0 hfin hi
    simp only [mbuf_coded_video_frame_get_nalu_mem_info, mbuf_base_frame_is_finalized, hfin,
      Bool.not_true, Bool.false_eq_true, if_false, if_pos hi]
  · intro cookie specific s frame i0 sp hfin hlen
    have hgt : ¬ (frame.nnalus > frame.nnalus) := by omega
    have hs : frame.nalus.get? frame.nnalus = none := by
      rw [List.get?_eq_getElem?, List.getElem?_eq_none_iff]
      omega
    refine ⟨?_, ?_⟩
    · simp only [mbuf_coded_video_frame_get_nalu_mem_info, mbuf_base_frame_is_finalized,
        hfin, Bool.not_true, Bool.false_eq_true, if_false, if_neg hgt, hs]
    · have hge : frame.nnalus ≥ frame.nnalus := le_refl _
      simp only [mbuf_coded_video_frame_get_nalu, mbuf_base_frame_is_finalized, hfin,
        Bool.not_true, Bool.false_eq_true, if_false, if_pos hge]
  · intro cookie specific s frame i0
    have hge : frame.nplanes ≥ frame.nplanes := le_refl _
    simp only [mbuf_raw_video_frame_get_plane_mem_info, if_pos hge]

/-! ### The scan for filled planes of `mbuf_raw_video_frame_set_frame_info` -/

theorem filled_planes_from_none (planes : List frame_buffer) (i : Nat)
    (h : planes.length ≤ i) : filled_planes_from planes i = none := by
  have hs : planes.get? i = none := by
    rw [List.get?_eq_getElem?, List.getElem?_eq_none_iff]
    omega
  cases i with
  | zero => simp only [filled_planes_from, hs]
  | succ n => simp only [filled_planes_from, hs]

/-- The scan from index `i` inside the array: the value of `filled_planes` is
above `p` exactly when a plane of index between `p` and `i` has a chunk. -/
theorem filled_planes_from_spec (planes : List frame_buffer) (i : Nat)
    (h : i < planes.length) :
    ∃ k, filled_planes_from planes i = some k ∧
      ∀ p, k > p ↔ ∃ j, p ≤ j ∧ j ≤ i ∧ plane_set planes j := by
  induction i with
  | zero =>
    obtain ⟨q, hq⟩ : ∃ q, planes.get? 0 = some q := by
      rw [List.get?_eq_getElem?]
      exact ⟨_, List.getElem?_eq_getElem h⟩
    by_cases hm : q.mem ≠ none
    · refine ⟨1, by simp only [filled_planes_from, hq]; rw [if_pos hm], ?_⟩
      intro p
      constructor
      · intro hp
        exact ⟨0, by omega, le_refl _, q, hq, hm⟩
      · rintro ⟨j, hpj, hj, _⟩
        omega
    · refine ⟨0, by simp only [filled_planes_from, hq]; rw [if_neg hm], ?_⟩
      intro p
      constructor
      · intro hp
        omega
      · rintro ⟨j, hpj, hj, q2, hq2, hm2⟩
        have : j = 0 := by omega
        subst this
        rw [hq] at hq2
        exact absurd hm2 (by rw [← Option.some.inj hq2]; exact hm)
  | succ n ih =>
    obtain ⟨q, hq⟩ : ∃ q, planes.get? (n + 1) = some q := by
      rw [List.get?_eq_getElem?]
      exact ⟨_, List.getElem?_eq_getElem h⟩
    by_cases hm : q.mem ≠ none
    · refine ⟨n + 2, by simp only [filled_planes_from, hq]; rw [if_pos hm], ?_⟩
      intro p
      constructor
      · intro hp
        exact ⟨n + 1, by omega, le_refl _, q, hq, hm⟩
      · rintro ⟨j, hpj, hj, _⟩
        omega
    · obtain ⟨k, hk, hspec⟩ := ih (by omega)
      refine ⟨k, by simp only [filled_planes_from, hq]; rw [if_neg hm, hk], ?_⟩
      intro p
      rw [hspec p]
      constructor
      · rintro ⟨j, hpj, hj, hset⟩
        exact ⟨j, hpj, by omega, hset⟩
      · rintro ⟨j, hpj, hj, q2, hq2, hm2⟩
        by_cases e : j = n + 1
        · subst e
          rw [hq] at hq2
          exact absurd hm2 (by rw [← Option.some.inj hq2]; exact hm)
        · exact ⟨j, hpj, by omega, q2, hq2, hm2⟩

/-- C25, what the code does.  On a raw video frame that is not finalized, with
a frame info whose format has `p` planes:
* when the plane count of the frame is below the size of the plane array,
  `mbuf_raw_video_frame_set_frame_info` returns `-EINVAL` and changes nothing
  when a plane of index between `p` and the plane count has a chunk, and
  otherwise returns 0, stores the info and sets the plane count to `p`; as no
  plane above the plane count has a chunk, the condition is that some plane of
  index `p` or more has one;
* the scan starts at the index `frame->nplanes`, not one below: when the
  plane count is the size of the array, `VDEF_RAW_MAX_PLANE_COUNT`, the first
  slot read is outside of the array and the call has no defined result;
* so it is for the frame that `mbuf_raw_video_frame_new` returns for a format
  of `VDEF_RAW_MAX_PLANE_COUNT` planes. -/
theorem mbuf_raw_video_frame_set_frame_info_scan :
    (∀ (frame : mbuf_raw_video_frame) (info : vdef_raw_frame),
      frame.base.finalized = false → frame.nplanes < frame.planes.length →
      ((∃ j, wrap_uint info.plane_count ≤ j ∧ j ≤ frame.nplanes ∧
          plane_set frame.planes j) →
        mbuf_raw_video_frame_set_frame_info frame (some info) = some (-EINVAL, frame)) ∧
      ((¬ ∃ j, wrap_uint info.plane_count ≤ j ∧ j ≤ frame.nplanes ∧
          plane_set frame.planes j) →
        mbuf_raw_video_frame_set_frame_info frame (some info) =
          some (0, { frame with info := info, nplanes := wrap_uint info.plane_count })) ∧
      ((∀ j, frame.nplanes < j → ¬ plane_set frame.planes j) →
        ((∃ j, wrap_uint info.plane_count ≤ j ∧ j ≤ frame.nplanes ∧
            plane_set frame.planes j) ↔
          ∃ j, wrap_uint info.plane_count ≤ j ∧ plane_set frame.planes j))) ∧
    (∀ (frame : mbuf_raw_video_frame) (info : vdef_raw_frame),
      frame.base.finalized = false → frame.planes.length ≤ frame.nplanes →
      mbuf_raw_video_frame_set_frame_info frame (some info) = none) ∧
    ((mbuf_raw_video_frame_new true (some raw_info_max)).2.map
        (fun f => (f.base.finalized, f.nplanes, f.planes.length,
          mbuf_raw_video_frame_set_frame_info f (some raw_info))) =
      some (false, VDEF_RAW_MAX_PLANE_COUNT, VDEF_RAW_MAX_PLANE_COUNT, none)) := by
  refine ⟨?_, ?_, by decide⟩
  · intro frame info hfin hlt
    obtain ⟨k, hk, hspec⟩ := filled_planes_from_spec frame.planes frame.nplanes hlt
    refine ⟨?_, ?_, ?_⟩
    · intro hex
      have hgt := (hspec (wrap_uint info.plane_count)).2 hex
      simp only [mbuf_raw_video_frame_set_frame_info, mbuf_base_frame_is_finalized, hfin,
        Bool.false_eq_true, if_false, hk, if_pos hgt]
    · intro hex
      have hgt : ¬ (k > wrap_uint info.plane_count) :=
        fun h => hex ((hspec (wrap_uint info.plane_count)).1 h)
      simp only [mbuf_raw_video_frame_set_frame_info, mbuf_base_frame_is_finalized, hfin,
        Bool.false_eq_true, if_false, hk, if_neg hgt]
    · intro hinv
      constructor
      · rintro ⟨j, h1, _, h3⟩
        exact ⟨j, h1, h3⟩
      · rintro ⟨j, h1, h3⟩
        refine ⟨j, h1, ?_, h3⟩
        by_contra hc
        exact hinv j (by omega) h3
  · intro frame info hfin hle
    simp only [mbuf_raw_video_frame_set_frame_info, mbuf_base_frame_is_finalized, hfin,
      Bool.false_eq_true, if_false, filled_planes_from_none frame.planes frame.nplanes hle]

/-! ### The packed buffer of a video frame -/

theorem wrap_size_add_left (x y : Nat) : wrap_size (wrap_size x + y) = wrap_size (x + y) := by
  unfold wrap_size
  omega

theorem wrap_size_add_right (x y : Nat) : wrap_size (x + wrap_size y) = wrap_size (x + y) := by
  unfold wrap_size
  omega

theorem wrap_size_of_lt {x : Nat} (h : x < 2 ^ 64) : wrap_size x = x := by
  unfold wrap_size
  exact Nat.mod_eq_of_lt h

theorem ssize_of_small {x : Nat} (h : x < 2 ^ 63) : ssize_of x = (x : Int) := by
  unfold ssize_of
  have e : x % 2 ^ 64 = x := Nat.mod_eq_of_lt (by omega)
  rw [e, if_pos h]

theorem segments_len_cons (a : Nat × Nat) (l : List (Nat × Nat)) :
    segments_len (a :: l) = a.2 + segments_len l := by
  simp [segments_len]

theorem packed_walk_fst (l : List (Nat × Nat)) :
    ∀ (e x : Nat) (p : Bool),
      (packed_walk l e (wrap_size x) p).1 = wrap_size (x + segments_len l) := by
  induction l with
  | nil =>
    intro e x p
    simp [packed_walk, segments_len]
  | cons a rest ih =>
    intro e x p
    obtain ⟨d, l0⟩ := a
    simp only [packed_walk]
    rw [wrap_size_add_left, ih, segments_len_cons, Nat.add_assoc]

theorem segments_chained_cons (a : Nat × Nat) (rest : List (Nat × Nat)) :
    segments_chained (a :: rest) =
      (segment_follows (wrap_size (a.1 + a.2)) rest && segments_chained rest) := by
  cases rest with
  | nil => rfl
  | cons b r => rfl

theorem packed_walk_snd (l : List (Nat × Nat)) :
    ∀ (e len : Nat) (p : Bool),
      (packed_walk l e len p).2 = (p && segment_follows e l && segments_chained l) := by
  induction l with
  | nil =>
    intro e len p
    simp [packed_walk, segments_chained, segment_follows]
  | cons a rest ih =>
    intro e len p
    obtain ⟨d, l0⟩ := a
    have hp : (if e ≠ 0 ∧ e ≠ d then false else p) =
        (p && (decide (e = 0) || decide (d = e))) := by
      by_cases h1 : e = 0
      · simp [h1]
      · by_cases h2 : d = e
        · simp [h2]
        · have h3 : e ≠ d := fun h => h2 h.symm
          simp [h1, h2, h3]
    simp only [packed_walk]
    rw [ih, hp, segments_chained_cons]
    simp only [segment_follows, Bool.and_assoc]

theorem packed_walk_start (l : List (Nat × Nat)) :
    packed_walk l 0 0 true = (wrap_size (segments_len l), segments_chained l) := by
  have h1 := packed_walk_fst l 0 0 true
  have h2 := packed_walk_snd l 0 0 true
  have e0 : wrap_size 0 = 0 := rfl
  rw [e0, Nat.zero_add] at h1
  have h3 : (packed_walk l 0 0 true).2 = segments_chained l := by
    rw [h2]
    cases l <;> simp [segment_follows]
  exact Prod.ext h1 h3

theorem segments_chained_eq_packed (l : List (Nat × Nat)) :
    (∀ x ∈ l, x.1 + x.2 ≠ 0 ∧ x.1 + x.2 < 2 ^ 64) →
      segments_chained l = segments_packed l := by
  induction l with
  | nil => intro _; rfl
  | cons a rest ih =>
    intro h
    cases rest with
    | nil => rfl
    | cons b r =>
      have ha : a.1 + a.2 ≠ 0 := (h a (List.mem_cons_self _ _)).1
      have hw : wrap_size (a.1 + a.2) = a.1 + a.2 :=
        wrap_size_of_lt (h a (List.mem_cons_self _ _)).2
      have ih2 := ih (fun x hx => h x (List.mem_cons_of_mem _ hx))
      simp only [segments_chained, segments_packed, ih2, hw, ha, decide_False, Bool.false_or]

theorem planes_len_eq (planes : List frame_buffer) :
    ∀ n, n ≤ planes.length →
      planes_len planes n = some (wrap_size (segments_len (plane_segments (planes.take n)))) := by
  induction planes with
  | nil =>
    intro n hn
    have e : n = 0 := by simpa using hn
    subst e
    rfl
  | cons p rest ih =>
    intro n hn
    cases n with
    | zero => rfl
    | succ k =>
      have hk : k ≤ rest.length := by simpa using hn
      simp only [planes_len, ih k hk, List.take_succ_cons, plane_segments, List.map_cons,
        segments_len_cons]
      rw [wrap_size_add_right]

theorem nalus_size_eq (nalus : List mbuf_coded_video_frame_nalu) :
    ∀ n, n ≤ nalus.length →
      nalus_size nalus n = some (wrap_size (segments_len (nalu_segments (nalus.take n)))) := by
  induction nalus with
  | nil =>
    intro n hn
    have e : n = 0 := by simpa using hn
    subst e
    rfl
  | cons p rest ih =>
    intro n hn
    cases n with
    | zero => rfl
    | succ k =>
      have hk : k ≤ rest.length := by simpa using hn
      simp only [nalus_size, ih k hk, List.take_succ_cons, nalu_segments, List.map_cons,
        segments_len_cons]
      rw [wrap_size_add_right]

theorem nalu_segments_head (nalus : List mbuf_coded_video_frame_nalu) (n : Nat) (h : 1 ≤ n)
    (p : mbuf_coded_video_frame_nalu) (hp : nalus.get? 0 = some p) :
    ((nalu_segments (nalus.take n)).headD (0, 0)).1 = p.data := by
  cases nalus with
  | nil => simp at hp
  | cons a rest =>
    cases n with
    | zero => omega
    | succ k =>
      simp only [List.get?_cons_zero, Option.some.injEq] at hp
      subst hp
      rfl

theorem plane_segments_head (planes : List frame_buffer) (n : Nat) (h : 1 ≤ n)
    (p : frame_buffer) (hp : planes.get? 0 = some p) :
    ((plane_segments (planes.take n)).headD (0, 0)).1 = p.data := by
  cases planes with
  | nil => simp at hp
  | cons a rest =>
    cases n with
    | zero => omega
    | succ k =>
      simp only [List.get?_cons_zero, Option.some.injEq] at hp
      subst hp
      rfl

theorem mbuf_coded_video_frame_get_packed_buffer_eq (sp : Nat) (frame : mbuf_coded_video_frame)
    (hfin : frame.base.finalized = true) (hfree : frame.base.rwlock = RWLOCK_FREE)
    (hn : 1 ≤ frame.nnalus) (hlen : frame.nnalus ≤ frame.nalus.length) :
    mbuf_coded_video_frame_get_packed_buffer sp frame =
      some (if segments_chained (nalu_segments (frame.nalus.take frame.nnalus)) then
        (0, ((nalu_segments (frame.nalus.take frame.nnalus)).headD (0, 0)).1,
          wrap_size (segments_len (nalu_segments (frame.nalus.take frame.nnalus))),
          { frame with base := { frame.base with rwlock := 1 } })
      else
        (-EPROTO, 0,
          wrap_size (segments_len (nalu_segments (frame.nalus.take frame.nnalus))), frame)) := by
  obtain ⟨base, info, nnalus, nalus, cbs⟩ := frame
  obtain ⟨m, anc, fin, rw, rc⟩ := base
  simp only at hfin hfree hn hlen
  subst hfin
  subst hfree
  have hn0 : nnalus ≠ 0 := by omega
  have hle : ¬ nnalus > nalus.length := by omega
  have hw1 : wrap_int (RWLOCK_FREE + 1) = 1 := by decide
  have hw0 : wrap_int (1 - 1) = RWLOCK_FREE := by decide
  have h01 : ¬ ((1 : Int) ≤ RWLOCK_FREE) := by decide
  have hfw : RWLOCK_FREE ≠ RWLOCK_WRLOCKED := by decide
  obtain ⟨p, hp⟩ : ∃ p, nalus.get? 0 = some p := by
    cases nalus with
    | nil => simp at hlen; omega
    | cons a rest => exact ⟨a, rfl⟩
  have hh := nalu_segments_head nalus nnalus hn p hp
  simp only [mbuf_coded_video_frame_get_packed_buffer, mbuf_base_frame_is_finalized,
    Bool.not_true, Bool.false_eq_true, if_false, hn0, mbuf_base_frame_rdlock_eq, hfw, hw1,
    ne_eq, not_true_eq_false, hle, packed_walk_start, hp, mbuf_base_frame_rdunlock_eq, h01,
    hw0, hh]
  split <;> rfl

theorem mbuf_raw_video_frame_get_packed_buffer_eq (sp : Nat) (frame : mbuf_raw_video_frame)
    (hfin : frame.base.finalized = true) (hfree : frame.base.rwlock = RWLOCK_FREE)
    (hn : 1 ≤ frame.nplanes) (hlen : frame.nplanes ≤ frame.planes.length) :
    mbuf_raw_video_frame_get_packed_buffer sp frame =
      some (if segments_chained (plane_segments (frame.planes.take frame.nplanes)) then
        (0, ((plane_segments (frame.planes.take frame.nplanes)).headD (0, 0)).1,
          wrap_size (segments_len (plane_segments (frame.planes.take frame.nplanes))),
          { frame with base := { frame.base with rwlock := 1 } })
      else
        (-EPROTO, 0,
          wrap_size (segments_len (plane_segments (frame.planes.take frame.nplanes))),
          frame)) := by
  obtain ⟨base, info, planes, nplanes, cbs⟩ := frame
  obtain ⟨m, anc, fin, rw, rc⟩ := base
  simp only at hfin hfree hn hlen
  subst hfin
  subst hfree
  have hn0 : nplanes ≠ 0 := by omega
  have hle : ¬ nplanes > planes.length := by omega
  have hw1 : wrap_int (RWLOCK_FREE + 1) = 1 := by decide
  have hw0 : wrap_int (1 - 1) = RWLOCK_FREE := by decide
  have h01 : ¬ ((1 : Int) ≤ RWLOCK_FREE) := by decide
  have hfw : RWLOCK_FREE ≠ RWLOCK_WRLOCKED := by decide
  obtain ⟨p, hp⟩ : ∃ p, planes.get? 0 = some p := by
    cases planes with
    | nil => simp at hlen; omega
    | cons a rest => exact ⟨a, rfl⟩
  have hh := plane_segments_head planes nplanes hn p hp
  simp only [mbuf_raw_video_frame_get_packed_buffer, mbuf_base_frame_is_finalized,
    Bool.not_true, Bool.false_eq_true, if_false, hn0, mbuf_base_frame_rdlock_eq, hfw, hw1,
    ne_eq, not_true_eq_false, hle, packed_walk_start, hp, mbuf_base_frame_rdunlock_eq, h01,
    hw0, hh]
  split <;> rfl

theorem mbuf_coded_video_frame_get_packed_size_eq (frame : mbuf_coded_video_frame)
    (hfin : frame.base.finalized = true) (hlen : frame.nnalus ≤ frame.nalus.length) :
    mbuf_coded_video_frame_get_packed_size frame =
      some (ssize_of (segments_len (nalu_segments (frame.nalus.take frame.nnalus)))) := by
  simp only [mbuf_coded_video_frame_get_packed_size, mbuf_base_frame_is_finalized, hfin,
    Bool.not_true, Bool.false_eq_true, if_false, nalus_size_eq _ _ hlen, Option.map_some']
  simp [ssize_of, wrap_size]

theorem mbuf_raw_video_frame_get_packed_size_eq (frame : mbuf_raw_video_frame)
    (hfin : frame.base.finalized = true) (hlen : frame.nplanes ≤ frame.planes.length) :
    mbuf_raw_video_frame_get_packed_size frame false =
      some (ssize_of (segments_len (plane_segments (frame.planes.take frame.nplanes)))) := by
  simp only [mbuf_raw_video_frame_get_packed_size, mbuf_base_frame_is_finalized, hfin,
    Bool.not_true, Bool.false_eq_true, if_false, planes_len_eq _ _ hlen, Option.map_some']
  simp [ssize_of, wrap_size]

/-- C21, what the code does.  On a finalized coded or raw video frame whose
lock is free, with at least one segment (NALU or plane), all of them in the
array, segment starts that are pointers of 64 bits (below `2 ^ 64`) and
segment lengths whose sum is below `2 ^ 63`: `get_packed_size` is that sum,
and `get_packed_buffer` sets `*len` to it.  When each segment after
the first either starts where the one before it ends or comes after a segment
that ends at the NULL pointer, `get_packed_buffer` returns 0 with `*data` the
start of the first segment and one read lock held; otherwise it returns
`-EPROTO` with `*data` NULL and the frame, lock included, as before the call.
The end of a segment is computed on a pointer of 64 bits, so that a segment
that ends at `2 ^ 64` ends at the NULL pointer.  When every segment ends
below `2 ^ 64` and not at the NULL pointer, the condition is the one of the
claim: each segment after the first starts where the one before it ends.
Where one ends at the NULL pointer, the claim fails: a coded video frame gets
an empty NALU at the start of a chunk that wraps the NULL pointer, then a NALU
of 16 bytes in a chunk of the pool, and is finalized; the second NALU does not
start where the first one ends, and `mbuf_coded_video_frame_get_packed_buffer`
returns 0, with `*data` NULL and a read lock held, where the claim has
`-EPROTO`.  So it is with a first NALU of 16 bytes at the offset
`2 ^ 64 - 16 - 8192` of the chunk whose data is at 8192, followed by a NALU at
the start of that chunk: the call returns 0 with a length of 32 bytes. -/
theorem mbuf_frame_get_packed_buffer_spec :
    (∀ (sp : Nat) (frame : mbuf_coded_video_frame),
      frame.base.finalized = true → frame.base.rwlock = RWLOCK_FREE →
      1 ≤ frame.nnalus → frame.nnalus ≤ frame.nalus.length →
      segments_len (nalu_segments (frame.nalus.take frame.nnalus)) < 2 ^ 63 →
      (∀ x ∈ nalu_segments (frame.nalus.take frame.nnalus), x.1 < 2 ^ 64) →
      mbuf_coded_video_frame_get_packed_size frame =
        some ((segments_len (nalu_segments (frame.nalus.take frame.nnalus)) : Nat) : Int) ∧
      mbuf_coded_video_frame_get_packed_buffer sp frame =
        some (if segments_chained (nalu_segments (frame.nalus.take frame.nnalus)) then
          (0, ((nalu_segments (frame.nalus.take frame.nnalus)).headD (0, 0)).1,
            segments_len (nalu_segments (frame.nalus.take frame.nnalus)),
            { frame with base := { frame.base with rwlock := 1 } })
        else
          (-EPROTO, 0, segments_len (nalu_segments (frame.nalus.take frame.nnalus)),
            frame)) ∧
      ((∀ x ∈ nalu_segments (frame.nalus.take frame.nnalus),
          x.1 + x.2 ≠ 0 ∧ x.1 + x.2 < 2 ^ 64) →
        segments_chained (nalu_segments (frame.nalus.take frame.nnalus)) =
          segments_packed (nalu_segments (frame.nalus.take frame.nnalus)))) ∧
    (∀ (sp : Nat) (frame : mbuf_raw_video_frame),
      frame.base.finalized = true → frame.base.rwlock = RWLOCK_FREE →
      1 ≤ frame.nplanes → frame.nplanes ≤ frame.planes.length →
      segments_len (plane_segments (frame.planes.take frame.nplanes)) < 2 ^ 63 →
      (∀ x ∈ plane_segments (frame.planes.take frame.nplanes), x.1 < 2 ^ 64) →
      mbuf_raw_video_frame_get_packed_size frame false =
        some ((segments_len (plane_segments (frame.planes.take frame.nplanes)) : Nat) : Int) ∧
      mbuf_raw_video_frame_get_packed_buffer sp frame =
        some (if segments_chained (plane_segments (frame.planes.take frame.nplanes)) then
          (0, ((plane_segments (frame.planes.take frame.nplanes)).headD (0, 0)).1,
            segments_len (plane_segments (frame.planes.take frame.nplanes)),
            { frame with base := { frame.base with rwlock := 1 } })
        else
          (-EPROTO, 0, segments_len (plane_segments (frame.planes.take frame.nplanes)),
            frame)) ∧
      ((∀ x ∈ plane_segments (frame.planes.take frame.nplanes),
          x.1 + x.2 ≠ 0 ∧ x.1 + x.2 < 2 ^ 64) →
        segments_chained (plane_segments (frame.planes.take frame.nplanes)) =
          segments_packed (plane_segments (frame.planes.take frame.nplanes)))) ∧
    (((mbuf_coded_video_frame_add_nalu true null_wrap_data null_wrap_state fresh_coded_frame
        (some 3) 0 (some empty_nalu)).bind (fun r1 =>
      (mbuf_coded_video_frame_add_nalu true null_wrap_data r1.2.1 r1.2.2
        (some 1) 0 (some small_nalu)).map (fun r2 =>
          (r1.1, r2.1, mbuf_coded_video_frame_finalize r2.2.2)))) =
        some (0, 0, 0, null_start_frame) ∧
      null_start_frame.base.finalized = true ∧
      null_start_frame.base.rwlock = RWLOCK_FREE ∧
      nalu_segments (null_start_frame.nalus.take null_start_frame.nnalus) =
        [(0, 0), (8192, 16)] ∧
      segments_packed [(0, 0), (8192, 16)] = false ∧
      mbuf_coded_video_frame_get_packed_buffer 0 null_start_frame =
        some (0, 0, 16,
          { null_start_frame with base := { null_start_frame.base with rwlock := 1 } })) ∧
    (((mbuf_coded_video_frame_add_nalu true null_wrap_data null_wrap_state fresh_coded_frame
        (some 1) (2 ^ 64 - 16 - 8192) (some small_nalu)).bind (fun r1 =>
      (mbuf_coded_video_frame_add_nalu true null_wrap_data r1.2.1 r1.2.2
        (some 1) 0 (some small_nalu)).map (fun r2 =>
          (r1.1, r2.1, (mbuf_coded_video_frame_finalize r2.2.2).1,
            nalu_segments ((mbuf_coded_video_frame_finalize r2.2.2).2.nalus.take
              (mbuf_coded_video_frame_finalize r2.2.2).2.nnalus),
            (mbuf_coded_video_frame_get_packed_buffer 0
              (mbuf_coded_video_frame_finalize r2.2.2).2).map
                (fun v => (v.1, v.2.1, v.2.2.1, v.2.2.2.base.rwlock)))))) =
        some (0, 0, 0, [(2 ^ 64 - 16, 16), (8192, 16)], some (0, 2 ^ 64 - 16, 32, 1)) ∧
      segments_packed [(2 ^ 64 - 16, 16), (8192, 16)] = false) := by
  refine ⟨?_, ?_, by decide, by rfl, by decide⟩
  · intro sp frame hfin hfree hn hlen hsum _
    refine ⟨?_, ?_, segments_chained_eq_packed _⟩
    · rw [mbuf_coded_video_frame_get_packed_size_eq frame hfin hlen, ssize_of_small hsum]
    · rw [mbuf_coded_video_frame_get_packed_buffer_eq sp frame hfin hfree hn hlen,
        wrap_size_of_lt (by omega)]
  · intro sp frame hfin hfree hn hlen hsum _
    refine ⟨?_, ?_, segments_chained_eq_packed _⟩
    · rw [mbuf_raw_video_frame_get_packed_size_eq frame hfin hlen, ssize_of_small hsum]
    · rw [mbuf_raw_video_frame_get_packed_buffer_eq sp frame hfin hfree hn hlen,
        wrap_size_of_lt (by omega)]

/-! ### The queue of frames -/

theorem mbuf_base_frame_ref_at_queued (h0 : frame_heap) (l : List Nat) (a : Nat)
    (f : mbuf_base_frame) (hf : h0.frame a = some f) (h1 : 1 ≤ f.refcount)
    (h2 : f.refcount + l.count a < UINT_MAX) :
    mbuf_base_frame_ref_at (queued_heap h0 l) a = some (0, queued_heap h0 (l ++ [a])) := by
  have hne : f.refcount + l.count a ≠ 0 := by omega
  have hw : wrap_uint (f.refcount + l.count a + 1) = f.refcount + l.count a + 1 := by
    simp only [UINT_MAX] at h2
    exact wrap_uint_of_lt (by omega)
  simp only [mbuf_base_frame_ref_at, queued_heap, hf, Option.map_some', mbuf_base_frame_ref,
    hne, if_false, hw, Option.some.injEq, Prod.mk.injEq, true_and, frame_heap.mk.injEq,
    and_true]
  funext x
  by_cases hx : x = a
  · subst hx
    simp [hf, Nat.add_assoc]
  · have hc : List.count x [a] = 0 := by
      simp [List.count_cons, hx, Ne.symm hx]
    simp [hx, hc]

theorem mbuf_base_frame_unref_at_queued (h0 : frame_heap) (rest : List Nat) (b : Nat)
    (f : mbuf_base_frame) (hf : h0.frame b = some f) (h1 : 1 ≤ f.refcount) :
    mbuf_base_frame_unref_at (queued_heap h0 (b :: rest)) b = some (0, queued_heap h0 rest) := by
  have hc : (b :: rest).count b = rest.count b + 1 := by simp
  have hne1 : ¬ (f.refcount + (rest.count b + 1) = 1) := by omega
  have hd : uint_dec (f.refcount + (rest.count b + 1)) = f.refcount + rest.count b := by
    unfold uint_dec
    rw [if_neg (by omega)]
    omega
  simp only [mbuf_base_frame_unref_at, queued_heap, hf, Option.map_some',
    mbuf_base_frame_unref, hc, hne1, decide_False, Bool.false_eq_true, if_false, hd,
    Option.some.injEq, Prod.mk.injEq, true_and, frame_heap.mk.injEq, and_true]
  funext x
  by_cases hx : x = b
  · subst hx
    simp [hf]
  · have hc2 : (b :: rest).count x = rest.count x := by
      simp [List.count_cons, hx, Ne.symm hx]
    simp [hx, hc2]

theorem mbuf_base_frame_queue_push_new_queued (h0 : frame_heap)
    (queue : mbuf_base_frame_queue) (a : Nat) (f : mbuf_base_frame)
    (hf : h0.frame a = some f) (h1 : 1 ≤ f.refcount)
    (h2 : f.refcount + queue.frames.count a < UINT_MAX) :
    mbuf_base_frame_queue_push_new queue_env_ok (queued_heap h0 queue.frames) queue a =
      some (0, queued_heap h0 (queue.frames ++ [a]),
        { queue with
          frames := queue.frames ++ [a]
          nframes := wrap_int (queue.nframes + 1)
          event := queue.event.map (fun _ => true) }) := by
  simp [mbuf_base_frame_queue_push_new, mbuf_base_frame_ref_at_queued h0 _ a f hf h1 h2,
    queue_env_ok]

theorem mbuf_base_frame_queue_push_queued (h0 : frame_heap) (queue : mbuf_base_frame_queue)
    (a : Nat) (f : mbuf_base_frame) (hf : h0.frame a = some f) (h1 : 1 ≤ f.refcount)
    (h2 : f.refcount + (pushed_frames queue.maxframes queue.frames a).count a ≤ UINT_MAX)
    (hnf : queue.nframes = (queue.frames.length : Int))
    (hq : queue.maxframes ≠ 0 →
      ∀ b ∈ queue.frames, ∃ g, h0.frame b = some g ∧ 1 ≤ g.refcount)
    (hm : 0 ≤ queue.maxframes) :
    mbuf_base_frame_queue_push queue_env_ok (queued_heap h0 queue.frames) queue a =
      some (0, queued_heap h0 (pushed_frames queue.maxframes queue.frames a),
        { queue with
          frames := pushed_frames queue.maxframes queue.frames a
          nframes :=
            if queue.maxframes ≠ 0 ∧ queue.nframes ≥ queue.maxframes then
              wrap_int (wrap_int (queue.nframes - 1) + 1)
            else wrap_int (queue.nframes + 1)
          event := queue.event.map (fun _ => true) }) := by
  obtain ⟨frames, nframes, maxframes, event⟩ := queue
  simp only at h2 hnf hq hm
  subst hnf
  have hcal : queue_env_ok.calloc_holder = true := rfl
  by_cases hc : maxframes ≠ 0 ∧ (frames.length : Int) ≥ maxframes
  · cases frames with
    | nil =>
      exfalso
      have := hc.1
      have := hc.2
      simp at *
      omega
    | cons b rest =>
      obtain ⟨g, hg, hg1⟩ := hq hc.1 b (List.mem_cons_self _ _)
      have h3 : f.refcount + rest.count a < UINT_MAX := by
        unfold pushed_frames at h2
        rw [if_pos hc] at h2
        simp only [List.tail_cons, List.count_append, List.count_singleton_self] at h2
        omega
      have e := mbuf_base_frame_queue_push_new_queued h0
        { frames := rest, nframes := wrap_int (((b :: rest).length : Int) - 1),
          maxframes := maxframes, event := event } a f hf h1 h3
      simp only at e
      unfold mbuf_base_frame_queue_push pushed_frames
      simp only [hcal, Bool.not_true, Bool.false_eq_true, if_false]
      rw [if_pos hc, if_pos hc, if_pos hc]
      simp only [mbuf_base_frame_unref_at_queued h0 rest b g hg hg1, e, List.tail_cons]
  · have h3 : f.refcount + frames.count a < UINT_MAX := by
      unfold pushed_frames at h2
      rw [if_neg hc] at h2
      simp only [List.count_append, List.count_singleton_self] at h2
      omega
    have e := mbuf_base_frame_queue_push_new_queued h0
        { frames := frames, nframes := (frames.length : Int),
          maxframes := maxframes, event := event } a f hf h1 h3
    simp only at e
    unfold mbuf_base_frame_queue_push pushed_frames
    simp only [hcal, Bool.not_true, Bool.false_eq_true, if_false]
    rw [if_neg hc, if_neg hc, if_neg hc]
    exact e

theorem queued_heap_frame (h0 : frame_heap) (l : List Nat) (a : Nat) (f : mbuf_base_frame)
    (hf : h0.frame a = some f) :
    (queued_heap h0 l).frame a = some { f with refcount := f.refcount + l.count a } := by
  simp [queued_heap, hf]

theorem mbuf_coded_video_frame_queue_push_queued (h0 : frame_heap)
    (q : mbuf_coded_video_frame_queue) (a : Nat) (f : mbuf_base_frame)
    (hf : h0.frame a = some f) (hfin : f.finalized = true) (h1 : 1 ≤ f.refcount)
    (h2 : f.refcount + (pushed_frames q.base.maxframes q.base.frames a).count a ≤ UINT_MAX)
    (hnf : q.base.nframes = (q.base.frames.length : Int))
    (hq : q.base.maxframes ≠ 0 →
      ∀ b ∈ q.base.frames, ∃ g, h0.frame b = some g ∧ 1 ≤ g.refcount)
    (hm : 0 ≤ q.base.maxframes)
    (hflt : ∀ p, q.filter = some p → p a = true) :
    mbuf_coded_video_frame_queue_push queue_env_ok (queued_heap h0 q.base.frames) (some q)
        (some a) =
      some (0, queued_heap h0 (pushed_frames q.base.maxframes q.base.frames a),
        some { q with
          base :=
            { q.base with
              frames := pushed_frames q.base.maxframes q.base.frames a
              nframes :=
                if q.base.maxframes ≠ 0 ∧ q.base.nframes ≥ q.base.maxframes then
                  wrap_int (wrap_int (q.base.nframes - 1) + 1)
                else wrap_int (q.base.nframes + 1)
              event := q.base.event.map (fun _ => true) } }) := by
  have e := mbuf_base_frame_queue_push_queued h0 q.base a f hf h1 h2 hnf hq hm
  have hflt2 : (match q.filter with
      | some p => !p a
      | none => false) = false := by
    cases hp : q.filter with
    | none => rfl
    | some p => simp [hflt p hp]
  simp only [mbuf_coded_video_frame_queue_push, queued_heap_frame h0 _ a f hf,
    mbuf_base_frame_is_finalized, hfin, Bool.not_true, Bool.false_eq_true, if_false, hflt2, e]

theorem pushed_frames_unbounded (l : List Nat) (a : Nat) : pushed_frames 0 l a = l ++ [a] := by
  simp [pushed_frames]

theorem queue_pushes_cons (env : queue_env) (a : Nat) (rest : List Nat) (h h1 : frame_heap)
    (q q1 : mbuf_coded_video_frame_queue) (ret : Int)
    (e : mbuf_coded_video_frame_queue_push env h (some q) (some a) = some (ret, h1, some q1)) :
    queue_pushes env (a :: rest) h q =
      (queue_pushes env rest h1 q1).map (fun r => (ret :: r.1, r.2.1, r.2.2)) := by
  simp only [queue_pushes, e]
  cases queue_pushes env rest h1 q1 with
  | none => rfl
  | some r => rfl

theorem queue_pushes_unbounded (h0 : frame_heap) (filter : Option (Nat → Bool)) :
    ∀ (fs l : List Nat) (event : Bool),
      ((l.length + fs.length : Nat) : Int) ≤ INT_MAX →
      (∀ a ∈ fs, ∃ f, h0.frame a = some f ∧ f.finalized = true ∧ 1 ≤ f.refcount ∧
        f.refcount + (l.length + fs.length) ≤ UINT_MAX) →
      (∀ p, filter = some p → ∀ a ∈ fs, p a = true) →
      queue_pushes queue_env_ok fs (queued_heap h0 l)
          { base := { frames := l, nframes := (l.length : Int), maxframes := 0,
                      event := some event },
            filter := filter } =
        some (List.replicate fs.length 0, queued_heap h0 (l ++ fs),
          { base := { frames := l ++ fs, nframes := ((l ++ fs).length : Int), maxframes := 0,
                      event := some (event || !fs.isEmpty) },
            filter := filter }) := by
  intro fs
  induction fs with
  | nil =>
    intro l event _ _ _
    simp [queue_pushes]
  | cons a rest ih =>
    intro l event hlen hfs hflt
    obtain ⟨f, hf, hfin, h1, h2⟩ := hfs a (List.mem_cons_self _ _)
    simp only [List.length_cons] at hlen h2
    have hcount : l.count a ≤ l.length := List.count_le_length a l
    have e := mbuf_coded_video_frame_queue_push_queued h0
      { base := { frames := l, nframes := (l.length : Int), maxframes := 0,
                  event := some event },
        filter := filter } a f hf hfin h1
      (by
        simp only [pushed_frames_unbounded, List.count_append, List.count_singleton_self]
        omega)
      rfl (fun h => absurd rfl h) (le_refl _) (fun p hp => hflt p hp a (List.mem_cons_self _ _))
    have hw : wrap_int ((l.length : Int) + 1) = ((l ++ [a]).length : Int) := by
      simp only [INT_MAX] at hlen
      rw [wrap_int_of_range _ (by omega) (by omega)]
      simp
    simp only [pushed_frames_unbounded, ne_eq, not_true_eq_false, false_and, if_false, hw,
      Option.map_some'] at e
    rw [queue_pushes_cons _ _ _ _ _ _ _ _ e]
    have ih2 := ih (l ++ [a]) true
      (by simp only [List.length_append, List.length_cons, List.length_nil]; omega)
      (fun b hb => by
        obtain ⟨g, hg, hgfin, hg1, hg2⟩ := hfs b (List.mem_cons_of_mem _ hb)
        refine ⟨g, hg, hgfin, hg1, ?_⟩
        simp only [List.length_cons, List.length_append, List.length_nil] at hg2 ⊢
        omega)
      (fun p hp b hb => hflt p hp b (List.mem_cons_of_mem _ hb))
    rw [ih2]
    simp [List.replicate_succ]

theorem pushed_frames_bounded_lt (M : Nat) (l : List Nat) (a : Nat) (h : l.length < M) :
    pushed_frames (M : Int) l a = l ++ [a] := by
  unfold pushed_frames
  rw [if_neg]
  intro hc
  have := hc.2
  omega

theorem pushed_frames_bounded_full (M : Nat) (hM : 0 < M) (l : List Nat) (a : Nat)
    (h : l.length = M) : pushed_frames (M : Int) l a = l.tail ++ [a] := by
  unfold pushed_frames
  rw [if_pos]
  constructor
  · omega
  · omega

theorem pushed_frames_length_le (M : Nat) (hM : 0 < M) (l : List Nat) (a : Nat)
    (h : l.length ≤ M) : (pushed_frames (M : Int) l a).length ≤ M := by
  by_cases hlt : l.length < M
  · rw [pushed_frames_bounded_lt M l a hlt]
    simp only [List.length_append, List.length_cons, List.length_nil]
    omega
  · have he : l.length = M := by omega
    rw [pushed_frames_bounded_full M hM l a he]
    simp only [List.length_append, List.length_cons, List.length_nil, List.length_tail]
    omega

theorem pushed_frames_mem (M : Int) (l : List Nat) (a x : Nat)
    (h : x ∈ pushed_frames M l a) : x ∈ l ++ [a] := by
  unfold pushed_frames at h
  split at h
  · rcases List.mem_append.1 h with h1 | h1
    · exact List.mem_append_left _ (List.mem_of_mem_tail h1)
    · exact List.mem_append_right _ h1
  · exact h

theorem pushed_frames_drop (M : Nat) (hM : 0 < M) (l rest : List Nat) (a : Nat)
    (h : l.length ≤ M) :
    (pushed_frames (M : Int) l a ++ rest).drop
        ((pushed_frames (M : Int) l a ++ rest).length - M) =
      (l ++ a :: rest).drop ((l ++ a :: rest).length - M) := by
  by_cases hlt : l.length < M
  · rw [pushed_frames_bounded_lt M l a hlt]
    simp
  · have he : l.length = M := by omega
    rw [pushed_frames_bounded_full M hM l a he]
    cases l with
    | nil =>
      simp at he
      omega
    | cons b t =>
      simp only [List.length_cons] at he
      have e1 : (((b :: t).tail ++ [a] ++ rest).length - M) = rest.length := by
        simp only [List.tail_cons, List.length_append, List.length_cons, List.length_nil]
        omega
      have e2 : ((b :: t ++ a :: rest).length - M) = rest.length + 1 := by
        simp only [List.length_append, List.length_cons]
        omega
      rw [e1, e2]
      simp

theorem queue_pushes_bounded (h0 : frame_heap) (filter : Option (Nat → Bool)) (M : Nat)
    (hM : 0 < M) (hM2 : (M : Int) ≤ INT_MAX) :
    ∀ (fs l : List Nat) (event : Bool), l.length ≤ M →
      (∀ a ∈ l ++ fs, ∃ f, h0.frame a = some f ∧ f.finalized = true ∧ 1 ≤ f.refcount ∧
        f.refcount + M ≤ UINT_MAX) →
      (∀ p, filter = some p → ∀ a ∈ fs, p a = true) →
      queue_pushes queue_env_ok fs (queued_heap h0 l)
          { base := { frames := l, nframes := (l.length : Int), maxframes := (M : Int),
                      event := some event },
            filter := filter } =
        some (List.replicate fs.length 0,
          queued_heap h0 ((l ++ fs).drop ((l ++ fs).length - M)),
          { base :=
              { frames := (l ++ fs).drop ((l ++ fs).length - M)
                nframes := ((min (l.length + fs.length) M : Nat) : Int)
                maxframes := (M : Int)
                event := some (event || !fs.isEmpty) },
            filter := filter }) := by
  intro fs
  induction fs with
  | nil =>
    intro l event hl _ _
    have e : l.length - M = 0 := by omega
    have e2 : min l.length M = l.length := by omega
    simp [queue_pushes, e, e2]
  | cons a rest ih =>
    intro l event hl hfs hflt
    obtain ⟨f, hf, hfin, h1, h2⟩ := hfs a (List.mem_append_right _ (List.mem_cons_self _ _))
    have hlen2 := pushed_frames_length_le M hM l a hl
    have e := mbuf_coded_video_frame_queue_push_queued h0
      { base := { frames := l, nframes := (l.length : Int), maxframes := (M : Int),
                  event := some event },
        filter := filter } a f hf hfin h1
      (by
        have := List.count_le_length a (pushed_frames (M : Int) l a)
        simp only
        omega)
      rfl
      (fun _ b hb => by
        obtain ⟨g, hg, _, hg1, _⟩ := hfs b (List.mem_append_left _ hb)
        exact ⟨g, hg, hg1⟩)
      (by simp)
      (fun p hp => hflt p hp a (List.mem_cons_self _ _))
    have hw : (if (M : Int) ≠ 0 ∧ (l.length : Int) ≥ (M : Int) then
          wrap_int (wrap_int ((l.length : Int) - 1) + 1)
        else wrap_int ((l.length : Int) + 1)) =
        ((pushed_frames (M : Int) l a).length : Int) := by
      simp only [INT_MAX] at hM2
      by_cases hlt : l.length < M
      · rw [if_neg (by omega), pushed_frames_bounded_lt M l a hlt,
          wrap_int_of_range _ (by omega) (by omega)]
        simp
      · have he : l.length = M := by omega
        rw [if_pos (by omega), pushed_frames_bounded_full M hM l a he,
          wrap_int_of_range ((l.length : Int) - 1) (by omega) (by omega),
          wrap_int_of_range _ (by omega) (by omega)]
        simp only [List.length_append, List.length_tail, List.length_cons, List.length_nil]
        omega
    simp only [hw, Option.map_some'] at e
    rw [queue_pushes_cons _ _ _ _ _ _ _ _ e]
    have ih2 := ih (pushed_frames (M : Int) l a) true hlen2
      (fun b hb => by
        rcases List.mem_append.1 hb with hb1 | hb1
        · have hb2 := pushed_frames_mem _ _ _ _ hb1
          apply hfs b
          rcases List.mem_append.1 hb2 with hb3 | hb3
          · exact List.mem_append_left _ hb3
          · simp only [List.mem_singleton] at hb3
            subst hb3
            exact List.mem_append_right _ (List.mem_cons_self _ _)
        · exact hfs b (List.mem_append_right _ (List.mem_cons_of_mem _ hb1)))
      (fun p hp b hb => hflt p hp b (List.mem_cons_of_mem _ hb))
    rw [ih2, pushed_frames_drop M hM l rest a hl]
    have hmin : min ((pushed_frames (M : Int) l a).length + rest.length) M =
        min (l.length + (a :: rest).length) M := by
      by_cases hlt : l.length < M
      · rw [pushed_frames_bounded_lt M l a hlt]
        simp only [List.length_append, List.length_cons, List.length_nil]
        omega
      · have he : l.length = M := by omega
        rw [pushed_frames_bounded_full M hM l a he]
        simp only [List.length_append, List.length_tail, List.length_cons, List.length_nil]
        omega
    rw [hmin]
    simp [List.replicate_succ]

theorem queued_heap_nil (h0 : frame_heap) : queued_heap h0 [] = h0 := by
  obtain ⟨fr, cl⟩ := h0
  simp only [queued_heap, List.count_nil, Nat.add_zero, frame_heap.mk.injEq, and_true]
  funext a
  cases fr a with
  | none => rfl
  | some f => rfl

theorem mbuf_coded_video_frame_queue_new_with_args_ok (filter : Option (Nat → Bool))
    (N : Nat) :
    mbuf_coded_video_frame_queue_new_with_args true 0 true
        (some { filter := filter, max_frames := N }) true =
      (0, some (queue_holding filter (wrap_int (N : Int)) [] false)) := by
  simp [mbuf_coded_video_frame_queue_new_with_args, mbuf_base_frame_queue_init, queue_holding]

theorem queue_pops_spec (h : frame_heap) (filter : Option (Nat → Bool)) (M : Int) :
    ∀ (k : Nat) (l : List Nat) (event : Option Bool), k ≤ l.length →
      (l.length : Int) ≤ INT_MAX → (∀ a ∈ l, ∃ f, h.frame a = some f) →
      (queue_pops h k
          { base := { frames := l, nframes := (l.length : Int), maxframes := M,
                      event := event },
            filter := filter }).map (fun r =>
          (r.1, r.2.base.frames, mbuf_coded_video_frame_queue_get_count (some r.2))) =
        some ((l.take k).map (fun a => ((0 : Int), some a)), l.drop k,
          ((l.length - k : Nat) : Int)) := by
  intro k
  induction k with
  | zero =>
    intro l event _ _ _
    simp [queue_pops, mbuf_coded_video_frame_queue_get_count, mbuf_base_frame_queue_get_count]
  | succ n ih =>
    intro l event hk hmax hlive
    cases l with
    | nil => simp at hk
    | cons a rest =>
      obtain ⟨f, hf⟩ := hlive a (List.mem_cons_self _ _)
      simp only [List.length_cons] at hk hmax
      have hne : (((a :: rest).length : Nat) : Int) ≠ 0 := by
        simp only [List.length_cons]
        omega
      have hw : wrap_int ((((a :: rest).length : Nat) : Int) - 1) = (rest.length : Int) := by
        simp only [INT_MAX, List.length_cons] at hmax ⊢
        rw [wrap_int_of_range _ (by omega) (by omega)]
        push_cast
        omega
      have ih2 := ih rest
        (if (rest.length : Int) = 0 then event.map (fun _ => false) else event)
        (by omega) (by omega) (fun b hb => hlive b (List.mem_cons_of_mem _ hb))
      simp only [queue_pops, mbuf_coded_video_frame_queue_pop, mbuf_base_frame_queue_pop, hne,
        hf, hw, Bool.not_true, Bool.false_eq_true, if_false, if_true]
      cases hq : queue_pops h n
          { base := { frames := rest, nframes := (rest.length : Int), maxframes := M,
                      event :=
                        if (rest.length : Int) = 0 then event.map (fun _ => false)
                        else event },
            filter := filter } with
      | none =>
        rw [hq] at ih2
        simp at ih2
      | some r =>
        rw [hq] at ih2
        simp only [Option.map_some', Option.some.injEq, Prod.mk.injEq] at ih2
        obtain ⟨e1, e2, e3⟩ := ih2
        simp only [Option.map_some', Option.some.injEq, Prod.mk.injEq, List.take_succ_cons,
          List.map_cons, List.drop_succ_cons, e1, e2, e3, List.length_cons, true_and]
        congr 1
        omega

theorem mbuf_base_frame_queue_walk_eq (l : List Nat) :
    ∀ (i index : Nat), i ≤ index → index < 2 ^ 32 →
      mbuf_base_frame_queue_walk l i index = l.get? (index - i) := by
  induction l with
  | nil =>
    intro i index _ _
    rfl
  | cons a rest ih =>
    intro i index hi hidx
    by_cases he : i = index
    · subst he
      simp [mbuf_base_frame_queue_walk]
    · have hw : wrap_uint (i + 1) = i + 1 := wrap_uint_of_lt (by omega)
      have e : index - i = (index - (i + 1)) + 1 := by omega
      simp only [mbuf_base_frame_queue_walk, he, if_false, hw]
      rw [ih (i + 1) index (by omega) hidx, e, List.get?_cons_succ]

theorem mbuf_base_frame_ref_at_live (h : frame_heap) (a : Nat) (f : mbuf_base_frame)
    (hf : h.frame a = some f) (h1 : 1 ≤ f.refcount) :
    mbuf_base_frame_ref_at h a =
      some (0,
        { h with
          frame := fun x =>
            if x = a then some { f with refcount := wrap_uint (f.refcount + 1) }
            else h.frame x }) := by
  have hne : f.refcount ≠ 0 := by omega
  simp [mbuf_base_frame_ref_at, hf, mbuf_base_frame_ref, hne]

/-- C29.  `mbuf_coded_video_frame_queue_push` (the queues of audio and raw
video frames have the same text) of a frame that is not finalized returns
`-EBUSY`, and of a finalized frame that the filter of the queue refuses,
`-EPROTO`; in both cases the heap of frames, reference counts included, and
the queue, with its frames, its count and its event, are the ones before the
call, whatever the limit and the content of the queue and the answers of the
environment.  With a filter that accepts the frame the call does what it does
on the same queue without filter. -/
theorem mbuf_frame_queue_push_rejected :
    (∀ (env : queue_env) (h : frame_heap) (q : mbuf_coded_video_frame_queue) (a : Nat)
        (f : mbuf_base_frame),
      h.frame a = some f → f.finalized = false →
      mbuf_coded_video_frame_queue_push env h (some q) (some a) =
        some (-EBUSY, h, some q)) ∧
    (∀ (env : queue_env) (h : frame_heap) (q : mbuf_coded_video_frame_queue) (a : Nat)
        (f : mbuf_base_frame) (p : Nat → Bool),
      h.frame a = some f → f.finalized = true → q.filter = some p → p a = false →
      mbuf_coded_video_frame_queue_push env h (some q) (some a) =
        some (-EPROTO, h, some q)) ∧
    (∀ (env : queue_env) (h : frame_heap) (base : mbuf_base_frame_queue) (a : Nat)
        (p : Nat → Bool),
      p a = true →
      mbuf_coded_video_frame_queue_push env h (some { base := base, filter := some p })
          (some a) =
        (mbuf_coded_video_frame_queue_push env h (some { base := base, filter := none })
          (some a)).map (fun r =>
            (r.1, r.2.1, r.2.2.map (fun q1 => { q1 with filter := some p })))) ∧
    ((mbuf_coded_video_frame_queue_push queue_env_ok demo_heap
        (some { base := { frames := [1], nframes := 1, maxframes := 1, event := some true },
                filter := some (fun a => decide (a = 1)) }) (some 2)).map (fun r =>
          (r.1, r.2.1.frame 1, r.2.1.frame 2, r.2.1.cleaned, r.2.2.map (fun q1 => q1.base))) =
      some (-EPROTO, demo_heap.frame 1, demo_heap.frame 2, [],
        some { frames := [1], nframes := 1, maxframes := 1, event := some true })) := by
  refine ⟨?_, ?_, ?_, rfl⟩
  · intro env h q a f hf hfin
    simp [mbuf_coded_video_frame_queue_push, hf, mbuf_base_frame_is_finalized, hfin]
  · intro env h q a f p hf hfin hp hpa
    simp [mbuf_coded_video_frame_queue_push, hf, mbuf_base_frame_is_finalized, hfin, hp, hpa]
  · intro env h base a p hpa
    simp only [mbuf_coded_video_frame_queue_push, hpa, Bool.not_true, Bool.false_eq_true,
      if_false]
    cases h.frame a with
    | none => rfl
    | some f =>
      simp only
      by_cases hfin : mbuf_base_frame_is_finalized f = true
      · simp only [hfin, Bool.not_true, Bool.false_eq_true, if_false]
        cases mbuf_base_frame_queue_push env h base a with
        | none => rfl
        | some r => rfl
      · simp only [hfin, Bool.not_false, if_true, Bool.not_eq_true] at *
        simp [hfin]

/-- C30.  On a queue whose count is 0, `peek`, `peek_at` and `pop` return
`-EAGAIN` with `*out_frame` NULL; on a queue whose count is not 0, `peek_at`
with an index (an `unsigned int`) that is not below the number of frames
returns `-ENOENT` with `*out_frame` NULL; in these cases the heap of frames
and the queue are unchanged.  When the frame at position `index` is live with
a reference count from 1 to `UINT_MAX - 1`, `peek_at` returns 0 with that
frame, its count one more and nothing else changed, and so does `peek` for the
first frame; `pop` returns 0 with the first frame and unlinks it, without a
change of a reference count: the reference of the queue goes to the
caller. -/
theorem mbuf_frame_queue_read_spec :
    (∀ (h : frame_heap) (q : mbuf_coded_video_frame_queue) (index : Nat),
      q.base.nframes = 0 →
      mbuf_coded_video_frame_queue_peek h (some q) true = some (-EAGAIN, h, none) ∧
      mbuf_coded_video_frame_queue_peek_at h (some q) index true =
        some (-EAGAIN, h, none) ∧
      mbuf_coded_video_frame_queue_pop h (some q) true = some (-EAGAIN, some q, none)) ∧
    (∀ (h : frame_heap) (q : mbuf_coded_video_frame_queue) (index : Nat),
      q.base.nframes ≠ 0 → q.base.frames.length ≤ index → index < 2 ^ 32 →
      mbuf_coded_video_frame_queue_peek_at h (some q) index true =
        some (-ENOENT, h, none)) ∧
    (∀ (h : frame_heap) (q : mbuf_coded_video_frame_queue) (index a : Nat)
        (f : mbuf_base_frame),
      q.base.nframes ≠ 0 → q.base.frames.get? index = some a → index < 2 ^ 32 →
      h.frame a = some f → 1 ≤ f.refcount → f.refcount < UINT_MAX →
      mbuf_coded_video_frame_queue_peek_at h (some q) index true =
        some (0,
          { h with
            frame := fun x =>
              if x = a then some { f with refcount := f.refcount + 1 } else h.frame x },
          some a) ∧
      (index = 0 →
        mbuf_coded_video_frame_queue_peek h (some q) true =
          some (0,
            { h with
              frame := fun x =>
                if x = a then some { f with refcount := f.refcount + 1 } else h.frame x },
            some a))) ∧
    (∀ (h : frame_heap) (q : mbuf_coded_video_frame_queue) (a : Nat) (rest : List Nat)
        (f : mbuf_base_frame),
      q.base.nframes = ((a :: rest).length : Int) → q.base.nframes ≤ INT_MAX →
      q.base.frames = a :: rest → h.frame a = some f →
      mbuf_coded_video_frame_queue_pop h (some q) true =
        some (0,
          some { q with
            base :=
              { q.base with
                frames := rest
                nframes := (rest.length : Int)
                event :=
                  if rest = [] then q.base.event.map (fun _ => false) else q.base.event } },
          some a)) := by
  refine ⟨?_, ?_, ?_, ?_⟩
  · intro h q index hn
    simp [mbuf_coded_video_frame_queue_peek, mbuf_base_frame_queue_peek,
      mbuf_coded_video_frame_queue_peek_at, mbuf_base_frame_queue_peek_at,
      mbuf_coded_video_frame_queue_pop, mbuf_base_frame_queue_pop, hn]
  · intro h q index hn hlen hidx
    have hw := mbuf_base_frame_queue_walk_eq q.base.frames 0 index (Nat.zero_le _) hidx
    rw [Nat.sub_zero, List.get?_eq_none.2 hlen] at hw
    simp [mbuf_coded_video_frame_queue_peek_at, mbuf_base_frame_queue_peek_at, hn, hw]
  · intro h q index a f hn hget hidx hf h1 h2
    have hw := mbuf_base_frame_queue_walk_eq q.base.frames 0 index (Nat.zero_le _) hidx
    rw [Nat.sub_zero, hget] at hw
    have hwr : wrap_uint (f.refcount + 1) = f.refcount + 1 := by
      simp only [UINT_MAX] at h2
      exact wrap_uint_of_lt (by omega)
    have hr := mbuf_base_frame_ref_at_live h a f hf h1
    rw [hwr] at hr
    refine ⟨?_, ?_⟩
    · simp [mbuf_coded_video_frame_queue_peek_at, mbuf_base_frame_queue_peek_at, hn, hw, hr]
    · intro h0
      subst h0
      cases hfr : q.base.frames with
      | nil => rw [hfr] at hget; simp at hget
      | cons b rest =>
        rw [hfr] at hget
        simp only [List.get?_cons_zero, Option.some.injEq] at hget
        subst hget
        simp [mbuf_coded_video_frame_queue_peek, mbuf_base_frame_queue_peek, hn, hfr, hr]
  · intro h q a rest f hn hmax hfr hf
    have hne : q.base.nframes ≠ 0 := by
      rw [hn]
      simp only [List.length_cons]
      omega
    have hw : wrap_int (q.base.nframes - 1) = (rest.length : Int) := by
      rw [hn] at hmax ⊢
      simp only [INT_MAX, List.length_cons] at hmax ⊢
      rw [wrap_int_of_range _ (by omega) (by omega)]
      push_cast
      omega
    have hz : ((rest.length : Int) = 0) = (rest = []) := by
      apply propext
      constructor
      · intro hh
        exact List.length_eq_zero.1 (by omega)
      · intro hh
        subst hh
        rfl
    simp only [mbuf_coded_video_frame_queue_pop, mbuf_base_frame_queue_pop, hne, hfr, hf, hw,
      Bool.not_true, Bool.false_eq_true, if_false, if_true, hz]

theorem queue_pushes_append (env : queue_env) :
    ∀ (l1 l2 : List Nat) (h : frame_heap) (q : mbuf_coded_video_frame_queue),
      queue_pushes env (l1 ++ l2) h q =
        (queue_pushes env l1 h q).bind (fun r =>
          (queue_pushes env l2 r.2.1 r.2.2).map (fun r2 => (r.1 ++ r2.1, r2.2.1, r2.2.2))) := by
  intro l1
  induction l1 with
  | nil =>
    intro l2 h q
    simp only [List.nil_append, queue_pushes, Option.some_bind]
    cases queue_pushes env l2 h q with
    | none => rfl
    | some r => rfl
  | cons a rest ih =>
    intro l2 h q
    show queue_pushes env (a :: (rest ++ l2)) h q = _
    cases hp : mbuf_coded_video_frame_queue_push env h (some q) (some a) with
    | none => simp [queue_pushes, hp]
    | some r =>
      obtain ⟨ret, h1, oq⟩ := r
      cases oq with
      | none => simp [queue_pushes, hp]
      | some q1 =>
        rw [queue_pushes_cons env a (rest ++ l2) h h1 q q1 ret hp,
          queue_pushes_cons env a rest h h1 q q1 ret hp, ih]
        cases queue_pushes env rest h1 q1 with
        | none => rfl
        | some r1 =>
          simp only [Option.some_bind, Option.map_some']
          cases queue_pushes env l2 r1.2.1 r1.2.2 with
          | none => rfl
          | some r2 => rfl

/-- C27, with the bound the counter of the queue needs.  A queue is created
without limit, with any filter, and a list of `n` frames is pushed, `n` at
most `INT_MAX`; the frames are live and finalized, the filter accepts them,
their reference counts are at least 1 and leave room for `n` more references,
the holders are allocated and `pomp_evt_signal` returns 0.  Then every push
returns 0 and the queue holds the frames in the order of the pushes, each
referenced once more for each of its places in the queue; `get_count` is `n`;
`peek_at` returns 0 with the frame at the index given, for every index below
`n`, and `peek` with the first frame; `k` successive calls of `pop`, `k` at
most `n`, return 0 with the first `k` frames in the order of the pushes and
leave the other frames, `get_count` being `n - k`. -/
theorem mbuf_frame_queue_fifo (h0 : frame_heap) (filter : Option (Nat → Bool))
    (fs : List Nat) (hn : (fs.length : Int) ≤ INT_MAX)
    (hfs : ∀ a ∈ fs, ∃ f, h0.frame a = some f ∧ f.finalized = true ∧ 1 ≤ f.refcount ∧
      f.refcount + fs.length ≤ UINT_MAX)
    (hflt : ∀ p, filter = some p → ∀ a ∈ fs, p a = true) :
    mbuf_coded_video_frame_queue_new_with_args true 0 true
        (some { filter := filter, max_frames := 0 }) true =
      (0, some (queue_holding filter 0 [] false)) ∧
    queue_pushes queue_env_ok fs h0 (queue_holding filter 0 [] false) =
      some (List.replicate fs.length 0, queued_heap h0 fs,
        queue_holding filter 0 fs (!fs.isEmpty)) ∧
    mbuf_coded_video_frame_queue_get_count (some (queue_holding filter 0 fs (!fs.isEmpty))) =
      (fs.length : Int) ∧
    (∀ (i a : Nat), fs.get? i = some a →
      (mbuf_coded_video_frame_queue_peek_at (queued_heap h0 fs)
        (some (queue_holding filter 0 fs (!fs.isEmpty))) i true).map (fun r => (r.1, r.2.2)) =
          some (0, some a) ∧
      (i = 0 →
        (mbuf_coded_video_frame_queue_peek (queued_heap h0 fs)
          (some (queue_holding filter 0 fs (!fs.isEmpty))) true).map (fun r => (r.1, r.2.2)) =
            some (0, some a))) ∧
    (∀ k : Nat, k ≤ fs.length →
      (queue_pops (queued_heap h0 fs) k (queue_holding filter 0 fs (!fs.isEmpty))).map
          (fun r => (r.1, r.2.base.frames, mbuf_coded_video_frame_queue_get_count (some r.2))) =
        some ((fs.take k).map (fun a => ((0 : Int), some a)), fs.drop k,
          ((fs.length - k : Nat) : Int))) := by
  refine ⟨?_, ?_, rfl, ?_, ?_⟩
  · exact mbuf_coded_video_frame_queue_new_with_args_ok filter 0
  · have e := queue_pushes_unbounded h0 filter fs [] false
      (by simpa using hn)
      (fun a ha => by
        obtain ⟨f, hf, hfin, h1, h2⟩ := hfs a ha
        exact ⟨f, hf, hfin, h1, by simpa using h2⟩)
      hflt
    simp only [queued_heap_nil, List.nil_append, List.length_nil, Bool.false_or] at e
    exact e
  · intro i a hget
    have hmem : a ∈ fs := List.get?_mem hget
    obtain ⟨f, hf, hfin, h1, h2⟩ := hfs a hmem
    have hi : i < fs.length := by
      by_contra hc
      rw [List.get?_eq_none.2 (by omega)] at hget
      exact absurd hget (by simp)
    have hi2 : i < 2 ^ 32 := by
      simp only [INT_MAX] at hn
      omega
    have hne : ((fs.length : Nat) : Int) ≠ 0 := by omega
    have hw := mbuf_base_frame_queue_walk_eq fs 0 i (Nat.zero_le _) hi2
    rw [Nat.sub_zero, hget] at hw
    have hr := mbuf_base_frame_ref_at_live (queued_heap h0 fs) a _
      (queued_heap_frame h0 fs a f hf) (by simp only; omega)
    refine ⟨?_, ?_⟩
    · simp [mbuf_coded_video_frame_queue_peek_at, mbuf_base_frame_queue_peek_at,
        queue_holding, hne, hw, hr]
    · intro h0i
      subst h0i
      cases fs with
      | nil => simp at hget
      | cons b rest =>
        simp only [List.get?_cons_zero, Option.some.injEq] at hget
        subst hget
        have hne2 : (rest.length : Int) + 1 ≠ 0 := by omega
        simp [mbuf_coded_video_frame_queue_peek, mbuf_base_frame_queue_peek,
          queue_holding, hne2, hr]
  · intro k hk
    exact queue_pops_spec (queued_heap h0 fs) filter 0 k fs _ hk hn
      (fun a ha => by
        obtain ⟨f, hf, _⟩ := hfs a ha
        exact ⟨_, queued_heap_frame h0 fs a f hf⟩)

theorem demo_heap_frames (a : Nat) (ha : a ∈ [1, 2, 3]) :
    demo_heap.frame a = some { mbuf_base_frame_init with finalized := true } := by
  simp only [List.mem_cons, List.mem_singleton, List.not_mem_nil, or_false] at ha
  rcases ha with h | h | h <;> subst h <;> rfl

/-- C27 at a concrete input: the frames at the addresses 1, 2 and 3 of
`demo_heap` are pushed on a new queue without limit and popped again in the
same order. -/
theorem mbuf_frame_queue_fifo_witness :
    queue_pushes queue_env_ok [1, 2, 3] demo_heap (queue_holding none 0 [] false) =
      some ([0, 0, 0], queued_heap demo_heap [1, 2, 3],
        queue_holding none 0 [1, 2, 3] true) ∧
    (queue_pops (queued_heap demo_heap [1, 2, 3]) 3 (queue_holding none 0 [1, 2, 3] true)).map
        (fun r => (r.1, r.2.base.frames, mbuf_coded_video_frame_queue_get_count (some r.2))) =
      some ([(0, some 1), (0, some 2), (0, some 3)], [], 0) :=
  have h := mbuf_frame_queue_fifo demo_heap none [1, 2, 3] (by decide)
    (fun a ha => ⟨_, demo_heap_frames a ha, rfl, by decide, by decide⟩)
    (fun p hp => by cases hp)
  ⟨h.2.1, h.2.2.2.2 3 (by decide)⟩

theorem queue_pushes_unbounded_last (h0 : frame_heap) (filter : Option (Nat → Bool))
    (fs : List Nat) (a : Nat) (hn : (fs.length : Int) ≤ INT_MAX)
    (hfs : ∀ b ∈ fs ++ [a], ∃ f, h0.frame b = some f ∧ f.finalized = true ∧
      1 ≤ f.refcount ∧ f.refcount + (fs.length + 1) ≤ UINT_MAX)
    (hflt : ∀ p, filter = some p → ∀ b ∈ fs ++ [a], p b = true) :
    queue_pushes queue_env_ok (fs ++ [a]) h0 (queue_holding filter 0 [] false) =
      some (List.replicate fs.length 0 ++ [0], queued_heap h0 (fs ++ [a]),
        { base := { frames := fs ++ [a], nframes := wrap_int ((fs.length : Int) + 1),
                    maxframes := 0, event := some true },
          filter := filter }) := by
  have e := queue_pushes_unbounded h0 filter fs [] false
    (by simpa using hn)
    (fun b hb => by
      obtain ⟨f, hf, hfin, h1, h2⟩ := hfs b (List.mem_append_left _ hb)
      refine ⟨f, hf, hfin, h1, ?_⟩
      simp only [List.length_nil]
      omega)
    (fun p hp b hb => hflt p hp b (List.mem_append_left _ hb))
  simp only [queued_heap_nil, List.nil_append, List.length_nil, Bool.false_or] at e
  obtain ⟨f, hf, hfin, h1, h2⟩ := hfs a (List.mem_append_right _ (List.mem_singleton_self _))
  have hcount : fs.count a ≤ fs.length := List.count_le_length a fs
  have e2 := mbuf_coded_video_frame_queue_push_queued h0
    { base := { frames := fs, nframes := (fs.length : Int), maxframes := 0,
                event := some (!fs.isEmpty) },
      filter := filter } a f hf hfin h1
    (by
      simp only [pushed_frames_unbounded, List.count_append, List.count_singleton_self]
      omega)
    rfl (fun h => absurd rfl h) (le_refl _)
    (fun p hp => hflt p hp a (List.mem_append_right _ (List.mem_singleton_self _)))
  simp only [pushed_frames_unbounded, ne_eq, not_true_eq_false, false_and, if_false,
    Option.map_some'] at e2
  have e3 := queue_pushes_cons queue_env_ok a [] _ _ _ _ _ e2
  conv at e3 =>
    rhs
    simp only [queue_pushes, Option.map_some']
  have hq : queue_holding filter 0 [] false =
      { base := { frames := [], nframes := ((0 : Nat) : Int), maxframes := 0,
                  event := some false },
        filter := filter } := rfl
  rw [queue_pushes_append, hq, e, Option.some_bind, e3, Option.map_some']

/-- C27, where the claim fails: the frame at address 1 is pushed `2 ^ 31`
times on a queue without limit.  Every push returns 0 and the queue holds the
`2 ^ 31` entries, but `get_count` returns `INT_MIN`: the count is an `int`. -/
theorem mbuf_frame_queue_count_overflow :
    (queue_pushes queue_env_ok (List.replicate (2 ^ 31) 1) demo_heap
        (queue_holding none 0 [] false)).map
        (fun r => (r.1, r.2.2.base.frames,
          mbuf_coded_video_frame_queue_get_count (some r.2.2))) =
      some (List.replicate (2 ^ 31) 0, List.replicate (2 ^ 31) 1, INT_MIN) ∧
    INT_MIN ≠ (((List.replicate (2 ^ 31) 1).length : Nat) : Int) := by
  have e31 : (2 : Nat) ^ 31 = (2 ^ 31 - 1) + 1 := by norm_num
  have hrep1 : List.replicate (2 ^ 31) (1 : Nat) = List.replicate (2 ^ 31 - 1) 1 ++ [1] := by
    conv_lhs => rw [e31]
    exact List.replicate_succ' _ _
  have hrep0 : List.replicate (2 ^ 31) (0 : Int) = List.replicate (2 ^ 31 - 1) 0 ++ [0] := by
    conv_lhs => rw [e31]
    exact List.replicate_succ' _ _
  have hf1 : demo_heap.frame 1 = some { mbuf_base_frame_init with finalized := true } := rfl
  have hrc :
      ({ mbuf_base_frame_init with finalized := true } : mbuf_base_frame).refcount = 1 := rfl
  have hlen : (((List.replicate (2 ^ 31 - 1) 1 : List Nat).length : Nat) : Int) ≤ INT_MAX := by
    rw [List.length_replicate]
    decide
  have hrcs : ({ mbuf_base_frame_init with finalized := true } : mbuf_base_frame).refcount +
      ((List.replicate (2 ^ 31 - 1) 1 : List Nat).length + 1) ≤ UINT_MAX := by
    rw [List.length_replicate, hrc]
    decide
  have hw : wrap_int ((((List.replicate (2 ^ 31 - 1) 1 : List Nat).length : Nat) : Int) + 1) =
      INT_MIN := by
    rw [List.length_replicate]
    decide
  refine ⟨?_, ?_⟩
  · have e := queue_pushes_unbounded_last demo_heap none (List.replicate (2 ^ 31 - 1) 1) 1 hlen
      (fun b hb => by
        have hb1 : b = 1 := by
          rcases List.mem_append.1 hb with h | h
          · exact List.eq_of_mem_replicate h
          · exact List.mem_singleton.1 h
        subst hb1
        exact ⟨_, hf1, rfl, by decide, hrcs⟩)
      (fun p hp => by cases hp)
    rw [hw, List.length_replicate] at e
    rw [hrep1, e, hrep0]
    rfl
  · rw [List.length_replicate]
    decide

theorem wrap_int_of_uint_high (N : Nat) (h1 : 2 ^ 31 ≤ N) (h2 : N < 2 ^ 32) :
    wrap_int (N : Int) = (N : Int) - 2 ^ 32 := by
  unfold wrap_int
  omega

/-- C28, what the code does.  `max_frames` is a `uint32_t` that
`mbuf_coded_video_frame_queue_new_with_args` stores in an `int`.  For a limit
`N` from 1 to `INT_MAX`, on a queue created with it, with any filter, and for
every list of live finalized frames that the filter accepts, whose reference
counts are at least 1 and leave room for `N` more references (holders
allocated, `pomp_evt_signal` returning 0): every push returns 0, the queue
holds the last `min m N` frames pushed, in the order of the pushes, `m` being
the number of pushes, `get_count` is `min m N`, no cleaner has run and the
reference count of every frame is the one before the pushes plus the number of
its places in the queue, so an evicted frame is back at its count.  For a
limit `N` from `2 ^ 31` to `2 ^ 32 - 1` the limit stored is `N - 2 ^ 32`, and
every push of a finalized frame that the filter accepts returns `-EPROTO` and
leaves the queue empty, as with three frames and the limit `2 ^ 31`. -/
theorem mbuf_frame_queue_drop_oldest :
    (∀ (h0 : frame_heap) (filter : Option (Nat → Bool)) (N : Nat) (fs : List Nat),
      0 < N → (N : Int) ≤ INT_MAX →
      (∀ a ∈ fs, ∃ f, h0.frame a = some f ∧ f.finalized = true ∧ 1 ≤ f.refcount ∧
        f.refcount + N ≤ UINT_MAX) →
      (∀ p, filter = some p → ∀ a ∈ fs, p a = true) →
      mbuf_coded_video_frame_queue_new_with_args true 0 true
          (some { filter := filter, max_frames := N }) true =
        (0, some (queue_holding filter (N : Int) [] false)) ∧
      queue_pushes queue_env_ok fs h0 (queue_holding filter (N : Int) [] false) =
        some (List.replicate fs.length 0, queued_heap h0 (fs.drop (fs.length - N)),
          queue_holding filter (N : Int) (fs.drop (fs.length - N)) (!fs.isEmpty)) ∧
      (fs.drop (fs.length - N)).length = min fs.length N ∧
      mbuf_coded_video_frame_queue_get_count
          (some (queue_holding filter (N : Int) (fs.drop (fs.length - N)) (!fs.isEmpty))) =
        ((min fs.length N : Nat) : Int) ∧
      (queued_heap h0 (fs.drop (fs.length - N))).cleaned = h0.cleaned ∧
      (∀ (a : Nat) (f : mbuf_base_frame), h0.frame a = some f →
        (queued_heap h0 (fs.drop (fs.length - N))).frame a =
          some { f with refcount := f.refcount + (fs.drop (fs.length - N)).count a })) ∧
    (∀ (env : queue_env) (h : frame_heap) (filter : Option (Nat → Bool)) (N a : Nat)
        (f : mbuf_base_frame),
      2 ^ 31 ≤ N → N < 2 ^ 32 → env.calloc_holder = true →
      h.frame a = some f → f.finalized = true → (∀ p, filter = some p → p a = true) →
      mbuf_coded_video_frame_queue_new_with_args true 0 true
          (some { filter := filter, max_frames := N }) true =
        (0, some (queue_holding filter ((N : Int) - 2 ^ 32) [] false)) ∧
      mbuf_coded_video_frame_queue_push env h
          (some (queue_holding filter ((N : Int) - 2 ^ 32) [] false)) (some a) =
        some (-EPROTO, h, some (queue_holding filter ((N : Int) - 2 ^ 32) [] false))) ∧
    ((mbuf_coded_video_frame_queue_new_with_args true 0 true
        (some { filter := none, max_frames := 2 ^ 31 }) true).2.map (fun q => q.base) =
      some { frames := [], nframes := 0, maxframes := INT_MIN, event := some false } ∧
    (queue_pushes queue_env_ok [1, 2, 3] demo_heap
        (queue_holding none INT_MIN [] false)).map (fun r => (r.1, r.2.2.base)) =
      some ([-EPROTO, -EPROTO, -EPROTO],
        { frames := [], nframes := 0, maxframes := INT_MIN, event := some false }) ∧
    (mbuf_coded_video_frame_queue_push queue_env_ok demo_heap
        (some (queue_holding none INT_MIN [] false)) (some 1)).map (fun r =>
          (r.1, r.2.1.frame 1, r.2.2.map (fun q => q.base))) =
      some (-EPROTO, demo_heap.frame 1,
        some { frames := [], nframes := 0, maxframes := INT_MIN, event := some false })) := by
  refine ⟨?_, ?_, ?_⟩
  · intro h0 filter N fs hN hN2 hfs hflt
    have hw : wrap_int (N : Int) = (N : Int) := by
      simp only [INT_MAX] at hN2
      exact wrap_int_of_range _ (by omega) (by omega)
    have hlen : (fs.drop (fs.length - N)).length = min fs.length N := by
      rw [List.length_drop]
      omega
    refine ⟨?_, ?_, hlen, ?_, rfl, ?_⟩
    · rw [mbuf_coded_video_frame_queue_new_with_args_ok, hw]
    · have e := queue_pushes_bounded h0 filter N hN hN2 fs [] false (Nat.zero_le _)
        (by simpa using hfs) hflt
      simp only [queued_heap_nil, List.nil_append, List.length_nil, Bool.false_or,
        Nat.zero_add] at e
      rw [← hlen] at e
      exact e
    · simp only [mbuf_coded_video_frame_queue_get_count, mbuf_base_frame_queue_get_count,
        queue_holding, hlen]
    · intro a f hf
      exact queued_heap_frame h0 _ a f hf
  · intro env h filter N a f h1 h2 hcal hf hfin hflt
    have hw := wrap_int_of_uint_high N h1 h2
    refine ⟨?_, ?_⟩
    · rw [mbuf_coded_video_frame_queue_new_with_args_ok, hw]
    · have hm : ¬ ((N : Int) - 4294967296 = 0) := by omega
      have hle : N ≤ 4294967296 := by omega
      cases filter with
      | none =>
        simp [mbuf_coded_video_frame_queue_push, queue_holding, hf,
          mbuf_base_frame_is_finalized, hfin, mbuf_base_frame_queue_push, hcal, hm, hle]
      | some p =>
        have hp := hflt p rfl
        simp [mbuf_coded_video_frame_queue_push, queue_holding, hf,
          mbuf_base_frame_is_finalized, hfin, mbuf_base_frame_queue_push, hcal, hm, hle, hp]
  · refine ⟨by decide, rfl, rfl⟩

/-! ### Copy: the payload -/

theorem mem_at_store_refcount (s : mbuf_state) (a v b : Nat) :
    mem_at (store_refcount s a v) b =
      if b = a then (mem_at s a).map (fun m => { m with refcount := v }) else mem_at s b := by
  unfold store_refcount
  cases hp : find_mem s.pool.memories a with
  | some m =>
    simp only [mem_at, find_mem_set_refcount, hp, Option.map_some']
    by_cases hb : b = a
    · simp [hb]
    · simp [hb]
  | none =>
    simp only [mem_at, find_mem_set_refcount, hp]
    by_cases hb : b = a
    · subst hb
      simp [hp]
    · simp [hb]

theorem mbuf_mem_ref_live (s : mbuf_state) (m : Nat) (c : mbuf_mem) (h : mem_at s m = some c) :
    ∃ s1 c1, mbuf_mem_ref s m = some (0, s1) ∧ mem_at s1 m = some c1 := by
  refine ⟨store_refcount s m (wrap_uint (c.refcount + 1)),
    { c with refcount := wrap_uint (c.refcount + 1) }, ?_, ?_⟩
  · simp only [mbuf_mem_ref, h]
  · rw [mem_at_store_refcount]
    simp [h]

theorem mbuf_base_frame_set_metadata_fields (env : vmeta_env) (log : List vmeta_call)
    (frame : mbuf_base_frame) (meta : Option Nat) :
    (mbuf_base_frame_set_metadata env log frame meta).2.2.finalized = frame.finalized ∧
    (mbuf_base_frame_set_metadata env log frame meta).2.2.rwlock = frame.rwlock ∧
    (mbuf_base_frame_set_metadata env log frame meta).2.2.refcount = frame.refcount := by
  unfold mbuf_base_frame_set_metadata
  repeat' split
  all_goals exact ⟨rfl, rfl, rfl⟩

theorem mbuf_base_frame_add_ancillary_data_fields {c : Bool} {h h1 : anc_state}
    {b b1 : mbuf_base_frame} {a : Nat} {ret : Int}
    (e : mbuf_base_frame_add_ancillary_data c h b a = some (ret, h1, b1)) :
    b1.meta = b.meta ∧ b1.finalized = b.finalized ∧ b1.rwlock = b.rwlock ∧
      b1.refcount = b.refcount := by
  unfold mbuf_base_frame_add_ancillary_data mbuf_base_frame_add_ancillary_internal at e
  repeat' split at e
  all_goals simp only [Option.some.injEq, Prod.mk.injEq, reduceCtorEq, false_and,
    and_false] at e
  all_goals
    obtain ⟨_, _, e3⟩ := e
    subst e3
    exact ⟨rfl, rfl, rfl, rfl⟩

theorem rdlock_rdunlock_restores (sp : Nat) (b : mbuf_base_frame) (h0 : 0 ≤ b.rwlock)
    (h1 : b.rwlock < INT_MAX) :
    mbuf_base_frame_rdlock sp b = (0, { b with rwlock := b.rwlock + 1 }) ∧
    mbuf_base_frame_rdunlock sp { b with rwlock := b.rwlock + 1 } = (0, b) := by
  simp only [INT_MAX] at h1
  have hne : b.rwlock ≠ RWLOCK_WRLOCKED := by
    simp only [RWLOCK_WRLOCKED]
    omega
  have hw1 : wrap_int (b.rwlock + 1) = b.rwlock + 1 :=
    wrap_int_of_range _ (by omega) (by omega)
  have hw2 : wrap_int (b.rwlock + 1 - 1) = b.rwlock := by
    rw [wrap_int_of_range _ (by omega) (by omega)]
    omega
  have hnle : ¬ (b.rwlock + 1 ≤ RWLOCK_FREE) := by
    simp only [RWLOCK_FREE]
    omega
  constructor
  · rw [mbuf_base_frame_rdlock_eq, if_neg hne, hw1]
  · rw [mbuf_base_frame_rdunlock_eq]
    simp only [hnle, if_false, hw2]

theorem mbuf_raw_video_frame_copier_fields (ch : Nat → Bool) (l : List Nat) :
    ∀ (u u1 : Nat × anc_state × mbuf_raw_video_frame),
      foreach_walk (mbuf_raw_video_frame_ancillary_data_copier ch) l u = some u1 →
      u1.2.2.info = u.2.2.info ∧ u1.2.2.nplanes = u.2.2.nplanes ∧
      u1.2.2.planes = u.2.2.planes ∧
      u1.2.2.cbs = u.2.2.cbs ∧ u1.2.2.base.meta = u.2.2.base.meta ∧
      u1.2.2.base.finalized = u.2.2.base.finalized ∧
      u1.2.2.base.rwlock = u.2.2.base.rwlock ∧
      u1.2.2.base.refcount = u.2.2.base.refcount := by
  induction l with
  | nil =>
    intro u u1 h
    simp only [foreach_walk, Option.some.injEq] at h
    subst h
    exact ⟨rfl, rfl, rfl, rfl, rfl, rfl, rfl, rfl⟩
  | cons a rest ih =>
    intro u u1 h
    simp only [foreach_walk, mbuf_raw_video_frame_ancillary_data_copier,
      mbuf_raw_video_frame_add_ancillary_data] at h
    cases hadd : mbuf_base_frame_add_ancillary_data (ch u.1) u.2.1 u.2.2.base a with
    | none => simp [hadd] at h
    | some r =>
      obtain ⟨ret, h1, b1⟩ := r
      simp only [hadd, Option.map_some', Bool.not_true, Bool.false_eq_true, if_false] at h
      have hb := mbuf_base_frame_add_ancillary_data_fields hadd
      have hi := ih _ _ h
      simp only at hi
      exact ⟨hi.1, hi.2.1, hi.2.2.1, hi.2.2.2.1, hi.2.2.2.2.1.trans hb.1,
        hi.2.2.2.2.2.1.trans hb.2.1, hi.2.2.2.2.2.2.1.trans hb.2.2.1,
        hi.2.2.2.2.2.2.2.trans hb.2.2.2⟩

theorem mbuf_raw_video_frame_copier_walk_ok (ch : Nat → Bool) (h : anc_state)
    (l : List Nat) (nf0 : mbuf_raw_video_frame) (hb0 : nf0.base = mbuf_base_frame_init)
    (hw : anc_wf h l) (hch : ∀ i, i < l.length → ch i = true) :
    ∃ u1, foreach_walk (mbuf_raw_video_frame_ancillary_data_copier ch) l (0, h, nf0) =
      some u1 := by
  have hnil : nf0.base.ancillary_data = [] := by rw [hb0]; rfl
  obtain ⟨u2, hwalk2, _⟩ :=
    copier_walk ch (mbuf_raw_video_frame_ancillary_data_copier ch)
      (fun u => (u.1, u.2.1, u.2.2.base)) (mbuf_raw_video_frame_copier_add ch)
      l (0, h, nf0) 0 h nf0.base rfl
      (by
        rw [hnil]
        exact ⟨hw.1, by simp, by simp⟩)
      hw.2.1 hw.2.2
      (by
        rw [hnil]
        simp)
      (by
        intro i hi
        rw [Nat.zero_add]
        exact hch i hi)
  exact ⟨u2, hwalk2⟩

theorem list_get_at_length {α : Type} (pre : List α) (a : α) (rest : List α) :
    (pre ++ a :: rest).get? pre.length = some a := by
  induction pre with
  | nil => rfl
  | cons x xs ih => simpa using ih

theorem list_set_at_length {α : Type} (pre : List α) (a x : α) (rest : List α) :
    (pre ++ a :: rest).set pre.length x = pre ++ x :: rest := by
  induction pre with
  | nil => rfl
  | cons y ys ih => simp [ih]

theorem mbuf_raw_video_frame_set_plane_fresh (sp : Nat) (data : Nat → Nat) (s : mbuf_state)
    (nf : mbuf_raw_video_frame) (pre rest : List frame_buffer) (dst offset len : Nat)
    (c : mbuf_mem) (hp : nf.planes = pre ++ frame_buffer_zero :: rest)
    (hn : pre.length < nf.nplanes) (hfin : nf.base.finalized = false)
    (hc : mem_at s dst = some c) :
    mbuf_raw_video_frame_set_plane sp data s nf pre.length (some dst) offset len =
      some (0, store_refcount s dst (wrap_uint (c.refcount + 1)),
        { nf with
          planes := pre ++ { mem := some dst, data := data dst + offset, len := len } :: rest }) := by
  have hge : ¬ pre.length ≥ nf.nplanes := by omega
  have hget : nf.planes.get? pre.length = some frame_buffer_zero := by
    rw [hp]
    exact list_get_at_length _ _ _
  have hset : nf.planes.set pre.length { mem := some dst, data := data dst + offset, len := len } =
      pre ++ { mem := some dst, data := data dst + offset, len := len } :: rest := by
    rw [hp]
    exact list_set_at_length _ _ _ _
  simp only [mbuf_raw_video_frame_set_plane, hge, if_false, mbuf_base_frame_is_finalized, hfin,
    Bool.false_eq_true, hget, frame_buffer_zero, mbuf_mem_ref, hc, ne_eq, not_true_eq_false,
    hset]

theorem plane_segments_packed_planes (base dst : Nat) (l : List frame_buffer) :
    ∀ offset, segments_len (plane_segments (packed_planes base dst l offset)) =
      segments_len (plane_segments l) := by
  induction l with
  | nil => intro _; rfl
  | cons p rest ih =>
    intro offset
    simp only [packed_planes, plane_segments, List.map_cons, segments_len_cons]
    have := ih (offset + p.len)
    simp only [plane_segments] at this
    rw [this]

theorem packed_planes_length (base dst : Nat) (l : List frame_buffer) :
    ∀ offset, (packed_planes base dst l offset).length = l.length := by
  induction l with
  | nil => intro _; rfl
  | cons p rest ih =>
    intro offset
    simp only [packed_planes, List.length_cons, ih]

theorem packed_planes_get (base dst : Nat) (l : List frame_buffer) :
    ∀ (offset k : Nat) (p : frame_buffer), l.get? k = some p →
      (packed_planes base dst l offset).get? k =
        some { mem := some dst,
               data := base + offset + segments_len (plane_segments (l.take k)),
               len := p.len } := by
  induction l with
  | nil =>
    intro offset k p h
    simp at h
  | cons q rest ih =>
    intro offset k p h
    cases k with
    | zero =>
      simp only [List.get?_cons_zero, Option.some.injEq] at h
      subst h
      simp [packed_planes, plane_segments, segments_len]
    | succ k =>
      simp only [List.get?_cons_succ] at h
      simp only [packed_planes, List.get?_cons_succ, ih (offset + q.len) k p h,
        List.take_succ_cons, plane_segments, List.map_cons, segments_len_cons]
      simp only [Option.some.injEq, frame_buffer.mk.injEq, true_and, and_true]
      omega

theorem planes_all_set_packed (base dst : Nat) (l : List frame_buffer) :
    ∀ (offset : Nat) (rest : List frame_buffer),
      planes_all_set (packed_planes base dst l offset ++ rest) l.length = some true := by
  induction l with
  | nil =>
    intro offset rest
    cases rest <;> rfl
  | cons p tl ih =>
    intro offset rest
    have := ih (offset + p.len) rest
    simpa [packed_planes, planes_all_set] using this

theorem copy_rows_outside (cpdst cpsrc t s : Nat) (n : Nat) :
    ∀ (bytes : Nat → Nat) (p : Nat), p < cpdst ∨ cpdst + n * t ≤ p →
      copy_rows cpdst cpsrc t s n bytes p = bytes p := by
  induction n with
  | zero =>
    intro bytes p _
    rfl
  | succ n ih =>
    intro bytes p hp
    have h2 : (n + 1) * t = n * t + t := Nat.succ_mul n t
    simp only [copy_rows]
    unfold memcpy
    rw [if_neg (by omega)]
    exact ih bytes p (by omega)

theorem copy_rows_get (cpdst cpsrc t s : Nat) (n : Nat) :
    ∀ (bytes : Nat → Nat),
      (∀ j, j < n → cpsrc + j * s + t ≤ cpdst ∨ cpdst + n * t ≤ cpsrc + j * s) →
      ∀ j, j < n → ∀ b, b < t →
        copy_rows cpdst cpsrc t s n bytes (cpdst + j * t + b) = bytes (cpsrc + j * s + b) := by
  induction n with
  | zero =>
    intro bytes _ j hj
    omega
  | succ n ih =>
    intro bytes hout j hj b hb
    have h2 : (n + 1) * t = n * t + t := Nat.succ_mul n t
    simp only [copy_rows]
    unfold memcpy
    by_cases hjn : j = n
    · subst hjn
      rw [if_pos (by omega)]
      have e : cpsrc + j * s + (cpdst + j * t + b - (cpdst + j * t)) = cpsrc + j * s + b := by
        omega
      rw [e]
      apply copy_rows_outside
      have := hout j (by omega)
      omega
    · have hlt : j < n := by omega
      have h1 : (j + 1) * t ≤ n * t := Nat.mul_le_mul_right t (by omega)
      have h3 : (j + 1) * t = j * t + t := Nat.succ_mul j t
      rw [if_neg (by omega)]
      exact ih bytes (fun i hi => by
        have := hout i (by omega)
        omega) j hlt b hb

theorem tight_rows_len (src_stride plane_stride plane_size : List Nat)
    (l : List frame_buffer) :
    ∀ i, (tight_rows src_stride plane_stride plane_size l i).map (fun x => x.2.2.2) =
      (tight_slots plane_size l i).map (fun p => p.len) := by
  induction l with
  | nil => intro _; rfl
  | cons p rest ih =>
    intro i
    simp only [tight_rows, tight_slots, List.map_cons, ih]

theorem copy_tight_outside (base : Nat) (l : List (Nat × Nat × Nat × Nat)) :
    ∀ (offset : Nat) (bytes : Nat → Nat) (p : Nat),
      p < base + offset ∨ base + offset + (l.map (fun x => x.2.2.2)).sum ≤ p →
      copy_tight base l offset bytes p = bytes p := by
  induction l with
  | nil =>
    intro offset bytes p _
    rfl
  | cons a rest ih =>
    intro offset bytes p hp
    obtain ⟨src, s, t, z⟩ := a
    simp only [List.map_cons, List.sum_cons] at hp
    simp only [copy_tight]
    rw [ih (offset + z) _ p (by omega)]
    apply copy_rows_outside
    have h1 : z / t * t ≤ z := Nat.div_mul_le_self z t
    omega

theorem copy_tight_get (base : Nat) (l : List (Nat × Nat × Nat × Nat)) :
    ∀ (offset : Nat) (bytes : Nat → Nat),
      (∀ x ∈ l, ∀ j, j < x.2.2.2 / x.2.2.1 →
        x.1 + j * x.2.1 + x.2.2.1 ≤ base + offset ∨
          base + offset + (l.map (fun x => x.2.2.2)).sum ≤ x.1 + j * x.2.1) →
      ∀ (k : Nat) (x : Nat × Nat × Nat × Nat), l.get? k = some x →
        ∀ j, j < x.2.2.2 / x.2.2.1 → ∀ b, b < x.2.2.1 →
          copy_tight base l offset bytes
            (base + offset + ((l.take k).map (fun x => x.2.2.2)).sum + j * x.2.2.1 + b) =
            bytes (x.1 + j * x.2.1 + b) := by
  induction l with
  | nil =>
    intro offset bytes _ k x hk
    simp at hk
  | cons a rest ih =>
    intro offset bytes hout k x hk j hj b hb
    obtain ⟨src, s, t, z⟩ := a
    simp only [copy_tight]
    have hzt : z / t * t ≤ z := Nat.div_mul_le_self z t
    cases k with
    | zero =>
      simp only [List.get?_cons_zero, Option.some.injEq] at hk
      subst hk
      simp only at hj hb ⊢
      simp only [List.take_zero, List.map_nil, List.sum_nil, Nat.add_zero]
      have h1 : (j + 1) * t ≤ z / t * t := Nat.mul_le_mul_right t (by omega)
      have h3 : (j + 1) * t = j * t + t := Nat.succ_mul j t
      rw [copy_tight_outside base rest (offset + z) _ _ (by omega)]
      apply copy_rows_get _ _ _ _ _ _ _ j hj b hb
      intro i hi
      have := hout (src, s, t, z) (List.mem_cons_self _ _) i hi
      simp only [List.map_cons, List.sum_cons] at this
      omega
    | succ k =>
      simp only [List.get?_cons_succ] at hk
      have hmem : x ∈ rest := List.get?_mem hk
      have hx := hout x (List.mem_cons_of_mem _ hmem) j hj
      simp only [List.map_cons, List.sum_cons] at hx
      have e : base + offset + ((((src, s, t, z) :: rest).take (k + 1)).map
          (fun x => x.2.2.2)).sum + j * x.2.2.1 + b =
          base + (offset + z) + ((rest.take k).map (fun x => x.2.2.2)).sum +
            j * x.2.2.1 + b := by
        simp only [List.take_succ_cons, List.map_cons, List.sum_cons]
        omega
      rw [e, ih (offset + z) _ (fun y hy i hi => by
        have := hout y (List.mem_cons_of_mem _ hy) i hi
        simp only [List.map_cons, List.sum_cons] at this
        omega) k x hk j hj b hb]
      apply copy_rows_outside
      omega

theorem plane_segments_cons (p : frame_buffer) (l : List frame_buffer) :
    plane_segments (p :: l) = (p.data, p.len) :: plane_segments l := rfl

theorem copy_planes_tight_packed (sp : Nat) (data : Nat → Nat) (dst : Nat)
    (src_stride plane_stride plane_size : List Nat) (l : List frame_buffer) :
    ∀ (offset : Nat) (bytes : Nat → Nat) (s : mbuf_state) (nf : mbuf_raw_video_frame)
      (c : mbuf_mem) (pre : List frame_buffer) (m : Nat),
      nf.planes = pre ++ List.replicate m frame_buffer_zero → l.length ≤ m →
      pre.length + l.length ≤ nf.nplanes → nf.base.finalized = false →
      mem_at s dst = some c →
      (∀ k, k < l.length → ∃ t z ss, plane_stride.get? (pre.length + k) = some t ∧ t ≠ 0 ∧
        plane_size.get? (pre.length + k) = some z ∧
        src_stride.get? (pre.length + k) = some ss) →
      offset + segments_len (plane_segments (tight_slots plane_size l pre.length)) < 2 ^ 64 →
      ∃ s1 c1,
        copy_planes_tight sp data dst src_stride plane_stride plane_size l pre.length offset
            bytes s nf =
          some (0,
            copy_tight (data dst) (tight_rows src_stride plane_stride plane_size l pre.length)
              offset bytes,
            s1,
            { nf with
              planes := pre ++
                packed_planes (data dst) dst (tight_slots plane_size l pre.length) offset ++
                List.replicate (m - l.length) frame_buffer_zero
              info := { nf.info with
                plane_stride :=
                  tight_strides plane_stride l.length pre.length nf.info.plane_stride } }) ∧
        mem_at s1 dst = some c1 := by
  induction l with
  | nil =>
    intro offset bytes s nf c pre m hp _ _ _ hc _ _
    refine ⟨s, c, ?_, hc⟩
    simp only [copy_planes_tight, tight_rows, copy_tight, tight_slots, packed_planes,
      List.append_nil, List.length_nil, Nat.sub_zero, ← hp, tight_strides]
  | cons p rest ih =>
    intro offset bytes s nf c pre m hp hm hn hfin hc hidx hsum
    simp only [List.length_cons] at hm hn
    obtain ⟨m1, rfl⟩ : ∃ m1, m = m1 + 1 := ⟨m - 1, by omega⟩
    obtain ⟨t, z, ss, ht, ht0, hz, hss⟩ := hidx 0 (by simp)
    simp only [Nat.add_zero] at ht hz hss
    have htd : plane_stride.getD pre.length 0 = t := by
      rw [List.getD_eq_getElem?_getD, ← List.get?_eq_getElem?, ht]
      rfl
    have hzd : plane_size.getD pre.length 0 = z := by
      rw [List.getD_eq_getElem?_getD, ← List.get?_eq_getElem?, hz]
      rfl
    have hsd : src_stride.getD pre.length 0 = ss := by
      rw [List.getD_eq_getElem?_getD, ← List.get?_eq_getElem?, hss]
      rfl
    have hsum2 := hsum
    simp only [tight_slots, plane_segments_cons, segments_len_cons, hzd] at hsum2
    have hp2 : nf.planes = pre ++ frame_buffer_zero :: List.replicate m1 frame_buffer_zero := by
      rw [hp, List.replicate_succ]
    have hset := mbuf_raw_video_frame_set_plane_fresh sp data s nf pre _ dst offset z c hp2
      (by omega) hfin hc
    have hc1 : mem_at (store_refcount s dst (wrap_uint (c.refcount + 1))) dst =
        some { c with refcount := wrap_uint (c.refcount + 1) } := by
      rw [mem_at_store_refcount]
      simp [hc]
    have hl : (pre ++ [({ mem := some dst, data := data dst + offset, len := z } :
        frame_buffer)]).length = pre.length + 1 := by simp
    obtain ⟨s1, c1, hrest, hc2⟩ := ih (offset + z)
      (copy_rows (data dst + offset) p.data t ss (z / t) bytes) _
      { nf with
        planes := pre ++ { mem := some dst, data := data dst + offset, len := z } ::
          List.replicate m1 frame_buffer_zero
        info := { nf.info with plane_stride := nf.info.plane_stride.set pre.length t } }
      _ (pre ++ [({ mem := some dst, data := data dst + offset, len := z } :
        frame_buffer)]) m1
      (by simp) (by omega) (by rw [hl]; simp only; omega)
      hfin hc1
      (fun k hk => by
        rw [hl]
        have := hidx (k + 1) (by simpa using hk)
        rw [show pre.length + (k + 1) = pre.length + 1 + k by omega] at this
        exact this)
      (by rw [hl]; omega)
    rw [hl] at hrest
    refine ⟨s1, c1, ?_, hc2⟩
    have hw : wrap_size (offset + z) = offset + z := wrap_size_of_lt (by omega)
    simp only [copy_planes_tight, ht, hz, hss, ht0, if_false, hset, ne_eq, not_true_eq_false,
      hw, hrest]
    simp only [tight_rows, copy_tight, tight_slots, packed_planes, List.length_cons,
      List.append_assoc, List.singleton_append, Nat.add_sub_add_right, tight_strides, htd,
      hzd, hsd]

theorem mbuf_raw_video_frame_copy_tight (env : frame_env) (w : frame_world)
    (frame : mbuf_raw_video_frame) (d : Nat) (dmem : mbuf_mem)
    (hfin : frame.base.finalized = true) (hl0 : 0 ≤ frame.base.rwlock)
    (hl1 : frame.base.rwlock < INT_MAX)
    (hnp : frame.nplanes = wrap_uint frame.info.plane_count)
    (hn4 : frame.nplanes ≤ VDEF_RAW_MAX_PLANE_COUNT)
    (hlen : frame.nplanes ≤ frame.planes.length)
    (hinfo : frame.info.format_valid = true) (hcalc : frame.info.calc_ret = 0)
    (hidx : ∀ k, k < frame.nplanes → ∃ t z ss, frame.info.tight_stride.get? k = some t ∧
      t ≠ 0 ∧ frame.info.plane_size.get? k = some z ∧
      frame.info.plane_stride.get? k = some ss)
    (hcont : frame.info.contiguous_size =
      ((segments_len (plane_segments
        (tight_slots frame.info.plane_size (frame.planes.take frame.nplanes) 0)) : Nat) : Int))
    (hd : mem_at w.mem d = some dmem) (hdata : w.data d ≠ 0)
    (hsum : segments_len (plane_segments
      (tight_slots frame.info.plane_size (frame.planes.take frame.nplanes) 0)) < 2 ^ 63)
    (hsize : segments_len (plane_segments
      (tight_slots frame.info.plane_size (frame.planes.take frame.nplanes) 0)) ≤ dmem.size)
    (hcf : env.calloc_frame = true)
    (hch : ∀ i, i < frame.base.ancillary_data.length → env.calloc_holder i = true)
    (hw : anc_wf w.anc frame.base.ancillary_data) :
    ∃ nf w1,
      mbuf_raw_video_frame_copy env w frame (some d) true = some (0, some nf, w1, frame) ∧
      nf.base.finalized = false ∧ nf.base.refcount = 1 ∧ nf.base.rwlock = RWLOCK_FREE ∧
      nf.info = { frame.info with
        plane_stride :=
          tight_strides frame.info.tight_stride frame.nplanes 0 frame.info.plane_stride } ∧
      nf.nplanes = frame.nplanes ∧
      nf.planes =
        packed_planes (w.data d) d
          (tight_slots frame.info.plane_size (frame.planes.take frame.nplanes) 0) 0 ++
        List.replicate (VDEF_RAW_MAX_PLANE_COUNT - frame.nplanes) frame_buffer_zero ∧
      w1.bytes =
        copy_tight (w.data d)
          (tight_rows frame.info.plane_stride frame.info.tight_stride frame.info.plane_size
            (frame.planes.take frame.nplanes) 0) 0 w.bytes ∧
      w1.data = w.data := by
  obtain ⟨hlock, hunlock⟩ := rdlock_rdunlock_restores env.sp frame.base hl0 hl1
  have hunlock2 := hunlock
  rw [hfin] at hunlock2
  have hsz : mbuf_raw_video_frame_get_packed_size frame true =
      some ((segments_len (plane_segments
        (tight_slots frame.info.plane_size (frame.planes.take frame.nplanes) 0)) : Nat) :
          Int) := by
    simp only [mbuf_raw_video_frame_get_packed_size, mbuf_base_frame_is_finalized, hfin,
      Bool.not_true, Bool.false_eq_true, if_false, hcont]
  have htl : (frame.planes.take frame.nplanes).length = frame.nplanes := by
    rw [List.length_take]
    omega
  have hnew : mbuf_raw_video_frame_new env.calloc_frame (some frame.info) =
      (0, some { base := mbuf_base_frame_init, info := frame.info,
                 planes := List.replicate VDEF_RAW_MAX_PLANE_COUNT frame_buffer_zero,
                 nplanes := frame.nplanes,
                 cbs := { pre_release := false, pre_release_userdata := 0 } }) := by
    simp [mbuf_raw_video_frame_new, hinfo, hcf, hnp]
  obtain ⟨u1, hwalk⟩ := mbuf_raw_video_frame_copier_walk_ok env.calloc_holder w.anc
    frame.base.ancillary_data
    { base := mbuf_base_frame_init, info := frame.info,
      planes := List.replicate VDEF_RAW_MAX_PLANE_COUNT frame_buffer_zero,
      nplanes := frame.nplanes,
      cbs := { pre_release := false, pre_release_userdata := 0 } } rfl hw hch
  have hfields := mbuf_raw_video_frame_copier_fields _ _ _ _ hwalk
  obtain ⟨n1, h1, nf1⟩ := u1
  simp only at hfields
  obtain ⟨hi, hnn, hna, hcbs, hmeta, hfinal, hrw, hrc⟩ := hfields
  obtain ⟨s1, c1, hcopy, _⟩ := copy_planes_tight_packed env.sp w.data d
    frame.info.plane_stride frame.info.tight_stride frame.info.plane_size
    (frame.planes.take frame.nplanes) 0 w.bytes w.mem nf1 dmem [] VDEF_RAW_MAX_PLANE_COUNT
    (by rw [hna]; rfl) (by rw [htl]; exact hn4)
    (by rw [htl, hnn]; simp) hfinal hd
    (fun k hk => by
      rw [htl] at hk
      simpa using hidx k hk)
    (by simp only [List.length_nil]; omega)
  simp only [List.length_nil, List.nil_append, htl, hi] at hcopy
  have hsf := mbuf_base_frame_set_metadata_fields env.vmeta w.vmeta_log nf1.base
    frame.base.meta
  have hnlt : ¬ dmem.size <
      ((segments_len (plane_segments
        (tight_slots frame.info.plane_size (frame.planes.take frame.nplanes) 0)) : Nat) :
          Int).toNat := by
    rw [Int.toNat_ofNat]
    omega
  have hnneg : ¬ (((segments_len (plane_segments
      (tight_slots frame.info.plane_size (frame.planes.take frame.nplanes) 0)) : Nat) :
        Int) < 0) := by omega
  refine ⟨{ nf1 with
            base := (mbuf_base_frame_set_metadata env.vmeta w.vmeta_log nf1.base
              frame.base.meta).2.2
            planes := packed_planes (w.data d) d
                (tight_slots frame.info.plane_size (frame.planes.take frame.nplanes) 0) 0 ++
              List.replicate (VDEF_RAW_MAX_PLANE_COUNT - frame.nplanes) frame_buffer_zero
            info := { frame.info with
              plane_stride :=
                tight_strides frame.info.tight_stride frame.nplanes 0
                  frame.info.plane_stride } },
    { w with
      anc := h1
      bytes :=
        copy_tight (w.data d)
          (tight_rows frame.info.plane_stride frame.info.tight_stride frame.info.plane_size
            (frame.planes.take frame.nplanes) 0) 0 w.bytes
      mem := s1
      vmeta_log := (mbuf_base_frame_set_metadata env.vmeta w.vmeta_log nf1.base
        frame.base.meta).2.1 }, ?_, ?_⟩
  · simp only [mbuf_raw_video_frame_copy, hd, hdata, if_false, mbuf_base_frame_is_finalized,
      hfin, Bool.not_true, Bool.false_eq_true, hsz, hnneg, hlock, ne_eq, not_true_eq_false,
      hnlt, hnew, mbuf_raw_video_frame_copy_fill, mbuf_raw_video_frame_foreach_ancillary_data,
      mbuf_base_frame_foreach_ancillary_data, hwalk, Nat.not_lt.2 hlen, gt_iff_lt,
      hcalc, hcopy, mbuf_raw_video_frame_copy_planes_done,
      mbuf_raw_video_frame_copy_out, hunlock, hunlock2]
  · refine ⟨?_, ?_, ?_, rfl, hnn, rfl, rfl, rfl⟩
    · exact hsf.1.trans (hfinal.trans rfl)
    · exact hsf.2.2.trans (hrc.trans rfl)
    · exact hsf.2.1.trans (hrw.trans rfl)

theorem tight_slots_get (zs : List Nat) (l : List frame_buffer) :
    ∀ (i k : Nat) (p : frame_buffer), l.get? k = some p →
      (tight_slots zs l i).get? k = some { p with len := zs.getD (i + k) 0 } := by
  induction l with
  | nil =>
    intro i k p h
    simp at h
  | cons q rest ih =>
    intro i k p h
    cases k with
    | zero =>
      simp only [List.get?_cons_zero, Option.some.injEq] at h
      subst h
      rfl
    | succ k =>
      simp only [List.get?_cons_succ] at h
      simp only [tight_slots, List.get?_cons_succ, ih (i + 1) k p h]
      rw [show i + 1 + k = i + (k + 1) by omega]

theorem tight_slots_length (zs : List Nat) (l : List frame_buffer) :
    ∀ i, (tight_slots zs l i).length = l.length := by
  induction l with
  | nil => intro _; rfl
  | cons q rest ih =>
    intro i
    simp only [tight_slots, List.length_cons, ih]

theorem tight_slots_take (zs : List Nat) (l : List frame_buffer) :
    ∀ i k, (tight_slots zs l i).take k = tight_slots zs (l.take k) i := by
  induction l with
  | nil =>
    intro i k
    simp [tight_slots]
  | cons q rest ih =>
    intro i k
    cases k with
    | zero => rfl
    | succ k => simp only [tight_slots, List.take_succ_cons, ih]

theorem tight_slots_sum (zs : List Nat) (l : List frame_buffer) :
    ∀ i, i + l.length ≤ zs.length →
      segments_len (plane_segments (tight_slots zs l i)) =
        ((zs.drop i).take l.length).sum := by
  induction l with
  | nil =>
    intro i _
    simp [tight_slots, plane_segments, segments_len]
  | cons q rest ih =>
    intro i hi
    simp only [List.length_cons] at hi
    have hlt : i < zs.length := by omega
    have hd : zs.drop i = zs.getD i 0 :: zs.drop (i + 1) := by
      rw [List.drop_eq_getElem_cons hlt, List.getD_eq_getElem _ _ hlt]
    simp only [tight_slots, plane_segments_cons, segments_len_cons, List.length_cons]
    rw [ih (i + 1) (by omega), hd, List.take_succ_cons, List.sum_cons]

theorem tight_rows_get (ss ts zs : List Nat) (l : List frame_buffer) :
    ∀ (i k : Nat) (p : frame_buffer), l.get? k = some p →
      (tight_rows ss ts zs l i).get? k =
        some (p.data, ss.getD (i + k) 0, ts.getD (i + k) 0, zs.getD (i + k) 0) := by
  induction l with
  | nil =>
    intro i k p h
    simp at h
  | cons q rest ih =>
    intro i k p h
    cases k with
    | zero =>
      simp only [List.get?_cons_zero, Option.some.injEq] at h
      subst h
      rfl
    | succ k =>
      simp only [List.get?_cons_succ] at h
      simp only [tight_rows, List.get?_cons_succ, ih (i + 1) k p h]
      rw [show i + 1 + k = i + (k + 1) by omega]

theorem tight_rows_take (ss ts zs : List Nat) (l : List frame_buffer) :
    ∀ i k, (tight_rows ss ts zs l i).take k = tight_rows ss ts zs (l.take k) i := by
  induction l with
  | nil =>
    intro i k
    simp [tight_rows]
  | cons q rest ih =>
    intro i k
    cases k with
    | zero => rfl
    | succ k => simp only [tight_rows, List.take_succ_cons, ih]

theorem tight_rows_sum (ss ts zs : List Nat) (l : List frame_buffer) (i : Nat) :
    ((tight_rows ss ts zs l i).map (fun x => x.2.2.2)).sum =
      segments_len (plane_segments (tight_slots zs l i)) := by
  rw [tight_rows_len]
  simp only [segments_len, plane_segments, List.map_map]
  rfl

theorem tight_strides_length (ts : List Nat) (n : Nat) :
    ∀ (i : Nat) (strides : List Nat),
      (tight_strides ts n i strides).length = strides.length := by
  induction n with
  | zero => intro _ _; rfl
  | succ n ih =>
    intro i strides
    simp only [tight_strides, ih, List.length_set]

theorem tight_strides_below (ts : List Nat) (n : Nat) :
    ∀ (i : Nat) (strides : List Nat) (k : Nat), k < i →
      (tight_strides ts n i strides).get? k = strides.get? k := by
  induction n with
  | zero => intro _ _ _ _; rfl
  | succ n ih =>
    intro i strides k hk
    simp only [tight_strides]
    rw [ih (i + 1) _ k (by omega), List.get?_eq_getElem?, List.get?_eq_getElem?,
      List.getElem?_set_ne (by omega)]

theorem tight_strides_get (ts : List Nat) (n : Nat) :
    ∀ (i : Nat) (strides : List Nat) (k : Nat), i ≤ k → k < i + n → k < strides.length →
      (tight_strides ts n i strides).get? k = some (ts.getD k 0) := by
  induction n with
  | zero =>
    intro i strides k h1 h2 _
    omega
  | succ n ih =>
    intro i strides k h1 h2 h3
    simp only [tight_strides]
    by_cases hk : k = i
    · subst hk
      rw [tight_strides_below ts n (k + 1) _ k (by omega), List.get?_eq_getElem?,
        List.getElem?_set_self h3]
    · exact ih (i + 1) _ k (by omega) (by omega) (by rw [List.length_set]; exact h3)

theorem getD_of_get {zs : List Nat} {k z : Nat} (h : zs.get? k = some z) : zs.getD k 0 = z := by
  rw [List.getD_eq_getElem?_getD, ← List.get?_eq_getElem?, h]
  rfl

theorem length_of_all_get (zs : List Nat) (n : Nat) (h : ∀ k, k < n → ∃ z, zs.get? k = some z) :
    n ≤ zs.length := by
  by_contra hc
  obtain ⟨z, hz⟩ := h zs.length (by omega)
  rw [List.get?_eq_none.2 (le_refl _)] at hz
  exact absurd hz (by simp)

theorem tight_slots_take_sum (zs : List Nat) (planes : List frame_buffer) (k : Nat)
    (hk : k ≤ planes.length) (hz : k ≤ zs.length) :
    segments_len (plane_segments (tight_slots zs (planes.take k) 0)) = (zs.take k).sum := by
  have hl : (planes.take k).length = k := by
    rw [List.length_take]
    omega
  rw [tight_slots_sum zs (planes.take k) 0 (by omega), hl, List.drop_zero]

/-- C26.  `mbuf_raw_video_frame_copy` with `remove_stride = true`, on a
finalized raw video frame with between 0 and `INT_MAX - 1` readers, a valid
format and its planes in the array, into a live chunk `d` with a non-NULL data
pointer.  `vdef_calc_raw_frame_size` returns 0 and gives for every plane `i` a
tight stride `t` different from 0 and a plane size `z`;
`vdef_calc_raw_contiguous_frame_size` gives the sum of the plane sizes, which
is below `2 ^ 63` and at most the size of the chunk; no row of the source that
is copied overlaps the bytes of the chunk that are filled; the allocations of
the copy succeed.  Then the copy returns 0 with a new frame that is not
finalized and has as many planes as the source.  For every plane `i`, with
`ss` the `plane_stride[i]` of the source: plane `i` of the copy is in the chunk
`d`, starts at the offset that is the sum of the sizes of the planes before it
and has length `z`; `plane_stride[i]` of the copy is `t`; for every row
`j < z / t`, the `t` bytes of the copy at offset `j * t` of its plane `i` are
the `t` bytes the source had at offset `j * ss` of its plane `i`, and those
bytes of the source are unchanged.  Finalizing the copy returns 0, and the
packed size of the finalized copy is the packed size of the source with
`remove_stride`, the sum of the plane sizes. -/
theorem mbuf_raw_video_frame_copy_remove_stride (env : frame_env) (w : frame_world)
    (frame : mbuf_raw_video_frame) (d : Nat) (dmem : mbuf_mem)
    (hfin : frame.base.finalized = true) (hl0 : 0 ≤ frame.base.rwlock)
    (hl1 : frame.base.rwlock < INT_MAX)
    (hnp : frame.nplanes = wrap_uint frame.info.plane_count)
    (hn4 : frame.nplanes ≤ VDEF_RAW_MAX_PLANE_COUNT)
    (hlen : frame.nplanes ≤ frame.planes.length)
    (hinfo : frame.info.format_valid = true) (hcalc : frame.info.calc_ret = 0)
    (hidx : ∀ k, k < frame.nplanes → ∃ t z ss, frame.info.tight_stride.get? k = some t ∧
      t ≠ 0 ∧ frame.info.plane_size.get? k = some z ∧
      frame.info.plane_stride.get? k = some ss)
    (hcont : frame.info.contiguous_size =
      (((frame.info.plane_size.take frame.nplanes).sum : Nat) : Int))
    (hd : mem_at w.mem d = some dmem) (hdata : w.data d ≠ 0)
    (hsum : (frame.info.plane_size.take frame.nplanes).sum < 2 ^ 63)
    (hsize : (frame.info.plane_size.take frame.nplanes).sum ≤ dmem.size)
    (hout : ∀ (i : Nat) (p : frame_buffer) (t z ss : Nat), i < frame.nplanes →
      frame.planes.get? i = some p → frame.info.tight_stride.get? i = some t →
      frame.info.plane_size.get? i = some z → frame.info.plane_stride.get? i = some ss →
      ∀ j, j < z / t →
        p.data + j * ss + t ≤ w.data d ∨
          w.data d + (frame.info.plane_size.take frame.nplanes).sum ≤ p.data + j * ss)
    (hcf : env.calloc_frame = true)
    (hch : ∀ i, i < frame.base.ancillary_data.length → env.calloc_holder i = true)
    (hw : anc_wf w.anc frame.base.ancillary_data) :
    ∃ nf w1,
      mbuf_raw_video_frame_copy env w frame (some d) true = some (0, some nf, w1, frame) ∧
      nf.base.finalized = false ∧ nf.nplanes = frame.nplanes ∧
      (∀ (i : Nat) (p : frame_buffer) (t z ss : Nat), i < frame.nplanes →
        frame.planes.get? i = some p → frame.info.tight_stride.get? i = some t →
        frame.info.plane_size.get? i = some z → frame.info.plane_stride.get? i = some ss →
        nf.planes.get? i =
          some { mem := some d,
                 data := w.data d + (frame.info.plane_size.take i).sum,
                 len := z } ∧
        nf.info.plane_stride.get? i = some t ∧
        ∀ j, j < z / t → ∀ b, b < t →
          w1.bytes (w.data d + (frame.info.plane_size.take i).sum + j * t + b) =
            w.bytes (p.data + j * ss + b) ∧
          w1.bytes (p.data + j * ss + b) = w.bytes (p.data + j * ss + b)) ∧
      (mbuf_raw_video_frame_finalize nf).map (fun r => r.1) = some 0 ∧
      (mbuf_raw_video_frame_finalize nf).bind (fun r =>
          mbuf_raw_video_frame_get_packed_size r.2 false) =
        mbuf_raw_video_frame_get_packed_size frame true ∧
      mbuf_raw_video_frame_get_packed_size frame true =
        some (((frame.info.plane_size.take frame.nplanes).sum : Nat) : Int) := by
  have hzl : frame.nplanes ≤ frame.info.plane_size.length :=
    length_of_all_get _ _ (fun k hk => by
      obtain ⟨_, z, _, _, _, hz, _⟩ := hidx k hk
      exact ⟨z, hz⟩)
  have hS := tight_slots_take_sum frame.info.plane_size frame.planes frame.nplanes hlen hzl
  have htl : (frame.planes.take frame.nplanes).length = frame.nplanes := by
    rw [List.length_take]
    omega
  obtain ⟨nf, w1, hcopy, hnfin, hrc, hrw, hinf, hnn, hpl, hbytes, _⟩ :=
    mbuf_raw_video_frame_copy_tight env w frame d dmem hfin hl0 hl1 hnp hn4 hlen hinfo hcalc
      hidx (by rw [hS]; exact hcont) hd hdata (by rw [hS]; exact hsum)
      (by rw [hS]; exact hsize) hcf hch hw
  have hpkl : (packed_planes (w.data d) d
      (tight_slots frame.info.plane_size (frame.planes.take frame.nplanes) 0) 0).length =
      frame.nplanes := by
    rw [packed_planes_length, tight_slots_length, htl]
  have hall : planes_all_set nf.planes nf.nplanes = some true := by
    rw [hpl, hnn]
    have := planes_all_set_packed (w.data d) d
      (tight_slots frame.info.plane_size (frame.planes.take frame.nplanes) 0) 0
      (List.replicate (VDEF_RAW_MAX_PLANE_COUNT - frame.nplanes) frame_buffer_zero)
    rw [tight_slots_length, htl] at this
    exact this
  have hfz : mbuf_raw_video_frame_finalize nf =
      some (0, { nf with base := mbuf_base_frame_finalize nf.base }) := by
    simp only [mbuf_raw_video_frame_finalize, hall]
  have hsrc : mbuf_raw_video_frame_get_packed_size frame true =
      some (((frame.info.plane_size.take frame.nplanes).sum : Nat) : Int) := by
    simp only [mbuf_raw_video_frame_get_packed_size, mbuf_base_frame_is_finalized, hfin,
      Bool.not_true, Bool.false_eq_true, if_false, hcont]
  have hrows : ∀ x ∈ tight_rows frame.info.plane_stride frame.info.tight_stride
      frame.info.plane_size (frame.planes.take frame.nplanes) 0,
      ∀ j, j < x.2.2.2 / x.2.2.1 →
        x.1 + j * x.2.1 + x.2.2.1 ≤ w.data d + 0 ∨
          w.data d + 0 + ((tight_rows frame.info.plane_stride frame.info.tight_stride
            frame.info.plane_size (frame.planes.take frame.nplanes) 0).map
              (fun x => x.2.2.2)).sum ≤ x.1 + j * x.2.1 := by
    intro x hx j hj
    obtain ⟨k, hk⟩ := List.get?_of_mem hx
    have hkn : k < frame.nplanes := by
      have h1 := (List.get?_eq_some.1 hk).1
      have h2 : (tight_rows frame.info.plane_stride frame.info.tight_stride
          frame.info.plane_size (frame.planes.take frame.nplanes) 0).length =
          frame.nplanes := by
        have := congrArg List.length (tight_rows_len frame.info.plane_stride
          frame.info.tight_stride frame.info.plane_size (frame.planes.take frame.nplanes) 0)
        rw [List.length_map, List.length_map, tight_slots_length, htl] at this
        exact this
      omega
    obtain ⟨p, hp⟩ : ∃ p, (frame.planes.take frame.nplanes).get? k = some p := by
      have hlt : k < (frame.planes.take frame.nplanes).length := by omega
      exact ⟨_, List.get?_eq_get hlt⟩
    have hp2 : frame.planes.get? k = some p := by
      rw [List.get?_eq_getElem?, List.getElem?_take_of_lt hkn, ← List.get?_eq_getElem?] at hp
      exact hp
    obtain ⟨t, z, ss, ht, _, hz, hss⟩ := hidx k hkn
    have e := tight_rows_get frame.info.plane_stride frame.info.tight_stride
      frame.info.plane_size (frame.planes.take frame.nplanes) 0 k p hp
    rw [Nat.zero_add, getD_of_get ht, getD_of_get hz, getD_of_get hss, hk] at e
    have ex := Option.some.inj e
    subst ex
    rw [tight_rows_sum, hS, Nat.add_zero]
    exact hout k p t z ss hkn hp2 ht hz hss j hj
  refine ⟨nf, w1, hcopy, hnfin, hnn, ?_, ?_, ?_, hsrc⟩
  · intro i p t z ss hi hp ht hz hss
    have hp2 : (frame.planes.take frame.nplanes).get? i = some p := by
      rw [List.get?_eq_getElem?, List.getElem?_take_of_lt hi, ← List.get?_eq_getElem?]
      exact hp
    have htt : (frame.planes.take frame.nplanes).take i = frame.planes.take i := by
      rw [List.take_take, Nat.min_eq_left (by omega)]
    have hSi : segments_len (plane_segments (tight_slots frame.info.plane_size
        (frame.planes.take i) 0)) = (frame.info.plane_size.take i).sum :=
      tight_slots_take_sum frame.info.plane_size frame.planes i (by omega) (by omega)
    have hrow := tight_rows_get frame.info.plane_stride frame.info.tight_stride
      frame.info.plane_size (frame.planes.take frame.nplanes) 0 i p hp2
    rw [Nat.zero_add, getD_of_get ht, getD_of_get hz, getD_of_get hss] at hrow
    refine ⟨?_, ?_, ?_⟩
    · have hs := tight_slots_get frame.info.plane_size (frame.planes.take frame.nplanes) 0 i p
        hp2
      rw [Nat.zero_add, getD_of_get hz] at hs
      rw [hpl, List.get?_eq_getElem?, List.getElem?_append_left (by rw [hpkl]; exact hi),
        ← List.get?_eq_getElem?, packed_planes_get _ _ _ 0 i _ hs, Nat.add_zero,
        tight_slots_take, htt, hSi]
    · rw [hinf]
      have hlt : i < frame.info.plane_stride.length := (List.get?_eq_some.1 hss).1
      have e := tight_strides_get frame.info.tight_stride frame.nplanes 0
        frame.info.plane_stride i (Nat.zero_le _) (by omega) hlt
      rw [getD_of_get ht] at e
      exact e
    · intro j hj b hb
      refine ⟨?_, ?_⟩
      · have e := copy_tight_get (w.data d) _ 0 w.bytes hrows i _ hrow j hj b hb
        rw [tight_rows_take, htt, tight_rows_sum, hSi, Nat.add_zero] at e
        rw [hbytes]
        exact e
      · rw [hbytes]
        apply copy_tight_outside
        rw [tight_rows_sum, hS, Nat.add_zero]
        rcases hout i p t z ss hi hp ht hz hss j hj with h | h
        · left
          omega
        · right
          omega
  · rw [hfz]
    rfl
  · have htake : nf.planes.take nf.nplanes =
        packed_planes (w.data d) d
          (tight_slots frame.info.plane_size (frame.planes.take frame.nplanes) 0) 0 := by
      rw [hpl, hnn]
      exact List.take_left' hpkl
    have hlen2 : nf.nplanes ≤ nf.planes.length := by
      rw [hpl, hnn, List.length_append, hpkl]
      omega
    have e := mbuf_raw_video_frame_get_packed_size_eq
      { nf with base := mbuf_base_frame_finalize nf.base } rfl hlen2
    simp only [htake, plane_segments_packed_planes, hS] at e
    rw [hfz, Option.some_bind, e, hsrc, ssize_of_small hsum]

/-- C26 at a concrete input: the raw video frame `strided_frame`, one plane of
four rows of 8 bytes with a stride of 16, is copied without stride into the
chunk at address 2. -/
theorem mbuf_raw_video_frame_copy_remove_stride_witness :
    ∃ nf w1,
      mbuf_raw_video_frame_copy frame_env_ok stride_world strided_frame (some 2) true =
        some (0, some nf, w1, strided_frame) ∧
      nf.planes.get? 0 = some { mem := some 2, data := 12288, len := 32 } ∧
      nf.info.plane_stride.get? 0 = some 8 ∧
      w1.bytes (12288 + 3 * 8 + 7) = 8192 + 3 * 16 + 7 ∧
      (mbuf_raw_video_frame_finalize nf).bind (fun r =>
          mbuf_raw_video_frame_get_packed_size r.2 false) = some 32 :=
  match mbuf_raw_video_frame_copy_remove_stride frame_env_ok stride_world strided_frame 2
      { addr := 2, size := 1024, implem := none, refcount := 1, pool := true }
      rfl (by decide) (by decide) rfl (by decide) (by decide) rfl rfl
      (fun k hk => by
        have e : k = 0 := by
          have : strided_frame.nplanes = 1 := rfl
          omega
        subst e
        exact ⟨8, 32, 16, rfl, by decide, rfl, rfl⟩)
      rfl rfl (by decide) (by decide) (by decide)
      (fun i p t z ss hi hp ht hz hss j hj => by
        have e : i = 0 := by
          have : strided_frame.nplanes = 1 := rfl
          omega
        subst e
        have e1 := Option.some.inj hp
        have e2 := Option.some.inj ht
        have e3 := Option.some.inj hz
        have e4 := Option.some.inj hss
        subst e1 e2 e3 e4
        left
        have h4 : j < 4 := hj
        show 8192 + j * 16 + 8 ≤ 12288
        omega)
      rfl (fun _ _ => rfl)
      (show anc_wf anc_empty mbuf_base_frame_init.ancillary_data from
        anc_reach_wf (anc_reach.init anc_empty ⟨by decide, by decide⟩)) with
  | ⟨nf, w1, h⟩ =>
    have hp := h.2.2.2.1 0 { mem := some 1, data := demo_data 1, len := 64 } 8 32 16
      (by decide) rfl rfl rfl rfl
    ⟨nf, w1, h.1, hp.1, hp.2.1, (hp.2.2 3 (by decide) 7 (by decide)).1,
      h.2.2.2.2.2.1.trans h.2.2.2.2.2.2⟩

/-! ### The limit of a queue -/

theorem mbuf_coded_video_frame_queue_push_first (h0 : frame_heap)
    (filter : Option (Nat → Bool)) (m a : Nat) (f : mbuf_base_frame)
    (hf : h0.frame a = some f) (hfin : f.finalized = true) (h1 : 1 ≤ f.refcount)
    (h2 : f.refcount < UINT_MAX) (hflt : ∀ p, filter = some p → p a = true) :
    mbuf_coded_video_frame_queue_push queue_env_ok h0
        (some (queue_holding filter (m : Int) [] false)) (some a) =
      some (0, queued_heap h0 [a], some (queue_holding filter (m : Int) [a] true)) := by
  have hpf : pushed_frames (m : Int) [] a = [a] := by
    unfold pushed_frames
    rw [if_neg (by simp)]
    rfl
  have e := mbuf_coded_video_frame_queue_push_queued h0
    (queue_holding filter (m : Int) [] false) a f hf hfin h1
    (by
      simp only [queue_holding, hpf, List.count_singleton_self]
      omega)
    rfl
    (fun _ b hb => by simp [queue_holding] at hb)
    (by simp [queue_holding])
    hflt
  have hw1 : wrap_int ((0 : Int) + 1) = 1 := by decide
  simp only [queue_holding, queued_heap_nil, hpf] at e
  rw [if_neg (by simp)] at e
  simp only [List.length_nil, Nat.cast_zero, hw1, Option.map_some'] at e
  simp only [queue_holding, List.length_singleton, Nat.cast_one]
  exact e

theorem mbuf_coded_video_frame_queue_push_high_limit (env : queue_env) (h : frame_heap)
    (filter : Option (Nat → Bool)) (N a : Nat) (f : mbuf_base_frame)
    (h1 : 2 ^ 31 ≤ N) (h2 : N < 2 ^ 32) (hcal : env.calloc_holder = true)
    (hf : h.frame a = some f) (hfin : f.finalized = true)
    (hflt : ∀ p, filter = some p → p a = true) :
    mbuf_coded_video_frame_queue_push env h
        (some (queue_holding filter ((N : Int) - 2 ^ 32) [] false)) (some a) =
      some (-EPROTO, h, some (queue_holding filter ((N : Int) - 2 ^ 32) [] false)) := by
  have hm : ¬ ((N : Int) - 4294967296 = 0) := by omega
  have hle : N ≤ 4294967296 := by omega
  cases filter with
  | none =>
    simp [mbuf_coded_video_frame_queue_push, queue_holding, hf,
      mbuf_base_frame_is_finalized, hfin, mbuf_base_frame_queue_push, hcal, hm, hle]
  | some p =>
    have hp := hflt p rfl
    simp [mbuf_coded_video_frame_queue_push, queue_holding, hf,
      mbuf_base_frame_is_finalized, hfin, mbuf_base_frame_queue_push, hcal, hm, hle, hp]

/-- C37, what the code does.  The limit `max_frames` of
`struct mbuf_coded_video_frame_queue_args` is a `uint32_t`, read into an `int`
by `mbuf_coded_video_frame_queue_new_with_args`.  For a limit `m` from 1 to
`INT_MAX` (holders allocated, `pomp_evt_signal` returning 0, frames live and
finalized with a reference count from 1 that leaves room for `m` more, and
accepted by the filter): the first push on the new queue returns 0 and
`get_count` is 1, and the pushes of a list of at most `m` frames all return 0
and leave every frame pushed in the queue, in the order of the pushes, no
frame having been released.  For a limit `m` from `2 ^ 31` to `2 ^ 32 - 1` the
limit stored is `m - 2 ^ 32`, below 0, and the first push of a finalized frame
returns `-EPROTO` and leaves the queue empty, `get_count` being 0: so it is for
the limit `2 ^ 31` and the frame at address 1 of `demo_heap`. -/
theorem mbuf_frame_queue_limit_width :
    (∀ (h0 : frame_heap) (filter : Option (Nat → Bool)) (m : Nat) (fs : List Nat),
      0 < m → (m : Int) ≤ INT_MAX → fs.length ≤ m →
      (∀ a ∈ fs, ∃ f, h0.frame a = some f ∧ f.finalized = true ∧ 1 ≤ f.refcount ∧
        f.refcount + m ≤ UINT_MAX) →
      (∀ p, filter = some p → ∀ a ∈ fs, p a = true) →
      mbuf_coded_video_frame_queue_new_with_args true 0 true
          (some { filter := filter, max_frames := m }) true =
        (0, some (queue_holding filter (m : Int) [] false)) ∧
      (∀ a ∈ fs,
        mbuf_coded_video_frame_queue_push queue_env_ok h0
            (some (queue_holding filter (m : Int) [] false)) (some a) =
          some (0, queued_heap h0 [a], some (queue_holding filter (m : Int) [a] true)) ∧
        mbuf_coded_video_frame_queue_get_count
          (some (queue_holding filter (m : Int) [a] true)) = 1) ∧
      queue_pushes queue_env_ok fs h0 (queue_holding filter (m : Int) [] false) =
        some (List.replicate fs.length 0, queued_heap h0 fs,
          queue_holding filter (m : Int) fs (!fs.isEmpty)) ∧
      (queued_heap h0 fs).cleaned = h0.cleaned) ∧
    (∀ (env : queue_env) (h : frame_heap) (filter : Option (Nat → Bool)) (m a : Nat)
        (f : mbuf_base_frame),
      2 ^ 31 ≤ m → m < 2 ^ 32 → env.calloc_holder = true →
      h.frame a = some f → f.finalized = true → (∀ p, filter = some p → p a = true) →
      mbuf_coded_video_frame_queue_new_with_args true 0 true
          (some { filter := filter, max_frames := m }) true =
        (0, some (queue_holding filter ((m : Int) - 2 ^ 32) [] false)) ∧
      mbuf_coded_video_frame_queue_push env h
          (some (queue_holding filter ((m : Int) - 2 ^ 32) [] false)) (some a) =
        some (-EPROTO, h, some (queue_holding filter ((m : Int) - 2 ^ 32) [] false)) ∧
      mbuf_coded_video_frame_queue_get_count
        (some (queue_holding filter ((m : Int) - 2 ^ 32) [] false)) = 0) ∧
    ((mbuf_coded_video_frame_queue_push queue_env_ok demo_heap
        (mbuf_coded_video_frame_queue_new_with_args true 0 true
          (some { filter := none, max_frames := 2 ^ 31 }) true).2 (some 1)).map
          (fun r => (r.1, mbuf_coded_video_frame_queue_get_count r.2.2)) =
      some (-EPROTO, 0)) := by
  refine ⟨?_, ?_, ?_⟩
  · intro h0 filter m fs hm hm2 hlen hfs hflt
    have hw : wrap_int (m : Int) = (m : Int) := by
      simp only [INT_MAX] at hm2
      exact wrap_int_of_range _ (by omega) (by omega)
    refine ⟨?_, ?_, ?_, rfl⟩
    · rw [mbuf_coded_video_frame_queue_new_with_args_ok, hw]
    · intro a ha
      obtain ⟨f, hf, hfin, h1, h2⟩ := hfs a ha
      refine ⟨?_, rfl⟩
      exact mbuf_coded_video_frame_queue_push_first h0 filter m a f hf hfin h1
        (by omega) (fun p hp => hflt p hp a ha)
    · have e := queue_pushes_bounded h0 filter m hm hm2 fs [] false (Nat.zero_le _)
        (by simpa using hfs) hflt
      have hd : fs.length - m = 0 := by omega
      simp only [queued_heap_nil, List.nil_append, List.length_nil, Bool.false_or,
        Nat.zero_add, hd, List.drop_zero, Nat.min_eq_left hlen] at e
      exact e
  · intro env h filter m a f h1 h2 hcal hf hfin hflt
    have hw := wrap_int_of_uint_high m h1 h2
    refine ⟨?_, ?_, rfl⟩
    · rw [mbuf_coded_video_frame_queue_new_with_args_ok, hw]
    · exact mbuf_coded_video_frame_queue_push_high_limit env h filter m a f h1 h2 hcal hf
        hfin hflt
  · rfl

/-! ### Failures of `mbuf_pool_get` -/

/-- C36, what the code does.  In a state where the counters of the pool agree
with its list of chunks, a call of `mbuf_pool_get` that returns an error
leaves the pool (counters and list of chunks, with their reference counts) and
the chunks outside of it as they were, except when the error comes from the
`pool_get` hook on a chunk the call has just allocated: the pool has no free
chunk and may grow, `calloc` and the `alloc` hook succeed, and the `pool_get`
hook returns an error.  In that case the call returns the error of the hook
and stores no chunk, after `list_add_before` and `pool->mem_count++`: the
chunk has been handed to the `free` hook and freed, but it is still linked in
the list with reference count 1 and `mem_count` is one more than before.  So
it is for a growing pool of one chunk, taken, whose `pool_get` hook returns
`-EINVAL`: the counters were `(1, 0)` and are `(2, 0)`, with two chunks
linked. -/
theorem mbuf_pool_get_failure_spec :
    (∀ (env : alloc_env) (s : mbuf_state), pool_wf s → (mbuf_pool_get env s).1 ≠ 0 →
      ¬ (s.pool.mem_free = 0 ∧ s.pool.policy ≠ MBUF_POOL_NO_GROW ∧
          (s.pool.max_mem_count = 0 ∨ s.pool.mem_count < s.pool.max_mem_count) ∧
          env.calloc_ok = true ∧ (s.pool.implem.alloc = false ∨ env.alloc_ret = 0) ∧
          s.pool.implem.pool_get = true ∧ env.pool_get_ret ≠ 0) →
      (mbuf_pool_get env s).2.2.pool = s.pool ∧ (mbuf_pool_get env s).2.2.loose = s.loose) ∧
    (∀ (env : alloc_env) (s : mbuf_state), pool_wf s →
      s.pool.mem_free = 0 → s.pool.policy ≠ MBUF_POOL_NO_GROW →
      (s.pool.max_mem_count = 0 ∨ s.pool.mem_count < s.pool.max_mem_count) →
      env.calloc_ok = true → (s.pool.implem.alloc = false ∨ env.alloc_ret = 0) →
      s.pool.implem.pool_get = true → env.pool_get_ret ≠ 0 →
      (mbuf_pool_get env s).1 = env.pool_get_ret ∧ (mbuf_pool_get env s).2.1 = none ∧
      (mbuf_pool_get env s).2.2.pool.mem_count = s.pool.mem_count + 1 ∧
      (mbuf_pool_get env s).2.2.pool.mem_free = s.pool.mem_free ∧
      (mbuf_pool_get env s).2.2.pool.memories =
        s.pool.memories ++
          [{ addr := s.next_addr, size := s.pool.mem_size, implem := none, refcount := 1,
             pool := true }] ∧
      (s.pool.implem.free = true →
        (mbuf_pool_get env s).2.2.hook_log.head? = some (mem_hook.free, s.next_addr))) ∧
    (pool_wf hooked_pool_taken ∧
      mbuf_pool_get_count hooked_pool_taken = (0, 1, 0) ∧
      hooked_pool_taken.pool.memories.map (fun m => (m.addr, m.refcount)) = [(1, 1)] ∧
      (mbuf_pool_get env_hook_fails hooked_pool_taken).1 = -EINVAL ∧
      (mbuf_pool_get env_hook_fails hooked_pool_taken).2.1 = none ∧
      mbuf_pool_get_count (mbuf_pool_get env_hook_fails hooked_pool_taken).2.2 = (0, 2, 0) ∧
      (mbuf_pool_get env_hook_fails hooked_pool_taken).2.2.pool.memories.map
        (fun m => (m.addr, m.refcount)) = [(1, 1), (2, 1)] ∧
      (mbuf_pool_get env_hook_fails hooked_pool_taken).2.2.hook_log.head? =
        some (mem_hook.free, 2)) := by
  refine ⟨?_, ?_, ?_⟩
  · intro env s hwf hret hnot
    obtain ⟨-, -, hloose, hc⟩ := mbuf_pool_get_cases env hwf
    refine ⟨?_, hloose⟩
    rcases hc with ⟨a, -, -, -, h0, -⟩ | ⟨-, -, -, -, h⟩ | ⟨-, -, h⟩ | ⟨-, -, -, -, -, h⟩ |
      ⟨-, -, -, -, -, -, h0, -⟩ | ⟨h1, h2, h3, h4, h5, h6, h7, -⟩
    · exact absurd h0 hret
    · exact h
    · rw [h]
    · exact h
    · exact absurd h0 hret
    · exact absurd ⟨h1, h2, h3, h4, h5, h6, h7⟩ hnot
  · intro env s hwf hfree hpol hmax hcal halloc hhook hret
    have hw := mbuf_pool_get_of_no_free hwf hfree
    have e := mbuf_pool_get_of_no_free_eq env hw
    have hmax2 : ¬ (s.pool.max_mem_count > 0 ∧ s.pool.mem_count ≥ s.pool.max_mem_count) := by
      omega
    have halloc2 : ¬ (s.pool.implem.alloc = true ∧ env.alloc_ret ≠ 0) := by
      rcases halloc with h | h
      · simp [h]
      · simp [h]
    rw [if_neg hpol, if_neg hmax2, if_neg (by simp [hcal]), if_neg halloc2,
      if_pos ⟨hhook, hret⟩] at e
    rw [e]
    refine ⟨rfl, rfl, rfl, rfl, rfl, ?_⟩
    intro hf
    simp [grown, call_free, hf]
  · refine ⟨?_, by decide, by decide, by decide, by decide, by decide, by decide, by decide⟩
    exact ⟨by decide, by decide, by decide, by decide, by decide⟩

/-! ### Failures of a push -/

theorem mbuf_coded_video_frame_queue_push_base (env : queue_env) (h : frame_heap)
    (q : mbuf_coded_video_frame_queue) (a : Nat) (f : mbuf_base_frame)
    (hf : h.frame a = some f) (hfin : f.finalized = true)
    (hflt : ∀ p, q.filter = some p → p a = true) :
    mbuf_coded_video_frame_queue_push env h (some q) (some a) =
      (mbuf_base_frame_queue_push env h q.base a).map
        (fun r => (r.1, r.2.1, some { q with base := r.2.2 })) := by
  obtain ⟨base, filter⟩ := q
  cases filter with
  | none =>
    simp only [mbuf_coded_video_frame_queue_push, hf, mbuf_base_frame_is_finalized, hfin,
      Bool.not_true, Bool.false_eq_true, if_false]
    cases mbuf_base_frame_queue_push env h base a with
    | none => rfl
    | some r => rfl
  | some p =>
    have hp : p a = true := hflt p rfl
    simp only [mbuf_coded_video_frame_queue_push, hf, mbuf_base_frame_is_finalized, hfin,
      Bool.not_true, Bool.false_eq_true, if_false, hp]
    cases mbuf_base_frame_queue_push env h base a with
    | none => rfl
    | some r => rfl

/-- C35, what the code does.  `mbuf_coded_video_frame_queue_push` (the queues
of audio and raw video frames have the same text) of a live finalized frame
that the filter accepts:
* when `calloc` of the holder fails it returns `-ENOMEM` and changes nothing;
* on a queue that is not at its limit, when `pomp_evt_signal` returns an
  error the call returns that error and leaves the queue as it was, but the
  reference it has taken on the frame is not given back: the count of the
  frame is one more than before;
* on a queue at its limit the oldest frame is unlinked and unref'ed before
  `mbuf_base_frame_ref` and `pomp_evt_signal` are called, and is not put back
  when one of them fails: with a pushed frame whose reference count is 0 the
  call returns `-EINVAL`, and with `pomp_evt_signal` returning an error it
  returns that error, the queue having lost its oldest frame and counting one
  frame less, the count of that frame being one less;
* so it is for a queue limited to one frame that holds the frame at address 1
  when the frame at address 2 is pushed and `pomp_evt_signal` returns
  `-EAGAIN`: the queue is left empty with its event still signalled, the
  frame 1 has lost the reference of the queue and the frame 2 has one more
  reference than before. -/
theorem mbuf_frame_queue_push_failure :
    (∀ (env : queue_env) (h : frame_heap) (q : mbuf_coded_video_frame_queue) (a : Nat)
        (f : mbuf_base_frame),
      h.frame a = some f → f.finalized = true → (∀ p, q.filter = some p → p a = true) →
      env.calloc_holder = false →
      mbuf_coded_video_frame_queue_push env h (some q) (some a) =
        some (-ENOMEM, h, some q)) ∧
    (∀ (env : queue_env) (h : frame_heap) (q : mbuf_coded_video_frame_queue) (a : Nat)
        (f : mbuf_base_frame),
      h.frame a = some f → f.finalized = true → (∀ p, q.filter = some p → p a = true) →
      env.calloc_holder = true →
      ¬ (q.base.maxframes ≠ 0 ∧ q.base.nframes ≥ q.base.maxframes) →
      1 ≤ f.refcount → f.refcount < UINT_MAX → env.signal_ret ≠ 0 →
      mbuf_coded_video_frame_queue_push env h (some q) (some a) =
        some (env.signal_ret,
          { h with
            frame := fun x =>
              if x = a then some { f with refcount := f.refcount + 1 } else h.frame x },
          some q)) ∧
    (∀ (env : queue_env) (h : frame_heap) (q : mbuf_coded_video_frame_queue)
        (a tmp : Nat) (rest : List Nat) (f g : mbuf_base_frame),
      h.frame a = some f → f.finalized = true → (∀ p, q.filter = some p → p a = true) →
      env.calloc_holder = true →
      q.base.maxframes ≠ 0 → q.base.nframes ≥ q.base.maxframes →
      q.base.frames = tmp :: rest → tmp ≠ a → h.frame tmp = some g → 2 ≤ g.refcount →
      (f.refcount = 0 →
        mbuf_coded_video_frame_queue_push env h (some q) (some a) =
          some (-EINVAL,
            { h with
              frame := fun x =>
                if x = a then some { f with refcount := 0 }
                else if x = tmp then some { g with refcount := g.refcount - 1 }
                else h.frame x },
            some { q with
              base := { q.base with
                frames := rest
                nframes := wrap_int (q.base.nframes - 1) } })) ∧
      (1 ≤ f.refcount → f.refcount < UINT_MAX → env.signal_ret ≠ 0 →
        mbuf_coded_video_frame_queue_push env h (some q) (some a) =
          some (env.signal_ret,
            { h with
              frame := fun x =>
                if x = a then some { f with refcount := f.refcount + 1 }
                else if x = tmp then some { g with refcount := g.refcount - 1 }
                else h.frame x },
            some { q with
              base := { q.base with
                frames := rest
                nframes := wrap_int (q.base.nframes - 1) } }))) ∧
    ((queued_heap demo_heap [1]).frame 1 =
        some { mbuf_base_frame_init with finalized := true, refcount := 2 } ∧
      (queued_heap demo_heap [1]).frame 2 =
        some { mbuf_base_frame_init with finalized := true, refcount := 1 } ∧
      (mbuf_coded_video_frame_queue_push { calloc_holder := true, signal_ret := -EAGAIN }
          (queued_heap demo_heap [1]) (some (queue_holding none 1 [1] true)) (some 2)).map
          (fun r => (r.1, r.2.1.frame 1, r.2.1.frame 2, r.2.2.map (fun q1 => q1.base))) =
        some (-EAGAIN,
          some { mbuf_base_frame_init with finalized := true, refcount := 1 },
          some { mbuf_base_frame_init with finalized := true, refcount := 2 },
          some { frames := [], nframes := 0, maxframes := 1, event := some true })) := by
  refine ⟨?_, ?_, ?_, ⟨rfl, rfl, rfl⟩⟩
  · intro env h q a f hf hfin hflt hcal
    rw [mbuf_coded_video_frame_queue_push_base env h q a f hf hfin hflt]
    simp only [mbuf_base_frame_queue_push, hcal, Bool.not_false, if_true, Option.map_some']
  · intro env h q a f hf hfin hflt hcal hnd h1 h2 hsig
    have hne : f.refcount ≠ 0 := by omega
    have hw : wrap_uint (f.refcount + 1) = f.refcount + 1 := by
      simp only [UINT_MAX] at h2
      exact wrap_uint_of_lt (by omega)
    rw [mbuf_coded_video_frame_queue_push_base env h q a f hf hfin hflt]
    simp only [mbuf_base_frame_queue_push, hcal, Bool.not_true, Bool.false_eq_true, if_false,
      if_neg hnd, mbuf_base_frame_queue_push_new, mbuf_base_frame_ref_at, hf,
      mbuf_base_frame_ref, hne, hw, ne_eq, not_true_eq_false, hsig, not_false_eq_true,
      if_true, Option.map_some']
  · intro env h q a tmp rest f g hf hfin hflt hcal hm hn hfr hta hg hg2
    have hat : a ≠ tmp := fun e => hta e.symm
    have hg1 : ¬ (g.refcount = 1) := by omega
    have hd : uint_dec g.refcount = g.refcount - 1 := by
      unfold uint_dec
      rw [if_neg (by omega)]
    have hstart : mbuf_coded_video_frame_queue_push env h (some q) (some a) =
        (mbuf_base_frame_queue_push_new env
          { h with
            frame := fun x =>
              if x = tmp then some { g with refcount := g.refcount - 1 } else h.frame x }
          { q.base with frames := rest, nframes := wrap_int (q.base.nframes - 1) } a).map
          (fun r => (r.1, r.2.1, some { q with base := r.2.2 })) := by
      rw [mbuf_coded_video_frame_queue_push_base env h q a f hf hfin hflt]
      simp only [mbuf_base_frame_queue_push, hcal, Bool.not_true, Bool.false_eq_true,
        if_false, if_pos (And.intro hm hn), hfr, mbuf_base_frame_unref_at, hg,
        mbuf_base_frame_unref, hg1, decide_False, hd]
    refine ⟨?_, ?_⟩
    · intro h0
      rw [hstart]
      simp only [mbuf_base_frame_queue_push_new, mbuf_base_frame_ref_at, if_neg hat, hf,
        mbuf_base_frame_ref, h0, if_true, ne_eq, Option.map_some', Option.some.injEq,
        Prod.mk.injEq, true_and, and_true]
      rw [if_pos (by decide)]
      rfl
    · intro h1 h2 hsig
      have hne : f.refcount ≠ 0 := by omega
      have hw : wrap_uint (f.refcount + 1) = f.refcount + 1 := by
        simp only [UINT_MAX] at h2
        exact wrap_uint_of_lt (by omega)
      rw [hstart]
      simp only [mbuf_base_frame_queue_push_new, mbuf_base_frame_ref_at, if_neg hat, hf,
        mbuf_base_frame_ref, hne, if_false, hw, ne_eq, not_true_eq_false, hsig,
        not_false_eq_true, if_true, Option.map_some', Option.some.injEq,
        Prod.mk.injEq, true_and, and_true]

/-! ### The wake signal of a queue -/

theorem mbuf_base_frame_queue_push_cases {env : queue_env} {h h1 : frame_heap}
    {queue queue1 : mbuf_base_frame_queue} {a : Nat} {ret : Int}
    (hp : mbuf_base_frame_queue_push env h queue a = some (ret, h1, queue1)) :
    (ret ≠ 0 ∧ queue1 = queue) ∨
    (¬ (queue.maxframes ≠ 0 ∧ queue.nframes ≥ queue.maxframes) ∧ ret = 0 ∧
      queue1 = { queue with
        frames := queue.frames ++ [a]
        nframes := wrap_int (queue.nframes + 1)
        event := queue.event.map (fun _ => true) }) ∨
    ((queue.maxframes ≠ 0 ∧ queue.nframes ≥ queue.maxframes) ∧
      ∃ tmp rest, queue.frames = tmp :: rest ∧
        ((ret ≠ 0 ∧
          queue1 = { queue with frames := rest, nframes := wrap_int (queue.nframes - 1) }) ∨
         (ret = 0 ∧
          queue1 = { queue with
            frames := rest ++ [a]
            nframes := wrap_int (wrap_int (queue.nframes - 1) + 1)
            event := queue.event.map (fun _ => true) }))) := by
  have hnew : ∀ (h0 : frame_heap) (q0 : mbuf_base_frame_queue),
      mbuf_base_frame_queue_push_new env h0 q0 a = some (ret, h1, queue1) →
      (ret ≠ 0 ∧ queue1 = q0) ∨
      (ret = 0 ∧ queue1 = { q0 with
        frames := q0.frames ++ [a]
        nframes := wrap_int (q0.nframes + 1)
        event := q0.event.map (fun _ => true) }) := by
    intro h0 q0 hn
    unfold mbuf_base_frame_queue_push_new at hn
    cases hr : mbuf_base_frame_ref_at h0 a with
    | none =>
      rw [hr] at hn
      exact absurd hn (by simp)
    | some r =>
      obtain ⟨ret0, h2⟩ := r
      rw [hr] at hn
      simp only at hn
      by_cases h0r : ret0 ≠ 0
      · rw [if_pos h0r] at hn
        simp only [Option.some.injEq, Prod.mk.injEq] at hn
        left
        exact ⟨hn.1 ▸ h0r, hn.2.2.symm⟩
      · rw [if_neg h0r] at hn
        by_cases hs : env.signal_ret ≠ 0
        · rw [if_pos hs] at hn
          simp only [Option.some.injEq, Prod.mk.injEq] at hn
          left
          exact ⟨hn.1 ▸ hs, hn.2.2.symm⟩
        · rw [if_neg hs] at hn
          simp only [Option.some.injEq, Prod.mk.injEq] at hn
          right
          exact ⟨hn.1.symm, hn.2.2.symm⟩
  unfold mbuf_base_frame_queue_push at hp
  by_cases hcal : env.calloc_holder = true
  · simp only [hcal, Bool.not_true, Bool.false_eq_true, if_false] at hp
    by_cases hd : queue.maxframes ≠ 0 ∧ queue.nframes ≥ queue.maxframes
    · rw [if_pos hd] at hp
      cases hfr : queue.frames with
      | nil =>
        rw [hfr] at hp
        simp only [Option.some.injEq, Prod.mk.injEq] at hp
        left
        exact ⟨hp.1 ▸ (by decide), hp.2.2.symm⟩
      | cons tmp rest =>
        rw [hfr] at hp
        simp only at hp
        cases hu : mbuf_base_frame_unref_at h tmp with
        | none =>
          rw [hu] at hp
          exact absurd hp (by simp)
        | some r =>
          rw [hu] at hp
          simp only at hp
          right
          right
          refine ⟨hd, tmp, rest, rfl, ?_⟩
          rcases hnew _ _ hp with ⟨h1r, h2r⟩ | ⟨h1r, h2r⟩
          · left
            exact ⟨h1r, h2r⟩
          · right
            exact ⟨h1r, h2r⟩
    · rw [if_neg hd] at hp
      rcases hnew _ _ hp with ⟨h1r, h2r⟩ | ⟨h1r, h2r⟩
      · left
        exact ⟨h1r, h2r⟩
      · right
        left
        exact ⟨hd, h1r, h2r⟩
  · have hcal2 : env.calloc_holder = false := by simpa using hcal
    simp only [hcal2, Bool.not_false, if_true, Option.some.injEq, Prod.mk.injEq] at hp
    left
    exact ⟨hp.1 ▸ (by decide), hp.2.2.symm⟩

theorem mbuf_coded_video_frame_queue_push_cases {env : queue_env} {h h1 : frame_heap}
    {q q1 : mbuf_coded_video_frame_queue} {a : Nat} {ret : Int}
    (hp : mbuf_coded_video_frame_queue_push env h (some q) (some a) = some (ret, h1, some q1)) :
    (ret ≠ 0 ∧ q1 = q) ∨
    (q1.filter = q.filter ∧
      ∃ h0, mbuf_base_frame_queue_push env h0 q.base a = some (ret, h1, q1.base)) := by
  unfold mbuf_coded_video_frame_queue_push at hp
  simp only at hp
  cases hf : h.frame a with
  | none =>
    rw [hf] at hp
    exact absurd hp (by simp)
  | some f =>
    rw [hf] at hp
    simp only at hp
    by_cases hfin : (!mbuf_base_frame_is_finalized f) = true
    · rw [if_pos hfin] at hp
      simp only [Option.some.injEq, Prod.mk.injEq] at hp
      left
      exact ⟨hp.1 ▸ (by decide), hp.2.2.symm⟩
    · rw [if_neg hfin] at hp
      split at hp
      · simp only [Option.some.injEq, Prod.mk.injEq] at hp
        left
        exact ⟨hp.1 ▸ (by decide), hp.2.2.symm⟩
      · cases hb : mbuf_base_frame_queue_push env h q.base a with
        | none =>
          rw [hb] at hp
          exact absurd hp (by simp)
        | some r =>
          obtain ⟨ret0, h2, base1⟩ := r
          rw [hb] at hp
          simp only [Option.some.injEq, Prod.mk.injEq] at hp
          right
          obtain ⟨e1, e2, e3⟩ := hp
          subst e1 e2 e3
          exact ⟨rfl, h, hb⟩

theorem mbuf_base_frame_queue_pop_cases {h : frame_heap} {queue queue1 : mbuf_base_frame_queue}
    {ret : Int} {out : Option Nat}
    (hp : mbuf_base_frame_queue_pop h queue = some (ret, queue1, out)) :
    (ret ≠ 0 ∧ queue1 = queue ∧ out = none) ∨
    (ret = 0 ∧ queue.nframes ≠ 0 ∧ ∃ holder rest, queue.frames = holder :: rest ∧
      out = some holder ∧
      queue1 = { queue with
        frames := rest
        nframes := wrap_int (queue.nframes - 1)
        event :=
          if wrap_int (queue.nframes - 1) = 0 then queue.event.map (fun _ => false)
          else queue.event }) := by
  unfold mbuf_base_frame_queue_pop at hp
  by_cases hn : queue.nframes = 0
  · rw [if_pos hn] at hp
    simp only [Option.some.injEq, Prod.mk.injEq] at hp
    left
    exact ⟨hp.1 ▸ (by decide), hp.2.1.symm, hp.2.2.symm⟩
  · rw [if_neg hn] at hp
    cases hfr : queue.frames with
    | nil =>
      rw [hfr] at hp
      simp only [Option.some.injEq, Prod.mk.injEq] at hp
      left
      exact ⟨hp.1 ▸ (by decide), hp.2.1.symm, hp.2.2.symm⟩
    | cons holder rest =>
      rw [hfr] at hp
      simp only at hp
      cases hf : h.frame holder with
      | none =>
        rw [hf] at hp
        exact absurd hp (by simp)
      | some f =>
        rw [hf] at hp
        simp only [Option.some.injEq, Prod.mk.injEq] at hp
        right
        exact ⟨hp.1.symm, hn, holder, rest, rfl, hp.2.2.symm, hp.2.1.symm⟩

theorem mbuf_coded_video_frame_queue_pop_cases {h : frame_heap}
    {q q1 : mbuf_coded_video_frame_queue} {ret : Int} {out : Option Nat}
    (hp : mbuf_coded_video_frame_queue_pop h (some q) true = some (ret, some q1, out)) :
    q1.filter = q.filter ∧
      ∃ out0, mbuf_base_frame_queue_pop h q.base = some (ret, q1.base, out0) ∧
        (ret = 0 → out = out0) := by
  unfold mbuf_coded_video_frame_queue_pop at hp
  simp only [Bool.not_true, Bool.false_eq_true, if_false] at hp
  cases hb : mbuf_base_frame_queue_pop h q.base with
  | none =>
    rw [hb] at hp
    exact absurd hp (by simp)
  | some r =>
    obtain ⟨ret0, base1, tmp⟩ := r
    rw [hb] at hp
    simp only at hp
    by_cases h0 : ret0 = 0
    · rw [if_pos h0] at hp
      simp only [Option.some.injEq, Prod.mk.injEq] at hp
      obtain ⟨e1, e2, e3⟩ := hp
      subst e1 e2 e3
      exact ⟨rfl, tmp, rfl, fun _ => rfl⟩
    · rw [if_neg h0] at hp
      simp only [Option.some.injEq, Prod.mk.injEq] at hp
      obtain ⟨e1, e2, e3⟩ := hp
      subst e1 e2 e3
      exact ⟨rfl, tmp, rfl, fun e => absurd e h0⟩

theorem mbuf_coded_video_frame_queue_flush_cases {h h1 : frame_heap}
    {q q1 : mbuf_coded_video_frame_queue} {ret : Int}
    (hp : mbuf_coded_video_frame_queue_flush h (some q) = some (ret, h1, some q1)) :
    ret = 0 ∧
      q1 = { q with
        base := { q.base with
          frames := []
          nframes := 0
          event := q.base.event.map (fun _ => false) } } := by
  unfold mbuf_coded_video_frame_queue_flush mbuf_base_frame_queue_flush
    mbuf_base_frame_queue_flush_internal at hp
  simp only at hp
  cases hw : mbuf_base_frame_queue_flush_walk q.base.frames h with
  | none =>
    rw [hw] at hp
    exact absurd hp (by simp)
  | some h2 =>
    rw [hw] at hp
    simp only [Option.some.injEq, Prod.mk.injEq] at hp
    exact ⟨hp.1.symm, hp.2.2.symm⟩

theorem queue_inv_init {calloc_ok : Bool} {mutex_ret : Int} {evt_ok : Bool}
    {args : Option mbuf_coded_video_frame_queue_args} {q : mbuf_coded_video_frame_queue}
    (hq : mbuf_coded_video_frame_queue_new_with_args calloc_ok mutex_ret evt_ok args true =
      (0, some q)) : queue_inv q := by
  unfold mbuf_coded_video_frame_queue_new_with_args mbuf_base_frame_queue_init at hq
  simp only [Bool.not_true, Bool.false_eq_true, if_false] at hq
  cases calloc_ok with
  | false => simp at hq
  | true =>
    simp only [Bool.not_true, Bool.false_eq_true, if_false] at hq
    by_cases hm : mutex_ret ≠ 0
    · simp only [if_pos hm, if_true] at hq
      simp at hq
    · cases evt_ok with
      | false =>
        simp only [if_neg hm, Bool.not_false, if_true] at hq
        have := (Prod.mk.inj hq).1
        exact absurd this (by decide)
      | true =>
        simp only [if_neg hm, Bool.not_true, Bool.false_eq_true, if_false, ne_eq,
          not_true_eq_false, Prod.mk.injEq, Option.some.injEq, true_and] at hq
        subst hq
        have hzero : ((([] : List Nat).length : Nat) : Int) ≤ INT_MAX := by decide
        exact ⟨rfl, hzero, rfl⟩

theorem queue_inv_step {h h1 : frame_heap} {q q1 : mbuf_coded_video_frame_queue}
    {op : queue_op} {ret : Int} (hi : queue_inv q)
    (hs : queue_step h q op = some (ret, h1, q1)) (hr : push_in_range q op ret) :
    queue_inv q1 := by
  obtain ⟨hn, hlen, hev⟩ := hi
  have hmax : INT_MAX = 2147483647 := rfl
  cases op with
  | push env a =>
    simp only [queue_step] at hs
    cases hp : mbuf_coded_video_frame_queue_push env h (some q) (some a) with
    | none =>
      rw [hp] at hs
      exact absurd hs (by simp)
    | some r =>
      obtain ⟨ret0, h2, oq⟩ := r
      cases oq with
      | none =>
        rw [hp] at hs
        exact absurd hs (by simp)
      | some q2 =>
        rw [hp] at hs
        simp only [Option.some.injEq, Prod.mk.injEq] at hs
        obtain ⟨e1, e2, e3⟩ := hs
        subst e1 e2 e3
        rcases mbuf_coded_video_frame_queue_push_cases hp with ⟨-, e⟩ | ⟨-, h0, hb⟩
        · rw [e]
          exact ⟨hn, hlen, hev⟩
        · simp only [push_in_range] at hr
          rcases mbuf_base_frame_queue_push_cases hb with ⟨-, e⟩ | ⟨hnd, -, e⟩ |
            ⟨hd, tmp, rest, hfr, ⟨hne, e⟩ | ⟨-, e⟩⟩
          · unfold queue_inv
            rw [e]
            exact ⟨hn, hlen, hev⟩
          · rw [if_neg hnd] at hr
            unfold queue_inv
            rw [e]
            have hw : wrap_int (q.base.nframes + 1) = q.base.nframes + 1 :=
              wrap_int_of_range _ (by rw [hn]; omega) (by omega)
            refine ⟨?_, ?_, ?_⟩
            · show wrap_int (q.base.nframes + 1) = ((q.base.frames ++ [a]).length : Int)
              rw [hw, hn, List.length_append, List.length_singleton, Nat.cast_add,
                Nat.cast_one]
            · show ((q.base.frames ++ [a]).length : Int) ≤ INT_MAX
              rw [List.length_append, List.length_singleton, Nat.cast_add, Nat.cast_one]
              omega
            · simp [hev]
          · rw [if_pos hd] at hr
            have := hr (by rw [hfr]; simp)
            exact absurd this hne
          · unfold queue_inv
            rw [e]
            have hl : (q.base.frames.length : Int) = (rest.length : Int) + 1 := by
              rw [hfr]
              simp
            have hw1 : wrap_int (q.base.nframes - 1) = q.base.nframes - 1 :=
              wrap_int_of_range _ (by rw [hn]; omega) (by omega)
            have hw2 : wrap_int (q.base.nframes - 1 + 1) = q.base.nframes :=
              by rw [Int.sub_add_cancel]; exact wrap_int_of_range _ (by rw [hn]; omega) (by omega)
            refine ⟨?_, ?_, ?_⟩
            · show wrap_int (wrap_int (q.base.nframes - 1) + 1) =
                ((rest ++ [a]).length : Int)
              rw [hw1, hw2, hn, hl, List.length_append, List.length_singleton, Nat.cast_add,
                Nat.cast_one]
            · show ((rest ++ [a]).length : Int) ≤ INT_MAX
              rw [List.length_append, List.length_singleton, Nat.cast_add, Nat.cast_one]
              omega
            · simp [hev]
  | peek =>
    simp only [queue_step] at hs
    cases hp : mbuf_coded_video_frame_queue_peek h (some q) true with
    | none =>
      rw [hp] at hs
      exact absurd hs (by simp)
    | some r =>
      rw [hp] at hs
      simp only [Option.map_some', Option.some.injEq, Prod.mk.injEq] at hs
      rw [← hs.2.2]
      exact ⟨hn, hlen, hev⟩
  | peek_at index =>
    simp only [queue_step] at hs
    cases hp : mbuf_coded_video_frame_queue_peek_at h (some q) index true with
    | none =>
      rw [hp] at hs
      exact absurd hs (by simp)
    | some r =>
      rw [hp] at hs
      simp only [Option.map_some', Option.some.injEq, Prod.mk.injEq] at hs
      rw [← hs.2.2]
      exact ⟨hn, hlen, hev⟩
  | pop =>
    simp only [queue_step] at hs
    cases hp : mbuf_coded_video_frame_queue_pop h (some q) true with
    | none =>
      rw [hp] at hs
      exact absurd hs (by simp)
    | some r =>
      obtain ⟨ret0, oq, out⟩ := r
      cases oq with
      | none =>
        rw [hp] at hs
        exact absurd hs (by simp)
      | some q2 =>
        rw [hp] at hs
        simp only [Option.some.injEq, Prod.mk.injEq] at hs
        obtain ⟨e1, e2, e3⟩ := hs
        subst e1 e2 e3
        obtain ⟨-, out0, hb, -⟩ := mbuf_coded_video_frame_queue_pop_cases hp
        rcases mbuf_base_frame_queue_pop_cases hb with ⟨-, e, -⟩ |
          ⟨-, -, holder, rest, hfr, -, e⟩
        · unfold queue_inv
          rw [e]
          exact ⟨hn, hlen, hev⟩
        · unfold queue_inv
          rw [e]
          have hl : (q.base.frames.length : Int) = (rest.length : Int) + 1 := by
            rw [hfr]
            simp
          have hw1 : wrap_int (q.base.nframes - 1) = (rest.length : Int) := by
            rw [wrap_int_of_range _ (by rw [hn]; omega) (by omega), hn, hl]
            omega
          refine ⟨?_, ?_, ?_⟩
          · simp only [hw1]
          · simp only
            omega
          · simp only [hw1, hev]
            cases rest with
            | nil => simp
            | cons x xs =>
              simp only [List.length_cons]
              rw [if_neg (by omega)]
              simp [hfr]
  | flush =>
    simp only [queue_step] at hs
    cases hp : mbuf_coded_video_frame_queue_flush h (some q) with
    | none =>
      rw [hp] at hs
      exact absurd hs (by simp)
    | some r =>
      obtain ⟨ret0, h2, oq⟩ := r
      cases oq with
      | none =>
        rw [hp] at hs
        exact absurd hs (by simp)
      | some q2 =>
        rw [hp] at hs
        simp only [Option.some.injEq, Prod.mk.injEq] at hs
        obtain ⟨e1, e2, e3⟩ := hs
        subst e1 e2 e3
        obtain ⟨-, e⟩ := mbuf_coded_video_frame_queue_flush_cases hp
        unfold queue_inv
        rw [e]
        have hzero : ((([] : List Nat).length : Nat) : Int) ≤ INT_MAX := by decide
        exact ⟨rfl, hzero, by simp [hev]⟩

theorem queue_reach_inv {q : mbuf_coded_video_frame_queue} (hr : queue_reach q) :
    queue_inv q := by
  induction hr with
  | init calloc_ok mutex_ret evt_ok args q hq => exact queue_inv_init hq
  | step op h h1 q q1 ret _ hs hp ih => exact queue_inv_step ih hs hp

/-- C34, with the bounds the code needs.  On a queue that is not NULL:
a push that returns 0 signals the event; a `pop` that returns 0 clears the
event when the count it leaves is 0 and leaves the event as it is otherwise,
and a `pop` that returns an error changes nothing of the queue; `flush`
returns 0, clears the event and leaves the count 0; `peek` and `peek_at` leave
the queue as it is.  In every queue reached from a new queue by calls of these
functions, where each push that drops the oldest frame returns 0 and each other
push is made on a queue that counts less than `INT_MAX` frames, the event is
signalled if and only if `get_count` is greater than 0. -/
theorem mbuf_frame_queue_signal_invariant :
    (∀ (env : queue_env) (h h1 : frame_heap) (q q1 : mbuf_coded_video_frame_queue)
        (a : Nat),
      mbuf_coded_video_frame_queue_push env h (some q) (some a) = some (0, h1, some q1) →
      q1.base.event = q.base.event.map (fun _ => true)) ∧
    (∀ (h : frame_heap) (q q1 : mbuf_coded_video_frame_queue) (ret : Int)
        (out : Option Nat),
      mbuf_coded_video_frame_queue_pop h (some q) true = some (ret, some q1, out) →
      (ret = 0 →
        q1.base.event =
          if mbuf_coded_video_frame_queue_get_count (some q1) = 0 then
            q.base.event.map (fun _ => false)
          else q.base.event) ∧
      (ret ≠ 0 → q1 = q)) ∧
    (∀ (h h1 : frame_heap) (q q1 : mbuf_coded_video_frame_queue) (ret : Int),
      mbuf_coded_video_frame_queue_flush h (some q) = some (ret, h1, some q1) →
      ret = 0 ∧ q1.base.event = q.base.event.map (fun _ => false) ∧
      mbuf_coded_video_frame_queue_get_count (some q1) = 0) ∧
    (∀ (h h1 : frame_heap) (q q1 : mbuf_coded_video_frame_queue) (index : Nat) (ret : Int),
      (queue_step h q queue_op.peek = some (ret, h1, q1) ∨
        queue_step h q (queue_op.peek_at index) = some (ret, h1, q1)) → q1 = q) ∧
    (∀ q : mbuf_coded_video_frame_queue, queue_reach q →
      (q.base.event = some true ↔ 0 < mbuf_coded_video_frame_queue_get_count (some q)) ∧
      (q.base.event = some true ∨ q.base.event = some false)) := by
  refine ⟨?_, ?_, ?_, ?_, ?_⟩
  · intro env h h1 q q1 a hp
    rcases mbuf_coded_video_frame_queue_push_cases hp with ⟨hne, -⟩ | ⟨-, h0, hb⟩
    · exact absurd rfl hne
    · rcases mbuf_base_frame_queue_push_cases hb with ⟨hne, -⟩ | ⟨-, -, e⟩ |
        ⟨-, tmp, rest, -, ⟨hne, -⟩ | ⟨-, e⟩⟩
      · exact absurd rfl hne
      · rw [e]
      · exact absurd rfl hne
      · rw [e]
  · intro h q q1 ret out hp
    obtain ⟨-, out0, hb, -⟩ := mbuf_coded_video_frame_queue_pop_cases hp
    have hq1 : ∀ q2 : mbuf_coded_video_frame_queue, q2.filter = q.filter →
        q2.base = q.base → q2 = q := by
      intro q2 e1 e2
      cases q2
      cases q
      simp only at e1 e2
      rw [e1, e2]
    rcases mbuf_base_frame_queue_pop_cases hb with ⟨hne, e, -⟩ | ⟨h0, -, holder, rest, -, -, e⟩
    · refine ⟨fun e0 => absurd e0 hne, fun _ => ?_⟩
      exact hq1 q1 (mbuf_coded_video_frame_queue_pop_cases hp).1 e
    · refine ⟨fun _ => ?_, fun hne => absurd h0 hne⟩
      have hev := congrArg (fun b => b.event) e
      have hnf := congrArg (fun b => b.nframes) e
      simp only at hev hnf
      simp only [mbuf_coded_video_frame_queue_get_count, mbuf_base_frame_queue_get_count]
      rw [hev]
      simp only [hnf]
  · intro h h1 q q1 ret hp
    obtain ⟨h0, e⟩ := mbuf_coded_video_frame_queue_flush_cases hp
    rw [e]
    exact ⟨h0, rfl, rfl⟩
  · intro h h1 q q1 index ret hs
    rcases hs with hs | hs
    · simp only [queue_step] at hs
      cases hp : mbuf_coded_video_frame_queue_peek h (some q) true with
      | none =>
        rw [hp] at hs
        exact absurd hs (by simp)
      | some r =>
        rw [hp] at hs
        simp only [Option.map_some', Option.some.injEq, Prod.mk.injEq] at hs
        exact hs.2.2.symm
    · simp only [queue_step] at hs
      cases hp : mbuf_coded_video_frame_queue_peek_at h (some q) index true with
      | none =>
        rw [hp] at hs
        exact absurd hs (by simp)
      | some r =>
        rw [hp] at hs
        simp only [Option.map_some', Option.some.injEq, Prod.mk.injEq] at hs
        exact hs.2.2.symm
  · intro q hr
    obtain ⟨hn, -, hev⟩ := queue_reach_inv hr
    have hc : mbuf_coded_video_frame_queue_get_count (some q) =
        (q.base.frames.length : Int) := hn
    rw [hc, hev]
    cases hfr : q.base.frames with
    | nil => simp
    | cons x xs =>
      simp only [List.isEmpty_cons, Bool.not_false, List.length_cons, true_iff, or_false,
        and_true]
      exact ⟨by omega, Or.inl trivial⟩

/-- C34 at a concrete input: a queue limited to one frame on which the frames
at the addresses 1 and 2 of `demo_heap` have been pushed is reached, and its
event is signalled with the count 1. -/
theorem mbuf_frame_queue_signal_invariant_witness :
    queue_reach (queue_holding none 1 [2] true) ∧
    ((queue_holding none 1 [2] true).base.event = some true ↔
      0 < mbuf_coded_video_frame_queue_get_count (some (queue_holding none 1 [2] true))) :=
  have h0 : queue_reach (queue_holding none 1 [] false) :=
    queue_reach.init true 0 true (some { filter := none, max_frames := 1 }) _ rfl
  have h1 : queue_reach (queue_holding none 1 [1] true) :=
    queue_reach.step (queue_op.push queue_env_ok 1) demo_heap
      (((queue_step demo_heap (queue_holding none 1 [] false)
        (queue_op.push queue_env_ok 1)).map
          (fun r : Int × frame_heap × mbuf_coded_video_frame_queue => r.2.1)).getD demo_heap) _ _ 0 h0 rfl
      (by
        unfold push_in_range
        simp [queue_holding, INT_MAX])
  have h2 : queue_reach (queue_holding none 1 [2] true) :=
    queue_reach.step (queue_op.push queue_env_ok 2) (queued_heap demo_heap [1])
      (((queue_step (queued_heap demo_heap [1]) (queue_holding none 1 [1] true)
        (queue_op.push queue_env_ok 2)).map
          (fun r : Int × frame_heap × mbuf_coded_video_frame_queue => r.2.1)).getD demo_heap) _ _ 0 h1 rfl
      (by
        unfold push_in_range
        simp [queue_holding])
  ⟨h2, (mbuf_frame_queue_signal_invariant.2.2.2.2 _ h2).1⟩

/-- C34, where the claim fails.  A queue is created with the limit 1 and the
frame at address 1 is pushed; the push of the frame at address 2 during which
`pomp_evt_signal` returns `-EAGAIN` drops the frame 1 and fails: the queue is
empty, `get_count` is 0, and the event is still signalled.  On a queue without
limit the frame at address 1 is pushed `2 ^ 31` times: every push returns 0
and the event is signalled, while `get_count` is `INT_MIN`, which is not
greater than 0. -/
theorem mbuf_frame_queue_signal_stale :
    (mbuf_coded_video_frame_queue_new_with_args true 0 true
        (some { filter := none, max_frames := 1 }) true =
      (0, some (queue_holding none 1 [] false)) ∧
      (queue_step demo_heap (queue_holding none 1 [] false)
        (queue_op.push queue_env_ok 1)).map (fun r => (r.1, r.2.2.base)) =
        some (0, (queue_holding none 1 [1] true).base) ∧
      (queue_step (queued_heap demo_heap [1]) (queue_holding none 1 [1] true)
        (queue_op.push { calloc_holder := true, signal_ret := -EAGAIN } 2)).map
          (fun r => (r.1, r.2.2.base.frames, r.2.2.base.event,
            mbuf_coded_video_frame_queue_get_count (some r.2.2))) =
        some (-EAGAIN, [], some true, 0)) ∧
    (mbuf_coded_video_frame_queue_new_with_args true 0 true
        (some { filter := none, max_frames := 0 }) true =
      (0, some (queue_holding none 0 [] false)) ∧
      (queue_pushes queue_env_ok (List.replicate (2 ^ 31) 1) demo_heap
        (queue_holding none 0 [] false)).map
          (fun r => (r.1, r.2.2.base.event,
            mbuf_coded_video_frame_queue_get_count (some r.2.2))) =
        some (List.replicate (2 ^ 31) 0, some true, INT_MIN) ∧
      ¬ (0 < INT_MIN)) := by
  have e31 : (2 : Nat) ^ 31 = (2 ^ 31 - 1) + 1 := by norm_num
  have hrep1 : List.replicate (2 ^ 31) (1 : Nat) = List.replicate (2 ^ 31 - 1) 1 ++ [1] := by
    conv_lhs => rw [e31]
    exact List.replicate_succ' _ _
  have hrep0 : List.replicate (2 ^ 31) (0 : Int) = List.replicate (2 ^ 31 - 1) 0 ++ [0] := by
    conv_lhs => rw [e31]
    exact List.replicate_succ' _ _
  have hf1 : demo_heap.frame 1 = some { mbuf_base_frame_init with finalized := true } := rfl
  have hrc :
      ({ mbuf_base_frame_init with finalized := true } : mbuf_base_frame).refcount = 1 := rfl
  have hlen : (((List.replicate (2 ^ 31 - 1) 1 : List Nat).length : Nat) : Int) ≤ INT_MAX := by
    rw [List.length_replicate]
    decide
  have hrcs : ({ mbuf_base_frame_init with finalized := true } : mbuf_base_frame).refcount +
      ((List.replicate (2 ^ 31 - 1) 1 : List Nat).length + 1) ≤ UINT_MAX := by
    rw [List.length_replicate, hrc]
    decide
  have hw : wrap_int ((((List.replicate (2 ^ 31 - 1) 1 : List Nat).length : Nat) : Int) + 1) =
      INT_MIN := by
    rw [List.length_replicate]
    decide
  refine ⟨⟨rfl, rfl, rfl⟩, rfl, ?_, by decide⟩
  have e := queue_pushes_unbounded_last demo_heap none (List.replicate (2 ^ 31 - 1) 1) 1 hlen
    (fun b hb => by
      have hb1 : b = 1 := by
        rcases List.mem_append.1 hb with h | h
        · exact List.eq_of_mem_replicate h
        · exact List.mem_singleton.1 h
      subst hb1
      exact ⟨_, hf1, rfl, by decide, hrcs⟩)
    (fun p hp => by cases hp)
  rw [hw, List.length_replicate] at e
  rw [hrep1, e, hrep0]
  rfl

/-! ### Flush of a queue -/

theorem mbuf_base_frame_queue_flush_walk_spec :
    ∀ (l : List Nat) (h : frame_heap),
      (∀ a ∈ l, ∃ f, h.frame a = some f ∧ l.count a ≤ f.refcount) →
      ∃ h1, mbuf_base_frame_queue_flush_walk l h = some h1 ∧
        (∀ a, h.frame a = none →
          h1.frame a = none ∧ h1.cleaned.count a = h.cleaned.count a) ∧
        (∀ a f, h.frame a = some f → a ∈ l → f.refcount = l.count a →
          h1.frame a = none ∧ h1.cleaned.count a = h.cleaned.count a + 1) ∧
        (∀ a f, h.frame a = some f → (a ∉ l ∨ l.count a < f.refcount) →
          h1.frame a = some { f with refcount := f.refcount - l.count a } ∧
          h1.cleaned.count a = h.cleaned.count a) := by
  intro l
  induction l with
  | nil =>
    intro h _
    refine ⟨h, rfl, fun a ha => ⟨ha, rfl⟩, fun a f _ ha => absurd ha (by simp), ?_⟩
    intro a f hf _
    exact ⟨by simpa using hf, rfl⟩
  | cons b rest ih =>
    intro h hl
    obtain ⟨fb, hfb, hcb⟩ := hl b (List.mem_cons_self _ _)
    have hcb2 : rest.count b + 1 ≤ fb.refcount := by
      simpa [List.count_cons] using hcb
    have hcne : ∀ a, a ≠ b → (b :: rest).count a = rest.count a := by
      intro a hne
      simp [List.count_cons, Ne.symm hne]
    by_cases h1r : fb.refcount = 1
    · -- the frame is destroyed
      have hnb : b ∉ rest := by
        rw [← List.count_eq_zero]
        omega
      have hu : mbuf_base_frame_unref_at h b =
          some (0, { frame := fun x => if x = b then none else h.frame x,
                     cleaned := b :: h.cleaned }) := by
        simp [mbuf_base_frame_unref_at, hfb, mbuf_base_frame_unref, h1r]
      obtain ⟨h1, hw, c1, c2, c3⟩ := ih
        { frame := fun x => if x = b then none else h.frame x, cleaned := b :: h.cleaned }
        (fun a ha => by
          have hne : a ≠ b := fun e => hnb (e ▸ ha)
          obtain ⟨f, hf, hc⟩ := hl a (List.mem_cons_of_mem _ ha)
          rw [hcne a hne] at hc
          exact ⟨f, by simp [hne, hf], hc⟩)
      refine ⟨h1, ?_, ?_, ?_, ?_⟩
      · simp only [mbuf_base_frame_queue_flush_walk, hu, hw]
      · intro a ha
        have hne : a ≠ b := fun e => by
          rw [e, hfb] at ha
          exact absurd ha (by simp)
        obtain ⟨r1, r2⟩ := c1 a (by simp [hne, ha])
        refine ⟨r1, ?_⟩
        rw [r2]
        simp [List.count_cons, Ne.symm hne]
      · intro a f hf ha hc
        by_cases hab : a = b
        · subst hab
          obtain ⟨r1, r2⟩ := c1 a (by simp)
          refine ⟨r1, ?_⟩
          rw [r2]
          simp [List.count_cons]
        · have har : a ∈ rest := by
            rcases List.mem_cons.1 ha with e | e
            · exact absurd e hab
            · exact e
          rw [hcne a hab] at hc
          obtain ⟨r1, r2⟩ := c2 a f (by simp [hab, hf]) har hc
          refine ⟨r1, ?_⟩
          rw [r2]
          simp [List.count_cons, Ne.symm hab]
      · intro a f hf hc
        by_cases hab : a = b
        · subst hab
          rw [hfb] at hf
          have e := Option.some.inj hf
          subst e
          rcases hc with hc | hc
          · exact absurd (List.mem_cons_self _ _) hc
          · simp only [List.count_cons_self] at hc
            omega
        · rw [hcne a hab]
          have hc2 : a ∉ rest ∨ rest.count a < f.refcount := by
            rcases hc with hc | hc
            · left
              exact fun e => hc (List.mem_cons_of_mem _ e)
            · right
              rw [hcne a hab] at hc
              exact hc
          obtain ⟨r1, r2⟩ := c3 a f (by simp [hab, hf]) hc2
          refine ⟨r1, ?_⟩
          rw [r2]
          simp [List.count_cons, Ne.symm hab]
    · -- the frame stays
      have hd : uint_dec fb.refcount = fb.refcount - 1 := by
        unfold uint_dec
        rw [if_neg (by omega)]
      have hu : mbuf_base_frame_unref_at h b =
          some (0, { h with
            frame := fun x =>
              if x = b then some { fb with refcount := fb.refcount - 1 } else h.frame x }) := by
        simp [mbuf_base_frame_unref_at, hfb, mbuf_base_frame_unref, h1r, hd]
      obtain ⟨h1, hw, c1, c2, c3⟩ := ih
        { h with
          frame := fun x =>
            if x = b then some { fb with refcount := fb.refcount - 1 } else h.frame x }
        (fun a ha => by
          by_cases hab : a = b
          · subst hab
            refine ⟨{ fb with refcount := fb.refcount - 1 }, by simp, ?_⟩
            simp only
            omega
          · obtain ⟨f, hf, hc⟩ := hl a (List.mem_cons_of_mem _ ha)
            rw [hcne a hab] at hc
            exact ⟨f, by simp [hab, hf], hc⟩)
      refine ⟨h1, ?_, ?_, ?_, ?_⟩
      · simp only [mbuf_base_frame_queue_flush_walk, hu, hw]
      · intro a ha
        have hne : a ≠ b := fun e => by
          rw [e, hfb] at ha
          exact absurd ha (by simp)
        exact c1 a (by simp [hne, ha])
      · intro a f hf ha hc
        by_cases hab : a = b
        · subst hab
          rw [hfb] at hf
          have e := Option.some.inj hf
          subst e
          simp only [List.count_cons_self] at hc
          have hmem : a ∈ rest := by
            rw [← List.count_pos_iff]
            omega
          exact c2 a { fb with refcount := fb.refcount - 1 } (by simp) hmem
            (by simp only; omega)
        · have har : a ∈ rest := by
            rcases List.mem_cons.1 ha with e | e
            · exact absurd e hab
            · exact e
          rw [hcne a hab] at hc
          exact c2 a f (by simp [hab, hf]) har hc
      · intro a f hf hc
        by_cases hab : a = b
        · subst hab
          rw [hfb] at hf
          have e := Option.some.inj hf
          subst e
          have hlt : rest.count a + 1 < fb.refcount := by
            rcases hc with hc | hc
            · exact absurd (List.mem_cons_self _ _) hc
            · simpa [List.count_cons] using hc
          obtain ⟨r1, r2⟩ := c3 a { fb with refcount := fb.refcount - 1 } (by simp)
            (Or.inr (by simp only; omega))
          refine ⟨?_, r2⟩
          rw [r1]
          simp only [List.count_cons_self, Option.some.injEq, mbuf_base_frame.mk.injEq,
            true_and]
          omega
        · rw [hcne a hab]
          have hc2 : a ∉ rest ∨ rest.count a < f.refcount := by
            rcases hc with hc | hc
            · left
              exact fun e => hc (List.mem_cons_of_mem _ e)
            · right
              rw [hcne a hab] at hc
              exact hc
          exact c3 a f (by simp [hab, hf]) hc2

/-! ### What the cleaner of a coded video frame releases -/

theorem mbuf_mem_unref_live_gt_one (sp : Nat) {s : mbuf_state} {a : Nat} {m : mbuf_mem}
    (hm : mem_at s a = some m) (h : 1 < m.refcount) :
    mbuf_mem_unref sp s a = some (0, store_refcount s a (m.refcount - 1)) := by
  rw [mbuf_mem_unref_spurious]
  unfold mbuf_mem_unref mbuf_mem_unref_loop mbuf_mem_unref_internal
  simp only [hm, gt_iff_lt, h, if_true, atomic_compare_exchange_weak,
    atomic_compare_exchange_strong, Bool.false_eq_true, if_false]

theorem store_refcount_fields (s : mbuf_state) (a v : Nat) :
    (store_refcount s a v).hook_log = s.hook_log ∧
    (store_refcount s a v).pool.mem_count = s.pool.mem_count ∧
    (store_refcount s a v).pool.mem_free = s.pool.mem_free := by
  unfold store_refcount
  cases find_mem s.pool.memories a <;> exact ⟨rfl, rfl, rfl⟩

theorem unref_nalus_spec (sp : Nat) :
    ∀ (l : List mbuf_coded_video_frame_nalu) (s : mbuf_state),
      (∀ p ∈ l, ∃ c, mem_at s p.mem = some c ∧
        (l.map (fun x => x.mem)).count p.mem < c.refcount) →
      ∃ s1, unref_nalus sp l l.length s = some s1 ∧
        (∀ m, mem_at s1 m =
          (mem_at s m).map
            (fun c => { c with refcount := c.refcount - (l.map (fun x => x.mem)).count m })) ∧
        s1.hook_log = s.hook_log ∧ s1.pool.mem_count = s.pool.mem_count ∧
        s1.pool.mem_free = s.pool.mem_free := by
  intro l
  induction l with
  | nil =>
    intro s _
    refine ⟨s, rfl, ?_, rfl, rfl, rfl⟩
    intro m
    cases mem_at s m with
    | none => rfl
    | some c => rfl
  | cons p rest ih =>
    intro s hl
    obtain ⟨c, hc, hcount⟩ := hl p (List.mem_cons_self _ _)
    have hcount2 : (rest.map (fun x => x.mem)).count p.mem + 1 < c.refcount := by
      simpa [List.count_cons] using hcount
    have hu := mbuf_mem_unref_live_gt_one sp hc (by omega)
    obtain ⟨hf1, hf2, hf3⟩ := store_refcount_fields s p.mem (c.refcount - 1)
    obtain ⟨s1, hw, c1, c2, c3, c4⟩ := ih (store_refcount s p.mem (c.refcount - 1))
      (fun q hq => by
        rw [mem_at_store_refcount]
        by_cases hqp : q.mem = p.mem
        · rw [if_pos hqp, hc, hqp]
          refine ⟨_, rfl, ?_⟩
          simp only
          omega
        · rw [if_neg hqp]
          obtain ⟨c0, hc0, hcount0⟩ := hl q (List.mem_cons_of_mem _ hq)
          refine ⟨c0, hc0, ?_⟩
          simpa [List.count_cons, Ne.symm hqp] using hcount0)
    refine ⟨s1, ?_, ?_, c2.trans hf1, c3.trans hf2, c4.trans hf3⟩
    · simp only [List.length_cons, unref_nalus, hu, hw]
    · intro m
      rw [c1 m, mem_at_store_refcount]
      by_cases hmp : m = p.mem
      · subst hmp
        rw [if_pos rfl, hc]
        simp only [Option.map_some', List.map_cons, List.count_cons_self, Option.some.injEq,
          mbuf_mem.mk.injEq, true_and, and_true]
        omega
      · rw [if_neg hmp]
        have hmp2 : ¬ p.mem = m := fun e => hmp e.symm
        cases mem_at s m with
        | none => rfl
        | some c0 => simp [List.count_cons, hmp2]

theorem unref_holders_live :
    ∀ (l : List Nat) (h : anc_state), l.Nodup → (∀ a ∈ l, holder_name h a ≠ none) →
      ∃ h1, unref_holders h l = some h1 := by
  intro l
  induction l with
  | nil =>
    intro h _ _
    exact ⟨h, rfl⟩
  | cons a rest ih =>
    intro h hnd hl
    have ha := hl a (List.mem_cons_self _ _)
    cases hf : find_anc h.objs a with
    | none => simp [holder_name, hf] at ha
    | some d =>
      have hu := mbuf_ancillary_data_unref_eq hf
      obtain ⟨h1, hw⟩ := ih _ (List.nodup_cons.1 hnd).2 (fun b hb => by
        have hne : b ≠ a := fun e => (List.nodup_cons.1 hnd).1 (e ▸ hb)
        rw [holder_name_unref hu hne]
        exact hl b (List.mem_cons_of_mem _ hb))
      exact ⟨h1, by simp only [unref_holders, hu, hw]⟩

theorem mbuf_coded_video_frame_cleaner_spec (env : frame_env) (w : frame_world)
    (frame : mbuf_coded_video_frame) (hlen : frame.nalus.length = frame.nnalus)
    (hl : ∀ p ∈ frame.nalus, ∃ c, mem_at w.mem p.mem = some c ∧
      (frame.nalus.map (fun x => x.mem)).count p.mem < c.refcount)
    (hw : anc_wf w.anc frame.base.ancillary_data) :
    ∃ w1, mbuf_coded_video_frame_cleaner env w frame = some w1 ∧
      w1.release_log =
        (if frame.cbs.pre_release then w.release_log ++ [frame.cbs.pre_release_userdata]
         else w.release_log) ∧
      (∀ m, mem_at w1.mem m =
        (mem_at w.mem m).map (fun c =>
          { c with refcount := c.refcount - (frame.nalus.map (fun x => x.mem)).count m })) ∧
      w1.mem.hook_log = w.mem.hook_log ∧ w1.bytes = w.bytes := by
  obtain ⟨-, hlive, hnames⟩ := hw
  have hnd : frame.base.ancillary_data.Nodup := List.Nodup.of_map _ hnames
  unfold mbuf_coded_video_frame_cleaner
  by_cases hpre : frame.cbs.pre_release = true
  · simp only [hpre, if_true]
    obtain ⟨s1, hs1, c1, c2, -, -⟩ := unref_nalus_spec env.sp frame.nalus w.mem hl
    rw [hlen] at hs1
    simp only [hs1]
    unfold mbuf_base_frame_deinit
    simp only [mbuf_base_frame_set_metadata_ancillary]
    obtain ⟨h1, hh1⟩ := unref_holders_live frame.base.ancillary_data w.anc hnd hlive
    simp only [hh1]
    exact ⟨_, rfl, rfl, c1, c2, rfl⟩
  · have hpre2 : frame.cbs.pre_release = false := by simpa using hpre
    simp only [hpre2, Bool.false_eq_true, if_false]
    obtain ⟨s1, hs1, c1, c2, -, -⟩ := unref_nalus_spec env.sp frame.nalus w.mem hl
    rw [hlen] at hs1
    simp only [hs1]
    unfold mbuf_base_frame_deinit
    simp only [mbuf_base_frame_set_metadata_ancillary]
    obtain ⟨h1, hh1⟩ := unref_holders_live frame.base.ancillary_data w.anc hnd hlive
    simp only [hh1]
    exact ⟨_, rfl, rfl, c1, c2, rfl⟩

/-- C31.  `mbuf_coded_video_frame_queue_flush` (the queues of audio and raw
video frames have the same text) on a queue whose frames are live, each with
at least as many references as it has places in the queue: the call returns 0
and leaves the queue without frame, with the count 0 and the event cleared,
so that `peek` and `pop` return `-EAGAIN`.  Every frame has lost one reference
for each of its places in the queue: a frame with more references than places
stays, with that many references less, and no cleaner is called for it; a
frame with as many references as places is destroyed, its cleaner being called
once; nothing else changes in the heap of frames.  The cleaner of a coded
video frame, `mbuf_coded_video_frame_cleaner`, on a frame whose array holds
its NALUs, with well-formed ancillary data: it calls the pre-release callback
of the frame, if there is one, once, and unrefs the chunk of each NALU once,
so that every chunk has lost one reference for each NALU of the frame in it
(the chunks being live with more references than that, no hook is called).
Where the frame holds the last reference of a chunk, the chunk is released:
for `wrapped_nalu_frame` the callback is called, the chunk at address 3 is
gone and its `free` hook has been called. -/
theorem mbuf_frame_queue_flush_spec :
    (∀ (h : frame_heap) (q : mbuf_coded_video_frame_queue),
      (∀ a ∈ q.base.frames, ∃ f, h.frame a = some f ∧
        q.base.frames.count a ≤ f.refcount) →
      ∃ h1 q1, mbuf_coded_video_frame_queue_flush h (some q) = some (0, h1, some q1) ∧
        q1 = { q with
          base := { q.base with
            frames := []
            nframes := 0
            event := q.base.event.map (fun _ => false) } } ∧
        mbuf_coded_video_frame_queue_get_count (some q1) = 0 ∧
        mbuf_coded_video_frame_queue_peek h1 (some q1) true = some (-EAGAIN, h1, none) ∧
        mbuf_coded_video_frame_queue_pop h1 (some q1) true = some (-EAGAIN, some q1, none) ∧
        (∀ a, h.frame a = none →
          h1.frame a = none ∧ h1.cleaned.count a = h.cleaned.count a) ∧
        (∀ a f, h.frame a = some f → a ∈ q.base.frames →
          f.refcount = q.base.frames.count a →
          h1.frame a = none ∧ h1.cleaned.count a = h.cleaned.count a + 1) ∧
        (∀ a f, h.frame a = some f →
          (a ∉ q.base.frames ∨ q.base.frames.count a < f.refcount) →
          h1.frame a = some { f with refcount := f.refcount - q.base.frames.count a } ∧
          h1.cleaned.count a = h.cleaned.count a)) ∧
    (∀ (env : frame_env) (w : frame_world) (frame : mbuf_coded_video_frame),
      frame.nalus.length = frame.nnalus →
      (∀ p ∈ frame.nalus, ∃ c, mem_at w.mem p.mem = some c ∧
        (frame.nalus.map (fun x => x.mem)).count p.mem < c.refcount) →
      anc_wf w.anc frame.base.ancillary_data →
      ∃ w1, mbuf_coded_video_frame_cleaner env w frame = some w1 ∧
        w1.release_log =
          (if frame.cbs.pre_release then w.release_log ++ [frame.cbs.pre_release_userdata]
           else w.release_log) ∧
        (∀ m, mem_at w1.mem m =
          (mem_at w.mem m).map (fun c =>
            { c with
              refcount := c.refcount - (frame.nalus.map (fun x => x.mem)).count m })) ∧
        w1.mem.hook_log = w.mem.hook_log ∧ w1.bytes = w.bytes) ∧
    ((mem_at wrapped_world.mem 3).map (fun c => (c.refcount, c.pool)) = some (1, false) ∧
      (mbuf_coded_video_frame_cleaner frame_env_ok wrapped_world wrapped_nalu_frame).map
          (fun w1 => (w1.release_log, mem_at w1.mem 3, w1.mem.hook_log.head?)) =
        some ([7], none, some (mem_hook.free, 3))) := by
  refine ⟨?_, mbuf_coded_video_frame_cleaner_spec, ⟨by decide, by decide⟩⟩
  intro h q hl
  obtain ⟨h1, hw, c1, c2, c3⟩ := mbuf_base_frame_queue_flush_walk_spec q.base.frames h hl
  refine ⟨h1, _, ?_, rfl, rfl, ?_, ?_, c1, c2, c3⟩
  · simp only [mbuf_coded_video_frame_queue_flush, mbuf_base_frame_queue_flush,
      mbuf_base_frame_queue_flush_internal, hw]
  · simp [mbuf_coded_video_frame_queue_peek, mbuf_base_frame_queue_peek]
  · simp [mbuf_coded_video_frame_queue_pop, mbuf_base_frame_queue_pop]

/-! ### The bounds of a segment -/

theorem shm_find_slot_spec :
    ∀ (slots : List Bool) (todo i : Nat), todo ≤ slots.length →
      (∃ k, k < todo ∧ slots.get? k = some false ∧ (∀ j, j < k → slots.get? j = some true) ∧
        shm_find_slot slots todo i = some (some (i + k))) ∨
      ((∀ j, j < todo → slots.get? j = some true) ∧ shm_find_slot slots todo i = some none) := by
  intro slots
  induction slots with
  | nil =>
    intro todo i h
    have e : todo = 0 := by simpa using h
    subst e
    right
    exact ⟨fun j hj => absurd hj (by omega), rfl⟩
  | cons b rest ih =>
    intro todo i h
    cases todo with
    | zero =>
      right
      exact ⟨fun j hj => absurd hj (by omega), rfl⟩
    | succ t =>
      have ht : t ≤ rest.length := by simpa using h
      cases b with
      | false =>
        left
        exact ⟨0, by omega, rfl, fun j hj => absurd hj (by omega), rfl⟩
      | true =>
        rcases ih t (i + 1) ht with ⟨k, hk, h1, h2, h3⟩ | ⟨h1, h2⟩
        · left
          refine ⟨k + 1, by omega, h1, ?_, ?_⟩
          · intro j hj
            cases j with
            | zero => rfl
            | succ j => exact h2 j (by omega)
          · simp only [shm_find_slot, Bool.true_eq_false, if_false, h3]
            rw [Nat.add_assoc, Nat.add_comm 1 k]
        · right
          refine ⟨?_, ?_⟩
          · intro j hj
            cases j with
            | zero => rfl
            | succ j => exact h1 j (by omega)
          · simp only [shm_find_slot, Bool.true_eq_false, if_false, h2]

theorem size_of_int_small (i : Nat) (h : i < 2 ^ 31) :
    wrap_int (i : Int) = (i : Int) ∧ size_of_int (i : Int) = i := by
  refine ⟨wrap_int_of_range _ (by omega) (by omega), ?_⟩
  unfold size_of_int
  omega

theorem mbuf_mem_shm_alloc_full (calloc_ok : Bool) (mem : shm_mem) (impl : impl_shm_specific)
    (h1 : mem.specific = none) (h2 : mem.data = 0)
    (hlen : impl.slots.length = impl.mem_count)
    (hfull : ∀ j, j < impl.mem_count → impl.slots.get? j = some true) :
    mbuf_mem_shm_alloc calloc_ok mem (some impl) = some (-ENOMEM, mem, some impl) := by
  rcases shm_find_slot_spec impl.slots impl.mem_count 0 (by omega) with
    ⟨k, hk, hf, -, -⟩ | ⟨-, hs⟩
  · rw [hfull k hk] at hf
    exact absurd hf (by simp)
  · simp only [mbuf_mem_shm_alloc, h1, h2, ne_eq, not_true_eq_false, if_false, hs]

theorem mbuf_mem_shm_alloc_slot (mem : shm_mem) (impl : impl_shm_specific) (i : Nat)
    (h1 : mem.specific = none) (h2 : mem.data = 0)
    (hlen : impl.slots.length = impl.mem_count) (hcount : impl.mem_count ≤ 2 ^ 31)
    (haddr : impl.base_addr + impl.mem_count * impl.mem_size < 2 ^ 64)
    (hi : i < impl.mem_count) (hfree : impl.slots.get? i = some false)
    (hlow : ∀ j, j < i → impl.slots.get? j = some true) :
    mbuf_mem_shm_alloc true mem (some impl) =
      some (0,
        { data := impl.base_addr + i * impl.mem_size, size := impl.mem_size,
          cookie := mbuf_mem_shm_cookie, specific := some (i : Int) },
        some { impl with slots := impl.slots.set i true }) := by
  rcases shm_find_slot_spec impl.slots impl.mem_count 0 (by omega) with
    ⟨k, hk, hf, hl, hs⟩ | ⟨hall, -⟩
  · have hki : k = i := by
      rcases Nat.lt_trichotomy k i with h | h | h
      · rw [hlow k h] at hf
        exact absurd hf (by simp)
      · exact h
      · rw [hl i h] at hfree
        exact absurd hfree (by simp)
    subst hki
    obtain ⟨e1, e2⟩ := size_of_int_small k (by omega)
    have hmul : k * impl.mem_size ≤ impl.mem_count * impl.mem_size :=
      Nat.mul_le_mul_right _ (by omega)
    have hw1 : wrap_size (k * impl.mem_size) = k * impl.mem_size := by
      unfold wrap_size
      exact Nat.mod_eq_of_lt (by omega)
    have hw2 : wrap_size (impl.base_addr + k * impl.mem_size) =
        impl.base_addr + k * impl.mem_size := by
      unfold wrap_size
      exact Nat.mod_eq_of_lt (by omega)
    simp only [mbuf_mem_shm_alloc, h1, h2, ne_eq, not_true_eq_false, if_false, hs,
      Nat.zero_add, Bool.not_true, Bool.false_eq_true, e1, e2, hw1, hw2]
  · rw [hall i hi] at hfree
    exact absurd hfree (by simp)

theorem mbuf_mem_shm_free_slot (mem : shm_mem) (impl : impl_shm_specific) (i : Nat)
    (hc : mem.cookie = mbuf_mem_shm_cookie) (hs : mem.specific = some (i : Int))
    (hi : i < impl.slots.length) :
    mbuf_mem_shm_free mem (some impl) =
      some ({ mem with specific := none, data := 0 },
        some { impl with slots := impl.slots.set i false }) := by
  have hr : ¬ ((i : Int) < 0 ∨ (i : Int) ≥ (impl.slots.length : Int)) := by omega
  simp only [mbuf_mem_shm_free, hc, ne_eq, not_true_eq_false, if_false, hs, hr, Int.toNat_ofNat]

theorem shm_inv_alloc {impl0 impl impl1 : impl_shm_specific} {chunks : List shm_mem}
    {calloc_ok : Bool} {size : Nat} {ret : Int} {mem1 : shm_mem}
    (hcount : impl0.mem_count ≤ 2 ^ 31)
    (haddr : impl0.base_addr + impl0.mem_count * impl0.mem_size < 2 ^ 64)
    (hi : shm_inv impl0 impl chunks)
    (ha : mbuf_mem_shm_alloc calloc_ok (shm_mem_new size) (some impl) =
      some (ret, mem1, some impl1)) :
    shm_inv impl0 impl1 (if ret = 0 then mem1 :: chunks else chunks) := by
  obtain ⟨hb, hsz, hc, hlen, hch, hnd⟩ := hi
  rcases shm_find_slot_spec impl.slots impl.mem_count 0 (by omega) with
    ⟨k, hk, hf, hl, hs⟩ | ⟨hall, hs⟩
  · cases calloc_ok with
    | false =>
      simp only [mbuf_mem_shm_alloc, shm_mem_new, ne_eq, not_true_eq_false, if_false, hs,
        Bool.not_false, if_true, Option.some.injEq, Prod.mk.injEq] at ha
      obtain ⟨e1, -, e3⟩ := ha
      subst e1 e3
      rw [if_neg (by decide)]
      exact ⟨hb, hsz, hc, hlen, hch, hnd⟩
    | true =>
      rw [mbuf_mem_shm_alloc_slot (shm_mem_new size) impl k rfl rfl hlen (by omega)
        (by rw [hb, hsz, hc]; exact haddr) hk hf hl] at ha
      simp only [Option.some.injEq, Prod.mk.injEq] at ha
      obtain ⟨e1, e2, e3⟩ := ha
      subst e1 e2 e3
      rw [if_pos rfl]
      have hklen : k < impl.slots.length := by omega
      refine ⟨hb, hsz, hc, by simpa using hlen, ?_, ?_⟩
      · intro m hm
        rcases List.mem_cons.1 hm with e | hm2
        · subst e
          refine ⟨k, rfl, hk, ?_, rfl, rfl, rfl⟩
          simp only [List.get?_eq_getElem?, List.getElem?_set_self hklen]
        · obtain ⟨i, h1, h2, h3, h4, h5, h6⟩ := hch m hm2
          refine ⟨i, h1, h2, ?_, h4, h5, h6⟩
          have hne : k ≠ i := by
            intro e
            rw [e, h3] at hf
            exact absurd hf (by simp)
          simp only [List.get?_eq_getElem?, List.getElem?_set_ne hne]
          rw [← List.get?_eq_getElem?]
          exact h3
      · simp only [List.map_cons, List.nodup_cons]
        refine ⟨?_, hnd⟩
        intro hmem
        obtain ⟨m, hm, e⟩ := List.mem_map.1 hmem
        obtain ⟨i, h1, -, h3, -⟩ := hch m hm
        rw [h1] at e
        have hik : i = k := by
          have := Option.some.inj e
          omega
        rw [hik, hf] at h3
        exact absurd h3 (by simp)
  · simp only [mbuf_mem_shm_alloc, shm_mem_new, ne_eq, not_true_eq_false, if_false, hs,
      Option.some.injEq, Prod.mk.injEq] at ha
    obtain ⟨e1, -, e3⟩ := ha
    subst e1 e3
    rw [if_neg (by decide)]
    exact ⟨hb, hsz, hc, hlen, hch, hnd⟩

theorem shm_inv_free {impl0 impl impl1 : impl_shm_specific} {chunks : List shm_mem}
    {mem mem1 : shm_mem} (hi : shm_inv impl0 impl chunks) (hm : mem ∈ chunks)
    (hf : mbuf_mem_shm_free mem (some impl) = some (mem1, some impl1)) :
    shm_inv impl0 impl1 (chunks.erase mem) := by
  obtain ⟨hb, hsz, hc, hlen, hch, hnd⟩ := hi
  obtain ⟨i, h1, h2, h3, h4, h5, h6⟩ := hch mem hm
  rw [mbuf_mem_shm_free_slot mem impl i h6 h1 (by omega)] at hf
  simp only [Option.some.injEq, Prod.mk.injEq] at hf
  obtain ⟨-, e2⟩ := hf
  subst e2
  have hnd0 : chunks.Nodup := List.Nodup.of_map _ hnd
  refine ⟨hb, hsz, hc, by simpa using hlen, ?_, ?_⟩
  · intro m hmem
    obtain ⟨hne, hmem2⟩ := (List.Nodup.mem_erase_iff hnd0).1 hmem
    obtain ⟨j, g1, g2, g3, g4, g5, g6⟩ := hch m hmem2
    refine ⟨j, g1, g2, ?_, g4, g5, g6⟩
    have hij : i ≠ j := by
      intro e
      apply hne
      apply List.inj_on_of_nodup_map hnd hmem2 hm
      rw [g1, h1, e]
    simp only [List.get?_eq_getElem?, List.getElem?_set_ne hij]
    rw [← List.get?_eq_getElem?]
    exact g3
  · exact List.Nodup.sublist ((List.erase_sublist mem chunks).map _) hnd

theorem shm_reach_inv {impl0 impl : impl_shm_specific} {chunks : List shm_mem}
    (hcount : impl0.mem_count ≤ 2 ^ 31)
    (haddr : impl0.base_addr + impl0.mem_count * impl0.mem_size < 2 ^ 64)
    (hr : shm_reach impl0 impl chunks) : shm_inv impl0 impl chunks := by
  induction hr with
  | init h0 =>
    refine ⟨rfl, rfl, rfl, by rw [h0, List.length_replicate], ?_, List.nodup_nil⟩
    intro m hm
    simp at hm
  | alloc calloc_ok size impl impl1 chunks ret mem1 _ ha ih => exact shm_inv_alloc hcount haddr ih ha
  | free impl impl1 chunks mem mem1 _ hm hf ih => exact shm_inv_free ih hm hf

theorem mbuf_mem_shm_alloc_calloc_fails (mem : shm_mem) (impl : impl_shm_specific)
    (h1 : mem.specific = none) (h2 : mem.data = 0)
    (hlen : impl.slots.length = impl.mem_count) :
    mbuf_mem_shm_alloc false mem (some impl) = some (-ENOMEM, mem, some impl) := by
  rcases shm_find_slot_spec impl.slots impl.mem_count 0 (by omega) with
    ⟨k, -, -, -, hs⟩ | ⟨-, hs⟩
  · simp only [mbuf_mem_shm_alloc, h1, h2, ne_eq, not_true_eq_false, if_false, hs,
      Bool.not_false, if_true]
  · simp only [mbuf_mem_shm_alloc, h1, h2, ne_eq, not_true_eq_false, if_false, hs]

/-- The hook `mbuf_mem_shm_alloc` on an arena whose slots are used up to the
last one, `calloc` succeeding: the index found is that of the last slot, and
it is kept as an `int`. -/
theorem mbuf_mem_shm_alloc_last (mem : shm_mem) (base size n : Nat)
    (h1 : mem.specific = none) (h2 : mem.data = 0) :
    (mbuf_mem_shm_alloc true mem
        (some { base_addr := base, mem_size := size, mem_count := n + 1,
                slots := List.replicate n true ++ [false] })).map
        (fun r => (r.1, r.2.1.data, mbuf_mem_shm_get_index (some r.2.1))) =
      some (0, wrap_size (base + wrap_size (size_of_int (wrap_int (n : Int)) * size)),
        wrap_int (n : Int)) := by
  have hlen : (List.replicate n true ++ [false]).length = n + 1 := by
    rw [List.length_append, List.length_replicate, List.length_singleton]
  have hfree : (List.replicate n true ++ [false]).get? n = some false := by
    rw [List.get?_eq_getElem?, List.getElem?_append_right (by rw [List.length_replicate]),
      List.length_replicate, Nat.sub_self]
    rfl
  have hlow : ∀ j, j < n → (List.replicate n true ++ [false]).get? j = some true := by
    intro j hj
    rw [List.get?_eq_getElem?, List.getElem?_append_left (by rw [List.length_replicate]; exact hj),
      List.getElem?_replicate, if_pos hj]
  rcases shm_find_slot_spec (List.replicate n true ++ [false]) (n + 1) 0 (by omega) with
    ⟨k, hk, hf, hl, hs⟩ | ⟨hall, -⟩
  · have hkn : k = n := by
      rcases Nat.lt_trichotomy k n with h | h | h
      · rw [hlow k h] at hf
        exact absurd hf (by simp)
      · exact h
      · omega
    subst hkn
    simp only [mbuf_mem_shm_alloc, h1, h2, ne_eq, not_true_eq_false, if_false, hs,
      Nat.zero_add, Bool.not_true, Bool.false_eq_true, Option.map_some',
      mbuf_mem_shm_get_index]
  · rw [hall n (by omega)] at hfree
    exact absurd hfree (by simp)

/-- C33, with the allocation and the width the code has.  The hooks of the
shared memory implementation, on an arena whose array of slots has `mem_count`
entries, with `mem_count` at most `2 ^ 31` (the index of a chunk is kept in an
`int`) and a region `[base_addr, base_addr + mem_count * mem_size)` inside the
address space, and on a chunk as `calloc` returns it (`data` and `specific`
NULL):
* when every slot is used, or when `calloc` of the record of the index fails,
  `mbuf_mem_shm_alloc` returns `-ENOMEM` and changes nothing;
* when `i` is the lowest index of an unused slot and `calloc` succeeds, it
  returns 0, marks the slot `i` used and no other, and sets `data` to
  `base_addr + i * mem_size`, `size` to `mem_size` and the cookie;
  `mbuf_mem_shm_get_index` of the chunk is `i`;
* so it returns `-ENOMEM` if and only if every slot is used or `calloc`
  fails;
* `mbuf_mem_shm_free` on a chunk of the implementation with index `i` marks
  the slot `i` unused, leaves the other slots as they are and resets `data`
  and `specific`;
* in every arena reached from one without used slot by calls of the `alloc`
  hook on new chunks and of the `free` hook on live chunks, two different live
  chunks have different indices and their regions do not overlap. -/
theorem mbuf_mem_shm_slots_spec :
    (∀ (mem : shm_mem) (impl : impl_shm_specific),
      mem.specific = none → mem.data = 0 → impl.slots.length = impl.mem_count →
      impl.mem_count ≤ 2 ^ 31 → impl.base_addr + impl.mem_count * impl.mem_size < 2 ^ 64 →
      ((∀ j, j < impl.mem_count → impl.slots.get? j = some true) →
        ∀ calloc_ok, mbuf_mem_shm_alloc calloc_ok mem (some impl) =
          some (-ENOMEM, mem, some impl)) ∧
      mbuf_mem_shm_alloc false mem (some impl) = some (-ENOMEM, mem, some impl) ∧
      (∀ i, i < impl.mem_count → impl.slots.get? i = some false →
        (∀ j, j < i → impl.slots.get? j = some true) →
        mbuf_mem_shm_alloc true mem (some impl) =
          some (0,
            { data := impl.base_addr + i * impl.mem_size, size := impl.mem_size,
              cookie := mbuf_mem_shm_cookie, specific := some (i : Int) },
            some { impl with slots := impl.slots.set i true }) ∧
        mbuf_mem_shm_get_index
          (some { data := impl.base_addr + i * impl.mem_size, size := impl.mem_size,
                  cookie := mbuf_mem_shm_cookie, specific := some (i : Int) }) = (i : Int) ∧
        (impl.slots.set i true).get? i = some true ∧
        (∀ j, j ≠ i → (impl.slots.set i true).get? j = impl.slots.get? j)) ∧
      (∀ calloc_ok,
        (mbuf_mem_shm_alloc calloc_ok mem (some impl)).map (fun r => r.1) = some (-ENOMEM) ↔
          (calloc_ok = false ∨ ∀ j, j < impl.mem_count → impl.slots.get? j = some true))) ∧
    (∀ (mem : shm_mem) (impl : impl_shm_specific) (i : Nat),
      mem.cookie = mbuf_mem_shm_cookie → mem.specific = some (i : Int) →
      i < impl.slots.length →
      mbuf_mem_shm_free mem (some impl) =
        some ({ mem with specific := none, data := 0 },
          some { impl with slots := impl.slots.set i false }) ∧
      (impl.slots.set i false).get? i = some false ∧
      (∀ j, j ≠ i → (impl.slots.set i false).get? j = impl.slots.get? j)) ∧
    (∀ (impl0 impl : impl_shm_specific) (chunks : List shm_mem),
      impl0.mem_count ≤ 2 ^ 31 →
      impl0.base_addr + impl0.mem_count * impl0.mem_size < 2 ^ 64 →
      shm_reach impl0 impl chunks →
      chunks.Nodup ∧
      ∀ m1 ∈ chunks, ∀ m2 ∈ chunks, m1 ≠ m2 →
        mbuf_mem_shm_get_index (some m1) ≠ mbuf_mem_shm_get_index (some m2) ∧
        0 ≤ mbuf_mem_shm_get_index (some m1) ∧
        mbuf_mem_shm_get_index (some m1) < (impl.mem_count : Int) ∧
        (m1.data + m1.size ≤ m2.data ∨ m2.data + m2.size ≤ m1.data)) ∧
    ((mbuf_mem_shm_alloc true (shm_mem_new 256) (some demo_arena)).map
        (fun r => (r.1, r.2.1, r.2.2.map (fun a => a.slots),
          mbuf_mem_shm_get_index (some r.2.1))) =
      some (0, { data := 65536 + 2 * 256, size := 256, cookie := mbuf_mem_shm_cookie,
                 specific := some 2 },
        some [true, true, true, false], 2)) := by
  refine ⟨?_, ?_, ?_, by decide⟩
  · intro mem impl h1 h2 hlen hcount haddr
    refine ⟨?_, mbuf_mem_shm_alloc_calloc_fails mem impl h1 h2 hlen, ?_, ?_⟩
    · intro hfull calloc_ok
      exact mbuf_mem_shm_alloc_full calloc_ok mem impl h1 h2 hlen hfull
    · intro i hi hfree hlow
      have hil : i < impl.slots.length := by omega
      refine ⟨mbuf_mem_shm_alloc_slot mem impl i h1 h2 hlen hcount haddr hi hfree hlow, ?_,
        ?_, ?_⟩
      · simp [mbuf_mem_shm_get_index]
      · simp only [List.get?_eq_getElem?, List.getElem?_set_self hil]
      · intro j hj
        simp only [List.get?_eq_getElem?, List.getElem?_set_ne (Ne.symm hj)]
    · intro calloc_ok
      cases calloc_ok with
      | false =>
        rw [mbuf_mem_shm_alloc_calloc_fails mem impl h1 h2 hlen]
        exact ⟨fun _ => Or.inl rfl, fun _ => rfl⟩
      | true =>
        constructor
        · intro hret
          rcases shm_find_slot_spec impl.slots impl.mem_count 0 (by omega) with
            ⟨k, hk, hf, hl, -⟩ | ⟨hall, -⟩
          · rw [mbuf_mem_shm_alloc_slot mem impl k h1 h2 hlen hcount haddr hk hf hl] at hret
            simp only [Option.map_some', Option.some.injEq] at hret
            exact absurd hret (by decide)
          · exact Or.inr hall
        · intro hfull
          rcases hfull with hf | hfull
          · exact absurd hf (by decide)
          · rw [mbuf_mem_shm_alloc_full true mem impl h1 h2 hlen hfull]
            rfl
  · intro mem impl i hc hs hi
    refine ⟨mbuf_mem_shm_free_slot mem impl i hc hs hi, ?_, ?_⟩
    · simp only [List.get?_eq_getElem?, List.getElem?_set_self hi]
    · intro j hj
      simp only [List.get?_eq_getElem?, List.getElem?_set_ne (Ne.symm hj)]
  · intro impl0 impl chunks hcount haddr hr
    obtain ⟨hb, hsz, hc, hlen, hch, hnd⟩ := shm_reach_inv hcount haddr hr
    refine ⟨List.Nodup.of_map _ hnd, ?_⟩
    intro m1 hm1 m2 hm2 hne
    obtain ⟨i, h1, h2, -, h4, h5, h6⟩ := hch m1 hm1
    obtain ⟨j, g1, g2, -, g4, g5, g6⟩ := hch m2 hm2
    have hij : i ≠ j := by
      intro e
      apply hne
      apply List.inj_on_of_nodup_map hnd hm1 hm2
      rw [h1, g1, e]
    have hx1 : mbuf_mem_shm_get_index (some m1) = (i : Int) := by
      simp [mbuf_mem_shm_get_index, h1, h6]
    have hx2 : mbuf_mem_shm_get_index (some m2) = (j : Int) := by
      simp [mbuf_mem_shm_get_index, g1, g6]
    rw [hx1, hx2, h4, h5, g4, g5]
    refine ⟨by omega, by omega, by omega, ?_⟩
    rcases Nat.lt_or_gt_of_ne hij with h | h
    · left
      have : (i + 1) * impl.mem_size ≤ j * impl.mem_size := Nat.mul_le_mul_right _ h
      rw [Nat.succ_mul] at this
      omega
    · right
      have : (j + 1) * impl.mem_size ≤ i * impl.mem_size := Nat.mul_le_mul_right _ h
      rw [Nat.succ_mul] at this
      omega

/-- C33, where the claim fails.  In the arena `demo_arena` the slots 2 and 3
are unused: when `calloc` of the record of the index fails,
`mbuf_mem_shm_alloc` returns `-ENOMEM` and changes nothing.  In an arena of
`2 ^ 31 + 1` slots of one byte mapped at `2 ^ 32`, all used but the last, the
hook returns 0 for the slot `2 ^ 31`, whose index does not fit in an `int`:
`mbuf_mem_shm_get_index` of the chunk is `INT_MIN`, and its data is at
`2 ^ 31`, below the region, not at `2 ^ 32 + 2 ^ 31`.  On a chunk whose data
pointer is not NULL the hook returns `-EINVAL`, also when every slot is
used. -/
theorem mbuf_mem_shm_alloc_fails_with_free_slot :
    demo_arena.slots.get? 2 = some false ∧
    mbuf_mem_shm_alloc false (shm_mem_new 256) (some demo_arena) =
      some (-ENOMEM, shm_mem_new 256, some demo_arena) ∧
    (mbuf_mem_shm_alloc true (shm_mem_new 1)
        (some { base_addr := 2 ^ 32, mem_size := 1, mem_count := 2 ^ 31 + 1,
                slots := List.replicate (2 ^ 31) true ++ [false] })).map
        (fun r => (r.1, r.2.1.data, mbuf_mem_shm_get_index (some r.2.1))) =
      some (0, 2 ^ 31, INT_MIN) ∧
    (2 ^ 32 + 2 ^ 31 * 1 ≠ 2 ^ 31 ∧ INT_MIN ≠ 2 ^ 31) ∧
    mbuf_mem_shm_alloc true { shm_mem_new 256 with data := 4096 }
        (some { demo_arena with slots := [true, true, true, true] }) =
      some (-EINVAL, { shm_mem_new 256 with data := 4096 },
        some { demo_arena with slots := [true, true, true, true] }) := by
  refine ⟨by decide, by decide, ?_, ⟨by decide, by decide⟩, by decide⟩
  have h := mbuf_mem_shm_alloc_last (shm_mem_new 1) (2 ^ 32) 1 (2 ^ 31) rfl rfl
  have hw : wrap_int (((2 ^ 31 : Nat) : Int)) = INT_MIN := by decide
  have hd : wrap_size (2 ^ 32 + wrap_size (size_of_int INT_MIN * 1)) = 2 ^ 31 := by decide
  rw [hw, hd] at h
  exact h

/-! ### Keys of ancillary data -/

theorem takeWhile_ne_append (d : Char) (name rest : List Char) (h : ∀ c ∈ name, c ≠ d) :
    (name ++ d :: rest).takeWhile (fun x => x != d) = name := by
  induction name with
  | nil => simp
  | cons a l ih =>
    have ha : a ≠ d := h a (List.mem_cons_self _ _)
    have hl : ∀ c ∈ l, c ≠ d := fun c hc => h c (List.mem_cons_of_mem _ hc)
    simp [List.takeWhile_cons, ha, ih hl]

theorem dropWhile_ne_append (d : Char) (name rest : List Char) (h : ∀ c ∈ name, c ≠ d) :
    (name ++ d :: rest).dropWhile (fun x => x != d) = d :: rest := by
  induction name with
  | nil => simp
  | cons a l ih =>
    have ha : a ≠ d := h a (List.mem_cons_self _ _)
    have hl : ∀ c ∈ l, c ≠ d := fun c hc => h c (List.mem_cons_of_mem _ hc)
    simp [List.dropWhile_cons, ha, ih hl]

theorem takeWhile_ne_all (d : Char) (name : List Char) (h : ∀ c ∈ name, c ≠ d) :
    name.takeWhile (fun x => x != d) = name := by
  induction name with
  | nil => simp
  | cons a l ih =>
    have ha : a ≠ d := h a (List.mem_cons_self _ _)
    have hl : ∀ c ∈ l, c ≠ d := fun c hc => h c (List.mem_cons_of_mem _ hc)
    simp [List.takeWhile_cons, ha, ih hl]

theorem dropWhile_ne_all (d : Char) (name : List Char) (h : ∀ c ∈ name, c ≠ d) :
    name.dropWhile (fun x => x != d) = [] := by
  induction name with
  | nil => simp
  | cons a l ih =>
    have ha : a ≠ d := h a (List.mem_cons_self _ _)
    have hl : ∀ c ∈ l, c ≠ d := fun c hc => h c (List.mem_cons_of_mem _ hc)
    simp [List.dropWhile_cons, ha, ih hl]

/-- The first token of a string that starts with a non-empty name free of the
delimiter and goes on with a delimiter: the name, the scan going on behind the
delimiter. -/
theorem strtok_r_token (d : Char) (name rest : List Char) (hne : name ≠ [])
    (h : ∀ c ∈ name, c ≠ d) :
    strtok_r d (name ++ d :: rest) = (some name, rest) := by
  cases name with
  | nil => exact absurd rfl hne
  | cons a l =>
    have ha : a ≠ d := h a (List.mem_cons_self _ _)
    have h1 : ((a :: l) ++ d :: rest).dropWhile (fun c => c == d) = a :: (l ++ d :: rest) := by
      simp [List.dropWhile_cons, ha]
    unfold strtok_r
    rw [h1]
    have h2 := takeWhile_ne_append d (a :: l) rest h
    have h3 := dropWhile_ne_append d (a :: l) rest h
    simp only [List.cons_append] at h2 h3
    simp only [h2, h3, List.drop_succ_cons, List.drop_zero]

/-- The only token of a non-empty string free of the delimiter: the string. -/
theorem strtok_r_whole (d : Char) (name : List Char) (hne : name ≠ [])
    (h : ∀ c ∈ name, c ≠ d) :
    strtok_r d name = (some name, []) := by
  cases name with
  | nil => exact absurd rfl hne
  | cons a l =>
    have ha : a ≠ d := h a (List.mem_cons_self _ _)
    have h1 : (a :: l).dropWhile (fun c => c == d) = a :: l := by
      simp [List.dropWhile_cons, ha]
    unfold strtok_r
    rw [h1]
    have h2 := takeWhile_ne_all d (a :: l) h
    have h3 := dropWhile_ne_all d (a :: l) h
    simp only [h2, h3, List.drop_nil]

/-- A string without a token: nothing but delimiters. -/
theorem strtok_r_nil (d : Char) : strtok_r d [] = (none, []) := rfl

/-- A run of digits is read to its end. -/
theorem scan_digits_all (b : Nat) (ds : List Char) (acc : Nat)
    (h : ∀ c ∈ ds, is_digit b c = true) :
    scan_digits b ds acc
      = (ds.foldl (fun a c => a * b + (digit_value c).getD 0) acc, []) := by
  induction ds generalizing acc with
  | nil => rfl
  | cons c l ih =>
    have hc := h c (List.mem_cons_self _ _)
    have hl : ∀ x ∈ l, is_digit b x = true := fun x hx => h x (List.mem_cons_of_mem _ hx)
    rw [scan_digits, if_pos hc, ih _ hl, List.foldl_cons]

/-- The function `strtoul` on `0x` followed by hexadecimal digits whose value
fits: the value, the whole string being read. -/
theorem strtoul_hex (e : Int) (ds : List Char) (hne : ds ≠ [])
    (h : ∀ c ∈ ds, is_digit 16 c = true) (hv : hex_value ds ≤ ULONG_MAX) :
    strtoul e ('0' :: 'x' :: ds) = (hex_value ds, [], 0) := by
  cases ds with
  | nil => exact absurd rfl hne
  | cons c l =>
    have hc := h c (List.mem_cons_self _ _)
    have h1 : ('0' :: 'x' :: c :: l).dropWhile isspace = '0' :: 'x' :: c :: l := by
      rw [List.dropWhile_cons]; rfl
    have h2 : strtoul_sign ('0' :: 'x' :: c :: l) = (false, '0' :: 'x' :: c :: l) := by
      unfold strtoul_sign
      dsimp only
      rw [if_neg (by decide), if_neg (by decide)]
    have h3 : strtoul_base ('0' :: 'x' :: c :: l) = (16, c :: l) := by
      unfold strtoul_base
      dsimp only
      rw [if_pos ⟨rfl, Or.inl rfl, hc⟩]
    have h4 := scan_digits_all 16 (c :: l) 0 h
    have hv2 : ¬ ((c :: l).foldl (fun a c => a * 16 + (digit_value c).getD 0) 0 > ULONG_MAX) :=
      Nat.not_lt.mpr hv
    unfold strtoul
    simp only [h1, h2, h3, hc, if_true, h4, if_neg hv2, Bool.false_eq_true, if_false]
    rfl

/-- A hexadecimal digit is not the delimiter of keys. -/
theorem is_digit_ne_colon (b : Nat) (c : Char) (h : is_digit b c = true) : c ≠ ':' := by
  intro hc
  rw [hc] at h
  unfold is_digit at h
  have : digit_value ':' = none := by decide
  rw [this] at h
  exact Bool.false_ne_true h

/-- The function `mbuf_ancillary_data_parse_key` on a key made of a non-empty
name, a `:` and a non-empty text free of `:`: the result follows from what
`strtoul` makes of the text. -/
theorem mbuf_ancillary_data_parse_key_two (env : key_env) (name s : List Char)
    (n0 : Option (List Char)) (p0 : Nat) (hk : env.strdup_key = true)
    (hne : name ≠ []) (hn : ∀ c ∈ name, c ≠ ':') (hse : s ≠ []) (hs : ∀ c ∈ s, c ≠ ':') :
    mbuf_ancillary_data_parse_key env (some (name ++ ':' :: s)) (some n0) (some p0)
      = if (strtoul env.noconv_errno s).2.1 ≠ [] ∨ (strtoul env.noconv_errno s).2.2 ≠ 0 then
          some (-(strtoul env.noconv_errno s).2.2, some none, some 0)
        else if !env.strdup_name then
          some (-ENOMEM, some none, some (strtoul env.noconv_errno s).1)
        else some (0, some (some name), some (strtoul env.noconv_errno s).1) := by
  unfold mbuf_ancillary_data_parse_key
  simp only [hk, Bool.not_true, Bool.false_eq_true, if_false,
    strtok_r_token ':' name s hne hn, strtok_r_whole ':' s hse hs, hse, false_or]

/-- The function `mbuf_ancillary_data_parse_key` on a non-empty key free of
`:`: the key is the name and the pointer value is 0. -/
theorem mbuf_ancillary_data_parse_key_one (env : key_env) (name : List Char)
    (n0 : Option (List Char)) (p0 : Nat) (hk : env.strdup_key = true)
    (hne : name ≠ []) (hn : ∀ c ∈ name, c ≠ ':') :
    mbuf_ancillary_data_parse_key env (some name) (some n0) (some p0)
      = if !env.strdup_name then some (-ENOMEM, some none, some 0)
        else some (0, some (some name), some 0) := by
  unfold mbuf_ancillary_data_parse_key
  simp only [hk, Bool.not_true, Bool.false_eq_true, if_false,
    strtok_r_whole ':' name hne hn, strtok_r_nil]

/-- C32. The function `mbuf_ancillary_data_parse_key` splits a key at its
first `:`.  With `strdup` succeeding: for a key made of a non-empty name, `:`,
`0x` and hexadecimal digits whose value fits in an unsigned long it returns 0
with `*name` the part before the `:` and `*ptr` the hexadecimal value; for a
non-empty key without `:` it returns 0 with `*name` the whole key and `*ptr`
0.  A NULL key or a NULL `name` output returns `-EINVAL` and stores nothing. -/
theorem mbuf_ancillary_data_parse_key_spec :
    (∀ (env : key_env) (name digits : List Char) (n0 : Option (List Char)) (p0 : Nat),
      env.strdup_key = true → env.strdup_name = true →
      name ≠ [] → (∀ c ∈ name, c ≠ ':') →
      digits ≠ [] → (∀ c ∈ digits, is_digit 16 c = true) → hex_value digits ≤ ULONG_MAX →
      mbuf_ancillary_data_parse_key env (some (name ++ ':' :: '0' :: 'x' :: digits))
          (some n0) (some p0)
        = some (0, some (some name), some (hex_value digits))) ∧
    (∀ (env : key_env) (key : List Char) (n0 : Option (List Char)) (p0 : Nat),
      env.strdup_key = true → env.strdup_name = true →
      key ≠ [] → (∀ c ∈ key, c ≠ ':') →
      mbuf_ancillary_data_parse_key env (some key) (some n0) (some p0)
        = some (0, some (some key), some 0)) ∧
    (∀ (env : key_env) (name : Option (Option (List Char))) (ptr : Option Nat),
      mbuf_ancillary_data_parse_key env none name ptr = some (-EINVAL, name, ptr)) ∧
    (∀ (env : key_env) (key : Option (List Char)) (ptr : Option Nat),
      mbuf_ancillary_data_parse_key env key none ptr = some (-EINVAL, none, ptr)) := by
  refine ⟨?_, ?_, ?_, ?_⟩
  · intro env name digits n0 p0 hk hn hne hname hde hd hv
    have hs : ∀ c ∈ '0' :: 'x' :: digits, c ≠ ':' := by
      intro c hc
      rcases List.mem_cons.mp hc with h | hc
      · rw [h]; decide
      · rcases List.mem_cons.mp hc with h | hc
        · rw [h]; decide
        · exact is_digit_ne_colon 16 c (hd c hc)
    rw [mbuf_ancillary_data_parse_key_two env name _ n0 p0 hk hne hname
      (List.cons_ne_nil _ _) hs, strtoul_hex env.noconv_errno digits hde hd hv]
    simp [hn]
  · intro env key n0 p0 hk hn hne hkey
    rw [mbuf_ancillary_data_parse_key_one env key n0 p0 hk hne hkey]
    simp [hn]
  · intro env name ptr
    rfl
  · intro env key ptr
    cases key <;> rfl

/-- C32, an instance: the key `com.parrot.key1:0x123` gives the name
`com.parrot.key1` and the value 0x123. -/
theorem mbuf_ancillary_data_parse_key_spec_witness :
    mbuf_ancillary_data_parse_key key_env_ok (some "com.parrot.key1:0x123".toList)
        (some none) (some 0)
      = some (0, some (some "com.parrot.key1".toList), some 0x123) :=
  mbuf_ancillary_data_parse_key_spec.1 key_env_ok "com.parrot.key1".toList "123".toList
    none 0 rfl rfl (by decide) (by decide) (by decide) (by decide) (by decide)

/-- C32, where the sentence fails.  The empty key contains no `:` and is
answered with `-EINVAL`; the key `:0x12`, whose part before the `:` is empty,
gives the name `0x12` and the value 0; the key `a:0x10000000000000000`, whose
value does not fit in an unsigned long, is answered with `-ERANGE`; and the
key `com.parrot.key1:0x123` is answered with `-ENOMEM` when `strdup` of the
key or `strdup` of the name fails. -/
theorem mbuf_ancillary_data_parse_key_edge :
    (∀ c ∈ ([] : List Char), c ≠ ':') ∧
    mbuf_ancillary_data_parse_key key_env_ok (some []) (some none) (some 0)
      = some (-EINVAL, some none, some 0) ∧
    mbuf_ancillary_data_parse_key key_env_ok (some []) (some none) (some 0)
      ≠ some (0, some (some []), some 0) ∧
    mbuf_ancillary_data_parse_key key_env_ok (some ([] ++ ':' :: '0' :: 'x' :: "12".toList))
        (some none) (some 0)
      = some (0, some (some "0x12".toList), some 0) ∧
    mbuf_ancillary_data_parse_key key_env_ok (some ([] ++ ':' :: '0' :: 'x' :: "12".toList))
        (some none) (some 0)
      ≠ some (0, some (some []), some (hex_value "12".toList)) ∧
    mbuf_ancillary_data_parse_key key_env_ok
        (some ("a".toList ++ ':' :: '0' :: 'x' :: "10000000000000000".toList))
        (some none) (some 0)
      = some (-ERANGE, some none, some 0) ∧
    mbuf_ancillary_data_parse_key key_env_ok
        (some ("a".toList ++ ':' :: '0' :: 'x' :: "10000000000000000".toList))
        (some none) (some 0)
      ≠ some (0, some (some "a".toList), some (hex_value "10000000000000000".toList)) ∧
    mbuf_ancillary_data_parse_key { key_env_ok with strdup_key := false }
        (some "com.parrot.key1:0x123".toList) (some none) (some 0)
      = some (-ENOMEM, some none, some 0) ∧
    mbuf_ancillary_data_parse_key { key_env_ok with strdup_name := false }
        (some "com.parrot.key1:0x123".toList) (some none) (some 0)
      = some (-ENOMEM, some none, some 0x123) := by
  refine ⟨by simp, by decide, by decide, by decide, by decide, by decide, by decide,
    by decide, by decide⟩

/-- C38. Building a key and parsing it again, every call of the C library
succeeding, for a non-empty name without `:`.  With the value 0 the key is the
name and parsing gives the name and 0.  With a value from 1 to 9 the key is the
name, `:` and the digit, and parsing gives the name and the value.  The key is
built with the hexadecimal digits alone while parsing takes a text without the
prefix `0x` as decimal: with the value 0x123 the key ends in `:123` and parsing
gives the value 123; with the value 16 the key ends in `:10` and parsing gives
10; with the value 0xabcdef the key ends in `:abcdef` and parsing gives no
name and the value 0, the return value being the negated `errno` that
`strtoul` leaves without a conversion. -/
theorem mbuf_ancillary_data_key_round_trip :
    (∀ (env : key_env) (name : List Char) (n0 : Option (List Char)) (p0 : Nat),
      env.strdup_key = true → env.strdup_name = true → env.asprintf_ok = true →
      name ≠ [] → (∀ c ∈ name, c ≠ ':') →
      mbuf_ancillary_data_build_key env (some name) 0 true = (0, some name) ∧
      mbuf_ancillary_data_parse_key env (some name) (some n0) (some p0)
        = some (0, some (some name), some 0)) ∧
    (∀ (env : key_env) (name : List Char) (n0 : Option (List Char)) (p0 p : Nat),
      env.strdup_key = true → env.strdup_name = true → env.asprintf_ok = true →
      name ≠ [] → (∀ c ∈ name, c ≠ ':') → 1 ≤ p → p ≤ 9 →
      mbuf_ancillary_data_build_key env (some name) p true
        = (0, some (name ++ ':' :: hex_string p)) ∧
      mbuf_ancillary_data_parse_key env (some (name ++ ':' :: hex_string p)) (some n0) (some p0)
        = some (0, some (some name), some p)) ∧
    (∀ (env : key_env) (name : List Char) (n0 : Option (List Char)) (p0 : Nat),
      env.strdup_key = true → env.strdup_name = true → env.asprintf_ok = true →
      name ≠ [] → (∀ c ∈ name, c ≠ ':') →
      mbuf_ancillary_data_build_key env (some name) 0x123 true
        = (0, some (name ++ ":123".toList)) ∧
      mbuf_ancillary_data_parse_key env (some (name ++ ":123".toList)) (some n0) (some p0)
        = some (0, some (some name), some 123) ∧
      mbuf_ancillary_data_build_key env (some name) 16 true
        = (0, some (name ++ ":10".toList)) ∧
      mbuf_ancillary_data_parse_key env (some (name ++ ":10".toList)) (some n0) (some p0)
        = some (0, some (some name), some 10) ∧
      mbuf_ancillary_data_build_key env (some name) 0xabcdef true
        = (0, some (name ++ ":abcdef".toList)) ∧
      mbuf_ancillary_data_parse_key env (some (name ++ ":abcdef".toList)) (some n0) (some p0)
        = some (-env.noconv_errno, some none, some 0)) ∧
    mbuf_ancillary_data_build_key key_env_ok (some "com.parrot.key1".toList) 0x123 true
      = (0, some "com.parrot.key1:123".toList) ∧
    mbuf_ancillary_data_parse_key key_env_ok (some "com.parrot.key1:123".toList)
        (some none) (some 0)
      = some (0, some (some "com.parrot.key1".toList), some 123) ∧
    mbuf_ancillary_data_build_key key_env_ok (some "com.parrot.some.long.key2".toList)
        0xabcdef true
      = (0, some "com.parrot.some.long.key2:abcdef".toList) ∧
    mbuf_ancillary_data_parse_key key_env_ok (some "com.parrot.some.long.key2:abcdef".toList)
        (some none) (some 0)
      = some (0, some none, some 0) := by
  have hbuild : ∀ (env : key_env) (name : List Char) (p : Nat), env.asprintf_ok = true →
      p ≠ 0 → mbuf_ancillary_data_build_key env (some name) p true
        = (0, some (name ++ ':' :: hex_string p)) := by
    intro env name p ha hp
    unfold mbuf_ancillary_data_build_key
    simp [hp, ha]
  have hparse : ∀ (env : key_env) (name s : List Char) (n0 : Option (List Char))
      (p0 v : Nat), env.strdup_key = true → env.strdup_name = true →
      name ≠ [] → (∀ c ∈ name, c ≠ ':') → s ≠ [] → (∀ c ∈ s, c ≠ ':') →
      strtoul env.noconv_errno s = (v, [], 0) →
      mbuf_ancillary_data_parse_key env (some (name ++ ':' :: s)) (some n0) (some p0)
        = some (0, some (some name), some v) := by
    intro env name s n0 p0 v hk hn hne hname hse hs hv
    rw [mbuf_ancillary_data_parse_key_two env name s n0 p0 hk hne hname hse hs, hv]
    simp [hn]
  refine ⟨?_, ?_, ?_, by decide, by decide, by decide, by decide⟩
  · intro env name n0 p0 hk hn _ hne hname
    refine ⟨?_, ?_⟩
    · unfold mbuf_ancillary_data_build_key
      simp [hk]
    · rw [mbuf_ancillary_data_parse_key_one env name n0 p0 hk hne hname]
      simp [hn]
  · intro env name n0 p0 p hk hn ha hne hname h1 h9
    refine ⟨hbuild env name p ha (by omega), ?_⟩
    interval_cases p
    all_goals
      exact hparse env name _ n0 p0 _ hk hn hne hname (by decide) (by decide) rfl
  · intro env name n0 p0 hk hn ha hne hname
    refine ⟨hbuild env name _ ha (by decide), ?_, hbuild env name _ ha (by decide), ?_,
      hbuild env name _ ha (by decide), ?_⟩
    · exact hparse env name "123".toList n0 p0 _ hk hn hne hname (by decide) (by decide) rfl
    · exact hparse env name "10".toList n0 p0 _ hk hn hne hname (by decide) (by decide) rfl
    · have h := mbuf_ancillary_data_parse_key_two env name "abcdef".toList n0 p0 hk hne hname
        (by decide) (by decide)
      have hv : strtoul env.noconv_errno "abcdef".toList
          = (0, "abcdef".toList, env.noconv_errno) := rfl
      rw [hv] at h
      rw [show name ++ ":abcdef".toList = name ++ ':' :: "abcdef".toList from rfl, h]
      simp

/-- C39. The errors of `mbuf_ancillary_data_parse_key`, for a key that is not
NULL, outputs that are not NULL and a successful copy of the key.  Whenever
`*name` is not NULL after the call, the return value is 0, `*name` is the text
before the first `:` and `*ptr` the value that `strtoul` gives for the text
after it, or 0 without such a text.  The error branch of the number returns
`-errno`: for a non-empty name and a text that `strtoul` does not read to its
end while leaving `errno` at 0, the function returns 0 with `*name` NULL and
`*ptr` 0.  So does the key `a:1z` with every C library, and the key `a:zz`
with a `strtoul` that leaves `errno` at 0 when it converts nothing; with one
that stores `EINVAL` the key `a:zz` gives `-EINVAL`.  The key `:0x12`, which
has no name part, returns 0 with the name `0x12` and the value 0.  The empty
key and the key `:` give `-EINVAL`, and a value that does not fit `-ERANGE`,
all three with `*name` NULL. -/
theorem mbuf_ancillary_data_parse_key_errors :
    (∀ (env : key_env) (key : List Char) (n0 : Option (List Char)) (p0 : Nat) (r : Int)
        (nm : Option (Option (List Char))) (p : Option Nat),
      env.strdup_key = true →
      mbuf_ancillary_data_parse_key env (some key) (some n0) (some p0) = some (r, nm, p) →
      nm ≠ some none →
      r = 0 ∧ (strtok_r ':' key).1 ≠ none ∧ nm = some (strtok_r ':' key).1 ∧
        p = some (match (strtok_r ':' (strtok_r ':' key).2).1 with
          | some s => (strtoul env.noconv_errno s).1
          | none => 0)) ∧
    (∀ (env : key_env) (name s : List Char) (n0 : Option (List Char)) (p0 : Nat),
      env.strdup_key = true → name ≠ [] → (∀ c ∈ name, c ≠ ':') →
      s ≠ [] → (∀ c ∈ s, c ≠ ':') →
      (strtoul env.noconv_errno s).2.1 ≠ [] → (strtoul env.noconv_errno s).2.2 = 0 →
      mbuf_ancillary_data_parse_key env (some (name ++ ':' :: s)) (some n0) (some p0)
        = some (0, some none, some 0)) ∧
    (∀ (env : key_env) (n0 : Option (List Char)) (p0 : Nat), env.strdup_key = true →
      mbuf_ancillary_data_parse_key env (some "a:1z".toList) (some n0) (some p0)
        = some (0, some none, some 0) ∧
      mbuf_ancillary_data_parse_key env (some "a:zz".toList) (some n0) (some p0)
        = some (-env.noconv_errno, some none, some 0)) ∧
    mbuf_ancillary_data_parse_key key_env_ok (some "a:zz".toList) (some none) (some 0)
      = some (0, some none, some 0) ∧
    mbuf_ancillary_data_parse_key { key_env_ok with noconv_errno := EINVAL }
        (some "a:zz".toList) (some none) (some 0)
      = some (-EINVAL, some none, some 0) ∧
    mbuf_ancillary_data_parse_key key_env_ok (some ":0x12".toList) (some none) (some 0)
      = some (0, some (some "0x12".toList), some 0) ∧
    mbuf_ancillary_data_parse_key key_env_ok (some []) (some none) (some 0)
      = some (-EINVAL, some none, some 0) ∧
    mbuf_ancillary_data_parse_key key_env_ok (some ":".toList) (some none) (some 0)
      = some (-EINVAL, some none, some 0) ∧
    mbuf_ancillary_data_parse_key key_env_ok (some "a:0x10000000000000000".toList)
        (some none) (some 0)
      = some (-ERANGE, some none, some 0) := by
  refine ⟨?_, ?_, ?_, by decide, by decide, by decide, by decide, by decide, by decide⟩
  · intro env key n0 p0 r nm p hk h hnm
    unfold mbuf_ancillary_data_parse_key at h
    simp only [hk, Bool.not_true, Bool.false_eq_true, if_false] at h
    cases h1 : (strtok_r ':' key).1 with
    | none =>
      rw [h1] at h
      simp only [Option.some.injEq, Prod.mk.injEq] at h
      exact absurd h.2.1.symm hnm
    | some _name =>
      rw [h1] at h
      cases h2 : (strtok_r ':' (strtok_r ':' key).2).1 with
      | none =>
        rw [h2] at h
        dsimp only at h
        split at h
        · simp only [Option.some.injEq, Prod.mk.injEq] at h
          exact absurd h.2.1.symm hnm
        · simp only [Option.some.injEq, Prod.mk.injEq] at h
          exact ⟨h.1.symm, by simp, h.2.1.symm, h.2.2.symm⟩
      | some s =>
        rw [h2] at h
        dsimp only at h
        split at h
        · simp only [Option.some.injEq, Prod.mk.injEq] at h
          exact absurd h.2.1.symm hnm
        · split at h
          · simp only [Option.some.injEq, Prod.mk.injEq] at h
            exact absurd h.2.1.symm hnm
          · simp only [Option.some.injEq, Prod.mk.injEq] at h
            exact ⟨h.1.symm, by simp, h.2.1.symm, h.2.2.symm⟩
  · intro env name s n0 p0 hk hne hname hse hs hend herr
    rw [mbuf_ancillary_data_parse_key_two env name s n0 p0 hk hne hname hse hs,
      if_pos (Or.inl hend), herr]
    rfl
  · intro env n0 p0 hk
    refine ⟨?_, ?_⟩
    · have h := mbuf_ancillary_data_parse_key_two env "a".toList "1z".toList n0 p0 hk
        (by decide) (by decide) (by decide) (by decide)
      have hv : strtoul env.noconv_errno "1z".toList = (1, "z".toList, 0) := rfl
      rw [hv] at h
      rw [show "a:1z".toList = "a".toList ++ ':' :: "1z".toList from rfl, h]
      simp
    · have h := mbuf_ancillary_data_parse_key_two env "a".toList "zz".toList n0 p0 hk
        (by decide) (by decide) (by decide) (by decide)
      have hv : strtoul env.noconv_errno "zz".toList
          = (0, "zz".toList, env.noconv_errno) := rfl
      rw [hv] at h
      rw [show "a:zz".toList = "a".toList ++ ':' :: "zz".toList from rfl, h]
      simp

end Mbuf
